import Mathlib

/-!
memsim: tables, replacement policies, tag stores and the component event engine

A shallow embedding of `src/Simulator` (Types.h, Table.h, Table*.h, GenericTagStore.h,
SetDuelingTagStore.h, MemoryComponent.h, MemorySimulator.h).

Conventions of the embedding.

* `uint32`/`uint64` values are natural numbers; where the C++ arithmetic can wrap the
  definition carries an explicit `% 2 ^ 32`.
* `key_t` and `value_t` are instantiated at natural numbers.
* A `T *` pointer into a vector of nodes allocated once by a constructor is the index of
  the node, `NULL` is `none`.
* A failed `assert`, an `exit`, a null dereference, an out-of-range vector read in a
  search loop and a loop that does not terminate are all `none`.
* Fields that a C++ constructor leaves uninitialised are `0`/`false`, except the hand of
  the NRU policy, which is a parameter of the constructor.
-/

namespace Memsim

/-! ## Types.h -/

/-- The modulus of `uint32` arithmetic. -/
def UINT32_MOD : Nat := 2 ^ 32

/-- `class saturating_counter` of Types.h: fields `_value` and `_max`. -/
structure saturating_counter where
  _value : Nat
  _max : Nat
deriving DecidableEq, Repr

namespace saturating_counter

/-- `saturating_counter(max, initial)`. -/
def new (max initial : Nat) : saturating_counter := ⟨initial, max⟩

/-- `set(value)`: `_value = value`. -/
def set (c : saturating_counter) (value : Nat) : saturating_counter :=
  { c with _value := value }

/-- `increment()`: `if (_value < _max) _value ++`. -/
def increment (c : saturating_counter) : saturating_counter :=
  if c._value < c._max then { c with _value := c._value + 1 } else c

/-- `decrement()`: `if (_value > 0) _value --`. -/
def decrement (c : saturating_counter) : saturating_counter :=
  if c._value > 0 then { c with _value := c._value - 1 } else c

end saturating_counter

/-- `class cyclic_pointer` of Types.h: fields `_hand` and `_size`. -/
structure cyclic_pointer where
  _hand : Nat
  _size : Nat
deriving DecidableEq, Repr

namespace cyclic_pointer

/-- `cyclic_pointer(size, initial)`. -/
def new (size initial : Nat) : cyclic_pointer := ⟨initial, size⟩

/-- `set(value)`: `_hand = value`. -/
def set (c : cyclic_pointer) (value : Nat) : cyclic_pointer :=
  { c with _hand := value }

/-- `increment()`: `_hand ++; if (_hand == _size) _hand = 0`. -/
def increment (c : cyclic_pointer) : cyclic_pointer :=
  let h := (c._hand + 1) % UINT32_MOD
  if h = c._size then { c with _hand := 0 } else { c with _hand := h }

/-- `decrement()`: `if (_hand == 0) _hand = _size - 1; else _hand --`. -/
def decrement (c : cyclic_pointer) : cyclic_pointer :=
  if c._hand = 0 then { c with _hand := (c._size + UINT32_MOD - 1) % UINT32_MOD }
  else { c with _hand := c._hand - 1 }

/-- `add(value)`: `_hand = (_hand + value) % _size`, the sum being a `uint32` sum. -/
def add (c : cyclic_pointer) (value : Nat) : cyclic_pointer :=
  { c with _hand := ((c._hand + value) % UINT32_MOD) % c._size }

end cyclic_pointer

/-! ## Table.h: entries, operations, priorities -/

/-- `enum policy_value_t`. -/
inductive policy_value_t where
  | POLICY_HIGH
  | POLICY_BIMODAL
  | POLICY_LOW
deriving DecidableEq, Repr

/-- The integer value of a `policy_value_t` (`POLICY_HIGH = 0`, `POLICY_BIMODAL = 1`,
`POLICY_LOW = 2`). -/
def policy_value_t.toNat : policy_value_t → Nat
  | .POLICY_HIGH => 0
  | .POLICY_BIMODAL => 1
  | .POLICY_LOW => 2

/-- `enum operation` of `table_t`. -/
inductive operation where
  | T_INSERT
  | T_REPLACE
  | T_READ
  | T_UPDATE
  | T_INVALIDATE
deriving DecidableEq, Repr

/-- `struct entry` of `table_t`. -/
structure entry where
  valid : Bool
  index : Nat
  key : Nat
  value : Nat
deriving DecidableEq, Repr

namespace entry

/-- `entry()`: only `valid` is set; the other fields are uninitialised (here `0`). -/
def empty : entry := ⟨false, 0, 0, 0⟩

/-- `entry(eindex)`: an invalid entry carrying a slot index. -/
def ofIndex (eindex : Nat) : entry := ⟨false, eindex, 0, 0⟩

/-- `entry(eindex, ekey, evalue)`: a valid entry. -/
def full (eindex ekey evalue : Nat) : entry := ⟨true, eindex, ekey, evalue⟩

end entry

/-! ## The intrusive doubly linked list of TableLRU.h and TableDIP.h -/

/-- `struct ListNode`: `prev`, `index`, `next`. -/
structure ListNode where
  prev : Option Nat
  index : Nat
  next : Option Nat
deriving DecidableEq, Repr

/-- The members `_nodes`, `_head`, `_tail` shared by `lru_table_t` and `dip_table_t`. -/
structure dlist where
  _nodes : List ListNode
  _head : Option Nat
  _tail : Option Nat
deriving DecidableEq, Repr

namespace dlist

/-- The constructor loop: `size` fresh nodes with `index = i` and null links. -/
def new (size : Nat) : dlist :=
  ⟨(List.range size).map (fun i => ⟨none, i, none⟩), none, none⟩

/-- `p -> next = v` for a node pointer `p`. -/
def setNext (nodes : List ListNode) (p : Nat) (v : Option Nat) : List ListNode :=
  nodes.modify (fun n => { n with next := v }) p

/-- `p -> prev = v` for a node pointer `p`. -/
def setPrev (nodes : List ListNode) (p : Nat) (v : Option Nat) : List ListNode :=
  nodes.modify (fun n => { n with prev := v }) p

/-- `_push_back(index)`. -/
def _push_back (d : dlist) (index : Nat) : Option dlist :=
  match d._head with
  | none =>
    if index < d._nodes.length then some { d with _head := some index, _tail := some index }
    else none
  | some _ =>
    match d._tail with
    | none => none
    | some t =>
      if t < d._nodes.length ∧ index < d._nodes.length then
        some { d with _nodes := setPrev (setNext d._nodes t (some index)) index (some t),
                      _tail := some index }
      else none

/-- `_push_front(index)` (TableDIP.h). -/
def _push_front (d : dlist) (index : Nat) : Option dlist :=
  match d._head with
  | none =>
    if index < d._nodes.length then some { d with _head := some index, _tail := some index }
    else none
  | some h =>
    if h < d._nodes.length ∧ index < d._nodes.length then
      some { d with _nodes := setNext (setPrev d._nodes h (some index)) index (some h),
                    _head := some index }
    else none

/-- `_pop_front()`: returns the index stored in the old head node. -/
def _pop_front (d : dlist) : Option (Nat × dlist) :=
  match d._head with
  | none => none
  | some h =>
    match d._nodes[h]? with
    | none => none
    | some node =>
      let nodes1 := match node.next with
        | some h1 => setPrev d._nodes h1 none
        | none => d._nodes
      let nodes2 := setNext (setPrev nodes1 h none) h none
      some (node.index, { d with _nodes := nodes2, _head := node.next })

/-- `_remove(index)`. -/
def _remove (d : dlist) (index : Nat) : Option dlist :=
  match d._nodes[index]? with
  | none => none
  | some node =>
    -- if (node -> prev != NULL) node -> prev -> next = node -> next;
    -- else _head = _head -> next;
    let d1 : Option dlist := match node.prev with
      | some p =>
        if p < d._nodes.length then some { d with _nodes := setNext d._nodes p node.next }
        else none
      | none =>
        match d._head with
        | none => none
        | some h => (d._nodes[h]?).map (fun hn => { d with _head := hn.next })
    match d1 with
    | none => none
    | some d1 =>
      match d1._nodes[index]? with
      | none => none
      | some node1 =>
        -- if (node -> next != NULL) node -> next -> prev = node -> prev;
        -- else _tail = _tail -> prev;
        let d2 : Option dlist := match node1.next with
          | some n =>
            if n < d1._nodes.length then
              some { d1 with _nodes := setPrev d1._nodes n node1.prev }
            else none
          | none =>
            match d1._tail with
            | none => none
            | some t => (d1._nodes[t]?).map (fun tn => { d1 with _tail := tn.prev })
        match d2 with
        | none => none
        | some d2 =>
          -- node -> next = node -> prev = NULL;
          some { d2 with _nodes := setPrev (setNext d2._nodes index none) index none }

/-- `_head -> index` behind `assert(_head != NULL)`. -/
def headIndex (d : dlist) : Option Nat :=
  match d._head with
  | none => none
  | some h => (d._nodes[h]?).map (fun n => n.index)

end dlist

/-! ## The replacement policies (Table*.h) -/

/-- `struct Generation` of TableGeneration.h. -/
structure Generation where
  generation : saturating_counter
  referenced : Bool
deriving DecidableEq, Repr

/-- The data members that each class derived from `table_t` adds, one constructor per
policy of PolicyList.h whose source is part of the development. -/
inductive policy_t where
  /-- `lru_table_t`: `_nodes`, `_head`, `_tail`. -/
  | lru (d : dlist)
  /-- `fifo_table_t`: `_queue`. -/
  | fifo (_queue : List Nat)
  /-- `reuse_table_t`: `_reuse`, `_hand`, `_max`. -/
  | reuse (_reuse : List Nat) (_hand : Nat) (_max : Nat)
  /-- `srrip_table_t`: `_rrpv` (`_max` is stored in the counters). -/
  | srrip (_rrpv : List saturating_counter)
  /-- `nru_table_t`: `_referenced`, `_hand`. -/
  | nru (_referenced : List Bool) (_hand : Nat)
  /-- `generation_table_t`: `_nodes`, `_hand`. -/
  | generation (_nodes : List Generation) (_hand : cyclic_pointer)
  /-- `dip_table_t`: the list members and `_bipCounter`. -/
  | dip (d : dlist) (_bipCounter : cyclic_pointer)
  /-- `drrip_table_t`: `_rrpv`, `_brripCounter`. -/
  | drrip (_rrpv : List saturating_counter) (_brripCounter : cyclic_pointer)
  /-- `minw_table_t`: no members. -/
  | minw
deriving DecidableEq, Repr

/-- The policy names of `SetTableParameters` (PolicyList.h) whose class is modelled. -/
inductive policy_name where
  | lru | fifo | reuse | srrip | nru | generation | dip | drrip | minw
deriving DecidableEq, Repr

/-- The derived-class part of the constructors. `nruHand` is the value found in the
uninitialised `_hand` of `nru_table_t`. -/
def policy_t.new (p : policy_name) (size nruHand : Nat) : policy_t :=
  match p with
  | .lru => .lru (dlist.new size)
  | .fifo => .fifo []
  | .reuse => .reuse (List.replicate size 0) 0 3
  | .srrip => .srrip (List.replicate size (saturating_counter.new 7 0))
  | .nru => .nru (List.replicate size false) nruHand
  | .generation =>
    .generation (List.replicate size ⟨saturating_counter.new 3 0, false⟩)
      (cyclic_pointer.new size 0)
  | .dip => .dip (dlist.new size) (cyclic_pointer.new 64 0)
  | .drrip => .drrip (List.replicate size (saturating_counter.new 7 0))
      (cyclic_pointer.new 67 0)
  | .minw => .minw

/-- `_hand = index + 1; if (_hand == _size) _hand = 0` of TableReuse.h. -/
def reuse_next (index size : Nat) : Nat :=
  if (index + 1) % UINT32_MOD = size then 0 else (index + 1) % UINT32_MOD

/-- The DRRIP promotion `switch (pval)` on a read or update. The `POLICY_LOW` case has
no `break` and falls through into the `POLICY_BIMODAL` case. -/
def drrip_promote (c : saturating_counter) (brrip : cyclic_pointer) :
    policy_value_t → saturating_counter
  | .POLICY_HIGH => c.increment
  | .POLICY_LOW =>
    if brrip._hand ≠ 0 then (c.set 0).set 0 else (c.set 0).increment
  | .POLICY_BIMODAL =>
    if brrip._hand ≠ 0 then c.set 0 else c.increment

/-- The DRRIP insertion `switch (pval)` on an insert or replace, with the same
fall-through. -/
def drrip_insert (c : saturating_counter) (brrip : cyclic_pointer) :
    policy_value_t → saturating_counter
  | .POLICY_HIGH => c.set 1
  | .POLICY_LOW =>
    if brrip._hand ≠ 0 then (c.set 0).set 0 else (c.set 0).set 1
  | .POLICY_BIMODAL =>
    if brrip._hand ≠ 0 then c.set 0 else c.set 1

/-- The final `switch (pval)` of `dip_table_t::UpdateReplacementPolicy`. -/
def dip_place (d : dlist) (bip : cyclic_pointer) (index : Nat) :
    policy_value_t → Option dlist
  | .POLICY_HIGH => d._push_back index
  | .POLICY_LOW => d._push_front index
  | .POLICY_BIMODAL => if bip._hand ≠ 0 then d._push_front index else d._push_back index

/-- `UpdateReplacementPolicy(index, op, pval)` of every derived class; `size` is the
inherited member `_size`. -/
def UpdateReplacementPolicy (p : policy_t) (size index : Nat) (op : operation)
    (pval : policy_value_t) : Option policy_t :=
  match p with
  | .lru d =>
    match op with
    | .T_INSERT => (d._push_back index).map .lru
    | .T_READ => ((d._remove index).bind (fun d1 => d1._push_back index)).map .lru
    | .T_UPDATE => ((d._remove index).bind (fun d1 => d1._push_back index)).map .lru
    | .T_REPLACE => (d._pop_front.bind (fun r => r.2._push_back index)).map .lru
    | .T_INVALIDATE => (d._remove index).map .lru
  | .fifo q =>
    match op with
    | .T_INSERT => some (.fifo (q ++ [index]))
    | .T_READ => some (.fifo q)
    | .T_UPDATE => some (.fifo q)
    | .T_REPLACE =>
      match q with
      | [] => none
      | _ :: rest => some (.fifo (rest ++ [index]))
    | .T_INVALIDATE => some (.fifo q)
  | .reuse r hand mx =>
    match op with
    | .T_INSERT => some (.reuse (r.set index 0) (reuse_next index size) mx)
    | .T_READ => some (.reuse (r.modify (fun x => if x ≠ mx then x + 1 else x) index) hand mx)
    | .T_UPDATE => some (.reuse (r.modify (fun x => if x ≠ mx then x + 1 else x) index) hand mx)
    | .T_REPLACE => some (.reuse (r.set index 0) (reuse_next index size) mx)
    | .T_INVALIDATE => some (.reuse (r.set index 0) hand mx)
  | .srrip rrpv =>
    match op with
    | .T_INSERT => some (.srrip (rrpv.modify (fun c => c.set 1) index))
    | .T_READ => some (.srrip (rrpv.modify (fun c => c.increment) index))
    | .T_UPDATE => some (.srrip (rrpv.modify (fun c => c.increment) index))
    | .T_REPLACE => some (.srrip (rrpv.modify (fun c => c.set 1) index))
    | .T_INVALIDATE => some (.srrip (rrpv.modify (fun c => c.set 0) index))
  | .nru ref hand =>
    match op with
    | .T_INSERT => some (.nru (ref.set index true) hand)
    | .T_READ => some (.nru (ref.set index true) hand)
    | .T_UPDATE => some (.nru (ref.set index true) hand)
    | .T_REPLACE => some (.nru (ref.set index true) hand)
    | .T_INVALIDATE => some (.nru (ref.set index false) hand)
  | .generation nodes hand =>
    match op with
    | .T_INSERT =>
      some (.generation (nodes.modify (fun g => ⟨g.generation.set pval.toNat, false⟩) index) hand)
    | .T_READ =>
      some (.generation (nodes.modify (fun g => { g with referenced := true }) index) hand)
    | .T_UPDATE =>
      some (.generation (nodes.modify (fun g => { g with referenced := true }) index) hand)
    | .T_REPLACE =>
      some (.generation (nodes.modify (fun g => ⟨g.generation.set pval.toNat, false⟩) index) hand)
    | .T_INVALIDATE =>
      some (.generation (nodes.modify (fun g => ⟨g.generation.set 0, false⟩) index) hand)
  | .dip d bip =>
    match op with
    | .T_INVALIDATE => (d._remove index).map (fun d1 => .dip d1 bip)
    | .T_READ =>
      ((d._remove index).bind (fun d1 => dip_place d1 bip index pval)).map (fun d2 => .dip d2 bip)
    | .T_UPDATE =>
      ((d._remove index).bind (fun d1 => dip_place d1 bip index pval)).map (fun d2 => .dip d2 bip)
    | .T_REPLACE =>
      (d._pop_front.bind (fun r => dip_place r.2 bip index pval)).map (fun d2 => .dip d2 bip)
    | .T_INSERT => (dip_place d bip index pval).map (fun d2 => .dip d2 bip)
  | .drrip rrpv brrip =>
    match op with
    | .T_INVALIDATE => some (.drrip rrpv brrip)
    | .T_READ => some (.drrip (rrpv.modify (fun c => drrip_promote c brrip pval) index) brrip)
    | .T_UPDATE => some (.drrip (rrpv.modify (fun c => drrip_promote c brrip pval) index) brrip)
    | .T_INSERT => some (.drrip (rrpv.modify (fun c => drrip_insert c brrip pval) index) brrip)
    | .T_REPLACE => some (.drrip (rrpv.modify (fun c => drrip_insert c brrip pval) index) brrip)
  | .minw => some .minw

/-- The first `for` loop of the RRIP victim search: the least `i` with `_rrpv[i] == 0`. -/
def rrip_scan : List saturating_counter → Option Nat
  | [] => none
  | c :: rest => if c._value = 0 then some 0 else (rrip_scan rest).map (fun i => i + 1)

/-- The `while (1)` loop of `srrip_table_t::GetReplacementIndex` and
`drrip_table_t::GetReplacementIndex`, run for at most `fuel` rounds. -/
def rrip_loop : Nat → List saturating_counter → Option (Nat × List saturating_counter)
  | 0, _ => none
  | fuel + 1, rrpv =>
    match rrip_scan rrpv with
    | some i => some (i, rrpv)
    | none => rrip_loop fuel (rrpv.map (fun c => c.decrement))

/-- A number of rounds after which every counter has been aged down to zero. -/
def rrip_fuel (rrpv : List saturating_counter) : Nat :=
  (rrpv.map (fun c => c._value)).foldr max 0 + 1

/-- The `while` loop of `nru_table_t::GetReplacementIndex`, at most `fuel` iterations. -/
def nru_loop : Nat → List Bool → Nat → Nat → Option (Nat × List Bool)
  | 0, _, _, _ => none
  | fuel + 1, ref, hand, size =>
    match ref[hand]? with
    | none => none
    | some true =>
      nru_loop fuel (ref.set hand false)
        (if (hand + 1) % UINT32_MOD = size then 0 else (hand + 1) % UINT32_MOD) size
    | some false => some (hand, ref)

/-- The `while` loop of `reuse_table_t::GetReplacementIndex`, at most `fuel` iterations. -/
def reuse_loop : Nat → List Nat → Nat → Nat → Option (Nat × List Nat)
  | 0, _, _, _ => none
  | fuel + 1, r, hand, size =>
    match r[hand]? with
    | none => none
    | some x =>
      if x ≠ 0 then
        reuse_loop fuel (r.set hand (x - 1))
          (if (hand + 1) % UINT32_MOD = size then 0 else (hand + 1) % UINT32_MOD) size
      else some (hand, r)

/-- One visit of the generation sweep to a slot that is not the victim. -/
def Generation.sweep (g : Generation) : Generation :=
  if g.referenced then ⟨g.generation.increment, false⟩
  else { g with generation := g.generation.decrement }

/-- The `while` loop of `generation_table_t::GetReplacementIndex`, at most `fuel`
iterations; `tbl` is the inherited `_table`. -/
def generation_loop : Nat → List Generation → cyclic_pointer → List entry →
    Option (cyclic_pointer × List Generation)
  | 0, _, _, _ => none
  | fuel + 1, nodes, hand, tbl =>
    match nodes[hand._hand]?, tbl[hand._hand]? with
    | some g, some e =>
      if g.generation._value = 0 ∧ g.referenced = false ∧ e.valid = true then
        some (hand, nodes)
      else
        generation_loop fuel (nodes.set hand._hand g.sweep) hand.increment tbl
    | _, _ => none

/-- The number of sweep steps a slot can still absorb before it reads generation 0 and
not referenced. -/
def Generation.weight (g : Generation) : Nat :=
  if g.referenced then g.generation.increment._value + 1 else g.generation._value

/-- An iteration bound for the generation sweep: a valid slot is visited once in every
round of `nodes.length` iterations and stops the sweep once its weight is used up. -/
def generation_fuel (nodes : List Generation) : Nat :=
  ((nodes.map Generation.weight).sum + 1) * nodes.length + 1

/-- `GetReplacementIndex()` of every derived class: the victim index and the policy
members after the search. `size` and `tbl` are the inherited `_size` and `_table`. -/
def GetReplacementIndex (p : policy_t) (size : Nat) (tbl : List entry) :
    Option (Nat × policy_t) :=
  match p with
  | .lru d => d.headIndex.map (fun i => (i, .lru d))
  | .fifo q =>
    match q with
    | [] => none
    | i :: _ => some (i, .fifo q)
  | .reuse r hand mx =>
    (reuse_loop (r.sum + 1) r hand size).map (fun res => (res.1, .reuse res.2 res.1 mx))
  | .srrip rrpv =>
    (rrip_loop (rrip_fuel rrpv) rrpv).map (fun res => (res.1, .srrip res.2))
  | .nru ref hand =>
    (nru_loop (ref.length + 1) ref hand size).map (fun res => (res.1, .nru res.2 res.1))
  | .generation nodes hand =>
    (generation_loop (generation_fuel nodes) nodes hand tbl).map
      (fun res => (res.1._hand, .generation res.2 res.1))
  | .dip d bip => d.headIndex.map (fun i => (i, .dip d bip.increment))
  | .drrip rrpv brrip =>
    (rrip_loop (rrip_fuel rrpv) rrpv).map (fun res => (res.1, .drrip res.2 brrip.increment))
  | .minw => some (0, .minw)

/-! ## Table.h: `table_t` -/

/-- `map <key_t, uint32>::find`: the index stored for `key`, if any. -/
def map_find (m : List (Nat × Nat)) (key : Nat) : Option Nat := m.lookup key

/-- `map::insert(make_pair(key, index))`: no effect when `key` is already mapped. -/
def map_insert (m : List (Nat × Nat)) (key index : Nat) : List (Nat × Nat) :=
  match m.lookup key with
  | some _ => m
  | none => m ++ [(key, index)]

/-- `map::erase(key)`. -/
def map_erase (m : List (Nat × Nat)) (key : Nat) : List (Nat × Nat) :=
  m.filter (fun kv => kv.1 != key)

/-- The data members of `table_t` together with those of the derived policy class.
`_indexIsKey` is set to `false` by the only constructor and assigned nowhere else in the
repository, so the operations below are the `!_indexIsKey` branches of the source. -/
structure table_t where
  _table : List entry
  _size : Nat
  _keyIndex : List (Nat × Nat)
  _freeList : List Nat
  policy : policy_t
deriving DecidableEq, Repr

namespace table_t

/-- `table_t(size)` followed by the constructor of the derived class `p`. -/
def new (p : policy_name) (size nruHand : Nat) : table_t :=
  { _table := List.replicate size entry.empty
    _size := size
    _keyIndex := []
    _freeList := List.range size
    policy := policy_t.new p size nruHand }

/-- `GetFreeEntry()`: the front of the free list, popped, or `_size`. -/
def GetFreeEntry (t : table_t) : Nat × table_t :=
  match t._freeList with
  | index :: rest => (index, { t with _freeList := rest })
  | [] => (t._size, t)

/-- `SearchForKey(key)`: the mapped index, or `_size`. -/
def SearchForKey (t : table_t) (key : Nat) : Nat :=
  match map_find t._keyIndex key with
  | some index => index
  | none => t._size

/-- `InsertEntry(e)`. -/
def InsertEntry (t : table_t) (e : entry) : table_t :=
  { t with _keyIndex := map_insert t._keyIndex e.key e.index
           _table := t._table.set e.index e }

/-- `ReplaceEntry(e1, e2)`: replace `e1` with `e2`. -/
def ReplaceEntry (t : table_t) (e1 e2 : entry) : table_t :=
  let e2 := { e2 with index := e1.index }
  { t with _keyIndex := map_insert (map_erase t._keyIndex e1.key) e2.key e1.index
           _table := t._table.set e2.index e2 }

/-- `InvalidateEntry(e)`. -/
def InvalidateEntry (t : table_t) (e : entry) : table_t :=
  { t with _keyIndex := map_erase t._keyIndex e.key
           _table := t._table.modify (fun x => { x with valid := false }) e.index
           _freeList := t._freeList ++ [e.index] }

/-- `count()`: `_size - _freeList.size()` returned as a `uint32`. -/
def count (t : table_t) : Nat :=
  (t._size + UINT32_MOD - t._freeList.length % UINT32_MOD) % UINT32_MOD

/-- `lookup(key)`. -/
def lookup (t : table_t) (key : Nat) : Bool :=
  if t.SearchForKey key ≠ t._size then true else false

/-- `insert(key, value, pval)`. -/
def insert (t : table_t) (key value : Nat) (pval : policy_value_t) :
    Option (entry × table_t) :=
  -- check if the key is already present
  if t.SearchForKey key ≠ t._size then
    (t._table[t.SearchForKey key]?).map (fun e => (e, t))
  else
    -- check if there is a free slot
    let (index, t1) := t.GetFreeEntry
    if index ≠ t1._size then
      (UpdateReplacementPolicy t1.policy t1._size index .T_INSERT pval).map (fun p =>
        (entry.ofIndex index,
          ({ t1 with policy := p }).InsertEntry (entry.full index key value)))
    else
      -- get a replacement index
      (GetReplacementIndex t1.policy t1._size t1._table).bind (fun r =>
        (UpdateReplacementPolicy r.2 t1._size r.1 .T_REPLACE pval).bind (fun p =>
          (t1._table[r.1]?).map (fun evicted =>
            (evicted,
              ({ t1 with policy := p }).ReplaceEntry evicted (entry.full r.1 key value)))))

/-- `read(key, pval)`. -/
def read (t : table_t) (key : Nat) (pval : policy_value_t) : Option (entry × table_t) :=
  if t.SearchForKey key = t._size then some (entry.empty, t)
  else
    (UpdateReplacementPolicy t.policy t._size (t.SearchForKey key) .T_READ pval).bind
      (fun p => (t._table[t.SearchForKey key]?).map (fun e => (e, { t with policy := p })))

/-- `update(key, value, pval)`. -/
def update (t : table_t) (key value : Nat) (pval : policy_value_t) :
    Option (entry × table_t) :=
  if t.SearchForKey key = t._size then some (entry.empty, t)
  else
    let tbl := t._table.modify (fun x => { x with value := value }) (t.SearchForKey key)
    (UpdateReplacementPolicy t.policy t._size (t.SearchForKey key) .T_UPDATE pval).bind
      (fun p => (tbl[t.SearchForKey key]?).map (fun e =>
        (e, { t with _table := tbl, policy := p })))

/-- `silentupdate(key, pval)`. -/
def silentupdate (t : table_t) (key : Nat) (pval : policy_value_t) :
    Option (entry × table_t) :=
  if t.SearchForKey key = t._size then some (entry.empty, t)
  else
    (UpdateReplacementPolicy t.policy t._size (t.SearchForKey key) .T_UPDATE pval).bind
      (fun p => (t._table[t.SearchForKey key]?).map (fun e => (e, { t with policy := p })))

/-- `invalidate(key)`. -/
def invalidate (t : table_t) (key : Nat) : Option (entry × table_t) :=
  if t.SearchForKey key = t._size then some (entry.empty, t)
  else
    (UpdateReplacementPolicy t.policy t._size (t.SearchForKey key) .T_INVALIDATE
        .POLICY_HIGH).bind
      (fun p => (t._table[t.SearchForKey key]?).map (fun evicted =>
        (evicted, ({ t with policy := p }).InvalidateEntry evicted)))

/-- `to_be_evicted()`: the key in the slot returned by `GetReplacementIndex()`, and the
table after that call. -/
def to_be_evicted (t : table_t) : Option (Nat × table_t) :=
  (GetReplacementIndex t.policy t._size t._table).bind (fun r =>
    (t._table[r.1]?).map (fun e => (e.key, { t with policy := r.2 })))

/-- `get(key)`. -/
def get (t : table_t) (key : Nat) : Option entry :=
  if t.SearchForKey key ≠ t._size then t._table[t.SearchForKey key]?
  else some entry.empty

end table_t

/-- A call of one of the five mutating operations of the table interface. -/
inductive table_op where
  | insert (key value : Nat) (pval : policy_value_t)
  | read (key : Nat) (pval : policy_value_t)
  | update (key value : Nat) (pval : policy_value_t)
  | silentupdate (key : Nat) (pval : policy_value_t)
  | invalidate (key : Nat)
deriving DecidableEq, Repr

/-- Perform one call on a table: the returned entry and the table afterwards. -/
def table_t.step (t : table_t) : table_op → Option (entry × table_t)
  | .insert k v pval => t.insert k v pval
  | .read k pval => t.read k pval
  | .update k v pval => t.update k v pval
  | .silentupdate k pval => t.silentupdate k pval
  | .invalidate k => t.invalidate k

/-- Perform a sequence of calls, left to right. -/
def table_t.run (t : table_t) : List table_op → Option table_t
  | [] => some t
  | op :: ops => (t.step op).bind (fun r => r.2.run ops)

namespace dlist

/-- The first element of `l` as a node pointer, or `e` when `l` is empty. -/
def headOr (l : List Nat) (e : Option Nat) : Option Nat :=
  match l with
  | [] => e
  | b :: _ => some b

/-- The last element of `l` as a node pointer, or `p` when `l` is empty. -/
def lastOr (l : List Nat) (p : Option Nat) : Option Nat :=
  match l.getLast? with
  | some x => some x
  | none => p

/-- The nodes listed in `l` are chained in this order by their `prev` and `next`
pointers; the first has `prev = p` and the last has `next = e`. -/
def Seg (nodes : List ListNode) : Option Nat → List Nat → Option Nat → Prop
  | _, [], _ => True
  | p, a :: rest, e =>
    (∃ n, nodes[a]? = some n ∧ n.prev = p ∧ n.next = headOr rest e) ∧
      Seg nodes (some a) rest e

/-- The pointer structure `d` over `N` nodes represents the sequence `l` of slot
indices, read from `_head` along the `next` pointers. -/
structure Repr (N : Nat) (d : dlist) (l : List Nat) : Prop where
  len : d._nodes.length = N
  idx : ∀ (i : Nat) (n : ListNode), d._nodes[i]? = some n → n.index = i
  nodup : l.Nodup
  head : d._head = l.head?
  tail : l ≠ [] → d._tail = l.getLast?
  seg : Seg d._nodes none l none
  free : ∀ (i : Nat) (n : ListNode), d._nodes[i]? = some n → i ∉ l →
    n.prev = none ∧ n.next = none

end dlist

/-! ## Invariants of tables and policies -/

/-- Slot `i` of the slot array holds a valid entry. -/
def validAt (tbl : List entry) (i : Nat) : Prop :=
  ∃ e, tbl[i]? = some e ∧ e.valid = true

/-- The invariant tying the members of `table_t` together for capacity `N`. -/
structure table_t.BaseInv (N : Nat) (t : table_t) : Prop where
  size : t._size = N
  len : t._table.length = N
  idx : ∀ (i : Nat) (e : entry), t._table[i]? = some e → e.valid = true → e.index = i
  free_nodup : t._freeList.Nodup
  free_iff : ∀ i : Nat, i ∈ t._freeList ↔ ∃ e, t._table[i]? = some e ∧ e.valid = false
  key_iff : ∀ k i : Nat, map_find t._keyIndex k = some i ↔
    ∃ e, t._table[i]? = some e ∧ e.valid = true ∧ e.key = k

/-- The bookkeeping invariant of each policy for capacity `N`, relative to the set `V`
of valid slots. -/
def policy_t.Inv (N : Nat) (V : Nat → Prop) : policy_t → Prop
  | .lru d => ∃ l, d.Repr N l ∧ ∀ i, i ∈ l ↔ V i
  | .fifo q => (∀ i ∈ q, i < N) ∧ ∀ i, V i → i ∈ q
  | .reuse r hand _ => r.length = N ∧ hand < N
  | .srrip rrpv => rrpv.length = N
  | .nru ref hand => ref.length = N ∧ hand < N
  | .generation nodes hand => nodes.length = N ∧ hand._size = N ∧ hand._hand < N
  | .dip d bip => (∃ l, d.Repr N l ∧ ∀ i, i ∈ l ↔ V i) ∧ bip._size = 64 ∧ bip._hand < 64
  | .drrip rrpv brrip => rrpv.length = N ∧ brrip._size = 67 ∧ brrip._hand < 67
  | .minw => True

/-- Well-formed tables of capacity `N`: `1 ≤ N < 2 ^ 32`, the table invariant and the
policy invariant. -/
def table_t.WF (N : Nat) (t : table_t) : Prop :=
  0 < N ∧ N < UINT32_MOD ∧ t.BaseInv N ∧ t.policy.Inv N (validAt t._table)

/-! ## GenericTable.h, PolicyList.h, GenericTagStore.h -/

/-- The policy names accepted by `SetTableParameters` (PolicyList.h) whose class is part of
the development. Any other string, and the names `"drrip-hp"` and `"maxw"` whose classes
are not modelled, give `none`. -/
def policy_name.ofString (policy : String) : Option policy_name :=
  if policy = "lru" then some .lru
  else if policy = "fifo" then some .fifo
  else if policy = "reuse" then some .reuse
  else if policy = "srrip" then some .srrip
  else if policy = "nru" then some .nru
  else if policy = "generation" then some .generation
  else if policy = "dip" then some .dip
  else if policy = "drrip" then some .drrip
  else if policy = "minw" then some .minw
  else none

/-- `generic_table_t::SetTableParameters(size, policy)`: the table that `_table` points to
afterwards; `none` is the `exit(-1)` of `TABLE_POLICY_END`. -/
def generic_table_t.SetTableParameters (size : Nat) (policy : String) (nruHand : Nat) :
    Option table_t :=
  (policy_name.ofString policy).map (fun p => table_t.new p size nruHand)

/-- The members of `generic_tagstore_t`; `_sets[i]` is the table behind the `i`-th
`generic_table_t`. -/
structure generic_tagstore_t where
  _numSets : Nat
  _numSlotsPerSet : Nat
  _policy : String
  _sets : List table_t
deriving DecidableEq, Repr

namespace generic_tagstore_t

/-- The `for` loop of `SetTagStoreParameters`: sets `first, first + 1, ...`. -/
def makeSets (numSlotsPerSet : Nat) (policy : String) (nruHand : Nat → Nat) :
    List Nat → Option (List table_t)
  | [] => some []
  | i :: rest =>
    (generic_table_t.SetTableParameters numSlotsPerSet policy (nruHand i)).bind (fun s =>
      (makeSets numSlotsPerSet policy nruHand rest).map (fun ss => s :: ss))

/-- `SetTagStoreParameters(numSets, numSlotsPerSet, policy)`; `nruHand i` is the value found
in the uninitialised `_hand` of set `i` when the policy is NRU. -/
def SetTagStoreParameters (numSets numSlotsPerSet : Nat) (policy : String)
    (nruHand : Nat → Nat) : Option generic_tagstore_t :=
  (makeSets numSlotsPerSet policy nruHand (List.range numSets)).map (fun ss =>
    { _numSets := numSets, _numSlotsPerSet := numSlotsPerSet, _policy := policy,
      _sets := ss })

/-- `index(key)`: `key % _numSets`. -/
def index (ts : generic_tagstore_t) (key : Nat) : Nat := key % ts._numSets

/-- `lookup(key)`. -/
def lookup (ts : generic_tagstore_t) (key : Nat) : Option Bool :=
  (ts._sets[ts.index key]?).map (fun s => s.lookup key)

/-- `get(key)`. -/
def get (ts : generic_tagstore_t) (key : Nat) : Option entry :=
  (ts._sets[ts.index key]?).bind (fun s => s.get key)

/-- Route one table call to the set of its key (`insert`, `read`, `update`,
`silentupdate`, `invalidate` of `generic_tagstore_t`). -/
def step (ts : generic_tagstore_t) (key : Nat) (op : table_op) :
    Option (entry × generic_tagstore_t) :=
  (ts._sets[ts.index key]?).bind (fun s =>
    (s.step op).map (fun r => (r.1, { ts with _sets := ts._sets.set (ts.index key) r.2 })))

/-- `insert(key, value, pval)`. -/
def insert (ts : generic_tagstore_t) (key value : Nat) (pval : policy_value_t) :
    Option (entry × generic_tagstore_t) :=
  ts.step key (.insert key value pval)

/-- `read(key, pval)`. -/
def read (ts : generic_tagstore_t) (key : Nat) (pval : policy_value_t) :
    Option (entry × generic_tagstore_t) :=
  ts.step key (.read key pval)

/-- `update(key, value, pval)`. -/
def update (ts : generic_tagstore_t) (key value : Nat) (pval : policy_value_t) :
    Option (entry × generic_tagstore_t) :=
  ts.step key (.update key value pval)

/-- `silentupdate(key, pval)`. -/
def silentupdate (ts : generic_tagstore_t) (key : Nat) (pval : policy_value_t) :
    Option (entry × generic_tagstore_t) :=
  ts.step key (.silentupdate key pval)

/-- `invalidate(key)`. -/
def invalidate (ts : generic_tagstore_t) (key : Nat) : Option (entry × generic_tagstore_t) :=
  ts.step key (.invalidate key)

/-- One call of the tag-store interface, named by the table call it forwards. -/
def call (ts : generic_tagstore_t) : table_op → Option (entry × generic_tagstore_t)
  | .insert k v pval => ts.insert k v pval
  | .read k pval => ts.read k pval
  | .update k v pval => ts.update k v pval
  | .silentupdate k pval => ts.silentupdate k pval
  | .invalidate k => ts.invalidate k

/-- A sequence of calls, left to right. -/
def run (ts : generic_tagstore_t) : List table_op → Option generic_tagstore_t
  | [] => some ts
  | op :: ops => (ts.call op).bind (fun r => r.2.run ops)

/-- Every set of the tag store is a well-formed table of capacity `N`. -/
def WF (numSets N : Nat) (ts : generic_tagstore_t) : Prop :=
  ts._numSets = numSets ∧ ts._sets.length = numSets ∧ ∀ s ∈ ts._sets, s.WF N

end generic_tagstore_t

/-! ## Last-use times (the wording of the LRU and FIFO claims) -/

/-- The key that a call uses in table `t`: the key for whose slot the call reaches
`UpdateReplacementPolicy` with an insert, read or update operation. That is an insert that
installs its key (the key is absent before the call), or a read, update or silentupdate
that hits. An insert of a present key returns before the policy update, and an invalidate
is not a use. -/
def table_op.uses (t : table_t) : table_op → Option Nat
  | .insert k _ _ => if t.lookup k then none else some k
  | .read k _ => if t.lookup k then some k else none
  | .update k _ _ => if t.lookup k then some k else none
  | .silentupdate k _ => if t.lookup k then some k else none
  | .invalidate _ => none

/-- The key that a call installs in table `t`: an insert of an absent key. -/
def table_op.installs (t : table_t) : table_op → Option Nat
  | .insert k _ _ => if t.lookup k then none else some k
  | _ => none

/-- Record time `now` for key `k`. -/
def setTime (time : Nat → Nat) (k : Option Nat) (now : Nat) : Nat → Nat :=
  match k with
  | some k => fun x => if x = k then now else time x
  | none => time

/-- Run a call sequence from time `now` and keep, for every key, the time (position in
the sequence) of its most recent use; `lastUse x` is meaningful for the keys that are
present. -/
def table_t.runLastUse (t : table_t) (lastUse : Nat → Nat) (now : Nat) :
    List table_op → Option (table_t × (Nat → Nat))
  | [] => some (t, lastUse)
  | op :: ops =>
    (t.step op).bind (fun r =>
      r.2.runLastUse (setTime lastUse (op.uses t) now) (now + 1) ops)

/-- The key that a call uses when, as in the wording "most recent insert, read, update or
silentupdate", every insert of a key counts as a use of it, also the insert of a key that
is already present; a read, update or silentupdate counts when it hits. -/
def table_op.usesAsWorded (t : table_t) : table_op → Option Nat
  | .insert k _ _ => some k
  | .read k _ => if t.lookup k then some k else none
  | .update k _ _ => if t.lookup k then some k else none
  | .silentupdate k _ => if t.lookup k then some k else none
  | .invalidate _ => none

/-- Run a call sequence from time `now` and keep, for every key, the time of its most
recent use in the sense of `table_op.usesAsWorded`. -/
def table_t.runLastUseAsWorded (t : table_t) (lastUse : Nat → Nat) (now : Nat) :
    List table_op → Option (table_t × (Nat → Nat))
  | [] => some (t, lastUse)
  | op :: ops =>
    (t.step op).bind (fun r =>
      r.2.runLastUseAsWorded (setTime lastUse (op.usesAsWorded t) now) (now + 1) ops)

/-- Run a call sequence from time `now` and keep, for every key, the time of the insert
that installed it most recently. -/
def table_t.runInsertTime (t : table_t) (insTime : Nat → Nat) (now : Nat) :
    List table_op → Option (table_t × (Nat → Nat))
  | [] => some (t, insTime)
  | op :: ops =>
    (t.step op).bind (fun r =>
      r.2.runInsertTime (setTime insTime (op.installs t) now) (now + 1) ops)

/-- The recorded time of the key stored in slot `i`. -/
def slotTime (tbl : List entry) (time : Nat → Nat) (i : Nat) : Nat :=
  match tbl[i]? with
  | some e => time e.key
  | none => 0

/-- The LRU list is ordered by last-use time: the policy is the LRU list `l` over the
valid slots, strictly increasing in the last-use time of the stored keys, all of which
lie before `now`. -/
def table_t.LruInv (N : Nat) (t : table_t) (lastUse : Nat → Nat) (now : Nat) : Prop :=
  ∃ d l, t.policy = .lru d ∧ d.Repr N l ∧ (∀ i, i ∈ l ↔ validAt t._table i) ∧
    l.Pairwise (fun i j => slotTime t._table lastUse i < slotTime t._table lastUse j) ∧
    ∀ i ∈ l, slotTime t._table lastUse i < now

/-- The class of a policy state. -/
def policy_t.name : policy_t → policy_name
  | .lru _ => .lru
  | .fifo _ => .fifo
  | .reuse _ _ _ => .reuse
  | .srrip _ => .srrip
  | .nru _ _ => .nru
  | .generation _ _ => .generation
  | .dip _ _ => .dip
  | .drrip _ _ => .drrip
  | .minw => .minw

/-! ## SetDuelingTagStore.h -/

/-- `#define DUELING_PRIME 443`. -/
def DUELING_PRIME : Nat := 443

/-- `struct SetType`: `leader`, `appID`, `policy`. -/
structure SetType where
  leader : Bool
  appID : Nat
  policy : policy_value_t
deriving DecidableEq, Repr

/-- `SetType()`: `leader = false`; the other two fields are uninitialised (here `0` and
the priority of value `0`). -/
def SetType.new : SetType := ⟨false, 0, .POLICY_HIGH⟩

/-- The members of `set_dueling_tagstore_t`. -/
structure set_dueling_tagstore_t where
  _numSets : Nat
  _numSlotsPerSet : Nat
  _dynamicPolicy : String
  _numApps : Nat
  _numDuelingSets : Nat
  _type : List SetType
  _psel : List saturating_counter
  _threshold : Nat
  _sets : List table_t
deriving DecidableEq, Repr

namespace set_dueling_tagstore_t

/-- One marking step of the constructor: the check `if (_type[current].leader) exit(0)`,
the three assignments, and `current.add(DUELING_PRIME)`. -/
def markLeader (type : List SetType) (current : cyclic_pointer) (id : Nat)
    (pol : policy_value_t) : Option (List SetType × cyclic_pointer) :=
  match type[current._hand]? with
  | none => none
  | some st =>
    if st.leader then none
    else some (type.set current._hand ⟨true, id, pol⟩, current.add DUELING_PRIME)

/-- The inner loop `for (sid = 0; sid < _numDuelingSets; sid ++)` for application `id`,
with `count` iterations left. -/
def markApp : Nat → List SetType → cyclic_pointer → Nat →
    Option (List SetType × cyclic_pointer)
  | 0, type, current, _ => some (type, current)
  | count + 1, type, current, id =>
    (markLeader type current id .POLICY_HIGH).bind (fun r =>
      (markLeader r.1 r.2 id .POLICY_BIMODAL).bind (fun r2 => markApp count r2.1 r2.2 id))

/-- The outer loop `for (id = 0; id < _numApps; id ++)` over the remaining `ids`. -/
def markAll : List Nat → Nat → List SetType → cyclic_pointer →
    Option (List SetType × cyclic_pointer)
  | [], _, type, current => some (type, current)
  | id :: rest, numDuelingSets, type, current =>
    (markApp numDuelingSets type current id).bind (fun r =>
      markAll rest numDuelingSets r.1 r.2)

/-- `SetTagStoreParameters(numApps, numSets, numSlotsPerSet, policy, numDuelingSets,
maxPSELValue, _startVal)`. `none` is one of the `exit` calls. The product in the check
is a `uint32` product. -/
def SetTagStoreParameters (numApps numSets numSlotsPerSet : Nat) (policy : String)
    (numDuelingSets maxPSELValue _startVal : Nat) (nruHand : Nat → Nat) :
    Option set_dueling_tagstore_t :=
  (generic_tagstore_t.makeSets numSlotsPerSet policy nruHand (List.range numSets)).bind
    (fun sets =>
      if (2 * numDuelingSets * numApps) % UINT32_MOD > numSets then none
      else
        (markAll (List.range numApps) numDuelingSets (List.replicate numSets SetType.new)
          (cyclic_pointer.new numSets 0)).map (fun r =>
            { _numSets := numSets, _numSlotsPerSet := numSlotsPerSet,
              _dynamicPolicy := policy, _numApps := numApps,
              _numDuelingSets := numDuelingSets, _type := r.1,
              _psel := List.replicate numApps (saturating_counter.new maxPSELValue _startVal),
              _threshold := maxPSELValue / 2, _sets := sets }))

/-- `index(key)`: `key % _numSets`. -/
def index (ts : set_dueling_tagstore_t) (key : Nat) : Nat := key % ts._numSets

/-- The condition `updatePSEL && _type[setIndex].leader && _type[setIndex].appID == appID`
of `insert`: `some (some pol)` when it holds for a leader set of policy `pol`,
`some none` when it does not. -/
def leaderFor (ts : set_dueling_tagstore_t) (setIndex appID : Nat) (updatePSEL : Bool) :
    Option (Option policy_value_t) :=
  if updatePSEL then
    match ts._type[setIndex]? with
    | none => none
    | some ty => if ty.leader = true ∧ ty.appID = appID then some (some ty.policy) else some none
  else some none

/-- The tail of every branch of `insert`: `_sets[setIndex].insert(key, value, pval)` with
the PSEL counters `psel` as left by the branch. -/
def insertWith (ts : set_dueling_tagstore_t) (psel : List saturating_counter)
    (key value : Nat) (pval : policy_value_t) :
    Option (entry × set_dueling_tagstore_t) :=
  (ts._sets[ts.index key]?).bind (fun s =>
    (s.insert key value pval).map (fun r =>
      (r.1, { ts with _psel := psel, _sets := ts._sets.set (ts.index key) r.2 })))

/-- `insert(appID, key, value, updatePSEL, pval0, pval1)`. -/
def insert (ts : set_dueling_tagstore_t) (appID key value : Nat) (updatePSEL : Bool)
    (pval0 pval1 : policy_value_t) : Option (entry × set_dueling_tagstore_t) :=
  (ts.leaderFor (ts.index key) appID updatePSEL).bind (fun l =>
    (ts._psel[appID]?).bind (fun c =>
      match l with
      | some pol =>
        if pol = .POLICY_HIGH then
          ts.insertWith (ts._psel.set appID c.decrement) key value pval0
        else
          ts.insertWith (ts._psel.set appID c.increment) key value pval1
      | none =>
        if c._value > ts._threshold then ts.insertWith ts._psel key value pval0
        else ts.insertWith ts._psel key value pval1))

/-- `read`, `update`, `silentupdate` and `invalidate`: the table call `op` routed to the
set of `key`. -/
def route (ts : set_dueling_tagstore_t) (key : Nat) (op : table_op) :
    Option (entry × set_dueling_tagstore_t) :=
  (ts._sets[ts.index key]?).bind (fun s =>
    (s.step op).map (fun r => (r.1, { ts with _sets := ts._sets.set (ts.index key) r.2 })))

/-- `read(key, pval)`. -/
def read (ts : set_dueling_tagstore_t) (key : Nat) (pval : policy_value_t) :
    Option (entry × set_dueling_tagstore_t) :=
  ts.route key (.read key pval)

/-- `update(key, value, pval)`. -/
def update (ts : set_dueling_tagstore_t) (key value : Nat) (pval : policy_value_t) :
    Option (entry × set_dueling_tagstore_t) :=
  ts.route key (.update key value pval)

/-- `silentupdate(key, pval)`. -/
def silentupdate (ts : set_dueling_tagstore_t) (key : Nat) (pval : policy_value_t) :
    Option (entry × set_dueling_tagstore_t) :=
  ts.route key (.silentupdate key pval)

/-- `invalidate(key)`. -/
def invalidate (ts : set_dueling_tagstore_t) (key : Nat) :
    Option (entry × set_dueling_tagstore_t) :=
  ts.route key (.invalidate key)

end set_dueling_tagstore_t

/-- A call of the mutating interface of `set_dueling_tagstore_t`. -/
inductive sd_op where
  | insert (appID key value : Nat) (updatePSEL : Bool) (pval0 pval1 : policy_value_t)
  | read (key : Nat) (pval : policy_value_t)
  | update (key value : Nat) (pval : policy_value_t)
  | silentupdate (key : Nat) (pval : policy_value_t)
  | invalidate (key : Nat)
deriving DecidableEq, Repr

/-- Perform one call on a set-dueling tag store. -/
def set_dueling_tagstore_t.call (ts : set_dueling_tagstore_t) :
    sd_op → Option (entry × set_dueling_tagstore_t)
  | .insert a k v u p0 p1 => ts.insert a k v u p0 p1
  | .read k pval => ts.read k pval
  | .update k v pval => ts.update k v pval
  | .silentupdate k pval => ts.silentupdate k pval
  | .invalidate k => ts.invalidate k

/-- Perform a sequence of calls, left to right. -/
def set_dueling_tagstore_t.run (ts : set_dueling_tagstore_t) :
    List sd_op → Option set_dueling_tagstore_t
  | [] => some ts
  | op :: ops => (ts.call op).bind (fun r => r.2.run ops)

/-- The invariant of a set-dueling tag store over `n` sets of capacity `N` for `A`
applications: the leader assignment `type` and the PSEL bound `maxPSEL` fixed by the
constructor, counters that started at `startVal`, and well-formed sets. -/
def set_dueling_tagstore_t.WF (A n N maxPSEL startVal : Nat) (type : List SetType)
    (ts : set_dueling_tagstore_t) : Prop :=
  ts._numSets = n ∧ ts._numApps = A ∧ ts._type = type ∧ type.length = n ∧
    ts._psel.length = A ∧
    (∀ c ∈ ts._psel, c._max = maxPSEL ∧ c._value ≤ max startVal maxPSEL) ∧
    ts._threshold = maxPSEL / 2 ∧ ts._sets.length = n ∧ ∀ s ∈ ts._sets, s.WF N

/-- The application whose PSEL counter a call may move: the `appID` argument of an
`insert`, and none for the other calls. -/
def sd_op.app : sd_op → Option Nat
  | .insert a _ _ _ _ _ => some a
  | _ => none

/-- The leader record written by the `j`-th marking step of the constructor (counting
from `0`) when each application gets `D` pairs of leader sets. -/
def set_dueling_tagstore_t.leaderAt (D j : Nat) : SetType :=
  ⟨true, j / (2 * D), if j % 2 = 0 then .POLICY_HIGH else .POLICY_BIMODAL⟩

/-- The value of the constructor's pointer `current` over `n` sets after `j` calls of
`current.add(DUELING_PRIME)`, starting from `0`. -/
def set_dueling_tagstore_t.markPos (n : Nat) : Nat → Nat
  | 0 => 0
  | j + 1 => ((markPos n j + DUELING_PRIME) % UINT32_MOD) % n

/-- The state of the marking loops of the constructor after `j` marking steps over `n`
sets: the pointer stands at `markPos n j`, the sets `markPos n i` with `i < j` carry
their leader records, and every other set is untouched. -/
def set_dueling_tagstore_t.MarkInv (n D j : Nat) (type : List SetType)
    (cur : cyclic_pointer) : Prop :=
  cur._size = n ∧ cur._hand = markPos n j ∧ type.length = n ∧
    (∀ i, i < j → type[markPos n i]? = some (leaderAt D i)) ∧
    (∀ pos, pos < n → (∀ i, i < j → pos ≠ markPos n i) →
      type[pos]? = some SetType.new)

/-! ## MemoryRequest.h, MemoryComponent.h, MemorySimulator.h: request routing -/

/-- `enum Initiator` of `MemoryRequest`. -/
inductive Initiator where
  | CPU
  | COMPONENT
deriving DecidableEq, Repr

/-- `enum Type` of `MemoryRequest`. -/
inductive RequestType where
  | READ
  | WRITE
  | PARTIALWRITE
  | WRITEBACK
  | READ_FOR_WRITE
  | FAKE_READ
  | PREFETCH
  | CLEAN
  | AGG_WB
deriving DecidableEq, Repr

/-- The fields of `struct MemoryRequest` that the modelled code reads or writes. `iniPtr`
is the address of the initiator (the address of a component is its index), `cmpID` is an
`int32` that the routing code keeps within the hierarchy, addresses and cycles are
64-bit. -/
structure MemoryRequest where
  iniType : Initiator
  iniPtr : Nat
  cpuID : Nat
  type : RequestType
  ip : Nat
  virtualAddress : Nat
  physicalAddress : Nat
  size : Nat
  icount : Nat
  cmpID : Nat
  issued : Bool
  currentCycle : Nat
  stalling : Bool
  dramChannelID : Nat
  dramRankID : Nat
  dramBankID : Nat
  dramRowID : Nat
  dramColumnID : Nat
  destroy : Bool
  serviced : Bool
  finished : Bool
  dirtyReply : Bool
deriving DecidableEq, Repr

/-- `MemoryRequest(itype, cpuid, iptr, rtype, cmpid, va, pa, sze, ccycle)`; the fields
the constructor leaves uninitialised (`ip`, `icount`, the DRAM ids) are `0`. -/
def MemoryRequest.new (itype : Initiator) (cpuid iptr : Nat) (rtype : RequestType)
    (cmpid va pa sze ccycle : Nat) : MemoryRequest :=
  { iniType := itype, iniPtr := iptr, cpuID := cpuid, type := rtype, ip := 0,
    virtualAddress := va, physicalAddress := pa, size := sze, icount := 0, cmpID := cmpid,
    issued := false, currentCycle := ccycle, stalling := false, dramChannelID := 0,
    dramRankID := 0, dramBankID := 0, dramRowID := 0, dramColumnID := 0, destroy := false,
    serviced := false, finished := false, dirtyReply := false }

/-- The dynamic fields of `class MemoryComponent` used by the routing code; `_queue`
holds request pointers. -/
structure MemoryComponent where
  _currentCycle : Nat
  _processing : Bool
  _queue : List Nat
deriving DecidableEq, Repr

/-- `MemoryComponent()`. -/
def MemoryComponent.new : MemoryComponent :=
  { _currentCycle := 0, _processing := false, _queue := [] }

/-- One call of a virtual processing function of a component: the component, whether it
was `ProcessReturn` (otherwise `ProcessRequest`), and the request. -/
structure ProcessCall where
  component : Nat
  isReturn : Bool
  request : Nat
deriving DecidableEq, Repr

/-- The simulator with its objects: `_currentCycle` (to which every `_simulatorCycle`
points), `_numCPUs`, the components (a component pointer is an index of `_components`),
`_hier` (to which every component's `_hier` points), the request objects (a request
pointer is an index of `requests`), and the record of the calls of `ProcessRequest` and
`ProcessReturn`, whose bodies in `MemoryComponent` only return `0`. -/
structure MemorySimulator where
  _currentCycle : Nat
  _numCPUs : Nat
  _components : List MemoryComponent
  _hier : List (List Nat)
  requests : List MemoryRequest
  calls : List ProcessCall
deriving DecidableEq, Repr

namespace MemorySimulator

/-- Write component `c`. -/
def setComponent (s : MemorySimulator) (c : Nat) (cmp : MemoryComponent) :
    MemorySimulator :=
  { s with _components := s._components.set c cmp }

/-- Write request `r`. -/
def setRequest (s : MemorySimulator) (r : Nat) (req : MemoryRequest) : MemorySimulator :=
  { s with requests := s.requests.set r req }

/-- The `currentCycle` of request `r`, read by `ComparePointers`. -/
def cycleOf (s : MemorySimulator) (r : Nat) : Nat :=
  match s.requests[r]? with
  | some req => req.currentCycle
  | none => 0

/-- `_queue.top()`: a request of least `currentCycle`, the earliest pushed among equals. -/
def queue_top (s : MemorySimulator) : List Nat → Option Nat
  | [] => none
  | r :: rest =>
    some (rest.foldl (fun best x => if s.cycleOf x < s.cycleOf best then x else best) r)

end MemorySimulator
namespace MemorySimulator

mutual

/-- `MemoryComponent::AddRequest(request)` of component `c`. -/
def AddRequest : Nat → Nat → Nat → MemorySimulator → Option MemorySimulator
  | 0, _, _, _ => none
  | fuel + 1, c, r, s =>
    match s._components[c]? with
    | none => none
    | some cmp =>
      let s1 := s.setComponent c { cmp with _queue := cmp._queue ++ [r] }
      if cmp._processing then some s1 else ProcessPendingRequests fuel c s1

/-- `MemoryComponent::ProcessPendingRequests()` of component `c`, up to its `while`
loop. -/
def ProcessPendingRequests : Nat → Nat → MemorySimulator → Option MemorySimulator
  | 0, _, _ => none
  | fuel + 1, c, s =>
    match s._components[c]? with
    | none => none
    | some cmp =>
      if cmp._processing then some s
      else
        match s.queue_top cmp._queue with
        | none => some s
        | some r => ProcessLoop fuel c r (s.setComponent c { cmp with _processing := true })

/-- The `while` loop of `ProcessPendingRequests()` of component `c`, entered with the
local variable `request = r`. -/
def ProcessLoop : Nat → Nat → Nat → MemorySimulator → Option MemorySimulator
  | 0, _, _, _ => none
  | fuel + 1, c, r, s =>
    match s._components[c]?, s.requests[r]? with
    | some cmp, some req =>
      if req.currentCycle ≤ s._currentCycle then
        let popped := cmp._queue.erase r
        if cmp._currentCycle > s._currentCycle then
          ProcessLoop fuel c r
            ((s.setRequest r { req with currentCycle := cmp._currentCycle }).setComponent c
              { cmp with _queue := popped ++ [r] })
        else
          let now := max req.currentCycle cmp._currentCycle
          let sent :=
            if req.serviced then
              SendToNextComponent fuel c r
                { s.setComponent c { cmp with _queue := popped, _currentCycle := now + 0 }
                  with calls := s.calls ++ [⟨c, true, r⟩] }
            else
              SendToNextComponent fuel c r
                { (s.setRequest r { req with currentCycle := now }).setComponent c
                    { cmp with _queue := popped, _currentCycle := now + 0 }
                  with calls := s.calls ++ [⟨c, false, r⟩] }
          match sent with
          | none => none
          | some s1 =>
            match s1._components[c]? with
            | none => none
            | some cmp1 =>
              match s1.queue_top cmp1._queue with
              | none => some (s1.setComponent c { cmp1 with _processing := false })
              | some r1 => ProcessLoop fuel c r1 s1
      else some (s.setComponent c { cmp with _processing := false })
    | _, _ => none

/-- `MemoryComponent::SendToNextComponent(request)` of component `c`. -/
def SendToNextComponent : Nat → Nat → Nat → MemorySimulator → Option MemorySimulator
  | 0, _, _, _ => none
  | fuel + 1, c, r, s =>
    match s.requests[r]? with
    | none => none
    | some req =>
      if req.destroy then some s
      else if req.type = .CLEAN then AddRequest fuel c r s
      else if req.stalling then some s
      else if req.serviced then
        if req.cmpID = 0 then some (s.setRequest r { req with finished := true })
        else
          match (s._hier[req.cpuID]?).bind (fun stages => stages[req.cmpID - 1]?) with
          | none => none
          | some next =>
            AddRequest fuel next r (s.setRequest r { req with cmpID := req.cmpID - 1 })
      else
        match s._hier[req.cpuID]? with
        | none => none
        | some stages =>
          if (req.cmpID + 1) % UINT32_MOD = stages.length then
            match stages[req.cmpID]? with
            | none => none
            | some next =>
              AddRequest fuel next r (s.setRequest r { req with serviced := true })
          else
            match stages[req.cmpID + 1]? with
            | none => none
            | some next =>
              AddRequest fuel next r (s.setRequest r { req with cmpID := req.cmpID + 1 })

end

/-- The loop of `AdvanceSimulation` over the remaining components `cs`. -/
def processAll (fuel : Nat) : List Nat → MemorySimulator → Option MemorySimulator
  | [], s => some s
  | c :: cs, s => (ProcessPendingRequests fuel c s).bind (processAll fuel cs)

/-- `MemorySimulator::AdvanceSimulation(now)`. -/
def AdvanceSimulation (fuel : Nat) (now : Nat) (s : MemorySimulator) :
    Option MemorySimulator :=
  processAll fuel (List.range s._components.length)
    (if now > s._currentCycle then { s with _currentCycle := now } else s)

/-- `MemorySimulator::ProcessMemoryRequest(request)`; `none` is a failed `assert`, an
access through a pointer to no object, or a computation that outlasts `fuel`. -/
def ProcessMemoryRequest (fuel : Nat) (r : Nat) (s : MemorySimulator) :
    Option MemorySimulator :=
  match s.requests[r]? with
  | none => none
  | some req =>
    if req.issued = false ∧ req.iniType = .CPU ∧ req.cpuID < s._numCPUs then
      if s._hier.length = 0 then
        some (s.setRequest r { req with issued := true, finished := true })
      else
        match s._hier[req.cpuID]? with
        | none => none
        | some [] => some (s.setRequest r { req with issued := true, finished := true })
        | some (first :: _) =>
          match AddRequest fuel first r
              (s.setRequest r { req with issued := true, cmpID := 0 }) with
          | none => none
          | some s2 =>
            match s2.requests[r]? with
            | none => none
            | some req2 =>
              if req2.currentCycle > s2._currentCycle then
                AdvanceSimulation fuel req2.currentCycle s2
              else some s2
    else none

end MemorySimulator

/-- Component `c` is at rest: it exists, its queue is empty, it is not processing and its
clock is not past the simulator's. -/
def MemorySimulator.Idle (s : MemorySimulator) (c : Nat) : Prop :=
  ∃ cmp, s._components[c]? = some cmp ∧ cmp._queue = [] ∧ cmp._processing = false ∧
    cmp._currentCycle ≤ s._currentCycle

/-- A CPU request of type `rtype` for 64 bytes at address `0`, created at cycle `3`,
with instruction count `100`. -/
def MemorySimulator.exampleRequest (rtype : RequestType) : MemoryRequest :=
  { MemoryRequest.new .CPU 0 0 rtype 0 0 0 64 3 with icount := 100 }

/-- A simulator at cycle `5` with one CPU whose hierarchy is a pipeline of two fresh
components, and the request `exampleRequest rtype`. -/
def MemorySimulator.twoStage (rtype : RequestType) : MemorySimulator :=
  { _currentCycle := 5, _numCPUs := 1,
    _components := [MemoryComponent.new, MemoryComponent.new],
    _hier := [[0, 1]], requests := [MemorySimulator.exampleRequest rtype], calls := [] }

/-! ## DRAM.h, CmpDRAMCtlr.h -/

/-- The modulus of `uint64` arithmetic (`addr_t`, `cycles_t`). -/
def UINT64_MOD : Nat := 2 ^ 64

/-- `enum DRAMCommand` (without the count `NUM_CMDS`). -/
inductive DRAMCommand where
  | CMD_ACT
  | CMD_READ
  | CMD_WRITE
  | CMD_PRE
deriving DecidableEq, Repr

/-- `enum DRAMChannelMode` (without the count `NUM_CMODES`). -/
inductive DRAMChannelMode where
  | CMODE_READ
  | CMODE_WRITE
deriving DecidableEq, Repr

/-- `enum DRAMBankState` (without the count `NUM_BANK_STATES`). -/
inductive DRAMBankState where
  | BANK_ACTIVATED
  | BANK_PRECHARGED
deriving DecidableEq, Repr

/-- An array `cycles_t a[NUM_CMDS]` or `uint64 a[NUM_CMDS]`. -/
structure CmdArray where
  act : Nat
  read : Nat
  write : Nat
  pre : Nat
deriving DecidableEq, Repr

/-- The array after `memset(a, 0, sizeof(a))`. -/
def CmdArray.zero : CmdArray := ⟨0, 0, 0, 0⟩

/-- Read `a[cmd]`. -/
def CmdArray.get (a : CmdArray) : DRAMCommand → Nat
  | .CMD_ACT => a.act
  | .CMD_READ => a.read
  | .CMD_WRITE => a.write
  | .CMD_PRE => a.pre

/-- Write `a[cmd] = v`. -/
def CmdArray.set (a : CmdArray) (cmd : DRAMCommand) (v : Nat) : CmdArray :=
  match cmd with
  | .CMD_ACT => { a with act := v }
  | .CMD_READ => { a with read := v }
  | .CMD_WRITE => { a with write := v }
  | .CMD_PRE => { a with pre := v }

/-- `UPDATE_MAX(a[cmd], b)`: `if (a[cmd] < b) a[cmd] = b`. -/
def CmdArray.updateMax (a : CmdArray) (cmd : DRAMCommand) (b : Nat) : CmdArray :=
  if a.get cmd < b then a.set cmd b else a

/-- `struct DRAMBank`; the back pointers `rank` and `channel` are the place of the bank in
the arrays. -/
structure DRAMBank where
  state : DRAMBankState
  openRow : Nat
  lastIssueCycle : CmdArray
  nextIssueCycle : CmdArray
  numCmds : CmdArray
  numActsRead : Nat
  numActsWrite : Nat
deriving DecidableEq, Repr

/-- `DRAMBank()`; `openRow` is uninitialised (here `0`). -/
def DRAMBank.new : DRAMBank :=
  { state := .BANK_PRECHARGED, openRow := 0, lastIssueCycle := CmdArray.zero,
    nextIssueCycle := CmdArray.zero, numCmds := CmdArray.zero, numActsRead := 0,
    numActsWrite := 0 }

/-- `struct DRAMRank`. -/
structure DRAMRank where
  banks : List DRAMBank
  lastActivates : List Nat
  nextActivate : Nat
deriving DecidableEq, Repr

/-- `DRAMRank()` followed by `rank -> banks = new DRAMBank[_numBanks]`. -/
def DRAMRank.new (numBanks : Nat) : DRAMRank :=
  { banks := List.replicate numBanks DRAMBank.new, lastActivates := [0, 0, 0, 0],
    nextActivate := 0 }

/-- `struct DRAMChannel`, without the fields `lastRank`, `lastOp`, `lastColumnOp` that
the controller never reads or writes; `queue[CMODE_READ]` and `queue[CMODE_WRITE]` hold
request pointers. -/
structure DRAMChannel where
  ranks : List DRAMRank
  lastIssueCycle : CmdArray
  nextIssueCycle : CmdArray
  queueRead : List Nat
  queueWrite : List Nat
  mode : DRAMChannelMode
  numReadToWrites : Nat
  numWriteToReads : Nat
deriving DecidableEq, Repr

/-- `DRAMChannel()` followed by `channel -> ranks = new DRAMRank[_numRanks]` and the
creation of the banks. -/
def DRAMChannel.new (numRanks numBanks : Nat) : DRAMChannel :=
  { ranks := List.replicate numRanks (DRAMRank.new numBanks),
    lastIssueCycle := CmdArray.zero, nextIssueCycle := CmdArray.zero, queueRead := [],
    queueWrite := [], mode := .CMODE_READ, numReadToWrites := 0, numWriteToReads := 0 }

/-- `channel -> queue[mode]`. -/
def DRAMChannel.queue (c : DRAMChannel) : DRAMChannelMode → List Nat
  | .CMODE_READ => c.queueRead
  | .CMODE_WRITE => c.queueWrite

/-- Write `channel -> queue[mode]`. -/
def DRAMChannel.setQueue (c : DRAMChannel) (mode : DRAMChannelMode) (q : List Nat) :
    DRAMChannel :=
  match mode with
  | .CMODE_READ => { c with queueRead := q }
  | .CMODE_WRITE => { c with queueWrite := q }

/-- One call of `ScheduleRequest`: the bank, the command and the controller cycle. -/
structure DRAMIssue where
  channel : Nat
  rank : Nat
  bank : Nat
  cmd : DRAMCommand
  cycle : Nat
deriving DecidableEq, Repr

/-- `class CmpDRAMCtlr` with what it reaches through pointers: its parameters, the
fields `_currentCycle`, `_processing`, `_queue` of `MemoryComponent`, the channels, the
simulator cycle `*_simulatorCycle`, the request objects (a request pointer is an index of
`requests`), the requests handed to `SendToNextComponent` in call order, and the record
of the calls of `ScheduleRequest`. -/
structure CmpDRAMCtlr where
  _numChannels : Nat
  _numRanks : Nat
  _numBanks : Nat
  _rowSize : Nat
  _columnSize : Nat
  _tRC : Nat
  _tRCD : Nat
  _tRAS : Nat
  _tCL : Nat
  _tCWL : Nat
  _tCCD : Nat
  _tBL : Nat
  _tRP : Nat
  _tRTW : Nat
  _tWTR : Nat
  _tWR : Nat
  _tRTRS : Nat
  _tFAW : Nat
  _memProcessorRatio : Nat
  _numWriteBuffers : Nat
  _addressMapping : String
  _scheduler : String
  _currentCycle : Nat
  _processing : Bool
  _queue : List Nat
  _channels : List DRAMChannel
  simulatorCycle : Nat
  requests : List MemoryRequest
  sent : List Nat
  issued : List DRAMIssue
deriving DecidableEq, Repr

namespace CmpDRAMCtlr

/-- `CmpDRAMCtlr()`: the default parameters, no channels yet. -/
def new : CmpDRAMCtlr :=
  { _numChannels := 1, _numRanks := 1, _numBanks := 8, _rowSize := 128, _columnSize := 64,
    _tRC := 34, _tRCD := 10, _tRAS := 24, _tCL := 10, _tCWL := 7, _tCCD := 4, _tBL := 4,
    _tRP := 10, _tRTW := 2, _tWTR := 6, _tWR := 10, _tRTRS := 2, _tFAW := 34,
    _memProcessorRatio := 4, _numWriteBuffers := 8, _addressMapping := "rbRcC",
    _scheduler := "frfcfs-dwf", _currentCycle := 0, _processing := false, _queue := [],
    _channels := [], simulatorCycle := 0, requests := [], sent := [], issued := [] }

/-- `StartSimulation()`: create the channels, ranks and banks and scale the timing
parameters (`uint32` products). -/
def StartSimulation (s : CmpDRAMCtlr) : CmpDRAMCtlr :=
  { s with
    _channels := List.replicate s._numChannels (DRAMChannel.new s._numRanks s._numBanks),
    _tRC := (s._tRC * s._memProcessorRatio) % UINT32_MOD,
    _tRCD := (s._tRCD * s._memProcessorRatio) % UINT32_MOD,
    _tRAS := (s._tRAS * s._memProcessorRatio) % UINT32_MOD,
    _tCL := (s._tCL * s._memProcessorRatio) % UINT32_MOD,
    _tCWL := (s._tCWL * s._memProcessorRatio) % UINT32_MOD,
    _tCCD := (s._tCCD * s._memProcessorRatio) % UINT32_MOD,
    _tBL := (s._tBL * s._memProcessorRatio) % UINT32_MOD,
    _tRP := (s._tRP * s._memProcessorRatio) % UINT32_MOD,
    _tRTW := (s._tRTW * s._memProcessorRatio) % UINT32_MOD,
    _tWTR := (s._tWTR * s._memProcessorRatio) % UINT32_MOD,
    _tWR := (s._tWR * s._memProcessorRatio) % UINT32_MOD,
    _tRTRS := (s._tRTRS * s._memProcessorRatio) % UINT32_MOD,
    _tFAW := (s._tFAW * s._memProcessorRatio) % UINT32_MOD }

/-- `AddressMapping(request)` on the request object `req`; `none` is the `exit(0)` for an
unknown scheme or a division by zero. -/
def AddressMapping (s : CmpDRAMCtlr) (req : MemoryRequest) : Option MemoryRequest :=
  if s._addressMapping = "rbRcC" then
    if s._columnSize = 0 ∨ s._numChannels = 0 ∨ s._rowSize = 0 ∨ s._numRanks = 0 ∨
        s._numBanks = 0 then none
    else
      let address := req.virtualAddress / s._columnSize
      let channel := address % s._numChannels
      let address := address / s._numChannels
      let column := address % s._rowSize
      let address := address / s._rowSize
      let rank := address % s._numRanks
      let address := address / s._numRanks
      let bank := address % s._numBanks
      let address := address / s._numBanks
      some { req with dramChannelID := channel, dramColumnID := column, dramRankID := rank,
                      dramBankID := bank, dramRowID := address }
  else none

end CmpDRAMCtlr

/-- A controller with the default parameters except two channels and two ranks. -/
def CmpDRAMCtlr.twoChannel : CmpDRAMCtlr :=
  { CmpDRAMCtlr.new with _numChannels := 2, _numRanks := 2 }

/-- `#define MAX_BANKS 16`. -/
def MAX_BANKS : Nat := 16

/-- A `uint64` sum. -/
def add64 (a b : Nat) : Nat := (a + b) % UINT64_MOD

/-- What the rest of the hierarchy does while `SendToNextComponent(request)` runs: it is
given the request pointer, the request objects and the queue of the sending component
(which is processing, so that an `AddRequest` to it only queues), and returns the new
request objects and queue. -/
abbrev Hierarchy : Type := Nat → List MemoryRequest → List Nat → List MemoryRequest × List Nat

namespace CmpDRAMCtlr

/-- The channel `_channels[ch]`'s rank `rk`. -/
def getRank (s : CmpDRAMCtlr) (ch rk : Nat) : Option DRAMRank :=
  (s._channels[ch]?).bind (fun c => c.ranks[rk]?)

/-- The bank `_channels[ch].ranks[rk].banks[bk]`. -/
def getBank (s : CmpDRAMCtlr) (ch rk bk : Nat) : Option DRAMBank :=
  (s.getRank ch rk).bind (fun r => r.banks[bk]?)

/-- Apply `f` to `_channels[ch]`. -/
def modifyChannel (s : CmpDRAMCtlr) (ch : Nat) (f : DRAMChannel → DRAMChannel) :
    CmpDRAMCtlr :=
  { s with _channels := s._channels.modify f ch }

/-- Apply `f` to the rank `rk` of channel `ch`. -/
def modifyRank (s : CmpDRAMCtlr) (ch rk : Nat) (f : DRAMRank → DRAMRank) : CmpDRAMCtlr :=
  s.modifyChannel ch (fun c => { c with ranks := c.ranks.modify f rk })

/-- Apply `f` to the bank `bk` of rank `rk` of channel `ch`. -/
def modifyBank (s : CmpDRAMCtlr) (ch rk bk : Nat) (f : DRAMBank → DRAMBank) : CmpDRAMCtlr :=
  s.modifyRank ch rk (fun r => { r with banks := r.banks.modify f bk })

/-- Write request `r`. -/
def setRequest (s : CmpDRAMCtlr) (r : Nat) (req : MemoryRequest) : CmpDRAMCtlr :=
  { s with requests := s.requests.set r req }

/-- `SendToNextComponent(request)`: the call is recorded and the rest of the hierarchy
acts. -/
def SendToNextComponent (next : Hierarchy) (s : CmpDRAMCtlr) (r : Nat) : CmpDRAMCtlr :=
  { s with requests := (next r s.requests s._queue).1, _queue := (next r s.requests s._queue).2,
           sent := s.sent ++ [r] }

/-- The `switch (cmd)` of `ScheduleRequest` on the bank. -/
def scheduleBank (s : CmpDRAMCtlr) (cmd : DRAMCommand) (row : Nat) (mode : DRAMChannelMode)
    (b : DRAMBank) : DRAMBank :=
  let cur := s._currentCycle
  let b1 := { b with lastIssueCycle := b.lastIssueCycle.set cmd cur,
                     numCmds := b.numCmds.set cmd ((b.numCmds.get cmd + 1) % UINT64_MOD) }
  match cmd with
  | .CMD_ACT =>
    { b1 with
      state := .BANK_ACTIVATED, openRow := row,
      nextIssueCycle :=
        (((b1.nextIssueCycle.updateMax .CMD_ACT (add64 cur s._tRC)).updateMax .CMD_READ
          (add64 cur s._tRCD)).updateMax .CMD_WRITE (add64 cur s._tRCD)).updateMax .CMD_PRE
            (add64 cur s._tRAS),
      numActsRead := if mode = .CMODE_READ then (b1.numActsRead + 1) % UINT64_MOD
                     else b1.numActsRead,
      numActsWrite := if mode = .CMODE_WRITE then (b1.numActsWrite + 1) % UINT64_MOD
                      else b1.numActsWrite }
  | .CMD_READ =>
    { b1 with
      nextIssueCycle :=
        (((b1.nextIssueCycle.updateMax .CMD_ACT (add64 cur s._tCL)).updateMax .CMD_READ
          (add64 cur s._tCCD)).updateMax .CMD_WRITE (add64 cur s._tCCD)).updateMax .CMD_PRE
            (add64 cur s._tCL) }
  | .CMD_WRITE =>
    { b1 with
      nextIssueCycle :=
        (((b1.nextIssueCycle.updateMax .CMD_ACT (add64 (add64 cur s._tCL) s._tWR)).updateMax
          .CMD_READ (add64 cur s._tCCD)).updateMax .CMD_WRITE (add64 cur s._tCCD)).updateMax
            .CMD_PRE (add64 (add64 cur s._tCWL) s._tWR) }
  | .CMD_PRE =>
    { b1 with
      state := .BANK_PRECHARGED,
      nextIssueCycle :=
        (((b1.nextIssueCycle.updateMax .CMD_ACT (add64 cur s._tRP)).updateMax .CMD_READ
          (add64 (add64 cur s._tRP) s._tRCD)).updateMax .CMD_WRITE
            (add64 (add64 cur s._tRP) s._tRCD)).updateMax .CMD_PRE (add64 cur s._tRC) }

/-- The update of the rank in the `CMD_ACT` case of `ScheduleRequest`: `pop_front`,
`push_back(_currentCycle)`, `nextActivate = lastActivates.front() + _tFAW`. -/
def scheduleRank (s : CmpDRAMCtlr) (rk : DRAMRank) : DRAMRank :=
  { rk with
    lastActivates := rk.lastActivates.tail ++ [s._currentCycle],
    nextActivate := add64 ((rk.lastActivates.tail ++ [s._currentCycle]).headD 0) s._tFAW }

/-- The update of the channel in the `CMD_READ` and `CMD_WRITE` cases of
`ScheduleRequest`. -/
def scheduleChannel (s : CmpDRAMCtlr) (cmd : DRAMCommand) (c : DRAMChannel) : DRAMChannel :=
  let cur := s._currentCycle
  match cmd with
  | .CMD_READ =>
    { c with
      nextIssueCycle := (c.nextIssueCycle.updateMax .CMD_READ (add64 cur s._tCCD)).updateMax
        .CMD_WRITE
        ((add64 (add64 (add64 cur s._tCL) s._tBL) s._tRTW + UINT64_MOD - s._tCWL) %
          UINT64_MOD) }
  | .CMD_WRITE =>
    { c with
      nextIssueCycle := (c.nextIssueCycle.updateMax .CMD_WRITE (add64 cur s._tCCD)).updateMax
        .CMD_READ (add64 (add64 (add64 cur s._tCWL) s._tBL) s._tWTR) }
  | _ => c

/-- `ScheduleRequest(bank, cmd, request)` for the bank `bk` of rank `rk` of channel `ch`;
`none` is an access outside an array, through a pointer to no object, or a `pop_front`
on an empty list. -/
def ScheduleRequest (s : CmpDRAMCtlr) (ch rk bk : Nat) (cmd : DRAMCommand) (r : Nat) :
    Option CmpDRAMCtlr :=
  match s.requests[r]?, s._channels[ch]?, s.getRank ch rk, s.getBank ch rk bk with
  | some req, some chan, some rank, some _ =>
    let s1 := s.modifyBank ch rk bk (s.scheduleBank cmd req.dramRowID chan.mode)
    let s2 := { s1 with
      issued := s1.issued ++ [DRAMIssue.mk ch rk bk cmd s._currentCycle] }
    match cmd with
    | .CMD_ACT =>
      if rank.lastActivates = [] then none
      else some (s2.modifyRank ch rk s.scheduleRank)
    | _ => some (s2.modifyChannel ch (s.scheduleChannel cmd))
  | _, _, _, _ => none

end CmpDRAMCtlr

namespace CmpDRAMCtlr

/-- The first loop of `FRFCFSDWFScheduler` ("check for ready requests") over the requests
`rs` that remain, the first of which stands at position `i` of the queue; `rowHit` lists
the bits set in `rowHitPresent`. The result is the state and `none` when the function has
returned, or the bits of `rowHitPresent` when the loop has ended. -/
def scanReady (next : Hierarchy) (ch : Nat) (mode : DRAMChannelMode) :
    List Nat → Nat → List Nat → CmpDRAMCtlr → Option (CmpDRAMCtlr × Option (List Nat))
  | [], _, rowHit, s => some (s, some rowHit)
  | r :: rs, i, rowHit, s =>
    match s.requests[r]?, s._channels[ch]? with
    | some req, some chan =>
      match s.getRank ch req.dramRankID, s.getBank ch req.dramRankID req.dramBankID with
      | some rank, some bank =>
        if bank.state = .BANK_ACTIVATED ∧ bank.openRow = req.dramRowID then
          let colCmd := if mode = .CMODE_READ then DRAMCommand.CMD_READ else .CMD_WRITE
          let cc := max (max req.currentCycle (bank.nextIssueCycle.get colCmd))
            (chan.nextIssueCycle.get colCmd)
          let s1 := s.setRequest r { req with currentCycle := cc }
          if cc ≤ s._currentCycle then
            match s1.ScheduleRequest ch req.dramRankID req.dramBankID colCmd r with
            | none => none
            | some s2 =>
              let done := add64 (add64 s._currentCycle
                (if mode = .CMODE_READ then s._tCL else s._tCWL)) s._tBL
              let s3 := s2.setRequest r
                { req with currentCycle := done, serviced := true }
              let s4 := s3.modifyChannel ch
                (fun c => c.setQueue mode ((c.queue mode).eraseIdx i))
              some (s4.SendToNextComponent next r, none)
          else if req.dramBankID < MAX_BANKS then
            scanReady next ch mode rs (i + 1) (req.dramBankID :: rowHit) s1
          else none
        else if bank.state = .BANK_PRECHARGED then
          let cc := max (max req.currentCycle (bank.nextIssueCycle.get .CMD_ACT))
            rank.nextActivate
          let s1 := s.setRequest r { req with currentCycle := cc }
          if cc ≤ s._currentCycle then
            match s1.ScheduleRequest ch req.dramRankID req.dramBankID .CMD_ACT r with
            | none => none
            | some s2 => some (s2, none)
          else scanReady next ch mode rs (i + 1) rowHit s1
        else scanReady next ch mode rs (i + 1) rowHit s
      | _, _ => none
    | _, _ => none

/-- The second loop of `FRFCFSDWFScheduler` ("precharge the bank corresponding to the
first request") over the requests `rs` that remain. -/
def scanPrecharge (ch : Nat) (rowHit : List Nat) :
    List Nat → CmpDRAMCtlr → Option CmpDRAMCtlr
  | [], s => some s
  | r :: rs, s =>
    match s.requests[r]? with
    | none => none
    | some req =>
      if req.dramBankID < MAX_BANKS then
        if req.dramBankID ∉ rowHit then
          match s.getBank ch req.dramRankID req.dramBankID with
          | none => none
          | some bank =>
            let cc := max req.currentCycle (bank.nextIssueCycle.get .CMD_PRE)
            let s1 := s.setRequest r { req with currentCycle := cc }
            if cc ≤ s._currentCycle then
              s1.ScheduleRequest ch req.dramRankID req.dramBankID .CMD_PRE r
            else scanPrecharge ch rowHit rs s1
        else if req.currentCycle ≤ s._currentCycle then
          scanPrecharge ch rowHit rs
            (s.setRequest r
              { req with currentCycle := add64 s._currentCycle s._memProcessorRatio })
        else scanPrecharge ch rowHit rs s
      else none

/-- The change of mode at the start of `FRFCFSDWFScheduler`. -/
def switchMode (s : CmpDRAMCtlr) (c : DRAMChannel) : DRAMChannel :=
  if c.mode = .CMODE_READ ∧ c.queueWrite.length ≥ s._numWriteBuffers then
    { c with mode := .CMODE_WRITE,
             numReadToWrites := (c.numReadToWrites + 1) % UINT64_MOD }
  else if c.mode = .CMODE_WRITE ∧ c.queueWrite = [] then
    { c with mode := .CMODE_READ,
             numWriteToReads := (c.numWriteToReads + 1) % UINT64_MOD }
  else c

/-- `FRFCFSDWFScheduler(channel)` for `_channels[ch]`. -/
def FRFCFSDWFScheduler (next : Hierarchy) (s : CmpDRAMCtlr) (ch : Nat) :
    Option CmpDRAMCtlr :=
  match s._channels[ch]? with
  | none => none
  | some chan0 =>
    let s1 := s.modifyChannel ch s.switchMode
    let chan := s.switchMode chan0
    if chan.queue chan.mode = [] then some s1
    else
      match scanReady next ch chan.mode (chan.queue chan.mode) 0 [] s1 with
      | none => none
      | some (s2, none) => some s2
      | some (s2, some rowHit) => scanPrecharge ch rowHit (chan.queue chan.mode) s2

/-- `FOR_EACH_CHANNEL { FRFCFSDWFScheduler(channel); }` over the channels `chs` that
remain. -/
def scheduleChannels (next : Hierarchy) : List Nat → CmpDRAMCtlr → Option CmpDRAMCtlr
  | [], s => some s
  | ch :: chs, s => (FRFCFSDWFScheduler next s ch).bind (scheduleChannels next chs)

/-- The `while (_currentCycle <= (*_simulatorCycle))` loop of `Scheduler`. -/
def schedulerLoop (next : Hierarchy) : Nat → CmpDRAMCtlr → Option CmpDRAMCtlr
  | 0, _ => none
  | fuel + 1, s =>
    if s._currentCycle ≤ s.simulatorCycle then
      (scheduleChannels next (List.range s._numChannels) s).bind (fun s1 =>
        schedulerLoop next fuel
          { s1 with _currentCycle := add64 s1._currentCycle s1._memProcessorRatio })
    else some s

/-- `FOR_EACH_REQUEST(reqlist)`: raise the `currentCycle` of the requests `rs` to the
controller cycle. -/
def bumpRequests : List Nat → CmpDRAMCtlr → Option CmpDRAMCtlr
  | [], s => some s
  | r :: rs, s =>
    match s.requests[r]? with
    | none => none
    | some req =>
      bumpRequests rs
        (if req.currentCycle < s._currentCycle then
          s.setRequest r { req with currentCycle := s._currentCycle }
        else s)

/-- The last loops of `Scheduler` over the channels `chs` that remain. -/
def bumpChannels : List Nat → CmpDRAMCtlr → Option CmpDRAMCtlr
  | [], s => some s
  | ch :: chs, s =>
    match s._channels[ch]? with
    | none => none
    | some chan =>
      ((bumpRequests chan.queueRead s).bind (bumpRequests chan.queueWrite)).bind
        (bumpChannels chs)

/-- `Scheduler()`. -/
def Scheduler (next : Hierarchy) (fuel : Nat) (s : CmpDRAMCtlr) : Option CmpDRAMCtlr :=
  if s._scheduler = "frfcfs-dwf" then
    (schedulerLoop next fuel s).bind (bumpChannels (List.range s._numChannels))
  else some s

/-- The `currentCycle` of request `r`, read by `ComparePointers`. -/
def cycleOf (s : CmpDRAMCtlr) (r : Nat) : Nat :=
  match s.requests[r]? with
  | some req => req.currentCycle
  | none => 0

/-- `_queue.top()`: a request of least `currentCycle`, the earliest pushed among equals. -/
def queue_top (s : CmpDRAMCtlr) : List Nat → Option Nat
  | [] => none
  | r :: rest =>
    some (rest.foldl (fun best x => if s.cycleOf x < s.cycleOf best then x else best) r)

/-- The loop of `ProcessPendingRequests` that moves the processable requests from
`_queue` to the channel queues, entered with the local variable `request = r`. -/
def transferLoop (next : Hierarchy) : Nat → Nat → CmpDRAMCtlr → Option CmpDRAMCtlr
  | 0, _, _ => none
  | fuel + 1, r, s =>
    match s.requests[r]? with
    | none => none
    | some req =>
      if req.currentCycle ≤ s.simulatorCycle then
        let s1 := { s with _queue := s._queue.erase r }
        let moved : Option CmpDRAMCtlr :=
          if req.serviced then some (s1.SendToNextComponent next r)
          else
            match s1.AddressMapping req with
            | none => none
            | some req1 =>
              let s2 := s1.setRequest r req1
              match req1.type with
              | .READ | .READ_FOR_WRITE | .PREFETCH =>
                if req1.dramChannelID < s2._channels.length then
                  some (s2.modifyChannel req1.dramChannelID
                    (fun c => { c with queueRead := c.queueRead ++ [r] }))
                else none
              | .WRITEBACK =>
                if req1.dramChannelID < s2._channels.length then
                  some (s2.modifyChannel req1.dramChannelID
                    (fun c => { c with queueWrite := c.queueWrite ++ [r] }))
                else none
              | _ => none
        match moved with
        | none => none
        | some s3 =>
          match s3.queue_top s3._queue with
          | none => some s3
          | some r1 => transferLoop next fuel r1 s3
      else some s

/-- `ProcessPendingRequests()` of `CmpDRAMCtlr`. -/
def ProcessPendingRequests (next : Hierarchy) (fuel : Nat) (s : CmpDRAMCtlr) :
    Option CmpDRAMCtlr :=
  if s._processing then some s
  else
    let s1 := { s with _processing := true }
    if (s._channels.all (fun c => c.queueRead.isEmpty && c.queueWrite.isEmpty)) ∧
        s._queue = [] then some s
    else
      let moved : Option CmpDRAMCtlr :=
        match s1.queue_top s1._queue with
        | none => some s1
        | some r => transferLoop next fuel r s1
      (moved.bind (Scheduler next fuel)).map (fun s2 => { s2 with _processing := false })

/-- `AddRequest(request)` of `MemoryComponent`, with the `ProcessPendingRequests` of
`CmpDRAMCtlr`. -/
def AddRequest (next : Hierarchy) (fuel : Nat) (s : CmpDRAMCtlr) (r : Nat) :
    Option CmpDRAMCtlr :=
  let s1 := { s with _queue := s._queue ++ [r] }
  if s._processing then some s1 else ProcessPendingRequests next fuel s1

end CmpDRAMCtlr

/-- What happens to a DRAM controller from outside: a neighbour calls `AddRequest`, the
simulator advances its cycle and calls `ProcessPendingRequests`, or other components
create and change request objects. -/
inductive DRAMEvent where
  | add (r : Nat)
  | advance (now : Nat)
  | world (requests : List MemoryRequest)
deriving Repr

/-- Perform one event. -/
def CmpDRAMCtlr.step (next : Hierarchy) (fuel : Nat) (s : CmpDRAMCtlr) :
    DRAMEvent → Option CmpDRAMCtlr
  | .add r => s.AddRequest next fuel r
  | .advance now =>
    CmpDRAMCtlr.ProcessPendingRequests next fuel
      (if now > s.simulatorCycle then { s with simulatorCycle := now } else s)
  | .world requests => some { s with requests := requests }

/-- Perform a sequence of events, left to right. -/
def CmpDRAMCtlr.run (next : Hierarchy) (fuel : Nat) (s : CmpDRAMCtlr) :
    List DRAMEvent → Option CmpDRAMCtlr
  | [] => some s
  | e :: es => (s.step next fuel e).bind (fun s1 => s1.run next fuel es)

/-- The hierarchy that does nothing with a request it is handed. -/
def Hierarchy.idle : Hierarchy := fun _ requests queue => (requests, queue)

namespace CmpDRAMCtlr

/-- A channel without its queues, mode and switch counters. -/
def chanCore (c : DRAMChannel) : DRAMChannel :=
  { c with queueRead := [], queueWrite := [], mode := .CMODE_READ, numReadToWrites := 0,
           numWriteToReads := 0 }

/-- The part of the state on which command timing depends: the parameters, the controller
cycle, the ranks and banks, the `nextIssueCycle` of the channels and the record of issued
commands. -/
def core (s : CmpDRAMCtlr) : CmpDRAMCtlr :=
  { s with _processing := false, _queue := [], simulatorCycle := 0, requests := [],
           sent := [], _channels := s._channels.map chanCore }

/-- What `FRFCFSDWFScheduler` has checked when it calls
`ScheduleRequest(bank, cmd, request)`: the bank is the one of the request, the command
may be issued to the bank at the controller cycle, an activate finds the bank precharged
and the rank past `nextActivate`, and a column command finds the row of the request open
and the channel ready. -/
def Guard (s : CmpDRAMCtlr) (ch rk bk : Nat) (cmd : DRAMCommand) (r : Nat) : Prop :=
  ∃ req chan rank bank, s.requests[r]? = some req ∧ rk = req.dramRankID ∧
    bk = req.dramBankID ∧ s._channels[ch]? = some chan ∧ s.getRank ch rk = some rank ∧
    s.getBank ch rk bk = some bank ∧
    bank.nextIssueCycle.get cmd ≤ s._currentCycle ∧
    (cmd = .CMD_ACT → bank.state = .BANK_PRECHARGED ∧ rank.nextActivate ≤ s._currentCycle) ∧
    (cmd = .CMD_READ ∨ cmd = .CMD_WRITE →
      bank.state = .BANK_ACTIVATED ∧ bank.openRow = req.dramRowID ∧
      chan.nextIssueCycle.get cmd ≤ s._currentCycle ∧
      (cmd = .CMD_READ ↔ chan.mode = .CMODE_READ))

/-- One step of the controller as far as command timing goes: nothing that timing
depends on changes (nor the simulator cycle), or the controller cycle advances by `_memProcessorRatio` from a
cycle at most `B`, or a command is issued by `ScheduleRequest` under `Guard`. -/
inductive Step (B : Nat) : CmpDRAMCtlr → CmpDRAMCtlr → Prop where
  | same {s s1 : CmpDRAMCtlr} : core s1 = core s → s1.simulatorCycle = s.simulatorCycle →
      Step B s s1
  | tick {s s1 : CmpDRAMCtlr} : s._currentCycle ≤ B →
      s1 = { s with _currentCycle := add64 s._currentCycle s._memProcessorRatio } →
      Step B s s1
  | issue {s s1 : CmpDRAMCtlr} (ch rk bk : Nat) (cmd : DRAMCommand) (r : Nat) :
      Guard s ch rk bk cmd r → s.ScheduleRequest ch rk bk cmd r = some s1 → Step B s s1

/-- A sequence of steps. -/
def Steps (B : Nat) : CmpDRAMCtlr → CmpDRAMCtlr → Prop :=
  Relation.ReflTransGen (Step B)

end CmpDRAMCtlr

namespace CmpDRAMCtlr

/-- The cycle that `ScheduleRequest` passes to `UPDATE_MAX(bank -> nextIssueCycle[c2], _)`
when it issues `cmd`. -/
def bankNext (s : CmpDRAMCtlr) : DRAMCommand → DRAMCommand → Nat
  | .CMD_ACT, .CMD_ACT => add64 s._currentCycle s._tRC
  | .CMD_ACT, .CMD_READ => add64 s._currentCycle s._tRCD
  | .CMD_ACT, .CMD_WRITE => add64 s._currentCycle s._tRCD
  | .CMD_ACT, .CMD_PRE => add64 s._currentCycle s._tRAS
  | .CMD_READ, .CMD_ACT => add64 s._currentCycle s._tCL
  | .CMD_READ, .CMD_READ => add64 s._currentCycle s._tCCD
  | .CMD_READ, .CMD_WRITE => add64 s._currentCycle s._tCCD
  | .CMD_READ, .CMD_PRE => add64 s._currentCycle s._tCL
  | .CMD_WRITE, .CMD_ACT => add64 (add64 s._currentCycle s._tCL) s._tWR
  | .CMD_WRITE, .CMD_READ => add64 s._currentCycle s._tCCD
  | .CMD_WRITE, .CMD_WRITE => add64 s._currentCycle s._tCCD
  | .CMD_WRITE, .CMD_PRE => add64 (add64 s._currentCycle s._tCWL) s._tWR
  | .CMD_PRE, .CMD_ACT => add64 s._currentCycle s._tRP
  | .CMD_PRE, .CMD_READ => add64 (add64 s._currentCycle s._tRP) s._tRCD
  | .CMD_PRE, .CMD_WRITE => add64 (add64 s._currentCycle s._tRP) s._tRCD
  | .CMD_PRE, .CMD_PRE => add64 s._currentCycle s._tRC

/-- The table of minimum intervals between a command `c1` and a later command `c2` to
the same bank, in the scaled timing parameters of the controller. -/
def minInterval (s : CmpDRAMCtlr) : DRAMCommand → DRAMCommand → Nat
  | .CMD_ACT, .CMD_ACT => s._tRC
  | .CMD_ACT, .CMD_READ => s._tRCD
  | .CMD_ACT, .CMD_WRITE => s._tRCD
  | .CMD_ACT, .CMD_PRE => s._tRAS
  | .CMD_READ, .CMD_ACT => s._tCL
  | .CMD_READ, .CMD_READ => s._tCCD
  | .CMD_READ, .CMD_WRITE => s._tCCD
  | .CMD_READ, .CMD_PRE => s._tCL
  | .CMD_WRITE, .CMD_ACT => s._tCL + s._tWR
  | .CMD_WRITE, .CMD_READ => s._tCCD
  | .CMD_WRITE, .CMD_WRITE => s._tCCD
  | .CMD_WRITE, .CMD_PRE => s._tCWL + s._tWR
  | .CMD_PRE, .CMD_ACT => s._tRP
  | .CMD_PRE, .CMD_READ => s._tRP + s._tRCD
  | .CMD_PRE, .CMD_WRITE => s._tRP + s._tRCD
  | .CMD_PRE, .CMD_PRE => s._tRC

/-- The timing parameters that `ScheduleRequest` adds to the controller cycle, and the
clock ratio, are `uint32` values. -/
def ParamsOK (s : CmpDRAMCtlr) : Prop :=
  s._tRC < UINT32_MOD ∧ s._tRCD < UINT32_MOD ∧ s._tRAS < UINT32_MOD ∧ s._tCL < UINT32_MOD ∧
    s._tCWL < UINT32_MOD ∧ s._tCCD < UINT32_MOD ∧ s._tRP < UINT32_MOD ∧
    s._tWR < UINT32_MOD ∧ s._tFAW < UINT32_MOD ∧ s._memProcessorRatio < UINT32_MOD

/-- Bank timing of the record of issued commands: of two commands to the same bank, the
later one comes no earlier than the minimum interval after the earlier one. -/
def BankTiming (s : CmpDRAMCtlr) : Prop :=
  s.issued.Pairwise (fun e1 e2 =>
    e1.channel = e2.channel → e1.rank = e2.rank → e1.bank = e2.bank →
      e1.cycle + s.minInterval e1.cmd e2.cmd ≤ e2.cycle)

/-- Every command in the record is accounted for in the `nextIssueCycle` of its bank. -/
def NextCovers (s : CmpDRAMCtlr) : Prop :=
  ∀ e ∈ s.issued, ∀ b, s.getBank e.channel e.rank e.bank = some b →
    ∀ c2, e.cycle + s.minInterval e.cmd c2 ≤ b.nextIssueCycle.get c2

/-- The invariant behind bank timing, for simulator cycles up to `B`. -/
structure TimingInv (B : Nat) (s : CmpDRAMCtlr) : Prop where
  params : s.ParamsOK
  clock : s._currentCycle ≤ B + s._memProcessorRatio
  past : ∀ e ∈ s.issued, e.cycle ≤ s._currentCycle
  covers : s.NextCovers
  timing : s.BankTiming

end CmpDRAMCtlr

namespace CmpDRAMCtlr

/-- A sequence of steps that leaves the controller cycle as it is. -/
def Quiet (B : Nat) (s s1 : CmpDRAMCtlr) : Prop :=
  Steps B s s1 ∧ s1._currentCycle = s._currentCycle

end CmpDRAMCtlr

/-- Two reads of bank 0 of a controller with the default parameters, rows 0 and 1, both
entered at simulator cycle 0, and then the simulator cycle 232. -/
def CmpDRAMCtlr.twoReads : List DRAMEvent :=
  [.world [MemoryRequest.new .CPU 0 0 .READ 0 0 0 64 0,
           MemoryRequest.new .CPU 0 0 .READ 0 65536 65536 64 0],
   .add 0, .add 1, .advance 232]

namespace CmpDRAMCtlr

/-- The cycles of the activates issued to the rank `rk` of channel `ch`, oldest first. -/
def rankActs (s : CmpDRAMCtlr) (ch rk : Nat) : List Nat :=
  s.issued.filterMap (fun e =>
    if e.cmd = .CMD_ACT ∧ e.channel = ch ∧ e.rank = rk then some e.cycle else none)

/-- The last four of the activate cycles `acts` of a rank, oldest first, where the four
entries `0` that `DRAMRank()` pushes stand before the first activate. -/
def lastFour (acts : List Nat) : List Nat :=
  ([0, 0, 0, 0] ++ acts).drop acts.length

/-- The invariant behind the four-activate window, for simulator cycles up to `B`. -/
structure FawInv (B : Nat) (s : CmpDRAMCtlr) : Prop where
  base : TimingInv B s
  ring : ∀ ch rk rank, s.getRank ch rk = some rank →
    rank.lastActivates = lastFour (s.rankActs ch rk) ∧
    (s.rankActs ch rk ≠ [] →
      rank.nextActivate = (lastFour (s.rankActs ch rk)).headD 0 + s._tFAW)
  gate : ∀ ch rk k t, (s.rankActs ch rk)[k]? = some t → 1 ≤ k →
    (lastFour ((s.rankActs ch rk).take k)).headD 0 + s._tFAW ≤ t

end CmpDRAMCtlr

/-- Reads of banks 0 to 4 of the one rank of a controller with the default parameters,
all entered at simulator cycle 0, and then the simulator cycle 300. -/
def CmpDRAMCtlr.fiveReads : List DRAMEvent :=
  [.world ((List.range 5).map (fun b =>
      MemoryRequest.new .CPU 0 0 .READ 0 (8192 * b) (8192 * b) 64 0)),
   .add 0, .add 1, .add 2, .add 3, .add 4, .advance 300]

namespace CmpDRAMCtlr

/-- Request `r` in the queue of channel `ch` is a row hit that `FRFCFSDWFScheduler` could
issue at the controller cycle: its bank is activated with its row open, and neither its
`currentCycle` nor the `nextIssueCycle` of the bank and of the channel for the column
command of the channel mode lies after `_currentCycle`. -/
def rowHitReady (s : CmpDRAMCtlr) (ch r : Nat) : Bool :=
  match s.requests[r]?, s._channels[ch]? with
  | some req, some chan =>
    match s.getBank ch req.dramRankID req.dramBankID with
    | some bank =>
      let colCmd := if chan.mode = .CMODE_READ then DRAMCommand.CMD_READ else .CMD_WRITE
      decide (bank.state = .BANK_ACTIVATED ∧ bank.openRow = req.dramRowID ∧
        req.currentCycle ≤ s._currentCycle ∧
        bank.nextIssueCycle.get colCmd ≤ s._currentCycle ∧
        chan.nextIssueCycle.get colCmd ≤ s._currentCycle)
    | none => false
  | _, _ => false

/-- Request `r` in the queue of channel `ch` could be activated at the controller cycle:
its bank is precharged, and neither its `currentCycle`, the `nextIssueCycle[CMD_ACT]` of
the bank nor the `nextActivate` of the rank lies after `_currentCycle`. -/
def activateReady (s : CmpDRAMCtlr) (ch r : Nat) : Bool :=
  match s.requests[r]? with
  | some req =>
    match s.getRank ch req.dramRankID, s.getBank ch req.dramRankID req.dramBankID with
    | some rank, some bank =>
      decide (bank.state = .BANK_PRECHARGED ∧ req.currentCycle ≤ s._currentCycle ∧
        bank.nextIssueCycle.get .CMD_ACT ≤ s._currentCycle ∧
        rank.nextActivate ≤ s._currentCycle)
    | _, _ => false
  | none => false

/-- A read of bank 0, row 0, entered at simulator cycle 0; at simulator cycle 400 a read
of bank 1 (request 1) and then a second read of bank 0, row 0 (request 2), whose row is
still open. -/
def rowHitBehind : List DRAMEvent :=
  [.world [MemoryRequest.new .CPU 0 0 .READ 0 0 0 64 0,
           MemoryRequest.new .CPU 0 0 .READ 0 8192 8192 64 400,
           MemoryRequest.new .CPU 0 0 .READ 0 64 64 64 400],
   .add 0, .advance 400, .add 1, .add 2]

/-- The same requests as in `rowHitBehind`, the second read of bank 0 entered before the
read of bank 1. -/
def rowHitAhead : List DRAMEvent :=
  [.world [MemoryRequest.new .CPU 0 0 .READ 0 0 0 64 0,
           MemoryRequest.new .CPU 0 0 .READ 0 8192 8192 64 400,
           MemoryRequest.new .CPU 0 0 .READ 0 64 64 64 400],
   .add 0, .advance 400, .add 2, .add 1]

end CmpDRAMCtlr

/-! ## operator[] of Table.h and GenericTagStore.h -/

/-- `(*this)[key]` of `table_t`, read: the value stored for `key`; `none` is the failed
`assert(index != _size)`. -/
def table_t.valueAt (t : table_t) (key : Nat) : Option Nat :=
  if t.SearchForKey key ≠ t._size then (t._table[t.SearchForKey key]?).map (fun e => e.value)
  else none

/-- A write `(*this)[key] = f((*this)[key])` through the reference that `operator[]` of
`table_t` returns; `none` is the failed `assert(index != _size)`. -/
def table_t.modifyValue (t : table_t) (key : Nat) (f : Nat → Nat) : Option table_t :=
  if t.SearchForKey key ≠ t._size then
    (t._table[t.SearchForKey key]?).map (fun _ =>
      { t with _table := t._table.modify (fun e => { e with value := f e.value })
                 (t.SearchForKey key) })
  else none

/-- `(*this)[key]` of `generic_tagstore_t`, read. -/
def generic_tagstore_t.valueAt (ts : generic_tagstore_t) (key : Nat) : Option Nat :=
  (ts._sets[ts.index key]?).bind (fun s => s.valueAt key)

/-- A write through `operator[]` of `generic_tagstore_t`. -/
def generic_tagstore_t.modifyValue (ts : generic_tagstore_t) (key : Nat) (f : Nat → Nat) :
    Option generic_tagstore_t :=
  (ts._sets[ts.index key]?).bind (fun s =>
    (s.modifyValue key f).map (fun s1 => { ts with _sets := ts._sets.set (ts.index key) s1 }))

/-! ## CmpLLC.h -/

/-- `BLOCK_ADDRESS(addr, size)`: `((addr) / (size)) * (size)` on 64-bit addresses. -/
def BLOCK_ADDRESS (addr size : Nat) : Nat := (addr / size) * size % UINT64_MOD

/-- `MemoryRequest::AddLatency(latency)`. -/
def MemoryRequest.AddLatency (r : MemoryRequest) (latency : Nat) : MemoryRequest :=
  { r with currentCycle := (r.currentCycle + latency) % UINT64_MOD }

/-- What a call of `ProcessRequest` or `ProcessReturn` of a cache leaves behind: the
returned number of busy cycles, the cache, the request object it was called on, and the
requests it created and handed to `SendToNextComponent`, in call order. -/
structure Processed (C : Type) where
  busy : Nat
  cache : C
  request : MemoryRequest
  sent : List MemoryRequest

/-- `struct TagEntry` of `CmpLLC`. -/
structure CmpLLC.TagEntry where
  dirty : Bool
  vcla : Nat
  pcla : Nat
  appID : Nat
deriving DecidableEq, Repr

namespace CmpLLC.TagEntry

/-- `TagEntry()`: only `dirty` is set; the other fields are uninitialised (here `0`). -/
def new : TagEntry := ⟨false, 0, 0, 0⟩

/-- The tables of this development store natural numbers as values; a `TagEntry` is
stored as the number whose digits are its fields: one bit for `dirty`, 64 bits each for
`vcla` and `pcla`, and `appID` above them. -/
def encode (v : TagEntry) : Nat :=
  (if v.dirty then 1 else 0) + 2 * (v.vcla + UINT64_MOD * (v.pcla + UINT64_MOD * v.appID))

/-- The `TagEntry` stored as `n`. -/
def decode (n : Nat) : TagEntry :=
  { dirty := decide (n % 2 = 1), vcla := n / 2 % UINT64_MOD,
    pcla := n / 2 / UINT64_MOD % UINT64_MOD, appID := n / 2 / UINT64_MOD / UINT64_MOD }

end CmpLLC.TagEntry

/-- `class CmpLLC` without its statistics counters; `self` is the address of the
component (`this`), `_numCPUs` the field of `MemoryComponent`. -/
structure CmpLLC where
  self : Nat
  _numCPUs : Nat
  _size : Nat
  _blockSize : Nat
  _associativity : Nat
  _policy : String
  _policyVal : Nat
  _tagStoreLatency : Nat
  _dataStoreLatency : Nat
  _numSets : Nat
  _tags : generic_tagstore_t
  _pval : policy_value_t
  _hits : List Nat
  _misses : List Nat
deriving DecidableEq, Repr

namespace CmpLLC

/-- `CmpLLC()` for the component at address `self` of a simulator with `numCPUs` CPUs;
`_pval` and `_numSets` are uninitialised (here `POLICY_HIGH` and `0`) and the tag store
is the one `generic_tagstore_t()` creates. -/
def new (self numCPUs : Nat) : CmpLLC :=
  { self := self, _numCPUs := numCPUs, _size := 1024, _blockSize := 64, _associativity := 16,
    _policy := "lru", _policyVal := 0, _tagStoreLatency := 6, _dataStoreLatency := 15,
    _numSets := 0, _tags := ⟨0, 0, "", []⟩, _pval := .POLICY_HIGH, _hits := [],
    _misses := [] }

/-- `StartSimulation()`; `nruHand` gives the uninitialised hands of NRU sets, and `none`
is a division by zero or the `exit` for an unknown policy. -/
def StartSimulation (c : CmpLLC) (nruHand : Nat → Nat) : Option CmpLLC :=
  if (c._blockSize * c._associativity) % UINT32_MOD = 0 then none
  else
    let numSets := (c._size * 1024) % UINT32_MOD / ((c._blockSize * c._associativity) % UINT32_MOD)
    (generic_tagstore_t.SetTagStoreParameters numSets c._associativity c._policy nruHand).map
      (fun ts =>
        { c with _numSets := numSets, _tags := ts,
                 _pval := match c._policyVal with
                   | 0 => .POLICY_HIGH
                   | 1 => .POLICY_BIMODAL
                   | 2 => .POLICY_LOW
                   | _ => c._pval,
                 _hits := List.replicate c._numCPUs 0,
                 _misses := List.replicate c._numCPUs 0 })

/-- The writeback request that `INSERT_BLOCK` creates for the evicted value `victim` while
it handles `request`. -/
def writeback (c : CmpLLC) (victim : TagEntry) (request : MemoryRequest) : MemoryRequest :=
  { MemoryRequest.new .COMPONENT request.cpuID c.self .WRITEBACK request.cmpID victim.vcla
      victim.pcla c._blockSize request.currentCycle with
    icount := request.icount, ip := request.ip }

/-- `INSERT_BLOCK(ctag, dirty, request)`: the cache afterwards and the requests handed to
`SendToNextComponent`. -/
def INSERT_BLOCK (c : CmpLLC) (ctag : Nat) (dirty : Bool) (request : MemoryRequest) :
    Option (CmpLLC × List MemoryRequest) :=
  if c._blockSize = 0 then none
  else
    (c._tags.insert ctag TagEntry.new.encode c._pval).bind (fun r =>
      (r.2.modifyValue ctag (fun v => TagEntry.encode
        { TagEntry.decode v with
          vcla := BLOCK_ADDRESS request.virtualAddress c._blockSize })).bind (fun t1 =>
      (t1.modifyValue ctag (fun v => TagEntry.encode
        { TagEntry.decode v with
          pcla := BLOCK_ADDRESS request.physicalAddress c._blockSize })).bind (fun t2 =>
      (t2.modifyValue ctag (fun v => TagEntry.encode
        { TagEntry.decode v with dirty := dirty })).bind (fun t3 =>
      (t3.modifyValue ctag (fun v => TagEntry.encode
        { TagEntry.decode v with appID := request.cpuID })).map (fun t4 =>
        ({ c with _tags := t4 },
          if r.1.valid then
            if (TagEntry.decode r.1.value).dirty then
              [c.writeback (TagEntry.decode r.1.value) request]
            else []
          else []))))))

/-- `ProcessRequest(request)`; `none` is the `exit(0)` for a write, a division by zero, a
failed `assert`, an access outside `_hits` or `_misses`, or the end of the function
reached without a `return` (a request type outside the `switch`). -/
def ProcessRequest (c : CmpLLC) (request : MemoryRequest) : Option (Processed CmpLLC) :=
  if request.type = .WRITE ∨ request.type = .PARTIALWRITE then none
  else if c._blockSize = 0 then none
  else
    let ctag := request.virtualAddress / c._blockSize
    match request.type with
    | .READ | .READ_FOR_WRITE | .PREFETCH =>
      (c._tags.read ctag .POLICY_HIGH).bind (fun r =>
        if r.1.valid then
          (c._hits[request.cpuID]?).map (fun h =>
            { busy := c._tagStoreLatency,
              cache := { c with _tags := r.2,
                                _hits := c._hits.set request.cpuID ((h + 1) % UINT32_MOD) },
              request := ({ request with serviced := true }).AddLatency
                ((c._tagStoreLatency + c._dataStoreLatency) % UINT32_MOD),
              sent := [] })
        else
          (c._misses[request.cpuID]?).map (fun m =>
            { busy := c._tagStoreLatency,
              cache := { c with _tags := r.2,
                                _misses := c._misses.set request.cpuID ((m + 1) % UINT32_MOD) },
              request := request.AddLatency c._tagStoreLatency,
              sent := [] }))
    | .WRITEBACK =>
      (c._tags.lookup ctag).bind (fun present =>
        if present then
          (c._tags.modifyValue ctag (fun v => TagEntry.encode
            { TagEntry.decode v with dirty := true })).map (fun t1 =>
            { busy := c._tagStoreLatency, cache := { c with _tags := t1 },
              request := { request with serviced := true }, sent := [] })
        else
          (c.INSERT_BLOCK ctag true request).map (fun r =>
            { busy := c._tagStoreLatency, cache := r.1,
              request := { request with serviced := true }, sent := r.2 }))
    | _ => none

/-- `ProcessReturn(request)`. -/
def ProcessReturn (c : CmpLLC) (request : MemoryRequest) : Option (Processed CmpLLC) :=
  if request.iniType = .COMPONENT ∧ request.iniPtr = c.self then
    some { busy := 0, cache := c, request := { request with destroy := true }, sent := [] }
  else if c._blockSize = 0 then none
  else
    let ctag := request.virtualAddress / c._blockSize
    (c._tags.lookup ctag).bind (fun present =>
      if present then some { busy := 0, cache := c, request := request, sent := [] }
      else
        (c.INSERT_BLOCK ctag false request).map (fun r =>
          { busy := 0, cache := r.1, request := request, sent := r.2 }))

end CmpLLC

/-! ## CmpCache.h -/

/-- `struct CacheTagValue` of `CmpCache`. -/
structure CmpCache.CacheTagValue where
  dirty : Bool
  prefetched : Bool
  vcla : Nat
  pcla : Nat
  reuse : Nat
deriving DecidableEq, Repr

namespace CmpCache.CacheTagValue

/-- `CacheTagValue()`; `vcla` and `pcla` are uninitialised (here `0`). -/
def new : CacheTagValue := ⟨false, false, 0, 0, 0⟩

/-- A `CacheTagValue` is stored in a table as the number whose digits are its fields: one
bit each for `dirty` and `prefetched`, 64 bits each for `vcla` and `pcla`, and `reuse`
above them. -/
def encode (v : CacheTagValue) : Nat :=
  (if v.dirty then 1 else 0) + 2 * ((if v.prefetched then 1 else 0) +
    2 * (v.vcla + UINT64_MOD * (v.pcla + UINT64_MOD * v.reuse)))

/-- The `CacheTagValue` stored as `n`. -/
def decode (n : Nat) : CacheTagValue :=
  { dirty := decide (n % 2 = 1), prefetched := decide (n / 2 % 2 = 1),
    vcla := n / 4 % UINT64_MOD, pcla := n / 4 / UINT64_MOD % UINT64_MOD,
    reuse := n / 4 / UINT64_MOD / UINT64_MOD }

end CmpCache.CacheTagValue

/-- `class CmpCache` without its statistics counters and its eviction log (`_evictionData`,
`_reuse`); `self` is the address of the component (`this`). -/
structure CmpCache where
  self : Nat
  _size : Nat
  _blockSize : Nat
  _associativity : Nat
  _policy : String
  _tagStoreLatency : Nat
  _dataStoreLatency : Nat
  _virtualTag : Bool
  _serialLookup : Bool
  _evictionLog : Bool
  _exclusive : Bool
  _forwardFake : Bool
  _demotePH : Bool
  _numSets : Nat
  _tags : generic_tagstore_t
deriving DecidableEq, Repr

namespace CmpCache

/-- `CmpCache()` for the component at address `self`; `_numSets` is uninitialised (here
`0`) and the tag store is the one `generic_tagstore_t()` creates. -/
def new (self : Nat) : CmpCache :=
  { self := self, _size := 32768, _blockSize := 64, _associativity := 2, _policy := "lru",
    _tagStoreLatency := 1, _dataStoreLatency := 2, _virtualTag := true,
    _serialLookup := false, _evictionLog := false, _exclusive := false,
    _forwardFake := false, _demotePH := false, _numSets := 0, _tags := ⟨0, 0, "", []⟩ }

/-- `StartSimulation()`; `nruHand` gives the uninitialised hands of NRU sets, and `none`
is a division by zero or the `exit` for an unknown policy. -/
def StartSimulation (c : CmpCache) (nruHand : Nat → Nat) : Option CmpCache :=
  if (c._blockSize * c._associativity) % UINT32_MOD = 0 then none
  else
    let numSets := c._size / ((c._blockSize * c._associativity) % UINT32_MOD)
    (generic_tagstore_t.SetTagStoreParameters numSets c._associativity c._policy nruHand).map
      (fun ts => { c with _numSets := numSets, _tags := ts })

/-- The cache block tag of a request: `(_virtualTag ? virtualAddress : physicalAddress) /
_blockSize`. -/
def ctag (c : CmpCache) (request : MemoryRequest) : Nat :=
  (if c._virtualTag then request.virtualAddress else request.physicalAddress) / c._blockSize

/-- The writeback request that `EvictBlock` creates for the evicted value `victim` while it
handles `request`. -/
def writeback (c : CmpCache) (victim : CacheTagValue) (request : MemoryRequest)
    (dirtyReply : Bool) : MemoryRequest :=
  { MemoryRequest.new .COMPONENT request.cpuID c.self .WRITEBACK request.cmpID victim.vcla
      victim.pcla c._blockSize request.currentCycle with
    dirtyReply := dirtyReply, icount := request.icount, ip := request.ip }

/-- `EvictBlock(tagentry, request)`: the requests handed to `SendToNextComponent`. -/
def EvictBlock (c : CmpCache) (tagentry : entry) (request : MemoryRequest) :
    List MemoryRequest :=
  if tagentry.valid then
    if (CacheTagValue.decode tagentry.value).dirty then
      [c.writeback (CacheTagValue.decode tagentry.value) request true]
    else if c._exclusive then
      [c.writeback (CacheTagValue.decode tagentry.value) request false]
    else []
  else []

/-- The latency of a hit: `(_serialLookup ? _tagStoreLatency : 0) + _dataStoreLatency`, a
`uint32`. -/
def hitLatency (c : CmpCache) : Nat :=
  ((if c._serialLookup then c._tagStoreLatency else 0) + c._dataStoreLatency) % UINT32_MOD

/-- `ProcessRequest(request)`; `none` is a division by zero, a failed `assert`, or the end
of the function reached without a `return` (a request type outside the `switch`). -/
def ProcessRequest (c : CmpCache) (request0 : MemoryRequest) : Option (Processed CmpCache) :=
  if c._blockSize = 0 then none
  else
    let ctag := c.ctag request0
    let request : MemoryRequest :=
      if request0.type = .PARTIALWRITE ∧ request0.size = c._blockSize then
        { request0 with type := .WRITEBACK }
      else if request0.type = .WRITEBACK ∧ request0.size < c._blockSize then
        { request0 with type := .PARTIALWRITE }
      else request0
    match request.type with
    | .READ | .READ_FOR_WRITE | .PREFETCH =>
      (c._tags.read ctag .POLICY_HIGH).bind (fun r =>
        if r.1.valid then
          (r.2.modifyValue ctag (fun v => CacheTagValue.encode
            { CacheTagValue.decode v with
              reuse := ((CacheTagValue.decode v).reuse + 1) % UINT32_MOD })).bind (fun t1 =>
          (t1.valueAt ctag).bind (fun v1 =>
            if (CacheTagValue.decode v1).prefetched then
              (t1.modifyValue ctag (fun v => CacheTagValue.encode
                { CacheTagValue.decode v with prefetched := false })).bind (fun t2 =>
              (if c._demotePH then (t2.read ctag .POLICY_LOW).map (fun r2 => r2.2)
                else some t2).map (fun t3 =>
                { busy := c._tagStoreLatency, cache := { c with _tags := t3 },
                  request := ({ request with serviced := true }).AddLatency c.hitLatency,
                  sent := if c._forwardFake then [{ request with type := .FAKE_READ }]
                          else [] }))
            else
              some { busy := c._tagStoreLatency, cache := { c with _tags := t1 },
                     request := ({ request with serviced := true }).AddLatency c.hitLatency,
                     sent := [] }))
        else
          some { busy := c._tagStoreLatency, cache := { c with _tags := r.2 },
                 request := request.AddLatency c._tagStoreLatency, sent := [] })
    | .WRITE =>
      (c._tags.silentupdate ctag .POLICY_HIGH).bind (fun r =>
        if r.1.valid then
          (r.2.modifyValue ctag (fun v => CacheTagValue.encode
            { CacheTagValue.decode v with dirty := true })).map (fun t1 =>
            { busy := c._tagStoreLatency, cache := { c with _tags := t1 },
              request := { request with serviced := true }, sent := [] })
        else
          some { busy := c._tagStoreLatency, cache := { c with _tags := r.2 },
                 request := request, sent := [] })
    | .PARTIALWRITE =>
      (c._tags.read ctag .POLICY_HIGH).bind (fun r =>
        if r.1.valid then
          (r.2.modifyValue ctag (fun v => CacheTagValue.encode
            { CacheTagValue.decode v with dirty := true })).map (fun t1 =>
            { busy := c._tagStoreLatency, cache := { c with _tags := t1 },
              request := ({ request with serviced := true }).AddLatency c.hitLatency,
              sent := [] })
        else
          some { busy := c._tagStoreLatency, cache := { c with _tags := r.2 },
                 request := request.AddLatency c._tagStoreLatency, sent := [] })
    | .WRITEBACK =>
      (c._tags.lookup ctag).bind (fun present =>
        if present then
          (c._tags.modifyValue ctag (fun v => CacheTagValue.encode
            { CacheTagValue.decode v with dirty := true })).map (fun t1 =>
            { busy := c._tagStoreLatency, cache := { c with _tags := t1 },
              request := { request with serviced := true }, sent := [] })
        else
          (c._tags.insert ctag CacheTagValue.new.encode .POLICY_HIGH).bind (fun r =>
          (r.2.modifyValue ctag (fun v => CacheTagValue.encode
            { CacheTagValue.decode v with dirty := true })).bind (fun t1 =>
          (t1.modifyValue ctag (fun v => CacheTagValue.encode
            { CacheTagValue.decode v with
              vcla := BLOCK_ADDRESS request.virtualAddress c._blockSize })).bind (fun t2 =>
          (t2.modifyValue ctag (fun v => CacheTagValue.encode
            { CacheTagValue.decode v with
              pcla := BLOCK_ADDRESS request.physicalAddress c._blockSize })).map (fun t3 =>
            { busy := c._tagStoreLatency, cache := { c with _tags := t3 },
              request := { request with serviced := true },
              sent := c.EvictBlock r.1 request })))))
    | _ => none

/-- `ProcessReturn(request)`. -/
def ProcessReturn (c : CmpCache) (request : MemoryRequest) : Option (Processed CmpCache) :=
  if request.iniType = .COMPONENT ∧ request.iniPtr = c.self then
    some { busy := 0, cache := c, request := { request with destroy := true }, sent := [] }
  else if c._blockSize = 0 then none
  else
    let ctag := c.ctag request
    (c._tags.lookup ctag).bind (fun present =>
      if present then some { busy := 0, cache := c, request := request, sent := [] }
      else
        (c._tags.insert ctag CacheTagValue.new.encode .POLICY_HIGH).bind (fun r =>
        (r.2.modifyValue ctag (fun v => CacheTagValue.encode
          { CacheTagValue.decode v with
            vcla := BLOCK_ADDRESS request.virtualAddress c._blockSize })).bind (fun t1 =>
        (t1.modifyValue ctag (fun v => CacheTagValue.encode
          { CacheTagValue.decode v with
            pcla := BLOCK_ADDRESS request.physicalAddress c._blockSize })).bind (fun t2 =>
        (if request.type = .WRITE ∨ request.type = .PARTIALWRITE ∨ request.dirtyReply then
            t2.modifyValue ctag (fun v => CacheTagValue.encode
              { CacheTagValue.decode v with dirty := true })
          else some t2).bind (fun t3 =>
        (if request.type = .PREFETCH then
            t3.modifyValue ctag (fun v => CacheTagValue.encode
              { CacheTagValue.decode v with prefetched := true })
          else some t3).map (fun t4 =>
          { busy := 0, cache := { c with _tags := t4 },
            request := { request with dirtyReply := false },
            sent := c.EvictBlock r.1 { request with dirtyReply := false } }))))))

end CmpCache

/-- The key is found in the table and its slot exists: `operator[]` succeeds. -/
def table_t.Present (t : table_t) (key : Nat) : Prop :=
  t.SearchForKey key ≠ t._size ∧ t.SearchForKey key < t._table.length

/-- The key is found in its set of the tag store: `operator[]` succeeds. -/
def generic_tagstore_t.Present (ts : generic_tagstore_t) (key : Nat) : Prop :=
  ∃ s, ts._sets[ts.index key]? = some s ∧ s.Present key

/-- A one-way LRU set that holds key 2 with the value `v`. -/
def table_t.oneWay (v : Nat) : table_t :=
  ((table_t.new .lru 1 0).run [.insert 2 v .POLICY_HIGH]).getD (table_t.new .lru 1 0)

/-- A `CmpLLC` at address 1 with one set of one way (1 KB, blocks of 1024 bytes), which
holds block 2 dirty. -/
def CmpLLC.oneBlock : CmpLLC :=
  { CmpLLC.new 1 1 with
    _size := 1, _blockSize := 1024, _associativity := 1, _numSets := 1,
    _hits := [0], _misses := [0],
    _tags := ⟨1, 1, "lru", [table_t.oneWay (CmpLLC.TagEntry.encode ⟨true, 2048, 6144, 0⟩)]⟩ }

/-- A `CmpCache` at address 0 with one set of one way (64 bytes, blocks of 64 bytes), which
holds block 2; `dirty` says whether the block is dirty and `exclusive` sets `_exclusive`. -/
def CmpCache.oneBlock (dirty exclusive : Bool) : CmpCache :=
  { CmpCache.new 0 with
    _size := 64, _associativity := 1, _numSets := 1, _exclusive := exclusive,
    _tags := ⟨1, 1, "lru",
      [table_t.oneWay (CmpCache.CacheTagValue.encode ⟨dirty, false, 128, 4224, 0⟩)]⟩ }

/-! ## BloomFilter.h, VictimTagStore.h -/

/-- `#define MAX_BITS 262144`. -/
def MAX_BITS : Nat := 262144

/-- The members of `bloom_filter_t` without the scratch vector `_indices`; `_filter` lists
the positions of the bits that are set. -/
structure bloom_filter_t where
  _expectedMaxCount : Nat
  _alpha : Nat
  _numHashFunctions : Nat
  _filter : List Nat
  _hashOdds : List Nat
  _logSize : Nat
  _maxBitPosition : Nat
  _numElements : Nat
  _falsePositives : Nat
  _tests : Nat
deriving DecidableEq, Repr

namespace bloom_filter_t

/-- `compute_indices(element)`: the entries `0 .. _numHashFunctions - 1` of `_indices`;
`none` is an access outside `_hashOdds` or a shift by a negative or too large amount. -/
def compute_indices (b : bloom_filter_t) (element : Nat) : Option (List Nat) :=
  if b._maxBitPosition < 64 ∧ b._logSize ≤ b._maxBitPosition then
    (List.range b._numHashFunctions).mapM (fun i =>
      (b._hashOdds[i]?).map (fun odd =>
        ((element * odd) % UINT64_MOD) % 2 ^ b._maxBitPosition /
          2 ^ (b._maxBitPosition - b._logSize)))
  else none

/-- `insert(element)`; `none` is also the exception of `bitset::set` for a position outside
the filter. -/
def insert (b : bloom_filter_t) (element : Nat) : Option bloom_filter_t :=
  (b.compute_indices element).bind (fun indices =>
    if indices.all (fun i => decide (i < MAX_BITS)) then
      some { b with _filter := indices.foldl (fun f i => if i ∈ f then f else f ++ [i])
                       b._filter,
                    _numElements := (b._numElements + 1) % UINT32_MOD }
    else none)

/-- The loop of `test` over the indices that remain: `some false` at the first clear bit,
`none` at a position outside the filter. -/
def allSet (filter : List Nat) : List Nat → Option Bool
  | [] => some true
  | i :: rest =>
    if i < MAX_BITS then
      if i ∈ filter then allSet filter rest else some false
    else none

/-- `test(element, exists)`. -/
def test (b : bloom_filter_t) (element : Nat) (exist : Bool) :
    Option (Bool × bloom_filter_t) :=
  (b.compute_indices element).bind (fun indices =>
    (allSet b._filter indices).map (fun r =>
      (r, { b with _tests := (b._tests + 1) % UINT64_MOD,
                   _falsePositives :=
                     if r && !exist then (b._falsePositives + 1) % UINT64_MOD
                     else b._falsePositives })))

/-- `clear()`. -/
def clear (b : bloom_filter_t) : bloom_filter_t :=
  { b with _filter := [], _numElements := 0 }

end bloom_filter_t

/-- The members of `victim_tag_store_t`; a `set <addr_t>` is the list of its elements in
the order of their insertion. -/
structure victim_tag_store_t where
  _numBlocks : Nat
  _useBloomFilter : Bool
  _ideal : Bool
  _noClear : Bool
  _decoupleClear : Bool
  _segmented : Bool
  _index : List Nat
  _remove : List Nat
  _bf : bloom_filter_t
  _numCurrentBlocks : Nat
  _numHits : Nat
  _fifo : List Nat
  _sindex0 : List Nat
  _sindex1 : List Nat
  _cindex : Nat
deriving DecidableEq, Repr

/-- `set::insert(x)`. -/
def set_insert (s : List Nat) (x : Nat) : List Nat := if x ∈ s then s else s ++ [x]

namespace victim_tag_store_t

/-- `initialize(numBlocks, useBloomFilter, ideal, noClear, decoupleClear, segmented,
alpha)`, where `bf` is the filter that `_bf.initialize(numBlocks, alpha)` leaves (its
floating-point and `rand()` computations are not part of this function). -/
def init (numBlocks : Nat) (useBloomFilter ideal noClear decoupleClear segmented : Bool)
    (bf : bloom_filter_t) : victim_tag_store_t :=
  { _numBlocks := numBlocks, _useBloomFilter := useBloomFilter, _ideal := ideal,
    _noClear := noClear, _decoupleClear := decoupleClear, _segmented := segmented,
    _index := [], _remove := [], _bf := bf, _numCurrentBlocks := 0, _numHits := 0,
    _fifo := [], _sindex0 := [], _sindex1 := [], _cindex := 0 }

/-- The `while` loop of `insert` in the `_noClear` case, with `_fifo.front()` before and
the `_fifo.pop_front()` after it: the tag `last` and the lists `_fifo` and `_remove`
afterwards; `none` is `front()` on an empty list. -/
def evictOldest : List Nat → List Nat → Option (Nat × List Nat × List Nat)
  | [], _ => none
  | last :: rest, remove =>
    if last ∈ remove then evictOldest rest (remove.erase last)
    else some (last, rest, remove)

/-- The state after `_bf.clear(); _fifo.clear(); _index.clear(); _numCurrentBlocks = 0;`. -/
def cleared (s : victim_tag_store_t) : victim_tag_store_t :=
  { s with _bf := s._bf.clear, _fifo := [], _index := [], _numCurrentBlocks := 0 }

/-- `insert(tag)`. -/
def insert (s : victim_tag_store_t) (tag : Nat) : Option victim_tag_store_t :=
  if s._numBlocks = 0 then some s
  else if tag ∈ s._index then some s
  else if s._segmented then
    let s1 :=
      if s._numCurrentBlocks = s._numBlocks / 2 then
        if 1 - s._cindex = 0 then
          { s with _cindex := 0, _sindex0 := [], _numCurrentBlocks := 0 }
        else { s with _cindex := 1 - s._cindex, _sindex1 := [], _numCurrentBlocks := 0 }
      else s
    if s1._cindex = 0 then
      some { s1 with _sindex0 := set_insert s1._sindex0 tag,
                     _numCurrentBlocks := (s1._numCurrentBlocks + 1) % UINT32_MOD }
    else if s1._cindex = 1 then
      some { s1 with _sindex1 := set_insert s1._sindex1 tag,
                     _numCurrentBlocks := (s1._numCurrentBlocks + 1) % UINT32_MOD }
    else none
  else
    let made : Option victim_tag_store_t :=
      if ¬ s._decoupleClear ∧ s._numCurrentBlocks = s._numBlocks then
        if s._noClear then
          (evictOldest s._fifo s._remove).map (fun r =>
            { s with _fifo := r.2.1, _remove := r.2.2, _index := s._index.erase r.1,
                     _numCurrentBlocks :=
                       (s._numCurrentBlocks + UINT32_MOD - 1) % UINT32_MOD })
        else some s.cleared
      else if s._numCurrentBlocks = (2 * s._numBlocks) % UINT32_MOD then some s.cleared
      else some s
    made.bind (fun s1 =>
      (if s1._useBloomFilter then s1._bf.insert tag else some s1._bf).map (fun bf =>
        { s1 with _bf := bf, _index := set_insert s1._index tag, _fifo := s1._fifo ++ [tag],
                  _numCurrentBlocks := (s1._numCurrentBlocks + 1) % UINT32_MOD }))

/-- `test(tag)`: the result and the state afterwards. -/
def test (s : victim_tag_store_t) (tag : Nat) : Option (Bool × victim_tag_store_t) :=
  if s._numBlocks = 0 then some (false, s)
  else if s._segmented then
    some (decide (tag ∈ s._sindex0 ∨ tag ∈ s._sindex1), s)
  else if tag ∈ s._index then
    let s1 :=
      if s._ideal then
        { s with _index := s._index.erase tag, _remove := set_insert s._remove tag,
                 _numCurrentBlocks := (s._numCurrentBlocks + UINT32_MOD - 1) % UINT32_MOD }
      else s
    (if s1._useBloomFilter then s1._bf.test tag true else some (true, s1._bf)).map (fun r =>
      let s2 := { s1 with _bf := r.2, _numHits := (s1._numHits + 1) % UINT32_MOD }
      (r.1,
        if s2._decoupleClear ∧
            (100 * s2._numHits) % UINT32_MOD = (75 * s2._numBlocks) % UINT32_MOD then
          { s2.cleared with _numHits := 0 }
        else s2))
  else if s._useBloomFilter then
    (s._bf.test tag false).map (fun r => (r.1, { s with _bf := r.2 }))
  else some (false, s)

end victim_tag_store_t

/-- A call of `insert` or `test` of a victim tag store. -/
inductive vts_op where
  | insert (tag : Nat)
  | test (tag : Nat)
deriving DecidableEq, Repr

namespace victim_tag_store_t

/-- Perform a sequence of calls, left to right: the results of the calls of `test`, in
order, and the state afterwards. -/
def run (s : victim_tag_store_t) : List vts_op → Option (List Bool × victim_tag_store_t)
  | [] => some ([], s)
  | .insert tag :: ops => (s.insert tag).bind (fun s1 => s1.run ops)
  | .test tag :: ops =>
    (s.test tag).bind (fun r => (r.2.run ops).map (fun x => (r.1 :: x.1, x.2)))

/-- The claim's account of an exact victim tag store of capacity `N`: the stored tags,
oldest first, after one call. An insert of a stored tag and a test change nothing; an
insert into a store of `N` tags first discards all of them, or only the oldest in
`noClear` mode. -/
def specStep (N : Nat) (noClear : Bool) (stored : List Nat) : vts_op → List Nat
  | .insert tag =>
    if tag ∈ stored then stored
    else if stored.length = N then
      if noClear then stored.tail ++ [tag] else [tag]
    else stored ++ [tag]
  | .test _ => stored

/-- The claim's account of a sequence of calls: the stored tags afterwards. -/
def specStored (N : Nat) (noClear : Bool) : List Nat → List vts_op → List Nat
  | stored, [] => stored
  | stored, op :: ops => specStored N noClear (specStep N noClear stored op) ops

/-- The claim's account of a sequence of calls: the results of the calls of `test`, each
`true` exactly when the tag is stored at that moment. -/
def specResults (N : Nat) (noClear : Bool) : List Nat → List vts_op → List Bool
  | _, [] => []
  | stored, .insert tag :: ops =>
    specResults N noClear (specStep N noClear stored (.insert tag)) ops
  | stored, .test tag :: ops => decide (tag ∈ stored) :: specResults N noClear stored ops

/-- A bloom filter with no hash function and no bit set. -/
def noFilter : bloom_filter_t := ⟨0, 0, 0, [], [], 0, 34, 0, 0, 0⟩

end victim_tag_store_t

/-- The state of an exact victim tag store (no bloom filter, not ideal, not segmented, not
decoupled) of capacity `N` that stores the tags `stored`, oldest first. -/
structure victim_tag_store_t.Exact (N : Nat) (noClear : Bool) (s : victim_tag_store_t)
    (stored : List Nat) : Prop where
  numBlocks : s._numBlocks = N
  useBloomFilter : s._useBloomFilter = false
  ideal : s._ideal = false
  noClear : s._noClear = noClear
  decoupleClear : s._decoupleClear = false
  segmented : s._segmented = false
  index : s._index = stored
  fifo : s._fifo = stored
  remove : s._remove = []
  count : s._numCurrentBlocks = stored.length
  bound : stored.length ≤ N
  nodup : stored.Nodup

/-! ## CmpMSHR.h -/

/-- `m[k] = v` on a `std::map` with keys `addr_t`, kept as the list of its pairs in the
order in which the keys were first inserted. -/
def amap_set {α : Type} (m : List (Nat × α)) (k : Nat) (v : α) : List (Nat × α) :=
  if (m.lookup k).isSome then m.map (fun kv => if kv.1 = k then (k, v) else kv)
  else m ++ [(k, v)]

/-- `m.erase(k)`. -/
def amap_erase {α : Type} (m : List (Nat × α)) (k : Nat) : List (Nat × α) :=
  m.filter (fun kv => kv.1 != k)

/-- `class CmpMSHR` with what it reaches through pointers: the parameters, `_missed`,
`_waitQ`, `_outstanding` (`_handler` is only ever cleared), the `_queue` of
`MemoryComponent`, the request objects (a request pointer is an index of `requests`),
and the requests handed to `SendToNextComponent` in call order; `self` is the address of
the component (`this`). `ProcessRequest` and `ProcessReturn` run inside
`ProcessPendingRequests`, so that `_processing` is set and an `AddRequest` to the MSHR
itself only pushes the request on `_queue`. -/
structure CmpMSHR where
  self : Nat
  _count : Nat
  _blockSize : Nat
  _missed : List (Nat × List Nat)
  _waitQ : List Nat
  _outstanding : List (Nat × Nat)
  _queue : List Nat
  requests : List MemoryRequest
  sent : List Nat
deriving DecidableEq, Repr

namespace CmpMSHR

/-- `CmpMSHR()` and `StartSimulation()` for the component at address `self`, with the
request objects `requests`. -/
def new (self : Nat) (requests : List MemoryRequest) : CmpMSHR :=
  { self := self, _count := 32, _blockSize := 64, _missed := [], _waitQ := [],
    _outstanding := [], _queue := [], requests := requests, sent := [] }

/-- Write request `r`. -/
def setRequest (s : CmpMSHR) (r : Nat) (req : MemoryRequest) : CmpMSHR :=
  { s with requests := s.requests.set r req }

/-- `SendToNextComponent(request)`: the call is recorded and the rest of the hierarchy
acts. -/
def SendToNextComponent (next : Hierarchy) (s : CmpMSHR) (r : Nat) : CmpMSHR :=
  { s with requests := (next r s.requests s._queue).1, _queue := (next r s.requests s._queue).2,
           sent := s.sent ++ [r] }

/-- The miss request that `ProcessRequest` creates for `req`. -/
def missFor (s : CmpMSHR) (req : MemoryRequest) : MemoryRequest :=
  { MemoryRequest.new .COMPONENT req.cpuID s.self .READ req.cmpID req.virtualAddress
      (req.physicalAddress / s._blockSize * s._blockSize) s._blockSize req.currentCycle with
    type := if req.type = .WRITE then .READ_FOR_WRITE else req.type,
    icount := req.icount }

/-- `ProcessRequest(request)` on the request object `r`: the returned busy cycles and the
state; `none` is an access through a pointer to no object or a division by zero. -/
def ProcessRequest (next : Hierarchy) (s : CmpMSHR) (r : Nat) : Option (Nat × CmpMSHR) :=
  match s.requests[r]? with
  | none => none
  | some req =>
    if req.type = .WRITEBACK then some (0, s)
    else if s._blockSize = 0 then none
    else
      let blockAddr := req.physicalAddress / s._blockSize * s._blockSize
      match s._missed.lookup blockAddr with
      | some waiting =>
        if req.type = .WRITE then some (0, s.setRequest r { req with serviced := true })
        else
          let s1 : Option CmpMSHR :=
            if req.type = .READ then
              match s._outstanding.lookup blockAddr with
              | none => none
              | some m =>
                (s.requests[m]?).map (fun mo => s.setRequest m { mo with type := .READ })
            else some s
          s1.bind (fun s1 =>
            (s1.requests[r]?).map (fun req1 =>
              (0, { s1.setRequest r { req1 with stalling := true } with
                    _missed := amap_set s1._missed blockAddr (waiting ++ [r]) })))
      | none =>
        if s._count ≠ 0 ∧ s._missed.length = s._count then
          some (0, { s.setRequest r { req with stalling := true } with
                     _waitQ := s._waitQ ++ [r] })
        else
          let m := s.requests.length
          let s1 : CmpMSHR :=
            { s with requests := s.requests ++ [s.missFor req],
                     _missed := amap_set s._missed blockAddr [],
                     _outstanding := amap_set s._outstanding blockAddr m }
          let s2 : CmpMSHR :=
            if req.type = .WRITE then s1.setRequest r { req with serviced := true }
            else
              { s1.setRequest r { req with stalling := true } with
                _missed := amap_set s1._missed blockAddr [r] }
          some (0, s2.SendToNextComponent next m)

/-- The `for` loop of `ProcessReturn` over the waiting requests that remain; `rp` is the
returning request. -/
def wake (rp : Nat) : List Nat → CmpMSHR → Option CmpMSHR
  | [], s => some s
  | x :: xs, s =>
    match s.requests[rp]?, s.requests[x]? with
    | some reply, some w =>
      wake rp xs
        { s.setRequest x
            { w with stalling := false, serviced := true, currentCycle := reply.currentCycle,
                     dirtyReply := if reply.dirtyReply then true else w.dirtyReply } with
          _queue := s._queue ++ [x] }
    | _, _ => none

/-- `ProcessReturn(request)` on the request object `r`; `none` is also the failed
`assert`. -/
def ProcessReturn (s : CmpMSHR) (r : Nat) : Option (Nat × CmpMSHR) :=
  match s.requests[r]? with
  | none => none
  | some req =>
    if req.iniType ≠ .COMPONENT ∨ req.iniPtr ≠ s.self then some (0, s)
    else
      match s._missed.lookup req.physicalAddress with
      | none => none
      | some waiting =>
        (wake r waiting s).bind (fun s1 =>
          let s2 : CmpMSHR :=
            { s1 with _missed := amap_erase s1._missed req.physicalAddress,
                      _outstanding := amap_erase s1._outstanding req.physicalAddress }
          let s3 : Option CmpMSHR :=
            match s2._waitQ with
            | [] => some s2
            | front :: rest =>
              (s2.requests[front]?).map (fun f =>
                { s2.setRequest front { f with stalling := false } with
                  _waitQ := rest, _queue := s2._queue ++ [front] })
          s3.bind (fun s3 =>
            (s3.requests[r]?).map (fun req3 =>
              (0, s3.setRequest r { req3 with destroy := true }))))

end CmpMSHR

/-- What happens to an MSHR: `ProcessRequest` or `ProcessReturn` is called on a request, or
other components create and change request objects. -/
inductive MSHREvent where
  | request (r : Nat)
  | reply (r : Nat)
  | world (requests : List MemoryRequest)
deriving Repr

/-- Perform one event. -/
def CmpMSHR.step (next : Hierarchy) (s : CmpMSHR) : MSHREvent → Option CmpMSHR
  | .request r => (s.ProcessRequest next r).map (fun x => x.2)
  | .reply r => (s.ProcessReturn r).map (fun x => x.2)
  | .world requests => some { s with requests := requests }

/-- Perform a sequence of events, left to right. -/
def CmpMSHR.run (next : Hierarchy) (s : CmpMSHR) : List MSHREvent → Option CmpMSHR
  | [] => some s
  | e :: es => (s.step next e).bind (fun s1 => s1.run next es)

/-- A request woken by the return of a miss whose reply has `currentCycle = c` and
`dirtyReply = d`: not stalling, serviced, stamped with the cycle of the reply, and dirty
if the reply is. -/
def CmpMSHR.Woken (c : Nat) (d : Bool) (w : MemoryRequest) : Prop :=
  w.stalling = false ∧ w.serviced = true ∧ w.currentCycle = c ∧
    (d = true → w.dirtyReply = true)
/-- A new MSHR at address 7 with three requests of CPU 0 on the block at 4096: a read, a
second read and a write. -/
def CmpMSHR.threeOnBlock : CmpMSHR :=
  CmpMSHR.new 7
    [MemoryRequest.new .CPU 0 0 .READ 0 4104 4104 8 10,
     MemoryRequest.new .CPU 0 0 .READ 0 4112 4112 8 11,
     MemoryRequest.new .CPU 0 0 .WRITE 0 4128 4128 8 12]

/-- The state of `threeOnBlock` once the first read has missed: object 3 is the
outstanding miss on block 4096. -/
def CmpMSHR.afterMiss : CmpMSHR :=
  (CmpMSHR.threeOnBlock.run Hierarchy.idle [.request 0]).getD CmpMSHR.threeOnBlock

/-- Then the second read is processed. -/
def CmpMSHR.afterRead : CmpMSHR :=
  (CmpMSHR.afterMiss.run Hierarchy.idle [.request 1]).getD CmpMSHR.threeOnBlock

/-- Then the write is processed. -/
def CmpMSHR.afterWrite : CmpMSHR :=
  (CmpMSHR.afterRead.run Hierarchy.idle [.request 2]).getD CmpMSHR.threeOnBlock

/-- Then the memory answers the miss at cycle 500 with a dirty reply. -/
def CmpMSHR.replied : CmpMSHR :=
  { CmpMSHR.afterWrite with
    requests := CmpMSHR.afterWrite.requests.modify
      (fun m => { m with currentCycle := 500, dirtyReply := true }) 3 }

/-- The capacity invariant of an MSHR with `count` entries: `_missed` holds at most `count`
blocks, each once, and `_outstanding` holds the same blocks. -/
structure CmpMSHR.Capacity (count : Nat) (s : CmpMSHR) : Prop where
  count_eq : s._count = count
  bound : s._missed.length ≤ count
  keys : s._missed.map Prod.fst = s._outstanding.map Prod.fst
  nodup : (s._missed.map Prod.fst).Nodup

/-- A new MSHR at address 7 with one partial write of CPU 0 on the block at 4096. -/
def CmpMSHR.partialWrite : CmpMSHR :=
  CmpMSHR.new 7 [MemoryRequest.new .CPU 0 0 .PARTIALWRITE 0 4104 4104 8 10]

/-- The state of `partialWrite` once the partial write has missed: object 1 is the
outstanding miss on block 4096. -/
def CmpMSHR.partialMiss : CmpMSHR :=
  (CmpMSHR.partialWrite.run Hierarchy.idle [.request 0]).getD CmpMSHR.partialWrite

/-- The outstanding miss of `partialMiss` as `CmpCache::ProcessRequest` of the next
component, a cache with blocks of 64 bytes that does not hold the block, leaves it. -/
def CmpMSHR.cacheAnswer : Option MemoryRequest :=
  (CmpMSHR.partialMiss.requests[1]?).bind (fun miss =>
    ((CmpCache.oneBlock false false).ProcessRequest miss).map (fun p => p.request))

/-- A new MSHR at address 7 with a single entry and two reads of CPU 0, on the blocks at
4096 and at 8192. -/
def CmpMSHR.single : CmpMSHR :=
  { CmpMSHR.new 7
      [MemoryRequest.new .CPU 0 0 .READ 0 4104 4104 8 10,
       MemoryRequest.new .CPU 0 0 .READ 0 8200 8200 8 11] with
    _count := 1, _blockSize := 64 }

/-- The state of `single` once the first read has missed: the only entry is in use. -/
def CmpMSHR.singleFull : CmpMSHR :=
  (CmpMSHR.single.run Hierarchy.idle [.request 0]).getD CmpMSHR.single

/-- A call of `set`, `increment` or `decrement` of a saturating counter. -/
inductive counter_op where
  | set (value : Nat)
  | increment
  | decrement
deriving DecidableEq, Repr

/-- Perform one call on a saturating counter. -/
def saturating_counter.step (c : saturating_counter) : counter_op → saturating_counter
  | .set value => c.set value
  | .increment => c.increment
  | .decrement => c.decrement

/-- Perform a sequence of calls, left to right. -/
def saturating_counter.run (c : saturating_counter) : List counter_op → saturating_counter
  | [] => c
  | op :: ops => (c.step op).run ops

/-- The tag is found in the exact structures that `test` consults: the two segments in
segmented mode, `_index` otherwise. -/
def victim_tag_store_t.present (s : victim_tag_store_t) (tag : Nat) : Bool :=
  if s._segmented then decide (tag ∈ s._sindex0 ∨ tag ∈ s._sindex1)
  else decide (tag ∈ s._index)

/-- The invariant of a victim tag store of capacity `N` in `decoupleClear` mode (not
segmented): the hit counter stays below `0.75 * N`. -/
structure victim_tag_store_t.Decoupled (N : Nat) (s : victim_tag_store_t) : Prop where
  numBlocks : s._numBlocks = N
  decoupleClear : s._decoupleClear = true
  segmented : s._segmented = false
  hits : 4 * s._numHits < 3 * N

/-- The slot indices met from the node pointer `p` along the `next` pointers, at most
`fuel` nodes: the recency list as it is read from `_head`. -/
def dlist.walk (nodes : List ListNode) : Nat → Option Nat → List Nat
  | 0, _ => []
  | _ + 1, none => []
  | fuel + 1, some p =>
    match nodes[p]? with
    | none => []
    | some n => n.index :: dlist.walk nodes fuel n.next

/-- A DIP table of two slots filled with keys 10 and 20. -/
def table_t.dipFull : table_t :=
  ((table_t.new .dip 2 0).run
    [.insert 10 1 .POLICY_HIGH, .insert 20 2 .POLICY_HIGH]).getD (table_t.new .dip 2 0)

/-- The counters of an SRRIP table are 3-bit: maximum 7, value at most 7. -/
def policy_t.SrripBounded (p : policy_t) : Prop :=
  ∃ rrpv, p = .srrip rrpv ∧ ∀ c ∈ rrpv, c._max = 7 ∧ c._value ≤ 7

namespace CmpMSHR

/-- The `currentCycle` of request `r`, read by `ComparePointers`. -/
def cycleOf (s : CmpMSHR) (r : Nat) : Nat :=
  match s.requests[r]? with
  | some req => req.currentCycle
  | none => 0

/-- `_queue.top()`: a request of least `currentCycle`, the earliest pushed among equals. -/
def queue_top (s : CmpMSHR) : List Nat → Option Nat
  | [] => none
  | r :: rest =>
    some (rest.foldl (fun best x => if s.cycleOf x < s.cycleOf best then x else best) r)

/-- The `while (request -> stalling)` loop of `EarliestRequest`, at most `fuel`
iterations, entered with the local variable `request`: the queue, `request` and the local
list `stalling` afterwards. `_queue.pop()` removes `request`, the top of the queue. -/
def skipStalling (s : CmpMSHR) : Nat → List Nat → Nat → List Nat →
    Option (List Nat × Nat × List Nat)
  | 0, _, _, _ => none
  | fuel + 1, queue, request, stalling =>
    match s.requests[request]? with
    | none => none
    | some req =>
      if req.stalling then
        match s.queue_top (queue.erase request) with
        | none => some (queue.erase request, request, stalling ++ [request])
        | some r1 => skipStalling s fuel (queue.erase request) r1 (stalling ++ [request])
      else some (queue, request, stalling)

/-- `EarliestRequest()`: the returned pointer (`none` is `NULL`) and the state; the
requests of the local list `stalling` are pushed back on the queue. -/
def EarliestRequest (s : CmpMSHR) : Option (Option Nat × CmpMSHR) :=
  match s.queue_top s._queue with
  | none => some (none, s)
  | some request =>
    (s.skipStalling (s._queue.length + 1) s._queue request []).bind (fun r =>
      (s.requests[r.2.1]?).map (fun req =>
        (if req.stalling then none else some r.2.1, { s with _queue := r.1 ++ r.2.2 })))

/-- Request `r` is an object that is marked stalling. -/
def isStalling (s : CmpMSHR) (r : Nat) : Prop :=
  ∃ req, s.requests[r]? = some req ∧ req.stalling = true

end CmpMSHR
/-- An MSHR whose queue holds three requests: request 0 at cycle 5, stalling, request 1 at
cycle 9 and request 2 at cycle 7. -/
def CmpMSHR.threeQueued : CmpMSHR :=
  { CmpMSHR.new 7
      [{ MemoryRequest.new .CPU 0 0 .READ 0 4104 4104 8 5 with stalling := true },
       MemoryRequest.new .CPU 0 0 .READ 0 8200 8200 8 9,
       MemoryRequest.new .CPU 0 0 .READ 0 12296 12296 8 7] with
    _queue := [0, 1, 2] }

namespace CmpDRAMCtlr

/-- `channel -> nextIssueCycle` of channel `ch`. -/
def chanNext (s : CmpDRAMCtlr) (ch : Nat) : Option CmdArray :=
  (s._channels[ch]?).map (fun c => c.nextIssueCycle)

/-- A column command. -/
def isColumn (cmd : DRAMCommand) : Prop := cmd = .CMD_READ ∨ cmd = .CMD_WRITE

/-- What `ScheduleRequest` adds to the controller cycle for the `nextIssueCycle[c2]` of the
channel when it issues the column command `c1`, before it subtracts `busSlack`. -/
def busInterval (s : CmpDRAMCtlr) : DRAMCommand → DRAMCommand → Nat
  | .CMD_READ, .CMD_READ => s._tCCD
  | .CMD_READ, .CMD_WRITE => s._tCL + s._tBL + s._tRTW
  | .CMD_WRITE, .CMD_WRITE => s._tCCD
  | .CMD_WRITE, .CMD_READ => s._tCWL + s._tBL + s._tWTR
  | _, _ => 0

/-- What `ScheduleRequest` subtracts: `_tCWL` for a write after a read. -/
def busSlack (s : CmpDRAMCtlr) : DRAMCommand → DRAMCommand → Nat
  | .CMD_READ, .CMD_WRITE => s._tCWL
  | _, _ => 0

/-- The timing parameters of the channel bus: `_tCL`, `_tBL`, `_tRTW`, `_tCWL`, `_tWTR`,
`_tCCD`. -/
def busParams (s : CmpDRAMCtlr) : List Nat :=
  [s._tCL, s._tBL, s._tRTW, s._tCWL, s._tWTR, s._tCCD]

/-- The invariant behind the bus turnaround times, for simulator cycles up to `B`: every
column command in the record is accounted for in the `nextIssueCycle` of its channel, and
of two column commands on the same channel the later one respects the interval. -/
structure BusInv (B : Nat) (s : CmpDRAMCtlr) : Prop where
  base : TimingInv B s
  params : s._tBL < UINT32_MOD ∧ s._tRTW < UINT32_MOD ∧ s._tWTR < UINT32_MOD
  covers : ∀ e ∈ s.issued, isColumn e.cmd → ∀ a, s.chanNext e.channel = some a →
    ∀ c2, isColumn c2 → e.cycle + s.busInterval e.cmd c2 ≤ a.get c2 + s.busSlack e.cmd c2
  timing : s.issued.Pairwise (fun e1 e2 =>
    e1.channel = e2.channel → isColumn e1.cmd → isColumn e2.cmd →
      e1.cycle + s.busInterval e1.cmd e2.cmd ≤ e2.cycle + s.busSlack e1.cmd e2.cmd)

end CmpDRAMCtlr

/-- The default controller with a single write buffer, so that one queued write switches
the channel to write mode. -/
def CmpDRAMCtlr.oneWriteBuffer : CmpDRAMCtlr :=
  { CmpDRAMCtlr.new with _numWriteBuffers := 1 }

/-- A read of bank 0, row 0 at simulator cycle 0, a writeback to the same row entered at
cycle 60, a second read of the row entered at cycle 100, and then the simulator cycle
300. -/
def CmpDRAMCtlr.readWriteRead : List DRAMEvent :=
  [.world [MemoryRequest.new .CPU 0 0 .READ 0 0 0 64 0,
           MemoryRequest.new .CPU 0 0 .WRITEBACK 0 64 64 64 0,
           MemoryRequest.new .CPU 0 0 .READ 0 128 128 64 100],
   .add 0, .advance 60, .add 1, .advance 100, .add 2, .advance 300]

/-- A call of `insert(element)` or `test(element, exists)` of `bloom_filter_t`. -/
inductive bf_op where
  | insert (element : Nat)
  | test (element : Nat) (exist : Bool)
deriving DecidableEq, Repr

/-- A sequence of `insert` and `test` calls, left to right. -/
def bloom_filter_t.run (b : bloom_filter_t) : List bf_op → Option bloom_filter_t
  | [] => some b
  | .insert e :: ops => (b.insert e).bind (fun b1 => b1.run ops)
  | .test e ex :: ops => (b.test e ex).bind (fun r => r.2.run ops)

/-- A filter made by `initialize` (`_maxBitPosition = 34`, one multiplier for each hash
function) whose `_logSize` is at most `L`. -/
def bloom_filter_t.Sized (L : Nat) (b : bloom_filter_t) : Prop :=
  b._maxBitPosition = 34 ∧ b._logSize ≤ L ∧ b._hashOdds.length = b._numHashFunctions

/-- A filter of `2 ^ 4` bits with the two multipliers 3 and 5. -/
def bloom_filter_t.twoHashes : bloom_filter_t := ⟨2, 8, 2, [], [3, 5], 4, 34, 0, 0, 0⟩

/-- The tag that a call inserts, if it is an `insert`. -/
def vts_op.inserted : vts_op → Option Nat
  | .insert tag => some tag
  | .test _ => none

/-- The occupancy invariant of a victim tag store of capacity `N` that is neither ideal nor
segmented, with `_decoupleClear = dc`: `_fifo` lists the stored tags without duplicates,
`_index` holds the same tags, the occupancy counter is their number, and the occupancy is
at most `N`, or in `decoupleClear` mode at most the `uint32` product `2 * N`. -/
structure victim_tag_store_t.Occupancy (N : Nat) (dc : Bool) (s : victim_tag_store_t) :
    Prop where
  numBlocks : s._numBlocks = N
  ideal : s._ideal = false
  segmented : s._segmented = false
  decoupleClear : s._decoupleClear = dc
  remove : s._remove = []
  index : s._index = s._fifo
  nodup : s._fifo.Nodup
  count : s._numCurrentBlocks = s._fifo.length
  bound : s._fifo.length ≤ (if dc then (2 * N) % UINT32_MOD else N)

/-- A `decoupleClear` store of capacity `2 ^ 31` without bloom filter in which the tags
`0 .. k - 1` have been inserted and the occupancy counter, a `uint32`, has counted them. -/
def victim_tag_store_t.counting (k : Nat) : victim_tag_store_t :=
  { _numBlocks := 2 ^ 31, _useBloomFilter := false, _ideal := false, _noClear := false,
    _decoupleClear := true, _segmented := false, _index := List.range k, _remove := [],
    _bf := victim_tag_store_t.noFilter, _numCurrentBlocks := k % UINT32_MOD, _numHits := 0,
    _fifo := List.range k, _sindex0 := [], _sindex1 := [], _cindex := 0 }

/-- The slots at which the `while` condition of `generation_table_t::GetReplacementIndex`
is evaluated, in order, within `fuel` iterations. -/
def generation_visits : Nat → List Generation → cyclic_pointer → List entry → List Nat
  | 0, _, _, _ => []
  | fuel + 1, nodes, hand, tbl =>
    match nodes[hand._hand]?, tbl[hand._hand]? with
    | some g, some e =>
      if g.generation._value = 0 ∧ g.referenced = false ∧ e.valid = true then [hand._hand]
      else
        hand._hand :: generation_visits fuel (nodes.set hand._hand g.sweep) hand.increment tbl
    | _, _ => [hand._hand]

/-- The generation counters of a generation table are 2-bit: maximum 3, value at most
3. -/
def policy_t.GenBounded (p : policy_t) : Prop :=
  ∃ nodes hand, p = .generation nodes hand ∧
    ∀ g ∈ nodes, g.generation._max = 3 ∧ g.generation._value ≤ 3

namespace CmpDRAMCtlr

/-- Request `req` is a row hit in channel `ch`: its bank is activated with its row
open. -/
def rowHitOn (s : CmpDRAMCtlr) (ch : Nat) (req : MemoryRequest) : Prop :=
  ∃ bank, s.getBank ch req.dramRankID req.dramBankID = some bank ∧
    bank.state = .BANK_ACTIVATED ∧ bank.openRow = req.dramRowID

/-- What the first loop of `FRFCFSDWFScheduler` leaves of a request `r` that it has passed
without issuing a command: a row hit whose bank index is in `rowHitPresent`, or a
precharged bank and a `currentCycle` after the controller cycle, or an activated bank with
another row open. -/
def Settled (s : CmpDRAMCtlr) (ch : Nat) (rowHit : List Nat) (r : Nat) : Prop :=
  ∃ req bank, s.requests[r]? = some req ∧
    s.getBank ch req.dramRankID req.dramBankID = some bank ∧
    ((bank.state = .BANK_ACTIVATED ∧ bank.openRow = req.dramRowID ∧
        req.dramBankID ∈ rowHit) ∨
      (bank.state = .BANK_PRECHARGED ∧ s._currentCycle < req.currentCycle) ∨
      (bank.state = .BANK_ACTIVATED ∧ bank.openRow ≠ req.dramRowID))

/-- The requests `req` and `req1` name the same rank, bank and row. -/
def samePlace (req req1 : MemoryRequest) : Prop :=
  req1.dramRankID = req.dramRankID ∧ req1.dramBankID = req.dramBankID ∧
    req1.dramRowID = req.dramRowID

/-- From `s` to `s1` no command has been issued: the channels with their banks, the
record of issued commands and the controller cycle are the same, and every request names
the rank, bank and row it named. -/
def OnlyCycles (s s1 : CmpDRAMCtlr) : Prop :=
  s1._channels = s._channels ∧ s1.issued = s.issued ∧ s1._currentCycle = s._currentCycle ∧
    ∀ (r : Nat) (req1 : MemoryRequest), s1.requests[r]? = some req1 →
      ∃ req, s.requests[r]? = some req ∧ samePlace req req1

end CmpDRAMCtlr

/-- Two reads of bank 0 of a controller with the default parameters, rows 0 and 1, both
entered at simulator cycle 0, and then the simulator cycle 40. -/
def CmpDRAMCtlr.rowMissEvents : List DRAMEvent :=
  [.world [MemoryRequest.new .CPU 0 0 .READ 0 0 0 64 0,
           MemoryRequest.new .CPU 0 0 .READ 0 65536 65536 64 0],
   .add 0, .add 1, .advance 40]

/-- The controller after `rowMissEvents` (the read of row 0 is served, row 0 is open and
the read of row 1 waits), taken at the controller cycle 96. -/
def CmpDRAMCtlr.rowMiss : CmpDRAMCtlr :=
  { ((CmpDRAMCtlr.new.StartSimulation.run Hierarchy.idle 60
      CmpDRAMCtlr.rowMissEvents).getD CmpDRAMCtlr.new) with _currentCycle := 96 }

/-! ## MemoryComponent.h: the base drain loop with the virtual functions as parameters -/

/-- What the virtual `ProcessRequest(request)` (`false`) or `ProcessReturn(request)`
(`true`) of a derived class does: it is given the request pointer, the request objects and
the queue of the component, and returns the busy cycles, the request objects and the
queue. It does not write `_currentCycle`, and no component writes the simulator cycle. -/
abbrev Processing : Type :=
  Bool → Nat → List MemoryRequest → List Nat → Nat × List MemoryRequest × List Nat

/-- One call of `ProcessRequest` or `ProcessReturn` by the drain loop: the request, its
`currentCycle` when it was taken from the queue and when the function is entered, the
`_currentCycle` of the component when the function is entered and after
`_currentCycle += busyCycles`, and the simulator cycle. -/
structure DrainCall where
  isReturn : Bool
  request : Nat
  dequeued : Nat
  requestCycle : Nat
  localCycle : Nat
  localAfter : Nat
  simulatorCycle : Nat
deriving DecidableEq, Repr

/-- A component with what its drain loop reads and writes: the simulator cycle behind
`_simulatorCycle`, the request objects, and the record of the calls of the virtual
functions. -/
structure ComponentWorld where
  cmp : MemoryComponent
  simulatorCycle : Nat
  requests : List MemoryRequest
  calls : List DrainCall
deriving DecidableEq, Repr

namespace ComponentWorld

/-- The `currentCycle` of request `r`, read by `ComparePointers`. -/
def cycleOf (w : ComponentWorld) (r : Nat) : Nat :=
  match w.requests[r]? with
  | some req => req.currentCycle
  | none => 0

/-- `_queue.top()`: a request of least `currentCycle`, the earliest pushed among equals. -/
def queue_top (w : ComponentWorld) : List Nat → Option Nat
  | [] => none
  | r :: rest =>
    some (rest.foldl (fun best x => if w.cycleOf x < w.cycleOf best then x else best) r)

/-- The `while` loop of `MemoryComponent::ProcessPendingRequests()`, entered with the
local variable `request = r`; `none` is a pointer to no object or a loop that outlasts
`fuel`. -/
def drainLoop (process : Processing) (send : Hierarchy) :
    Nat → Nat → ComponentWorld → Option ComponentWorld
  | 0, _, _ => none
  | fuel + 1, r, w =>
    match w.requests[r]? with
    | none => none
    | some req =>
      if req.currentCycle ≤ w.simulatorCycle then
        let popped := w.cmp._queue.erase r
        if w.cmp._currentCycle > w.simulatorCycle then
          drainLoop process send fuel r
            { w with
              requests := w.requests.set r { req with currentCycle := w.cmp._currentCycle }
              cmp := { w.cmp with _queue := popped ++ [r] } }
        else
          let now := max req.currentCycle w.cmp._currentCycle
          let entered :=
            if req.serviced then w.requests
            else w.requests.set r { req with currentCycle := now }
          let out := process req.serviced r entered popped
          let sent := send r out.2.1 out.2.2
          let w1 : ComponentWorld :=
            { cmp := { w.cmp with _currentCycle := add64 now out.1, _queue := sent.2 }
              simulatorCycle := w.simulatorCycle
              requests := sent.1
              calls := w.calls ++
                [⟨req.serviced, r, req.currentCycle,
                  if req.serviced then req.currentCycle else now, now, add64 now out.1,
                  w.simulatorCycle⟩] }
          match w1.queue_top w1.cmp._queue with
          | none => some { w1 with cmp := { w1.cmp with _processing := false } }
          | some r1 => drainLoop process send fuel r1 w1
      else some { w with cmp := { w.cmp with _processing := false } }

/-- `MemoryComponent::ProcessPendingRequests()`. -/
def ProcessPendingRequests (process : Processing) (send : Hierarchy) (fuel : Nat)
    (w : ComponentWorld) : Option ComponentWorld :=
  if w.cmp._processing then some w
  else
    match w.queue_top w.cmp._queue with
    | none => some w
    | some r => drainLoop process send fuel r { w with cmp := { w.cmp with _processing := true } }

end ComponentWorld

/-- A component behaviour in which `ProcessRequest` takes 3 cycles and marks the request
serviced and `ProcessReturn` takes 1 cycle. -/
def Processing.threeCycles : Processing := fun isReturn r requests queue =>
  if isReturn then (1, requests, queue)
  else (3, requests.modify (fun q => { q with serviced := true }) r, queue)

/-- A component at local cycle 2 with the requests 0 (cycle 5) and 1 (cycle 4) queued,
the simulator at cycle 10. -/
def ComponentWorld.twoQueued : ComponentWorld :=
  { cmp := { _currentCycle := 2, _processing := false, _queue := [0, 1] }
    simulatorCycle := 10
    requests := [MemoryRequest.new .CPU 0 0 .READ 0 0 0 64 5,
                 MemoryRequest.new .CPU 0 0 .READ 0 64 64 64 4]
    calls := [] }

/-- A call of a virtual function made in time: neither the `currentCycle` the request had
in the queue, nor the one with which the function is entered, nor the `_currentCycle` of
the component lies after the simulator cycle; the request has not gone back in time; and
`ProcessRequest` is entered with the `currentCycle` of the request equal to the
`_currentCycle` of the component. -/
def DrainCall.Timely (e : DrainCall) : Prop :=
  e.dequeued ≤ e.simulatorCycle ∧ e.requestCycle ≤ e.simulatorCycle ∧
    e.localCycle ≤ e.simulatorCycle ∧ e.dequeued ≤ e.requestCycle ∧
    e.dequeued ≤ e.localCycle ∧
    (e.isReturn = false → e.requestCycle = e.localCycle)

/-! ## CmpRTBCache.h -/

/-- `count(index)` of `generic_tagstore_t`: `_sets[index].count()`. -/
def generic_tagstore_t.count (ts : generic_tagstore_t) (index : Nat) : Option Nat :=
  (ts._sets[index]?).map (fun s => s.count)

/-- `to_be_evicted(index)` of `generic_tagstore_t`: `_sets[index].to_be_evicted()`, with the
tag store after the call. -/
def generic_tagstore_t.to_be_evicted (ts : generic_tagstore_t) (index : Nat) :
    Option (Nat × generic_tagstore_t) :=
  (ts._sets[index]?).bind (fun s =>
    s.to_be_evicted.map (fun r => (r.1, { ts with _sets := ts._sets.set index r.2 })))

/-- A `saturating_counter` stored as the value of a table: `_value` in the low 32 bits and
`_max` above them. -/
def saturating_counter.encode (c : saturating_counter) : Nat :=
  c._value + UINT32_MOD * c._max

/-- The `saturating_counter` stored as `n`. -/
def saturating_counter.decode (n : Nat) : saturating_counter :=
  { _value := n % UINT32_MOD, _max := n / UINT32_MOD }

/-- The access `m[k].f()` to a `std::map <addr_t, saturating_counter>`: `operator[]` stores
a `saturating_counter()` (maximum 0, value 0) for a key that has no counter, and `f` is
applied to the counter of `k`. -/
def pMAT_at (m : List (Nat × saturating_counter)) (k : Nat)
    (f : saturating_counter → saturating_counter) : List (Nat × saturating_counter) :=
  amap_set m k (f ((m.lookup k).getD (saturating_counter.new 0 0)))

/-- `class CmpRTBCache` without its statistics counters and its log file. `struct TagEntry`
has the fields of the `TagEntry` of `CmpLLC` and is stored in the tag store in the same
way; `_MAT` is the table that `_MAT._table` points to, its values are counters stored with
`saturating_counter.encode`; `self` is the address of the component (`this`), `_numCPUs`
the field of `MemoryComponent`. -/
structure CmpRTBCache where
  self : Nat
  _numCPUs : Nat
  _size : Nat
  _blockSize : Nat
  _associativity : Nat
  _policy : String
  _tagStoreLatency : Nat
  _dataStoreLatency : Nat
  _MATSize : Nat
  _MATmax : Nat
  _numSets : Nat
  _tags : generic_tagstore_t
  _pMAT : List (Nat × saturating_counter)
  _MAT : table_t
  _occupancy : List Nat
  _hits : List Nat
  _misses : List Nat
deriving DecidableEq, Repr

namespace CmpRTBCache

/-- Lines 309–326 of `INSERT_BLOCK`: `mval`, `cand_mval` and the cache after the counter of
the incoming region `mtag` has been read and the counter of the candidate's region
`cand_mtag`, if there is one, decremented and read. `none` is a failed `assert` of
`operator[]` of `_MAT`. -/
def regionCounters (c : CmpRTBCache) (mtag cand_mtag : Nat) :
    Option (Nat × Nat × CmpRTBCache) :=
  if c._MATSize ≠ 0 then
    (c._MAT.valueAt mtag).bind (fun v =>
      if c._MAT.lookup cand_mtag then
        (c._MAT.modifyValue cand_mtag
          (fun x => (saturating_counter.decode x).decrement.encode)).bind (fun m1 =>
          (m1.valueAt cand_mtag).map (fun w =>
            ((saturating_counter.decode v)._value, (saturating_counter.decode w)._value,
              { c with _MAT := m1 })))
      else some ((saturating_counter.decode v)._value, 0, c))
  else
    match (pMAT_at c._pMAT mtag id).lookup cand_mtag with
    | some cc =>
      some (((c._pMAT.lookup mtag).getD (saturating_counter.new 0 0))._value,
        cc.decrement._value,
        { c with _pMAT := pMAT_at (pMAT_at c._pMAT mtag id) cand_mtag
                    saturating_counter.decrement })
    | none =>
      some (((c._pMAT.lookup mtag).getD (saturating_counter.new 0 0))._value, 0,
        { c with _pMAT := pMAT_at c._pMAT mtag id })

/-- The writeback request that `INSERT_BLOCK` creates for the evicted value `victim` while
it handles `request`. -/
def writeback (c : CmpRTBCache) (victim : CmpLLC.TagEntry) (request : MemoryRequest) :
    MemoryRequest :=
  { MemoryRequest.new .COMPONENT request.cpuID c.self .WRITEBACK request.cmpID victim.vcla
      victim.pcla c._blockSize request.currentCycle with
    icount := request.icount, ip := request.ip }

/-- Lines 336–363 of `INSERT_BLOCK`, the branch that installs the block; `tagentry` is the
entry that `invalidate(candidate)` returned, or `entry()` when the set had a free way.
`none` is a division by zero, a failed `assert` or an access outside `_occupancy`. -/
def install (c : CmpRTBCache) (ctag : Nat) (dirty : Bool) (request : MemoryRequest)
    (tagentry : entry) : Option (CmpRTBCache × List MemoryRequest) :=
  (c._tags.insert ctag CmpLLC.TagEntry.new.encode .POLICY_HIGH).bind (fun r =>
    if c._blockSize = 0 then none
    else
      (r.2.modifyValue ctag (fun v => CmpLLC.TagEntry.encode
        { CmpLLC.TagEntry.decode v with
          vcla := BLOCK_ADDRESS request.virtualAddress c._blockSize })).bind (fun t1 =>
      (t1.modifyValue ctag (fun v => CmpLLC.TagEntry.encode
        { CmpLLC.TagEntry.decode v with
          pcla := BLOCK_ADDRESS request.physicalAddress c._blockSize })).bind (fun t2 =>
      (t2.modifyValue ctag (fun v => CmpLLC.TagEntry.encode
        { CmpLLC.TagEntry.decode v with dirty := dirty })).bind (fun t3 =>
      (t3.modifyValue ctag (fun v => CmpLLC.TagEntry.encode
        { CmpLLC.TagEntry.decode v with appID := request.cpuID })).bind (fun t4 =>
      (c._occupancy[request.cpuID]?).bind (fun o =>
        if tagentry.valid then
          ((c._occupancy.set request.cpuID ((o + 1) % UINT32_MOD))[
              (CmpLLC.TagEntry.decode tagentry.value).appID]?).map (fun o2 =>
            ({ c with
                _tags := t4,
                _occupancy := (c._occupancy.set request.cpuID ((o + 1) % UINT32_MOD)).set
                  (CmpLLC.TagEntry.decode tagentry.value).appID
                  ((o2 + UINT32_MOD - 1) % UINT32_MOD) },
              if (CmpLLC.TagEntry.decode tagentry.value).dirty then
                [c.writeback (CmpLLC.TagEntry.decode tagentry.value) request]
              else []))
        else
          some ({ c with _tags := t4,
                         _occupancy := c._occupancy.set request.cpuID ((o + 1) % UINT32_MOD) },
            [])))))))

/-- Lines 365–370 of `INSERT_BLOCK`, the branch that skips the insertion: the counter that
the MAT holds for the key `mval` is set to `cand_mval`. `none` is the failed `assert` of
`operator[]` of `_MAT`. -/
def bypass (c : CmpRTBCache) (mval cand_mval : Nat) :
    Option (CmpRTBCache × List MemoryRequest) :=
  if c._MATSize ≠ 0 then
    (c._MAT.modifyValue mval
      (fun x => ((saturating_counter.decode x).set cand_mval).encode)).map (fun m1 =>
      ({ c with _MAT := m1 }, []))
  else
    some ({ c with _pMAT := pMAT_at c._pMAT mval (fun x => x.set cand_mval) }, [])

/-- `INSERT_BLOCK(ctag, dirty, request)`: the cache afterwards and the requests handed to
`SendToNextComponent`. `none` is a division by zero, a failed `assert`, or an access
outside `_sets` or `_occupancy`. -/
def INSERT_BLOCK (c : CmpRTBCache) (ctag : Nat) (dirty : Bool) (request : MemoryRequest) :
    Option (CmpRTBCache × List MemoryRequest) :=
  if c._tags._numSets = 0 then none
  else
    (c._tags.count (c._tags.index ctag)).bind (fun cnt =>
      if cnt = c._associativity then
        (c._tags.to_be_evicted (c._tags.index ctag)).bind (fun cand =>
          (regionCounters { c with _tags := cand.2 } (ctag / 16) (cand.1 / 16)).bind (fun m =>
            if m.2.1 < m.1 then
              (m.2.2._tags.invalidate cand.1).bind (fun inv =>
                install { m.2.2 with _tags := inv.2 } ctag dirty request inv.1)
            else bypass m.2.2 m.1 m.2.1))
      else install c ctag dirty request entry.empty)

/-- The value of the counter that the MAT holds for region `mtag`; a region without a
counter counts as `0`. -/
def regionValue (c : CmpRTBCache) (mtag : Nat) : Nat :=
  if c._MATSize ≠ 0 then
    if c._MAT.lookup mtag then
      ((c._MAT.valueAt mtag).map (fun v => (saturating_counter.decode v)._value)).getD 0
    else 0
  else ((c._pMAT.lookup mtag).map (fun x => x._value)).getD 0

/-- A cache with one set of one way that holds block 2 (region 0) clean for CPU 0, no MAT
table (`_MATSize = 0`), and the counters `v0` for region 0 and `v1` for region 1, each
with maximum 256. -/
def oneBlock (v0 v1 : Nat) : CmpRTBCache :=
  { self := 1, _numCPUs := 1, _size := 1, _blockSize := 1024, _associativity := 1,
    _policy := "lru", _tagStoreLatency := 6, _dataStoreLatency := 15, _MATSize := 0,
    _MATmax := 256, _numSets := 1,
    _tags := ⟨1, 1, "lru", [table_t.oneWay (CmpLLC.TagEntry.encode ⟨false, 2048, 2048, 0⟩)]⟩,
    _pMAT := [(0, ⟨v0, 256⟩), (1, ⟨v1, 256⟩)],
    _MAT := table_t.new .lru 0 0, _occupancy := [1], _hits := [0], _misses := [0] }

end CmpRTBCache

/-! ## CmpLLCwAWB.h: the drain loop -/

namespace CmpLLCwAWB

/-- The loop of `ProcessPendingRequests` that checks for the presence of reads in the queue
(`while (!_queue.empty())`), entered with the queue and `temp`: `ReadsPresent`, the queue
and `temp` afterwards. `none` is a pointer to no object or a loop that outlasts `fuel`. -/
def scanReads (w : ComponentWorld) : Nat → List Nat → List Nat →
    Option (Bool × List Nat × List Nat)
  | 0, _, _ => none
  | fuel + 1, queue, temp =>
    match w.queue_top queue with
    | none => some (false, queue, temp)
    | some t =>
      match w.requests[t]? with
      | none => none
      | some q =>
        if q.type ≠ .READ ∨ q.type ≠ .READ_FOR_WRITE ∨ q.type ≠ .PREFETCH then
          scanReads w fuel (queue.erase t) (temp ++ [t])
        else some (true, queue, temp)

/-- The `while` loop of `CmpLLCwAWB::ProcessPendingRequests()`, entered with the local
variable `request = r`; `none` is a pointer to no object, `top()` of an empty queue, or a
loop that outlasts `fuel`. -/
def drainLoop (process : Processing) (send : Hierarchy) :
    Nat → Nat → ComponentWorld → Option ComponentWorld
  | 0, _, _ => none
  | fuel + 1, r, w =>
    match w.requests[r]? with
    | none => none
    | some req =>
      if req.currentCycle ≤ w.simulatorCycle then
        let popped := w.cmp._queue.erase r
        if w.cmp._currentCycle > w.simulatorCycle then
          drainLoop process send fuel r
            { w with
              requests := w.requests.set r { req with currentCycle := w.cmp._currentCycle }
              cmp := { w.cmp with _queue := popped ++ [r] } }
        else
          let now := max req.currentCycle w.cmp._currentCycle
          match (if req.serviced = false ∧ req.type = .CLEAN then
                  scanReads w (popped.length + 1) popped []
                else some (false, popped, [])) with
          | none => none
          | some scan =>
            let queue := scan.2.1 ++ scan.2.2.reverse
            if scan.1 then
              let w1 : ComponentWorld :=
                { w with
                  requests := w.requests.set r
                    { req with currentCycle := add64 req.currentCycle 1 }
                  cmp := { w.cmp with _currentCycle := now, _queue := queue ++ [r] } }
              match w1.queue_top w1.cmp._queue with
              | none => none
              | some r1 => drainLoop process send fuel r1 w1
            else
              let entered :=
                if req.serviced then w.requests
                else w.requests.set r { req with currentCycle := now }
              let out := process req.serviced r entered queue
              let sent := send r out.2.1 out.2.2
              let w1 : ComponentWorld :=
                { cmp := { w.cmp with _currentCycle := add64 now out.1, _queue := sent.2 }
                  simulatorCycle := w.simulatorCycle
                  requests := sent.1
                  calls := w.calls ++
                    [⟨req.serviced, r, req.currentCycle,
                      if req.serviced then req.currentCycle else now, now, add64 now out.1,
                      w.simulatorCycle⟩] }
              match w1.queue_top w1.cmp._queue with
              | none => some { w1 with cmp := { w1.cmp with _processing := false } }
              | some r1 => drainLoop process send fuel r1 w1
      else some { w with cmp := { w.cmp with _processing := false } }

/-- `CmpLLCwAWB::ProcessPendingRequests()`. -/
def ProcessPendingRequests (process : Processing) (send : Hierarchy) (fuel : Nat)
    (w : ComponentWorld) : Option ComponentWorld :=
  if w.cmp._processing then some w
  else
    match w.queue_top w.cmp._queue with
    | none => some w
    | some r => drainLoop process send fuel r { w with cmp := { w.cmp with _processing := true } }

/-- A `CmpLLCwAWB` at local cycle 2 with the unserviced `CLEAN` request 0 (cycle 4) and
the `READ` request 1 (cycle 5) queued, the simulator at cycle 10. -/
def cleanAndRead : ComponentWorld :=
  { cmp := { _currentCycle := 2, _processing := false, _queue := [0, 1] }
    simulatorCycle := 10
    requests := [MemoryRequest.new .COMPONENT 0 0 .CLEAN 0 0 0 64 4,
                 MemoryRequest.new .CPU 0 0 .READ 0 64 64 64 5]
    calls := [] }

end CmpLLCwAWB

/-! ## CmpUCP.h: repartitioning -/

/-- The write `v[i] = x` to element `i` of a `std::vector`; `none` is an access outside the
vector. -/
def vector_set {α : Type} (v : List α) (i : Nat) (x : α) : Option (List α) :=
  if i < v.length then some (v.set i x) else none

/-- The members of `class CmpUCP` that `RepartitionCache` reads or writes: the parameter
`_associativity`, `_numCPUs` of `MemoryComponent`, and the vectors `_target`, `_hits` and
`_utility`. -/
structure CmpUCP where
  _numCPUs : Nat
  _associativity : Nat
  _target : List Nat
  _hits : List (List Nat)
  _utility : List (List Nat)
deriving DecidableEq, Repr

namespace CmpUCP

/-- The body of the outer loop of `ComputeUtility()` for one CPU: the row `_utility[cpu]`
afterwards, given the rows `_hits[cpu]` and `_utility[cpu]`. -/
def utilityRow (associativity : Nat) (hits utility : List Nat) : Option (List Nat) :=
  (hits[0]?).bind (fun h0 =>
    (vector_set utility 0 h0).bind (fun u0 =>
      (List.range' 1 (associativity - 1)).foldlM (fun u way =>
        (u[way - 1]?).bind (fun p =>
          (hits[way]?).bind (fun h =>
            vector_set u way ((p + h) % UINT32_MOD)))) u0))

/-- `ComputeUtility()`. -/
def ComputeUtility (c : CmpUCP) : Option CmpUCP :=
  (List.range c._numCPUs).foldlM (fun c1 cpu =>
    (c1._hits[cpu]?).bind (fun hits =>
      (c1._utility[cpu]?).bind (fun utility =>
        (utilityRow c1._associativity hits utility).bind (fun row =>
          (vector_set c1._utility cpu row).map (fun u => { c1 with _utility := u }))))) c

/-- `MarginalUtility(cpuID, way1, way2)`: a `uint32` difference divided by a `uint32`
difference; `none` is an access outside `_utility` or a division by zero. -/
def MarginalUtility (c : CmpUCP) (cpuID way1 way2 : Nat) : Option Nat :=
  if way2 = way1 then some 0
  else
    (c._utility[cpuID]?).bind (fun row =>
      (row[way2]?).bind (fun u2 =>
        (row[way1]?).bind (fun u1 =>
          if (way2 + UINT32_MOD - way1 % UINT32_MOD) % UINT32_MOD = 0 then none
          else some ((u2 + UINT32_MOD - u1 % UINT32_MOD) % UINT32_MOD /
            ((way2 + UINT32_MOD - way1 % UINT32_MOD) % UINT32_MOD)))))

/-- `MaxMarginalUtility(cpuID, allocated, avail)`: the pair `(max, ways)`. With
`avail = 2 ^ 32 - 1` the loop test `i <= avail` never fails (`none`). -/
def MaxMarginalUtility (c : CmpUCP) (cpuID allocated avail : Nat) : Option (Nat × Nat) :=
  if avail = UINT32_MOD - 1 then none
  else
    (List.range' 1 avail).foldlM (fun (acc : Nat × Nat) i =>
      (c.MarginalUtility cpuID allocated ((allocated + i) % UINT32_MOD)).map (fun mu =>
        if mu > acc.1 then (mu, i) else acc)) (0, 0)

/-- The search of one round of the greedy loop of `RepartitionCache()`: `maxCPU` and
`maxMU` after the loop over the CPUs. -/
def maxOverCPUs (c : CmpUCP) (allocated : List Nat) (avail : Nat) :
    Option (Nat × Nat × Nat) :=
  (allocated[0]?).bind (fun a0 =>
    (c.MaxMarginalUtility 0 a0 avail).bind (fun m0 =>
      (List.range' 1 (c._numCPUs - 1)).foldlM (fun (acc : Nat × Nat × Nat) cpu =>
        (allocated[cpu]?).bind (fun a =>
          (c.MaxMarginalUtility cpu a avail).map (fun MU =>
            if MU.1 > acc.2.1 then (cpu, MU) else acc))) (0, m0)))

/-- The first `while (avail > 0)` loop of `RepartitionCache()`: `allocated` and `avail`
when it is left; `none` is an access outside a vector, a division by zero, or a loop that
outlasts `fuel`. -/
def greedy (c : CmpUCP) : Nat → List Nat → Nat → Option (List Nat × Nat)
  | 0, _, _ => none
  | fuel + 1, allocated, avail =>
    if avail > 0 then
      (c.maxOverCPUs allocated avail).bind (fun r =>
        if r.2.1 = 0 then some (allocated, avail)
        else
          (allocated[r.1]?).bind (fun a =>
            greedy c fuel (allocated.set r.1 ((a + r.2.2) % UINT32_MOD))
              ((avail + UINT32_MOD - r.2.2 % UINT32_MOD) % UINT32_MOD)))
    else some (allocated, avail)

/-- The second `while (avail > 0)` loop of `RepartitionCache()`, entered with `avail`,
`allocated` and `cpu`: `allocated` afterwards. -/
def roundRobin (c : CmpUCP) : Nat → List Nat → Nat → Option (List Nat)
  | 0, allocated, _ => some allocated
  | avail + 1, allocated, cpu =>
    (allocated[cpu]?).bind (fun a =>
      roundRobin c avail (allocated.set cpu ((a + 1) % UINT32_MOD))
        (if (cpu + 1) % UINT32_MOD = c._numCPUs then 0 else (cpu + 1) % UINT32_MOD))

/-- The last loop of `RepartitionCache()`: the targets are set and the hit counters
halved. -/
def setTargets (c : CmpUCP) (allocated : List Nat) : Option CmpUCP :=
  (List.range c._numCPUs).foldlM (fun c1 i =>
    (allocated[i]?).bind (fun a =>
      (vector_set c1._target i a).bind (fun t =>
        (c1._hits[i]?).bind (fun hits =>
          ((List.range c1._associativity).foldlM (fun row way =>
            (row[way]?).bind (fun h => vector_set row way (h / 2))) hits).map (fun row =>
            { c1 with _target := t, _hits := c1._hits.set i row }))))) c

/-- `RepartitionCache()`; `fuel` bounds the number of rounds of the greedy loop. -/
def RepartitionCache (c : CmpUCP) (fuel : Nat) : Option CmpUCP :=
  c.ComputeUtility.bind (fun c1 =>
    (c1.greedy fuel (List.replicate c1._numCPUs 1)
      ((c1._associativity + UINT32_MOD - c1._numCPUs % UINT32_MOD) % UINT32_MOD)).bind (fun g =>
      (if g.2 > 0 then c1.roundRobin g.2 g.1 0 else some g.1).bind (fun allocated =>
        c1.setTargets allocated)))

/-- A cache of 8 ways shared by 2 CPUs: CPU 0 hits mostly in its first three ways, CPU 1
hits evenly. -/
def twoApps : CmpUCP :=
  { _numCPUs := 2, _associativity := 8, _target := [4, 4],
    _hits := [[40, 30, 20, 0, 0, 0, 0, 0], [4, 4, 4, 4, 4, 4, 4, 4]],
    _utility := [[0, 0, 0, 0, 0, 0, 0, 0], [0, 0, 0, 0, 0, 0, 0, 0]] }

end CmpUCP

namespace CmpUCP

/-- The vectors have the sizes that `StartSimulation()` gives them. -/
structure Shaped (c : CmpUCP) : Prop where
  hits_len : c._hits.length = c._numCPUs
  hits_row : ∀ row ∈ c._hits, row.length = c._associativity
  util_len : c._utility.length = c._numCPUs
  util_row : ∀ row ∈ c._utility, row.length = c._associativity
  target_len : c._target.length = c._numCPUs

/-- A sound state `(allocated, avail)` of the partitioning: every CPU has at least one way,
and the allocated and the available ways add up to the associativity. -/
def Alloc (c : CmpUCP) (s : List Nat × Nat) : Prop :=
  s.1.length = c._numCPUs ∧ (∀ a ∈ s.1, 1 ≤ a) ∧ s.1.sum + s.2 = c._associativity

/-- The pair `r = (max, ways)` is the maximal marginal utility of `cpuID`, which holds
`allocated` ways, over `1, ..., avail` more ways: no number of ways has a larger marginal
utility, and `ways` is the least number of ways that attains `max` (`0` when `max` is
`0`). -/
def IsMaxMU (c : CmpUCP) (cpuID allocated avail : Nat) (r : Nat × Nat) : Prop :=
  (∀ i, 1 ≤ i → i ≤ avail →
    ∃ mu, c.MarginalUtility cpuID allocated (allocated + i) = some mu ∧ mu ≤ r.1) ∧
  (r.1 = 0 → r.2 = 0) ∧
  (0 < r.1 → 1 ≤ r.2 ∧ r.2 ≤ avail ∧
    c.MarginalUtility cpuID allocated (allocated + r.2) = some r.1 ∧
    ∀ i, 1 ≤ i → i < r.2 →
      ∃ mu, c.MarginalUtility cpuID allocated (allocated + i) = some mu ∧ mu < r.1)

/-- One round of the greedy loop in the words of the claim: ways are available, the CPU
`cpu` has a positive maximal marginal utility `mu` that no CPU exceeds and no CPU of lower
index reaches, and it is given the number of ways that attains `mu`. -/
def Round (c : CmpUCP) (s s1 : List Nat × Nat) : Prop :=
  0 < s.2 ∧ ∃ cpu a mu ways, cpu < c._numCPUs ∧ s.1[cpu]? = some a ∧
    c.MaxMarginalUtility cpu a s.2 = some (mu, ways) ∧ 0 < mu ∧
    (∀ cpu1 a1, s.1[cpu1]? = some a1 →
      ∃ m, c.MaxMarginalUtility cpu1 a1 s.2 = some m ∧ m.1 ≤ mu ∧ (cpu1 < cpu → m.1 < mu)) ∧
    s1 = (s.1.set cpu (a + ways), s.2 - ways)

/-- No CPU gains from more ways: every maximal marginal utility is 0. -/
def NoGain (c : CmpUCP) (s : List Nat × Nat) : Prop :=
  ∀ cpu a, s.1[cpu]? = some a → ∃ ways, c.MaxMarginalUtility cpu a s.2 = some (0, ways)

end CmpUCP

/-! ## CmpARC.h -/

/-- The value of an `int32` computation whose mathematical result is `i`, and the
conversion of a size or of a `uint32` to `int32`: reduction modulo `2 ^ 32` into
`[-2 ^ 31, 2 ^ 31)`. -/
def to_int32 (i : Int) : Int := (i + 2147483648) % 4294967296 - 2147483648

/-- The conversion of an `int32` to `uint32`, which a comparison of an `int32` with a
`uint32` applies to the `int32`. -/
def to_uint32 (i : Int) : Nat := (i % 4294967296).toNat

/-- `struct TagEntry` of `CmpARC`. -/
structure CmpARC.TagEntry where
  valid : Bool
  dirty : Bool
  tag : Nat
  vcla : Nat
  pcla : Nat
  repl : saturating_counter
  appID : Nat
deriving DecidableEq, Repr

/-- `TagEntry()`: `repl(7, 0)`, not valid, not dirty; the other fields are uninitialised
(here `0`). -/
def CmpARC.TagEntry.new : CmpARC.TagEntry :=
  ⟨false, false, 0, 0, 0, saturating_counter.new 7 0, 0⟩

/-- `struct ARCList`: the lists `t1`, `t2`, `b1`, `b2` (front first) and the `int32`
target `p`. -/
structure CmpARC.ARCList where
  t1 : List CmpARC.TagEntry
  t2 : List CmpARC.TagEntry
  b1 : List CmpARC.TagEntry
  b2 : List CmpARC.TagEntry
  p : Int
deriving DecidableEq, Repr

/-- `ARCList()`. -/
def CmpARC.ARCList.new : CmpARC.ARCList := ⟨[], [], [], [], 0⟩

/-- `class CmpARC` without its statistics counters and its log file; `self` is the
address of the component (`this`), `_numCPUs` the field of `MemoryComponent`. -/
structure CmpARC where
  self : Nat
  _numCPUs : Nat
  _size : Nat
  _blockSize : Nat
  _associativity : Nat
  _useRRIP : Bool
  _tagStoreLatency : Nat
  _dataStoreLatency : Nat
  _numSets : Nat
  _sets : List CmpARC.ARCList
  _occupancy : List Nat
deriving DecidableEq, Repr

namespace CmpARC

/-- The iteration bound of the `while (!found)` loop of `EVICT_BLOCK`: the front entry
stops the search once its counter has been decremented to 0; on the empty list the loop
never ends. -/
def evict_fuel : List TagEntry → Nat
  | [] => 0
  | e :: _ => e.repl._value + 1

/-- The `while (!found)` loop of `EVICT_BLOCK`: the first entry whose `repl` is 0 is taken
out of the list; when there is none every counter is decremented and the search
repeated. -/
def evictLoop : Nat → List TagEntry → Option (TagEntry × List TagEntry)
  | 0, _ => none
  | fuel + 1, l =>
    match l.find? (fun e => decide (e.repl._value = 0)) with
    | some e => some (e, l.eraseP (fun e => decide (e.repl._value = 0)))
    | none => evictLoop fuel (l.map (fun e => { e with repl := e.repl.decrement }))

/-- `EVICT_BLOCK(l)`: the evicted entry and the list afterwards; `none` is `front()` of an
empty list or a loop that never ends. -/
def EVICT_BLOCK (useRRIP : Bool) (l : List TagEntry) : Option (TagEntry × List TagEntry) :=
  if useRRIP then evictLoop (evict_fuel l) l
  else
    match l with
    | [] => none
    | e :: rest => some (e, rest)

/-- The loop `FOR_EACH(it, index, l)` of `MARK_DIRTY`: the list with the first entry of
tag `ctag` marked dirty, if there is one. -/
def markDirty (ctag : Nat) : List TagEntry → Option (List TagEntry)
  | [] => none
  | e :: rest =>
    if e.tag = ctag then some ({ e with dirty := true } :: rest)
    else (markDirty ctag rest).map (fun r => e :: r)

namespace ARCList

/-- `MARK_DIRTY(ctag)` on the set `_sets[index]`. -/
def MARK_DIRTY (s : ARCList) (ctag : Nat) : Bool × ARCList :=
  match markDirty ctag s.t1 with
  | some l => (true, { s with t1 := l })
  | none =>
    match markDirty ctag s.t2 with
    | some l => (true, { s with t2 := l })
    | none => (false, s)

/-- `READ_BLOCK(ctag)` on the set `_sets[index]`. -/
def READ_BLOCK (s : ARCList) (ctag : Nat) : Bool × ARCList :=
  match s.t1.find? (fun e => decide (e.tag = ctag)) with
  | some entry =>
    (true, { s with t1 := s.t1.eraseP (fun e => decide (e.tag = ctag))
                    t2 := s.t2 ++ [{ entry with repl := entry.repl.set 1 }] })
  | none =>
    match s.t2.find? (fun e => decide (e.tag = ctag)) with
    | some entry =>
      (true, { s with t2 := s.t2.eraseP (fun e => decide (e.tag = ctag)) ++
                        [{ entry with repl := entry.repl.increment }] })
    | none => (false, s)

/-- `REPLACE(index, b2present)` on the set `_sets[index]`: the returned entry and the set
afterwards. -/
def REPLACE (useRRIP : Bool) (s : ARCList) (b2present : Bool) : Option (TagEntry × ARCList) :=
  if 0 < to_int32 s.t1.length ∧
      (s.p < to_int32 s.t1.length ∨ (to_int32 s.t1.length = s.p ∧ b2present = true) ∨
        s.t2 = []) then
    (EVICT_BLOCK useRRIP s.t1).map (fun r =>
      ({ r.1 with repl := r.1.repl.set 1 },
        { s with t1 := r.2, b1 := s.b1 ++ [{ r.1 with repl := r.1.repl.set 1 }] }))
  else
    (EVICT_BLOCK useRRIP s.t2).map (fun r =>
      ({ r.1 with repl := r.1.repl.set 1 },
        { s with t2 := r.2, b2 := s.b2 ++ [{ r.1 with repl := r.1.repl.set 1 }] }))

/-- The part of `INSERT_BLOCK(ctag, dirty, request)` that works on the set `_sets[index]`
(up to `_sets[index].t1.push_back(entry)`): `replaced` and the set afterwards. `none` is
one of the two `exit(0)` branches, an `EVICT_BLOCK` that does not return, or a division by
zero. -/
def INSERT_BLOCK (associativity : Nat) (useRRIP : Bool) (blockSize : Nat) (s : ARCList)
    (ctag : Nat) (dirty : Bool) (request : MemoryRequest) : Option (TagEntry × ARCList) :=
  let p := s.p
  let b1 := to_int32 s.b1.length
  let b2 := to_int32 s.b2.length
  let t1 := to_int32 s.t1.length
  let t2 := to_int32 s.t2.length
  match s.b1.find? (fun e => decide (e.tag = ctag)) with
  | some entry =>
    (REPLACE useRRIP
      { s with p := if b1 = 0 then to_int32 associativity
                    else min (to_int32 associativity)
                      (to_int32 (p + max (Int.tdiv b2 b1) 1)) } false).map (fun r =>
      (r.1, { r.2 with b1 := r.2.b1.eraseP (fun e => decide (e.tag = ctag))
                       t2 := r.2.t2 ++ [{ entry with repl := entry.repl.set 1 }] }))
  | none =>
    match s.b2.find? (fun e => decide (e.tag = ctag)) with
    | some entry =>
      (REPLACE useRRIP
        { s with p := if b2 = 0 then 0
                      else max 0 (to_int32 (p - max (Int.tdiv b1 b2) 1)) } true).map (fun r =>
        (r.1, { r.2 with b2 := r.2.b2.eraseP (fun e => decide (e.tag = ctag))
                         t2 := r.2.t2 ++ [{ entry with repl := entry.repl.set 1 }] }))
    | none =>
      if to_uint32 (to_int32 (t1 + t2)) > associativity then none
      else if to_uint32 (to_int32 (b1 + b2)) > associativity then none
      else
        (if to_uint32 (to_int32 (t1 + t2)) = associativity then
          (if to_uint32 (to_int32 (t1 + t2 + b1 + b2)) = (2 * associativity) % UINT32_MOD then
            (if to_uint32 (to_int32 (t1 + b1)) ≥ associativity ∧ s.b1 ≠ [] then
              (EVICT_BLOCK useRRIP s.b1).map (fun r => { s with b1 := r.2 })
            else (EVICT_BLOCK useRRIP s.b2).map (fun r => { s with b2 := r.2 }))
          else some s).bind (fun s1 =>
            if to_uint32 t1 = associativity then
              (EVICT_BLOCK useRRIP s1.t1).map (fun r =>
                ({ r.1 with repl := r.1.repl.set 1 },
                  { s1 with t1 := r.2, b1 := s1.b1 ++ [{ r.1 with repl := r.1.repl.set 1 }] }))
            else if to_uint32 t2 = associativity then
              (EVICT_BLOCK useRRIP s1.t2).map (fun r =>
                ({ r.1 with repl := r.1.repl.set 1 },
                  { s1 with t2 := r.2, b2 := s1.b2 ++ [{ r.1 with repl := r.1.repl.set 1 }] }))
            else REPLACE useRRIP s1 false)
        else some (TagEntry.new, s)).bind (fun r =>
          if blockSize = 0 then none
          else
            some (r.1,
              { r.2 with
                t1 := r.2.t1 ++
                  [{ valid := true, dirty := dirty, tag := ctag,
                     vcla := BLOCK_ADDRESS request.virtualAddress blockSize,
                     pcla := BLOCK_ADDRESS request.physicalAddress blockSize,
                     repl := (saturating_counter.new 7 0).set 1,
                     appID := request.cpuID }] }))

end ARCList

/-- `INDEX(ctag)`. -/
def INDEX (c : CmpARC) (ctag : Nat) : Nat := ctag % c._numSets

/-- `MARK_DIRTY(ctag)`. -/
def MARK_DIRTY (c : CmpARC) (ctag : Nat) : Option (Bool × CmpARC) :=
  if c._numSets = 0 then none
  else
    (c._sets[c.INDEX ctag]?).map (fun s =>
      ((s.MARK_DIRTY ctag).1,
        { c with _sets := c._sets.set (c.INDEX ctag) (s.MARK_DIRTY ctag).2 }))

/-- `READ_BLOCK(ctag)`. -/
def READ_BLOCK (c : CmpARC) (ctag : Nat) : Option (Bool × CmpARC) :=
  if c._numSets = 0 then none
  else
    (c._sets[c.INDEX ctag]?).map (fun s =>
      ((s.READ_BLOCK ctag).1,
        { c with _sets := c._sets.set (c.INDEX ctag) (s.READ_BLOCK ctag).2 }))

/-- The writeback request that `INSERT_BLOCK` creates for the entry `replaced` while it
handles `request`. -/
def writeback (c : CmpARC) (replaced : TagEntry) (request : MemoryRequest) : MemoryRequest :=
  { MemoryRequest.new .COMPONENT request.cpuID c.self .WRITEBACK request.cmpID replaced.vcla
      replaced.pcla c._blockSize request.currentCycle with
    icount := request.icount, ip := request.ip }

/-- `INSERT_BLOCK(ctag, dirty, request)`: the cache afterwards and the requests handed to
`SendToNextComponent`; `none` is an abort of the set part, a division by zero, or an access
outside `_sets` or `_occupancy`. -/
def INSERT_BLOCK (c : CmpARC) (ctag : Nat) (dirty : Bool) (request : MemoryRequest) :
    Option (CmpARC × List MemoryRequest) :=
  if c._numSets = 0 then none
  else
    (c._sets[c.INDEX ctag]?).bind (fun s =>
      (s.INSERT_BLOCK c._associativity c._useRRIP c._blockSize ctag dirty request).bind
        (fun r =>
          (c._occupancy[request.cpuID]?).bind (fun o =>
            if r.1.valid then
              ((c._occupancy.set request.cpuID ((o + 1) % UINT32_MOD))[r.1.appID]?).map
                (fun o2 =>
                  ({ c with
                      _sets := c._sets.set (c.INDEX ctag) r.2
                      _occupancy :=
                        (c._occupancy.set request.cpuID ((o + 1) % UINT32_MOD)).set r.1.appID
                          ((o2 + UINT32_MOD - 1) % UINT32_MOD) },
                    if r.1.dirty then [c.writeback r.1 request] else []))
            else
              some ({ c with
                      _sets := c._sets.set (c.INDEX ctag) r.2
                      _occupancy := c._occupancy.set request.cpuID ((o + 1) % UINT32_MOD) },
                []))))

end CmpARC

/-- A call of one of the block functions of `CmpARC`. -/
inductive arc_op where
  | read (ctag : Nat)
  | mark (ctag : Nat)
  | insert (ctag : Nat) (dirty : Bool) (request : MemoryRequest)
deriving DecidableEq, Repr

namespace CmpARC

/-- One call: the cache afterwards. -/
def call (c : CmpARC) : arc_op → Option CmpARC
  | .read ctag => (c.READ_BLOCK ctag).map (fun r => r.2)
  | .mark ctag => (c.MARK_DIRTY ctag).map (fun r => r.2)
  | .insert ctag dirty request => (c.INSERT_BLOCK ctag dirty request).map (fun r => r.1)

/-- A sequence of calls. -/
def run (c : CmpARC) : List arc_op → Option CmpARC
  | [] => some c
  | op :: ops => (c.call op).bind (fun c1 => c1.run ops)

end CmpARC
namespace CmpARC

/-- The tag and the application of each entry of a list, as a multiset. -/
def ids (l : List TagEntry) : Multiset (Nat × Nat) :=
  ((l.map (fun e => (e.tag, e.appID)) : List (Nat × Nat)) : Multiset (Nat × Nat))

/-- The list invariants of a set for associativity `A` and `n` CPUs: at most `A` blocks in
the cache lists and in the history lists, `0 ≤ p ≤ A`, no tag twice in the four lists, the
cache lists full once the history is not empty, and every entry owned by one of the
CPUs. -/
structure ARCList.Inv (A n : Nat) (s : ARCList) : Prop where
  cache : s.t1.length + s.t2.length ≤ A
  history : s.b1.length + s.b2.length ≤ A
  p_nonneg : 0 ≤ s.p
  p_le : s.p ≤ A
  nodup : ((s.t1 ++ s.t2 ++ s.b1 ++ s.b2).map (fun e => e.tag)).Nodup
  full : 0 < s.b1.length + s.b2.length → s.t1.length + s.t2.length = A
  apps : ∀ e ∈ s.t1 ++ s.t2 ++ s.b1 ++ s.b2, e.appID < n

end CmpARC

namespace CmpARC.ARCList

end CmpARC.ARCList

/-! ## The set count and the tag store that `StartSimulation` builds, per cache component -/

/-- The `uint32` expression `(_size * 1024) / (_blockSize * _associativity)` that
`StartSimulation` assigns to `_numSets` in every cache component but `CmpCache`; `none` is
a division by zero. -/
def numSetsKB (size blockSize associativity : Nat) : Option Nat :=
  if (blockSize * associativity) % UINT32_MOD = 0 then none
  else some ((size * 1024) % UINT32_MOD / ((blockSize * associativity) % UINT32_MOD))

/-- The two statements `_numSets = (_size * 1024) / (_blockSize * _associativity);
_tags.SetTagStoreParameters(_numSets, _associativity, _policy);` on a
`generic_tagstore_t`: `_numSets` and `_tags` afterwards. `none` is a division by zero or
the `exit` for an unknown policy. -/
def tagsKB (size blockSize associativity : Nat) (policy : String) (nruHand : Nat → Nat) :
    Option (Nat × generic_tagstore_t) :=
  (numSetsKB size blockSize associativity).bind (fun numSets =>
    (generic_tagstore_t.SetTagStoreParameters numSets associativity policy nruHand).map
      (fun ts => (numSets, ts)))

/-- Lines 193–194 of `CmpLLCwPref::StartSimulation`: `_numSets` and `_tags`, which the
rest of the function does not assign. -/
def CmpLLCwPref.StartSimulation_tags (size blockSize associativity : Nat) (policy : String)
    (nruHand : Nat → Nat) : Option (Nat × generic_tagstore_t) :=
  tagsKB size blockSize associativity policy nruHand

/-- Lines 141–142 of `CmpMCT::StartSimulation`: `_numSets` and `_tags`, which the rest of
the function does not assign. -/
def CmpMCT.StartSimulation_tags (size blockSize associativity : Nat) (policy : String)
    (nruHand : Nat → Nat) : Option (Nat × generic_tagstore_t) :=
  tagsKB size blockSize associativity policy nruHand

/-- Lines 213–214 of `CmpPACManHM::StartSimulation`: `_numSets` and `_tags`, which the
rest of the function does not assign. -/
def CmpPACManHM.StartSimulation_tags (size blockSize associativity : Nat) (policy : String)
    (nruHand : Nat → Nat) : Option (Nat × generic_tagstore_t) :=
  tagsKB size blockSize associativity policy nruHand

/-- Lines 300–301 of `CmpDCP::StartSimulation`: `_numSets` and `_tags`, which the rest of
the function does not assign. -/
def CmpDCP.StartSimulation_tags (size blockSize associativity : Nat) (policy : String)
    (nruHand : Nat → Nat) : Option (Nat × generic_tagstore_t) :=
  tagsKB size blockSize associativity policy nruHand

/-- Lines 155–156 of `CmpRTBCache::StartSimulation`: `_numSets` and `_tags`, which the
rest of the function does not assign. -/
def CmpRTBCache.StartSimulation_tags (size blockSize associativity : Nat) (policy : String)
    (nruHand : Nat → Nat) : Option (Nat × generic_tagstore_t) :=
  tagsKB size blockSize associativity policy nruHand

/-- Lines 220–222 of `CmpFDPAP::StartSimulation`: `_numSets` and `_tags`, which the rest of
the function does not assign (line 221 sets `_numBlocks`). -/
def CmpFDPAP.StartSimulation_tags (size blockSize associativity : Nat) (policy : String)
    (nruHand : Nat → Nat) : Option (Nat × generic_tagstore_t) :=
  tagsKB size blockSize associativity policy nruHand

/-- Lines 191–192 of `CmpLLCVTS::StartSimulation`: `_numSets` and `_tags`, which the rest
of the function does not assign. -/
def CmpLLCVTS.StartSimulation_tags (size blockSize associativity : Nat) (policy : String)
    (nruHand : Nat → Nat) : Option (Nat × generic_tagstore_t) :=
  tagsKB size blockSize associativity policy nruHand

/-- Lines 174–175 of `CmpSHiPIP::StartSimulation`: `_numSets` and `_tags`, which the rest
of the function does not assign. -/
def CmpSHiPIP.StartSimulation_tags (size blockSize associativity : Nat) (policy : String)
    (nruHand : Nat → Nat) : Option (Nat × generic_tagstore_t) :=
  tagsKB size blockSize associativity policy nruHand

/-- Lines 155–157 of `CmpDynamicLLC::StartSimulation`: `_numSets` and the set-dueling tag
store `_tags`, built with the default `_startVal = 512`; the rest of the function does not
assign them. `none` is a division by zero or an `exit` of `SetTagStoreParameters`. -/
def CmpDynamicLLC.StartSimulation_tags (size blockSize associativity : Nat)
    (policy : String) (numCPUs numDuelingSets maxPSELValue : Nat) (nruHand : Nat → Nat) :
    Option (Nat × set_dueling_tagstore_t) :=
  (numSetsKB size blockSize associativity).bind (fun numSets =>
    (set_dueling_tagstore_t.SetTagStoreParameters numCPUs numSets associativity policy
      numDuelingSets maxPSELValue 512 nruHand).map (fun ts => (numSets, ts)))

/-- Lines 261–265 of `CmpLLCwAWB::StartSimulation`: `_numSets` and the set-dueling tag
store `_tags`, built with the default `_startVal = 512`; the rest of the function does not
assign them. `none` is a division by zero (also the one of
`_numdbiSets = _dbiSize / _dbiAssociativity` in line 263) or an `exit` of
`SetTagStoreParameters`. -/
def CmpLLCwAWB.StartSimulation_tags (size blockSize associativity : Nat) (policy : String)
    (numCPUs numDuelingSets maxPSELValue dbiAssociativity : Nat) (nruHand : Nat → Nat) :
    Option (Nat × set_dueling_tagstore_t) :=
  (numSetsKB size blockSize associativity).bind (fun numSets =>
    if dbiAssociativity = 0 then none
    else
      (set_dueling_tagstore_t.SetTagStoreParameters numCPUs numSets associativity policy
        numDuelingSets maxPSELValue 512 nruHand).map (fun ts => (numSets, ts)))

/-- `struct TagEntry` of `CmpUCP`. -/
structure CmpUCP.TagEntry where
  valid : Bool
  dirty : Bool
  ctag : Nat
  vcla : Nat
  pcla : Nat
deriving DecidableEq, Repr

/-- `TagEntry()` of `CmpUCP`: `valid` and `dirty` are false, the three addresses are
uninitialised (here `0`). -/
def CmpUCP.TagEntry.new : CmpUCP.TagEntry := ⟨false, false, 0, 0, 0⟩

/-- Lines 147–166 of `CmpUCP::StartSimulation` as far as `_numSets`, `_free` and `_tags`
go: `_free` gets `_numSets` counters of value `_associativity`, and `_tags` one array per
CPU of `_numSets` rows of `_associativity` entries. `none` is a division by zero, also the
one of `_associativity / _numCPUs` in line 148. -/
def CmpUCP.StartSimulation_tags (size blockSize associativity numCPUs : Nat) :
    Option (Nat × List Nat × List (List (List CmpUCP.TagEntry))) :=
  (numSetsKB size blockSize associativity).bind (fun numSets =>
    if numCPUs = 0 then none
    else
      some (numSets, List.replicate numSets associativity,
        List.replicate numCPUs
          (List.replicate numSets (List.replicate associativity CmpUCP.TagEntry.new))))

/-- Lines 164–165 of `CmpARC::StartSimulation`: `_numSets` and the vector `_sets` of ARC
sets, each with four empty lists and `p = 0`. `none` is a division by zero. -/
def CmpARC.StartSimulation_sets (size blockSize associativity : Nat) :
    Option (Nat × List CmpARC.ARCList) :=
  (numSetsKB size blockSize associativity).map (fun numSets =>
    (numSets, List.replicate numSets CmpARC.ARCList.new))

/-- A tag store of `n` sets of `a` ways each, all free. -/
def generic_tagstore_t.Geometry (ts : generic_tagstore_t) (n a : Nat) : Prop :=
  ts._numSets = n ∧ ts._sets.length = n ∧ ts._numSlotsPerSet = a ∧
    ∀ s ∈ ts._sets, s._size = a ∧ s._table.length = a ∧ s._freeList.length = a

/-- A set-dueling tag store of `n` sets of `a` ways each, all free. -/
def set_dueling_tagstore_t.Geometry (ts : set_dueling_tagstore_t) (n a : Nat) : Prop :=
  ts._numSets = n ∧ ts._sets.length = n ∧ ts._numSlotsPerSet = a ∧
    ∀ s ∈ ts._sets, s._size = a ∧ s._table.length = a ∧ s._freeList.length = a

namespace CmpARC

end CmpARC

/-! # Theorems -/

namespace dlist

theorem getElem?_setNext (nodes : List ListNode) (p j : Nat) (v : Option Nat) :
    (setNext nodes p v)[j]? = (nodes[j]?).map (fun n => if p = j then { n with next := v } else n) := by
  unfold setNext
  rw [List.getElem?_modify]
  rfl

theorem getElem?_setPrev (nodes : List ListNode) (p j : Nat) (v : Option Nat) :
    (setPrev nodes p v)[j]? = (nodes[j]?).map (fun n => if p = j then { n with prev := v } else n) := by
  unfold setPrev
  rw [List.getElem?_modify]
  rfl

@[simp] theorem length_setNext (nodes : List ListNode) (p : Nat) (v : Option Nat) :
    (setNext nodes p v).length = nodes.length := by
  simp [setNext]

@[simp] theorem length_setPrev (nodes : List ListNode) (p : Nat) (v : Option Nat) :
    (setPrev nodes p v).length = nodes.length := by
  simp [setPrev]

theorem seg_frame {nodes nodes1 : List ListNode} {l : List Nat} :
    ∀ {p e : Option Nat}, (∀ a ∈ l, nodes1[a]? = nodes[a]?) → Seg nodes p l e → Seg nodes1 p l e := by
  induction l with
  | nil => intro p e _ _; trivial
  | cons a rest ih =>
    intro p e hag h
    obtain ⟨⟨n, hn, hp, hx⟩, hrest⟩ := h
    refine ⟨⟨n, ?_, hp, hx⟩, ih (fun b hb => hag b (List.mem_cons_of_mem _ hb)) hrest⟩
    rw [hag a (List.mem_cons_self _ _)]; exact hn

theorem seg_lt {nodes : List ListNode} {l : List Nat} :
    ∀ {p e : Option Nat}, Seg nodes p l e → ∀ a ∈ l, a < nodes.length := by
  induction l with
  | nil => intro p e _ a ha; cases ha
  | cons b rest ih =>
    intro p e h a ha
    obtain ⟨⟨n, hn, _, _⟩, hrest⟩ := h
    rcases List.mem_cons.1 ha with rfl | ha
    · by_contra hlt
      rw [List.getElem?_eq_none (by omega)] at hn
      cases hn
    · exact ih hrest a ha

theorem headOr_append (l1 l2 : List Nat) (e : Option Nat) :
    headOr (l1 ++ l2) e = headOr l1 (headOr l2 e) := by
  cases l1 <;> simp [headOr]

theorem lastOr_cons (a : Nat) (rest : List Nat) (p : Option Nat) :
    lastOr (a :: rest) p = lastOr rest (some a) := by
  cases rest with
  | nil => simp [lastOr]
  | cons b r =>
    simp only [lastOr, List.getLast?_cons_cons]
    rw [List.getLast?_eq_getLast _ (List.cons_ne_nil _ _)]

theorem seg_append {nodes : List ListNode} {l1 l2 : List Nat} :
    ∀ {p e : Option Nat}, Seg nodes p (l1 ++ l2) e ↔
      (Seg nodes p l1 (headOr l2 e) ∧ Seg nodes (lastOr l1 p) l2 e) := by
  induction l1 with
  | nil => intro p e; simp [Seg, lastOr]
  | cons a rest ih =>
    intro p e
    rw [List.cons_append, lastOr_cons]
    constructor
    · rintro ⟨⟨n, hn, hp, hx⟩, hrest⟩
      rw [headOr_append] at hx
      obtain ⟨hr1, hr2⟩ := ih.1 hrest
      exact ⟨⟨⟨n, hn, hp, hx⟩, hr1⟩, hr2⟩
    · rintro ⟨⟨⟨n, hn, hp, hx⟩, hr1⟩, hr2⟩
      refine ⟨⟨n, hn, hp, ?_⟩, ih.2 ⟨hr1, hr2⟩⟩
      rw [headOr_append]; exact hx

/-- Redirecting the `next` pointer of the last node of a segment. -/
theorem seg_setNext_last {nodes : List ListNode} {l : List Nat} {t : Nat} {v : Option Nat} :
    ∀ {p e : Option Nat}, (l ++ [t]).Nodup → Seg nodes p (l ++ [t]) e →
      Seg (setNext nodes t v) p (l ++ [t]) v := by
  induction l with
  | nil =>
    intro p e _ h
    obtain ⟨⟨n, hn, hp, _⟩, _⟩ := h
    refine ⟨⟨{ n with next := v }, ?_, hp, rfl⟩, trivial⟩
    rw [getElem?_setNext, hn]; simp
  | cons a rest ih =>
    intro p e hnd h
    rw [List.cons_append] at hnd h ⊢
    obtain ⟨⟨n, hn, hp, hx⟩, hrest⟩ := h
    have hat : t ≠ a := by
      intro h; subst h
      exact (List.nodup_cons.1 hnd).1 (by simp)
    refine ⟨⟨n, ?_, hp, ?_⟩, ih (List.nodup_cons.1 hnd).2 hrest⟩
    · rw [getElem?_setNext, hn]; simp [hat]
    · rw [hx]; cases rest <;> simp [headOr]

/-- Redirecting the `prev` pointer of the first node of a segment. -/
theorem seg_setPrev_head {nodes : List ListNode} {l : List Nat} {a : Nat}
    {p e v : Option Nat} (hnd : (a :: l).Nodup) (h : Seg nodes p (a :: l) e) :
    Seg (setPrev nodes a v) v (a :: l) e := by
  obtain ⟨⟨n, hn, _, hx⟩, hrest⟩ := h
  refine ⟨⟨{ n with prev := v }, ?_, rfl, hx⟩, seg_frame ?_ hrest⟩
  · rw [getElem?_setPrev, hn]; simp
  · intro b hb
    have : a ≠ b := by
      intro h; subst h; exact (List.nodup_cons.1 hnd).1 hb
    rw [getElem?_setPrev]; simp [this]

end dlist

namespace dlist

theorem Repr.lt {N : Nat} {d : dlist} {l : List Nat} (h : Repr N d l) :
    ∀ a ∈ l, a < N := by
  intro a ha
  have := seg_lt h.seg a ha
  rw [h.len] at this; exact this

theorem getElem?_new (N i : Nat) (n : ListNode) (h : (dlist.new N)._nodes[i]? = some n) :
    n = ⟨none, i, none⟩ := by
  simp only [dlist.new, List.getElem?_map] at h
  by_cases hi : i < N
  · rw [List.getElem?_range hi] at h
    simp at h; rw [← h]
  · rw [List.getElem?_eq_none (by simpa using hi)] at h
    simp at h

theorem Repr.new (N : Nat) : Repr N (dlist.new N) [] := by
  refine ⟨by simp [dlist.new], ?_, List.nodup_nil, rfl, fun h => absurd rfl h, trivial, ?_⟩
  · intro i n h
    rw [getElem?_new N i n h]
  · intro i n h _
    rw [getElem?_new N i n h]; exact ⟨rfl, rfl⟩

theorem Repr.headIndex {N : Nat} {d : dlist} {a : Nat} {l : List Nat}
    (h : Repr N d (a :: l)) : d.headIndex = some a := by
  obtain ⟨⟨n, hn, _, _⟩, _⟩ := h.seg
  simp [dlist.headIndex, h.head, hn, h.idx a n hn]

theorem Repr.push_back {N : Nat} {d : dlist} {l : List Nat} {i : Nat}
    (h : Repr N d l) (hi : i < N) (hnot : i ∉ l) :
    ∃ d1, d._push_back i = some d1 ∧ Repr N d1 (l ++ [i]) := by
  have hlen := h.len
  obtain ⟨ni, hni⟩ : ∃ n, d._nodes[i]? = some n :=
    ⟨d._nodes[i], List.getElem?_eq_getElem (by omega)⟩
  have hfree := h.free i ni hni hnot
  have hcases : l = [] ∨ ∃ l0 t, l = l0 ++ [t] := by
    rcases List.eq_nil_or_concat l with e | ⟨l0, t, e⟩
    · exact Or.inl e
    · exact Or.inr ⟨l0, t, by rw [e, List.concat_eq_append]⟩
  rcases hcases with rfl | ⟨l0, t, rfl⟩
  · refine ⟨{ d with _head := some i, _tail := some i }, ?_, ?_⟩
    · have := h.head
      simp only [List.head?_nil] at this
      simp [dlist._push_back, this, hlen, hi]
    · refine ⟨hlen, h.idx, by simp, rfl, fun _ => rfl, ?_, ?_⟩
      · exact ⟨⟨ni, hni, hfree.1, hfree.2⟩, trivial⟩
      · intro j n hj hjn
        exact h.free j n hj (by simp)
  · have htl : d._tail = some t := by
      have := h.tail (by simp)
      simpa using this
    have ht : t < N := h.lt t (by simp)
    have hti : t ≠ i := by
      intro e; subst e; exact hnot (by simp)
    obtain ⟨hd, hhd⟩ : ∃ x, d._head = some x := by
      rw [h.head]; cases l0 <;> simp
    refine ⟨{ d with _nodes := setPrev (setNext d._nodes t (some i)) i (some t),
                     _tail := some i }, ?_, ?_⟩
    · simp [dlist._push_back, hhd, htl, hlen, hi, ht]
    · refine ⟨by simp [hlen], ?_, ?_, ?_, ?_, ?_, ?_⟩
      · intro j n hj
        simp only [getElem?_setPrev, getElem?_setNext, Option.map_map] at hj
        rcases hn : d._nodes[j]? with _ | m
        · rw [hn] at hj; cases hj
        · rw [hn] at hj
          simp only [Option.map_some', Function.comp, Option.some.injEq] at hj
          rw [← hj, ← h.idx j m hn]
          split <;> split <;> rfl
      · exact List.nodup_append.2 ⟨h.nodup, by simp, by
          intro a ha hb
          simp at hb; subst hb
          exact hnot ha⟩
      · show d._head = _
        rw [h.head]; cases l0 <;> simp
      · intro _; simp
      · refine seg_append.2 ⟨?_, ?_⟩
        · have hs : Seg (setNext d._nodes t (some i)) none (l0 ++ [t]) (some i) :=
            seg_setNext_last h.nodup h.seg
          refine seg_frame ?_ hs
          intro a ha
          have : i ≠ a := by intro e; subst e; exact hnot ha
          rw [getElem?_setPrev]; simp [this]
        · have : lastOr (l0 ++ [t]) none = some t := by simp [lastOr]
          rw [this]
          refine ⟨⟨{ ni with prev := some t }, ?_, rfl, ?_⟩, trivial⟩
          · rw [getElem?_setPrev, getElem?_setNext, hni]; simp [hti]
          · simp [headOr, hfree.2]
      · intro j n hj hjn
        have hjt : t ≠ j := by intro e; subst e; exact hjn (by simp)
        have hji : i ≠ j := by intro e; subst e; exact hjn (by simp)
        simp only [getElem?_setPrev, getElem?_setNext, Option.map_map] at hj
        rcases hn : d._nodes[j]? with _ | m
        · rw [hn] at hj; cases hj
        · rw [hn] at hj
          simp [hjt, hji] at hj
          rw [← hj]
          exact h.free j m hn (fun hm => hjn (List.mem_append_left _ hm))

end dlist

namespace dlist

theorem idx_setNext {nodes : List ListNode} {p : Nat} {v : Option Nat}
    (h : ∀ (i : Nat) (n : ListNode), nodes[i]? = some n → n.index = i) :
    ∀ (i : Nat) (n : ListNode), (setNext nodes p v)[i]? = some n → n.index = i := by
  intro j n hj
  rw [getElem?_setNext] at hj
  rcases hn : nodes[j]? with _ | m
  · rw [hn] at hj; cases hj
  · rw [hn] at hj
    simp only [Option.map_some', Option.some.injEq] at hj
    rw [← hj, ← h j m hn]
    split <;> rfl

theorem idx_setPrev {nodes : List ListNode} {p : Nat} {v : Option Nat}
    (h : ∀ (i : Nat) (n : ListNode), nodes[i]? = some n → n.index = i) :
    ∀ (i : Nat) (n : ListNode), (setPrev nodes p v)[i]? = some n → n.index = i := by
  intro j n hj
  rw [getElem?_setPrev] at hj
  rcases hn : nodes[j]? with _ | m
  · rw [hn] at hj; cases hj
  · rw [hn] at hj
    simp only [Option.map_some', Option.some.injEq] at hj
    rw [← hj, ← h j m hn]
    split <;> rfl

theorem headOr_none (l : List Nat) : headOr l none = l.head? := by
  cases l <;> rfl

theorem lastOr_none (l : List Nat) : lastOr l none = l.getLast? := by
  unfold lastOr
  cases l.getLast? <;> rfl

theorem Repr.push_front {N : Nat} {d : dlist} {l : List Nat} {i : Nat}
    (h : Repr N d l) (hi : i < N) (hnot : i ∉ l) :
    ∃ d1, d._push_front i = some d1 ∧ Repr N d1 (i :: l) := by
  have hlen := h.len
  obtain ⟨ni, hni⟩ : ∃ n, d._nodes[i]? = some n :=
    ⟨d._nodes[i], List.getElem?_eq_getElem (by omega)⟩
  have hfree := h.free i ni hni hnot
  cases l with
  | nil =>
    refine ⟨{ d with _head := some i, _tail := some i }, ?_, ?_⟩
    · have := h.head
      simp only [List.head?_nil] at this
      simp [dlist._push_front, this, hlen, hi]
    · refine ⟨hlen, h.idx, by simp, rfl, fun _ => rfl, ?_, ?_⟩
      · exact ⟨⟨ni, hni, hfree.1, hfree.2⟩, trivial⟩
      · intro j n hj hjn
        exact h.free j n hj (by simp)
  | cons a rest =>
    have hhd : d._head = some a := h.head
    have ha : a < N := h.lt a (by simp)
    have hai : a ≠ i := by
      intro e; subst e; exact hnot (by simp)
    refine ⟨{ d with _nodes := setNext (setPrev d._nodes a (some i)) i (some a),
                     _head := some i }, ?_, ?_⟩
    · simp [dlist._push_front, hhd, hlen, hi, ha]
    · refine ⟨by simp [hlen], idx_setNext (idx_setPrev h.idx), ?_, rfl, ?_, ?_, ?_⟩
      · exact List.nodup_cons.2 ⟨hnot, h.nodup⟩
      · intro _
        have := h.tail (by simp)
        show d._tail = _
        rw [this, List.getLast?_cons_cons]
      · have hs : Seg (setPrev d._nodes a (some i)) (some i) (a :: rest) none :=
          seg_setPrev_head h.nodup h.seg
        refine ⟨⟨{ ni with next := some a }, ?_, hfree.1, rfl⟩, seg_frame ?_ hs⟩
        · show (setNext (setPrev d._nodes a (some i)) i (some a))[i]? = _
          rw [getElem?_setNext, getElem?_setPrev, hni]; simp [hai]
        · intro b hb
          have : i ≠ b := by intro e; subst e; exact hnot hb
          show (setNext (setPrev d._nodes a (some i)) i (some a))[b]? = _
          rw [getElem?_setNext]; simp [this]
      · intro j n hj hjn
        have hja : a ≠ j := by intro e; subst e; exact hjn (by simp)
        have hji : i ≠ j := by intro e; subst e; exact hjn (by simp)
        simp only [getElem?_setPrev, getElem?_setNext, Option.map_map] at hj
        rcases hn : d._nodes[j]? with _ | m
        · rw [hn] at hj; cases hj
        · rw [hn] at hj
          simp [hja, hji] at hj
          rw [← hj]
          exact h.free j m hn (fun hm => hjn (List.mem_cons_of_mem _ hm))

theorem Repr.pop_front {N : Nat} {d : dlist} {a : Nat} {l : List Nat}
    (h : Repr N d (a :: l)) :
    ∃ d1, d._pop_front = some (a, d1) ∧ Repr N d1 l := by
  have hlen := h.len
  have hhd : d._head = some a := h.head
  obtain ⟨⟨n, hn, hp, hx⟩, hrest⟩ := h.seg
  have hal : a ∉ l := (List.nodup_cons.1 h.nodup).1
  have hnd : l.Nodup := (List.nodup_cons.1 h.nodup).2
  have hidx := h.idx a n hn
  cases l with
  | nil =>
    simp only [headOr] at hx
    refine ⟨{ d with _nodes := setNext (setPrev d._nodes a none) a none, _head := none }, ?_, ?_⟩
    · simp [dlist._pop_front, hhd, hn, hx, hidx]
    · refine ⟨by simp [hlen], idx_setNext (idx_setPrev h.idx), hnd, rfl,
        fun e => absurd rfl e, trivial, ?_⟩
      intro j m hj _
      simp only [getElem?_setPrev, getElem?_setNext, Option.map_map] at hj
      rcases hm : d._nodes[j]? with _ | m0
      · rw [hm] at hj; cases hj
      · rw [hm] at hj
        by_cases hja : a = j
        · simp [hja] at hj; rw [← hj]; exact ⟨rfl, rfl⟩
        · simp [hja] at hj; rw [← hj]
          exact h.free j m0 hm (by simpa using fun e => hja e.symm)
  | cons b r =>
    simp only [headOr] at hx
    have hab : a ≠ b := by intro e; subst e; exact hal (by simp)
    refine ⟨{ d with _nodes := setNext (setPrev (setPrev d._nodes b none) a none) a none,
                     _head := some b }, ?_, ?_⟩
    · simp [dlist._pop_front, hhd, hn, hx, hidx]
    · refine ⟨by simp [hlen], idx_setNext (idx_setPrev (idx_setPrev h.idx)), hnd, rfl, ?_, ?_, ?_⟩
      · intro _
        have := h.tail (by simp)
        show d._tail = _
        rw [this, List.getLast?_cons_cons]
      · have hs : Seg (setPrev d._nodes b none) none (b :: r) none :=
          seg_setPrev_head hnd hrest
        refine seg_frame ?_ hs
        intro c hc
        have : a ≠ c := by intro e; subst e; exact hal hc
        show (setNext (setPrev (setPrev d._nodes b none) a none) a none)[c]? = _
        rw [getElem?_setNext, getElem?_setPrev]; simp [this]
      · intro j m hj hjn
        have hjb : b ≠ j := by intro e; subst e; exact hjn (by simp)
        simp only [getElem?_setPrev, getElem?_setNext, Option.map_map] at hj
        rcases hm : d._nodes[j]? with _ | m0
        · rw [hm] at hj; cases hj
        · rw [hm] at hj
          by_cases hja : a = j
          · simp [hja] at hj; rw [← hj]; exact ⟨rfl, rfl⟩
          · simp [hja, hjb] at hj; rw [← hj]
            refine h.free j m0 hm ?_
            intro hmem
            rcases List.mem_cons.1 hmem with e | e
            · exact hja e.symm
            · exact hjn e

end dlist

namespace dlist

theorem erase_mid {l1 l2 : List Nat} {i : Nat} (h : i ∉ l1) :
    (l1 ++ i :: l2).erase i = l1 ++ l2 := by
  rw [List.erase_append_right _ h, List.erase_cons_head]

theorem Repr.remove {N : Nat} {d : dlist} {l : List Nat} {i : Nat}
    (h : Repr N d l) (hi : i ∈ l) :
    ∃ d1, d._remove i = some d1 ∧ Repr N d1 (l.erase i) := by
  obtain ⟨l1, l2, rfl⟩ := List.append_of_mem hi
  have hlen := h.len
  have hnd := h.nodup
  have hil1 : i ∉ l1 := by
    intro hm
    have := (List.nodup_append.1 hnd).2.2
    exact this hm (List.mem_cons_self _ _)
  have hnd1 : l1.Nodup := (List.nodup_append.1 hnd).1
  have hnd2' : (i :: l2).Nodup := (List.nodup_append.1 hnd).2.1
  have hil2 : i ∉ l2 := (List.nodup_cons.1 hnd2').1
  have hnd2 : l2.Nodup := (List.nodup_cons.1 hnd2').2
  have hdisj : ∀ a, a ∈ l1 → a ∉ l2 := by
    intro a ha hb
    exact (List.nodup_append.1 hnd).2.2 ha (List.mem_cons_of_mem _ hb)
  rw [erase_mid hil1]
  obtain ⟨hs1, ⟨n, hn, hp, hx⟩, hs2⟩ := seg_append.1 h.seg
  simp only [headOr] at hs1
  rw [lastOr_none] at hp
  rw [headOr_none] at hx
  -- first statement of `_remove`
  have stage1 : ∃ d1 : dlist,
      (match n.prev with
        | some p =>
          if p < d._nodes.length then some { d with _nodes := setNext d._nodes p n.next }
          else none
        | none =>
          match d._head with
          | none => none
          | some h => (d._nodes[h]?).map (fun hn => { d with _head := hn.next })) = some d1 ∧
      d1._tail = d._tail ∧ d1._head = (l1 ++ l2).head? ∧ d1._nodes.length = N ∧
      Seg d1._nodes none l1 l2.head? ∧
      (∀ j, j ∉ l1 → d1._nodes[j]? = d._nodes[j]?) ∧
      (∀ (j : Nat) (m : ListNode), d1._nodes[j]? = some m → m.index = j) := by
    have hcases : l1 = [] ∨ ∃ l0 t, l1 = l0 ++ [t] := by
      rcases List.eq_nil_or_concat l1 with e | ⟨l0, t, e⟩
      · exact Or.inl e
      · exact Or.inr ⟨l0, t, by rw [e, List.concat_eq_append]⟩
    rcases hcases with rfl | ⟨l0, t, rfl⟩
    · simp only [List.getLast?_nil] at hp
      have hhd : d._head = some i := h.head
      refine ⟨{ d with _head := n.next }, ?_, rfl, ?_, hlen, trivial, fun _ _ => rfl, h.idx⟩
      · simp [hp, hhd, hn]
      · simp [hx]
    · have hpt : n.prev = some t := by simpa using hp
      have ht : t < N := h.lt t (by simp)
      refine ⟨{ d with _nodes := setNext d._nodes t n.next }, ?_, rfl, ?_, by simp [hlen], ?_, ?_,
        idx_setNext h.idx⟩
      · simp [hpt, hlen, ht]
      · show d._head = _
        rw [h.head]; cases l0 <;> simp
      · rw [hx]
        exact seg_setNext_last hnd1 hs1
      · intro j hj
        have : t ≠ j := by intro e; subst e; exact hj (by simp)
        show (setNext d._nodes t n.next)[j]? = _
        rw [getElem?_setNext]; simp [this]
  obtain ⟨d1, hd1, htl1, hhd1, hlen1, hseg1, hag1, hidx1⟩ := stage1
  have hn1 : d1._nodes[i]? = some n := by rw [hag1 i hil1]; exact hn
  -- second statement of `_remove`
  have stage2 : ∃ d2 : dlist,
      (match n.next with
        | some x =>
          if x < d1._nodes.length then some { d1 with _nodes := setPrev d1._nodes x n.prev }
          else none
        | none =>
          match d1._tail with
          | none => none
          | some t => (d1._nodes[t]?).map (fun tn => { d1 with _tail := tn.prev })) = some d2 ∧
      (l1 ++ l2 ≠ [] → d2._tail = (l1 ++ l2).getLast?) ∧ d2._head = (l1 ++ l2).head? ∧
      d2._nodes.length = N ∧
      Seg d2._nodes none l1 l2.head? ∧ Seg d2._nodes l1.getLast? l2 none ∧
      (∀ j, j ∉ l1 → j ∉ l2 → d2._nodes[j]? = d._nodes[j]?) ∧
      (∀ (j : Nat) (m : ListNode), d2._nodes[j]? = some m → m.index = j) := by
    cases l2 with
    | nil =>
      simp only [List.head?_nil] at hx
      have htl : d._tail = some i := by
        have := h.tail (by simp)
        simpa using this
      refine ⟨{ d1 with _tail := n.prev }, ?_, ?_, hhd1, hlen1, hseg1, trivial,
        fun j hj _ => hag1 j hj, hidx1⟩
      · simp [hx, htl1, htl, hn1]
      · intro _
        show n.prev = _
        rw [hp]; simp
    | cons b r =>
      simp only [List.head?_cons] at hx
      have hb : b < N := h.lt b (by simp)
      have hbl1 : b ∉ l1 := fun hm => hdisj b hm (by simp)
      refine ⟨{ d1 with _nodes := setPrev d1._nodes b n.prev }, ?_, ?_, hhd1, by simp [hlen1],
        ?_, ?_, ?_, idx_setPrev hidx1⟩
      · simp [hx, hlen1, hb]
      · intro _
        show d1._tail = _
        rw [htl1, h.tail (by simp)]
        simp [List.getLast?_append]
      · refine seg_frame ?_ hseg1
        intro a ha
        have : b ≠ a := by intro e; subst e; exact hbl1 ha
        show (setPrev d1._nodes b n.prev)[a]? = _
        rw [getElem?_setPrev]; simp [this]
      · have hs2' : Seg d1._nodes (some i) (b :: r) none := by
          refine seg_frame ?_ hs2
          intro a ha
          exact hag1 a (fun hm => hdisj a hm ha)
        have := seg_setPrev_head (v := n.prev) hnd2 hs2'
        rw [hp] at this ⊢
        exact this
      · intro j hj1 hj2
        have : b ≠ j := by intro e; subst e; exact hj2 (by simp)
        show (setPrev d1._nodes b n.prev)[j]? = _
        rw [getElem?_setPrev]; simp [this, hag1 j hj1]
  obtain ⟨d2, hd2, htl2, hhd2, hlen2, hseg2a, hseg2b, hag2, hidx2⟩ := stage2
  refine ⟨{ d2 with _nodes := setPrev (setNext d2._nodes i none) i none }, ?_, ?_⟩
  · unfold dlist._remove
    simp only [hn]
    rw [hd1]
    simp only [hn1]
    rw [hd2]
  · refine ⟨by simp [hlen2], idx_setPrev (idx_setNext hidx2), ?_, hhd2, htl2, ?_, ?_⟩
    · exact List.nodup_append.2 ⟨hnd1, hnd2, fun a ha hb => hdisj a ha hb⟩
    · have hfr : ∀ a, a ∈ l1 ++ l2 →
          (setPrev (setNext d2._nodes i none) i none)[a]? = d2._nodes[a]? := by
        intro a ha
        have : i ≠ a := by
          intro e; subst e
          rcases List.mem_append.1 ha with h1 | h2
          · exact hil1 h1
          · exact hil2 h2
        rw [getElem?_setPrev, getElem?_setNext]; simp [this]
      refine seg_append.2 ⟨?_, ?_⟩
      · rw [headOr_none]
        exact seg_frame (fun a ha => hfr a (List.mem_append_left _ ha)) hseg2a
      · rw [lastOr_none]
        exact seg_frame (fun a ha => hfr a (List.mem_append_right _ ha)) hseg2b
    · intro j m hj hjn
      have hj1 : j ∉ l1 := fun hm => hjn (List.mem_append_left _ hm)
      have hj2 : j ∉ l2 := fun hm => hjn (List.mem_append_right _ hm)
      simp only [getElem?_setPrev, getElem?_setNext, Option.map_map] at hj
      rw [hag2 j hj1 hj2] at hj
      rcases hm : d._nodes[j]? with _ | m0
      · rw [hm] at hj; cases hj
      · rw [hm] at hj
        by_cases hji : i = j
        · simp [hji] at hj; rw [← hj]; exact ⟨rfl, rfl⟩
        · simp [hji] at hj; rw [← hj]
          refine h.free j m0 hm ?_
          intro hmem
          rcases List.mem_append.1 hmem with e | e
          · exact hj1 e
          · rcases List.mem_cons.1 e with e | e
            · exact hji e.symm
            · exact hj2 e

end dlist

/-! ## The key index -/

theorem map_find_append (m : List (Nat × Nat)) (k i k1 : Nat) :
    map_find (m ++ [(k, i)]) k1 =
      match map_find m k1 with
      | some j => some j
      | none => if k1 = k then some i else none := by
  unfold map_find
  induction m with
  | nil =>
    by_cases h : k1 = k
    · subst h; simp [List.lookup]
    · have : (k1 == k) = false := by simpa using h
      simp [List.lookup, this, h]
  | cons a rest ih =>
    obtain ⟨ak, ai⟩ := a
    by_cases h : k1 = ak
    · subst h; simp [List.lookup]
    · have : (k1 == ak) = false := by simpa using h
      simp only [List.cons_append, List.lookup, this]
      exact ih

theorem map_find_insert (m : List (Nat × Nat)) (k i k1 : Nat) (h : map_find m k = none) :
    map_find (map_insert m k i) k1 = if k1 = k then some i else map_find m k1 := by
  unfold map_insert
  have h' : List.lookup k m = none := h
  rw [h']
  simp only
  rw [map_find_append]
  by_cases hk : k1 = k
  · subst hk; rw [h]
  · simp only [hk, if_false]
    cases map_find m k1 <;> rfl

theorem map_find_erase (m : List (Nat × Nat)) (k k1 : Nat) :
    map_find (map_erase m k) k1 = if k1 = k then none else map_find m k1 := by
  unfold map_find map_erase
  induction m with
  | nil => simp [List.lookup]
  | cons a rest ih =>
    obtain ⟨ak, ai⟩ := a
    by_cases hak : ak = k
    · subst hak
      simp only [List.filter, bne_self_eq_false]
      rw [ih]
      by_cases h : k1 = ak
      · simp [h]
      · have : (k1 == ak) = false := by simpa using h
        simp [List.lookup, this, h]
    · have hne : (ak != k) = true := by simpa using hak
      simp only [List.filter, hne]
      by_cases h : k1 = ak
      · subst h; simp [List.lookup, hak]
      · have : (k1 == ak) = false := by simpa using h
        simp only [List.lookup, this]
        exact ih

/-! ## Termination of the victim searches -/

theorem sum_map_set {α : Type} (f : α → Nat) :
    ∀ (l : List α) (i : Nat) (v a : α), l[i]? = some a →
      ((l.set i v).map f).sum + f a = (l.map f).sum + f v := by
  intro l
  induction l with
  | nil => intro i v a h; simp at h
  | cons b rest ih =>
    intro i v a h
    cases i with
    | zero =>
      simp only [List.getElem?_cons_zero, Option.some.injEq] at h
      subst h
      simp only [List.set_cons_zero, List.map_cons, List.sum_cons]
      omega
    | succ j =>
      simp only [List.getElem?_cons_succ] at h
      have := ih j v a h
      simp only [List.set_cons_succ, List.map_cons, List.sum_cons]
      omega

theorem rrip_scan_lt : ∀ (rrpv : List saturating_counter) (i : Nat),
    rrip_scan rrpv = some i → i < rrpv.length := by
  intro rrpv
  induction rrpv with
  | nil => intro i h; simp [rrip_scan] at h
  | cons c rest ih =>
    intro i h
    simp only [rrip_scan] at h
    split at h
    · cases h; simp
    · rcases hr : rrip_scan rest with _ | j
      · rw [hr] at h; cases h
      · rw [hr] at h
        simp only [Option.map_some', Option.some.injEq] at h
        have := ih j hr
        simp only [List.length_cons]
        omega

theorem rrip_scan_none : ∀ (rrpv : List saturating_counter),
    rrip_scan rrpv = none → ∀ c ∈ rrpv, c._value ≠ 0 := by
  intro rrpv
  induction rrpv with
  | nil => intro _ c hc; cases hc
  | cons c rest ih =>
    intro h x hx
    simp only [rrip_scan] at h
    split at h
    · cases h
    · rename_i hc
      rcases hr : rrip_scan rest with _ | j
      · rcases List.mem_cons.1 hx with e | e
        · subst e; exact hc
        · exact ih hr x e
      · rw [hr] at h; cases h

theorem rrip_loop_total : ∀ (B : Nat) (rrpv : List saturating_counter), rrpv ≠ [] →
    (∀ c ∈ rrpv, c._value ≤ B) →
    ∃ i rr, rrip_loop (B + 1) rrpv = some (i, rr) ∧ i < rrpv.length ∧
      rr.length = rrpv.length := by
  intro B
  induction B with
  | zero =>
    intro rrpv hne hB
    rcases hs : rrip_scan rrpv with _ | i
    · exfalso
      cases rrpv with
      | nil => exact hne rfl
      | cons c rest =>
        have h0 := hB c (List.mem_cons_self _ _)
        exact rrip_scan_none _ hs c (List.mem_cons_self _ _) (by omega)
    · exact ⟨i, rrpv, by simp [rrip_loop, hs], rrip_scan_lt _ _ hs, rfl⟩
  | succ B ih =>
    intro rrpv hne hB
    rcases hs : rrip_scan rrpv with _ | i
    · have hnz := rrip_scan_none _ hs
      have hne' : rrpv.map (fun c => c.decrement) ≠ [] := by
        intro h; exact hne (List.map_eq_nil_iff.1 h)
      have hB' : ∀ c ∈ rrpv.map (fun c => c.decrement), c._value ≤ B := by
        intro c hc
        obtain ⟨c0, hc0, rfl⟩ := List.mem_map.1 hc
        have h1 := hB c0 hc0
        have h2 := hnz c0 hc0
        simp only [saturating_counter.decrement]
        split
        · show c0._value - 1 ≤ B
          omega
        · omega
      obtain ⟨i, rr, hl, hi, hlen⟩ := ih _ hne' hB'
      refine ⟨i, rr, ?_, by simpa using hi, by simpa using hlen⟩
      rw [rrip_loop, hs]
      exact hl
    · exact ⟨i, rrpv, by simp [rrip_loop, hs], rrip_scan_lt _ _ hs, rfl⟩

theorem le_foldr_max : ∀ (l : List Nat) (x : Nat), x ∈ l → x ≤ l.foldr max 0 := by
  intro l
  induction l with
  | nil => intro x hx; cases hx
  | cons a rest ih =>
    intro x hx
    simp only [List.foldr_cons]
    rcases List.mem_cons.1 hx with e | e
    · subst e; exact le_max_left _ _
    · exact le_trans (ih x e) (le_max_right _ _)

theorem rrip_victim_total (rrpv : List saturating_counter) (hne : rrpv ≠ []) :
    ∃ i rr, rrip_loop (rrip_fuel rrpv) rrpv = some (i, rr) ∧ i < rrpv.length ∧
      rr.length = rrpv.length := by
  unfold rrip_fuel
  apply rrip_loop_total _ _ hne
  intro c hc
  exact le_foldr_max _ _ (List.mem_map.2 ⟨c, hc, rfl⟩)

theorem hand_next_lt {N hand : Nat} (h : hand < N) (hN : N < UINT32_MOD) :
    (if (hand + 1) % UINT32_MOD = N then 0 else (hand + 1) % UINT32_MOD) < N := by
  have : (hand + 1) % UINT32_MOD = hand + 1 := Nat.mod_eq_of_lt (by omega)
  rw [this]
  split <;> omega

theorem nru_loop_total (N : Nat) (hN : N < UINT32_MOD) :
    ∀ (fuel : Nat) (ref : List Bool) (hand : Nat), ref.length = N → hand < N →
      (ref.map (fun b => if b then 1 else 0)).sum < fuel →
      ∃ i r, nru_loop fuel ref hand N = some (i, r) ∧ i < N ∧ r.length = N := by
  intro fuel
  induction fuel with
  | zero => intro ref hand _ _ h; omega
  | succ fuel ih =>
    intro ref hand hlen hh hm
    have hget : ref[hand]? = some ref[hand] := List.getElem?_eq_getElem (by omega)
    rcases hb : ref[hand] with _ | _
    · rw [hb] at hget
      exact ⟨hand, ref, by simp [nru_loop, hget], hh, hlen⟩
    · rw [hb] at hget
      have hs := sum_map_set (fun b : Bool => if b then 1 else 0) ref hand false true hget
      simp only [if_true, Bool.false_eq_true, if_false] at hs
      obtain ⟨i, r, hl, hi, hr⟩ := ih (ref.set hand false) _ (by simp [hlen])
        (hand_next_lt hh hN) (by omega)
      exact ⟨i, r, by simp only [nru_loop, hget]; exact hl, hi, hr⟩

theorem bool_sum_le (ref : List Bool) :
    (ref.map (fun b => if b then 1 else 0)).sum ≤ ref.length := by
  induction ref with
  | nil => simp
  | cons b rest ih =>
    simp only [List.map_cons, List.sum_cons, List.length_cons]
    cases b <;> simp <;> omega

theorem reuse_loop_total (N : Nat) (hN : N < UINT32_MOD) :
    ∀ (fuel : Nat) (r : List Nat) (hand : Nat), r.length = N → hand < N →
      r.sum < fuel →
      ∃ i r1, reuse_loop fuel r hand N = some (i, r1) ∧ i < N ∧ r1.length = N := by
  intro fuel
  induction fuel with
  | zero => intro r hand _ _ h; omega
  | succ fuel ih =>
    intro r hand hlen hh hm
    have hget : r[hand]? = some r[hand] := List.getElem?_eq_getElem (by omega)
    by_cases hx : r[hand] = 0
    · exact ⟨hand, r, by simp [reuse_loop, hget, hx], hh, hlen⟩
    · have hs := sum_map_set (fun x : Nat => x) r hand (r[hand] - 1) r[hand] hget
      simp only [List.map_id'] at hs
      obtain ⟨i, r1, hl, hi, hr⟩ := ih (r.set hand (r[hand] - 1)) _ (by simp [hlen])
        (hand_next_lt hh hN) (by omega)
      exact ⟨i, r1, by simp only [reuse_loop, hget, ne_eq, hx, not_false_eq_true, if_true]; exact hl,
        hi, hr⟩

theorem weight_sweep (g : Generation)
    (h : ¬ (g.generation._value = 0 ∧ g.referenced = false)) :
    g.sweep.weight + 1 = g.weight := by
  unfold Generation.sweep Generation.weight
  rcases hr : g.referenced with _ | _
  · simp only [hr, not_and, not_true_eq_false, imp_false] at h
    simp [saturating_counter.decrement]
    split <;> simp <;> omega
  · simp

theorem cyclic_increment_lt {c : cyclic_pointer} {N : Nat} (hs : c._size = N)
    (h : c._hand < N) (hN : N < UINT32_MOD) :
    c.increment._size = N ∧ c.increment._hand < N := by
  unfold cyclic_pointer.increment
  have : (c._hand + 1) % UINT32_MOD = c._hand + 1 := Nat.mod_eq_of_lt (by omega)
  simp only [this]
  split
  · exact ⟨hs, by simp; omega⟩
  · exact ⟨hs, by simp; omega⟩

theorem generation_loop_total (N : Nat) (hN : N < UINT32_MOD) (tbl : List entry)
    (hfull : ∀ i, i < N → validAt tbl i) :
    ∀ (fuel : Nat) (nodes : List Generation) (hand : cyclic_pointer), nodes.length = N →
      hand._size = N → hand._hand < N → (nodes.map Generation.weight).sum < fuel →
      ∃ h1 n1, generation_loop fuel nodes hand tbl = some (h1, n1) ∧ h1._size = N ∧
        h1._hand < N ∧ n1.length = N := by
  intro fuel
  induction fuel with
  | zero => intro nodes hand _ _ _ h; omega
  | succ fuel ih =>
    intro nodes hand hlen hs hh hm
    have hget : nodes[hand._hand]? = some nodes[hand._hand] :=
      List.getElem?_eq_getElem (by omega)
    obtain ⟨e, he, hv⟩ := hfull hand._hand hh
    by_cases hstop : nodes[hand._hand].generation._value = 0 ∧
        nodes[hand._hand].referenced = false
    · exact ⟨hand, nodes, by simp [generation_loop, hget, he, hstop, hv], hs, hh, hlen⟩
    · have hw := weight_sweep _ hstop
      have hsum := sum_map_set Generation.weight nodes hand._hand
        nodes[hand._hand].sweep nodes[hand._hand] hget
      obtain ⟨hs1, hh1⟩ := cyclic_increment_lt hs hh hN
      obtain ⟨h1, n1, hl, r1, r2, r3⟩ := ih (nodes.set hand._hand nodes[hand._hand].sweep)
        hand.increment (by simp [hlen]) hs1 hh1 (by omega)
      refine ⟨h1, n1, ?_, r1, r2, r3⟩
      simp only [generation_loop, hget, he]
      rw [if_neg (by tauto)]
      exact hl

/-! ## The policy invariant is kept by `UpdateReplacementPolicy` and `GetReplacementIndex` -/

theorem reuse_next_lt {N i : Nat} (h : i < N) (hN : N < UINT32_MOD) : reuse_next i N < N :=
  hand_next_lt h hN

theorem dip_place_ok {N : Nat} {d : dlist} {l : List Nat} {i : Nat} (bip : cyclic_pointer)
    (pval : policy_value_t) (h : d.Repr N l) (hi : i < N) (hnot : i ∉ l) :
    ∃ d1 l1, dip_place d bip i pval = some d1 ∧ d1.Repr N l1 ∧ ∀ j, j ∈ l1 ↔ j = i ∨ j ∈ l := by
  have hb : ∃ d1 l1, d._push_back i = some d1 ∧ d1.Repr N l1 ∧ ∀ j, j ∈ l1 ↔ j = i ∨ j ∈ l := by
    obtain ⟨d1, h1, h2⟩ := h.push_back hi hnot
    exact ⟨d1, _, h1, h2, fun j => by simp [or_comm]⟩
  have hf : ∃ d1 l1, d._push_front i = some d1 ∧ d1.Repr N l1 ∧ ∀ j, j ∈ l1 ↔ j = i ∨ j ∈ l := by
    obtain ⟨d1, h1, h2⟩ := h.push_front hi hnot
    exact ⟨d1, _, h1, h2, fun j => by simp⟩
  cases pval with
  | POLICY_HIGH => exact hb
  | POLICY_LOW => exact hf
  | POLICY_BIMODAL =>
    simp only [dip_place]
    split
    · exact hf
    · exact hb

theorem policy_insert_ok {N : Nat} {V : Nat → Prop} {p : policy_t} {i : Nat}
    (pval : policy_value_t) (hN : N < UINT32_MOD) (h : p.Inv N V) (hi : i < N) (hv : ¬ V i) :
    ∃ p1, UpdateReplacementPolicy p N i .T_INSERT pval = some p1 ∧
      p1.Inv N (fun j => j = i ∨ V j) := by
  cases p with
  | lru d =>
    obtain ⟨l, hr, hl⟩ := h
    obtain ⟨d1, h1, h2⟩ := hr.push_back hi (fun hm => hv ((hl i).1 hm))
    exact ⟨.lru d1, by simp [UpdateReplacementPolicy, h1],
      ⟨_, h2, fun j => by simp [hl j, or_comm]⟩⟩
  | fifo q =>
    refine ⟨.fifo (q ++ [i]), rfl, ?_, ?_⟩
    · intro j hj
      rcases List.mem_append.1 hj with e | e
      · exact h.1 j e
      · simp at e; omega
    · intro j hj
      rcases hj with e | e
      · simp [e]
      · exact List.mem_append_left _ (h.2 j e)
  | reuse r hand mx =>
    exact ⟨_, rfl, by simp [h.1], reuse_next_lt hi hN⟩
  | srrip rrpv => exact ⟨_, rfl, by simpa [policy_t.Inv] using h⟩
  | nru ref hand => exact ⟨_, rfl, by simp [h.1], h.2⟩
  | generation nodes hand => exact ⟨_, rfl, by simp [h.1], h.2⟩
  | dip d bip =>
    obtain ⟨⟨l, hr, hl⟩, hb⟩ := h
    obtain ⟨d1, l1, h1, h2, h3⟩ := dip_place_ok bip pval hr hi (fun hm => hv ((hl i).1 hm))
    exact ⟨.dip d1 bip, by simp [UpdateReplacementPolicy, h1],
      ⟨_, h2, fun j => by rw [h3 j, hl j]⟩, hb⟩
  | drrip rrpv brrip => exact ⟨_, rfl, by simp [h.1], h.2⟩
  | minw => exact ⟨_, rfl, trivial⟩

theorem mem_erase_append_self {l : List Nat} {i : Nat} (hnd : l.Nodup) (hi : i ∈ l) (j : Nat) :
    (j = i ∨ j ∈ l.erase i) ↔ j ∈ l := by
  rw [hnd.mem_erase_iff]
  constructor
  · rintro (e | ⟨_, e⟩)
    · rw [e]; exact hi
    · exact e
  · intro hj
    by_cases e : j = i
    · exact Or.inl e
    · exact Or.inr ⟨e, hj⟩

theorem policy_touch_ok {N : Nat} {V : Nat → Prop} {p : policy_t} {i : Nat}
    (op : operation) (hop : op = .T_READ ∨ op = .T_UPDATE)
    (pval : policy_value_t) (h : p.Inv N V) (hi : i < N) (hv : V i) :
    ∃ p1, UpdateReplacementPolicy p N i op pval = some p1 ∧ p1.Inv N V := by
  cases p with
  | lru d =>
    obtain ⟨l, hr, hl⟩ := h
    have hil : i ∈ l := (hl i).2 hv
    obtain ⟨d1, h1, h2⟩ := hr.remove hil
    obtain ⟨d2, h3, h4⟩ := h2.push_back hi (by
      rw [hr.nodup.mem_erase_iff]; simp)
    refine ⟨.lru d2, ?_, _, h4, fun j => ?_⟩
    · rcases hop with e | e <;> subst e <;> simp [UpdateReplacementPolicy, h1, h3]
    · rw [← hl j, ← mem_erase_append_self hr.nodup hil j]; simp [or_comm]
  | fifo q => exact ⟨.fifo q, by rcases hop with e | e <;> subst e <;> rfl, h⟩
  | reuse r hand mx =>
    exact ⟨.reuse (r.modify (fun x => if x ≠ mx then x + 1 else x) i) hand mx,
      by rcases hop with e | e <;> subst e <;> rfl, by simp [h.1], h.2⟩
  | srrip rrpv =>
    exact ⟨.srrip (rrpv.modify (fun c => c.increment) i),
      by rcases hop with e | e <;> subst e <;> rfl, by simpa [policy_t.Inv] using h⟩
  | nru ref hand =>
    exact ⟨.nru (ref.set i true) hand,
      by rcases hop with e | e <;> subst e <;> rfl, by simp [h.1], h.2⟩
  | generation nodes hand =>
    exact ⟨.generation (nodes.modify (fun g => { g with referenced := true }) i) hand,
      by rcases hop with e | e <;> subst e <;> rfl, by simp [h.1], h.2⟩
  | dip d bip =>
    obtain ⟨⟨l, hr, hl⟩, hb⟩ := h
    have hil : i ∈ l := (hl i).2 hv
    obtain ⟨d1, h1, h2⟩ := hr.remove hil
    obtain ⟨d2, l2, h3, h4, h5⟩ := dip_place_ok bip pval h2 hi (by
      rw [hr.nodup.mem_erase_iff]; simp)
    refine ⟨.dip d2 bip, ?_, ⟨_, h4, fun j => ?_⟩, hb⟩
    · rcases hop with e | e <;> subst e <;> simp [UpdateReplacementPolicy, h1, h3]
    · rw [h5 j, ← hl j, mem_erase_append_self hr.nodup hil j]
  | drrip rrpv brrip =>
    exact ⟨.drrip (rrpv.modify (fun c => drrip_promote c brrip pval) i) brrip,
      by rcases hop with e | e <;> subst e <;> rfl, by simp [h.1], h.2⟩
  | minw => exact ⟨.minw, by rcases hop with e | e <;> subst e <;> rfl, trivial⟩

theorem policy_invalidate_ok {N : Nat} {V : Nat → Prop} {p : policy_t} {i : Nat}
    (pval : policy_value_t) (h : p.Inv N V) (hv : V i) :
    ∃ p1, UpdateReplacementPolicy p N i .T_INVALIDATE pval = some p1 ∧
      p1.Inv N (fun j => j ≠ i ∧ V j) := by
  cases p with
  | lru d =>
    obtain ⟨l, hr, hl⟩ := h
    obtain ⟨d1, h1, h2⟩ := hr.remove ((hl i).2 hv)
    exact ⟨.lru d1, by simp [UpdateReplacementPolicy, h1],
      _, h2, fun j => by rw [hr.nodup.mem_erase_iff, hl j]⟩
  | fifo q => exact ⟨.fifo q, rfl, h.1, fun j hj => h.2 j hj.2⟩
  | reuse r hand mx => exact ⟨_, rfl, by simp [h.1], h.2⟩
  | srrip rrpv => exact ⟨_, rfl, by simpa [policy_t.Inv] using h⟩
  | nru ref hand => exact ⟨_, rfl, by simp [h.1], h.2⟩
  | generation nodes hand => exact ⟨_, rfl, by simp [h.1], h.2⟩
  | dip d bip =>
    obtain ⟨⟨l, hr, hl⟩, hb⟩ := h
    obtain ⟨d1, h1, h2⟩ := hr.remove ((hl i).2 hv)
    exact ⟨.dip d1 bip, by simp [UpdateReplacementPolicy, h1],
      ⟨_, h2, fun j => by rw [hr.nodup.mem_erase_iff, hl j]⟩, hb⟩
  | drrip rrpv brrip => exact ⟨_, rfl, h⟩
  | minw => exact ⟨_, rfl, trivial⟩

theorem policy_inv_congr {N : Nat} {V W : Nat → Prop} {p : policy_t}
    (hVW : ∀ i, V i ↔ W i) (h : p.Inv N V) : p.Inv N W := by
  have : V = W := funext (fun i => propext (hVW i))
  rw [← this]; exact h

theorem policy_victim_ok {N : Nat} {V : Nat → Prop} {p : policy_t} {tbl : List entry}
    (hN0 : 0 < N) (hN : N < UINT32_MOD) (h : p.Inv N V) (hV : ∀ i, i < N → V i)
    (hfull : ∀ i, i < N → validAt tbl i) :
    ∃ i p1, GetReplacementIndex p N tbl = some (i, p1) ∧ i < N ∧ p1.Inv N V ∧
      ∀ pval, ∃ p2, UpdateReplacementPolicy p1 N i .T_REPLACE pval = some p2 ∧
        p2.Inv N V := by
  cases p with
  | lru d =>
    obtain ⟨l, hr, hl⟩ := h
    have h0 : 0 ∈ l := (hl 0).2 (hV 0 hN0)
    cases l with
    | nil => cases h0
    | cons a rest =>
      have ha : a < N := hr.lt a (by simp)
      refine ⟨a, .lru d, by simp [GetReplacementIndex, hr.headIndex], ha, ⟨_, hr, hl⟩, ?_⟩
      intro pval
      obtain ⟨d1, h1, h2⟩ := hr.pop_front
      obtain ⟨d2, h3, h4⟩ := h2.push_back ha (List.nodup_cons.1 hr.nodup).1
      refine ⟨.lru d2, by simp [UpdateReplacementPolicy, h1, h3], _, h4, fun j => ?_⟩
      rw [← hl j]; simp [or_comm]
  | fifo q =>
    have h0 : 0 ∈ q := h.2 0 (hV 0 hN0)
    cases q with
    | nil => cases h0
    | cons a rest =>
      refine ⟨a, .fifo (a :: rest), rfl, h.1 a (by simp), h, ?_⟩
      intro pval
      refine ⟨.fifo (rest ++ [a]), rfl, ?_, ?_⟩
      · intro j hj
        exact h.1 j (by
          rcases List.mem_append.1 hj with e | e
          · exact List.mem_cons_of_mem _ e
          · simp at e; simp [e])
      · intro j hj
        have := h.2 j hj
        rcases List.mem_cons.1 this with e | e
        · simp [e]
        · exact List.mem_append_left _ e
  | reuse r hand mx =>
    obtain ⟨i, r1, hl, hi, hr1⟩ := reuse_loop_total N hN (r.sum + 1) r hand h.1 h.2 (by omega)
    refine ⟨i, .reuse r1 i mx, by simp [GetReplacementIndex, hl], hi, ⟨hr1, hi⟩, ?_⟩
    intro pval
    exact ⟨_, rfl, by simp [hr1], reuse_next_lt hi hN⟩
  | srrip rrpv =>
    have hlen : rrpv.length = N := h
    have hne : rrpv ≠ [] := by
      intro e; rw [e] at hlen; simp at hlen; omega
    obtain ⟨i, rr, hl, hi, hrr⟩ := rrip_victim_total rrpv hne
    refine ⟨i, .srrip rr, by simp [GetReplacementIndex, hl], by omega, ?_, ?_⟩
    · show rr.length = N
      omega
    · intro pval
      refine ⟨_, rfl, ?_⟩
      show (List.modify _ i rr).length = N
      simp; omega
  | nru ref hand =>
    obtain ⟨i, r1, hl, hi, hr1⟩ := nru_loop_total N hN (ref.length + 1) ref hand h.1 h.2
      (by have := bool_sum_le ref; omega)
    refine ⟨i, .nru r1 i, by simp [GetReplacementIndex, hl], hi, ⟨hr1, hi⟩, ?_⟩
    intro pval
    exact ⟨_, rfl, by simp [hr1], hi⟩
  | generation nodes hand =>
    obtain ⟨h1, n1, hl, hs1, hh1, hn1⟩ := generation_loop_total N hN tbl hfull
      (generation_fuel nodes) nodes hand h.1 h.2.1 h.2.2 (by
        unfold generation_fuel
        have hpos : 0 < nodes.length := by rw [h.1]; omega
        have := Nat.le_mul_of_pos_right ((nodes.map Generation.weight).sum + 1) hpos
        omega)
    refine ⟨h1._hand, .generation n1 h1, by simp [GetReplacementIndex, hl], hh1,
      ⟨hn1, hs1, hh1⟩, ?_⟩
    intro pval
    exact ⟨_, rfl, by simp [hn1], hs1, hh1⟩
  | dip d bip =>
    obtain ⟨⟨l, hr, hl⟩, hb⟩ := h
    have hb1 := cyclic_increment_lt hb.1 hb.2 (by unfold UINT32_MOD; omega)
    have h0 : 0 ∈ l := (hl 0).2 (hV 0 hN0)
    cases l with
    | nil => cases h0
    | cons a rest =>
      have ha : a < N := hr.lt a (by simp)
      refine ⟨a, .dip d bip.increment, by simp [GetReplacementIndex, hr.headIndex], ha,
        ⟨⟨_, hr, hl⟩, hb1⟩, ?_⟩
      intro pval
      obtain ⟨d1, h1, h2⟩ := hr.pop_front
      obtain ⟨d2, l2, h3, h4, h5⟩ := dip_place_ok bip.increment pval h2 ha
        (List.nodup_cons.1 hr.nodup).1
      refine ⟨.dip d2 bip.increment, by simp [UpdateReplacementPolicy, h1, h3],
        ⟨_, h4, fun j => ?_⟩, hb1⟩
      rw [h5 j, ← hl j]; simp
  | drrip rrpv brrip =>
    have hlen : rrpv.length = N := h.1
    have hb1 := cyclic_increment_lt h.2.1 h.2.2 (by unfold UINT32_MOD; omega)
    have hne : rrpv ≠ [] := by
      intro e; rw [e] at hlen; simp at hlen; omega
    obtain ⟨i, rr, hl, hi, hrr⟩ := rrip_victim_total rrpv hne
    refine ⟨i, .drrip rr brrip.increment, by simp [GetReplacementIndex, hl], by omega,
      ⟨by omega, hb1⟩, ?_⟩
    intro pval
    exact ⟨_, rfl, by simp; omega, hb1⟩
  | minw => exact ⟨0, .minw, rfl, hN0, trivial, fun _ => ⟨.minw, rfl, trivial⟩⟩

/-! ## The table operations keep the invariant -/

theorem policy_new_inv (p : policy_name) (N hand0 : Nat) (hnru : p = .nru → hand0 < N)
    (hN0 : 0 < N) :
    (policy_t.new p N hand0).Inv N (fun _ => False) := by
  cases p with
  | lru => exact ⟨[], dlist.Repr.new N, fun i => ⟨fun h => (by cases h), fun h => h.elim⟩⟩
  | fifo => exact ⟨fun i hi => (by cases hi), fun i hi => hi.elim⟩
  | reuse => exact ⟨by simp, hN0⟩
  | srrip => show (List.replicate N _).length = N; simp
  | nru => exact ⟨by simp, hnru rfl⟩
  | generation => exact ⟨by simp, rfl, hN0⟩
  | dip =>
    exact ⟨⟨[], dlist.Repr.new N, fun i => ⟨fun h => (by cases h), fun h => h.elim⟩⟩, rfl,
      by decide⟩
  | drrip => exact ⟨by simp, rfl, by decide⟩
  | minw => trivial

theorem getElem?_replicate_empty (N i : Nat) (e : entry)
    (h : (List.replicate N entry.empty)[i]? = some e) : i < N ∧ e = entry.empty := by
  rw [List.getElem?_replicate] at h
  split at h
  · exact ⟨by assumption, by cases h; rfl⟩
  · cases h

theorem table_t.WF_new (p : policy_name) (N hand0 : Nat) (hN0 : 0 < N) (hN : N < UINT32_MOD)
    (hnru : p = .nru → hand0 < N) : (table_t.new p N hand0).WF N := by
  refine ⟨hN0, hN, ⟨rfl, by simp [table_t.new], ?_, ?_, ?_, ?_⟩, ?_⟩
  · intro i e h hv
    have := (getElem?_replicate_empty N i e h).2
    rw [this] at hv; cases hv
  · exact List.nodup_range N
  · intro i
    simp only [table_t.new, List.mem_range]
    constructor
    · intro hi
      exact ⟨entry.empty, by rw [List.getElem?_replicate]; simp [hi], rfl⟩
    · rintro ⟨e, he, _⟩
      exact (getElem?_replicate_empty N i e he).1
  · intro k i
    simp only [table_t.new, map_find, List.lookup]
    constructor
    · intro h; cases h
    · rintro ⟨e, he, hv, _⟩
      have := (getElem?_replicate_empty N i e he).2
      rw [this] at hv; cases hv
  · refine policy_inv_congr ?_ (policy_new_inv p N hand0 hnru hN0)
    intro i
    constructor
    · intro h; exact h.elim
    · rintro ⟨e, he, hv⟩
      have := (getElem?_replicate_empty N i e he).2
      rw [this] at hv; cases hv

theorem table_t.search_none {t : table_t} (k : Nat)
    (hk : map_find t._keyIndex k = none) : t.SearchForKey k = t._size := by
  simp [table_t.SearchForKey, hk]

theorem table_t.BaseInv.search_some {N : Nat} {t : table_t} (h : t.BaseInv N) (k i : Nat)
    (hk : map_find t._keyIndex k = some i) :
    t.SearchForKey k = i ∧ i < N ∧ i ≠ t._size ∧
      ∃ e, t._table[i]? = some e ∧ e.valid = true ∧ e.key = k ∧ e.index = i := by
  obtain ⟨e, he, hv, hkey⟩ := (h.key_iff k i).1 hk
  have hi : i < N := by
    by_contra hlt
    rw [List.getElem?_eq_none (by rw [h.len]; omega)] at he
    cases he
  refine ⟨by simp [table_t.SearchForKey, hk], hi, by rw [h.size]; omega, e, he, hv, hkey,
    h.idx i e he hv⟩

theorem table_t.BaseInv.lt_of_get {N : Nat} {t : table_t} (h : t.BaseInv N) {i : Nat}
    {e : entry} (he : t._table[i]? = some e) : i < N := by
  by_contra hlt
  rw [List.getElem?_eq_none (by rw [h.len]; omega)] at he
  cases he

theorem table_t.BaseInv.full_of_nil {N : Nat} {t : table_t} (h : t.BaseInv N)
    (hf : t._freeList = []) : ∀ i, i < N → validAt t._table i := by
  intro i hi
  have hlt : i < t._table.length := by rw [h.len]; exact hi
  have hget : t._table[i]? = some t._table[i] := List.getElem?_eq_getElem hlt
  refine ⟨_, hget, ?_⟩
  by_contra hv
  have : i ∈ t._freeList := (h.free_iff i).2 ⟨_, hget, by simpa using hv⟩
  rw [hf] at this; cases this

theorem validAt_set (tbl : List entry) (i j k v : Nat) (hi : i < tbl.length) :
    validAt (tbl.set i (entry.full i k v)) j ↔ (j = i ∨ validAt tbl j) := by
  unfold validAt
  rw [List.getElem?_set]
  by_cases hij : i = j
  · subst hij
    simp [hi, entry.full]
  · simp only [hij, if_false]
    constructor
    · intro h; exact Or.inr h
    · rintro (e | h)
      · exact absurd e.symm hij
      · exact h

theorem table_t.insert_hit {N : Nat} {t : table_t} {k i : Nat} (h : t.BaseInv N)
    (v : Nat) (pval : policy_value_t) (hk : map_find t._keyIndex k = some i) :
    ∃ e, t._table[i]? = some e ∧ e.valid = true ∧ e.key = k ∧ e.index = i ∧
      t.insert k v pval = some (e, t) := by
  obtain ⟨hs, _, hne, e, he, hv, hkey, hidx⟩ := h.search_some k i hk
  refine ⟨e, he, hv, hkey, hidx, ?_⟩
  unfold table_t.insert
  rw [hs, if_pos hne, he]
  rfl

theorem table_t.insert_free {N : Nat} {t : table_t} {k i : Nat} {rest : List Nat}
    (h : t.WF N) (v : Nat) (pval : policy_value_t)
    (hk : map_find t._keyIndex k = none) (hf : t._freeList = i :: rest) :
    ∃ p1, UpdateReplacementPolicy t.policy N i .T_INSERT pval = some p1 ∧
      i < N ∧ ¬ validAt t._table i ∧
      t.insert k v pval = some (entry.ofIndex i,
        { _table := t._table.set i (entry.full i k v), _size := t._size,
          _keyIndex := map_insert t._keyIndex k i, _freeList := rest, policy := p1 }) ∧
      table_t.WF N
        { _table := t._table.set i (entry.full i k v), _size := t._size,
          _keyIndex := map_insert t._keyIndex k i, _freeList := rest, policy := p1 } := by
  obtain ⟨hN0, hN, hb, hp⟩ := h
  have himem : i ∈ t._freeList := by rw [hf]; simp
  obtain ⟨e0, he0, hv0⟩ := (hb.free_iff i).1 himem
  have hi : i < N := hb.lt_of_get he0
  have hnv : ¬ validAt t._table i := by
    rintro ⟨e, he, hv⟩
    rw [he0] at he; cases he
    rw [hv0] at hv; cases hv
  have hnd : (i :: rest).Nodup := hf ▸ hb.free_nodup
  obtain ⟨p1, hp1, hinv1⟩ := policy_insert_ok pval hN hp hi hnv
  have hlen : i < t._table.length := by rw [hb.len]; exact hi
  refine ⟨p1, hp1, hi, hnv, ?_, hN0, hN, ⟨hb.size, by simp [hb.len], ?_, ?_, ?_, ?_⟩, ?_⟩
  · unfold table_t.insert
    rw [table_t.search_none k hk]
    simp only [ne_eq, not_true_eq_false, if_false, table_t.GetFreeEntry, hf]
    rw [if_pos (by rw [hb.size]; omega), hb.size, hp1]
    rfl
  · intro j e hj hv
    simp only [List.getElem?_set] at hj
    by_cases hij : i = j
    · subst hij
      simp only [if_true, hlen] at hj
      cases hj; rfl
    · simp only [hij, if_false] at hj
      exact hb.idx j e hj hv
  · exact (List.nodup_cons.1 hnd).2
  · intro j
    simp only [List.getElem?_set]
    by_cases hij : i = j
    · subst hij
      simp only [if_true, hlen]
      constructor
      · intro hm; exact absurd hm (List.nodup_cons.1 hnd).1
      · rintro ⟨e, he, hv⟩
        cases he; cases hv
    · simp only [hij, if_false]
      rw [← hb.free_iff j, hf]
      simp [Ne.symm hij]
  · intro k1 j
    simp only
    rw [map_find_insert _ _ _ _ hk]
    by_cases hk1 : k1 = k
    · subst hk1
      simp only [if_true, Option.some.injEq, List.getElem?_set]
      constructor
      · intro e; subst e
        exact ⟨entry.full i k1 v, by simp [hlen], rfl, rfl⟩
      · rintro ⟨e, he, hv, hkey⟩
        by_cases hij : i = j
        · exact hij
        · simp only [hij, if_false] at he
          have := (hb.key_iff k1 j).2 ⟨e, he, hv, hkey⟩
          rw [hk] at this; cases this
    · simp only [hk1, if_false, List.getElem?_set]
      rw [hb.key_iff k1 j]
      by_cases hij : i = j
      · subst hij
        simp only [if_true, hlen]
        constructor
        · rintro ⟨e, he, hv, _⟩
          rw [he0] at he; cases he
          rw [hv0] at hv; cases hv
        · rintro ⟨e, he, _, hkey⟩
          cases he
          exact absurd hkey.symm hk1
      · simp only [hij, if_false]
  · refine policy_inv_congr ?_ hinv1
    intro j
    exact (validAt_set t._table i j k v hlen).symm

theorem table_t.insert_evict {N : Nat} {t : table_t} {k : Nat}
    (h : t.WF N) (v : Nat) (pval : policy_value_t)
    (hk : map_find t._keyIndex k = none) (hf : t._freeList = []) :
    ∃ i p1 p2 e, GetReplacementIndex t.policy N t._table = some (i, p1) ∧ i < N ∧
      UpdateReplacementPolicy p1 N i .T_REPLACE pval = some p2 ∧
      t._table[i]? = some e ∧ e.valid = true ∧ e.index = i ∧
      t.insert k v pval = some (e,
        { _table := t._table.set i (entry.full i k v), _size := t._size,
          _keyIndex := map_insert (map_erase t._keyIndex e.key) k i, _freeList := [],
          policy := p2 }) ∧
      table_t.WF N
        { _table := t._table.set i (entry.full i k v), _size := t._size,
          _keyIndex := map_insert (map_erase t._keyIndex e.key) k i, _freeList := [],
          policy := p2 } := by
  obtain ⟨hN0, hN, hb, hp⟩ := h
  have hfull := hb.full_of_nil hf
  obtain ⟨i, p1, hg, hi, _, hrep⟩ := policy_victim_ok hN0 hN hp hfull hfull
  obtain ⟨p2, hp2, hinv2⟩ := hrep pval
  obtain ⟨e, he, hv⟩ := hfull i hi
  have hidx : e.index = i := hb.idx i e he hv
  have hlen : i < t._table.length := by rw [hb.len]; exact hi
  have hke : map_find t._keyIndex e.key = some i := (hb.key_iff e.key i).2 ⟨e, he, hv, rfl⟩
  have hkne : k ≠ e.key := by
    intro e1; rw [e1] at hk; rw [hk] at hke; cases hke
  have hk' : map_find (map_erase t._keyIndex e.key) k = none := by
    rw [map_find_erase]; simp [hkne, hk]
  refine ⟨i, p1, p2, e, hg, hi, hp2, he, hv, hidx, ?_, hN0, hN,
    ⟨hb.size, by simp [hb.len], ?_, ?_, ?_, ?_⟩, ?_⟩
  · unfold table_t.insert
    rw [table_t.search_none k hk]
    simp only [ne_eq, not_true_eq_false, if_false, table_t.GetFreeEntry, hf]
    rw [hb.size, hg]
    simp [hp2, he, table_t.ReplaceEntry, hidx, entry.full]
  · intro j e1 hj hv1
    simp only [List.getElem?_set] at hj
    by_cases hij : i = j
    · subst hij
      simp only [if_true, hlen] at hj
      cases hj; rfl
    · simp only [hij, if_false] at hj
      exact hb.idx j e1 hj hv1
  · exact List.nodup_nil
  · intro j
    simp only [List.getElem?_set]
    constructor
    · intro hm; cases hm
    · rintro ⟨e1, he1, hv1⟩
      exfalso
      by_cases hij : i = j
      · subst hij
        simp only [if_true, hlen] at he1
        cases he1; cases hv1
      · simp only [hij, if_false] at he1
        have : j ∈ t._freeList := (hb.free_iff j).2 ⟨e1, he1, hv1⟩
        rw [hf] at this; cases this
  · intro k1 j
    simp only
    rw [map_find_insert _ _ _ _ hk', map_find_erase]
    by_cases hk1 : k1 = k
    · subst hk1
      simp only [if_true, Option.some.injEq, List.getElem?_set]
      constructor
      · intro e1; subst e1
        exact ⟨entry.full i k1 v, by simp [hlen], rfl, rfl⟩
      · rintro ⟨e1, he1, hv1, hkey⟩
        by_cases hij : i = j
        · exact hij
        · simp only [hij, if_false] at he1
          have := (hb.key_iff k1 j).2 ⟨e1, he1, hv1, hkey⟩
          rw [hk] at this; cases this
    · simp only [hk1, if_false, List.getElem?_set]
      by_cases hk2 : k1 = e.key
      · simp only [hk2, if_true]
        constructor
        · intro h0; cases h0
        · rintro ⟨e1, he1, hv1, hkey⟩
          exfalso
          by_cases hij : i = j
          · subst hij
            simp only [if_true, hlen] at he1
            cases he1
            exact hk1 (hk2.trans hkey.symm)
          · simp only [hij, if_false] at he1
            have := (hb.key_iff e.key j).2 ⟨e1, he1, hv1, hkey⟩
            rw [hke] at this
            cases this
            exact hij rfl
      · simp only [hk2, if_false]
        rw [hb.key_iff k1 j]
        by_cases hij : i = j
        · subst hij
          simp only [if_true, hlen]
          constructor
          · rintro ⟨e1, he1, _, hkey⟩
            rw [he] at he1; cases he1
            exact absurd hkey.symm hk2
          · rintro ⟨e1, he1, _, hkey⟩
            cases he1
            exact absurd hkey.symm hk1
        · simp only [hij, if_false]
  · refine policy_inv_congr ?_ hinv2
    intro j
    rw [validAt_set t._table i j k v hlen]
    constructor
    · intro hj; exact Or.inr hj
    · rintro (e1 | hj)
      · rw [e1]; exact hfull i hi
      · exact hj

theorem table_t.read_miss {t : table_t} {k : Nat} (pval : policy_value_t)
    (hk : map_find t._keyIndex k = none) : t.read k pval = some (entry.empty, t) := by
  simp [table_t.read, table_t.search_none k hk]

theorem table_t.silentupdate_miss {t : table_t} {k : Nat} (pval : policy_value_t)
    (hk : map_find t._keyIndex k = none) : t.silentupdate k pval = some (entry.empty, t) := by
  simp [table_t.silentupdate, table_t.search_none k hk]

theorem table_t.update_miss {t : table_t} {k : Nat} (v : Nat) (pval : policy_value_t)
    (hk : map_find t._keyIndex k = none) : t.update k v pval = some (entry.empty, t) := by
  simp [table_t.update, table_t.search_none k hk]

theorem table_t.invalidate_miss {t : table_t} {k : Nat}
    (hk : map_find t._keyIndex k = none) : t.invalidate k = some (entry.empty, t) := by
  simp [table_t.invalidate, table_t.search_none k hk]

theorem table_t.read_hit {N : Nat} {t : table_t} {k i : Nat} (h : t.WF N)
    (pval : policy_value_t) (hk : map_find t._keyIndex k = some i) :
    ∃ p1 e, UpdateReplacementPolicy t.policy N i .T_READ pval = some p1 ∧
      t._table[i]? = some e ∧ e.valid = true ∧ e.key = k ∧
      t.read k pval = some (e, { t with policy := p1 }) ∧
      table_t.WF N { t with policy := p1 } := by
  obtain ⟨hN0, hN, hb, hp⟩ := h
  obtain ⟨hs, hi, hne, e, he, hv, hkey, _⟩ := hb.search_some k i hk
  obtain ⟨p1, hp1, hinv1⟩ := policy_touch_ok .T_READ (Or.inl rfl) pval hp hi ⟨e, he, hv⟩
  refine ⟨p1, e, hp1, he, hv, hkey, ?_, hN0, hN, ⟨hb.size, hb.len, hb.idx, hb.free_nodup,
    hb.free_iff, hb.key_iff⟩, hinv1⟩
  unfold table_t.read
  rw [hs, if_neg hne, hb.size, hp1]
  simp [he]

theorem table_t.silentupdate_hit {N : Nat} {t : table_t} {k i : Nat} (h : t.WF N)
    (pval : policy_value_t) (hk : map_find t._keyIndex k = some i) :
    ∃ p1 e, UpdateReplacementPolicy t.policy N i .T_UPDATE pval = some p1 ∧
      t._table[i]? = some e ∧ e.valid = true ∧ e.key = k ∧
      t.silentupdate k pval = some (e, { t with policy := p1 }) ∧
      table_t.WF N { t with policy := p1 } := by
  obtain ⟨hN0, hN, hb, hp⟩ := h
  obtain ⟨hs, hi, hne, e, he, hv, hkey, _⟩ := hb.search_some k i hk
  obtain ⟨p1, hp1, hinv1⟩ := policy_touch_ok .T_UPDATE (Or.inr rfl) pval hp hi ⟨e, he, hv⟩
  refine ⟨p1, e, hp1, he, hv, hkey, ?_, hN0, hN, ⟨hb.size, hb.len, hb.idx, hb.free_nodup,
    hb.free_iff, hb.key_iff⟩, hinv1⟩
  unfold table_t.silentupdate
  rw [hs, if_neg hne, hb.size, hp1]
  simp [he]

theorem getElem?_modify_value (tbl : List entry) (i j v : Nat) :
    (tbl.modify (fun x => { x with value := v }) i)[j]? =
      (tbl[j]?).map (fun x => if i = j then { x with value := v } else x) := by
  rw [List.getElem?_modify]; rfl

theorem slot_modify_value (tbl : List entry) (i j v : Nat) (P : Bool → Nat → Nat → Prop) :
    (∃ e, (tbl.modify (fun x => { x with value := v }) i)[j]? = some e ∧
        P e.valid e.index e.key) ↔
      ∃ e, tbl[j]? = some e ∧ P e.valid e.index e.key := by
  rw [getElem?_modify_value]
  constructor
  · rintro ⟨e, he, hP⟩
    rcases h0 : tbl[j]? with _ | e0
    · rw [h0] at he; cases he
    · rw [h0] at he
      simp only [Option.map_some', Option.some.injEq] at he
      refine ⟨e0, rfl, ?_⟩
      rw [← he] at hP
      split at hP <;> exact hP
  · rintro ⟨e, he, hP⟩
    rw [he]
    refine ⟨_, rfl, ?_⟩
    split <;> exact hP

theorem table_t.update_hit {N : Nat} {t : table_t} {k i : Nat} (h : t.WF N)
    (v : Nat) (pval : policy_value_t) (hk : map_find t._keyIndex k = some i) :
    ∃ p1 e, UpdateReplacementPolicy t.policy N i .T_UPDATE pval = some p1 ∧
      t._table[i]? = some e ∧ e.valid = true ∧ e.key = k ∧
      t.update k v pval = some ({ e with value := v },
        { t with _table := t._table.modify (fun x => { x with value := v }) i,
                 policy := p1 }) ∧
      table_t.WF N
        { t with _table := t._table.modify (fun x => { x with value := v }) i,
                 policy := p1 } := by
  obtain ⟨hN0, hN, hb, hp⟩ := h
  obtain ⟨hs, hi, hne, e, he, hv, hkey, _⟩ := hb.search_some k i hk
  obtain ⟨p1, hp1, hinv1⟩ := policy_touch_ok .T_UPDATE (Or.inr rfl) pval hp hi ⟨e, he, hv⟩
  refine ⟨p1, e, hp1, he, hv, hkey, ?_, hN0, hN, ⟨hb.size, by simp [hb.len], ?_, hb.free_nodup,
    ?_, ?_⟩, ?_⟩
  · unfold table_t.update
    rw [hs, if_neg hne, hb.size, hp1]
    simp [getElem?_modify_value, he]
  · intro j e1 hj hv1
    obtain ⟨e3, he3, hv3, hi3⟩ :=
      (slot_modify_value t._table i j v (fun a b _ => a = true ∧ b = e1.index)).1
        ⟨e1, hj, hv1, rfl⟩
    rw [← hi3]
    exact hb.idx j e3 he3 hv3
  · intro j
    rw [hb.free_iff j]
    exact (slot_modify_value t._table i j v (fun a _ _ => a = false)).symm
  · intro k1 j
    rw [hb.key_iff k1 j]
    exact (slot_modify_value t._table i j v (fun a _ c => a = true ∧ c = k1)).symm
  · refine policy_inv_congr ?_ hinv1
    intro j
    exact (slot_modify_value t._table i j v (fun a _ _ => a = true)).symm

theorem getElem?_modify_valid (tbl : List entry) (i j : Nat) :
    (tbl.modify (fun x => { x with valid := false }) i)[j]? =
      (tbl[j]?).map (fun x => if i = j then { x with valid := false } else x) := by
  rw [List.getElem?_modify]; rfl

theorem table_t.invalidate_hit {N : Nat} {t : table_t} {k i : Nat} (h : t.WF N)
    (hk : map_find t._keyIndex k = some i) :
    ∃ p1 e, UpdateReplacementPolicy t.policy N i .T_INVALIDATE .POLICY_HIGH = some p1 ∧
      t._table[i]? = some e ∧ e.valid = true ∧ e.key = k ∧ e.index = i ∧
      t.invalidate k = some (e,
        { _table := t._table.modify (fun x => { x with valid := false }) i,
          _size := t._size, _keyIndex := map_erase t._keyIndex k,
          _freeList := t._freeList ++ [i], policy := p1 }) ∧
      table_t.WF N
        { _table := t._table.modify (fun x => { x with valid := false }) i,
          _size := t._size, _keyIndex := map_erase t._keyIndex k,
          _freeList := t._freeList ++ [i], policy := p1 } := by
  obtain ⟨hN0, hN, hb, hp⟩ := h
  obtain ⟨hs, hi, hne, e, he, hv, hkey, hidx⟩ := hb.search_some k i hk
  obtain ⟨p1, hp1, hinv1⟩ := policy_invalidate_ok .POLICY_HIGH hp ⟨e, he, hv⟩
  have hnotfree : i ∉ t._freeList := by
    intro hm
    obtain ⟨e1, he1, hv1⟩ := (hb.free_iff i).1 hm
    rw [he] at he1; cases he1
    rw [hv] at hv1; cases hv1
  refine ⟨p1, e, hp1, he, hv, hkey, hidx, ?_, hN0, hN,
    ⟨hb.size, by simp [hb.len], ?_, ?_, ?_, ?_⟩, ?_⟩
  · unfold table_t.invalidate
    rw [hs, if_neg hne, hb.size, hp1]
    simp [he, table_t.InvalidateEntry, hidx, hkey]
  · intro j e1 hj hv1
    simp only [getElem?_modify_valid] at hj
    rcases h0 : t._table[j]? with _ | e0
    · rw [h0] at hj; cases hj
    · rw [h0] at hj
      simp only [Option.map_some', Option.some.injEq] at hj
      by_cases hij : i = j
      · simp only [hij, if_true] at hj
        rw [← hj] at hv1; cases hv1
      · simp only [hij, if_false] at hj
        rw [← hj] at hv1 ⊢
        exact hb.idx j e0 h0 hv1
  · exact List.nodup_append.2 ⟨hb.free_nodup, by simp, by
      intro a ha hb'
      simp at hb'; subst hb'
      exact hnotfree ha⟩
  · intro j
    simp only [List.mem_append, List.mem_singleton, getElem?_modify_valid]
    by_cases hij : i = j
    · subst hij
      simp only [or_true, true_iff, if_true, he, Option.map_some']
      exact ⟨_, rfl, rfl⟩
    · have hji : j ≠ i := fun e => hij e.symm
      simp only [hji, or_false, hij, if_false, hb.free_iff j]
      constructor
      · rintro ⟨e1, he1, hv1⟩
        exact ⟨e1, by simp [he1], hv1⟩
      · rintro ⟨e1, he1, hv1⟩
        rcases h0 : t._table[j]? with _ | e0
        · rw [h0] at he1; cases he1
        · rw [h0] at he1
          simp only [Option.map_some', Option.some.injEq] at he1
          exact ⟨e0, rfl, he1 ▸ hv1⟩
  · intro k1 j
    simp only
    rw [map_find_erase]
    by_cases hk1 : k1 = k
    · simp only [hk1, if_true, getElem?_modify_valid]
      constructor
      · intro h0; cases h0
      · rintro ⟨e1, he1, hv1, hkey1⟩
        exfalso
        rcases h0 : t._table[j]? with _ | e0
        · rw [h0] at he1; cases he1
        · rw [h0] at he1
          simp only [Option.map_some', Option.some.injEq] at he1
          by_cases hij : i = j
          · simp only [hij, if_true] at he1
            rw [← he1] at hv1; cases hv1
          · simp only [hij, if_false] at he1
            subst he1
            have := (hb.key_iff k j).2 ⟨e0, h0, hv1, hkey1⟩
            rw [hk] at this; cases this
            exact hij rfl
    · simp only [hk1, if_false, getElem?_modify_valid]
      rw [hb.key_iff k1 j]
      constructor
      · rintro ⟨e1, he1, hv1, hkey1⟩
        have hij : i ≠ j := by
          intro e2; subst e2
          rw [he] at he1; cases he1
          exact hk1 (hkey1.symm.trans hkey)
        exact ⟨e1, by simp [he1, hij], hv1, hkey1⟩
      · rintro ⟨e1, he1, hv1, hkey1⟩
        rcases h0 : t._table[j]? with _ | e0
        · rw [h0] at he1; cases he1
        · rw [h0] at he1
          simp only [Option.map_some', Option.some.injEq] at he1
          by_cases hij : i = j
          · simp only [hij, if_true] at he1
            rw [← he1] at hv1; cases hv1
          · simp only [hij, if_false] at he1
            subst he1
            exact ⟨e0, rfl, hv1, hkey1⟩
  · refine policy_inv_congr ?_ hinv1
    intro j
    unfold validAt
    simp only [getElem?_modify_valid]
    constructor
    · rintro ⟨hji, e1, he1, hv1⟩
      exact ⟨e1, by simp [he1, Ne.symm hji], hv1⟩
    · rintro ⟨e1, he1, hv1⟩
      rcases h0 : t._table[j]? with _ | e0
      · rw [h0] at he1; cases he1
      · rw [h0] at he1
        simp only [Option.map_some', Option.some.injEq] at he1
        by_cases hij : i = j
        · simp only [hij, if_true] at he1
          rw [← he1] at hv1; cases hv1
        · simp only [hij, if_false] at he1
          subst he1
          exact ⟨fun e2 => hij e2.symm, e0, rfl, hv1⟩

theorem table_t.WF.insert {N : Nat} {t : table_t} (h : t.WF N) (k v : Nat)
    (pval : policy_value_t) : ∃ e t1, t.insert k v pval = some (e, t1) ∧ t1.WF N := by
  rcases hk : map_find t._keyIndex k with _ | i
  · rcases hf : t._freeList with _ | ⟨i, rest⟩
    · obtain ⟨i, p1, p2, e, _, _, _, _, _, _, h1, h2⟩ := table_t.insert_evict h v pval hk hf
      exact ⟨_, _, h1, h2⟩
    · obtain ⟨p1, _, _, _, h1, h2⟩ := table_t.insert_free h v pval hk hf
      exact ⟨_, _, h1, h2⟩
  · obtain ⟨e, _, _, _, _, h1⟩ := table_t.insert_hit h.2.2.1 v pval hk
    exact ⟨_, _, h1, h⟩

theorem table_t.WF.step {N : Nat} {t : table_t} (h : t.WF N) (op : table_op) :
    ∃ e t1, t.step op = some (e, t1) ∧ t1.WF N := by
  cases op with
  | insert k v pval => exact h.insert k v pval
  | read k pval =>
    rcases hk : map_find t._keyIndex k with _ | i
    · exact ⟨_, _, table_t.read_miss pval hk, h⟩
    · obtain ⟨p1, e, _, _, _, _, h1, h2⟩ := table_t.read_hit h pval hk
      exact ⟨_, _, h1, h2⟩
  | update k v pval =>
    rcases hk : map_find t._keyIndex k with _ | i
    · exact ⟨_, _, table_t.update_miss v pval hk, h⟩
    · obtain ⟨p1, e, _, _, _, _, h1, h2⟩ := table_t.update_hit h v pval hk
      exact ⟨_, _, h1, h2⟩
  | silentupdate k pval =>
    rcases hk : map_find t._keyIndex k with _ | i
    · exact ⟨_, _, table_t.silentupdate_miss pval hk, h⟩
    · obtain ⟨p1, e, _, _, _, _, h1, h2⟩ := table_t.silentupdate_hit h pval hk
      exact ⟨_, _, h1, h2⟩
  | invalidate k =>
    rcases hk : map_find t._keyIndex k with _ | i
    · exact ⟨_, _, table_t.invalidate_miss hk, h⟩
    · obtain ⟨p1, e, _, _, _, _, _, h1, h2⟩ := table_t.invalidate_hit h hk
      exact ⟨_, _, h1, h2⟩

theorem table_t.WF.run {N : Nat} (ops : List table_op) :
    ∀ {t : table_t}, t.WF N → ∃ t1, t.run ops = some t1 ∧ t1.WF N := by
  induction ops with
  | nil => intro t h; exact ⟨t, rfl, h⟩
  | cons op ops ih =>
    intro t h
    obtain ⟨e, t1, h1, h2⟩ := h.step op
    obtain ⟨t2, h3, h4⟩ := ih h2
    exact ⟨t2, by simp [table_t.run, h1, h3], h4⟩

theorem table_t.WF_of_run {p : policy_name} {N hand0 : Nat} {ops : List table_op}
    {t : table_t} (hN0 : 0 < N) (hN : N < UINT32_MOD) (hnru : p = .nru → hand0 < N)
    (hrun : (table_t.new p N hand0).run ops = some t) : t.WF N := by
  obtain ⟨t1, h1, h2⟩ := table_t.WF.run ops (table_t.WF_new p N hand0 hN0 hN hnru)
  rw [hrun] at h1
  cases h1
  exact h2

/-! ## Lookup and get -/

theorem table_t.lookup_false_iff {N : Nat} {t : table_t} (h : t.BaseInv N) (k : Nat) :
    t.lookup k = false ↔ map_find t._keyIndex k = none := by
  rcases hk : map_find t._keyIndex k with _ | i
  · simp [table_t.lookup, table_t.search_none k hk]
  · obtain ⟨hs, _, hne, _⟩ := h.search_some k i hk
    simp [table_t.lookup, hs, hne]

theorem table_t.lookup_true_iff {N : Nat} {t : table_t} (h : t.BaseInv N) (k : Nat) :
    t.lookup k = true ↔ ∃ i, map_find t._keyIndex k = some i := by
  rcases hk : map_find t._keyIndex k with _ | i
  · simp [table_t.lookup, table_t.search_none k hk]
  · obtain ⟨hs, _, hne, _⟩ := h.search_some k i hk
    simp [table_t.lookup, hs, hne]

theorem table_t.get_of_find {N : Nat} {t : table_t} (h : t.BaseInv N) {k i : Nat}
    (hk : map_find t._keyIndex k = some i) : t.get k = t._table[i]? := by
  obtain ⟨hs, _, hne, _⟩ := h.search_some k i hk
  simp [table_t.get, hs, hne]

/-- **C1.** Case (3) of `insert` fails for an NRU table. The constructor of `nru_table_t`
resizes `_referenced` and leaves `_hand` uninitialised, and `GetReplacementIndex` starts
with `_referenced[_hand]`. Take a table of capacity 2 whose `_hand` holds 7: after
`insert(1)`, `insert(2)` the table is full, key 3 is absent and `_hand` is still 7, so the
victim search of `insert(3)` reads outside `_referenced` and the call has no defined
result (no former entry is returned, key 3 is not stored). With `_hand = 0` the same call
returns the former entry of slot 0, as the claim says. -/
theorem C1_nru_insert_reads_outside_referenced :
    ∃ t, (table_t.new .nru 2 7).run
        [.insert 1 10 .POLICY_HIGH, .insert 2 20 .POLICY_HIGH] = some t ∧
      t._freeList = [] ∧ t.lookup 3 = false ∧ t.policy = .nru [true, true] 7 ∧
      GetReplacementIndex t.policy t._size t._table = none ∧
      t.insert 3 30 .POLICY_HIGH = none ∧
      ((table_t.new .nru 2 0).run
          [.insert 1 10 .POLICY_HIGH, .insert 2 20 .POLICY_HIGH]).bind
        (fun t0 => (t0.insert 3 30 .POLICY_HIGH).map (fun r => r.1)) =
        some (entry.full 0 1 10) := by
  refine ⟨_, rfl, ?_, ?_, ?_, ?_, ?_, ?_⟩ <;> rfl

/-- The three cases of `insert(k, v, pval)` on a table of any of the nine policies, in any
state reached from the empty table of capacity `N ≥ 1`, an NRU table starting with its
hand below `N` (hypothesis `hnru`):
(1) `k` present: the stored entry is returned (`valid = true`, key `k`) and the table,
free list and policy state included, is unchanged; (2) `k` absent and a free slot exists:
`(k, v)` is stored in the slot at the front of the free list, which is popped, and the
returned entry is invalid and carries that slot index; (3) `k` absent and the table full:
the former entry of the policy's victim slot is returned (`valid = true`), the same slot
then holds `(k, v)`, the victim key is no longer found and `k` is found. -/
theorem insert_three_cases (p : policy_name) (N hand0 : Nat) (ops : List table_op)
    (t : table_t) (k v : Nat) (pval : policy_value_t)
    (hN0 : 0 < N) (hN : N < UINT32_MOD) (hnru : p = .nru → hand0 < N)
    (hrun : (table_t.new p N hand0).run ops = some t) :
    (t.lookup k = true →
      ∃ e, t.get k = some e ∧ e.valid = true ∧ e.key = k ∧
        t.insert k v pval = some (e, t)) ∧
    (t.lookup k = false → ∀ i rest, t._freeList = i :: rest →
      ∃ t1, t.insert k v pval = some (entry.ofIndex i, t1) ∧
        (entry.ofIndex i).valid = false ∧ (entry.ofIndex i).index = i ∧
        t1._table[i]? = some (entry.full i k v) ∧ t1._freeList = rest ∧
        (∀ j, j ≠ i → t1._table[j]? = t._table[j]?) ∧ t1.lookup k = true) ∧
    (t.lookup k = false → t._freeList = [] →
      ∃ i p1 e t1, GetReplacementIndex t.policy t._size t._table = some (i, p1) ∧
        t._table[i]? = some e ∧ e.valid = true ∧
        t.insert k v pval = some (e, t1) ∧
        t1._table[i]? = some (entry.full i k v) ∧
        (∀ j, j ≠ i → t1._table[j]? = t._table[j]?) ∧
        t1.lookup e.key = false ∧ t1.lookup k = true) := by
  have hwf := table_t.WF_of_run hN0 hN hnru hrun
  have hb := hwf.2.2.1
  refine ⟨?_, ?_, ?_⟩
  · intro hl
    obtain ⟨i, hk⟩ := (table_t.lookup_true_iff hb k).1 hl
    obtain ⟨e, he, hv, hkey, _, hins⟩ := table_t.insert_hit hb v pval hk
    exact ⟨e, by rw [table_t.get_of_find hb hk]; exact he, hv, hkey, hins⟩
  · intro hl i rest hf
    have hk := (table_t.lookup_false_iff hb k).1 hl
    obtain ⟨p1, _, hi, _, hins, hwf1⟩ := table_t.insert_free hwf v pval hk hf
    have hlen : i < t._table.length := by rw [hb.len]; exact hi
    refine ⟨_, hins, rfl, rfl, by simp [hlen], rfl, ?_, ?_⟩
    · intro j hj
      simp [List.getElem?_set, Ne.symm hj]
    · rw [table_t.lookup_true_iff hwf1.2.2.1]
      exact ⟨i, by simp [map_find_insert _ _ _ _ hk]⟩
  · intro hl hf
    have hk := (table_t.lookup_false_iff hb k).1 hl
    obtain ⟨i, p1, p2, e, hg, hi, _, he, hv, _, hins, hwf1⟩ :=
      table_t.insert_evict hwf v pval hk hf
    have hlen : i < t._table.length := by rw [hb.len]; exact hi
    have hke : map_find t._keyIndex e.key = some i := (hb.key_iff e.key i).2 ⟨e, he, hv, rfl⟩
    have hkne : k ≠ e.key := by
      intro e1; rw [e1] at hk; rw [hk] at hke; cases hke
    have hk' : map_find (map_erase t._keyIndex e.key) k = none := by
      rw [map_find_erase]; simp [hkne, hk]
    refine ⟨i, p1, e, _, by rw [hb.size]; exact hg, he, hv, hins, by simp [hlen], ?_, ?_, ?_⟩
    · intro j hj
      simp [List.getElem?_set, Ne.symm hj]
    · rw [table_t.lookup_false_iff hwf1.2.2.1]
      simp only
      rw [map_find_insert _ _ _ _ hk', map_find_erase]
      simp [Ne.symm hkne]
    · rw [table_t.lookup_true_iff hwf1.2.2.1]
      exact ⟨i, by simp [map_find_insert _ _ _ _ hk']⟩

/-! ## Counting slots -/

theorem range_filter_length {α : Type} (q : Option α → Bool) (l : List α) :
    ((List.range l.length).filter (fun i => q l[i]?)).length =
      l.countP (fun e => q (some e)) := by
  induction l using List.reverseRecOn with
  | nil => simp
  | append_singleton l a ih =>
    rw [List.length_append, List.length_singleton, List.range_succ, List.filter_append,
      List.length_append, List.countP_append]
    have h1 : (List.range l.length).filter (fun i => q (l ++ [a])[i]?) =
        (List.range l.length).filter (fun i => q l[i]?) := by
      apply List.filter_congr
      intro i hi
      rw [List.getElem?_append_left (List.mem_range.1 hi)]
    rw [h1, ih]
    congr 1
    have h2 : (l ++ [a])[l.length]? = some a := by simp
    by_cases hq : q (some a) = true <;> simp [List.filter, h2, hq]

theorem table_t.BaseInv.free_length {N : Nat} {t : table_t} (h : t.BaseInv N) :
    t._freeList.length = t._table.countP (fun e => !e.valid) := by
  have hq := range_filter_length
    (fun o : Option entry => match o with | some e => !e.valid | none => false) t._table
  simp only at hq
  rw [← hq]
  apply List.Perm.length_eq
  rw [List.perm_ext_iff_of_nodup h.free_nodup ((List.nodup_range _).filter _)]
  intro i
  rw [h.free_iff i, List.mem_filter, List.mem_range]
  constructor
  · rintro ⟨e, he, hv⟩
    refine ⟨by rw [h.len]; exact h.lt_of_get he, ?_⟩
    rw [he]; simp [hv]
  · rintro ⟨hi, hv⟩
    rcases he : t._table[i]? with _ | e
    · rw [he] at hv; simp at hv
    · rw [he] at hv
      exact ⟨e, rfl, by simpa using hv⟩

theorem table_t.BaseInv.count_eq {N : Nat} {t : table_t} (h : t.BaseInv N)
    (hN : N < UINT32_MOD) :
    t.count + t._freeList.length = N ∧ t.count = t._table.countP (fun e => e.valid) := by
  have h1 := h.free_length
  have h2 := List.length_eq_countP_add_countP (fun e : entry => e.valid) t._table
  rw [h.len] at h2
  have h3 : t._table.countP (fun e => !e.valid) =
      t._table.countP (fun a => decide ¬ (a.valid = true)) := by
    apply List.countP_congr
    intro e _
    cases e.valid <;> simp
  rw [← h3, ← h1] at h2
  have h4 : t._freeList.length % UINT32_MOD = t._freeList.length :=
    Nat.mod_eq_of_lt (by omega)
  unfold table_t.count
  rw [h4, h.size]
  have h5 : (N + UINT32_MOD - t._freeList.length) % UINT32_MOD = N - t._freeList.length := by
    have : N + UINT32_MOD - t._freeList.length = (N - t._freeList.length) + UINT32_MOD := by
      omega
    rw [this, Nat.add_mod_right]
    exact Nat.mod_eq_of_lt (by omega)
  rw [h5]
  omega

/-- **C2.** Table conservation fails for an NRU table: a call sequence from the empty
table need not have a state afterwards. `nru_table_t` never initialises `_hand`; in a
table of capacity 2 whose `_hand` holds 7 the third call of `insert(1)`, `insert(2)`,
`insert(3)` evaluates `_referenced[7]` on a vector of length 2, so the run has no defined
result, while the same run with `_hand = 0` ends with `count() = 2` and an empty free
list. -/
theorem C2_nru_run_has_no_state :
    (table_t.new .nru 2 7).run
        [.insert 1 10 .POLICY_HIGH, .insert 2 20 .POLICY_HIGH, .insert 3 30 .POLICY_HIGH] =
      none ∧
    ((table_t.new .nru 2 0).run
        [.insert 1 10 .POLICY_HIGH, .insert 2 20 .POLICY_HIGH,
          .insert 3 30 .POLICY_HIGH]).map (fun t => (t.count, t._freeList)) =
      some (2, []) := by
  constructor <;> rfl

/-- Table conservation when the hand is in range: for each of the nine policies and every
capacity `1 ≤ N < 2 ^ 32`, an NRU table starting with its hand below `N` (hypothesis
`hnru`), every finite sequence of insert/read/update/silentupdate/invalidate
calls from the empty table runs to completion, and afterwards `count()` is the number
of slots marked valid, `count() + freeList.size = N`, the free list holds exactly the
indices of the invalid slots without duplicates, and `keyIndex` maps a key `k` to slot
`i` exactly when slot `i` is valid and holds key `k`. -/
theorem table_conservation (p : policy_name) (N hand0 : Nat) (ops : List table_op)
    (hN0 : 0 < N) (hN : N < UINT32_MOD) (hnru : p = .nru → hand0 < N) :
    ∃ t, (table_t.new p N hand0).run ops = some t ∧
      t._size = N ∧ t._table.length = N ∧
      t.count = t._table.countP (fun e => e.valid) ∧
      t.count + t._freeList.length = N ∧
      t._freeList.Nodup ∧
      (∀ i, i ∈ t._freeList ↔ ∃ e, t._table[i]? = some e ∧ e.valid = false) ∧
      (∀ k i, map_find t._keyIndex k = some i ↔
        ∃ e, t._table[i]? = some e ∧ e.valid = true ∧ e.key = k) := by
  obtain ⟨t, hrun, hwf⟩ := table_t.WF.run ops (table_t.WF_new p N hand0 hN0 hN hnru)
  have hb := hwf.2.2.1
  have hc := hb.count_eq hN
  exact ⟨t, hrun, hb.size, hb.len, hc.2, hc.1, hb.free_nodup, hb.free_iff, hb.key_iff⟩

/-- A full FIFO table of capacity 2 holding keys 1 and 2: inserting key
3 evicts the entry of slot 0 and installs `(3, 30)` there. -/
theorem insert_three_cases_example :
    ∃ t1, table_t.insert
        { _table := [entry.full 0 1 10, entry.full 1 2 20], _size := 2,
          _keyIndex := [(1, 0), (2, 1)], _freeList := [], policy := .fifo [0, 1] }
        3 30 .POLICY_HIGH = some (entry.full 0 1 10, t1) ∧
      t1._table[0]? = some (entry.full 0 3 30) ∧ t1.lookup 1 = false ∧
      t1.lookup 3 = true := by
  obtain ⟨i, p1, e, t1, hg, he, _, hins, h1, _, h2, h3⟩ :=
    (insert_three_cases .fifo 2 0
      [.insert 1 10 .POLICY_HIGH, .insert 2 20 .POLICY_HIGH]
      { _table := [entry.full 0 1 10, entry.full 1 2 20], _size := 2,
        _keyIndex := [(1, 0), (2, 1)], _freeList := [], policy := .fifo [0, 1] }
      3 30 .POLICY_HIGH (by decide) (by decide) (by intro h; cases h) (by decide)).2.2
      (by decide) rfl
  have hi : i = 0 := by
    simp only [GetReplacementIndex, Option.some.injEq, Prod.mk.injEq] at hg
    exact hg.1.symm
  subst hi
  have hev : e = entry.full 0 1 10 := by
    simp at he; exact he.symm
  subst hev
  exact ⟨t1, hins, h1, h2, h3⟩

/-- An LRU table of capacity 2 after insert 1, insert 2, read 1, invalidate 2, insert 3,
insert 4. -/
theorem table_conservation_example :
    ∃ t, (table_t.new .lru 2 0).run
        [.insert 1 10 .POLICY_HIGH, .insert 2 20 .POLICY_HIGH, .read 1 .POLICY_HIGH,
          .invalidate 2, .insert 3 30 .POLICY_LOW, .insert 4 40 .POLICY_BIMODAL] = some t ∧
      t._size = 2 ∧ t._table.length = 2 ∧
      t.count = t._table.countP (fun e => e.valid) ∧
      t.count + t._freeList.length = 2 ∧
      t._freeList.Nodup ∧
      (∀ i, i ∈ t._freeList ↔ ∃ e, t._table[i]? = some e ∧ e.valid = false) ∧
      (∀ k i, map_find t._keyIndex k = some i ↔
        ∃ e, t._table[i]? = some e ∧ e.valid = true ∧ e.key = k) :=
  table_conservation .lru 2 0 _ (by decide) (by decide) (by intro h; cases h)

/-! ## Tag store -/

theorem table_t.WF.insert_found {N : Nat} {t : table_t} (h : t.WF N) (k v : Nat)
    (pval : policy_value_t) :
    ∃ e t1 i, t.insert k v pval = some (e, t1) ∧ t1.WF N ∧
      map_find t1._keyIndex k = some i := by
  rcases hk : map_find t._keyIndex k with _ | i
  · rcases hf : t._freeList with _ | ⟨i, rest⟩
    · obtain ⟨i, p1, p2, e, _, _, _, he, hv, _, h1, h2⟩ := table_t.insert_evict h v pval hk hf
      have hke : map_find t._keyIndex e.key = some i :=
        (h.2.2.1.key_iff e.key i).2 ⟨e, he, hv, rfl⟩
      have hkne : k ≠ e.key := by
        intro e1; rw [e1] at hk; rw [hk] at hke; cases hke
      have hk' : map_find (map_erase t._keyIndex e.key) k = none := by
        rw [map_find_erase]; simp [hkne, hk]
      exact ⟨_, _, i, h1, h2, by simp [map_find_insert _ _ _ _ hk']⟩
    · obtain ⟨p1, _, _, _, h1, h2⟩ := table_t.insert_free h v pval hk hf
      exact ⟨_, _, i, h1, h2, by simp [map_find_insert _ _ _ _ hk]⟩
  · obtain ⟨e, _, _, _, _, h1⟩ := table_t.insert_hit h.2.2.1 v pval hk
    exact ⟨_, _, i, h1, h, hk⟩

theorem policy_name.ofString_of_mem {policy : String}
    (h : policy ∈ ["lru", "fifo", "reuse", "srrip", "nru", "generation", "dip", "drrip",
      "minw"]) :
    ∃ p, policy_name.ofString policy = some p ∧ (p = .nru → policy = "nru") := by
  simp only [List.mem_cons, List.mem_singleton, List.not_mem_nil, or_false] at h
  rcases h with h | h | h | h | h | h | h | h | h <;> subst h
  · exact ⟨.lru, by decide, fun e => by cases e⟩
  · exact ⟨.fifo, by decide, fun e => by cases e⟩
  · exact ⟨.reuse, by decide, fun e => by cases e⟩
  · exact ⟨.srrip, by decide, fun e => by cases e⟩
  · exact ⟨.nru, by decide, fun _ => rfl⟩
  · exact ⟨.generation, by decide, fun e => by cases e⟩
  · exact ⟨.dip, by decide, fun e => by cases e⟩
  · exact ⟨.drrip, by decide, fun e => by cases e⟩
  · exact ⟨.minw, by decide, fun e => by cases e⟩

namespace generic_tagstore_t

theorem makeSets_ok {N : Nat} {policy : String} {p : policy_name} (nruHand : Nat → Nat)
    (hp : policy_name.ofString policy = some p) (hN0 : 0 < N) (hN : N < UINT32_MOD) :
    ∀ (is : List Nat), (∀ i ∈ is, p = .nru → nruHand i < N) →
      ∃ ss, makeSets N policy nruHand is = some ss ∧ ss.length = is.length ∧
        ∀ s ∈ ss, s.WF N := by
  intro is
  induction is with
  | nil => intro _; exact ⟨[], rfl, rfl, fun s hs => by cases hs⟩
  | cons i rest ih =>
    intro hh
    obtain ⟨ss, h1, h2, h3⟩ := ih (fun j hj => hh j (List.mem_cons_of_mem _ hj))
    refine ⟨table_t.new p N (nruHand i) :: ss, ?_, by simp [h2], ?_⟩
    · simp [makeSets, generic_table_t.SetTableParameters, hp, h1]
    · intro s hs
      rcases List.mem_cons.1 hs with e | e
      · rw [e]
        exact table_t.WF_new p N _ hN0 hN (hh i (List.mem_cons_self _ _))
      · exact h3 s e

theorem tagstore_WF_new {numSets N : Nat} {policy : String} {p : policy_name} (nruHand : Nat → Nat)
    (hp : policy_name.ofString policy = some p) (hN0 : 0 < N) (hN : N < UINT32_MOD)
    (hh : ∀ i, i < numSets → p = .nru → nruHand i < N) :
    ∃ ts, SetTagStoreParameters numSets N policy nruHand = some ts ∧ ts.WF numSets N := by
  obtain ⟨ss, h1, h2, h3⟩ := makeSets_ok nruHand hp hN0 hN (List.range numSets)
    (fun i hi => hh i (List.mem_range.1 hi))
  exact ⟨{ _numSets := numSets, _numSlotsPerSet := N, _policy := policy, _sets := ss },
    by simp [SetTagStoreParameters, h1], rfl, by simpa using h2, h3⟩

theorem WF.tagstore_step {numSets N : Nat} {ts : generic_tagstore_t} (h : ts.WF numSets N)
    (hS : 0 < numSets) (key : Nat) (op : table_op) :
    ∃ s e s1, ts._sets[key % numSets]? = some s ∧ s.WF N ∧ s.step op = some (e, s1) ∧
      s1.WF N ∧
      ts.step key op = some (e, { ts with _sets := ts._sets.set (key % numSets) s1 }) ∧
      WF numSets N { ts with _sets := ts._sets.set (key % numSets) s1 } := by
  obtain ⟨h1, h2, h3⟩ := h
  have hlt : key % numSets < ts._sets.length := by rw [h2]; exact Nat.mod_lt _ hS
  have hget : ts._sets[key % numSets]? = some ts._sets[key % numSets] :=
    List.getElem?_eq_getElem hlt
  have hwf : (ts._sets[key % numSets]).WF N := h3 _ (List.getElem_mem _)
  obtain ⟨e, s1, hs1, hwf1⟩ := hwf.step op
  refine ⟨_, e, s1, hget, hwf, hs1, hwf1, ?_, h1, by simp [h2], ?_⟩
  · simp [generic_tagstore_t.step, index, h1, hget, hs1]
  · intro s hs
    rcases List.mem_or_eq_of_mem_set hs with e1 | e1
    · exact h3 s e1
    · rw [e1]; exact hwf1

theorem WF.tagstore_call {numSets N : Nat} {ts : generic_tagstore_t} (h : ts.WF numSets N)
    (hS : 0 < numSets) (op : table_op) :
    ∃ e ts1, ts.call op = some (e, ts1) ∧ ts1.WF numSets N := by
  cases op with
  | insert k v pval =>
    obtain ⟨_, e, _, _, _, _, _, h1, h2⟩ := h.tagstore_step hS k (.insert k v pval)
    exact ⟨e, _, h1, h2⟩
  | read k pval =>
    obtain ⟨_, e, _, _, _, _, _, h1, h2⟩ := h.tagstore_step hS k (.read k pval)
    exact ⟨e, _, h1, h2⟩
  | update k v pval =>
    obtain ⟨_, e, _, _, _, _, _, h1, h2⟩ := h.tagstore_step hS k (.update k v pval)
    exact ⟨e, _, h1, h2⟩
  | silentupdate k pval =>
    obtain ⟨_, e, _, _, _, _, _, h1, h2⟩ := h.tagstore_step hS k (.silentupdate k pval)
    exact ⟨e, _, h1, h2⟩
  | invalidate k =>
    obtain ⟨_, e, _, _, _, _, _, h1, h2⟩ := h.tagstore_step hS k (.invalidate k)
    exact ⟨e, _, h1, h2⟩

theorem WF.tagstore_run {numSets N : Nat} (hS : 0 < numSets) (ops : List table_op) :
    ∀ {ts : generic_tagstore_t}, ts.WF numSets N →
      ∃ ts1, ts.run ops = some ts1 ∧ ts1.WF numSets N := by
  induction ops with
  | nil => intro ts h; exact ⟨ts, rfl, h⟩
  | cons op ops ih =>
    intro ts h
    obtain ⟨e, ts1, h1, h2⟩ := h.tagstore_call hS op
    obtain ⟨ts2, h3, h4⟩ := ih h2
    exact ⟨ts2, by simp [generic_tagstore_t.run, h1, h3], h4⟩

end generic_tagstore_t

/-- **C3.** Tag-store hit stability fails for the policy name `nru`. Every set of the tag
store is an `nru_table_t`, whose constructor leaves `_hand` uninitialised. In a tag store
of one set of two ways whose `_hand` holds 7, after `insert(1)`, `insert(2)` the
`insert(3)` searches a victim at `_referenced[7]`, outside the vector: it has no defined
result, so no `lookup(3)` follows it. With `_hand = 0` the insert returns and `lookup(3)`
is true. -/
theorem C3_nru_tagstore_insert_undefined :
    ∃ ts0 ts, generic_tagstore_t.SetTagStoreParameters 1 2 "nru" (fun _ => 7) = some ts0 ∧
      ts0.run [.insert 1 10 .POLICY_HIGH, .insert 2 20 .POLICY_HIGH] = some ts ∧
      ts.lookup 3 = some false ∧
      ts.insert 3 30 .POLICY_HIGH = none ∧
      ((generic_tagstore_t.SetTagStoreParameters 1 2 "nru" (fun _ => 0)).bind (fun z0 =>
        (z0.run [.insert 1 10 .POLICY_HIGH, .insert 2 20 .POLICY_HIGH]).bind (fun z =>
          (z.insert 3 30 .POLICY_HIGH).bind (fun r => r.2.lookup 3)))) = some true := by
  refine ⟨_, _, rfl, rfl, ?_, ?_, ?_⟩ <;> rfl

/-- Tag-store hit stability when the hands are in range: for each policy name in
lru, fifo, reuse, srrip, nru, generation, dip, drrip, minw, every `numSets ≥ 1` and
associativity `1 ≤ N < 2 ^ 32`, every NRU set starting with its hand below `N`
(hypothesis `hnru`), the tag store is constructed, every sequence of
insert/read/update/silentupdate/invalidate calls runs to completion, and in the state
reached an `insert(k, v, pval)` with any `pval` returns, after which `lookup(k)` is true
and `get(k)` is a valid entry with key `k`, found by set `k mod numSets`. -/
theorem tagstore_hit_stability (policy : String) (numSets N : Nat) (nruHand : Nat → Nat)
    (ops : List table_op) (k v : Nat) (pval : policy_value_t)
    (hpol : policy ∈ ["lru", "fifo", "reuse", "srrip", "nru", "generation", "dip", "drrip",
      "minw"])
    (hS : 0 < numSets) (hN0 : 0 < N) (hN : N < UINT32_MOD)
    (hnru : policy = "nru" → ∀ i, i < numSets → nruHand i < N) :
    ∃ ts0 ts e ts1,
      generic_tagstore_t.SetTagStoreParameters numSets N policy nruHand = some ts0 ∧
      ts0.run ops = some ts ∧
      ts.insert k v pval = some (e, ts1) ∧
      ts1.lookup k = some true ∧
      ∃ e1 s, ts1.get k = some e1 ∧ e1.valid = true ∧ e1.key = k ∧
        ts1._sets[k % numSets]? = some s ∧ s.get k = some e1 ∧
        s._table[e1.index]? = some e1 := by
  obtain ⟨p, hp, hpn⟩ := policy_name.ofString_of_mem hpol
  obtain ⟨ts0, h0, hwf0⟩ := generic_tagstore_t.tagstore_WF_new nruHand hp hN0 hN
    (fun i hi e => hnru (hpn e) i hi)
  obtain ⟨ts, hr, hwf⟩ := generic_tagstore_t.WF.tagstore_run hS ops hwf0
  have hlt : k % numSets < ts._sets.length := by rw [hwf.2.1]; exact Nat.mod_lt _ hS
  have hget : ts._sets[k % numSets]? = some ts._sets[k % numSets] :=
    List.getElem?_eq_getElem hlt
  have hswf : (ts._sets[k % numSets]).WF N := hwf.2.2 _ (List.getElem_mem _)
  obtain ⟨e, s1, i, hins, hwf1, hfind⟩ := hswf.insert_found k v pval
  obtain ⟨e1, he1, hv1, hk1⟩ := (hwf1.2.2.1.key_iff k i).1 hfind
  have hidx := hwf1.2.2.1.idx i e1 he1 hv1
  have hsets : ({ ts with _sets := ts._sets.set (k % numSets) s1 } :
      generic_tagstore_t)._sets[k % numSets]? = some s1 := by
    simp [hlt]
  refine ⟨ts0, ts, e, { ts with _sets := ts._sets.set (k % numSets) s1 }, h0, hr, ?_, ?_,
    e1, s1, ?_, hv1, hk1, ?_, ?_, ?_⟩
  · simp [generic_tagstore_t.insert, generic_tagstore_t.step, generic_tagstore_t.index,
      hwf.1, hget, table_t.step, hins]
  · simp only [generic_tagstore_t.lookup, generic_tagstore_t.index, hwf.1]
    rw [hsets]
    simp [(table_t.lookup_true_iff hwf1.2.2.1 k).2 ⟨i, hfind⟩]
  · simp only [generic_tagstore_t.get, generic_tagstore_t.index, hwf.1]
    rw [hsets]
    simp [table_t.get_of_find hwf1.2.2.1 hfind, he1]
  · rw [← hsets, hwf.1]
  · rw [table_t.get_of_find hwf1.2.2.1 hfind, he1]
  · rw [hidx]; exact he1

/-- A 2-set, 2-way SRRIP tag store after three inserts and a read; then key 7 is
inserted. -/
theorem tagstore_hit_stability_example :
    ∃ ts0 ts e ts1,
      generic_tagstore_t.SetTagStoreParameters 2 2 "srrip" (fun _ => 0) = some ts0 ∧
      ts0.run [.insert 1 10 .POLICY_HIGH, .insert 3 30 .POLICY_HIGH, .read 1 .POLICY_HIGH,
        .insert 5 50 .POLICY_HIGH] = some ts ∧
      ts.insert 7 70 .POLICY_BIMODAL = some (e, ts1) ∧
      ts1.lookup 7 = some true ∧
      ∃ e1 s, ts1.get 7 = some e1 ∧ e1.valid = true ∧ e1.key = 7 ∧
        ts1._sets[7 % 2]? = some s ∧ s.get 7 = some e1 ∧
        s._table[e1.index]? = some e1 :=
  tagstore_hit_stability "srrip" 2 2 (fun _ => 0) _ 7 70 .POLICY_BIMODAL (by decide)
    (by decide) (by decide) (by decide) (by intro h; exact absurd h (by decide))

/-! ## LRU: the list is ordered by last use -/

theorem slotTime_of_get {tbl : List entry} {time : Nat → Nat} {i : Nat} {e : entry}
    (h : tbl[i]? = some e) : slotTime tbl time i = time e.key := by
  simp [slotTime, h]

theorem table_t.BaseInv.key_ne {N : Nat} {t : table_t} (hb : t.BaseInv N) {j k : Nat}
    {e : entry} (hj : t._table[j]? = some e) (hv : e.valid = true)
    (hne : map_find t._keyIndex k ≠ some j) : e.key ≠ k := by
  intro hk
  exact hne ((hb.key_iff k j).2 ⟨e, hj, hv, hk⟩)

theorem slotTime_setTime {N : Nat} {t : table_t} (hb : t.BaseInv N) (time : Nat → Nat)
    (k now j : Nat) (hv : validAt t._table j) (hne : map_find t._keyIndex k ≠ some j) :
    slotTime t._table (setTime time (some k) now) j = slotTime t._table time j := by
  obtain ⟨e, he, hv⟩ := hv
  rw [slotTime_of_get he, slotTime_of_get he]
  simp [setTime, hb.key_ne he hv hne]

theorem slotTime_set_ne (tbl : List entry) (time : Nat → Nat) (i j : Nat) (e : entry)
    (hij : i ≠ j) : slotTime (tbl.set i e) time j = slotTime tbl time j := by
  simp [slotTime, List.getElem?_set, hij]

theorem slotTime_set_eq (tbl : List entry) (time : Nat → Nat) (i : Nat) (e : entry)
    (hi : i < tbl.length) : slotTime (tbl.set i e) time i = time e.key := by
  simp [slotTime, List.getElem?_set, hi]

theorem slotTime_modify (tbl : List entry) (time : Nat → Nat) (i j : Nat)
    (f : entry → entry) (hf : ∀ e, (f e).key = e.key) :
    slotTime (tbl.modify f i) time j = slotTime tbl time j := by
  simp only [slotTime, List.getElem?_modify]
  rcases tbl[j]? with _ | e
  · rfl
  · by_cases hij : i = j
    · simp [hij, hf]
    · simp [hij]

theorem pairwise_append_last {l : List Nat} {f : Nat → Nat} {i now : Nat}
    (hp : l.Pairwise (fun a b => f a < f b)) (hlt : ∀ a ∈ l, f a < now) (hi : f i = now) :
    (l ++ [i]).Pairwise (fun a b => f a < f b) := by
  rw [List.pairwise_append]
  refine ⟨hp, List.pairwise_singleton _ _, ?_⟩
  intro a ha b hb
  simp at hb; subst hb
  rw [hi]; exact hlt a ha

theorem pairwise_congr_mem {l : List Nat} {f g : Nat → Nat}
    (hfg : ∀ a ∈ l, g a = f a) (hp : l.Pairwise (fun a b => f a < f b)) :
    l.Pairwise (fun a b => g a < g b) := by
  refine List.Pairwise.imp_of_mem ?_ hp
  intro a b ha hb h
  rw [hfg a ha, hfg b hb]; exact h

/-- Moving slot `i` to the tail with time `now`, the other slots keeping their times. -/
theorem lru_touch_order {l : List Nat} {f g : Nat → Nat} {i now : Nat} (hnd : l.Nodup)
    (hp : l.Pairwise (fun a b => f a < f b)) (hlt : ∀ a ∈ l, f a < now)
    (hg : ∀ a ∈ l, a ≠ i → g a = f a) (hi : g i = now) :
    ((l.erase i) ++ [i]).Pairwise (fun a b => g a < g b) ∧
      ∀ a ∈ (l.erase i) ++ [i], g a < now + 1 := by
  have hsub : ∀ a ∈ l.erase i, a ∈ l ∧ a ≠ i := by
    intro a ha
    exact ⟨List.mem_of_mem_erase ha, (hnd.mem_erase_iff.1 ha).1⟩
  have hge : ∀ a ∈ l.erase i, g a = f a := fun a ha => hg a (hsub a ha).1 (hsub a ha).2
  refine ⟨pairwise_append_last (pairwise_congr_mem hge (hp.sublist (List.erase_sublist i l)))
    (fun a ha => by rw [hge a ha]; exact hlt a (hsub a ha).1) hi, ?_⟩
  intro a ha
  rcases List.mem_append.1 ha with h | h
  · rw [hge a h]; have := hlt a (hsub a h).1; omega
  · simp at h; subst h; omega

theorem lru_step_insert {N : Nat} {t : table_t} {lastUse : Nat → Nat} {now : Nat}
    (hwf : t.WF N) (hl : t.LruInv N lastUse now) (k v : Nat) (pval : policy_value_t) :
    ∃ e t1, t.insert k v pval = some (e, t1) ∧ t1.WF N ∧
      t1.LruInv N (setTime lastUse ((table_op.insert k v pval).uses t) now) (now + 1) := by
  have hb := hwf.2.2.1
  obtain ⟨d, l, hpol, hr, hmem, hord, hlt⟩ := hl
  rcases hk : map_find t._keyIndex k with _ | i0
  · have hlook : t.lookup k = false := (table_t.lookup_false_iff hb k).2 hk
    have huse : (table_op.insert k v pval).uses t = some k := by
      simp [table_op.uses, hlook]
    rw [huse]
    have hkj : ∀ j, map_find t._keyIndex k ≠ some j := by
      intro j; rw [hk]; exact fun h => by cases h
    rcases hf : t._freeList with _ | ⟨i, rest⟩
    · -- eviction
      obtain ⟨i, p1, p2, e, hg, hi, hp2, he, hv, _, hins, hwf1⟩ :=
        table_t.insert_evict hwf v pval hk hf
      have hlen : i < t._table.length := by rw [hb.len]; exact hi
      have hil : i ∈ l := (hmem i).2 ⟨e, he, hv⟩
      cases l with
      | nil => cases hil
      | cons a rest =>
        rw [hpol] at hg
        simp only [GetReplacementIndex, hr.headIndex, Option.map_some', Option.some.injEq,
          Prod.mk.injEq] at hg
        obtain ⟨hai, hp1⟩ := hg
        subst hai
        subst hp1
        obtain ⟨d1, hd1, hr1⟩ := hr.pop_front
        obtain ⟨d2, hd2, hr2⟩ := hr1.push_back hi (List.nodup_cons.1 hr.nodup).1
        have hp2' : p2 = .lru d2 := by
          simp [UpdateReplacementPolicy, hd1, hd2] at hp2
          exact hp2.symm
        have hnd := List.nodup_cons.1 hr.nodup
        have hone : ∀ j ∈ rest, slotTime (t._table.set a (entry.full a k v))
            (setTime lastUse (some k) now) j = slotTime t._table lastUse j := by
          intro j hj
          have hja : a ≠ j := by intro e1; subst e1; exact hnd.1 hj
          rw [slotTime_set_ne _ _ _ _ _ hja]
          exact slotTime_setTime hb _ _ _ _ ((hmem j).1 (List.mem_cons_of_mem _ hj)) (hkj j)
        have hnew : slotTime (t._table.set a (entry.full a k v))
            (setTime lastUse (some k) now) a = now := by
          rw [slotTime_set_eq _ _ _ _ hlen]; simp [setTime, entry.full]
        refine ⟨_, _, hins, hwf1, d2, rest ++ [a], hp2', hr2, ?_, ?_, ?_⟩
        · intro j
          rw [validAt_set _ _ _ _ _ hlen, ← hmem j]
          simp only [List.mem_append, List.mem_singleton, List.mem_cons]
          tauto
        · exact pairwise_append_last
            (pairwise_congr_mem hone (List.pairwise_cons.1 hord).2)
            (fun j hj => by rw [hone j hj]; exact hlt j (List.mem_cons_of_mem _ hj)) hnew
        · intro j hj
          rcases List.mem_append.1 hj with h | h
          · rw [hone j h]
            have := hlt j (List.mem_cons_of_mem _ h); omega
          · have hja : j = a := by simpa using h
            rw [hja]
            show slotTime (t._table.set a (entry.full a k v))
              (setTime lastUse (some k) now) a < now + 1
            rw [hnew]; omega
    · -- free slot
      obtain ⟨p1, hp1, hi, hnv, hins, hwf1⟩ := table_t.insert_free hwf v pval hk hf
      have hlen : i < t._table.length := by rw [hb.len]; exact hi
      have hil : i ∉ l := fun hm => hnv ((hmem i).1 hm)
      obtain ⟨d1, hd1, hr1⟩ := hr.push_back hi hil
      have hp1' : p1 = .lru d1 := by
        rw [hpol] at hp1
        simp [UpdateReplacementPolicy, hd1] at hp1
        exact hp1.symm
      have hone : ∀ j ∈ l, slotTime (t._table.set i (entry.full i k v))
          (setTime lastUse (some k) now) j = slotTime t._table lastUse j := by
        intro j hj
        have hji : i ≠ j := by intro e1; subst e1; exact hil hj
        rw [slotTime_set_ne _ _ _ _ _ hji]
        exact slotTime_setTime hb _ _ _ _ ((hmem j).1 hj) (hkj j)
      have hnew : slotTime (t._table.set i (entry.full i k v))
          (setTime lastUse (some k) now) i = now := by
        rw [slotTime_set_eq _ _ _ _ hlen]; simp [setTime, entry.full]
      refine ⟨_, _, hins, hwf1, d1, l ++ [i], hp1', hr1, ?_, ?_, ?_⟩
      · intro j
        rw [validAt_set _ _ _ _ _ hlen, ← hmem j]
        simp [or_comm]
      · exact pairwise_append_last (pairwise_congr_mem hone hord)
          (fun j hj => by rw [hone j hj]; exact hlt j hj) hnew
      · intro j hj
        rcases List.mem_append.1 hj with h | h
        · rw [hone j h]; have := hlt j h; omega
        · have hji : j = i := by simpa using h
          rw [hji]
          show slotTime (t._table.set i (entry.full i k v))
            (setTime lastUse (some k) now) i < now + 1
          rw [hnew]; omega
  · have hlook : t.lookup k = true := (table_t.lookup_true_iff hb k).2 ⟨i0, hk⟩
    have huse : (table_op.insert k v pval).uses t = none := by
      simp [table_op.uses, hlook]
    rw [huse]
    obtain ⟨e, _, _, _, _, hins⟩ := table_t.insert_hit hb v pval hk
    exact ⟨_, _, hins, hwf, d, l, hpol, hr, hmem, hord,
      fun j hj => by have := hlt j hj; simp only [setTime]; omega⟩

/-- The LRU invariant after a hit read, update or silentupdate of key `k` in slot `i`. -/
theorem lru_touch {N : Nat} {t : table_t} {lastUse : Nat → Nat} {now : Nat}
    (hwf : t.WF N) (hl : t.LruInv N lastUse now) {k i : Nat}
    (hk : map_find t._keyIndex k = some i) (op : operation)
    (hop : op = .T_READ ∨ op = .T_UPDATE) (pval : policy_value_t) {p1 : policy_t}
    (hp1 : UpdateReplacementPolicy t.policy N i op pval = some p1)
    (tbl1 : List entry) (hv1 : ∀ j, validAt tbl1 j ↔ validAt t._table j)
    (hs1 : ∀ time j, slotTime tbl1 time j = slotTime t._table time j) :
    table_t.LruInv N { t with _table := tbl1, policy := p1 }
      (setTime lastUse (some k) now) (now + 1) := by
  have hb := hwf.2.2.1
  obtain ⟨d, l, hpol, hr, hmem, hord, hlt⟩ := hl
  obtain ⟨_, hi, _, e, he, hv, hkey, _⟩ := hb.search_some k i hk
  have hil : i ∈ l := (hmem i).2 ⟨e, he, hv⟩
  obtain ⟨d1, hd1, hr1⟩ := hr.remove hil
  obtain ⟨d2, hd2, hr2⟩ := hr1.push_back hi (by rw [hr.nodup.mem_erase_iff]; simp)
  have hp1' : p1 = .lru d2 := by
    rw [hpol] at hp1
    rcases hop with e1 | e1 <;> subst e1 <;>
      simp [UpdateReplacementPolicy, hd1, hd2] at hp1 <;> exact hp1.symm
  have hg : ∀ a ∈ l, a ≠ i →
      slotTime tbl1 (setTime lastUse (some k) now) a = slotTime t._table lastUse a := by
    intro a ha hai
    rw [hs1]
    refine slotTime_setTime hb _ _ _ _ ((hmem a).1 ha) ?_
    rw [hk]; exact fun h => hai (by cases h; rfl)
  have hgi : slotTime tbl1 (setTime lastUse (some k) now) i = now := by
    rw [hs1, slotTime_of_get he]; simp [setTime, hkey]
  obtain ⟨ho, hl'⟩ := lru_touch_order hr.nodup hord hlt hg hgi
  refine ⟨d2, l.erase i ++ [i], hp1', hr2, ?_, ho, hl'⟩
  intro j
  show _ ↔ validAt tbl1 j
  rw [hv1 j, ← hmem j, ← mem_erase_append_self hr.nodup hil j]
  simp [or_comm]

theorem lru_step {N : Nat} {t : table_t} {lastUse : Nat → Nat} {now : Nat}
    (hwf : t.WF N) (hl : t.LruInv N lastUse now) (op : table_op) :
    ∃ e t1, t.step op = some (e, t1) ∧ t1.WF N ∧
      t1.LruInv N (setTime lastUse (op.uses t) now) (now + 1) := by
  have hb := hwf.2.2.1
  have hkeep : t.LruInv N (setTime lastUse none now) (now + 1) := by
    obtain ⟨d, l, hpol, hr, hmem, hord, hlt⟩ := hl
    exact ⟨d, l, hpol, hr, hmem, hord, fun j hj => by
      have := hlt j hj; simp only [setTime]; omega⟩
  cases op with
  | insert k v pval => exact lru_step_insert hwf hl k v pval
  | read k pval =>
    rcases hk : map_find t._keyIndex k with _ | i
    · have hlook : t.lookup k = false := (table_t.lookup_false_iff hb k).2 hk
      simp only [table_op.uses, hlook]
      exact ⟨_, _, table_t.read_miss pval hk, hwf, hkeep⟩
    · have hlook : t.lookup k = true := (table_t.lookup_true_iff hb k).2 ⟨i, hk⟩
      simp only [table_op.uses, hlook, if_true]
      obtain ⟨p1, e, hp1, _, _, _, h1, h2⟩ := table_t.read_hit hwf pval hk
      exact ⟨_, _, h1, h2, lru_touch hwf hl hk .T_READ (Or.inl rfl) pval hp1 t._table
        (fun _ => Iff.rfl) (fun _ _ => rfl)⟩
  | update k v pval =>
    rcases hk : map_find t._keyIndex k with _ | i
    · have hlook : t.lookup k = false := (table_t.lookup_false_iff hb k).2 hk
      simp only [table_op.uses, hlook]
      exact ⟨_, _, table_t.update_miss v pval hk, hwf, hkeep⟩
    · have hlook : t.lookup k = true := (table_t.lookup_true_iff hb k).2 ⟨i, hk⟩
      simp only [table_op.uses, hlook, if_true]
      obtain ⟨p1, e, hp1, _, _, _, h1, h2⟩ := table_t.update_hit hwf v pval hk
      exact ⟨_, _, h1, h2, lru_touch hwf hl hk .T_UPDATE (Or.inr rfl) pval hp1 _
        (fun j => slot_modify_value t._table i j v (fun a _ _ => a = true))
        (fun time j => slotTime_modify t._table time i j (fun x => { x with value := v })
          (fun _ => rfl))⟩
  | silentupdate k pval =>
    rcases hk : map_find t._keyIndex k with _ | i
    · have hlook : t.lookup k = false := (table_t.lookup_false_iff hb k).2 hk
      simp only [table_op.uses, hlook]
      exact ⟨_, _, table_t.silentupdate_miss pval hk, hwf, hkeep⟩
    · have hlook : t.lookup k = true := (table_t.lookup_true_iff hb k).2 ⟨i, hk⟩
      simp only [table_op.uses, hlook, if_true]
      obtain ⟨p1, e, hp1, _, _, _, h1, h2⟩ := table_t.silentupdate_hit hwf pval hk
      exact ⟨_, _, h1, h2, lru_touch hwf hl hk .T_UPDATE (Or.inr rfl) pval hp1 t._table
        (fun _ => Iff.rfl) (fun _ _ => rfl)⟩
  | invalidate k =>
    simp only [table_op.uses]
    rcases hk : map_find t._keyIndex k with _ | i
    · exact ⟨_, _, table_t.invalidate_miss hk, hwf, hkeep⟩
    · obtain ⟨p1, e, hp1, he, hv, hkey, _, h1, h2⟩ := table_t.invalidate_hit hwf hk
      refine ⟨_, _, h1, h2, ?_⟩
      obtain ⟨d, l, hpol, hr, hmem, hord, hlt⟩ := hl
      have hil : i ∈ l := (hmem i).2 ⟨e, he, hv⟩
      obtain ⟨d1, hd1, hr1⟩ := hr.remove hil
      have hp1' : p1 = .lru d1 := by
        rw [hpol] at hp1
        simp [UpdateReplacementPolicy, hd1] at hp1
        exact hp1.symm
      have hst : ∀ j, slotTime (t._table.modify (fun x => { x with valid := false }) i)
          (setTime lastUse none now) j = slotTime t._table lastUse j := by
        intro j
        exact slotTime_modify t._table lastUse i j (fun x => { x with valid := false })
          (fun _ => rfl)
      refine ⟨d1, l.erase i, hp1', hr1, ?_, ?_, ?_⟩
      · intro j
        rw [hr.nodup.mem_erase_iff, hmem j]
        unfold validAt
        simp only [getElem?_modify_valid]
        constructor
        · rintro ⟨hji, e1, he1, hv1⟩
          exact ⟨e1, by simp [he1, Ne.symm hji], hv1⟩
        · rintro ⟨e1, he1, hv1⟩
          rcases h0 : t._table[j]? with _ | e0
          · rw [h0] at he1; cases he1
          · rw [h0] at he1
            simp only [Option.map_some', Option.some.injEq] at he1
            by_cases hij : i = j
            · simp only [hij, if_true] at he1
              rw [← he1] at hv1; cases hv1
            · simp only [hij, if_false] at he1
              subst he1
              exact ⟨fun e2 => hij e2.symm, e0, rfl, hv1⟩
      · exact pairwise_congr_mem (fun a _ => hst a) (hord.sublist (List.erase_sublist i l))
      · intro j hj
        show slotTime (t._table.modify (fun x => { x with valid := false }) i)
          (setTime lastUse none now) j < now + 1
        rw [hst j]
        have := hlt j (List.mem_of_mem_erase hj); omega

theorem lru_run {N : Nat} (ops : List table_op) :
    ∀ {t : table_t} {lastUse : Nat → Nat} {now : Nat}, t.WF N → t.LruInv N lastUse now →
      ∃ t1 lu1, t.runLastUse lastUse now ops = some (t1, lu1) ∧ t1.WF N ∧
        t1.LruInv N lu1 (now + ops.length) := by
  induction ops with
  | nil => intro t lu now h1 h2; exact ⟨t, lu, rfl, h1, h2⟩
  | cons op ops ih =>
    intro t lu now h1 h2
    obtain ⟨e, t1, hs, hwf1, hl1⟩ := lru_step h1 h2 op
    obtain ⟨t2, lu2, hr, hwf2, hl2⟩ := ih hwf1 hl1
    refine ⟨t2, lu2, by simp [table_t.runLastUse, hs, hr], hwf2, ?_⟩
    have : now + (op :: ops).length = now + 1 + ops.length := by simp; omega
    rw [this]; exact hl2

theorem lru_new (N : Nat) (hand0 : Nat) (lastUse : Nat → Nat) :
    (table_t.new .lru N hand0).LruInv N lastUse 0 := by
  refine ⟨dlist.new N, [], rfl, dlist.Repr.new N, ?_, List.Pairwise.nil, fun i hi => by cases hi⟩
  intro i
  constructor
  · intro h; cases h
  · rintro ⟨e, he, hv⟩
    have := (getElem?_replicate_empty N i e he).2
    rw [this] at hv; cases hv

theorem table_t.lookup_after_evict {N : Nat} {t : table_t} {k : Nat}
    (h : t.WF N) (v : Nat) (pval : policy_value_t)
    (hk : map_find t._keyIndex k = none) (hf : t._freeList = []) :
    ∃ i e t1, t._table[i]? = some e ∧ e.valid = true ∧
      (∃ p1, GetReplacementIndex t.policy N t._table = some (i, p1)) ∧
      t.insert k v pval = some (e, t1) ∧ t1.WF N ∧ t.lookup e.key = true ∧
      ∀ y, t1.lookup y = true ↔ (y = k ∨ (t.lookup y = true ∧ y ≠ e.key)) := by
  have hb := h.2.2.1
  obtain ⟨i, p1, p2, e, hg, hi, _, he, hv, _, hins, hwf1⟩ := table_t.insert_evict h v pval hk hf
  have hke : map_find t._keyIndex e.key = some i := (hb.key_iff e.key i).2 ⟨e, he, hv, rfl⟩
  have hkne : k ≠ e.key := by
    intro e1; rw [e1] at hk; rw [hk] at hke; cases hke
  have hk' : map_find (map_erase t._keyIndex e.key) k = none := by
    rw [map_find_erase]; simp [hkne, hk]
  refine ⟨i, e, _, he, hv, ⟨p1, hg⟩, hins, hwf1, (table_t.lookup_true_iff hb _).2 ⟨i, hke⟩, ?_⟩
  intro y
  rw [table_t.lookup_true_iff hwf1.2.2.1, table_t.lookup_true_iff hb]
  simp only
  constructor
  · rintro ⟨j, hj⟩
    rw [map_find_insert _ _ _ _ hk', map_find_erase] at hj
    by_cases hyk : y = k
    · exact Or.inl hyk
    · simp only [hyk, if_false] at hj
      by_cases hye : y = e.key
      · simp [hye] at hj
      · simp only [hye, if_false] at hj
        exact Or.inr ⟨⟨j, hj⟩, hye⟩
  · rintro (hyk | ⟨⟨j, hj⟩, hye⟩)
    · exact ⟨i, by rw [map_find_insert _ _ _ _ hk']; simp [hyk]⟩
    · have hyk : y ≠ k := by
        intro e1; rw [e1, hk] at hj; cases hj
      exact ⟨j, by rw [map_find_insert _ _ _ _ hk', map_find_erase]; simp [hyk, hye, hj]⟩

theorem table_t.lookup_after_free {N : Nat} {t : table_t} {k i : Nat} {rest : List Nat}
    (h : t.WF N) (v : Nat) (pval : policy_value_t)
    (hk : map_find t._keyIndex k = none) (hf : t._freeList = i :: rest) :
    ∃ t1, t.insert k v pval = some (entry.ofIndex i, t1) ∧ t1.WF N ∧
      ∀ y, t1.lookup y = true ↔ (y = k ∨ t.lookup y = true) := by
  have hb := h.2.2.1
  obtain ⟨p1, _, _, _, hins, hwf1⟩ := table_t.insert_free h v pval hk hf
  refine ⟨_, hins, hwf1, ?_⟩
  intro y
  rw [table_t.lookup_true_iff hwf1.2.2.1, table_t.lookup_true_iff hb]
  simp only
  constructor
  · rintro ⟨j, hj⟩
    rw [map_find_insert _ _ _ _ hk] at hj
    by_cases hyk : y = k
    · exact Or.inl hyk
    · simp only [hyk, if_false] at hj
      exact Or.inr ⟨j, hj⟩
  · rintro (hyk | ⟨j, hj⟩)
    · exact ⟨i, by rw [map_find_insert _ _ _ _ hk]; simp [hyk]⟩
    · have hyk : y ≠ k := by
        intro e1; rw [e1, hk] at hj; cases hj
      exact ⟨j, by rw [map_find_insert _ _ _ _ hk]; simp [hyk, hj]⟩

/-- In a full LRU table the victim of an insert is the present key with the least
last-use time. -/
theorem lru_victim_min {N : Nat} {t : table_t} {lastUse : Nat → Nat} {now : Nat}
    (hwf : t.WF N) (hl : t.LruInv N lastUse now) {k : Nat} (v : Nat) (pval : policy_value_t)
    (hk : map_find t._keyIndex k = none) (hf : t._freeList = []) :
    ∃ e t1, t.insert k v pval = some (e, t1) ∧ t1.WF N ∧ e.valid = true ∧
      t.lookup e.key = true ∧
      (∀ x, t.lookup x = true → x ≠ e.key → lastUse e.key < lastUse x) ∧
      ∀ y, t1.lookup y = true ↔ (y = k ∨ (t.lookup y = true ∧ y ≠ e.key)) := by
  have hb := hwf.2.2.1
  obtain ⟨i, e, t1, he, hv, ⟨p1, hg⟩, hins, hwf1, hlook, hchar⟩ :=
    table_t.lookup_after_evict hwf v pval hk hf
  obtain ⟨d, l, hpol, hr, hmem, hord, _⟩ := hl
  have hil : i ∈ l := (hmem i).2 ⟨e, he, hv⟩
  refine ⟨e, t1, hins, hwf1, hv, hlook, ?_, hchar⟩
  cases l with
  | nil => cases hil
  | cons a rest =>
    rw [hpol] at hg
    simp only [GetReplacementIndex, hr.headIndex, Option.map_some', Option.some.injEq,
      Prod.mk.injEq] at hg
    obtain ⟨hai, _⟩ := hg
    subst hai
    intro x hx hxe
    obtain ⟨j, hj⟩ := (table_t.lookup_true_iff hb x).1 hx
    obtain ⟨ej, hej, hvj, hkj⟩ := (hb.key_iff x j).1 hj
    have hjl : j ∈ a :: rest := (hmem j).2 ⟨ej, hej, hvj⟩
    have hja : j ≠ a := by
      intro e1; subst e1
      rw [he] at hej; cases hej
      exact hxe hkj.symm
    have hjr : j ∈ rest := by
      rcases List.mem_cons.1 hjl with e1 | e1
      · exact absurd e1 hja
      · exact e1
    have := (List.pairwise_cons.1 hord).1 j hjr
    rw [slotTime_of_get he, slotTime_of_get hej, hkj] at this
    exact this

theorem table_t.runLastUse_fst (ops : List table_op) :
    ∀ (t : table_t) (lu : Nat → Nat) (now : Nat),
      (t.runLastUse lu now ops).map Prod.fst = t.run ops := by
  induction ops with
  | nil => intro t lu now; rfl
  | cons op ops ih =>
    intro t lu now
    simp only [table_t.runLastUse, table_t.run]
    rcases t.step op with _ | r
    · rfl
    · simp only [Option.some_bind]
      exact ih _ _ _

theorem table_t.runLastUse_append (ops1 ops2 : List table_op) :
    ∀ (t : table_t) (lu : Nat → Nat) (now : Nat),
      t.runLastUse lu now (ops1 ++ ops2) =
        (t.runLastUse lu now ops1).bind
          (fun r => r.1.runLastUse r.2 (now + ops1.length) ops2) := by
  induction ops1 with
  | nil => intro t lu now; rfl
  | cons op ops ih =>
    intro t lu now
    rw [List.cons_append]
    simp only [table_t.runLastUse]
    rcases t.step op with _ | r
    · rfl
    · simp only [Option.some_bind]
      rw [ih]
      have : now + 1 + ops.length = now + (op :: ops).length := by simp; omega
      rw [this]

/-- After a sequence of inserts of keys outside `P ∪ {k}`, where `k` was used after every
key of `P`, a key of `P` is still present only if `k` is. -/
theorem lru_fresh_inserts {N : Nat} (k S : Nat) (P : Nat → Prop) (ins : List table_op) :
    ∀ {t : table_t} {lu : Nat → Nat} {now : Nat}, t.WF N → t.LruInv N lu now →
      (∀ op ∈ ins, ∃ k1 v1 pv1, op = table_op.insert k1 v1 pv1 ∧ k1 ≠ k ∧ ¬ P k1) →
      (∀ x, P x → t.lookup x = true → lu x < S) →
      (t.lookup k = true → lu k = S) →
      (t.lookup k = false → ∀ x, P x → t.lookup x = false) →
      ∃ t1, t.run ins = some t1 ∧ (t1.lookup k = false → ∀ x, P x → t1.lookup x = false) := by
  induction ins with
  | nil => intro t lu now _ _ _ _ _ h3; exact ⟨t, rfl, h3⟩
  | cons op ins ih =>
    intro t lu now hwf hl hins J1 J2 J3
    obtain ⟨k1, v1, pv1, hop, hk1, hP1⟩ := hins op (List.mem_cons_self _ _)
    subst hop
    have hins' := fun o ho => hins o (List.mem_cons_of_mem _ ho)
    have hb := hwf.2.2.1
    obtain ⟨e, t1, hstep, hwf1, hl1⟩ := lru_step hwf hl (.insert k1 v1 pv1)
    have hstep' : t.insert k1 v1 pv1 = some (e, t1) := hstep
    suffices hJ : (∀ x, P x → t1.lookup x = true →
          setTime lu ((table_op.insert k1 v1 pv1).uses t) now x < S) ∧
        (t1.lookup k = true → setTime lu ((table_op.insert k1 v1 pv1).uses t) now k = S) ∧
        (t1.lookup k = false → ∀ x, P x → t1.lookup x = false) by
      obtain ⟨t2, hr, h3⟩ := ih hwf1 hl1 hins' hJ.1 hJ.2.1 hJ.2.2
      exact ⟨t2, by simp [table_t.run, hstep, hr], h3⟩
    have hst : ∀ x, x ≠ k1 →
        setTime lu ((table_op.insert k1 v1 pv1).uses t) now x = lu x := by
      intro x hx
      simp only [table_op.uses]
      split <;> simp [setTime, hx]
    rcases hk : map_find t._keyIndex k1 with _ | i0
    · rcases hf : t._freeList with _ | ⟨i, rest⟩
      · obtain ⟨e', t1', hins1, _, _, _, hmin, hchar⟩ :=
          lru_victim_min hwf hl v1 pv1 hk hf
        rw [hstep'] at hins1
        cases hins1
        refine ⟨?_, ?_, ?_⟩
        · intro x hx hx1
          have hxk1 : x ≠ k1 := fun e1 => hP1 (e1 ▸ hx)
          rw [hst x hxk1]
          rcases (hchar x).1 hx1 with e1 | ⟨h1, _⟩
          · exact absurd e1 hxk1
          · exact J1 x hx h1
        · intro hk1'
          rw [hst k (Ne.symm hk1)]
          rcases (hchar k).1 hk1' with e1 | ⟨h1, _⟩
          · exact absurd e1.symm hk1
          · exact J2 h1
        · intro hkf x hx
          have hxk1 : x ≠ k1 := fun e1 => hP1 (e1 ▸ hx)
          by_contra hx1
          have hx1 : t1.lookup x = true := by simpa using hx1
          rcases (hchar x).1 hx1 with e1 | ⟨h1, hxe⟩
          · exact hxk1 e1
          · rcases hkt : t.lookup k with _ | _
            · have := J3 hkt x hx
              rw [this] at h1; cases h1
            · have hke : k = e.key := by
                by_contra hne
                have : t1.lookup k = true := (hchar k).2 (Or.inr ⟨hkt, hne⟩)
                rw [hkf] at this; cases this
              have h2 := hmin x h1 hxe
              have h3 := J1 x hx h1
              have h4 := J2 hkt
              rw [← hke, h4] at h2
              omega
      · obtain ⟨t1', hins1, _, hchar⟩ := table_t.lookup_after_free hwf v1 pv1 hk hf
        rw [hstep'] at hins1
        cases hins1
        refine ⟨?_, ?_, ?_⟩
        · intro x hx hx1
          have hxk1 : x ≠ k1 := fun e1 => hP1 (e1 ▸ hx)
          rw [hst x hxk1]
          rcases (hchar x).1 hx1 with e1 | h1
          · exact absurd e1 hxk1
          · exact J1 x hx h1
        · intro hk1'
          rw [hst k (Ne.symm hk1)]
          rcases (hchar k).1 hk1' with e1 | h1
          · exact absurd e1.symm hk1
          · exact J2 h1
        · intro hkf x hx
          have hxk1 : x ≠ k1 := fun e1 => hP1 (e1 ▸ hx)
          have hkt : t.lookup k = false := by
            by_contra h
            have h : t.lookup k = true := by simpa using h
            have : t1.lookup k = true := (hchar k).2 (Or.inr h)
            rw [hkf] at this; cases this
          by_contra hx1
          have hx1 : t1.lookup x = true := by simpa using hx1
          rcases (hchar x).1 hx1 with e1 | h1
          · exact hxk1 e1
          · rw [J3 hkt x hx] at h1; cases h1
    · obtain ⟨e', _, _, _, _, hins1⟩ := table_t.insert_hit hb v1 pv1 hk
      rw [hstep'] at hins1
      cases hins1
      have hlook : t.lookup k1 = true := (table_t.lookup_true_iff hb k1).2 ⟨i0, hk⟩
      have hst' : setTime lu ((table_op.insert k1 v1 pv1).uses t) now = lu := by
        simp [table_op.uses, hlook, setTime]
      rw [hst']
      exact ⟨J1, J2, J3⟩

theorem lru_present_lt {N : Nat} {t : table_t} {lastUse : Nat → Nat} {now : Nat}
    (hwf : t.WF N) (hl : t.LruInv N lastUse now) {x : Nat} (hx : t.lookup x = true) :
    lastUse x < now := by
  have hb := hwf.2.2.1
  obtain ⟨d, l, _, _, hmem, _, hlt⟩ := hl
  obtain ⟨j, hj⟩ := (table_t.lookup_true_iff hb x).1 hx
  obtain ⟨ej, hej, hvj, hkj⟩ := (hb.key_iff x j).1 hj
  have := hlt j ((hmem j).2 ⟨ej, hej, hvj⟩)
  rw [slotTime_of_get hej, hkj] at this
  exact this

/-- After a hit on `k` at time `S`, through any following inserts: the run returns, and if
`k` is gone at the end, every key of `P` (keys present with a last use before `S`) was
absent at some earlier point of the run at which `k` was still present. -/
theorem lru_inserts_evict_last {N : Nat} (k S : Nat) (ins : List table_op) :
    ∀ {t : table_t} {lu : Nat → Nat} {now : Nat} (P : Nat → Prop), t.WF N →
      t.LruInv N lu now →
      (∀ op ∈ ins, ∃ k1 v1 pv1, op = table_op.insert k1 v1 pv1) →
      t.lookup k = true → lu k = S →
      (∀ x, P x → x ≠ k ∧ t.lookup x = true ∧ lu x < S) →
      ∃ t2, t.run ins = some t2 ∧
        (t2.lookup k = false → ∀ x, P x →
          ∃ pre t1, pre <+: ins ∧ t.run pre = some t1 ∧ t1.lookup x = false ∧
            t1.lookup k = true) := by
  induction ins with
  | nil =>
    intro t lu now P _ _ _ hk _ _
    exact ⟨t, rfl, fun h => by rw [hk] at h; cases h⟩
  | cons op ins ih =>
    intro t lu now P hwf hl hins hkt hS hP
    obtain ⟨k1, v1, pv1, hop⟩ := hins op (List.mem_cons_self _ _)
    subst hop
    have hins' := fun o ho => hins o (List.mem_cons_of_mem _ ho)
    have hb := hwf.2.2.1
    obtain ⟨e, t1, hstep, hwf1, hl1⟩ := lru_step hwf hl (.insert k1 v1 pv1)
    have hstep' : t.insert k1 v1 pv1 = some (e, t1) := hstep
    have hrun : ∀ l, t.run (table_op.insert k1 v1 pv1 :: l) = t1.run l := by
      intro l
      simp [table_t.run, hstep]
    have hst : ∀ x, x ≠ k1 →
        setTime lu ((table_op.insert k1 v1 pv1).uses t) now x = lu x := by
      intro x hx
      simp only [table_op.uses]
      split <;> simp [setTime, hx]
    -- lift a result of the induction hypothesis to the longer run
    have lift : ∀ (Q : Nat → Prop),
        (∃ t2, t1.run ins = some t2 ∧
          (t2.lookup k = false → ∀ x, Q x →
            ∃ pre t3, pre <+: ins ∧ t1.run pre = some t3 ∧ t3.lookup x = false ∧
              t3.lookup k = true)) →
        (∀ x, P x → ¬ Q x → t1.lookup x = false ∧ t1.lookup k = true) →
        ∃ t2, t.run (table_op.insert k1 v1 pv1 :: ins) = some t2 ∧
          (t2.lookup k = false → ∀ x, P x →
            ∃ pre t3, pre <+: table_op.insert k1 v1 pv1 :: ins ∧ t.run pre = some t3 ∧
              t3.lookup x = false ∧ t3.lookup k = true) := by
      intro Q ⟨t2, hr, h3⟩ hrest
      refine ⟨t2, by rw [hrun]; exact hr, ?_⟩
      intro hk2 x hx
      by_cases hq : Q x
      · obtain ⟨pre, t3, hp1, hp2, hp3, hp4⟩ := h3 hk2 x hq
        exact ⟨table_op.insert k1 v1 pv1 :: pre, t3,
          List.cons_prefix_cons.2 ⟨rfl, hp1⟩, by rw [hrun]; exact hp2, hp3, hp4⟩
      · obtain ⟨g1, g2⟩ := hrest x hx hq
        exact ⟨[table_op.insert k1 v1 pv1], t1,
          List.cons_prefix_cons.2 ⟨rfl, List.nil_prefix⟩, by rw [hrun]; rfl, g1, g2⟩
    rcases hk : map_find t._keyIndex k1 with _ | i0
    · have hk1k : k ≠ k1 := by
        intro e1
        rw [← e1] at hk
        rw [(table_t.lookup_false_iff hb k).2 hk] at hkt
        cases hkt
      have hPk1 : ∀ x, P x → x ≠ k1 := by
        intro x hx e1
        rw [← e1] at hk
        have h2 := (hP x hx).2.1
        rw [(table_t.lookup_false_iff hb x).2 hk] at h2
        cases h2
      rcases hf : t._freeList with _ | ⟨i, rest⟩
      · obtain ⟨e', t1', hins1, _, _, _, hmin, hchar⟩ :=
          lru_victim_min hwf hl v1 pv1 hk hf
        rw [hstep'] at hins1
        cases hins1
        by_cases hke : k = e.key
        · -- the victim is `k`: no key of `P` exists
          have hnone : ∀ x, ¬ P x := by
            intro x hx
            obtain ⟨h1, h2, h3⟩ := hP x hx
            have := hmin x h2 (by rw [← hke]; exact h1)
            rw [← hke, hS] at this
            omega
          obtain ⟨t2, hr2, _⟩ := table_t.WF.run ins hwf1
          exact ⟨t2, by rw [hrun]; exact hr2, fun _ x hx => absurd hx (hnone x)⟩
        · have hk1' : t1.lookup k = true := (hchar k).2 (Or.inr ⟨hkt, hke⟩)
          apply lift (fun x => P x ∧ x ≠ e.key)
          · apply ih (fun x => P x ∧ x ≠ e.key) hwf1 hl1 hins' hk1'
            · rw [hst k hk1k]; exact hS
            · intro x hx
              obtain ⟨h1, h2, h3⟩ := hP x hx.1
              refine ⟨h1, (hchar x).2 (Or.inr ⟨h2, hx.2⟩), ?_⟩
              rw [hst x (hPk1 x hx.1)]
              exact h3
          · intro x hx hq
            have hxe : x = e.key := by
              by_contra hne
              exact hq ⟨hx, hne⟩
            refine ⟨?_, hk1'⟩
            by_contra hx1
            have hx1 : t1.lookup x = true := by simpa using hx1
            rcases (hchar x).1 hx1 with e1 | ⟨_, h2⟩
            · exact hPk1 x hx e1
            · exact h2 hxe
      · obtain ⟨t1', hins1, _, hchar⟩ := table_t.lookup_after_free hwf v1 pv1 hk hf
        rw [hstep'] at hins1
        cases hins1
        apply lift P
        · apply ih P hwf1 hl1 hins' ((hchar k).2 (Or.inr hkt))
          · rw [hst k hk1k]; exact hS
          · intro x hx
            obtain ⟨h1, h2, h3⟩ := hP x hx
            refine ⟨h1, (hchar x).2 (Or.inr h2), ?_⟩
            rw [hst x (hPk1 x hx)]
            exact h3
        · intro x hx hq
          exact absurd hx hq
    · obtain ⟨e', _, _, _, _, hins1⟩ := table_t.insert_hit hb v1 pv1 hk
      rw [hstep'] at hins1
      cases hins1
      have huse : (table_op.insert k1 v1 pv1).uses t = none := by
        simp [table_op.uses, (table_t.lookup_true_iff hb k1).2 ⟨i0, hk⟩]
      rw [huse] at hl1
      apply lift P
      · exact ih P hwf1 hl1 hins' hkt hS hP
      · intro x hx hq
        exact absurd hx hq

/-- Counterexample for C4: an insert of a key that is already present returns before
`UpdateReplacementPolicy` and does not refresh the key. LRU table of capacity 2 after
`insert(1)`, `insert(2)`, `insert(1)`: the most recent insert of key 1 is the third call
and that of key 2 the second, and neither key was read or updated, so by the claim
`insert(3)` evicts key 2; it evicts key 1. -/
theorem C4_insert_of_present_key_is_no_use :
    ∃ t lastUse, (table_t.new .lru 2 0).runLastUseAsWorded (fun _ => 0) 0
        [.insert 1 10 .POLICY_HIGH, .insert 2 20 .POLICY_HIGH, .insert 1 11 .POLICY_HIGH] =
        some (t, lastUse) ∧
      t._freeList = [] ∧ t.lookup 1 = true ∧ t.lookup 2 = true ∧ t.lookup 3 = false ∧
      lastUse 1 = 2 ∧ lastUse 2 = 1 ∧
      (t.insert 3 30 .POLICY_HIGH).map (fun r => r.1) = some (entry.full 0 1 10) := by
  refine ⟨_, _, rfl, ?_, ?_, ?_, ?_, ?_, ?_, ?_⟩ <;> rfl

/-- **C4 (amended).** LRU victim. For an LRU table of capacity `1 ≤ N < 2 ^ 32` and any
sequence of insert/read/update/silentupdate/invalidate calls from the empty table, with
`lastUse x` the time of the most recent use of `x`, where a use is an insert that
installed `x` (an insert of a key that is already present is not a use), or a read,
update or silentupdate that hit: (a) inserting a new key into the full table evicts a
present key whose last use is older than that of every other present key; (b) after a
hit `read(k)` every other present key has an older last use than `k`, every following
sequence of inserts returns, and if `k` is absent after it, each other key present at the
read was absent at an earlier point of the sequence at which `k` was still present;
(c) capacity 4, insert 1, 2, 3, 4, read 1, insert 5 returns the evicted entry with
key 2. -/
theorem C4_lru_victim_amended (N hand0 : Nat) (hN0 : 0 < N) (hN : N < UINT32_MOD) :
    (∀ (ops : List table_op) (t : table_t) (lastUse : Nat → Nat) (k v : Nat)
        (pval : policy_value_t),
      (table_t.new .lru N hand0).runLastUse (fun _ => 0) 0 ops = some (t, lastUse) →
      t._freeList = [] → t.lookup k = false →
      ∃ e t1, t.insert k v pval = some (e, t1) ∧ e.valid = true ∧
        t.lookup e.key = true ∧
        ∀ x, t.lookup x = true → x ≠ e.key → lastUse e.key < lastUse x) ∧
    (∀ (ops : List table_op) (t0 : table_t) (k : Nat) (pv : policy_value_t),
      (table_t.new .lru N hand0).run ops = some t0 → t0.lookup k = true →
      ∃ e t lastUse, t0.read k pv = some (e, t) ∧
        (table_t.new .lru N hand0).runLastUse (fun _ => 0) 0 (ops ++ [.read k pv]) =
          some (t, lastUse) ∧
        (∀ x, t.lookup x = true → x ≠ k → lastUse x < lastUse k) ∧
        ∀ (ins : List table_op),
          (∀ op ∈ ins, ∃ k1 v1 pv1, op = table_op.insert k1 v1 pv1) →
          ∃ t2, t.run ins = some t2 ∧
            (t2.lookup k = false → ∀ x, x ≠ k → t.lookup x = true →
              ∃ pre t1, pre <+: ins ∧ t.run pre = some t1 ∧ t1.lookup x = false ∧
                t1.lookup k = true)) ∧
    (((table_t.new .lru 4 hand0).run
        [.insert 1 10 .POLICY_HIGH, .insert 2 20 .POLICY_HIGH, .insert 3 30 .POLICY_HIGH,
          .insert 4 40 .POLICY_HIGH, .read 1 .POLICY_HIGH]).bind
        (fun t => (t.insert 5 50 .POLICY_HIGH).map (fun r => r.1)) =
      some (entry.full 1 2 20)) := by
  have hnew := table_t.WF_new .lru N hand0 hN0 hN (fun h => by cases h)
  refine ⟨?_, ?_, ?_⟩
  · intro ops t lu k v pval hrun hf hk
    obtain ⟨t1, lu1, hr, hwf, hl⟩ := lru_run ops hnew (lru_new N hand0 (fun _ => 0))
    rw [hrun] at hr
    cases hr
    obtain ⟨e, t2, hins, _, hv, hlook, hmin, _⟩ :=
      lru_victim_min hwf hl v pval ((table_t.lookup_false_iff hwf.2.2.1 k).1 hk) hf
    exact ⟨e, t2, hins, hv, hlook, hmin⟩
  · intro ops t0 k pv hrun hk
    obtain ⟨t1, lu0, hr, hwf, hl⟩ := lru_run ops hnew (lru_new N hand0 (fun _ => 0))
    have hfst := table_t.runLastUse_fst ops (table_t.new .lru N hand0) (fun _ => 0) 0
    rw [hr, hrun] at hfst
    simp only [Option.map_some', Option.some.injEq] at hfst
    subst hfst
    obtain ⟨i, hki⟩ := (table_t.lookup_true_iff hwf.2.2.1 k).1 hk
    obtain ⟨p1, e, _, _, _, _, hread, _⟩ := table_t.read_hit hwf pv hki
    obtain ⟨e', t, hstep, hwf1, hl1⟩ := lru_step hwf hl (.read k pv)
    have hstep' : t1.read k pv = some (e', t) := hstep
    rw [hread] at hstep'
    cases hstep'
    have huse : (table_op.read k pv).uses t1 = some k := by simp [table_op.uses, hk]
    rw [huse] at hl1
    have hsame : ∀ x, table_t.lookup { t1 with policy := p1 } x = t1.lookup x := fun _ => rfl
    have hkk : setTime lu0 (some k) (0 + ops.length) k = 0 + ops.length := by simp [setTime]
    have hmru : ∀ x, table_t.lookup { t1 with policy := p1 } x = true → x ≠ k →
        setTime lu0 (some k) (0 + ops.length) x < setTime lu0 (some k) (0 + ops.length) k := by
      intro x hx hxk
      rw [hkk]
      have := lru_present_lt hwf hl (x := x) (by rw [← hsame x]; exact hx)
      simpa [setTime, hxk] using this
    refine ⟨e, _, setTime lu0 (some k) (0 + ops.length), hread, ?_, hmru, ?_⟩
    · rw [table_t.runLastUse_append, hr]
      simp only [Option.some_bind, table_t.runLastUse]
      have hs2 : t1.step (.read k pv) = some (e, { t1 with policy := p1 }) := hread
      rw [hs2]
      simp [huse]
    · intro ins hins
      obtain ⟨t3, hr3, h3⟩ := lru_inserts_evict_last k (0 + ops.length) ins
        (fun y => y ≠ k ∧ table_t.lookup { t1 with policy := p1 } y = true) hwf1 hl1 hins
        (by rw [hsame k]; exact hk) hkk
        (fun y hy => ⟨hy.1, hy.2, by
          have := hmru y hy.2 hy.1; rw [hkk] at this; exact this⟩)
      exact ⟨t3, hr3, fun hk2 x hxk hx => h3 hk2 x ⟨hxk, hx⟩⟩
  · rfl

/-- Witness for C4 (amended) at capacity 4. -/
theorem C4_lru_victim_amended_witness :
    ((table_t.new .lru 4 0).run
        [.insert 1 10 .POLICY_HIGH, .insert 2 20 .POLICY_HIGH, .insert 3 30 .POLICY_HIGH,
          .insert 4 40 .POLICY_HIGH, .read 1 .POLICY_HIGH]).bind
        (fun t => (t.insert 5 50 .POLICY_HIGH).map (fun r => r.1)) =
      some (entry.full 1 2 20) :=
  (C4_lru_victim_amended 4 0 (by decide) (by decide)).2.2

/-! ## FIFO -/

/-- **C5.** The FIFO queue keeps the index of an invalidated slot. Capacity 2: insert 1,
insert 2, invalidate 1, insert 3 leaves keys 3 (slot 0, installed at time 3) and 2
(slot 1, installed at time 1) in a full table with `_queue = [0, 1, 0]`; the insert of
key 4 then evicts key 3, not key 2, the present key that was installed earliest. -/
theorem C5_fifo_evicts_newest_after_invalidate :
    ((table_t.new .fifo 2 0).runInsertTime (fun _ => 0) 0
        [.insert 1 10 .POLICY_HIGH, .insert 2 20 .POLICY_HIGH, .invalidate 1,
          .insert 3 30 .POLICY_HIGH]).map
        (fun r => (r.1._table, r.1._freeList, r.1.policy, r.1.lookup 2, r.1.lookup 3,
          r.2 2, r.2 3, (r.1.insert 4 40 .POLICY_HIGH).map (fun x => x.1))) =
      some ([entry.full 0 3 30, entry.full 1 2 20], [], .fifo [0, 1, 0], true, true,
        1, 3, some (entry.full 0 3 30)) := by
  rfl

/-! ## `to_be_evicted` -/

/-- **C6 (counterexample).** A DIP table of capacity 2 after `insert(1)`, `insert(2)` with
`pval = Bimodal`: `to_be_evicted()` returns key 1 and leaves `_bipCounter` at 1 instead of
0; a following `read(1, Bimodal)` then moves key 1 to the LRU end instead of the MRU end,
and the next insert evicts key 1, where without the call it evicts key 2. -/
theorem C6_to_be_evicted_changes_dip_state :
    ((table_t.new .dip 2 0).run
        [.insert 1 10 .POLICY_BIMODAL, .insert 2 20 .POLICY_BIMODAL]).bind
      (fun t =>
        (t.to_be_evicted).bind (fun r =>
          (t.run [.read 1 .POLICY_BIMODAL]).bind (fun ta =>
            (r.2.run [.read 1 .POLICY_BIMODAL]).bind (fun tb =>
              (ta.insert 3 30 .POLICY_BIMODAL).bind (fun xa =>
                (tb.insert 3 30 .POLICY_BIMODAL).map (fun xb =>
                  (r.1, decide (r.2.policy = t.policy), decide (r.2 = t),
                    xa.1.key, xb.1.key))))))) =
      some (1, false, false, 2, 1) := by
  rfl

theorem policy_new_name (pn : policy_name) (N hand0 : Nat) :
    (policy_t.new pn N hand0).name = pn := by
  cases pn <;> rfl

theorem update_name_map (p : policy_t) (N i : Nat) (op : operation) (pval : policy_value_t) :
    (UpdateReplacementPolicy p N i op pval).map policy_t.name =
      (UpdateReplacementPolicy p N i op pval).map (fun _ => p.name) := by
  cases p with
  | fifo q =>
    cases op <;> first | rfl | (cases q <;> rfl)
  | lru d => cases op <;> simp only [UpdateReplacementPolicy, Option.map_map] <;> rfl
  | dip d bip => cases op <;> simp only [UpdateReplacementPolicy, Option.map_map] <;> rfl
  | reuse _ _ _ => cases op <;> rfl
  | srrip _ => cases op <;> rfl
  | nru _ _ => cases op <;> rfl
  | generation _ _ => cases op <;> rfl
  | drrip _ _ => cases op <;> rfl
  | minw => rfl

theorem update_name {p p1 : policy_t} {N i : Nat} {op : operation} {pval : policy_value_t}
    (h : UpdateReplacementPolicy p N i op pval = some p1) : p1.name = p.name := by
  have := update_name_map p N i op pval
  rw [h] at this
  simpa using this

theorem victim_name_map (p : policy_t) (N : Nat) (tbl : List entry) :
    (GetReplacementIndex p N tbl).map (fun r => r.2.name) =
      (GetReplacementIndex p N tbl).map (fun _ => p.name) := by
  cases p with
  | fifo q => cases q <;> rfl
  | minw => rfl
  | lru d => simp only [GetReplacementIndex, Option.map_map]; rfl
  | dip d bip => simp only [GetReplacementIndex, Option.map_map]; rfl
  | reuse _ _ _ => simp only [GetReplacementIndex, Option.map_map]; rfl
  | srrip _ => simp only [GetReplacementIndex, Option.map_map]; rfl
  | nru _ _ => simp only [GetReplacementIndex, Option.map_map]; rfl
  | generation _ _ => simp only [GetReplacementIndex, Option.map_map]; rfl
  | drrip _ _ => simp only [GetReplacementIndex, Option.map_map]; rfl

theorem victim_name {p p1 : policy_t} {N i : Nat} {tbl : List entry}
    (h : GetReplacementIndex p N tbl = some (i, p1)) : p1.name = p.name := by
  have := victim_name_map p N tbl
  rw [h] at this
  simpa using this

theorem victim_pure {p p1 : policy_t} {N i : Nat} {tbl : List entry}
    (hn : p.name = .lru ∨ p.name = .fifo ∨ p.name = .minw)
    (h : GetReplacementIndex p N tbl = some (i, p1)) : p1 = p := by
  cases p with
  | lru d =>
    simp only [GetReplacementIndex, Option.map_eq_some', Prod.mk.injEq] at h
    obtain ⟨_, _, _, h⟩ := h
    exact h.symm
  | fifo q =>
    cases q with
    | nil => cases h
    | cons a rest => cases h; rfl
  | minw => cases h; rfl
  | reuse _ _ _ => rcases hn with h | h | h <;> cases h
  | srrip _ => rcases hn with h | h | h <;> cases h
  | nru _ _ => rcases hn with h | h | h <;> cases h
  | generation _ _ => rcases hn with h | h | h <;> cases h
  | dip _ _ => rcases hn with h | h | h <;> cases h
  | drrip _ _ => rcases hn with h | h | h <;> cases h

theorem rrip_loop_scan : ∀ (fuel : Nat) (rr : List saturating_counter) (i : Nat)
    (rr1 : List saturating_counter), rrip_loop fuel rr = some (i, rr1) →
    rrip_scan rr1 = some i := by
  intro fuel
  induction fuel with
  | zero => intro rr i rr1 h; cases h
  | succ fuel ih =>
    intro rr i rr1 h
    rw [rrip_loop] at h
    rcases hs : rrip_scan rr with _ | j
    · rw [hs] at h; exact ih _ _ _ h
    · rw [hs] at h
      cases h
      exact hs

theorem rrip_loop_again {fuel : Nat} {rr rr1 : List saturating_counter} {i : Nat}
    (h : rrip_loop fuel rr = some (i, rr1)) :
    rrip_loop (rrip_fuel rr1) rr1 = some (i, rr1) := by
  have hs := rrip_loop_scan fuel rr i rr1 h
  simp [rrip_fuel, rrip_loop, hs]

theorem nru_loop_stop : ∀ (fuel : Nat) (ref : List Bool) (hand N h : Nat) (ref1 : List Bool),
    nru_loop fuel ref hand N = some (h, ref1) → ref1[h]? = some false := by
  intro fuel
  induction fuel with
  | zero => intro ref hand N h ref1 hl; cases hl
  | succ fuel ih =>
    intro ref hand N h ref1 hl
    rw [nru_loop] at hl
    rcases hg : ref[hand]? with _ | b
    · rw [hg] at hl; cases hl
    · rw [hg] at hl
      cases b with
      | true => exact ih _ _ _ _ _ hl
      | false => cases hl; exact hg

theorem reuse_loop_stop : ∀ (fuel : Nat) (r : List Nat) (hand N h : Nat) (r1 : List Nat),
    reuse_loop fuel r hand N = some (h, r1) → r1[h]? = some 0 := by
  intro fuel
  induction fuel with
  | zero => intro r hand N h r1 hl; cases hl
  | succ fuel ih =>
    intro r hand N h r1 hl
    rw [reuse_loop] at hl
    rcases hg : r[hand]? with _ | x
    · rw [hg] at hl; cases hl
    · rw [hg] at hl
      by_cases hx : x = 0
      · simp only [hx, ne_eq, not_true_eq_false, if_false, Option.some.injEq,
          Prod.mk.injEq] at hl
        obtain ⟨h1, h2⟩ := hl
        subst h1; subst h2
        rw [hg, hx]
      · simp only [ne_eq, hx, not_false_eq_true, if_true] at hl
        exact ih _ _ _ _ _ hl

theorem generation_loop_stop : ∀ (fuel : Nat) (nodes : List Generation)
    (hand : cyclic_pointer) (tbl : List entry) (h1 : cyclic_pointer)
    (n1 : List Generation), generation_loop fuel nodes hand tbl = some (h1, n1) →
    ∃ g e, n1[h1._hand]? = some g ∧ tbl[h1._hand]? = some e ∧
      (g.generation._value = 0 ∧ g.referenced = false ∧ e.valid = true) := by
  intro fuel
  induction fuel with
  | zero => intro nodes hand tbl h1 n1 hl; cases hl
  | succ fuel ih =>
    intro nodes hand tbl h1 n1 hl
    rw [generation_loop] at hl
    rcases hg : nodes[hand._hand]? with _ | g
    · rw [hg] at hl; cases hl
    · rcases he : tbl[hand._hand]? with _ | e
      · rw [hg, he] at hl; cases hl
      · rw [hg, he] at hl
        simp only at hl
        split at hl
        · rename_i hc
          cases hl
          exact ⟨g, e, hg, he, hc⟩
        · exact ih _ _ _ _ _ hl

/-- A second victim search right after the first finds the same index. -/
theorem victim_idem {p p1 : policy_t} {N i : Nat} {tbl : List entry}
    (h : GetReplacementIndex p N tbl = some (i, p1)) :
    ∃ p2, GetReplacementIndex p1 N tbl = some (i, p2) := by
  cases p with
  | lru d =>
    simp only [GetReplacementIndex, Option.map_eq_some', Prod.mk.injEq] at h
    obtain ⟨a, h1, h2, h3⟩ := h
    subst h2; subst h3
    exact ⟨.lru d, by simp [GetReplacementIndex, h1]⟩
  | fifo q =>
    cases q with
    | nil => cases h
    | cons a rest => cases h; exact ⟨_, rfl⟩
  | reuse r hand mx =>
    simp only [GetReplacementIndex, Option.map_eq_some', Prod.mk.injEq] at h
    obtain ⟨⟨j, r1⟩, h1, h2, h3⟩ := h
    simp only at h2 h3
    subst h2; subst h3
    have hs := reuse_loop_stop _ _ _ _ _ _ h1
    exact ⟨.reuse r1 j mx, by simp [GetReplacementIndex, reuse_loop, hs]⟩
  | srrip rrpv =>
    simp only [GetReplacementIndex, Option.map_eq_some', Prod.mk.injEq] at h
    obtain ⟨⟨j, r1⟩, h1, h2, h3⟩ := h
    simp only at h2 h3
    subst h2; subst h3
    exact ⟨.srrip r1, by simp [GetReplacementIndex, rrip_loop_again h1]⟩
  | nru ref hand =>
    simp only [GetReplacementIndex, Option.map_eq_some', Prod.mk.injEq] at h
    obtain ⟨⟨j, r1⟩, h1, h2, h3⟩ := h
    simp only at h2 h3
    subst h2; subst h3
    have hs := nru_loop_stop _ _ _ _ _ _ h1
    exact ⟨.nru r1 j, by simp [GetReplacementIndex, nru_loop, hs]⟩
  | generation nodes hand =>
    simp only [GetReplacementIndex, Option.map_eq_some', Prod.mk.injEq] at h
    obtain ⟨⟨h1, n1⟩, hl, h2, h3⟩ := h
    simp only at h2 h3
    subst h2; subst h3
    obtain ⟨g, e, hg, he, hc⟩ := generation_loop_stop _ _ _ _ _ _ hl
    exact ⟨.generation n1 h1, by
      simp [GetReplacementIndex, generation_fuel, generation_loop, hg, he, hc]⟩
  | dip d bip =>
    simp only [GetReplacementIndex, Option.map_eq_some', Prod.mk.injEq] at h
    obtain ⟨a, h1, h2, h3⟩ := h
    subst h2; subst h3
    exact ⟨.dip d bip.increment.increment, by simp [GetReplacementIndex, h1]⟩
  | drrip rrpv brrip =>
    simp only [GetReplacementIndex, Option.map_eq_some', Prod.mk.injEq] at h
    obtain ⟨⟨j, r1⟩, h1, h2, h3⟩ := h
    simp only at h2 h3
    subst h2; subst h3
    exact ⟨.drrip r1 brrip.increment.increment, by
      simp [GetReplacementIndex, rrip_loop_again h1]⟩
  | minw => cases h; exact ⟨.minw, rfl⟩

theorem table_t.WF.step_name {N : Nat} {t : table_t} (h : t.WF N) (op : table_op) :
    ∃ e t1, t.step op = some (e, t1) ∧ t1.WF N ∧ t1.policy.name = t.policy.name := by
  cases op with
  | insert k v pval =>
    rcases hk : map_find t._keyIndex k with _ | i
    · rcases hf : t._freeList with _ | ⟨i, rest⟩
      · obtain ⟨i, p1, p2, e, hg, _, hp2, _, _, _, h1, h2⟩ :=
          table_t.insert_evict h v pval hk hf
        exact ⟨_, _, h1, h2, (update_name hp2).trans (victim_name hg)⟩
      · obtain ⟨p1, hp1, _, _, h1, h2⟩ := table_t.insert_free h v pval hk hf
        exact ⟨_, _, h1, h2, update_name hp1⟩
    · obtain ⟨e, _, _, _, _, h1⟩ := table_t.insert_hit h.2.2.1 v pval hk
      exact ⟨_, _, h1, h, rfl⟩
  | read k pval =>
    rcases hk : map_find t._keyIndex k with _ | i
    · exact ⟨_, _, table_t.read_miss pval hk, h, rfl⟩
    · obtain ⟨p1, e, hp1, _, _, _, h1, h2⟩ := table_t.read_hit h pval hk
      exact ⟨_, _, h1, h2, update_name hp1⟩
  | update k v pval =>
    rcases hk : map_find t._keyIndex k with _ | i
    · exact ⟨_, _, table_t.update_miss v pval hk, h, rfl⟩
    · obtain ⟨p1, e, hp1, _, _, _, h1, h2⟩ := table_t.update_hit h v pval hk
      exact ⟨_, _, h1, h2, update_name hp1⟩
  | silentupdate k pval =>
    rcases hk : map_find t._keyIndex k with _ | i
    · exact ⟨_, _, table_t.silentupdate_miss pval hk, h, rfl⟩
    · obtain ⟨p1, e, hp1, _, _, _, h1, h2⟩ := table_t.silentupdate_hit h pval hk
      exact ⟨_, _, h1, h2, update_name hp1⟩
  | invalidate k =>
    rcases hk : map_find t._keyIndex k with _ | i
    · exact ⟨_, _, table_t.invalidate_miss hk, h, rfl⟩
    · obtain ⟨p1, e, hp1, _, _, _, _, h1, h2⟩ := table_t.invalidate_hit h hk
      exact ⟨_, _, h1, h2, update_name hp1⟩

theorem table_t.WF.run_name {N : Nat} (ops : List table_op) :
    ∀ {t : table_t}, t.WF N →
      ∃ t1, t.run ops = some t1 ∧ t1.WF N ∧ t1.policy.name = t.policy.name := by
  induction ops with
  | nil => intro t h; exact ⟨t, rfl, h, rfl⟩
  | cons op ops ih =>
    intro t h
    obtain ⟨e, t1, h1, h2, h3⟩ := h.step_name op
    obtain ⟨t2, h4, h5, h6⟩ := ih h2
    exact ⟨t2, by simp [table_t.run, h1, h4], h5, h6.trans h3⟩

/-- **C6 (amended).** In every full table state reached from the empty table of capacity
`1 ≤ N < 2 ^ 32`, for each of the nine policies, an NRU table starting with its hand below
`N` (hypothesis `hnru`; the constructor of `nru_table_t` does not initialise `_hand`):
`to_be_evicted()` returns and leaves `_table`, `_size`, `_keyIndex` and `_freeList`
unchanged; for lru, fifo and minw the whole table, policy state included, is unchanged;
the key it returns is the key of the valid entry that an insert of a new key evicts, both
when the insert is made instead of the call and when it is made right after the call; and
a second call returns the same key. -/
theorem C6_to_be_evicted_amended (pn : policy_name) (N hand0 : Nat) (ops : List table_op)
    (t : table_t) (k v : Nat) (pval : policy_value_t)
    (hN0 : 0 < N) (hN : N < UINT32_MOD) (hnru : pn = .nru → hand0 < N)
    (hrun : (table_t.new pn N hand0).run ops = some t)
    (hfull : t._freeList = []) (hk : t.lookup k = false) :
    ∃ key t1, t.to_be_evicted = some (key, t1) ∧
      t1._table = t._table ∧ t1._size = t._size ∧ t1._keyIndex = t._keyIndex ∧
      t1._freeList = t._freeList ∧
      (pn = .lru ∨ pn = .fifo ∨ pn = .minw → t1 = t) ∧
      (∃ e t2, t.insert k v pval = some (e, t2) ∧ e.valid = true ∧ e.key = key) ∧
      (∃ e t2, t1.insert k v pval = some (e, t2) ∧ e.valid = true ∧ e.key = key) ∧
      (∃ t2, t1.to_be_evicted = some (key, t2)) := by
  obtain ⟨t', hr, hwf, hname⟩ :=
    table_t.WF.run_name ops (table_t.WF_new pn N hand0 hN0 hN hnru)
  rw [hrun] at hr
  cases hr
  have hname : t.policy.name = pn := by
    rw [hname]; exact policy_new_name pn N hand0
  obtain ⟨hN0', hN', hb, hp⟩ := hwf
  have hkf := (table_t.lookup_false_iff hb k).1 hk
  have hfullv := hb.full_of_nil hfull
  obtain ⟨i, p1, hg, hi, hinv1, _⟩ := policy_victim_ok hN0 hN hp hfullv hfullv
  obtain ⟨e, he, hv⟩ := hfullv i hi
  obtain ⟨p2, hg2⟩ := victim_idem hg
  have hwf1 : table_t.WF N { t with policy := p1 } :=
    ⟨hN0, hN, ⟨hb.size, hb.len, hb.idx, hb.free_nodup, hb.free_iff, hb.key_iff⟩, hinv1⟩
  have hpeek : t.to_be_evicted = some (e.key, { t with policy := p1 }) := by
    simp [table_t.to_be_evicted, hb.size, hg, he]
  refine ⟨e.key, { t with policy := p1 }, hpeek, rfl, rfl, rfl, rfl, ?_, ?_, ?_, ?_⟩
  · intro hpn
    have hp1 : p1 = t.policy := victim_pure (by rw [hname]; exact hpn) hg
    rw [hp1]
  · obtain ⟨i', p1', _, e', hg', _, _, he', hv', _, hins, _⟩ :=
      table_t.insert_evict ⟨hN0, hN, hb, hp⟩ v pval hkf hfull
    rw [hg] at hg'
    cases hg'
    rw [he] at he'
    cases he'
    exact ⟨e, _, hins, hv, rfl⟩
  · obtain ⟨i', p1', _, e', hg', _, _, he', hv', _, hins, _⟩ :=
      table_t.insert_evict hwf1 v pval hkf hfull
    have hg'' : GetReplacementIndex p1 N t._table = some (i', p1') := hg'
    rw [hg2] at hg''
    cases hg''
    have he'' : t._table[i]? = some e' := he'
    rw [he] at he''
    cases he''
    exact ⟨e, _, hins, hv, rfl⟩
  · exact ⟨{ t with policy := p2 }, by
      simp [table_t.to_be_evicted, hb.size, hg2, he]⟩

/-- Witness for C6 (amended): a full SRRIP table of capacity 2. -/
theorem C6_to_be_evicted_amended_witness :
    ∃ key t1,
      table_t.to_be_evicted
        { _table := [entry.full 0 1 10, entry.full 1 2 20], _size := 2,
          _keyIndex := [(1, 0), (2, 1)], _freeList := [],
          policy := .srrip [⟨1, 7⟩, ⟨1, 7⟩] } = some (key, t1) ∧
      t1._table = [entry.full 0 1 10, entry.full 1 2 20] ∧
      (∃ e t2, t1.insert 3 30 .POLICY_HIGH = some (e, t2) ∧ e.valid = true ∧ e.key = key) ∧
      (∃ t2, t1.to_be_evicted = some (key, t2)) := by
  obtain ⟨key, t1, h1, h2, _, _, _, _, _, h3, h4⟩ :=
    C6_to_be_evicted_amended .srrip 2 0
      [.insert 1 10 .POLICY_HIGH, .insert 2 20 .POLICY_HIGH]
      { _table := [entry.full 0 1 10, entry.full 1 2 20], _size := 2,
        _keyIndex := [(1, 0), (2, 1)], _freeList := [],
        policy := .srrip [⟨1, 7⟩, ⟨1, 7⟩] }
      3 30 .POLICY_HIGH (by decide) (by decide) (by intro h; cases h) (by decide) rfl
      (by decide)
  exact ⟨key, t1, h1, h2, h3, h4⟩

/-! ## DRRIP scenario -/

theorem table_t.run_append (ops1 ops2 : List table_op) :
    ∀ (t : table_t), t.run (ops1 ++ ops2) = (t.run ops1).bind (fun t1 => t1.run ops2) := by
  induction ops1 with
  | nil => intro t; rfl
  | cons op ops ih =>
    intro t
    rw [List.cons_append]
    simp only [table_t.run]
    rcases t.step op with _ | r
    · rfl
    · simp only [Option.some_bind]
      exact ih _

theorem rrip_scan_none_of : ∀ (l : List saturating_counter),
    (∀ c ∈ l, c._value ≠ 0) → rrip_scan l = none := by
  intro l
  induction l with
  | nil => intro _; rfl
  | cons c rest ih =>
    intro h
    simp [rrip_scan, h c (List.mem_cons_self _ _),
      ih (fun x hx => h x (List.mem_cons_of_mem _ hx))]

theorem rrip_scan_first : ∀ (l : List saturating_counter) (j : Nat),
    (∃ c, l[j]? = some c ∧ c._value = 0) →
    (∀ i, i < j → ∃ c, l[i]? = some c ∧ c._value ≠ 0) → rrip_scan l = some j := by
  intro l
  induction l with
  | nil => intro j h _; obtain ⟨c, hc, _⟩ := h; simp at hc
  | cons c rest ih =>
    intro j hj hlt
    cases j with
    | zero =>
      obtain ⟨c0, hc0, hv⟩ := hj
      simp only [List.getElem?_cons_zero, Option.some.injEq] at hc0
      subst hc0
      simp [rrip_scan, hv]
    | succ j =>
      obtain ⟨c0, hc0, hv0⟩ := hlt 0 (by omega)
      simp only [List.getElem?_cons_zero, Option.some.injEq] at hc0
      subst hc0
      have := ih j (by simpa using hj) (fun i hi => by
        have := hlt (i + 1) (by omega)
        simpa using this)
      simp [rrip_scan, hv0, this]

/-- The DRRIP victim when every counter is at least 1 and some counter is exactly 1: one
ageing round, then the first slot that has reached 0. -/
theorem drrip_victim_after_ageing (rr : List saturating_counter) (c : cyclic_pointer)
    (N : Nat) (tbl : List entry) (j : Nat)
    (hall : ∀ x ∈ rr, 1 ≤ x._value)
    (hj : ∃ x, rr[j]? = some x ∧ x._value = 1)
    (hlt : ∀ i, i < j → ∃ x, rr[i]? = some x ∧ 2 ≤ x._value) :
    GetReplacementIndex (.drrip rr c) N tbl =
      some (j, .drrip (rr.map (fun x => x.decrement)) c.increment) := by
  obtain ⟨xj, hxj, hvj⟩ := hj
  have hmem : xj ∈ rr := List.mem_iff_getElem?.2 ⟨j, hxj⟩
  have hmax : 1 ≤ (rr.map (fun c => c._value)).foldr max 0 := by
    have := le_foldr_max (rr.map (fun c => c._value)) xj._value
      (List.mem_map.2 ⟨xj, hmem, rfl⟩)
    omega
  obtain ⟨f, hf⟩ : ∃ f, rrip_fuel rr = f + 2 :=
    ⟨(rr.map (fun c => c._value)).foldr max 0 - 1, by unfold rrip_fuel; omega⟩
  have h1 : rrip_scan rr = none :=
    rrip_scan_none_of rr (fun x hx => by have := hall x hx; omega)
  have h2 : rrip_scan (rr.map (fun x => x.decrement)) = some j := by
    apply rrip_scan_first
    · refine ⟨xj.decrement, by simp [hxj], ?_⟩
      simp [saturating_counter.decrement, hvj]
    · intro i hi
      obtain ⟨x, hx, hv⟩ := hlt i hi
      refine ⟨x.decrement, by simp [hx], ?_⟩
      simp only [saturating_counter.decrement]
      split
      · show x._value - 1 ≠ 0
        omega
      · omega
  simp only [GetReplacementIndex]
  rw [hf, rrip_loop, h1]
  simp only
  rw [rrip_loop, h2]
  rfl

theorem drrip_fill (N hand0 : Nat) (keys vals : Nat → Nat) (hN0 : 0 < N)
    (hN : N < UINT32_MOD) (hinj : ∀ i j, i < N → j < N → keys i = keys j → i = j) :
    ∀ m, m ≤ N → ∃ t rr,
      (table_t.new .drrip N hand0).run
        ((List.range m).map (fun i => table_op.insert (keys i) (vals i) .POLICY_HIGH)) =
          some t ∧
      t.WF N ∧ t._freeList = List.range' m (N - m) ∧ t.policy = .drrip rr ⟨0, 67⟩ ∧
      (∀ i, i < m → t._table[i]? = some (entry.full i (keys i) (vals i)) ∧
        rr[i]? = some ⟨1, 7⟩) ∧
      (∀ i, m ≤ i → i < N → t._table[i]? = some entry.empty ∧ rr[i]? = some ⟨0, 7⟩) := by
  intro m
  induction m with
  | zero =>
    intro _
    refine ⟨table_t.new .drrip N hand0, List.replicate N ⟨0, 7⟩, rfl,
      table_t.WF_new .drrip N hand0 hN0 hN (fun h => by cases h), ?_, rfl, ?_, ?_⟩
    · simp [table_t.new, List.range_eq_range']
    · intro i hi; omega
    · intro i _ hi
      simp [table_t.new, List.getElem?_replicate, hi]
  | succ m ih =>
    intro hm
    obtain ⟨t, rr, hrun, hwf, hfree, hpol, hlo, hhi⟩ := ih (by omega)
    have hb := hwf.2.2.1
    have hfree' : t._freeList = m :: List.range' (m + 1) (N - (m + 1)) := by
      rw [hfree]
      have : N - m = (N - (m + 1)) + 1 := by omega
      rw [this, List.range'_succ]
    have hk : map_find t._keyIndex (keys m) = none := by
      rcases h : map_find t._keyIndex (keys m) with _ | i
      · rfl
      · exfalso
        obtain ⟨e, he, hv, hkey⟩ := (hb.key_iff (keys m) i).1 h
        have hi : i < N := hb.lt_of_get he
        by_cases him : i < m
        · rw [(hlo i him).1] at he
          cases he
          have := hinj i m hi (by omega) hkey
          omega
        · rw [(hhi i (by omega) hi).1] at he
          cases he
          cases hv
    obtain ⟨p1, hp1, _, _, hins, hwf1⟩ := table_t.insert_free hwf (vals m) .POLICY_HIGH hk hfree'
    have hp1' : p1 = .drrip (rr.modify (fun c => drrip_insert c ⟨0, 67⟩ .POLICY_HIGH) m)
        ⟨0, 67⟩ := by
      rw [hpol] at hp1
      simp only [UpdateReplacementPolicy, Option.some.injEq] at hp1
      exact hp1.symm
    have hmlen : m < t._table.length := by rw [hb.len]; omega
    refine ⟨_, _, ?_, hwf1, rfl, hp1', ?_, ?_⟩
    · rw [List.range_succ, List.map_append, table_t.run_append, hrun]
      simp only [Option.some_bind, List.map_cons, List.map_nil, table_t.run, table_t.step,
        hins]
    · intro i hi
      by_cases him : i = m
      · subst him
        refine ⟨by simp [hmlen], ?_⟩
        rw [List.getElem?_modify, (hhi i (le_refl _) (by omega)).2]
        simp [drrip_insert, saturating_counter.set]
      · have him' : i < m := by omega
        refine ⟨by simp [List.getElem?_set, Ne.symm him, (hlo i him').1], ?_⟩
        rw [List.getElem?_modify, (hlo i him').2]
        simp [Ne.symm him]
    · intro i hmi hi
      have him : m ≠ i := by omega
      refine ⟨by simp [List.getElem?_set, him, (hhi i (by omega) hi).1], ?_⟩
      rw [List.getElem?_modify, (hhi i (by omega) hi).2]
      simp [him]

theorem drrip_reads (N : Nat) (keys vals : Nat → Nat) (rs : List Nat) :
    ∀ (t : table_t) (rr : List saturating_counter) (D : Nat → Prop), t.WF N →
      t._freeList = [] → t.policy = .drrip rr ⟨0, 67⟩ →
      (∀ i, i < N → t._table[i]? = some (entry.full i (keys i) (vals i))) →
      (∀ i, i < N → ∃ x, rr[i]? = some ⟨x, 7⟩ ∧ 1 ≤ x ∧ (D i → 2 ≤ x) ∧ (¬ D i → x = 1)) →
      (∀ r ∈ rs, r < N) →
      ∃ t1 rr1, t.run (rs.map (fun r => table_op.read (keys r) .POLICY_HIGH)) = some t1 ∧
        t1.WF N ∧ t1._freeList = [] ∧ t1.policy = .drrip rr1 ⟨0, 67⟩ ∧
        (∀ i, i < N → t1._table[i]? = some (entry.full i (keys i) (vals i))) ∧
        (∀ i, i < N → ∃ x, rr1[i]? = some ⟨x, 7⟩ ∧ 1 ≤ x ∧
          ((D i ∨ i ∈ rs) → 2 ≤ x) ∧ (¬ (D i ∨ i ∈ rs) → x = 1)) := by
  induction rs with
  | nil =>
    intro t rr D hwf hf hpol htab hrr _
    refine ⟨t, rr, rfl, hwf, hf, hpol, htab, ?_⟩
    intro i hi
    obtain ⟨x, h1, h2, h3, h4⟩ := hrr i hi
    exact ⟨x, h1, h2, fun h => h3 (by simpa using h), fun h => h4 (by simpa using h)⟩
  | cons r rs ih =>
    intro t rr D hwf hf hpol htab hrr hrs
    have hr : r < N := hrs r (List.mem_cons_self _ _)
    have hb := hwf.2.2.1
    have hk : map_find t._keyIndex (keys r) = some r :=
      (hb.key_iff (keys r) r).2 ⟨_, htab r hr, rfl, rfl⟩
    obtain ⟨p1, e, hp1, _, _, _, hread, hwf1⟩ := table_t.read_hit hwf .POLICY_HIGH hk
    have hp1' : p1 = .drrip (rr.modify (fun c => drrip_promote c ⟨0, 67⟩ .POLICY_HIGH) r)
        ⟨0, 67⟩ := by
      rw [hpol] at hp1
      simp only [UpdateReplacementPolicy, Option.some.injEq] at hp1
      exact hp1.symm
    obtain ⟨t1, rr1, hrun, h1, h2, h3, h4, h5⟩ := ih { t with policy := p1 }
      (rr.modify (fun c => drrip_promote c ⟨0, 67⟩ .POLICY_HIGH) r)
      (fun i => D i ∨ i = r) hwf1 hf hp1' htab
      (by
        intro i hi
        obtain ⟨x, hx, hx1, hx2, hx3⟩ := hrr i hi
        by_cases hir : i = r
        · subst hir
          by_cases hx7 : x < 7
          · refine ⟨x + 1, ?_, by omega, fun _ => by omega, fun h => absurd (Or.inr rfl) h⟩
            rw [List.getElem?_modify, hx]
            simp [drrip_promote, saturating_counter.increment, hx7]
          · refine ⟨x, ?_, hx1, fun _ => by omega, fun h => absurd (Or.inr rfl) h⟩
            rw [List.getElem?_modify, hx]
            simp [drrip_promote, saturating_counter.increment, hx7]
        · refine ⟨x, ?_, hx1, ?_, ?_⟩
          · rw [List.getElem?_modify, hx]; simp [Ne.symm hir]
          · rintro (h | h)
            · exact hx2 h
            · exact absurd h hir
          · intro h; exact hx3 (fun hd => h (Or.inl hd)))
      (fun x hx => hrs x (List.mem_cons_of_mem _ hx))
    refine ⟨t1, rr1, ?_, h1, h2, h3, h4, ?_⟩
    · simp only [List.map_cons, table_t.run, table_t.step, hread, Option.some_bind]
      exact hrun
    · intro i hi
      obtain ⟨x, hx, hx1, hx2, hx3⟩ := h5 i hi
      refine ⟨x, hx, hx1, ?_, ?_⟩
      · intro h; apply hx2
        simp only [List.mem_cons] at h
        tauto
      · intro h; apply hx3
        simp only [List.mem_cons] at h
        tauto

/-- **C7.** DRRIP insertion scenario, generalised. A DRRIP table of capacity
`1 ≤ N < 2 ^ 32` is filled from empty by `N` inserts of distinct keys with
`pval = High`; the `i`-th key occupies slot `i`. After hit reads with `pval = High` of the
keys of the slots listed in `rs` (any order, repetitions allowed), the victim index is
the lowest-numbered slot `j0` that is not in `rs`, and an insert of a new key evicts the
entry of that slot. With `rs = [0]` and `N ≥ 2` the victim is slot 1. -/
theorem C7_drrip_scenario (N hand0 : Nat) (keys vals : Nat → Nat) (rs : List Nat)
    (j0 : Nat) (hN0 : 0 < N) (hN : N < UINT32_MOD)
    (hinj : ∀ i j, i < N → j < N → keys i = keys j → i = j)
    (hrs : ∀ r ∈ rs, r < N) (hj0 : j0 < N) (hnot : j0 ∉ rs)
    (hmin : ∀ i, i < j0 → i ∈ rs) :
    ∃ tf t p1,
      (table_t.new .drrip N hand0).run
        ((List.range N).map (fun i => table_op.insert (keys i) (vals i) .POLICY_HIGH)) =
          some tf ∧
      (∀ i, i < N → tf._table[i]? = some (entry.full i (keys i) (vals i))) ∧
      tf.run (rs.map (fun r => table_op.read (keys r) .POLICY_HIGH)) = some t ∧
      GetReplacementIndex t.policy t._size t._table = some (j0, p1) ∧
      ∀ k v pval, t.lookup k = false →
        ∃ t2, t.insert k v pval = some (entry.full j0 (keys j0) (vals j0), t2) := by
  obtain ⟨tf, rr, hfill, hwf, hfree, hpol, hlo, _⟩ :=
    drrip_fill N hand0 keys vals hN0 hN hinj N (le_refl _)
  have hfree' : tf._freeList = [] := by rw [hfree]; simp
  obtain ⟨t, rr1, hrun, hwf1, hf1, hpol1, htab1, hrr1⟩ :=
    drrip_reads N keys vals rs tf rr (fun _ => False) hwf hfree' hpol
      (fun i hi => (hlo i hi).1)
      (fun i hi => ⟨1, (hlo i hi).2, le_refl _, fun h => h.elim, fun _ => rfl⟩) hrs
  have hb1 := hwf1.2.2.1
  have hlen : rr1.length = N := by
    have := hwf1.2.2.2
    rw [hpol1] at this
    exact this.1
  have hg : GetReplacementIndex t.policy t._size t._table =
      some (j0, .drrip (rr1.map (fun x => x.decrement))
        (cyclic_pointer.increment ⟨0, 67⟩)) := by
    rw [hpol1]
    apply drrip_victim_after_ageing
    · intro x hx
      obtain ⟨i, hi⟩ := List.mem_iff_getElem?.1 hx
      have hiN : i < N := by
        by_contra h
        rw [List.getElem?_eq_none (by omega)] at hi
        cases hi
      obtain ⟨y, hy, hy1, _⟩ := hrr1 i hiN
      rw [hi] at hy
      cases hy
      exact hy1
    · obtain ⟨y, hy, _, _, hy3⟩ := hrr1 j0 hj0
      exact ⟨_, hy, hy3 (by simpa using hnot)⟩
    · intro i hi
      obtain ⟨y, hy, _, hy2, _⟩ := hrr1 i (by omega)
      exact ⟨_, hy, hy2 (Or.inr (hmin i hi))⟩
  refine ⟨tf, t, _, hfill, fun i hi => (hlo i hi).1, hrun, hg, ?_⟩
  intro k v pval hk
  obtain ⟨i, p1, p2, e, hg', _, _, he, _, _, hins, _⟩ :=
    table_t.insert_evict hwf1 v pval ((table_t.lookup_false_iff hb1 k).1 hk) hf1
  rw [hb1.size] at hg
  rw [hg] at hg'
  cases hg'
  rw [htab1 j0 hj0] at he
  cases he
  exact ⟨_, hins⟩

/-- Witness for C7: `N = 4`, keys 1 to 4, one read of the key in slot 0; the victim is
slot 1. -/
theorem C7_drrip_scenario_witness :
    ∃ tf t p1,
      (table_t.new .drrip 4 0).run
        ((List.range 4).map (fun i => table_op.insert (i + 1) (10 * i) .POLICY_HIGH)) =
          some tf ∧
      (∀ i, i < 4 → tf._table[i]? = some (entry.full i (i + 1) (10 * i))) ∧
      tf.run ([0].map (fun r => table_op.read (r + 1) .POLICY_HIGH)) = some t ∧
      GetReplacementIndex t.policy t._size t._table = some (1, p1) ∧
      ∀ k v pval, t.lookup k = false →
        ∃ t2, t.insert k v pval = some (entry.full 1 (1 + 1) (10 * 1), t2) :=
  C7_drrip_scenario 4 0 (fun i => i + 1) (fun i => 10 * i) [0] 1 (by decide) (by decide)
    (fun i j _ _ h => by simpa using h) (by decide) (by decide) (by decide)
    (fun i hi => by
      have : i = 0 := by omega
      simp [this])

namespace set_dueling_tagstore_t

theorem markLeader_keep {P : SetType → Prop} {type : List SetType} {cur : cyclic_pointer}
    {id : Nat} {pol : policy_value_t} {r : List SetType × cyclic_pointer}
    (h : markLeader type cur id pol = some r) (hP : ∀ ty ∈ type, P ty)
    (hnew : P ⟨true, id, pol⟩) :
    r.1.length = type.length ∧ r.2._size = cur._size ∧ ∀ ty ∈ r.1, P ty := by
  unfold markLeader at h
  rcases hg : type[cur._hand]? with _ | st
  · rw [hg] at h; cases h
  · rw [hg] at h
    by_cases hl : st.leader = true
    · simp [hl] at h
    · simp only [hl] at h
      simp only [Bool.false_eq_true, if_false, Option.some.injEq] at h
      subst h
      refine ⟨by simp, rfl, ?_⟩
      intro ty hty
      rcases List.mem_or_eq_of_mem_set hty with h1 | h1
      · exact hP ty h1
      · rw [h1]; exact hnew

theorem markApp_keep {P : SetType → Prop} (hnew : ∀ id pol, pol ≠ .POLICY_LOW → P ⟨true, id, pol⟩) :
    ∀ (count : Nat) (type : List SetType) (cur : cyclic_pointer) (id : Nat)
      (r : List SetType × cyclic_pointer),
      markApp count type cur id = some r → (∀ ty ∈ type, P ty) →
      r.1.length = type.length ∧ r.2._size = cur._size ∧ ∀ ty ∈ r.1, P ty := by
  intro count
  induction count with
  | zero =>
    intro type cur id r h hP
    simp only [markApp, Option.some.injEq] at h
    subst h
    exact ⟨rfl, rfl, hP⟩
  | succ c ih =>
    intro type cur id r h hP
    simp only [markApp] at h
    rcases h1 : markLeader type cur id .POLICY_HIGH with _ | r1
    · rw [h1] at h; cases h
    · rw [h1] at h
      simp only [Option.some_bind] at h
      rcases h2 : markLeader r1.1 r1.2 id .POLICY_BIMODAL with _ | r2
      · rw [h2] at h; cases h
      · rw [h2] at h
        simp only [Option.some_bind] at h
        obtain ⟨a1, a2, a3⟩ := markLeader_keep h1 hP (hnew _ _ (by decide))
        obtain ⟨b1, b2, b3⟩ := markLeader_keep h2 a3 (hnew _ _ (by decide))
        obtain ⟨c1, c2, c3⟩ := ih _ _ _ _ h b3
        exact ⟨by omega, by rw [c2, b2, a2], c3⟩

theorem markAll_keep {P : SetType → Prop} (hnew : ∀ id pol, pol ≠ .POLICY_LOW → P ⟨true, id, pol⟩)
    (D : Nat) :
    ∀ (ids : List Nat) (type : List SetType) (cur : cyclic_pointer)
      (r : List SetType × cyclic_pointer),
      markAll ids D type cur = some r → (∀ ty ∈ type, P ty) →
      r.1.length = type.length ∧ r.2._size = cur._size ∧ ∀ ty ∈ r.1, P ty := by
  intro ids
  induction ids with
  | nil =>
    intro type cur r h hP
    simp only [markAll, Option.some.injEq] at h
    subst h
    exact ⟨rfl, rfl, hP⟩
  | cons id rest ih =>
    intro type cur r h hP
    simp only [markAll] at h
    rcases h1 : markApp D type cur id with _ | r1
    · rw [h1] at h; cases h
    · rw [h1] at h
      simp only [Option.some_bind] at h
      obtain ⟨a1, a2, a3⟩ := markApp_keep hnew D _ _ _ _ h1 hP
      obtain ⟨c1, c2, c3⟩ := ih _ _ _ h a3
      exact ⟨by omega, by rw [c2, a2], c3⟩

theorem WF_of_new {A n N D maxPSEL startVal : Nat} {policy : String} {p : policy_name}
    {nruHand : Nat → Nat} {ts0 : set_dueling_tagstore_t}
    (hp : policy_name.ofString policy = some p) (hN0 : 0 < N) (hN : N < UINT32_MOD)
    (hh : ∀ i, i < n → p = .nru → nruHand i < N)
    (h0 : SetTagStoreParameters A n N policy D maxPSEL startVal nruHand = some ts0) :
    ts0.WF A n N maxPSEL startVal ts0._type ∧
      ∀ ty ∈ ts0._type, ty.policy ≠ .POLICY_LOW := by
  obtain ⟨ss, h1, h2, h3⟩ := generic_tagstore_t.makeSets_ok nruHand hp hN0 hN (List.range n)
    (fun i hi => hh i (List.mem_range.1 hi))
  unfold SetTagStoreParameters at h0
  rw [h1] at h0
  simp only [Option.some_bind] at h0
  by_cases hc : (2 * D * A) % UINT32_MOD > n
  · simp [hc] at h0
  · simp only [hc, if_false] at h0
    rcases hm : markAll (List.range A) D (List.replicate n SetType.new)
        (cyclic_pointer.new n 0) with _ | r
    · rw [hm] at h0; cases h0
    · rw [hm] at h0
      simp only [Option.map_some', Option.some.injEq] at h0
      subst h0
      obtain ⟨a1, _, a3⟩ := markAll_keep (P := fun ty => ty.policy ≠ .POLICY_LOW)
        (fun _ _ h => h) D _ _ _ _ hm
        (fun ty hty => by rw [List.eq_of_mem_replicate hty]; decide)
      refine ⟨⟨rfl, rfl, rfl, by simpa using a1, by simp, ?_, rfl, by simpa using h2, h3⟩, a3⟩
      intro c hc
      rw [List.eq_of_mem_replicate hc]
      exact ⟨rfl, le_max_left _ _⟩

end set_dueling_tagstore_t
namespace set_dueling_tagstore_t

theorem counter_increment_ok {M S : Nat} {c : saturating_counter}
    (h : c._max = M ∧ c._value ≤ max S M) :
    c.increment._max = M ∧ c.increment._value ≤ max S M := by
  unfold saturating_counter.increment
  by_cases hc : c._value < c._max
  · simp only [hc, if_true]
    refine ⟨h.1, ?_⟩
    have : c._value + 1 ≤ M := by rw [← h.1]; exact hc
    exact le_trans this (le_max_right _ _)
  · simp only [hc, if_false]; exact h

theorem counter_decrement_ok {M S : Nat} {c : saturating_counter}
    (h : c._max = M ∧ c._value ≤ max S M) :
    c.decrement._max = M ∧ c.decrement._value ≤ max S M := by
  unfold saturating_counter.decrement
  by_cases hc : c._value > 0
  · simp only [hc, if_true]
    exact ⟨h.1, le_trans (Nat.sub_le _ _) h.2⟩
  · simp only [hc, if_false]; exact h

theorem WF_sets {A n N M S : Nat} {type : List SetType} {ts : set_dueling_tagstore_t}
    (h : ts.WF A n N M S type) {psel : List saturating_counter}
    (hl : psel.length = A) (hg : ∀ c ∈ psel, c._max = M ∧ c._value ≤ max S M)
    {i : Nat} {s1 : table_t} (hs : s1.WF N) :
    WF A n N M S type { ts with _psel := psel, _sets := ts._sets.set i s1 } := by
  obtain ⟨h1, h2, h3, h4, h5, h6, h7, h8, h9⟩ := h
  refine ⟨h1, h2, h3, h4, hl, hg, h7, by simpa using h8, ?_⟩
  intro s hs1
  rcases List.mem_or_eq_of_mem_set hs1 with e | e
  · exact h9 s e
  · rw [e]; exact hs

theorem WF.get_set {A n N M S : Nat} {type : List SetType} {ts : set_dueling_tagstore_t}
    (h : ts.WF A n N M S type) (hn : 0 < n) (key : Nat) :
    ∃ s0, ts._sets[ts.index key]? = some s0 ∧ s0.WF N ∧ ts.index key = key % n := by
  obtain ⟨h1, h2, h3, h4, h5, h6, h7, h8, h9⟩ := h
  have hi : ts.index key = key % n := by unfold index; rw [h1]
  have hlt : key % n < ts._sets.length := by rw [h8]; exact Nat.mod_lt _ hn
  rw [hi]
  exact ⟨ts._sets[key % n], List.getElem?_eq_getElem hlt, h9 _ (List.getElem_mem _), rfl⟩

theorem WF.insertWith_some {A n N M S : Nat} {type : List SetType}
    {ts : set_dueling_tagstore_t} (h : ts.WF A n N M S type)
    {psel : List saturating_counter} (hl : psel.length = A)
    (hg : ∀ c ∈ psel, c._max = M ∧ c._value ≤ max S M) {key value : Nat}
    {pv : policy_value_t} {r : entry × set_dueling_tagstore_t}
    (hr : ts.insertWith psel key value pv = some r) : WF A n N M S type r.2 := by
  unfold insertWith at hr
  rcases hs : ts._sets[ts.index key]? with _ | s0
  · rw [hs] at hr; cases hr
  · rw [hs] at hr
    simp only [Option.some_bind] at hr
    have hw : s0.WF N := h.2.2.2.2.2.2.2.2 s0 (List.mem_iff_getElem?.2 ⟨_, hs⟩)
    obtain ⟨e, s1, h1, h2⟩ := hw.insert key value pv
    rw [h1] at hr
    simp only [Option.map_some', Option.some.injEq] at hr
    subst hr
    exact WF_sets h hl hg h2

theorem WF.route_some {A n N M S : Nat} {type : List SetType}
    {ts : set_dueling_tagstore_t} (h : ts.WF A n N M S type) {key : Nat} {op : table_op}
    {r : entry × set_dueling_tagstore_t}
    (hr : ts.route key op = some r) :
    WF A n N M S type r.2 ∧ r.2._psel = ts._psel := by
  unfold route at hr
  rcases hs : ts._sets[ts.index key]? with _ | s0
  · rw [hs] at hr; cases hr
  · rw [hs] at hr
    simp only [Option.some_bind] at hr
    have hw : s0.WF N := h.2.2.2.2.2.2.2.2 s0 (List.mem_iff_getElem?.2 ⟨_, hs⟩)
    obtain ⟨e, s1, h1, h2⟩ := hw.step op
    rw [h1] at hr
    simp only [Option.map_some', Option.some.injEq] at hr
    subst hr
    exact ⟨WF_sets h h.2.2.2.2.1 h.2.2.2.2.2.1 h2, rfl⟩

theorem insertWith_psel {ts : set_dueling_tagstore_t} {psel : List saturating_counter}
    {key value : Nat} {pv : policy_value_t} {r : entry × set_dueling_tagstore_t}
    (hr : ts.insertWith psel key value pv = some r) : r.2._psel = psel := by
  unfold insertWith at hr
  rcases hs : ts._sets[ts.index key]? with _ | s0
  · rw [hs] at hr; cases hr
  · rw [hs] at hr
    simp only [Option.some_bind] at hr
    rcases hi : s0.insert key value pv with _ | r1
    · rw [hi] at hr; cases hr
    · rw [hi] at hr
      simp only [Option.map_some', Option.some.injEq] at hr
      subst hr
      rfl

end set_dueling_tagstore_t
namespace set_dueling_tagstore_t

theorem WF.sd_call {A n N M S : Nat} {type : List SetType} {ts : set_dueling_tagstore_t}
    (h : ts.WF A n N M S type) {op : sd_op} {r : entry × set_dueling_tagstore_t}
    (hr : ts.call op = some r) :
    WF A n N M S type r.2 ∧ ∀ b, op.app ≠ some b → r.2._psel[b]? = ts._psel[b]? := by
  have hlen := h.2.2.2.2.1
  have hgood := h.2.2.2.2.2.1
  cases op with
  | insert a k v u p0 p1 =>
    simp only [set_dueling_tagstore_t.call, insert] at hr
    rcases hl : ts.leaderFor (ts.index k) a u with _ | l
    · rw [hl] at hr; cases hr
    · rw [hl] at hr
      simp only [Option.some_bind] at hr
      rcases hc : ts._psel[a]? with _ | c
      · rw [hc] at hr; cases hr
      · rw [hc] at hr
        simp only [Option.some_bind] at hr
        have hcg := hgood c (List.mem_iff_getElem?.2 ⟨_, hc⟩)
        have hset : ∀ c1 : saturating_counter, (c1._max = M ∧ c1._value ≤ max S M) →
            (ts._psel.set a c1).length = A ∧
              ∀ x ∈ ts._psel.set a c1, x._max = M ∧ x._value ≤ max S M := by
          intro c1 hc1
          refine ⟨by simpa using hlen, ?_⟩
          intro x hx
          rcases List.mem_or_eq_of_mem_set hx with e | e
          · exact hgood x e
          · rw [e]; exact hc1
        have hframe : ∀ (c1 : saturating_counter) (b : Nat), sd_op.app (.insert a k v u p0 p1) ≠ some b →
            (ts._psel.set a c1)[b]? = ts._psel[b]? := by
          intro c1 b hb
          have hab : a ≠ b := fun e => hb (by rw [e]; rfl)
          exact List.getElem?_set_ne hab
        cases l with
        | some pol =>
          simp only at hr
          by_cases hpol : pol = .POLICY_HIGH
          · simp only [hpol, if_true] at hr
            obtain ⟨a1, a2⟩ := hset _ (counter_decrement_ok hcg)
            refine ⟨h.insertWith_some a1 a2 hr, ?_⟩
            intro b hb
            rw [insertWith_psel hr]; exact hframe _ b hb
          · simp only [hpol, if_false] at hr
            obtain ⟨a1, a2⟩ := hset _ (counter_increment_ok hcg)
            refine ⟨h.insertWith_some a1 a2 hr, ?_⟩
            intro b hb
            rw [insertWith_psel hr]; exact hframe _ b hb
        | none =>
          simp only at hr
          by_cases hthr : c._value > ts._threshold
          · simp only [hthr, if_true] at hr
            exact ⟨h.insertWith_some hlen hgood hr, fun b _ => by rw [insertWith_psel hr]⟩
          · simp only [hthr, if_false] at hr
            exact ⟨h.insertWith_some hlen hgood hr, fun b _ => by rw [insertWith_psel hr]⟩
  | read k pval =>
    obtain ⟨a1, a2⟩ := h.route_some (show ts.route k (.read k pval) = some r from hr)
    exact ⟨a1, fun b _ => by rw [a2]⟩
  | update k v pval =>
    obtain ⟨a1, a2⟩ := h.route_some (show ts.route k (.update k v pval) = some r from hr)
    exact ⟨a1, fun b _ => by rw [a2]⟩
  | silentupdate k pval =>
    obtain ⟨a1, a2⟩ := h.route_some (show ts.route k (.silentupdate k pval) = some r from hr)
    exact ⟨a1, fun b _ => by rw [a2]⟩
  | invalidate k =>
    obtain ⟨a1, a2⟩ := h.route_some (show ts.route k (.invalidate k) = some r from hr)
    exact ⟨a1, fun b _ => by rw [a2]⟩

theorem WF.sd_run {A n N M S : Nat} {type : List SetType} :
    ∀ (ops : List sd_op) (ts ts1 : set_dueling_tagstore_t), ts.WF A n N M S type →
      ts.run ops = some ts1 → ts1.WF A n N M S type := by
  intro ops
  induction ops with
  | nil =>
    intro ts ts1 h hr
    simp only [set_dueling_tagstore_t.run, Option.some.injEq] at hr
    rw [← hr]; exact h
  | cons op rest ih =>
    intro ts ts1 h hr
    simp only [set_dueling_tagstore_t.run] at hr
    rcases hc : ts.call op with _ | r
    · rw [hc] at hr; cases hr
    · rw [hc] at hr
      simp only [Option.some_bind] at hr
      exact ih _ _ (h.sd_call hc).1 hr

theorem WF.insertWith_ok {A n N M S : Nat} {type : List SetType}
    {ts : set_dueling_tagstore_t} (h : ts.WF A n N M S type) (hn : 0 < n)
    (psel : List saturating_counter) (key value : Nat) (pv : policy_value_t) :
    ∃ s0 e s1, ts._sets[key % n]? = some s0 ∧ s0.insert key value pv = some (e, s1) ∧
      ts.insertWith psel key value pv =
        some (e, { ts with _psel := psel, _sets := ts._sets.set (key % n) s1 }) := by
  obtain ⟨s0, h1, h2, h3⟩ := h.get_set hn key
  obtain ⟨e, s1, h4, _⟩ := h2.insert key value pv
  refine ⟨s0, e, s1, by rw [← h3]; exact h1, h4, ?_⟩
  unfold insertWith
  rw [h1]
  simp only [Option.some_bind, h4, Option.map_some', h3]

end set_dueling_tagstore_t
namespace set_dueling_tagstore_t

theorem WF.get_type {A n N M S : Nat} {type : List SetType} {ts : set_dueling_tagstore_t}
    (h : ts.WF A n N M S type) (hn : 0 < n) (key : Nat) :
    ∃ ty, ts._type[key % n]? = some ty ∧ ty ∈ type := by
  obtain ⟨h1, h2, h3, h4, h5, h6, h7, h8, h9⟩ := h
  have hlt : key % n < ts._type.length := by rw [h3, h4]; exact Nat.mod_lt _ hn
  exact ⟨ts._type[key % n], List.getElem?_eq_getElem hlt, by rw [← h3]; exact List.getElem_mem _⟩

theorem WF.get_psel {A n N M S : Nat} {type : List SetType} {ts : set_dueling_tagstore_t}
    (h : ts.WF A n N M S type) {a : Nat} (ha : a < A) :
    ∃ c, ts._psel[a]? = some c ∧ c._max = M ∧ c._value ≤ max S M := by
  have hlt : a < ts._psel.length := by rw [h.2.2.2.2.1]; exact ha
  exact ⟨ts._psel[a], List.getElem?_eq_getElem hlt, h.2.2.2.2.2.1 _ (List.getElem_mem _)⟩

theorem WF.call_ok {A n N M S : Nat} {type : List SetType} {ts : set_dueling_tagstore_t}
    (h : ts.WF A n N M S type) (hn : 0 < n) (op : sd_op)
    (ha : ∀ a, op.app = some a → a < A) : ∃ r, ts.call op = some r := by
  have hroute : ∀ key top, ∃ r, ts.route key top = some r := by
    intro key top
    obtain ⟨s0, h1, h2, _⟩ := h.get_set hn key
    obtain ⟨e, s1, h4, _⟩ := h2.step top
    simp only [route, h1, Option.some_bind, h4, Option.map_some']
    exact ⟨_, rfl⟩
  cases op with
  | insert a k v u p0 p1 =>
    obtain ⟨ty, hty, _⟩ := h.get_type hn k
    obtain ⟨c, hc, _⟩ := h.get_psel (ha a rfl)
    have hi : ts.index k = k % n := by unfold index; rw [h.1]
    have hl : ∃ l, ts.leaderFor (ts.index k) a u = some l := by
      unfold leaderFor
      rw [hi, hty]
      by_cases hu : u = true
      · by_cases hc : ty.leader = true ∧ ty.appID = a
        · simp only [hu, if_true, hc, and_self]; exact ⟨_, rfl⟩
        · simp only [hu, if_true, hc, if_false]; exact ⟨_, rfl⟩
      · simp only [hu, Bool.false_eq_true, if_false]; exact ⟨_, rfl⟩
    obtain ⟨l, hl⟩ := hl
    simp only [set_dueling_tagstore_t.call, insert, hl, hc, Option.some_bind]
    cases l with
    | some pol =>
      by_cases hpol : pol = .POLICY_HIGH
      · obtain ⟨_, _, _, _, _, h3⟩ := h.insertWith_ok hn (ts._psel.set a c.decrement) k v p0
        simp only [hpol, if_true]; exact ⟨_, h3⟩
      · obtain ⟨_, _, _, _, _, h3⟩ := h.insertWith_ok hn (ts._psel.set a c.increment) k v p1
        simp only [hpol, if_false]; exact ⟨_, h3⟩
    | none =>
      by_cases hthr : c._value > ts._threshold
      · obtain ⟨_, _, _, _, _, h3⟩ := h.insertWith_ok hn ts._psel k v p0
        simp only [hthr, if_true]; exact ⟨_, h3⟩
      · obtain ⟨_, _, _, _, _, h3⟩ := h.insertWith_ok hn ts._psel k v p1
        simp only [hthr, if_false]; exact ⟨_, h3⟩
  | read k pval => exact hroute k _
  | update k v pval => exact hroute k _
  | silentupdate k pval => exact hroute k _
  | invalidate k => exact hroute k _

theorem WF.run_ok {A n N M S : Nat} {type : List SetType} (hn : 0 < n) :
    ∀ (ops : List sd_op) (ts : set_dueling_tagstore_t), ts.WF A n N M S type →
      (∀ op ∈ ops, ∀ a, op.app = some a → a < A) →
      ∃ ts1, ts.run ops = some ts1 ∧ ts1.WF A n N M S type := by
  intro ops
  induction ops with
  | nil => intro ts h _; exact ⟨ts, rfl, h⟩
  | cons op rest ih =>
    intro ts h ha
    obtain ⟨r, hr⟩ := h.call_ok hn op (ha op (List.mem_cons_self _ _))
    obtain ⟨ts1, h1, h2⟩ := ih r.2 (h.sd_call hr).1 (fun o ho => ha o (List.mem_cons_of_mem _ ho))
    exact ⟨ts1, by simp only [set_dueling_tagstore_t.run, hr, Option.some_bind, h1], h2⟩

theorem counter_decrement_eq (c : saturating_counter) :
    c.decrement = { c with _value := c._value - 1 } := by
  unfold saturating_counter.decrement
  by_cases hc : c._value > 0
  · simp only [hc, if_true]
  · simp only [hc, if_false]
    have : c._value = 0 := by omega
    cases c
    simp only at this
    subst this
    rfl

theorem counter_increment_eq (c : saturating_counter) :
    c.increment =
      { c with _value := if c._value < c._max then c._value + 1 else c._value } := by
  unfold saturating_counter.increment
  by_cases hc : c._value < c._max
  · simp only [hc, if_true]
  · simp only [hc, if_false]

theorem WF.insert_rule {A n N M S : Nat} {type : List SetType} {ts : set_dueling_tagstore_t}
    (h : ts.WF A n N M S type) (hn : 0 < n) {a : Nat} (ha : a < A) (key value : Nat) :
    ∃ ty c s0, ts._type[key % n]? = some ty ∧ ty ∈ type ∧ ts._psel[a]? = some c ∧
      c._max = M ∧ c._value ≤ max S M ∧ ts._sets[key % n]? = some s0 ∧
      (ty.leader = true ∧ ty.appID = a ∧ ty.policy = .POLICY_HIGH →
        ∃ e s1, s0.insert key value .POLICY_HIGH = some (e, s1) ∧
          ts.insert a key value true .POLICY_HIGH .POLICY_BIMODAL =
            some (e, { ts with
              _psel := ts._psel.set a { c with _value := c._value - 1 },
              _sets := ts._sets.set (key % n) s1 })) ∧
      (ty.leader = true ∧ ty.appID = a ∧ ty.policy ≠ .POLICY_HIGH →
        ∃ e s1, s0.insert key value .POLICY_BIMODAL = some (e, s1) ∧
          ts.insert a key value true .POLICY_HIGH .POLICY_BIMODAL =
            some (e, { ts with
              _psel := ts._psel.set a
                { c with _value := if c._value < M then c._value + 1 else c._value },
              _sets := ts._sets.set (key % n) s1 })) ∧
      (¬ (ty.leader = true ∧ ty.appID = a) →
        ∃ e s1,
          s0.insert key value
            (if c._value > M / 2 then .POLICY_HIGH else .POLICY_BIMODAL) = some (e, s1) ∧
          ts.insert a key value true .POLICY_HIGH .POLICY_BIMODAL =
            some (e, { ts with _sets := ts._sets.set (key % n) s1 })) := by
  obtain ⟨ty, hty, hmem⟩ := h.get_type hn key
  obtain ⟨c, hc, hcm, hcv⟩ := h.get_psel ha
  obtain ⟨s0, hs0, _, hi⟩ := h.get_set hn key
  have hthr : ts._threshold = M / 2 := h.2.2.2.2.2.2.1
  refine ⟨ty, c, s0, hty, hmem, hc, hcm, hcv, by rw [← hi]; exact hs0, ?_, ?_, ?_⟩
  · rintro ⟨h1, h2, h3⟩
    obtain ⟨s0b, e, s1, g1, g2, g3⟩ :=
      h.insertWith_ok hn (ts._psel.set a c.decrement) key value .POLICY_HIGH
    have : s0b = s0 := by
      rw [← hi, hs0] at g1; exact (Option.some.inj g1).symm
    subst this
    refine ⟨e, s1, g2, ?_⟩
    rw [← counter_decrement_eq, ← g3]
    simp only [insert, leaderFor, hi, hty, h1, h2, h3, hc, if_true, and_self,
      Option.some_bind]
  · rintro ⟨h1, h2, h3⟩
    obtain ⟨s0b, e, s1, g1, g2, g3⟩ :=
      h.insertWith_ok hn (ts._psel.set a c.increment) key value .POLICY_BIMODAL
    have : s0b = s0 := by
      rw [← hi, hs0] at g1; exact (Option.some.inj g1).symm
    subst this
    refine ⟨e, s1, g2, ?_⟩
    rw [← hcm, ← counter_increment_eq, ← g3]
    simp only [insert, leaderFor, hi, hty, h1, h2, h3, hc, if_true, and_self,
      Option.some_bind, if_false]
  · intro hnot
    by_cases hgt : c._value > M / 2
    · obtain ⟨s0b, e, s1, g1, g2, g3⟩ :=
        h.insertWith_ok hn ts._psel key value .POLICY_HIGH
      have : s0b = s0 := by
        rw [← hi, hs0] at g1; exact (Option.some.inj g1).symm
      subst this
      refine ⟨e, s1, by simp only [hgt, if_true]; exact g2, ?_⟩
      rw [show ({ ts with _sets := ts._sets.set (key % n) s1 } : set_dueling_tagstore_t) =
        { ts with _psel := ts._psel, _sets := ts._sets.set (key % n) s1 } from rfl, ← g3]
      simp only [insert, leaderFor, hi, hty, hnot, hc, if_true, if_false,
        Option.some_bind, hthr, hgt]
    · obtain ⟨s0b, e, s1, g1, g2, g3⟩ :=
        h.insertWith_ok hn ts._psel key value .POLICY_BIMODAL
      have : s0b = s0 := by
        rw [← hi, hs0] at g1; exact (Option.some.inj g1).symm
      subst this
      refine ⟨e, s1, by simp only [hgt, if_false]; exact g2, ?_⟩
      rw [show ({ ts with _sets := ts._sets.set (key % n) s1 } : set_dueling_tagstore_t) =
        { ts with _psel := ts._psel, _sets := ts._sets.set (key % n) s1 } from rfl, ← g3]
      simp only [insert, leaderFor, hi, hty, hnot, hc, if_true, if_false,
        Option.some_bind, hthr, hgt]

end set_dueling_tagstore_t

/-- **C8.** The set-dueling insert rule fails for a tag store whose sets use the policy
`nru`. One application, four sets of two ways, one pair of leader sets, `maxPSEL = 4`,
start value 2, and 7 in the uninitialised `_hand` of each `nru_table_t`. Set 0 is the
High leader of application 0. After the inserts of keys 0 and 4 (both in set 0, `PSEL[0]`
going from 2 to 0) the set is full, and `insert(0, 8, 80, true, High, Bimodal)` searches
a victim at `_referenced[7]`, outside the vector: the call has no defined result, so no
entry is inserted with High and there is no `PSEL[0]` afterwards. With `_hand = 0` the
call returns, evicts key 0 and leaves `PSEL[0]` at 0. -/
theorem C8_nru_set_dueling_insert_undefined :
    ∃ ts0 ts,
      set_dueling_tagstore_t.SetTagStoreParameters 1 4 2 "nru" 1 4 2 (fun _ => 7) =
        some ts0 ∧
      ts0.run [.insert 0 0 10 true .POLICY_HIGH .POLICY_BIMODAL,
        .insert 0 4 40 true .POLICY_HIGH .POLICY_BIMODAL] = some ts ∧
      ts._type[8 % 4]? = some ⟨true, 0, .POLICY_HIGH⟩ ∧
      ts._psel.map (fun c => c._value) = [0] ∧
      ts.insert 0 8 80 true .POLICY_HIGH .POLICY_BIMODAL = none ∧
      ((set_dueling_tagstore_t.SetTagStoreParameters 1 4 2 "nru" 1 4 2 (fun _ => 0)).bind
        (fun z0 =>
          (z0.run [.insert 0 0 10 true .POLICY_HIGH .POLICY_BIMODAL,
            .insert 0 4 40 true .POLICY_HIGH .POLICY_BIMODAL]).bind (fun z =>
            (z.insert 0 8 80 true .POLICY_HIGH .POLICY_BIMODAL).map (fun r =>
              (r.1.key, r.2._psel.map (fun c => c._value)))))) = some (0, [0]) := by
  refine ⟨_, _, rfl, rfl, ?_, ?_, ?_, ?_⟩ <;> rfl

/-- The set-dueling insert rule when the hands are in range. In every state `ts` reached
from a constructed set-dueling tag store (`n ≥ 1` sets, `A` applications, every NRU set
starting with its hand below the associativity, hypothesis `hnru`) by calls whose
application ids are below `A`, the leader assignment is the constructed one, and
`insert(a, key, value, true, POLICY_HIGH, POLICY_BIMODAL)` with `a < A` and
`s = key % n` behaves as follows, `c` being `PSEL[a]` (whose bound is `maxPSEL`):
if `s` is a High leader of `a`, `PSEL[a]` becomes `c - 1` (staying at `0`) and the set
inserts with `POLICY_HIGH`; if `s` is a Bimodal leader of `a`, `PSEL[a]` becomes `c + 1`
when `c < maxPSEL` and stays otherwise, and the set inserts with `POLICY_BIMODAL`; in every
other case the PSEL counters are unchanged and the set inserts with `POLICY_HIGH` when
`c > maxPSEL / 2` and `POLICY_BIMODAL` otherwise. Each call that returns leaves the leader
assignment unchanged and leaves `PSEL[b]` unchanged unless it is an insert of
application `b`. -/
theorem set_dueling_insert_rule (A n N D maxPSEL startVal : Nat) (policy : String)
    (nruHand : Nat → Nat) (ts0 : set_dueling_tagstore_t) (ops : List sd_op)
    (hpol : policy ∈ ["lru", "fifo", "reuse", "srrip", "nru", "generation", "dip", "drrip",
      "minw"])
    (hn : 0 < n) (hN0 : 0 < N) (hN : N < UINT32_MOD)
    (hnru : policy = "nru" → ∀ i, i < n → nruHand i < N)
    (h0 : set_dueling_tagstore_t.SetTagStoreParameters A n N policy D maxPSEL startVal
      nruHand = some ts0)
    (hops : ∀ op ∈ ops, ∀ a, op.app = some a → a < A) :
    ∃ ts, ts0.run ops = some ts ∧ ts._type = ts0._type ∧
      (∀ a key value, a < A →
        ∃ ty c s0, ts._type[key % n]? = some ty ∧ ts._psel[a]? = some c ∧
          ts._sets[key % n]? = some s0 ∧ c._max = maxPSEL ∧
          (startVal ≤ maxPSEL → c._value ≤ maxPSEL) ∧
          (ty.leader = true → ty.policy = .POLICY_HIGH ∨ ty.policy = .POLICY_BIMODAL) ∧
          (ty.leader = true ∧ ty.appID = a ∧ ty.policy = .POLICY_HIGH →
            ∃ e s1, s0.insert key value .POLICY_HIGH = some (e, s1) ∧
              ts.insert a key value true .POLICY_HIGH .POLICY_BIMODAL =
                some (e, { ts with
                  _psel := ts._psel.set a { c with _value := c._value - 1 },
                  _sets := ts._sets.set (key % n) s1 })) ∧
          (ty.leader = true ∧ ty.appID = a ∧ ty.policy = .POLICY_BIMODAL →
            ∃ e s1, s0.insert key value .POLICY_BIMODAL = some (e, s1) ∧
              ts.insert a key value true .POLICY_HIGH .POLICY_BIMODAL =
                some (e, { ts with
                  _psel := ts._psel.set a
                    { c with
                      _value := if c._value < maxPSEL then c._value + 1 else c._value },
                  _sets := ts._sets.set (key % n) s1 })) ∧
          (¬ (ty.leader = true ∧ ty.appID = a) →
            ∃ e s1,
              s0.insert key value
                (if c._value > maxPSEL / 2 then .POLICY_HIGH else .POLICY_BIMODAL) =
                  some (e, s1) ∧
              ts.insert a key value true .POLICY_HIGH .POLICY_BIMODAL =
                some (e, { ts with _sets := ts._sets.set (key % n) s1 }))) ∧
      (∀ op r, ts.call op = some r →
        r.2._type = ts._type ∧ ∀ b, op.app ≠ some b → r.2._psel[b]? = ts._psel[b]?) := by
  obtain ⟨p, hp, hpn⟩ := policy_name.ofString_of_mem hpol
  obtain ⟨hwf0, hlow⟩ := set_dueling_tagstore_t.WF_of_new hp hN0 hN
    (fun i hi e => hnru (hpn e) i hi) h0
  obtain ⟨ts, hr, hwf⟩ := set_dueling_tagstore_t.WF.run_ok hn ops ts0 hwf0 hops
  refine ⟨ts, hr, hwf.2.2.1, ?_, ?_⟩
  · intro a key value ha
    obtain ⟨ty, c, s0, h1, h2, h3, h4, h5, h6, h7, h8, h9⟩ := hwf.insert_rule hn ha key value
    refine ⟨ty, c, s0, h1, h3, h6, h4, ?_, ?_, h7, ?_, h9⟩
    · intro hle
      rw [max_eq_right hle] at h5
      exact h5
    · intro _
      have := hlow ty h2
      cases hq : ty.policy with
      | POLICY_HIGH => exact Or.inl rfl
      | POLICY_BIMODAL => exact Or.inr rfl
      | POLICY_LOW => exact absurd hq this
    · rintro ⟨g1, g2, g3⟩
      exact h8 ⟨g1, g2, by rw [g3]; decide⟩
  · intro op r hc
    obtain ⟨a1, a2⟩ := hwf.sd_call hc
    exact ⟨by rw [a1.2.2.1, hwf.2.2.1], a2⟩

/-- One application, four 2-way LRU sets, one pair of leader sets, `maxPSEL = 4` and start
value `2`, after an insert of key `0` and a read of it. -/
theorem set_dueling_insert_rule_example :
    ∃ ts0, set_dueling_tagstore_t.SetTagStoreParameters 1 4 2 "lru" 1 4 2 (fun _ => 0) =
        some ts0 ∧
      ∃ ts, ts0.run [.insert 0 0 10 true .POLICY_HIGH .POLICY_BIMODAL,
          .read 0 .POLICY_HIGH] = some ts ∧ ts._type = ts0._type ∧
      (∀ a key value, a < 1 →
        ∃ ty c s0, ts._type[key % 4]? = some ty ∧ ts._psel[a]? = some c ∧
          ts._sets[key % 4]? = some s0 ∧ c._max = 4 ∧
          (2 ≤ 4 → c._value ≤ 4) ∧
          (ty.leader = true → ty.policy = .POLICY_HIGH ∨ ty.policy = .POLICY_BIMODAL) ∧
          (ty.leader = true ∧ ty.appID = a ∧ ty.policy = .POLICY_HIGH →
            ∃ e s1, s0.insert key value .POLICY_HIGH = some (e, s1) ∧
              ts.insert a key value true .POLICY_HIGH .POLICY_BIMODAL =
                some (e, { ts with
                  _psel := ts._psel.set a { c with _value := c._value - 1 },
                  _sets := ts._sets.set (key % 4) s1 })) ∧
          (ty.leader = true ∧ ty.appID = a ∧ ty.policy = .POLICY_BIMODAL →
            ∃ e s1, s0.insert key value .POLICY_BIMODAL = some (e, s1) ∧
              ts.insert a key value true .POLICY_HIGH .POLICY_BIMODAL =
                some (e, { ts with
                  _psel := ts._psel.set a
                    { c with
                      _value := if c._value < 4 then c._value + 1 else c._value },
                  _sets := ts._sets.set (key % 4) s1 })) ∧
          (¬ (ty.leader = true ∧ ty.appID = a) →
            ∃ e s1,
              s0.insert key value
                (if c._value > 4 / 2 then .POLICY_HIGH else .POLICY_BIMODAL) =
                  some (e, s1) ∧
              ts.insert a key value true .POLICY_HIGH .POLICY_BIMODAL =
                some (e, { ts with _sets := ts._sets.set (key % 4) s1 }))) ∧
      (∀ op r, ts.call op = some r →
        r.2._type = ts._type ∧ ∀ b, op.app ≠ some b → r.2._psel[b]? = ts._psel[b]?) :=
  ⟨_, rfl, set_dueling_insert_rule 1 4 2 1 4 2 "lru" (fun _ => 0) _ _ (by decide)
    (by decide) (by decide) (by decide) (by intro h; exact absurd h (by decide)) rfl
    (by
      intro op hop a ha
      simp only [List.mem_cons, List.mem_singleton, List.not_mem_nil, or_false] at hop
      rcases hop with e | e
      · subst e; cases ha; decide
      · subst e; cases ha)⟩

namespace set_dueling_tagstore_t

theorem countP_set {α : Type} (f : α → Bool) :
    ∀ (l : List α) (i : Nat) (v a : α), l[i]? = some a →
      (l.set i v).countP f + (if f a = true then 1 else 0) =
        l.countP f + (if f v = true then 1 else 0) := by
  intro l
  induction l with
  | nil => intro i v a h; simp at h
  | cons b rest ih =>
    intro i v a h
    cases i with
    | zero =>
      simp only [List.getElem?_cons_zero, Option.some.injEq] at h
      subst h
      simp only [List.set_cons_zero, List.countP_cons]
      omega
    | succ i =>
      simp only [List.getElem?_cons_succ] at h
      have := ih i v a h
      simp only [List.set_cons_succ, List.countP_cons]
      omega

theorem markLeader_count (f : SetType → Bool) (hf : ∀ t, f t = true → t.leader = true)
    {type : List SetType} {cur : cyclic_pointer} {id : Nat} {pol : policy_value_t}
    {r : List SetType × cyclic_pointer} (h : markLeader type cur id pol = some r) :
    r.1.countP f = type.countP f + (if f ⟨true, id, pol⟩ = true then 1 else 0) := by
  unfold markLeader at h
  rcases hg : type[cur._hand]? with _ | st
  · rw [hg] at h; cases h
  · rw [hg] at h
    by_cases hl : st.leader = true
    · simp [hl] at h
    · simp only [hl] at h
      simp only [Bool.false_eq_true, if_false, Option.some.injEq] at h
      subst h
      have h1 := countP_set f type cur._hand ⟨true, id, pol⟩ st hg
      have h2 : f st ≠ true := fun e => hl (hf st e)
      simp only [h2, if_false, Nat.add_zero] at h1
      exact h1

theorem markApp_count (f : SetType → Bool) (hf : ∀ t, f t = true → t.leader = true) :
    ∀ (count : Nat) (type : List SetType) (cur : cyclic_pointer) (id : Nat)
      (r : List SetType × cyclic_pointer), markApp count type cur id = some r →
      r.1.countP f = type.countP f +
        count * ((if f ⟨true, id, .POLICY_HIGH⟩ = true then 1 else 0) +
          (if f ⟨true, id, .POLICY_BIMODAL⟩ = true then 1 else 0)) := by
  intro count
  induction count with
  | zero =>
    intro type cur id r h
    simp only [markApp, Option.some.injEq] at h
    subst h
    simp
  | succ c ih =>
    intro type cur id r h
    simp only [markApp] at h
    rcases h1 : markLeader type cur id .POLICY_HIGH with _ | r1
    · rw [h1] at h; cases h
    · rw [h1] at h
      simp only [Option.some_bind] at h
      rcases h2 : markLeader r1.1 r1.2 id .POLICY_BIMODAL with _ | r2
      · rw [h2] at h; cases h
      · rw [h2] at h
        simp only [Option.some_bind] at h
        rw [ih _ _ _ _ h, markLeader_count f hf h2, markLeader_count f hf h1]
        ring

theorem markAll_count (f : SetType → Bool) (hf : ∀ t, f t = true → t.leader = true)
    (D : Nat) :
    ∀ (ids : List Nat) (type : List SetType) (cur : cyclic_pointer)
      (r : List SetType × cyclic_pointer), markAll ids D type cur = some r →
      r.1.countP f = type.countP f +
        D * (ids.map (fun id => (if f ⟨true, id, .POLICY_HIGH⟩ = true then 1 else 0) +
          (if f ⟨true, id, .POLICY_BIMODAL⟩ = true then 1 else 0))).sum := by
  intro ids
  induction ids with
  | nil =>
    intro type cur r h
    simp only [markAll, Option.some.injEq] at h
    subst h
    simp
  | cons id rest ih =>
    intro type cur r h
    simp only [markAll] at h
    rcases h1 : markApp D type cur id with _ | r1
    · rw [h1] at h; cases h
    · rw [h1] at h
      simp only [Option.some_bind] at h
      rw [ih _ _ _ h, markApp_count f hf D _ _ _ _ h1]
      simp only [List.map_cons, List.sum_cons]
      ring

theorem sum_range_indicator (a : Nat) :
    ∀ A : Nat, ((List.range A).map (fun id => if id = a then 1 else 0)).sum =
      if a < A then 1 else 0 := by
  intro A
  induction A with
  | zero => simp
  | succ A ih =>
    rw [List.range_succ, List.map_append, List.sum_append, ih]
    simp only [List.map_cons, List.map_nil, List.sum_cons, List.sum_nil, Nat.add_zero]
    by_cases h1 : a < A
    · have h2 : A ≠ a := by omega
      have h3 : a < A + 1 := by omega
      simp [h1, h2, h3]
    · by_cases h2 : A = a
      · have h3 : a < A + 1 := by omega
        simp [h1, h2]
      · have h3 : ¬ a < A + 1 := by omega
        simp [h1, h2, h3]

theorem countP_replicate_new (f : SetType → Bool) (hf : ∀ t, f t = true → t.leader = true)
    (n : Nat) : (List.replicate n SetType.new).countP f = 0 := by
  rw [List.countP_eq_zero]
  intro t ht
  rw [List.eq_of_mem_replicate ht]
  intro e
  exact absurd (hf _ e) (by decide)

end set_dueling_tagstore_t
namespace set_dueling_tagstore_t

theorem stride_inj {n : Nat} (hcop : Nat.Coprime DUELING_PRIME n) {i j : Nat} (hi : i < n)
    (hj : j < n) (h : (DUELING_PRIME * i) % n = (DUELING_PRIME * j) % n) : i = j := by
  have h1 : i ≡ j [MOD n] :=
    Nat.ModEq.cancel_left_of_coprime (Nat.coprime_comm.1 hcop) h
  have h2 : i % n = j % n := h1
  rwa [Nat.mod_eq_of_lt hi, Nat.mod_eq_of_lt hj] at h2

theorem stride_coprime {n : Nat} (h : ¬ DUELING_PRIME ∣ n) : Nat.Coprime DUELING_PRIME n := by
  have hp : Nat.Prime DUELING_PRIME := by unfold DUELING_PRIME; norm_num
  exact (Nat.Prime.coprime_iff_not_dvd hp).2 h

theorem markPos_lt {n : Nat} (hn : 0 < n) : ∀ j, markPos n j < n := by
  intro j
  cases j with
  | zero => exact hn
  | succ j => exact Nat.mod_lt _ hn

theorem markPos_eq {n : Nat} (hn : 0 < n) (hov : n + DUELING_PRIME ≤ UINT32_MOD) :
    ∀ j, markPos n j = (DUELING_PRIME * j) % n := by
  intro j
  induction j with
  | zero => simp [markPos]
  | succ j ih =>
    have hlt := markPos_lt hn j
    rw [markPos, Nat.mod_eq_of_lt (by omega : markPos n j + DUELING_PRIME < UINT32_MOD), ih,
      Nat.mul_succ, Nat.add_mod (DUELING_PRIME * j) DUELING_PRIME n,
      Nat.add_mod ((DUELING_PRIME * j) % n) DUELING_PRIME n, Nat.mod_mod]

theorem markLeader_step {n D j : Nat} (hn : 0 < n)
    (hfresh : ∀ i, i < j → markPos n j ≠ markPos n i) {type : List SetType}
    {cur : cyclic_pointer} (h : MarkInv n D j type cur) {id : Nat} {pol : policy_value_t}
    (hid : leaderAt D j = ⟨true, id, pol⟩) :
    ∃ r, markLeader type cur id pol = some r ∧ MarkInv n D (j + 1) r.1 r.2 := by
  obtain ⟨h1, h2, h3, h4, h5⟩ := h
  have hpos : markPos n j < n := markPos_lt hn j
  have hget := h5 _ hpos hfresh
  refine ⟨(type.set cur._hand ⟨true, id, pol⟩, cur.add DUELING_PRIME), ?_, ?_⟩
  · unfold markLeader
    rw [h2, hget]
    rfl
  · refine ⟨h1, ?_, by simpa using h3, ?_, ?_⟩
    · show ((cur._hand + DUELING_PRIME) % UINT32_MOD) % cur._size = _
      rw [h1, h2, markPos]
    · intro i hi
      show (type.set cur._hand ⟨true, id, pol⟩)[markPos n i]? = _
      rw [h2]
      by_cases hij : i = j
      · subst hij
        rw [List.getElem?_set_self (by rw [h3]; exact hpos), hid]
      · have hlt : i < j := by omega
        rw [List.getElem?_set_ne (hfresh i hlt)]
        exact h4 i hlt
    · intro pos hp hne
      show (type.set cur._hand ⟨true, id, pol⟩)[pos]? = _
      rw [h2, List.getElem?_set_ne (fun e => hne j (by omega) e.symm)]
      exact h5 pos hp (fun i hi => hne i (by omega))

theorem markApp_step {n D L id : Nat} (hL : L ≤ n)
    (hinj : ∀ i1 i2, i1 < i2 → i2 < L → markPos n i1 ≠ markPos n i2) :
    ∀ (count j : Nat) (type : List SetType) (cur : cyclic_pointer),
      j + 2 * count ≤ L → j % 2 = 0 →
      (∀ i, j ≤ i → i < j + 2 * count → i / (2 * D) = id) →
      MarkInv n D j type cur →
      ∃ r, markApp count type cur id = some r ∧ MarkInv n D (j + 2 * count) r.1 r.2 := by
  intro count
  induction count with
  | zero => intro j type cur _ _ _ h; exact ⟨(type, cur), rfl, h⟩
  | succ c ih =>
    intro j type cur hle hev hid h
    have hn : 0 < n := by omega
    have e1 : leaderAt D j = ⟨true, id, .POLICY_HIGH⟩ := by
      unfold leaderAt
      rw [hid j (le_refl _) (by omega)]
      simp [hev]
    obtain ⟨r1, g1, g2⟩ := markLeader_step hn
      (fun i hi e => hinj i j hi (by omega) e.symm) h e1
    have e2 : leaderAt D (j + 1) = ⟨true, id, .POLICY_BIMODAL⟩ := by
      unfold leaderAt
      rw [hid (j + 1) (by omega) (by omega)]
      have : (j + 1) % 2 ≠ 0 := by omega
      simp [this]
    obtain ⟨r2, g3, g4⟩ := markLeader_step hn
      (fun i hi e => hinj i (j + 1) hi (by omega) e.symm) g2 e2
    obtain ⟨r, g5, g6⟩ := ih (j + 1 + 1) r2.1 r2.2 (by omega) (by omega)
      (fun i hi1 hi2 => hid i (by omega) (by omega)) g4
    refine ⟨r, ?_, ?_⟩
    · simp only [markApp, g1, Option.some_bind, g3, g5]
    · have : j + 2 * (c + 1) = j + 1 + 1 + 2 * c := by ring
      rw [this]; exact g6

theorem markAll_step {n D L : Nat} (hL : L ≤ n)
    (hinj : ∀ i1 i2, i1 < i2 → i2 < L → markPos n i1 ≠ markPos n i2) :
    ∀ (k id0 : Nat) (type : List SetType) (cur : cyclic_pointer),
      2 * D * (id0 + k) ≤ L → MarkInv n D (2 * D * id0) type cur →
      ∃ r, markAll (List.range' id0 k) D type cur = some r ∧
        MarkInv n D (2 * D * (id0 + k)) r.1 r.2 := by
  intro k
  induction k with
  | zero => intro id0 type cur _ h; exact ⟨(type, cur), rfl, h⟩
  | succ k ih =>
    intro id0 type cur hle h
    have hle1 : 2 * D * (id0 + 1) ≤ 2 * D * (id0 + (k + 1)) :=
      Nat.mul_le_mul_left _ (by omega)
    have hexp : 2 * D * (id0 + 1) = 2 * D * id0 + 2 * D := by ring
    obtain ⟨r1, g1, g2⟩ := @markApp_step _ _ _ id0 hL hinj D (2 * D * id0) type cur
      (by omega) (by rw [Nat.mul_assoc]; exact Nat.mul_mod_right _ _)
      (fun i hi1 hi2 => by
        have hD : 0 < 2 * D := by
          rcases Nat.eq_zero_or_pos (2 * D) with e | e
          · rw [e] at hi1 hi2; simp at hi2
          · exact e
        apply Nat.div_eq_of_lt_le
        · rw [Nat.mul_comm]; exact hi1
        · rw [Nat.succ_mul, Nat.mul_comm]; exact hi2) h
    rw [← hexp] at g2
    obtain ⟨r, g3, g4⟩ := ih (id0 + 1) r1.1 r1.2
      (by have : id0 + 1 + k = id0 + (k + 1) := by ring
          rw [this]; exact hle) g2
    refine ⟨r, ?_, ?_⟩
    · rw [List.range'_succ]
      simp only [markAll, g1, Option.some_bind, g3]
    · have : id0 + (k + 1) = id0 + 1 + k := by ring
      rw [this]; exact g4

theorem MarkInv_init (n D : Nat) :
    MarkInv n D 0 (List.replicate n SetType.new) (cyclic_pointer.new n 0) := by
  refine ⟨rfl, rfl, by simp, fun i hi => by omega, ?_⟩
  intro pos hp _
  simp [hp]

end set_dueling_tagstore_t



theorem generic_tagstore_t.makeSets_some {N : Nat} {policy : String} {p : policy_name}
    (nruHand : Nat → Nat) (hp : policy_name.ofString policy = some p) :
    ∀ (is : List Nat), ∃ ss, generic_tagstore_t.makeSets N policy nruHand is = some ss := by
  intro is
  induction is with
  | nil => exact ⟨[], rfl⟩
  | cons i rest ih =>
    obtain ⟨ss, h1⟩ := ih
    exact ⟨table_t.new p N (nruHand i) :: ss, by
      simp [generic_tagstore_t.makeSets, generic_table_t.SetTableParameters, hp, h1]⟩

/-- **C9.** Leader-set construction. `SetTagStoreParameters(A, n, N, policy, D, ...)` aborts
whenever `2 * D * A > n`. Whenever `2 * D * A ≤ n`, `443` does not divide `n`, the pointer
arithmetic stays within `uint32` (`n + 443 ≤ 2 ^ 32`) and the policy name is known, it
returns a tag store whose sets `(443 * j) % n`, `j < 2 * D * A`, are pairwise distinct
leader sets, the `j`-th owned by application `j / (2 * D)` and a High leader for even `j`,
a Bimodal leader for odd `j`; all other sets are followers; there are `2 * D * A` leaders
and each application owns exactly `D` High and `D` Bimodal leaders. -/
theorem C9_leader_set_construction (A n N D maxPSEL startVal : Nat) (policy : String)
    (nruHand : Nat → Nat) :
    (2 * D * A > n →
      set_dueling_tagstore_t.SetTagStoreParameters A n N policy D maxPSEL startVal
        nruHand = none) ∧
    (2 * D * A ≤ n → ¬ 443 ∣ n → n + 443 ≤ UINT32_MOD →
      policy ∈ ["lru", "fifo", "reuse", "srrip", "nru", "generation", "dip", "drrip",
        "minw"] →
      ∃ ts0, set_dueling_tagstore_t.SetTagStoreParameters A n N policy D maxPSEL startVal
          nruHand = some ts0 ∧
        ts0._type.length = n ∧
        (∀ j, j < 2 * D * A → ts0._type[(443 * j) % n]? =
          some ⟨true, j / (2 * D),
            if j % 2 = 0 then .POLICY_HIGH else .POLICY_BIMODAL⟩) ∧
        (∀ j1 j2, j1 < 2 * D * A → j2 < 2 * D * A →
          (443 * j1) % n = (443 * j2) % n → j1 = j2) ∧
        (∀ pos, pos < n → (∀ j, j < 2 * D * A → pos ≠ (443 * j) % n) →
          ∃ ty, ts0._type[pos]? = some ty ∧ ty.leader = false) ∧
        ts0._type.countP (fun t => t.leader) = 2 * D * A ∧
        (∀ a, a < A →
          ts0._type.countP (fun t => t.leader && decide (t.appID = a) &&
            decide (t.policy = .POLICY_HIGH)) = D ∧
          ts0._type.countP (fun t => t.leader && decide (t.appID = a) &&
            decide (t.policy = .POLICY_BIMODAL)) = D)) := by
  constructor
  · intro hgt
    rcases h0 : set_dueling_tagstore_t.SetTagStoreParameters A n N policy D maxPSEL startVal
      nruHand with _ | ts0
    · rfl
    · exfalso
      unfold set_dueling_tagstore_t.SetTagStoreParameters at h0
      rcases hs : generic_tagstore_t.makeSets N policy nruHand (List.range n) with _ | ss
      · rw [hs] at h0; cases h0
      · rw [hs] at h0
        simp only [Option.some_bind] at h0
        by_cases hc : (2 * D * A) % UINT32_MOD > n
        · simp [hc] at h0
        · simp only [hc, if_false] at h0
          rcases hm : set_dueling_tagstore_t.markAll (List.range A) D
              (List.replicate n SetType.new) (cyclic_pointer.new n 0) with _ | r
          · rw [hm] at h0; cases h0
          · have hcnt := set_dueling_tagstore_t.markAll_count (fun t => t.leader)
              (fun _ h => h) D _ _ _ _ hm
            rw [set_dueling_tagstore_t.countP_replicate_new _ (fun _ h => h)] at hcnt
            obtain ⟨hlen, _, _⟩ := set_dueling_tagstore_t.markAll_keep (P := fun _ => True)
              (fun _ _ _ => trivial) D _ _ _ _ hm (fun _ _ => trivial)
            have hle := List.countP_le_length (fun t : SetType => t.leader) (l := r.1)
            simp only [if_true, List.map_const', List.sum_replicate, List.length_range,
              smul_eq_mul, Nat.zero_add, List.length_replicate] at hcnt hlen
            rw [hcnt, hlen] at hle
            have : 2 * D * A = D * (A * (1 + 1)) := by ring
            omega
  · intro hle hdvd hov hpol
    obtain ⟨p, hp, _⟩ := policy_name.ofString_of_mem hpol
    obtain ⟨ss, hs⟩ := generic_tagstore_t.makeSets_some (N := N) nruHand hp (List.range n)
    have hcop := set_dueling_tagstore_t.stride_coprime (n := n) hdvd
    have hc : ¬ (2 * D * A) % UINT32_MOD > n :=
      not_lt.2 (le_trans (Nat.mod_le _ _) hle)
    have hpos : ∀ j, 0 < n → set_dueling_tagstore_t.markPos n j = (443 * j) % n :=
      fun j hn => set_dueling_tagstore_t.markPos_eq hn hov j
    obtain ⟨r, hm, hinv⟩ := set_dueling_tagstore_t.markAll_step (D := D) hle
      (fun i1 i2 h1 h2 e => by
        have hn : 0 < n := by omega
        rw [hpos i1 hn, hpos i2 hn] at e
        have := set_dueling_tagstore_t.stride_inj hcop (by omega) (by omega) e
        omega) A 0
      (List.replicate n SetType.new) (cyclic_pointer.new n 0) (by simp)
      (set_dueling_tagstore_t.MarkInv_init n D)
    rw [← List.range_eq_range'] at hm
    rw [Nat.zero_add] at hinv
    obtain ⟨_, _, h3, h4, h5⟩ := hinv
    have h4 : ∀ j, j < 2 * D * A → r.1[(443 * j) % n]? =
        some (set_dueling_tagstore_t.leaderAt D j) := by
      intro j hj
      rw [← hpos j (by omega)]
      exact h4 j hj
    have h5 : ∀ pos, pos < n → (∀ j, j < 2 * D * A → pos ≠ (443 * j) % n) →
        r.1[pos]? = some SetType.new := by
      intro pos hp hne
      exact h5 pos hp (fun i hi => by rw [hpos i (by omega)]; exact hne i hi)
    refine ⟨
      { _numSets := n, _numSlotsPerSet := N, _dynamicPolicy := policy, _numApps := A,
        _numDuelingSets := D, _type := r.1,
        _psel := List.replicate A (saturating_counter.new maxPSEL startVal),
        _threshold := maxPSEL / 2, _sets := ss }, by
      simp only [set_dueling_tagstore_t.SetTagStoreParameters, hs, Option.some_bind, hc,
        if_false, hm, Option.map_some'], h3, h4, ?_, ?_, ?_, ?_⟩
    · intro j1 j2 hj1 hj2 e
      exact set_dueling_tagstore_t.stride_inj hcop (by omega) (by omega) e
    · intro pos hp1 hne
      exact ⟨_, h5 pos hp1 hne, rfl⟩
    · have hcnt := set_dueling_tagstore_t.markAll_count (fun t => t.leader)
        (fun _ h => h) D _ _ _ _ hm
      rw [set_dueling_tagstore_t.countP_replicate_new _ (fun _ h => h)] at hcnt
      simp only [if_true, List.map_const', List.sum_replicate, List.length_range,
        smul_eq_mul, Nat.zero_add] at hcnt
      show r.1.countP (fun t => t.leader) = 2 * D * A
      rw [hcnt]; ring
    · intro a ha
      have key : ∀ pol : policy_value_t, pol = .POLICY_HIGH ∨ pol = .POLICY_BIMODAL →
          r.1.countP (fun t => t.leader && decide (t.appID = a) &&
            decide (t.policy = pol)) = D := by
        intro pol hpol2
        have hf : ∀ t : SetType, (t.leader && decide (t.appID = a) &&
            decide (t.policy = pol)) = true → t.leader = true := by
          intro t ht
          simp only [Bool.and_eq_true] at ht
          exact ht.1.1
        have hcnt := set_dueling_tagstore_t.markAll_count _ hf D _ _ _ _ hm
        rw [set_dueling_tagstore_t.countP_replicate_new _ hf] at hcnt
        have hfun : (fun id : Nat =>
            (if ((true && decide (id = a) && decide (policy_value_t.POLICY_HIGH = pol))) = true
              then 1 else 0) +
            (if ((true && decide (id = a) && decide (policy_value_t.POLICY_BIMODAL = pol))) = true
              then 1 else 0)) = fun id => if id = a then 1 else 0 := by
          funext id
          rcases hpol2 with e | e <;> subst e <;> by_cases hh : id = a <;> simp [hh]
        rw [hcnt]
        simp only at hfun ⊢
        rw [hfun, set_dueling_tagstore_t.sum_range_indicator]
        simp [ha]
      exact ⟨key _ (Or.inl rfl), key _ (Or.inr rfl)⟩

/-- Witness for C9: one application with two leader pairs over three sets aborts; two
applications with two leader pairs each over eight sets of a 2-way LRU store give the
eight leader sets `(443 * j) % 8`. -/
theorem C9_leader_set_construction_witness :
    set_dueling_tagstore_t.SetTagStoreParameters 1 3 2 "lru" 2 4 2 (fun _ => 0) = none ∧
    ∃ ts0, set_dueling_tagstore_t.SetTagStoreParameters 2 8 2 "lru" 2 4 2 (fun _ => 0) =
        some ts0 ∧
      ts0._type.length = 8 ∧
      (∀ j, j < 2 * 2 * 2 → ts0._type[(443 * j) % 8]? =
        some ⟨true, j / (2 * 2), if j % 2 = 0 then .POLICY_HIGH else .POLICY_BIMODAL⟩) ∧
      (∀ j1 j2, j1 < 2 * 2 * 2 → j2 < 2 * 2 * 2 →
        (443 * j1) % 8 = (443 * j2) % 8 → j1 = j2) ∧
      (∀ pos, pos < 8 → (∀ j, j < 2 * 2 * 2 → pos ≠ (443 * j) % 8) →
        ∃ ty, ts0._type[pos]? = some ty ∧ ty.leader = false) ∧
      ts0._type.countP (fun t => t.leader) = 2 * 2 * 2 ∧
      (∀ a, a < 2 →
        ts0._type.countP (fun t => t.leader && decide (t.appID = a) &&
          decide (t.policy = .POLICY_HIGH)) = 2 ∧
        ts0._type.countP (fun t => t.leader && decide (t.appID = a) &&
          decide (t.policy = .POLICY_BIMODAL)) = 2) :=
  ⟨(C9_leader_set_construction 1 3 2 2 4 2 "lru" (fun _ => 0)).1 (by decide),
    (C9_leader_set_construction 2 8 2 2 4 2 "lru" (fun _ => 0)).2 (by decide) (by decide)
      (by decide) (by decide)⟩

theorem set_dueling_tagstore_t.markPos_no_wrap (n J : Nat) (hJ : DUELING_PRIME * J < n)
    (hn : n ≤ UINT32_MOD) : ∀ j, j ≤ J → set_dueling_tagstore_t.markPos n j = DUELING_PRIME * j := by
  intro j
  induction j with
  | zero => intro _; rfl
  | succ j ih =>
    intro hj
    have h1 : DUELING_PRIME * (j + 1) ≤ DUELING_PRIME * J := Nat.mul_le_mul_left _ hj
    have h2 : DUELING_PRIME * (j + 1) = DUELING_PRIME * j + DUELING_PRIME := Nat.mul_succ _ _
    rw [set_dueling_tagstore_t.markPos, ih (by omega), ← h2,
      Nat.mod_eq_of_lt (by omega : DUELING_PRIME * (j + 1) < UINT32_MOD),
      Nat.mod_eq_of_lt (by omega : DUELING_PRIME * (j + 1) < n)]

/-- **C9, counterexample.** With `n = 2 ^ 32 - 1` sets, `D = 1` and `A = 4847594`
applications, `2 * D * A ≤ n` and `443` does not divide `n`, and the constructor returns;
but the `uint32` sum of `current.add(443)` wraps at step `9695186`, so that step marks
set `102`, while set `(443 * 9695186) % n = 103` is left a follower. -/
theorem C9_pointer_wraps_at_uint32 :
    2 * 1 * 4847594 ≤ 4294967295 ∧ ¬ 443 ∣ 4294967295 ∧ 9695186 < 2 * 1 * 4847594 ∧
    (443 * 9695186) % 4294967295 = 103 ∧
    ∃ ts0, set_dueling_tagstore_t.SetTagStoreParameters 4847594 4294967295 1 "lru" 1 4 2
        (fun _ => 0) = some ts0 ∧
      ts0._type[(443 * 9695186) % 4294967295]? = some ⟨false, 0, .POLICY_HIGH⟩ ∧
      ts0._type[102]? = some ⟨true, 9695186 / (2 * 1), .POLICY_HIGH⟩ := by
  have P1 : ∀ j, j ≤ 9695185 → set_dueling_tagstore_t.markPos 4294967295 j = 443 * j :=
    set_dueling_tagstore_t.markPos_no_wrap 4294967295 9695185 (by decide) (by decide)
  have P2 : set_dueling_tagstore_t.markPos 4294967295 (9695185 + 1) = 102 := by
    rw [set_dueling_tagstore_t.markPos, P1 9695185 (le_refl _)]
    decide
  have P3 : set_dueling_tagstore_t.markPos 4294967295 (9695185 + 1 + 1) = 545 := by
    rw [set_dueling_tagstore_t.markPos, P2]
    decide
  have hcase : ∀ i, i < 9695188 → i ≤ 9695185 ∨ i = 9695185 + 1 ∨ i = 9695185 + 1 + 1 := by
    intro i hi; omega
  have hinj : ∀ i1 i2, i1 < i2 → i2 < 9695188 →
      set_dueling_tagstore_t.markPos 4294967295 i1 ≠
        set_dueling_tagstore_t.markPos 4294967295 i2 := by
    intro i1 i2 h1 h2
    rcases hcase i2 h2 with c2 | c2 | c2
    · rw [P1 i1 (by omega), P1 i2 c2]; omega
    · subst c2
      rw [P1 i1 (by omega), P2]; omega
    · subst c2
      rcases hcase i1 (by omega) with c1 | c1 | c1
      · rw [P1 i1 c1, P3]; omega
      · subst c1; rw [P2, P3]; decide
      · omega
  obtain ⟨ss, hs⟩ := @generic_tagstore_t.makeSets_some 1 "lru"
    .lru (fun _ => 0) rfl (List.range 4294967295)
  obtain ⟨r, hm, hinv⟩ := set_dueling_tagstore_t.markAll_step (n := 4294967295) (D := 1)
    (L := 9695188) (by decide) hinj 4847594 0
    (List.replicate 4294967295 SetType.new) (cyclic_pointer.new 4294967295 0) (by decide)
    (set_dueling_tagstore_t.MarkInv_init 4294967295 1)
  rw [← List.range_eq_range'] at hm
  obtain ⟨_, _, _, h4, h5⟩ := hinv
  have hc : ¬ (2 * 1 * 4847594) % UINT32_MOD > 4294967295 := by decide
  refine ⟨by decide, by decide, by decide, by decide,
    { _numSets := 4294967295, _numSlotsPerSet := 1, _dynamicPolicy := "lru",
      _numApps := 4847594, _numDuelingSets := 1, _type := r.1,
      _psel := List.replicate 4847594 (saturating_counter.new 4 2),
      _threshold := 4 / 2, _sets := ss }, ?_, ?_, ?_⟩
  · simp only [set_dueling_tagstore_t.SetTagStoreParameters, hs, Option.some_bind, hc,
      if_false, hm, Option.map_some']
  · have e : (443 * 9695186) % 4294967295 = 103 := by decide
    show r.1[(443 * 9695186) % 4294967295]? = _
    rw [e]
    refine h5 103 (by decide) ?_
    intro i hi
    rcases hcase i (by omega) with c | c | c
    · rw [P1 i c]; omega
    · subst c; rw [P2]; decide
    · subst c; rw [P3]; decide
  · have := h4 (9695185 + 1) (by decide)
    rw [P2] at this
    exact this

namespace MemorySimulator

theorem getElem?_set_of_get {α : Type} {l : List α} {i : Nat} {b : α} (a : α)
    (h : l[i]? = some b) : (l.set i a)[i]? = some a := by
  have hlt : i < l.length := by
    rcases Nat.lt_or_ge i l.length with h1 | h1
    · exact h1
    · rw [List.getElem?_eq_none h1] at h; cases h
  exact List.getElem?_set_self hlt

theorem queue_top_single (s : MemorySimulator) (r : Nat) : s.queue_top [r] = some r := rfl

theorem AddRequest_busy (f c r : Nat) (s : MemorySimulator) (cmp : MemoryComponent)
    (hc : s._components[c]? = some cmp) (hp : cmp._processing = true) :
    AddRequest (f + 1) c r s =
      some (s.setComponent c { cmp with _queue := cmp._queue ++ [r] }) := by
  simp only [AddRequest, hc, hp, if_true]

/-- The forward half of a visit: an idle component that receives a request not yet
serviced calls `ProcessRequest` and sends the request on; if the request is back in its
queue afterwards, the loop goes round again. -/
theorem AddRequest_idle (g c r : Nat) (s s1 : MemorySimulator) (cmp cmp1 : MemoryComponent)
    (req : MemoryRequest)
    (hc : s._components[c]? = some cmp) (hq : cmp._queue = []) (hp : cmp._processing = false)
    (hcy : cmp._currentCycle ≤ s._currentCycle)
    (hr : s.requests[r]? = some req) (hs : req.serviced = false)
    (hcc : req.currentCycle ≤ s._currentCycle)
    (hsend : SendToNextComponent g c r
      { (s.setRequest r
            { req with currentCycle := max req.currentCycle cmp._currentCycle }).setComponent c
          { _queue := [], _processing := true,
            _currentCycle := max req.currentCycle cmp._currentCycle }
        with calls := s.calls ++ [⟨c, false, r⟩] } = some s1)
    (hc1 : s1._components[c]? = some cmp1) (hq1 : cmp1._queue = [r]) :
    AddRequest (g + 3) c r s = ProcessLoop g c r s1 := by
  have e1 : ∀ x : MemoryComponent, (s._components.set c x)[c]? = some x :=
    fun x => getElem?_set_of_get x hc
  have e2 : ∀ x y : MemoryComponent, ((s._components.set c x).set c y)[c]? = some y :=
    fun x y => getElem?_set_of_get _ (getElem?_set_of_get x hc)
  have hncy : ¬ cmp._currentCycle > s._currentCycle := by omega
  simp only [AddRequest, hc, hp, Bool.false_eq_true, if_false, ProcessPendingRequests,
    setComponent, e1, hq, List.nil_append, queue_top_single, ProcessLoop, e2, hr, hcc, if_true,
    hncy, hs, setRequest, List.set_set, List.erase_cons_head, Nat.add_zero]
  simp only [setRequest, setComponent, hs] at hsend
  rw [hsend]
  simp only [hc1, hq1, queue_top_single]

end MemorySimulator
namespace MemorySimulator

theorem getElem?_append_length {α : Type} (l1 : List α) (a : α) (l2 : List α) :
    (l1 ++ a :: l2)[l1.length]? = some a := by
  induction l1 with
  | nil => simp
  | cons b l ih => simpa using ih

/-- The return half of a visit: a processing component whose queue holds just the
serviced request calls `ProcessReturn`, hands the request to the previous stage (which is
processing, so the request is only queued there) or finishes it at stage `0`, and goes
to rest. -/
theorem ProcessLoop_return (f c r : Nat) (s : MemorySimulator) (cmp : MemoryComponent)
    (req : MemoryRequest) (prev : Option Nat)
    (hc : s._components[c]? = some cmp) (hq : cmp._queue = [r])
    (hcy : cmp._currentCycle ≤ s._currentCycle)
    (hr : s.requests[r]? = some req) (hs : req.serviced = true) (hd : req.destroy = false)
    (ht : req.type ≠ .CLEAN) (hst : req.stalling = false)
    (hcc : req.currentCycle ≤ s._currentCycle)
    (hnone : prev = none → req.cmpID = 0)
    (hsome : ∀ p, prev = some p → req.cmpID ≠ 0 ∧
      (s._hier[req.cpuID]?).bind (fun stages => stages[req.cmpID - 1]?) = some p ∧
      p ≠ c ∧ ∃ cmpP, s._components[p]? = some cmpP ∧ cmpP._processing = true) :
    ∃ s', ProcessLoop (f + 3) c r s = some s' ∧
      s'._hier = s._hier ∧ s'._currentCycle = s._currentCycle ∧ s'._numCPUs = s._numCPUs ∧
      s'.calls = s.calls ++ [⟨c, true, r⟩] ∧
      s'.requests = s.requests.set r
        (if prev = none then { req with finished := true }
          else { req with cmpID := req.cmpID - 1 }) ∧
      s'.Idle c ∧
      (∀ x, x ≠ c → s'._components[x]? =
        if prev = some x then
          (s._components[x]?).map (fun y => { y with _queue := y._queue ++ [r] })
        else s._components[x]?) := by
  have e1 : ∀ x : MemoryComponent, (s._components.set c x)[c]? = some x :=
    fun x => getElem?_set_of_get x hc
  have hncy : ¬ cmp._currentCycle > s._currentCycle := by omega
  have hmax : max req.currentCycle cmp._currentCycle ≤ s._currentCycle := max_le hcc hcy
  cases prev with
  | none =>
    have hprev := hnone rfl
    have h : ProcessLoop (f + 3) c r s = some
        { _currentCycle := s._currentCycle, _numCPUs := s._numCPUs,
          _components := s._components.set c
            { _currentCycle := max req.currentCycle cmp._currentCycle, _processing := false,
              _queue := [] },
          _hier := s._hier, requests := s.requests.set r { req with finished := true },
          calls := s.calls ++ [⟨c, true, r⟩] } := by
      simp only [ProcessLoop, hc, hr, hcc, if_true, hncy, if_false, hs, hq,
        List.erase_cons_head, SendToNextComponent, setComponent, setRequest, hd,
        Bool.false_eq_true, ht, hst, hprev, e1, queue_top, List.set_set, Nat.add_zero]
    refine ⟨_, h, rfl, rfl, rfl, rfl, rfl, ⟨_, e1 _, rfl, rfl, hmax⟩, ?_⟩
    intro x hx
    simp only [reduceCtorEq, if_false]
    exact List.getElem?_set_ne (Ne.symm hx)
  | some p =>
    obtain ⟨h0, hl, hpc, cmpP, hcp, hpp⟩ := hsome p rfl
    have e2 : ∀ x : MemoryComponent, (s._components.set c x)[p]? = some cmpP := by
      intro x; rw [List.getElem?_set_ne (Ne.symm hpc)]; exact hcp
    have e3 : ∀ x y : MemoryComponent, ((s._components.set c x).set p y)[c]? = some x := by
      intro x y; rw [List.getElem?_set_ne hpc]; exact e1 x
    have h : ProcessLoop (f + 3) c r s = some
        { _currentCycle := s._currentCycle, _numCPUs := s._numCPUs,
          _components := ((s._components.set c
            { _currentCycle := max req.currentCycle cmp._currentCycle,
              _processing := cmp._processing, _queue := [] }).set p
                { cmpP with _queue := cmpP._queue ++ [r] }).set c
            { _currentCycle := max req.currentCycle cmp._currentCycle, _processing := false,
              _queue := [] },
          _hier := s._hier,
          requests := s.requests.set r { req with cmpID := req.cmpID - 1 },
          calls := s.calls ++ [⟨c, true, r⟩] } := by
      simp only [ProcessLoop, hc, hr, hcc, if_true, hncy, if_false, hs, hq,
        List.erase_cons_head, SendToNextComponent, setComponent, setRequest, hd,
        Bool.false_eq_true, ht, hst, h0, hl, AddRequest, e2, hpp, e3, queue_top,
        List.set_set, Nat.add_zero]
    refine ⟨_, h, rfl, rfl, rfl, rfl, rfl, ⟨_, getElem?_set_of_get _ (e3 _ _), rfl, rfl, hmax⟩,
      ?_⟩
    intro x hx
    show (((s._components.set c _).set p _).set c _)[x]? = _
    rw [List.getElem?_set_ne (Ne.symm hx)]
    by_cases hxp : p = x
    · subst hxp
      rw [getElem?_set_of_get _ (e2 _)]
      simp [hcp]
    · rw [List.getElem?_set_ne hxp, List.getElem?_set_ne (Ne.symm hx)]
      have : ¬ (some p = some x) := fun e => hxp (Option.some.inj e)
      simp only [this, if_false]

end MemorySimulator
namespace MemorySimulator

/-- One stage of the round trip, given what the rest of the pipeline does: component `c`,
at rest, receives request `r` at stage `pre.length`; `s5` is the state in which the
request has come back to the queue of `c`, serviced. -/
theorem visit (r f0 c : Nat) (pre rest : List Nat) (prev : Option Nat)
    (s s5 : MemorySimulator) (req : MemoryRequest) (cmp : MemoryComponent) (cc5 : Nat)
    (hh : s._hier[req.cpuID]? = some (pre ++ c :: rest))
    (hnd : (pre ++ c :: rest).Nodup)
    (hr : s.requests[r]? = some req)
    (hs : req.serviced = false) (hd : req.destroy = false) (hst : req.stalling = false)
    (ht : req.type ≠ .CLEAN) (hcc : req.currentCycle ≤ s._currentCycle)
    (hc : s._components[c]? = some cmp) (hq : cmp._queue = []) (hp : cmp._processing = false)
    (hcy : cmp._currentCycle ≤ s._currentCycle)
    (hnone : prev = none → pre = [])
    (hsome : ∀ p, prev = some p → (∃ pre0, pre = pre0 ++ [p]) ∧
      ∃ cmpP, s._components[p]? = some cmpP ∧ cmpP._processing = true)
    (hsend : SendToNextComponent (f0 + 3) c r
      { (s.setRequest r
            { req with currentCycle := max req.currentCycle cmp._currentCycle }).setComponent c
          { _queue := [], _processing := true,
            _currentCycle := max req.currentCycle cmp._currentCycle }
        with calls := s.calls ++ [⟨c, false, r⟩] } = some s5)
    (h5h : s5._hier = s._hier) (h5c : s5._currentCycle = s._currentCycle)
    (h5n : s5._numCPUs = s._numCPUs)
    (h5calls : s5.calls = s.calls ++ [⟨c, false, r⟩] ++ rest.map (fun x => ⟨x, false, r⟩) ++
      rest.reverse.map (fun x => ⟨x, true, r⟩))
    (h5r : s5.requests = s.requests.set r
      { req with serviced := true, cmpID := pre.length, currentCycle := cc5 })
    (hcc5 : cc5 ≤ s._currentCycle)
    (h5cmp : s5._components[c]? = some
      { _queue := [r], _processing := true,
        _currentCycle := max req.currentCycle cmp._currentCycle })
    (h5idle : ∀ x ∈ rest, s5.Idle x)
    (h5other : ∀ x, x ∉ c :: rest → s5._components[x]? = s._components[x]?) :
    ∃ s' cc, AddRequest (f0 + 6) c r s = some s' ∧ cc ≤ s._currentCycle ∧
      s'._hier = s._hier ∧ s'._currentCycle = s._currentCycle ∧
      s'._numCPUs = s._numCPUs ∧
      s'.calls = s.calls ++ (c :: rest).map (fun x => ⟨x, false, r⟩) ++
        (c :: rest).reverse.map (fun x => ⟨x, true, r⟩) ∧
      s'.requests = s.requests.set r
        (if prev = none then
          { req with serviced := true, finished := true, cmpID := pre.length,
                     currentCycle := cc }
          else { req with serviced := true, cmpID := pre.length - 1, currentCycle := cc }) ∧
      (∀ x ∈ c :: rest, s'.Idle x) ∧
      (∀ x, x ∉ c :: rest → s'._components[x]? =
        if prev = some x then
          (s._components[x]?).map (fun y => { y with _queue := y._queue ++ [r] })
        else s._components[x]?) := by
  have hloop := AddRequest_idle (f0 + 3) c r s s5 cmp _ req hc hq hp hcy hr hs hcc hsend
    h5cmp rfl
  have hr5 : s5.requests[r]? = some
      { req with serviced := true, cmpID := pre.length, currentCycle := cc5 } := by
    rw [h5r]; exact getElem?_set_of_get _ hr
  have hmax : max req.currentCycle cmp._currentCycle ≤ s._currentCycle := max_le hcc hcy
  have hdisj := (List.nodup_append.1 hnd).2.2
  have hcrest : c ∉ rest := (List.nodup_cons.1 (List.nodup_append.1 hnd).2.1).1
  have hnone5 : prev = none → pre.length = 0 := fun e => by rw [hnone e]; rfl
  have hpmem : ∀ p, prev = some p → p ∉ c :: rest := by
    intro p e hm
    obtain ⟨⟨pre0, hpre⟩, _⟩ := hsome p e
    exact hdisj (by rw [hpre]; exact List.mem_append_right _ (List.mem_singleton_self p)) hm
  have hsome5 : ∀ p, prev = some p → pre.length ≠ 0 ∧
      (s5._hier[req.cpuID]?).bind (fun stages => stages[pre.length - 1]?) = some p ∧
      p ≠ c ∧ ∃ cmpP, s5._components[p]? = some cmpP ∧ cmpP._processing = true := by
    intro p e
    obtain ⟨⟨pre0, hpre⟩, cmpP, hcp, hpp⟩ := hsome p e
    have hmem := hpmem p e
    refine ⟨by rw [hpre]; simp, ?_, fun e2 => hmem (by rw [e2]; exact List.mem_cons_self _ _),
      cmpP, ?_, hpp⟩
    · rw [h5h, hh, hpre]
      simp only [Option.some_bind, List.length_append, List.length_singleton,
        Nat.add_sub_cancel, List.append_assoc, List.singleton_append]
      exact getElem?_append_length pre0 p (c :: rest)
    · rw [h5other p hmem]; exact hcp
  obtain ⟨s', h1, h2, h3, h4, h5, h6, h7, h8⟩ := ProcessLoop_return f0 c r s5 _ _ prev h5cmp
    rfl (by rw [h5c]; exact hmax) hr5 rfl hd ht hst (by rw [h5c]; exact hcc5) hnone5 hsome5
  refine ⟨s', cc5, by rw [hloop]; exact h1, hcc5, by rw [h2, h5h], by rw [h3, h5c],
    by rw [h4, h5n], ?_, ?_, ?_, ?_⟩
  · rw [h5, h5calls]
    simp
  · rw [h6, h5r, List.set_set]
  · intro x hx
    rcases List.mem_cons.1 hx with e | e
    · subst e
      obtain ⟨y, a1, a2, a3, a4⟩ := h7
      exact ⟨y, a1, a2, a3, by rw [h3] at a4 ⊢; exact a4⟩
    · have hxc : x ≠ c := fun e2 => hcrest (by rw [← e2]; exact e)
      obtain ⟨y, a1, a2, a3, a4⟩ := h5idle x e
      refine ⟨y, ?_, a2, a3, by rw [h3]; exact a4⟩
      rw [h8 x hxc]
      have hne : prev ≠ some x := fun e3 => hpmem x e3 (List.mem_cons_of_mem _ e)
      simp only [hne, if_false]
      exact a1
  · intro x hx
    have hxc : x ≠ c := fun e => hx (by rw [e]; exact List.mem_cons_self _ _)
    rw [h8 x hxc, h5other x hx]

end MemorySimulator
namespace MemorySimulator

/-- The round trip from stage `pre.length` on: component `c` and the stages `rest` after
it are at rest, the stage before `c` (if any) is processing. -/
theorem round_trip_from (r : Nat) :
    ∀ (rest : List Nat) (c : Nat) (pre : List Nat) (prev : Option Nat) (f : Nat)
      (s : MemorySimulator) (req : MemoryRequest),
      s._hier[req.cpuID]? = some (pre ++ c :: rest) →
      (pre ++ c :: rest).Nodup → (pre ++ c :: rest).length < UINT32_MOD →
      s.requests[r]? = some req → req.cmpID = pre.length →
      req.serviced = false → req.destroy = false → req.stalling = false →
      req.type ≠ .CLEAN → req.currentCycle ≤ s._currentCycle →
      (∀ x ∈ c :: rest, s.Idle x) →
      (prev = none → pre = []) →
      (∀ p, prev = some p → (∃ pre0, pre = pre0 ++ [p]) ∧
        ∃ cmpP, s._components[p]? = some cmpP ∧ cmpP._processing = true) →
      ∃ s' cc, AddRequest (f + 4 * rest.length + 6) c r s = some s' ∧
        cc ≤ s._currentCycle ∧
        s'._hier = s._hier ∧ s'._currentCycle = s._currentCycle ∧
        s'._numCPUs = s._numCPUs ∧
        s'.calls = s.calls ++ (c :: rest).map (fun x => ⟨x, false, r⟩) ++
          (c :: rest).reverse.map (fun x => ⟨x, true, r⟩) ∧
        s'.requests = s.requests.set r
          (if prev = none then
            { req with serviced := true, finished := true, cmpID := pre.length,
                       currentCycle := cc }
            else { req with serviced := true, cmpID := pre.length - 1,
                            currentCycle := cc }) ∧
        (∀ x ∈ c :: rest, s'.Idle x) ∧
        (∀ x, x ∉ c :: rest → s'._components[x]? =
          if prev = some x then
            (s._components[x]?).map (fun y => { y with _queue := y._queue ++ [r] })
          else s._components[x]?) := by
  intro rest
  induction rest with
  | nil =>
    intro c pre prev f s req hh hnd hlen hr hid hs hd hst ht hcc hidle hnone hsome
    obtain ⟨cmp, hc, hq, hp, hcy⟩ := hidle c (List.mem_cons_self _ _)
    have hmax : max req.currentCycle cmp._currentCycle ≤ s._currentCycle := max_le hcc hcy
    have e1 : ∀ x : MemoryComponent, (s._components.set c x)[c]? = some x :=
      fun x => getElem?_set_of_get x hc
    have e2 : ∀ x : MemoryRequest, (s.requests.set r x)[r]? = some x :=
      fun x => getElem?_set_of_get x hr
    have hl : (pre.length + 1) % UINT32_MOD = pre.length + 1 :=
      Nat.mod_eq_of_lt (by simpa using hlen)
    have hsend : SendToNextComponent (f + 3) c r
        { (s.setRequest r
              { req with currentCycle := max req.currentCycle cmp._currentCycle }).setComponent c
            { _queue := [], _processing := true,
              _currentCycle := max req.currentCycle cmp._currentCycle }
          with calls := s.calls ++ [⟨c, false, r⟩] } = some
        { _currentCycle := s._currentCycle, _numCPUs := s._numCPUs,
          _components := s._components.set c
            { _queue := [r], _processing := true,
              _currentCycle := max req.currentCycle cmp._currentCycle },
          _hier := s._hier,
          requests := s.requests.set r
            { req with serviced := true, cmpID := pre.length,
                       currentCycle := max req.currentCycle cmp._currentCycle },
          calls := s.calls ++ [⟨c, false, r⟩] } := by
      simp only [SendToNextComponent, setRequest, setComponent, e2, hd, Bool.false_eq_true,
        if_false, ht, hst, hs, hh, hid, hl, List.length_append, List.length_cons,
        List.length_nil, if_true, getElem?_append_length, AddRequest, e1, List.set_set,
        List.nil_append, Nat.zero_add]
    have := visit r f c pre [] prev s _ req cmp _ hh hnd hr hs hd hst ht hcc hc hq hp hcy
      hnone hsome hsend rfl rfl rfl (by simp) rfl hmax (e1 _) (fun x hx => by cases hx)
      (fun x hx => List.getElem?_set_ne
        (fun e => hx (by rw [e]; exact List.mem_cons_self _ _)))
    simpa using this
  | cons c2 rest ih =>
    intro c pre prev f s req hh hnd hlen hr hid hs hd hst ht hcc hidle hnone hsome
    obtain ⟨cmp, hc, hq, hp, hcy⟩ := hidle c (List.mem_cons_self _ _)
    have hmax : max req.currentCycle cmp._currentCycle ≤ s._currentCycle := max_le hcc hcy
    have e1 : ∀ x : MemoryComponent, (s._components.set c x)[c]? = some x :=
      fun x => getElem?_set_of_get x hc
    have e2 : ∀ x : MemoryRequest, (s.requests.set r x)[r]? = some x :=
      fun x => getElem?_set_of_get x hr
    have hlen2 : pre.length + 1 + 1 + rest.length < UINT32_MOD := by
      simp only [List.length_append, List.length_cons] at hlen; omega
    have hl : (pre.length + 1) % UINT32_MOD = pre.length + 1 :=
      Nat.mod_eq_of_lt (by omega)
    have hne : ¬ pre.length + 1 = pre.length + (rest.length + 1 + 1) := by omega
    have hst2 : (pre ++ c :: c2 :: rest)[pre.length + 1]? = some c2 := by
      have := getElem?_append_length (pre ++ [c]) c2 rest
      simpa using this
    have hcrest : c ∉ c2 :: rest := (List.nodup_cons.1 (List.nodup_append.1 hnd).2.1).1
    have happ : pre ++ c :: c2 :: rest = (pre ++ [c]) ++ c2 :: rest := by simp
    -- the state in which the request is handed to the next stage
    obtain ⟨s5, cc5, g1, g2, g3, g4, g5, g6, g7, g8, g9⟩ := ih c2 (pre ++ [c]) (some c) f
      { _currentCycle := s._currentCycle, _numCPUs := s._numCPUs,
        _components := s._components.set c
          { _queue := [], _processing := true,
            _currentCycle := max req.currentCycle cmp._currentCycle },
        _hier := s._hier,
        requests := s.requests.set r
          { req with cmpID := pre.length + 1,
                     currentCycle := max req.currentCycle cmp._currentCycle },
        calls := s.calls ++ [⟨c, false, r⟩] }
      { req with cmpID := pre.length + 1,
                 currentCycle := max req.currentCycle cmp._currentCycle }
      (by rw [← happ]; exact hh) (by rw [← happ]; exact hnd) (by rw [← happ]; exact hlen)
      (e2 _) (by simp) hs hd hst ht hmax
      (fun x hx => by
        obtain ⟨y, a1, a2, a3, a4⟩ := hidle x (List.mem_cons_of_mem _ hx)
        have hxc : c ≠ x := fun e => hcrest (by rw [e]; exact hx)
        exact ⟨y, by rw [← a1]; exact List.getElem?_set_ne hxc, a2, a3, a4⟩)
      (fun e => by cases e)
      (fun p e => by
        cases e
        exact ⟨⟨pre, rfl⟩, _, e1 _, rfl⟩)
    have hfuel : f + 4 * (rest.length + 1) + 3 = f + 4 * rest.length + 6 + 1 := by ring
    have hsend : SendToNextComponent (f + 4 * (rest.length + 1) + 3) c r
        { (s.setRequest r
              { req with currentCycle := max req.currentCycle cmp._currentCycle }).setComponent c
            { _queue := [], _processing := true,
              _currentCycle := max req.currentCycle cmp._currentCycle }
          with calls := s.calls ++ [⟨c, false, r⟩] } = some s5 := by
      rw [hfuel, ← g1]
      simp only [SendToNextComponent, setRequest, setComponent, e2, hd, Bool.false_eq_true,
        if_false, ht, hst, hs, hh, hid, hl, List.length_append, List.length_cons, hne,
        hst2, List.set_set]
    have h5cmp : s5._components[c]? = some
        { _queue := [r], _processing := true,
          _currentCycle := max req.currentCycle cmp._currentCycle } := by
      rw [g9 c hcrest]
      simp only [if_true, e1, Option.map_some', List.nil_append]
    have := visit r (f + 4 * (rest.length + 1)) c pre (c2 :: rest) prev s s5 req cmp cc5
      hh hnd hr hs hd hst ht hcc hc hq hp hcy hnone hsome hsend g3 g4 g5
      (by rw [g6]) (by rw [g7]; simp) g2 h5cmp g8
      (fun x hx => by
        have hx2 : x ∉ c2 :: rest := fun h => hx (List.mem_cons_of_mem _ h)
        have hxc : c ≠ x := fun e => hx (by rw [e]; exact List.mem_cons_self _ _)
        rw [g9 x hx2]
        have : ¬ (some c = some x) := fun e => hxc (Option.some.inj e)
        simp only [this, if_false]
        exact List.getElem?_set_ne hxc)
    have hf2 : f + 4 * (c2 :: rest).length + 6 = f + 4 * (rest.length + 1) + 6 := by simp
    rw [hf2]
    exact this

end MemorySimulator

/-- **C10.** Request routing round trip. Let the hierarchy of the request's CPU be a
pipeline `stages` of `n ≥ 1` distinct components at rest (empty queue, not processing,
clock not past the simulator's), all with the processing functions of `MemoryComponent`.
A CPU request as its constructor leaves it (not issued, serviced, stalling or destroyed),
of a type other than `CLEAN`, with `currentCycle` at most the simulator cycle, submitted
through `ProcessMemoryRequest`, comes back: the call returns, the request is
`finished`, `serviced`, `issued`, with `cmpID = 0`; `ProcessRequest` has been called on it
once by each stage in pipeline order, then `ProcessReturn` once by each stage in reverse
order, so the request became serviced at the last stage; and the pipeline is at rest
again. -/
theorem C10_request_round_trip (s : MemorySimulator) (r : Nat) (req : MemoryRequest)
    (stages : List Nat) (fuel : Nat)
    (hr : s.requests[r]? = some req)
    (hissued : req.issued = false) (hcpu : req.iniType = .CPU)
    (hid : req.cpuID < s._numCPUs)
    (hs : req.serviced = false) (hd : req.destroy = false) (hst : req.stalling = false)
    (ht : req.type ≠ .CLEAN) (hcc : req.currentCycle ≤ s._currentCycle)
    (hh : s._hier[req.cpuID]? = some stages) (hn : 1 ≤ stages.length)
    (hlen : stages.length < UINT32_MOD) (hnd : stages.Nodup)
    (hidle : ∀ c ∈ stages, s.Idle c)
    (hfuel : 4 * stages.length + 2 ≤ fuel) :
    ∃ s' cc, MemorySimulator.ProcessMemoryRequest fuel r s = some s' ∧
      s'.requests[r]? = some
        { req with issued := true, serviced := true, finished := true, cmpID := 0,
                   currentCycle := cc } ∧
      cc ≤ s._currentCycle ∧
      s'.calls = s.calls ++ stages.map (fun c => ⟨c, false, r⟩) ++
        stages.reverse.map (fun c => ⟨c, true, r⟩) ∧
      (∀ c ∈ stages, s'.Idle c) ∧
      (∀ x, x ∉ stages → s'._components[x]? = s._components[x]?) ∧
      (∀ x, x ≠ r → s'.requests[x]? = s.requests[x]?) ∧
      s'._currentCycle = s._currentCycle ∧ s'._hier = s._hier := by
  obtain ⟨c, rest, rfl⟩ : ∃ c rest, stages = c :: rest := by
    cases stages with
    | nil => simp at hn
    | cons c rest => exact ⟨c, rest, rfl⟩
  obtain ⟨f, rfl⟩ : ∃ f, fuel = f + 4 * rest.length + 6 := by
    simp only [List.length_cons] at hfuel
    exact ⟨fuel - (4 * rest.length + 6), by omega⟩
  have e2 : ∀ x : MemoryRequest, (s.requests.set r x)[r]? = some x :=
    fun x => MemorySimulator.getElem?_set_of_get x hr
  have hhl : ¬ s._hier.length = 0 := by
    intro e
    rw [List.getElem?_eq_none (by omega)] at hh
    cases hh
  obtain ⟨s2, cc, g1, g2, g3, g4, g5, g6, g7, g8, g9⟩ :=
    MemorySimulator.round_trip_from r rest c [] none f
      (s.setRequest r { req with issued := true, cmpID := 0 })
      { req with issued := true, cmpID := 0 }
      hh (by simpa using hnd) (by simpa using hlen) (e2 _) rfl hs hd hst ht hcc hidle
      (fun _ => rfl) (fun p e => by cases e)
  have hreq2 : s2.requests[r]? = some
      { req with issued := true, serviced := true, finished := true, cmpID := 0,
                 currentCycle := cc } := by
    rw [g7]
    simp only [MemorySimulator.setRequest, List.set_set, if_true, List.length_nil]
    exact MemorySimulator.getElem?_set_of_get _ hr
  have g2 : cc ≤ s._currentCycle := g2
  have g4 : s2._currentCycle = s._currentCycle := g4
  have hngt : ¬ cc > s2._currentCycle := by
    rw [g4]
    omega
  refine ⟨s2, cc, ?_, hreq2, g2, ?_, g8, ?_, ?_, g4, g3⟩
  · have hcond : req.issued = false ∧ req.iniType = .CPU ∧ req.cpuID < s._numCPUs :=
      ⟨hissued, hcpu, hid⟩
    simp only [MemorySimulator.ProcessMemoryRequest, hr, if_pos hcond, hhl, if_false, hh]
    rw [g1]
    simp only [hreq2, hngt, if_false]
  · rw [g6]; rfl
  · intro x hx
    rw [g9 x hx]
    simp only [reduceCtorEq, if_false, MemorySimulator.setRequest]
  · intro x hx
    rw [g7]
    simp only [MemorySimulator.setRequest, List.set_set]
    exact List.getElem?_set_ne (Ne.symm hx)

/-- Witness for C10: the two-stage pipeline and a `READ` request with `icount = 100`. -/
theorem C10_request_round_trip_witness :
    ∃ s' cc, MemorySimulator.ProcessMemoryRequest 10 0 (MemorySimulator.twoStage .READ) =
        some s' ∧
      s'.requests[0]? = some
        { MemorySimulator.exampleRequest .READ with
          issued := true, serviced := true, finished := true, cmpID := 0,
          currentCycle := cc } ∧
      cc ≤ 5 ∧
      s'.calls = [] ++ [0, 1].map (fun c => ⟨c, false, 0⟩) ++
        [0, 1].reverse.map (fun c => ⟨c, true, 0⟩) ∧
      (∀ c ∈ [0, 1], s'.Idle c) ∧
      (∀ x, x ∉ [0, 1] →
        s'._components[x]? = (MemorySimulator.twoStage .READ)._components[x]?) ∧
      (∀ x, x ≠ 0 → s'.requests[x]? = (MemorySimulator.twoStage .READ).requests[x]?) ∧
      s'._currentCycle = 5 ∧ s'._hier = [[0, 1]] :=
  C10_request_round_trip (MemorySimulator.twoStage .READ) 0
    (MemorySimulator.exampleRequest .READ) [0, 1] 10 rfl rfl rfl (by decide) rfl rfl rfl
    (by decide) (by decide) rfl (by decide) (by decide) (by decide)
    (by
      intro c hc
      simp only [List.mem_cons, List.mem_singleton, List.not_mem_nil, or_false] at hc
      rcases hc with e | e
      · subst e; exact ⟨MemoryComponent.new, rfl, rfl, rfl, by decide⟩
      · subst e; exact ⟨MemoryComponent.new, rfl, rfl, rfl, by decide⟩)
    (by decide)

/-- A `CLEAN` request never leaves a component whose processing functions are those of
`MemoryComponent`: `SendToNextComponent` puts it back into the queue of the same
component, and the loop of `ProcessPendingRequests` takes it again. -/
theorem MemorySimulator.ProcessLoop_clean_spins :
    ∀ (fuel c r : Nat) (s : MemorySimulator) (cmp : MemoryComponent) (req : MemoryRequest),
      s._components[c]? = some cmp → cmp._queue = [r] → cmp._processing = true →
      cmp._currentCycle ≤ s._currentCycle →
      s.requests[r]? = some req → req.type = .CLEAN → req.destroy = false →
      req.currentCycle ≤ s._currentCycle →
      MemorySimulator.ProcessLoop fuel c r s = none := by
  intro fuel
  induction fuel with
  | zero =>
    intro c r s cmp req _ _ _ _ _ _ _ _
    simp only [MemorySimulator.ProcessLoop]
  | succ n ih =>
    intro c r s cmp req hc hq hp hcy hr ht hd hcc
    have e1 : ∀ x : MemoryComponent, (s._components.set c x)[c]? = some x :=
      fun x => MemorySimulator.getElem?_set_of_get x hc
    have e2 : ∀ x : MemoryRequest, (s.requests.set r x)[r]? = some x :=
      fun x => MemorySimulator.getElem?_set_of_get x hr
    have hncy : ¬ cmp._currentCycle > s._currentCycle := by omega
    have hmax : max req.currentCycle cmp._currentCycle ≤ s._currentCycle := max_le hcc hcy
    simp only [MemorySimulator.ProcessLoop, hc, hr, hcc, if_true, hncy, if_false, hq,
      List.erase_cons_head, Nat.add_zero]
    cases n with
    | zero => simp only [MemorySimulator.SendToNextComponent, ite_self]
    | succ m =>
      cases m with
      | zero =>
        simp only [MemorySimulator.SendToNextComponent, MemorySimulator.setComponent,
          MemorySimulator.setRequest, hr, e2, hd, ht, Bool.false_eq_true, if_false, if_true,
          MemorySimulator.AddRequest, ite_self]
      | succ k =>
        by_cases hsv : req.serviced = true
        · simp only [hsv, if_true, MemorySimulator.SendToNextComponent,
            MemorySimulator.setComponent, MemorySimulator.setRequest, hr, hd, ht,
            Bool.false_eq_true, if_false, MemorySimulator.AddRequest, e1, hp,
            List.set_set, List.nil_append, MemorySimulator.queue_top]
          exact ih c r _ _ req (e1 _) rfl rfl hmax hr ht hd hcc
        · simp only [hsv, if_false, MemorySimulator.SendToNextComponent,
            MemorySimulator.setComponent, MemorySimulator.setRequest, e2, hd, ht,
            Bool.false_eq_true, if_true, MemorySimulator.AddRequest, e1, hp,
            List.set_set, List.nil_append, MemorySimulator.queue_top]
          exact ih c r _ _ _ (e1 _) rfl rfl hmax (e2 _) rfl rfl hmax

/-- **C10, counterexample.** In the two-stage pipeline, a CPU request of type `CLEAN` with
`currentCycle = 3` at simulator cycle `5` never comes back: `ProcessMemoryRequest` does
not return, whatever the fuel. -/
theorem C10_clean_request_never_returns :
    ¬ ∃ fuel s', MemorySimulator.ProcessMemoryRequest fuel 0
      (MemorySimulator.twoStage .CLEAN) = some s' := by
  rintro ⟨fuel, s', h⟩
  have hspin : ∀ f, MemorySimulator.AddRequest f 0 0
      ((MemorySimulator.twoStage .CLEAN).setRequest 0
        { (MemorySimulator.exampleRequest .CLEAN) with issued := true, cmpID := 0 }) =
      none := by
    intro f
    cases f with
    | zero => simp only [MemorySimulator.AddRequest]
    | succ f1 =>
      cases f1 with
      | zero =>
        simp only [MemorySimulator.AddRequest, MemorySimulator.ProcessPendingRequests]
        rfl
      | succ f2 =>
        have := MemorySimulator.ProcessLoop_clean_spins f2 0 0
          { _currentCycle := 5, _numCPUs := 1,
            _components := [⟨0, true, [0]⟩, MemoryComponent.new],
            _hier := [[0, 1]],
            requests := [{ (MemorySimulator.exampleRequest .CLEAN) with
              issued := true, cmpID := 0 }],
            calls := [] }
          ⟨0, true, [0]⟩ _ rfl rfl rfl (by decide) rfl rfl rfl (by decide)
        simp only [MemorySimulator.AddRequest, MemorySimulator.ProcessPendingRequests]
        exact this
  have hreq : (MemorySimulator.twoStage .CLEAN).requests[0]? =
      some (MemorySimulator.exampleRequest .CLEAN) := rfl
  have hcond : (MemorySimulator.exampleRequest .CLEAN).issued = false ∧
      (MemorySimulator.exampleRequest .CLEAN).iniType = .CPU ∧
      (MemorySimulator.exampleRequest .CLEAN).cpuID <
        (MemorySimulator.twoStage .CLEAN)._numCPUs := ⟨rfl, rfl, by decide⟩
  have hhier : (MemorySimulator.twoStage .CLEAN)._hier[
      (MemorySimulator.exampleRequest .CLEAN).cpuID]? = some [0, 1] := rfl
  have hlen : ¬ (MemorySimulator.twoStage .CLEAN)._hier.length = 0 := by decide
  simp only [MemorySimulator.ProcessMemoryRequest, hreq, if_pos hcond, hlen, if_false, hhier,
    hspin] at h
  cases h

/-- **C17.** The `rbRcC` address mapping is a mixed-radix decomposition. For column size,
channel, row-size, rank and bank counts all at least `1`, `AddressMapping` returns, the
ids it stores are within their ranges, and
`v / columnSize = (((row * numBanks + bank) * numRanks + rank) * rowSize + column) *
numChannels + channel`; two requests get the same five ids exactly when their virtual
addresses have the same quotient by `columnSize`. -/
theorem C17_address_mapping_mixed_radix (s : CmpDRAMCtlr) (req : MemoryRequest)
    (hm : s._addressMapping = "rbRcC") (h1 : 1 ≤ s._columnSize) (h2 : 1 ≤ s._numChannels)
    (h3 : 1 ≤ s._rowSize) (h4 : 1 ≤ s._numRanks) (h5 : 1 ≤ s._numBanks) :
    ∃ req1, s.AddressMapping req = some req1 ∧
      req1.dramChannelID < s._numChannels ∧ req1.dramColumnID < s._rowSize ∧
      req1.dramRankID < s._numRanks ∧ req1.dramBankID < s._numBanks ∧
      req.virtualAddress / s._columnSize =
        (((req1.dramRowID * s._numBanks + req1.dramBankID) * s._numRanks +
          req1.dramRankID) * s._rowSize + req1.dramColumnID) * s._numChannels +
          req1.dramChannelID ∧
      req1 = { req with dramChannelID := req1.dramChannelID,
                        dramColumnID := req1.dramColumnID, dramRankID := req1.dramRankID,
                        dramBankID := req1.dramBankID, dramRowID := req1.dramRowID } ∧
      ∀ reqB reqB1, s.AddressMapping reqB = some reqB1 →
        ((req1.dramChannelID = reqB1.dramChannelID ∧ req1.dramRankID = reqB1.dramRankID ∧
          req1.dramBankID = reqB1.dramBankID ∧ req1.dramRowID = reqB1.dramRowID ∧
          req1.dramColumnID = reqB1.dramColumnID) ↔
          req.virtualAddress / s._columnSize = reqB.virtualAddress / s._columnSize) := by
  have hz : ¬ (s._columnSize = 0 ∨ s._numChannels = 0 ∨ s._rowSize = 0 ∨ s._numRanks = 0 ∨
      s._numBanks = 0) := by omega
  have key : ∀ a : Nat,
      a = ((((a / s._numChannels / s._rowSize / s._numRanks / s._numBanks) * s._numBanks +
        (a / s._numChannels / s._rowSize / s._numRanks) % s._numBanks) * s._numRanks +
        (a / s._numChannels / s._rowSize) % s._numRanks) * s._rowSize +
        (a / s._numChannels) % s._rowSize) * s._numChannels + a % s._numChannels := by
    intro a
    have e1 := Nat.div_add_mod a s._numChannels
    have e2 := Nat.div_add_mod (a / s._numChannels) s._rowSize
    have e3 := Nat.div_add_mod (a / s._numChannels / s._rowSize) s._numRanks
    have e4 := Nat.div_add_mod (a / s._numChannels / s._rowSize / s._numRanks) s._numBanks
    rw [Nat.mul_comm] at e1 e2 e3 e4
    rw [e4, e3, e2, e1]
  have hmap : ∀ q : MemoryRequest, s.AddressMapping q = some
      { q with
        dramChannelID := (q.virtualAddress / s._columnSize) % s._numChannels,
        dramColumnID := (q.virtualAddress / s._columnSize / s._numChannels) % s._rowSize,
        dramRankID :=
          (q.virtualAddress / s._columnSize / s._numChannels / s._rowSize) % s._numRanks,
        dramBankID :=
          (q.virtualAddress / s._columnSize / s._numChannels / s._rowSize / s._numRanks) %
            s._numBanks,
        dramRowID :=
          q.virtualAddress / s._columnSize / s._numChannels / s._rowSize / s._numRanks /
            s._numBanks } := by
    intro q
    simp only [CmpDRAMCtlr.AddressMapping, hm, if_true, hz, if_false]
  refine ⟨_, hmap req, Nat.mod_lt _ (by omega), Nat.mod_lt _ (by omega),
    Nat.mod_lt _ (by omega), Nat.mod_lt _ (by omega), key _, rfl, ?_⟩
  intro reqB reqB1 hB
  rw [hmap reqB] at hB
  have hB := (Option.some.inj hB).symm
  subst hB
  constructor
  · rintro ⟨a1, a2, a3, a4, a5⟩
    simp only at a1 a2 a3 a4 a5
    rw [key (req.virtualAddress / s._columnSize), key (reqB.virtualAddress / s._columnSize),
      a1, a2, a3, a4, a5]
  · intro e
    simp only [e, and_self]

/-- Witness for C17: two channels, two ranks, eight banks, rows of 128 columns of 64
bytes, and the address `1000000`. -/
theorem C17_address_mapping_mixed_radix_witness :
    ∃ req1, CmpDRAMCtlr.twoChannel.AddressMapping
        (MemoryRequest.new .CPU 0 0 .READ 0 1000000 1000000 64 0) = some req1 ∧
      req1.dramChannelID < 2 ∧ req1.dramColumnID < 128 ∧
      req1.dramRankID < 2 ∧ req1.dramBankID < 8 ∧
      1000000 / 64 =
        (((req1.dramRowID * 8 + req1.dramBankID) * 2 + req1.dramRankID) * 128 +
          req1.dramColumnID) * 2 + req1.dramChannelID ∧
      req1 = { (MemoryRequest.new .CPU 0 0 .READ 0 1000000 1000000 64 0) with
                dramChannelID := req1.dramChannelID,
                dramColumnID := req1.dramColumnID, dramRankID := req1.dramRankID,
                dramBankID := req1.dramBankID, dramRowID := req1.dramRowID } ∧
      ∀ reqB reqB1, CmpDRAMCtlr.twoChannel.AddressMapping reqB = some reqB1 →
        ((req1.dramChannelID = reqB1.dramChannelID ∧ req1.dramRankID = reqB1.dramRankID ∧
          req1.dramBankID = reqB1.dramBankID ∧ req1.dramRowID = reqB1.dramRowID ∧
          req1.dramColumnID = reqB1.dramColumnID) ↔
          1000000 / 64 = reqB.virtualAddress / 64) :=
  C17_address_mapping_mixed_radix CmpDRAMCtlr.twoChannel
    (MemoryRequest.new .CPU 0 0 .READ 0 1000000 1000000 64 0) rfl (by decide) (by decide)
    (by decide) (by decide) (by decide)

namespace CmpDRAMCtlr

theorem Steps.refl_same {B : Nat} {s s1 : CmpDRAMCtlr} (h : core s1 = core s)
    (h2 : s1.simulatorCycle = s.simulatorCycle) : Steps B s s1 :=
  Relation.ReflTransGen.single (Step.same h h2)

theorem Steps.steps_chain {B : Nat} {s s1 s2 : CmpDRAMCtlr} (h1 : Steps B s s1)
    (h2 : Steps B s1 s2) : Steps B s s2 :=
  Relation.ReflTransGen.trans h1 h2

theorem core_setRequest (s : CmpDRAMCtlr) (r : Nat) (req : MemoryRequest) :
    core (s.setRequest r req) = core s := rfl

theorem core_SendToNextComponent (next : Hierarchy) (s : CmpDRAMCtlr) (r : Nat) :
    core (s.SendToNextComponent next r) = core s := rfl

theorem map_modify_same {α β : Type} (g : α → β) (f : α → α) (h : ∀ a, g (f a) = g a)
    (l : List α) (i : Nat) : (l.modify f i).map g = l.map g := by
  apply List.ext_getElem?
  intro j
  simp only [List.getElem?_map, List.getElem?_modify]
  rcases l[j]? with _ | a
  · rfl
  · by_cases hij : i = j
    · simp [hij, h]
    · simp [hij]

theorem core_modifyChannel (s : CmpDRAMCtlr) (ch : Nat) (f : DRAMChannel → DRAMChannel)
    (h : ∀ c, chanCore (f c) = chanCore c) : core (s.modifyChannel ch f) = core s := by
  have := map_modify_same chanCore f h s._channels ch
  simp only [core, modifyChannel, this]

theorem chanCore_setQueue (c : DRAMChannel) (mode : DRAMChannelMode) (q : List Nat) :
    chanCore (c.setQueue mode q) = chanCore c := by
  cases mode <;> rfl

theorem chanCore_switchMode (s : CmpDRAMCtlr) (c : DRAMChannel) :
    chanCore (s.switchMode c) = chanCore c := by
  unfold switchMode
  split
  · rfl
  · split <;> rfl

end CmpDRAMCtlr
namespace CmpDRAMCtlr

theorem getRank_modifyChannel (s : CmpDRAMCtlr) (ch : Nat) (f : DRAMChannel → DRAMChannel)
    (h : ∀ c, (f c).ranks = c.ranks) (ch1 rk1 : Nat) :
    (s.modifyChannel ch f).getRank ch1 rk1 = s.getRank ch1 rk1 := by
  simp only [getRank, modifyChannel, List.getElem?_modify]
  rcases s._channels[ch1]? with _ | c
  · rfl
  · by_cases e : ch = ch1
    · simp [e, h]
    · simp [e]

theorem getRank_modifyRank (s : CmpDRAMCtlr) (ch rk : Nat) (f : DRAMRank → DRAMRank)
    (ch1 rk1 : Nat) :
    (s.modifyRank ch rk f).getRank ch1 rk1 =
      (s.getRank ch1 rk1).map (fun x => if ch1 = ch ∧ rk1 = rk then f x else x) := by
  simp only [getRank, modifyRank, modifyChannel, List.getElem?_modify]
  rcases s._channels[ch1]? with _ | c
  · rfl
  · by_cases e : ch = ch1
    · subst e
      simp only [if_true, Option.map_eq_map, Option.map_some', Option.some_bind,
        List.getElem?_modify, true_and]
      rcases c.ranks[rk1]? with _ | x
      · rfl
      · by_cases e2 : rk = rk1
        · simp [e2]
        · have : ¬ rk1 = rk := fun h => e2 h.symm
          simp [e2, this]
    · have : ¬ ch1 = ch := fun h => e h.symm
      simp only [e, if_false, Option.map_eq_map, Option.map_some', Option.some_bind,
        this, false_and]
      rcases c.ranks[rk1]? with _ | x <;> rfl

theorem getBank_modifyChannel (s : CmpDRAMCtlr) (ch : Nat) (f : DRAMChannel → DRAMChannel)
    (h : ∀ c, (f c).ranks = c.ranks) (ch1 rk1 bk1 : Nat) :
    (s.modifyChannel ch f).getBank ch1 rk1 bk1 = s.getBank ch1 rk1 bk1 := by
  simp only [getBank, getRank_modifyChannel s ch f h]

theorem getBank_modifyRank (s : CmpDRAMCtlr) (ch rk : Nat) (f : DRAMRank → DRAMRank)
    (h : ∀ x, (f x).banks = x.banks) (ch1 rk1 bk1 : Nat) :
    (s.modifyRank ch rk f).getBank ch1 rk1 bk1 = s.getBank ch1 rk1 bk1 := by
  simp only [getBank, getRank_modifyRank]
  rcases s.getRank ch1 rk1 with _ | x
  · rfl
  · by_cases e : ch1 = ch ∧ rk1 = rk
    · simp [e, h]
    · simp [e]

theorem getBank_modifyBank (s : CmpDRAMCtlr) (ch rk bk : Nat) (f : DRAMBank → DRAMBank)
    (ch1 rk1 bk1 : Nat) :
    (s.modifyBank ch rk bk f).getBank ch1 rk1 bk1 =
      (s.getBank ch1 rk1 bk1).map
        (fun b => if ch1 = ch ∧ rk1 = rk ∧ bk1 = bk then f b else b) := by
  simp only [getBank, modifyBank, getRank_modifyRank]
  rcases s.getRank ch1 rk1 with _ | x
  · rfl
  · by_cases e : ch1 = ch ∧ rk1 = rk
    · simp only [e, and_self, if_true, Option.map_some', Option.some_bind,
        List.getElem?_modify, true_and]
      rcases x.banks[bk1]? with _ | b
      · rfl
      · by_cases e2 : bk = bk1
        · simp [e2]
        · have : ¬ bk1 = bk := fun h => e2 h.symm
          simp [e2, this]
    · have e3 : ¬ (ch1 = ch ∧ rk1 = rk ∧ bk1 = bk) := fun h => e ⟨h.1, h.2.1⟩
      simp only [e, if_false, Option.map_some', Option.some_bind, e3]
      rcases x.banks[bk1]? with _ | b <;> rfl

theorem getRank_core (s : CmpDRAMCtlr) (ch rk : Nat) :
    (core s).getRank ch rk = s.getRank ch rk := by
  simp only [getRank, core, List.getElem?_map]
  rcases s._channels[ch]? with _ | c <;> rfl

theorem getBank_core (s : CmpDRAMCtlr) (ch rk bk : Nat) :
    (core s).getBank ch rk bk = s.getBank ch rk bk := by
  simp only [getBank, getRank_core]

theorem getRank_of_core {s s1 : CmpDRAMCtlr} (h : core s1 = core s) (ch rk : Nat) :
    s1.getRank ch rk = s.getRank ch rk := by
  rw [← getRank_core s1, h, getRank_core]

theorem getBank_of_core {s s1 : CmpDRAMCtlr} (h : core s1 = core s) (ch rk bk : Nat) :
    s1.getBank ch rk bk = s.getBank ch rk bk := by
  rw [← getBank_core s1, h, getBank_core]

end CmpDRAMCtlr

theorem CmdArray.get_after_set (a : CmdArray) (c c2 : DRAMCommand) (v : Nat) :
    (a.set c v).get c2 = if c2 = c then v else a.get c2 := by
  cases c <;> cases c2 <;> rfl

theorem CmdArray.get_updateMax (a : CmdArray) (c c2 : DRAMCommand) (v : Nat) :
    (a.updateMax c v).get c2 = if c2 = c then max (a.get c2) v else a.get c2 := by
  unfold CmdArray.updateMax
  by_cases h : a.get c < v
  · rw [if_pos h, CmdArray.get_after_set]
    by_cases e : c2 = c
    · subst e
      rw [if_pos rfl, if_pos rfl]
      omega
    · rw [if_neg e, if_neg e]
  · rw [if_neg h]
    by_cases e : c2 = c
    · subst e
      rw [if_pos rfl]
      omega
    · rw [if_neg e]

namespace CmpDRAMCtlr

theorem scheduleBank_next (s : CmpDRAMCtlr) (cmd c2 : DRAMCommand) (row : Nat)
    (mode : DRAMChannelMode) (b : DRAMBank) :
    (s.scheduleBank cmd row mode b).nextIssueCycle.get c2 =
      max (b.nextIssueCycle.get c2) (s.bankNext cmd c2) := by
  cases cmd <;> cases c2 <;>
    simp [scheduleBank, CmdArray.get_updateMax, bankNext]

theorem ScheduleRequest_spec {s s1 : CmpDRAMCtlr} {ch rk bk : Nat} {cmd : DRAMCommand}
    {r : Nat} (h : s.ScheduleRequest ch rk bk cmd r = some s1) :
    ∃ req chan, s.requests[r]? = some req ∧ s._channels[ch]? = some chan ∧
      s1 = { s with _channels := s1._channels,
                    issued := s.issued ++ [DRAMIssue.mk ch rk bk cmd s._currentCycle] } ∧
      (∀ ch1 rk1 bk1, s1.getBank ch1 rk1 bk1 =
        (s.getBank ch1 rk1 bk1).map (fun b =>
          if ch1 = ch ∧ rk1 = rk ∧ bk1 = bk then s.scheduleBank cmd req.dramRowID chan.mode b
          else b)) ∧
      (∀ ch1 rk1, (s1.getRank ch1 rk1).map (fun x => (x.lastActivates, x.nextActivate)) =
        (s.getRank ch1 rk1).map (fun x =>
          if ch1 = ch ∧ rk1 = rk ∧ cmd = .CMD_ACT then
            ((s.scheduleRank x).lastActivates, (s.scheduleRank x).nextActivate)
          else (x.lastActivates, x.nextActivate))) := by
  unfold ScheduleRequest at h
  rcases hr : s.requests[r]? with _ | req
  · simp [hr] at h
  rcases hc : s._channels[ch]? with _ | chan
  · simp [hr, hc] at h
  rcases hk : s.getRank ch rk with _ | rank
  · simp [hr, hc, hk] at h
  rcases hb : s.getBank ch rk bk with _ | bank
  · simp [hr, hc, hk, hb] at h
  simp only [hr, hc, hk, hb] at h
  refine ⟨req, chan, rfl, rfl, ?_⟩
  have hmb : ∀ ch1 rk1, (s.modifyBank ch rk bk
      (s.scheduleBank cmd req.dramRowID chan.mode)).getRank ch1 rk1 =
      (s.getRank ch1 rk1).map (fun x => if ch1 = ch ∧ rk1 = rk then
        { x with banks := x.banks.modify (s.scheduleBank cmd req.dramRowID chan.mode) bk }
        else x) := fun ch1 rk1 => getRank_modifyRank s ch rk _ ch1 rk1
  by_cases ha : cmd = .CMD_ACT
  · subst ha
    simp only at h
    by_cases he : rank.lastActivates = []
    · simp [he] at h
    rw [if_neg he] at h
    injection h with h
    subst h
    refine ⟨rfl, ?_, ?_⟩
    · intro ch1 rk1 bk1
      refine (getBank_modifyRank _ ch rk s.scheduleRank (fun x => rfl) ch1 rk1 bk1).trans ?_
      exact getBank_modifyBank s ch rk bk _ ch1 rk1 bk1
    · intro ch1 rk1
      rw [getRank_modifyRank _ ch rk s.scheduleRank ch1 rk1]
      have h3 := hmb ch1 rk1
      rw [Option.map_map]
      refine (congrArg _ h3).trans ?_
      rcases s.getRank ch1 rk1 with _ | x
      · rfl
      · by_cases e : ch1 = ch ∧ rk1 = rk
        · simp [e, scheduleRank]
        · have e2 : ¬ (ch1 = ch ∧ rk1 = rk ∧ DRAMCommand.CMD_ACT = .CMD_ACT) :=
            fun h => e ⟨h.1, h.2.1⟩
          simp [e, e2]
  · have hranks : ∀ c : DRAMChannel, (s.scheduleChannel cmd c).ranks = c.ranks := by
      intro c
      cases cmd <;> rfl
    have h4 : ∃ s2 : CmpDRAMCtlr, s2._channels = (s.modifyBank ch rk bk
          (s.scheduleBank cmd req.dramRowID chan.mode))._channels ∧
        s2 = { s with _channels := s2._channels,
                      issued := s.issued ++ [DRAMIssue.mk ch rk bk cmd s._currentCycle] } ∧
        s1 = s2.modifyChannel ch (s.scheduleChannel cmd) := by
      cases cmd
      · exact absurd rfl ha
      all_goals
        injection h with h
        refine ⟨_, ?_, ?_, h.symm⟩ <;> rfl
    obtain ⟨s2, h5, h6, h7⟩ := h4
    have g1 : ∀ ch1 rk1, s2.getRank ch1 rk1 = (s.modifyBank ch rk bk
          (s.scheduleBank cmd req.dramRowID chan.mode)).getRank ch1 rk1 := by
      intro ch1 rk1
      simp only [getRank, h5]
    subst h7
    refine ⟨?_, ?_, ?_⟩
    · rw [h6]
      rfl
    · intro ch1 rk1 bk1
      rw [getBank_modifyChannel _ ch _ hranks]
      have : s2.getBank ch1 rk1 bk1 = (s.modifyBank ch rk bk
          (s.scheduleBank cmd req.dramRowID chan.mode)).getBank ch1 rk1 bk1 := by
        simp only [getBank, g1]
      rw [this]
      exact getBank_modifyBank s ch rk bk _ ch1 rk1 bk1
    · intro ch1 rk1
      rw [getRank_modifyChannel _ ch _ hranks, g1, hmb]
      rcases s.getRank ch1 rk1 with _ | x
      · rfl
      · by_cases e : ch1 = ch ∧ rk1 = rk
        · simp [e, ha]
        · have e2 : ¬ (ch1 = ch ∧ rk1 = rk ∧ cmd = .CMD_ACT) :=
            fun h => e ⟨h.1, h.2.1⟩
          simp [e, e2]

end CmpDRAMCtlr

namespace CmpDRAMCtlr

theorem bankNext_eq (s : CmpDRAMCtlr) (hp : s.ParamsOK)
    (hc : s._currentCycle + 2 * UINT32_MOD ≤ UINT64_MOD) (c1 c2 : DRAMCommand) :
    s.bankNext c1 c2 = s._currentCycle + s.minInterval c1 c2 := by
  obtain ⟨h1, h2, h3, h4, h5, h6, h7, h8, h9, h10⟩ := hp
  have e : ∀ a b : Nat, a + b < UINT64_MOD → add64 a b = a + b :=
    fun a b h => Nat.mod_eq_of_lt h
  cases c1 <;> cases c2 <;> simp only [bankNext, minInterval] <;>
    first
    | (rw [e _ _ (by omega)])
    | (rw [e s._currentCycle _ (by omega), e _ _ (by omega)]; omega)

theorem minInterval_of_core {s s1 : CmpDRAMCtlr} (h : core s1 = core s) :
    s1.minInterval = s.minInterval := by
  have h1 : (core s1).minInterval = (core s).minInterval := by rw [h]
  exact h1

theorem TimingInv.timing_of_core {B : Nat} {s s1 : CmpDRAMCtlr} (h : core s1 = core s)
    (hi : TimingInv B s) : TimingInv B s1 := by
  have hcur : s1._currentCycle = s._currentCycle := congrArg (fun x => x._currentCycle) h
  have hiss : s1.issued = s.issued := congrArg (fun x => x.issued) h
  have hrat : s1._memProcessorRatio = s._memProcessorRatio :=
    congrArg (fun x => x._memProcessorRatio) h
  have hpar : (core s1).ParamsOK = (core s).ParamsOK := by rw [h]
  refine ⟨?_, ?_, ?_, ?_, ?_⟩
  · have : s1.ParamsOK = s.ParamsOK := hpar
    rw [this]
    exact hi.params
  · rw [hcur, hrat]
    exact hi.clock
  · rw [hcur, hiss]
    exact hi.past
  · intro e he b hb c2
    rw [hiss] at he
    rw [getBank_of_core h] at hb
    rw [minInterval_of_core h]
    exact hi.covers e he b hb c2
  · unfold BankTiming
    rw [hiss, minInterval_of_core h]
    exact hi.timing

theorem TimingInv.timing_tick {B : Nat} {s : CmpDRAMCtlr} (hB : B + 3 * UINT32_MOD ≤ UINT64_MOD)
    (hc : s._currentCycle ≤ B) (hi : TimingInv B s) :
    TimingInv B { s with _currentCycle := add64 s._currentCycle s._memProcessorRatio } := by
  have hr : s._memProcessorRatio < UINT32_MOD := hi.params.2.2.2.2.2.2.2.2.2
  have e : add64 s._currentCycle s._memProcessorRatio =
      s._currentCycle + s._memProcessorRatio :=
    Nat.mod_eq_of_lt (by omega)
  refine ⟨hi.params, ?_, ?_, hi.covers, hi.timing⟩
  · show add64 s._currentCycle s._memProcessorRatio ≤ B + s._memProcessorRatio
    omega
  · intro x hx
    have := hi.past x hx
    show x.cycle ≤ add64 s._currentCycle s._memProcessorRatio
    omega

theorem TimingInv.timing_issue {B : Nat} {s s1 : CmpDRAMCtlr} {ch rk bk : Nat} {cmd : DRAMCommand}
    {r : Nat} (hB : B + 3 * UINT32_MOD ≤ UINT64_MOD) (hg : Guard s ch rk bk cmd r)
    (h : s.ScheduleRequest ch rk bk cmd r = some s1) (hi : TimingInv B s) :
    TimingInv B s1 := by
  obtain ⟨req, chan, hr, hc, hs1, hbank, -⟩ := ScheduleRequest_spec h
  obtain ⟨req1, chan1, rank1, bank1, -, -, -, -, -, hb1, hready, -⟩ := hg
  have hr10 : s._memProcessorRatio < UINT32_MOD := hi.params.2.2.2.2.2.2.2.2.2
  have hclk := hi.clock
  have hmi : s1.minInterval = s.minInterval := by rw [hs1]; rfl
  have hcur : s1._currentCycle = s._currentCycle := by rw [hs1]
  have hiss : s1.issued = s.issued ++ [DRAMIssue.mk ch rk bk cmd s._currentCycle] := by
    rw [hs1]
  have hbn := bankNext_eq s hi.params (by omega)
  refine ⟨?_, ?_, ?_, ?_, ?_⟩
  · have : s1.ParamsOK = s.ParamsOK := by rw [hs1]; rfl
    rw [this]
    exact hi.params
  · have : s1._memProcessorRatio = s._memProcessorRatio := by rw [hs1]
    rw [hcur, this]
    exact hclk
  · intro e he
    rw [hiss, List.mem_append, List.mem_singleton] at he
    rw [hcur]
    rcases he with he | he
    · exact hi.past e he
    · subst he
      exact Nat.le_refl _
  · intro e he b hb c2
    rw [hiss, List.mem_append, List.mem_singleton] at he
    rw [hbank] at hb
    rw [hmi]
    rcases hold : s.getBank e.channel e.rank e.bank with _ | b0
    · rw [hold] at hb
      cases hb
    rw [hold] at hb
    simp only [Option.map_some', Option.some.injEq] at hb
    rcases he with he | he
    · have h0 := hi.covers e he b0 hold c2
      by_cases hsame : e.channel = ch ∧ e.rank = rk ∧ e.bank = bk
      · rw [if_pos hsame] at hb
        subst hb
        rw [scheduleBank_next]
        omega
      · rw [if_neg hsame] at hb
        subst hb
        exact h0
    · subst he
      simp only [and_self, if_true] at hb
      subst hb
      rw [scheduleBank_next, hbn]
      simp only
      omega
  · unfold BankTiming
    rw [hiss, hmi, List.pairwise_append]
    refine ⟨hi.timing, List.pairwise_singleton _ _, ?_⟩
    intro e he e2 he2 h1 h2 h3
    rw [List.mem_singleton] at he2
    subst he2
    simp only at h1 h2 h3 ⊢
    have hb2 : s.getBank e.channel e.rank e.bank = some bank1 := by
      rw [h1, h2, h3]
      exact hb1
    have := hi.covers e he bank1 hb2 cmd
    omega

theorem TimingInv.timing_step {B : Nat} {s s1 : CmpDRAMCtlr} (hB : B + 3 * UINT32_MOD ≤ UINT64_MOD)
    (h : Step B s s1) (hi : TimingInv B s) : TimingInv B s1 := by
  cases h with
  | same hc _ => exact hi.timing_of_core hc
  | tick hc he =>
    subst he
    exact hi.timing_tick hB hc
  | issue ch rk bk cmd r hg hs => exact hi.timing_issue hB hg hs

theorem TimingInv.steps {B : Nat} {s s1 : CmpDRAMCtlr} (hB : B + 3 * UINT32_MOD ≤ UINT64_MOD)
    (h : Steps B s s1) (hi : TimingInv B s) : TimingInv B s1 := by
  induction h with
  | refl => exact hi
  | tail _ hstep ih => exact ih.timing_step hB hstep

end CmpDRAMCtlr

namespace CmpDRAMCtlr

theorem Step.step_sim {B : Nat} {s s1 : CmpDRAMCtlr} (h : Step B s s1) :
    s1.simulatorCycle = s.simulatorCycle := by
  cases h with
  | same _ h2 => exact h2
  | tick _ he => rw [he]
  | issue ch rk bk cmd r _ hs =>
    obtain ⟨_, _, _, _, hs1, _⟩ := ScheduleRequest_spec hs
    rw [hs1]

theorem Steps.steps_sim {B : Nat} {s s1 : CmpDRAMCtlr} (h : Steps B s s1) :
    s1.simulatorCycle = s.simulatorCycle := by
  induction h with
  | refl => rfl
  | tail _ hstep ih => rw [hstep.step_sim, ih]

theorem Quiet.rfl_same {B : Nat} {s s1 : CmpDRAMCtlr} (h : core s1 = core s)
    (h2 : s1.simulatorCycle = s.simulatorCycle) : Quiet B s s1 :=
  ⟨Steps.refl_same h h2, congrArg (fun x => x._currentCycle) h⟩

theorem Quiet.quiet_chain {B : Nat} {s s1 s2 : CmpDRAMCtlr} (h1 : Quiet B s s1)
    (h2 : Quiet B s1 s2) : Quiet B s s2 :=
  ⟨Steps.steps_chain h1.1 h2.1, h2.2.trans h1.2⟩

theorem Quiet.quiet_sim {B : Nat} {s s1 : CmpDRAMCtlr} (h : Quiet B s s1) :
    s1.simulatorCycle = s.simulatorCycle := h.1.steps_sim

theorem Quiet.quiet_issue {B : Nat} {s s1 : CmpDRAMCtlr} {ch rk bk : Nat} {cmd : DRAMCommand}
    {r : Nat} (hg : Guard s ch rk bk cmd r)
    (hs : s.ScheduleRequest ch rk bk cmd r = some s1) : Quiet B s s1 := by
  refine ⟨Relation.ReflTransGen.single (Step.issue ch rk bk cmd r hg hs), ?_⟩
  obtain ⟨_, _, _, _, hs1, _⟩ := ScheduleRequest_spec hs
  rw [hs1]

theorem requests_setRequest {s : CmpDRAMCtlr} {r : Nat} {req : MemoryRequest}
    (req1 : MemoryRequest) (h : s.requests[r]? = some req) :
    (s.setRequest r req1).requests[r]? = some req1 := by
  have hlt : r < s.requests.length := by
    rcases Nat.lt_or_ge r s.requests.length with h1 | h1
    · exact h1
    · rw [List.getElem?_eq_none h1] at h
      cases h
  show (s.requests.set r req1)[r]? = some req1
  rw [List.getElem?_set_self hlt]

theorem Quiet.issue_after_set {B : Nat} {s s2 : CmpDRAMCtlr} {r ch : Nat}
    {req req1 : MemoryRequest} {chan : DRAMChannel} {rank : DRAMRank} {bank : DRAMBank}
    {cmd : DRAMCommand}
    (hs : (s.setRequest r req1).ScheduleRequest ch req.dramRankID req.dramBankID cmd r =
      some s2)
    (hr : s.requests[r]? = some req)
    (hid : req1.dramRankID = req.dramRankID ∧ req1.dramBankID = req.dramBankID ∧
      req1.dramRowID = req.dramRowID)
    (hc : s._channels[ch]? = some chan) (hk : s.getRank ch req.dramRankID = some rank)
    (hb : s.getBank ch req.dramRankID req.dramBankID = some bank)
    (hready : bank.nextIssueCycle.get cmd ≤ s._currentCycle)
    (hact : cmd = .CMD_ACT →
      bank.state = .BANK_PRECHARGED ∧ rank.nextActivate ≤ s._currentCycle)
    (hcol : cmd = .CMD_READ ∨ cmd = .CMD_WRITE →
      bank.state = .BANK_ACTIVATED ∧ bank.openRow = req.dramRowID ∧
      chan.nextIssueCycle.get cmd ≤ s._currentCycle ∧
      (cmd = .CMD_READ ↔ chan.mode = .CMODE_READ)) : Quiet B s s2 := by
  refine Quiet.quiet_chain (Quiet.rfl_same rfl rfl : Quiet B s (s.setRequest r req1))
    (Quiet.quiet_issue ?_ hs)
  refine ⟨req1, chan, rank, bank, requests_setRequest _ hr, hid.1.symm, hid.2.1.symm, hc, hk,
    hb, hready, hact, ?_⟩
  intro h
  rw [hid.2.2]
  exact hcol h

theorem scanReady_quiet {B : Nat} (next : Hierarchy) (ch : Nat) (mode : DRAMChannelMode) :
    ∀ (rs : List Nat) (i : Nat) (rowHit : List Nat) (s s1 : CmpDRAMCtlr)
      (o : Option (List Nat)),
      (∀ chan, s._channels[ch]? = some chan → chan.mode = mode) →
      scanReady next ch mode rs i rowHit s = some (s1, o) → Quiet B s s1 := by
  intro rs
  induction rs with
  | nil =>
    intro i rowHit s s1 o _ h
    simp only [scanReady, Option.some.injEq, Prod.mk.injEq] at h
    rw [← h.1]
    exact Quiet.rfl_same rfl rfl
  | cons r rs ih =>
    intro i rowHit s s1 o hmode h
    unfold scanReady at h
    rcases hr : s.requests[r]? with _ | req
    · simp [hr] at h
    rcases hc : s._channels[ch]? with _ | chan
    · simp [hr, hc] at h
    rcases hk : s.getRank ch req.dramRankID with _ | rank
    · simp [hr, hc, hk] at h
    rcases hb : s.getBank ch req.dramRankID req.dramBankID with _ | bank
    · simp [hr, hc, hk, hb] at h
    simp only [hr, hc, hk, hb] at h
    have hm := hmode chan hc
    have hmode2 : ∀ req1 : MemoryRequest, ∀ chan,
        (s.setRequest r req1)._channels[ch]? = some chan → chan.mode = mode :=
      fun _ => hmode
    generalize hcc : (if mode = .CMODE_READ then DRAMCommand.CMD_READ else .CMD_WRITE) =
      colCmd at h
    generalize (if mode = .CMODE_READ then s._tCL else s._tCWL) = lat at h
    by_cases h1 : bank.state = .BANK_ACTIVATED ∧ bank.openRow = req.dramRowID
    · rw [if_pos h1] at h
      split_ifs at h with h2 h3
      · -- a row hit that is issued
        split at h
        · cases h
        · rename_i s2 hsr
          simp only [Option.some.injEq, Prod.mk.injEq] at h
          rw [← h.1]
          have q : Quiet B s s2 := by
            refine Quiet.issue_after_set hsr hr ⟨rfl, rfl, rfl⟩ hc hk hb ?_ ?_ ?_
            · omega
            · intro hcmd
              rw [← hcc] at hcmd
              by_cases hmr : mode = .CMODE_READ
              · rw [if_pos hmr] at hcmd
                cases hcmd
              · rw [if_neg hmr] at hcmd
                cases hcmd
            · intro _
              refine ⟨h1.1, h1.2, by omega, ?_⟩
              rw [hm, ← hcc]
              by_cases hmr : mode = .CMODE_READ
              · simp [hmr]
              · simp [hmr]
          refine q.quiet_chain (Quiet.rfl_same ?_ rfl)
          rw [core_SendToNextComponent,
            core_modifyChannel _ _ _ (fun c => chanCore_setQueue c _ _)]
          rfl
      · refine Quiet.quiet_chain ?_ (ih _ _ _ _ _ ?_ h)
        · exact Quiet.rfl_same rfl rfl
        · exact hmode
    · rw [if_neg h1] at h
      split_ifs at h with h2 h3
      · -- a ready activate
        split at h
        · cases h
        · rename_i s2 hsr
          simp only [Option.some.injEq, Prod.mk.injEq] at h
          rw [← h.1]
          refine Quiet.issue_after_set hsr hr ⟨rfl, rfl, rfl⟩ hc hk hb ?_ ?_ ?_
          · omega
          · intro _
            exact ⟨h2, by omega⟩
          · intro hcmd
            rcases hcmd with hcmd | hcmd <;> cases hcmd
      · refine Quiet.quiet_chain ?_ (ih _ _ _ _ _ ?_ h)
        · exact Quiet.rfl_same rfl rfl
        · exact hmode
      · exact ih _ _ _ _ _ hmode h

end CmpDRAMCtlr

namespace CmpDRAMCtlr

theorem scanPrecharge_quiet {B : Nat} (ch : Nat) (rowHit : List Nat) :
    ∀ (rs : List Nat) (s s1 : CmpDRAMCtlr),
      scanPrecharge ch rowHit rs s = some s1 → Quiet B s s1 := by
  intro rs
  induction rs with
  | nil =>
    intro s s1 h
    simp only [scanPrecharge, Option.some.injEq] at h
    rw [← h]
    exact Quiet.rfl_same rfl rfl
  | cons r rs ih =>
    intro s s1 h
    unfold scanPrecharge at h
    rcases hr : s.requests[r]? with _ | req
    · simp [hr] at h
    simp only [hr] at h
    by_cases h1 : req.dramBankID < MAX_BANKS
    · rw [if_pos h1] at h
      by_cases h2 : req.dramBankID ∉ rowHit
      · rw [if_pos h2] at h
        rcases hb : s.getBank ch req.dramRankID req.dramBankID with _ | bank
        · simp [hb] at h
        simp only [hb] at h
        rcases hc : s._channels[ch]? with _ | chan
        · exfalso
          simp [getBank, getRank, hc] at hb
        rcases hk : s.getRank ch req.dramRankID with _ | rank
        · exfalso
          simp [getBank, hk] at hb
        split_ifs at h with h4
        · refine Quiet.issue_after_set h hr ⟨rfl, rfl, rfl⟩ hc hk hb ?_ ?_ ?_
          · omega
          · intro hcmd
            cases hcmd
          · intro hcmd
            rcases hcmd with hcmd | hcmd <;> cases hcmd
        · refine Quiet.quiet_chain ?_ (ih _ _ h)
          exact Quiet.rfl_same rfl rfl
      · rw [if_neg h2] at h
        split_ifs at h with h3
        · refine Quiet.quiet_chain ?_ (ih _ _ h)
          exact Quiet.rfl_same rfl rfl
        · exact ih _ _ h
    · rw [if_neg h1] at h
      cases h

theorem FRFCFSDWFScheduler_quiet {B : Nat} (next : Hierarchy) (s s1 : CmpDRAMCtlr) (ch : Nat)
    (h : FRFCFSDWFScheduler next s ch = some s1) : Quiet B s s1 := by
  unfold FRFCFSDWFScheduler at h
  rcases hc : s._channels[ch]? with _ | chan0
  · simp [hc] at h
  simp only [hc] at h
  have q0 : Quiet B s (s.modifyChannel ch s.switchMode) :=
    Quiet.rfl_same (core_modifyChannel _ _ _ (fun c => chanCore_switchMode s c)) rfl
  have hmode : ∀ chan, (s.modifyChannel ch s.switchMode)._channels[ch]? = some chan →
      chan.mode = (s.switchMode chan0).mode := by
    intro chan hchan
    simp [modifyChannel, List.getElem?_modify, hc] at hchan
    rw [← hchan]
  split_ifs at h with h1
  · simp only [Option.some.injEq] at h
    rw [← h]
    exact q0
  · split at h
    · cases h
    · rename_i s2 hsr
      simp only [Option.some.injEq] at h
      rw [← h]
      exact q0.quiet_chain (scanReady_quiet next ch _ _ _ _ _ _ _ hmode hsr)
    · rename_i s2 rowHit hsr
      exact (q0.quiet_chain (scanReady_quiet next ch _ _ _ _ _ _ _ hmode hsr)).quiet_chain
        (scanPrecharge_quiet ch rowHit _ _ _ h)

theorem scheduleChannels_quiet {B : Nat} (next : Hierarchy) :
    ∀ (chs : List Nat) (s s1 : CmpDRAMCtlr),
      scheduleChannels next chs s = some s1 → Quiet B s s1 := by
  intro chs
  induction chs with
  | nil =>
    intro s s1 h
    simp only [scheduleChannels, Option.some.injEq] at h
    rw [← h]
    exact Quiet.rfl_same rfl rfl
  | cons ch chs ih =>
    intro s s1 h
    simp only [scheduleChannels] at h
    rcases hf : FRFCFSDWFScheduler next s ch with _ | s2
    · simp [hf] at h
    rw [hf] at h
    exact (FRFCFSDWFScheduler_quiet next s s2 ch hf).quiet_chain (ih _ _ h)

theorem schedulerLoop_steps {B : Nat} (next : Hierarchy) :
    ∀ (fuel : Nat) (s s1 : CmpDRAMCtlr), s.simulatorCycle ≤ B →
      schedulerLoop next fuel s = some s1 → Steps B s s1 := by
  intro fuel
  induction fuel with
  | zero =>
    intro s s1 _ h
    simp [schedulerLoop] at h
  | succ fuel ih =>
    intro s s1 hB h
    simp only [schedulerLoop] at h
    split_ifs at h with h1
    · rcases hf : scheduleChannels next (List.range s._numChannels) s with _ | s2
      · simp [hf] at h
      rw [hf] at h
      have q := scheduleChannels_quiet (B := B) next _ _ _ hf
      have hsim := q.quiet_sim
      have hcur := q.2
      refine Steps.steps_chain q.1 (Steps.steps_chain ?_ (ih _ _ ?_ h))
      · exact Relation.ReflTransGen.single (Step.tick (by omega) rfl)
      · show s2.simulatorCycle ≤ B
        omega
    · simp only [Option.some.injEq] at h
      rw [← h]
      exact Relation.ReflTransGen.refl

theorem bumpRequests_quiet {B : Nat} :
    ∀ (rs : List Nat) (s s1 : CmpDRAMCtlr), bumpRequests rs s = some s1 → Quiet B s s1 := by
  intro rs
  induction rs with
  | nil =>
    intro s s1 h
    simp only [bumpRequests, Option.some.injEq] at h
    rw [← h]
    exact Quiet.rfl_same rfl rfl
  | cons r rs ih =>
    intro s s1 h
    simp only [bumpRequests] at h
    rcases hr : s.requests[r]? with _ | req
    · simp [hr] at h
    simp only [hr] at h
    refine Quiet.quiet_chain ?_ (ih _ _ h)
    split_ifs
    · exact Quiet.rfl_same rfl rfl
    · exact Quiet.rfl_same rfl rfl

theorem bumpChannels_quiet {B : Nat} :
    ∀ (chs : List Nat) (s s1 : CmpDRAMCtlr), bumpChannels chs s = some s1 → Quiet B s s1 := by
  intro chs
  induction chs with
  | nil =>
    intro s s1 h
    simp only [bumpChannels, Option.some.injEq] at h
    rw [← h]
    exact Quiet.rfl_same rfl rfl
  | cons ch chs ih =>
    intro s s1 h
    simp only [bumpChannels] at h
    rcases hc : s._channels[ch]? with _ | chan
    · simp [hc] at h
    simp only [hc] at h
    rcases h1 : bumpRequests chan.queueRead s with _ | s2
    · simp [h1] at h
    rw [h1] at h
    simp only [Option.some_bind] at h
    rcases h2 : bumpRequests chan.queueWrite s2 with _ | s3
    · simp [h2] at h
    rw [h2] at h
    exact ((bumpRequests_quiet _ _ _ h1).quiet_chain (bumpRequests_quiet _ _ _ h2)).quiet_chain
      (ih _ _ h)

theorem Scheduler_steps {B : Nat} (next : Hierarchy) (fuel : Nat) (s s1 : CmpDRAMCtlr)
    (hB : s.simulatorCycle ≤ B) (h : Scheduler next fuel s = some s1) : Steps B s s1 := by
  unfold Scheduler at h
  split_ifs at h with h1
  · rcases hl : schedulerLoop next fuel s with _ | s2
    · simp [hl] at h
    rw [hl] at h
    exact Steps.steps_chain (schedulerLoop_steps next fuel s s2 hB hl)
      (bumpChannels_quiet _ _ _ h).1
  · simp only [Option.some.injEq] at h
    rw [← h]
    exact Relation.ReflTransGen.refl

end CmpDRAMCtlr

namespace CmpDRAMCtlr

theorem transferLoop_quiet {B : Nat} (next : Hierarchy) :
    ∀ (fuel r : Nat) (s s1 : CmpDRAMCtlr),
      transferLoop next fuel r s = some s1 → Quiet B s s1 := by
  intro fuel
  induction fuel with
  | zero =>
    intro r s s1 h
    simp [transferLoop] at h
  | succ fuel ih =>
    intro r s s1 h
    unfold transferLoop at h
    rcases hr : s.requests[r]? with _ | req
    · simp [hr] at h
    simp only [hr] at h
    by_cases h1 : req.currentCycle ≤ s.simulatorCycle
    · rw [if_pos h1] at h
      split at h
      · cases h
      · rename_i s3 hmoved
        have q : Quiet B s s3 := by
          by_cases h2 : req.serviced = true
          · rw [if_pos h2] at hmoved
            simp only [Option.some.injEq] at hmoved
            rw [← hmoved]
            exact Quiet.rfl_same rfl rfl
          · rw [if_neg h2] at hmoved
            split at hmoved
            · cases hmoved
            · rename_i req1 hmap
              split at hmoved
              all_goals first
                | cases hmoved
                | (split_ifs at hmoved
                   simp only [Option.some.injEq] at hmoved
                   rw [← hmoved]
                   exact Quiet.rfl_same (core_modifyChannel _ _ _ (fun c => rfl)) rfl)
        split at h
        · simp only [Option.some.injEq] at h
          rw [← h]
          exact q
        · exact q.quiet_chain (ih _ _ _ h)
    · rw [if_neg h1] at h
      simp only [Option.some.injEq] at h
      rw [← h]
      exact Quiet.rfl_same rfl rfl

theorem ProcessPendingRequests_steps {B : Nat} (next : Hierarchy) (fuel : Nat)
    (s s1 : CmpDRAMCtlr) (hB : s.simulatorCycle ≤ B)
    (h : ProcessPendingRequests next fuel s = some s1) : Steps B s s1 := by
  unfold ProcessPendingRequests at h
  split_ifs at h with h1 h2
  · simp only [Option.some.injEq] at h
    rw [← h]
    exact Relation.ReflTransGen.refl
  · simp only [Option.some.injEq] at h
    rw [← h]
    exact Relation.ReflTransGen.refl
  · simp only [Option.map_eq_some', Option.bind_eq_some] at h
    obtain ⟨s3, ⟨s2, hmoved, hsch⟩, hfin⟩ := h
    have q : Quiet B s s2 := by
      split at hmoved
      · simp only [Option.some.injEq] at hmoved
        rw [← hmoved]
        exact Quiet.rfl_same rfl rfl
      · refine Quiet.quiet_chain ?_ (transferLoop_quiet next _ _ _ _ hmoved)
        exact Quiet.rfl_same rfl rfl
    have hsim := q.quiet_sim
    rw [← hfin]
    exact Steps.steps_chain q.1 (Steps.steps_chain (Scheduler_steps next fuel s2 s3 (by omega) hsch)
      (Steps.refl_same rfl rfl))

theorem AddRequest_steps {B : Nat} (next : Hierarchy) (fuel : Nat) (s s1 : CmpDRAMCtlr)
    (r : Nat) (hB : s.simulatorCycle ≤ B) (h : AddRequest next fuel s r = some s1) :
    Steps B s s1 := by
  unfold AddRequest at h
  have q : Steps B s { s with _queue := s._queue ++ [r] } := Steps.refl_same rfl rfl
  split_ifs at h with h1
  · simp only [Option.some.injEq] at h
    rw [← h]
    exact q
  · exact Steps.steps_chain q (ProcessPendingRequests_steps next fuel _ _ hB h)

theorem event_invariant {B : Nat} (P : CmpDRAMCtlr → Prop)
    (hcore : ∀ s s1, core s1 = core s → P s → P s1)
    (hstep : ∀ s s1, Step B s s1 → P s → P s1)
    (next : Hierarchy) (fuel : Nat) (s s1 : CmpDRAMCtlr)
    (e : DRAMEvent) (hnow : ∀ now, e = .advance now → now ≤ B)
    (h : s.step next fuel e = some s1) (hi : P s) (hs : s.simulatorCycle ≤ B) :
    P s1 ∧ s1.simulatorCycle ≤ B := by
  have hsteps : ∀ s s1, Steps B s s1 → P s → P s1 := by
    intro s s1 hst
    induction hst with
    | refl => exact id
    | tail _ h1 ih => exact fun hp => hstep _ _ h1 (ih hp)
  cases e with
  | add r =>
    have st := AddRequest_steps (B := B) next fuel s s1 r hs h
    exact ⟨hsteps _ _ st hi, by rw [st.steps_sim]; exact hs⟩
  | advance now =>
    simp only [CmpDRAMCtlr.step] at h
    have hn := hnow now rfl
    have hi2 : P (if now > s.simulatorCycle then { s with simulatorCycle := now } else s) := by
      split_ifs
      · exact hcore s _ rfl hi
      · exact hi
    have hs2 : (if now > s.simulatorCycle then { s with simulatorCycle := now }
        else s).simulatorCycle ≤ B := by
      split_ifs
      · exact hn
      · exact hs
    have st := ProcessPendingRequests_steps (B := B) next fuel _ s1 hs2 h
    exact ⟨hsteps _ _ st hi2, by rw [st.steps_sim]; exact hs2⟩
  | world requests =>
    simp only [CmpDRAMCtlr.step, Option.some.injEq] at h
    rw [← h]
    exact ⟨hcore s _ rfl hi, hs⟩

theorem run_invariant {B : Nat} (P : CmpDRAMCtlr → Prop)
    (hcore : ∀ s s1, core s1 = core s → P s → P s1)
    (hstep : ∀ s s1, Step B s s1 → P s → P s1)
    (next : Hierarchy) (fuel : Nat) :
    ∀ (es : List DRAMEvent) (s s1 : CmpDRAMCtlr),
      (∀ now, DRAMEvent.advance now ∈ es → now ≤ B) → s.run next fuel es = some s1 →
      P s → s.simulatorCycle ≤ B → P s1 ∧ s1.simulatorCycle ≤ B := by
  intro es
  induction es with
  | nil =>
    intro s s1 _ h hi hs
    simp only [CmpDRAMCtlr.run, Option.some.injEq] at h
    rw [← h]
    exact ⟨hi, hs⟩
  | cons e es ih =>
    intro s s1 hnow h hi hs
    simp only [CmpDRAMCtlr.run, Option.bind_eq_some] at h
    obtain ⟨s2, h1, h2⟩ := h
    obtain ⟨hi2, hs2⟩ := event_invariant P hcore hstep next fuel s s2 e
      (fun now he => hnow now (he ▸ List.mem_cons_self _ _)) h1 hi hs
    exact ih s2 s1 (fun now he => hnow now (List.mem_cons_of_mem _ he)) h2 hi2 hs2

theorem TimingInv.timing_start (B : Nat) (p : CmpDRAMCtlr) (hcur : p._currentCycle = 0)
    (hiss : p.issued = []) (hratio : p._memProcessorRatio < UINT32_MOD) :
    TimingInv B p.StartSimulation := by
  have hm : ∀ x : Nat, x % UINT32_MOD < UINT32_MOD := fun x => Nat.mod_lt _ (by decide)
  refine ⟨⟨hm _, hm _, hm _, hm _, hm _, hm _, hm _, hm _, hm _, hratio⟩, ?_, ?_, ?_, ?_⟩
  · show p._currentCycle ≤ _
    omega
  · intro e he
    have : e ∈ p.issued := he
    rw [hiss] at this
    cases this
  · intro e he
    have : e ∈ p.issued := he
    rw [hiss] at this
    cases this
  · show List.Pairwise _ p.issued
    rw [hiss]
    exact List.Pairwise.nil

end CmpDRAMCtlr

namespace CmpDRAMCtlr

theorem Step.minInterval_eq {B : Nat} {s s1 : CmpDRAMCtlr} (h : Step B s s1) :
    s1.minInterval = s.minInterval := by
  cases h with
  | same hc _ => exact minInterval_of_core hc
  | tick _ he => rw [he]; rfl
  | issue ch rk bk cmd r _ hs =>
    obtain ⟨_, _, _, _, hs1, _⟩ := ScheduleRequest_spec hs
    rw [hs1]
    rfl

end CmpDRAMCtlr

/-- **C14.** DRAM bank timing. Start a controller with `StartSimulation` (controller cycle
0, no command issued yet, `_memProcessorRatio` a `uint32`) and let any sequence of events
happen to it: calls of `AddRequest`, advances of the simulator cycle (up to `2 ^ 63`, so
that no `uint64` cycle wraps) each followed by `ProcessPendingRequests`, and arbitrary
changes of the request objects by the other components, with any behaviour `next` of the
rest of the hierarchy. If the run returns the state `s`, then in the record `s.issued` of
the calls of `ScheduleRequest`, in call order: for any two commands `e1`, later `e2`, to
the same bank, `e2.cycle ≥ e1.cycle + minInterval e1.cmd e2.cmd`; the `nextIssueCycle` of
each bank covers every command issued to it; and `minInterval` is the table of the claim
in the parameters scaled by `StartSimulation`. -/
theorem C14_dram_bank_timing (next : Hierarchy) (fuel : Nat) (p s : CmpDRAMCtlr)
    (es : List DRAMEvent) (hcur : p._currentCycle = 0) (hiss : p.issued = [])
    (hratio : p._memProcessorRatio < UINT32_MOD) (hsim : p.simulatorCycle ≤ 2 ^ 63)
    (hnow : ∀ now, DRAMEvent.advance now ∈ es → now ≤ 2 ^ 63)
    (hrun : p.StartSimulation.run next fuel es = some s) :
    s.issued.Pairwise (fun e1 e2 =>
        e1.channel = e2.channel → e1.rank = e2.rank → e1.bank = e2.bank →
          e1.cycle + s.minInterval e1.cmd e2.cmd ≤ e2.cycle) ∧
      (∀ e ∈ s.issued, ∀ b, s.getBank e.channel e.rank e.bank = some b →
        ∀ c, e.cycle + s.minInterval e.cmd c ≤ b.nextIssueCycle.get c) ∧
      (∀ e ∈ s.issued, e.cycle ≤ s._currentCycle) ∧
      s.minInterval = p.StartSimulation.minInterval ∧
      (∀ c1 c2, s.minInterval c1 c2 =
        match c1, c2 with
        | .CMD_ACT, .CMD_ACT => s._tRC
        | .CMD_ACT, .CMD_READ => s._tRCD
        | .CMD_ACT, .CMD_WRITE => s._tRCD
        | .CMD_ACT, .CMD_PRE => s._tRAS
        | .CMD_READ, .CMD_ACT => s._tCL
        | .CMD_READ, .CMD_READ => s._tCCD
        | .CMD_READ, .CMD_WRITE => s._tCCD
        | .CMD_READ, .CMD_PRE => s._tCL
        | .CMD_WRITE, .CMD_ACT => s._tCL + s._tWR
        | .CMD_WRITE, .CMD_READ => s._tCCD
        | .CMD_WRITE, .CMD_WRITE => s._tCCD
        | .CMD_WRITE, .CMD_PRE => s._tCWL + s._tWR
        | .CMD_PRE, .CMD_ACT => s._tRP
        | .CMD_PRE, .CMD_READ => s._tRP + s._tRCD
        | .CMD_PRE, .CMD_WRITE => s._tRP + s._tRCD
        | .CMD_PRE, .CMD_PRE => s._tRC) := by
  have hB : 2 ^ 63 + 3 * UINT32_MOD ≤ UINT64_MOD := by decide
  have h := CmpDRAMCtlr.run_invariant
    (fun s => CmpDRAMCtlr.TimingInv (2 ^ 63) s ∧
      s.minInterval = p.StartSimulation.minInterval)
    (fun s s1 hc hp =>
      ⟨hp.1.timing_of_core hc, (CmpDRAMCtlr.minInterval_of_core hc).trans hp.2⟩)
    (fun s s1 hst hp => ⟨hp.1.timing_step hB hst, hst.minInterval_eq.trans hp.2⟩)
    next fuel es p.StartSimulation s hnow hrun
    ⟨CmpDRAMCtlr.TimingInv.timing_start _ p hcur hiss hratio, rfl⟩ hsim
  refine ⟨h.1.1.timing, h.1.1.covers, h.1.1.past, h.1.2, ?_⟩
  intro c1 c2
  cases c1 <;> cases c2 <;> rfl

/-- Witness for C14: the default controller with two reads of bank 0, rows 0 and 1. The
commands are ACT at 0, READ at 40, PRE at 96 and the second ACT at 232, not before
`0 + tRC = 136`. -/
theorem C14_dram_bank_timing_witness :
    ∃ s, CmpDRAMCtlr.new.StartSimulation.run Hierarchy.idle 60 CmpDRAMCtlr.twoReads = some s ∧
      s.issued = [⟨0, 0, 0, .CMD_ACT, 0⟩, ⟨0, 0, 0, .CMD_READ, 40⟩, ⟨0, 0, 0, .CMD_PRE, 96⟩,
        ⟨0, 0, 0, .CMD_ACT, 232⟩] ∧
      s.minInterval .CMD_ACT .CMD_ACT = 136 ∧
      s.issued.Pairwise (fun e1 e2 =>
        e1.channel = e2.channel → e1.rank = e2.rank → e1.bank = e2.bank →
          e1.cycle + s.minInterval e1.cmd e2.cmd ≤ e2.cycle) := by
  have hs : (CmpDRAMCtlr.new.StartSimulation.run Hierarchy.idle 60
      CmpDRAMCtlr.twoReads).isSome = true := by rfl
  have h := C14_dram_bank_timing Hierarchy.idle 60 CmpDRAMCtlr.new _ CmpDRAMCtlr.twoReads
    rfl rfl (by simp [CmpDRAMCtlr.new, UINT32_MOD]) (Nat.zero_le _)
    (by
      intro now h
      simp only [CmpDRAMCtlr.twoReads, List.mem_cons, List.mem_singleton, reduceCtorEq,
        DRAMEvent.advance.injEq, false_or, List.not_mem_nil, or_false] at h
      subst h
      decide)
    (Option.some_get hs).symm
  refine ⟨_, (Option.some_get hs).symm, by rfl, ?_, h.1⟩
  rw [h.2.2.2.1]
  rfl

namespace CmpDRAMCtlr

theorem lastFour_length (acts : List Nat) : (lastFour acts).length = 4 := by
  simp only [lastFour, List.length_drop, List.length_append, List.length_cons,
    List.length_nil]
  omega

theorem lastFour_append (acts : List Nat) (c : Nat) :
    lastFour (acts ++ [c]) = (lastFour acts).tail ++ [c] := by
  unfold lastFour
  rw [List.tail_drop, ← List.append_assoc, List.length_append, List.length_singleton,
    List.drop_append_of_le_length]
  simp

theorem mem_lastFour {acts : List Nat} {x : Nat} (h : x ∈ lastFour acts) :
    x = 0 ∨ x ∈ acts := by
  have h1 := List.mem_of_mem_drop h
  simp only [List.mem_append, List.mem_cons, List.mem_singleton, List.not_mem_nil,
    or_false, or_self] at h1
  exact h1

theorem lastFour_head_take (acts : List Nat) (i : Nat) (t : Nat)
    (h1 : acts[i]? = some t) (h2 : i + 4 < acts.length + 1) :
    (lastFour (acts.take (i + 4))).headD 0 = t := by
  have hl : (acts.take (i + 4)).length = i + 4 := by
    rw [List.length_take]
    omega
  unfold lastFour
  rw [hl]
  have : (List.drop (i + 4) ([0, 0, 0, 0] ++ List.take (i + 4) acts))[0]? = some t := by
    rw [List.getElem?_drop, List.getElem?_append_right (by simp)]
    simp only [List.length_cons, List.length_nil, Nat.add_zero]
    have : i + 4 + 0 - (0 + 1 + 1 + 1 + 1) = i := by omega
    rw [this, List.getElem?_take_of_lt (by omega)]
    exact h1
  rcases hd : List.drop (i + 4) ([0, 0, 0, 0] ++ List.take (i + 4) acts) with _ | ⟨a, l⟩
  · rw [hd] at this
    cases this
  · rw [hd] at this
    simp only [List.getElem?_cons_zero, Option.some.injEq] at this
    simp [this]

theorem rankActs_of_core {s s1 : CmpDRAMCtlr} (h : core s1 = core s) :
    s1.rankActs = s.rankActs := by
  have h1 : s1.issued = s.issued := congrArg (fun x => x.issued) h
  funext ch rk
  simp only [rankActs, h1]

theorem FawInv.faw_of_core {B : Nat} {s s1 : CmpDRAMCtlr} (h : core s1 = core s)
    (hi : FawInv B s) : FawInv B s1 := by
  have hf : s1._tFAW = s._tFAW := congrArg (fun x => x._tFAW) h
  refine ⟨hi.base.timing_of_core h, ?_, ?_⟩
  · intro ch rk rank hr
    rw [getRank_of_core h] at hr
    rw [rankActs_of_core h, hf]
    exact hi.ring ch rk rank hr
  · intro ch rk k t
    rw [rankActs_of_core h, hf]
    exact hi.gate ch rk k t

theorem FawInv.faw_tick {B : Nat} {s : CmpDRAMCtlr} (hB : B + 3 * UINT32_MOD ≤ UINT64_MOD)
    (hc : s._currentCycle ≤ B) (hi : FawInv B s) :
    FawInv B { s with _currentCycle := add64 s._currentCycle s._memProcessorRatio } :=
  ⟨hi.base.timing_tick hB hc, hi.ring, hi.gate⟩

theorem rankActs_le {B : Nat} {s : CmpDRAMCtlr} (hi : TimingInv B s) (ch rk : Nat) :
    ∀ x ∈ s.rankActs ch rk, x ≤ s._currentCycle := by
  intro x hx
  simp only [rankActs, List.mem_filterMap] at hx
  obtain ⟨e, he, hx⟩ := hx
  split_ifs at hx
  simp only [Option.some.injEq] at hx
  rw [← hx]
  exact hi.past e he

theorem FawInv.faw_issue {B : Nat} {s s1 : CmpDRAMCtlr} {ch rk bk : Nat} {cmd : DRAMCommand}
    {r : Nat} (hB : B + 3 * UINT32_MOD ≤ UINT64_MOD) (hg : Guard s ch rk bk cmd r)
    (h : s.ScheduleRequest ch rk bk cmd r = some s1) (hi : FawInv B s) :
    FawInv B s1 := by
  have hbase := hi.base.timing_issue hB hg h
  obtain ⟨req, chan, hr, hc, hs1, -, hrank⟩ := ScheduleRequest_spec h
  obtain ⟨req1, chan1, rank1, bank1, -, -, -, -, hk1, -, -, hact, -⟩ := hg
  have hf : s1._tFAW = s._tFAW := by rw [hs1]
  have hfaw : s._tFAW < UINT32_MOD := hi.base.params.2.2.2.2.2.2.2.2.1
  have hr10 : s._memProcessorRatio < UINT32_MOD := hi.base.params.2.2.2.2.2.2.2.2.2
  have hclk := hi.base.clock
  have hacts : ∀ ch1 rk1, s1.rankActs ch1 rk1 = s.rankActs ch1 rk1 ++
      (if cmd = .CMD_ACT ∧ ch = ch1 ∧ rk = rk1 then [s._currentCycle] else []) := by
    intro ch1 rk1
    have : s1.issued = s.issued ++ [DRAMIssue.mk ch rk bk cmd s._currentCycle] := by
      rw [hs1]
    simp only [rankActs, this, List.filterMap_append]
    congr 1
    by_cases hcond : cmd = .CMD_ACT ∧ ch = ch1 ∧ rk = rk1
    · simp [hcond]
    · simp [hcond]
  refine ⟨hbase, ?_, ?_⟩
  · intro ch1 rk1 rank hr1
    have h2 := hrank ch1 rk1
    rw [hr1] at h2
    rcases hold : s.getRank ch1 rk1 with _ | x
    · rw [hold] at h2
      cases h2
    rw [hold] at h2
    simp only [Option.map_some', Option.some.injEq] at h2
    obtain ⟨hx1, hx2⟩ := hi.ring ch1 rk1 x hold
    rw [hacts, hf]
    by_cases hcond : ch1 = ch ∧ rk1 = rk ∧ cmd = .CMD_ACT
    · have hcond2 : cmd = .CMD_ACT ∧ ch = ch1 ∧ rk = rk1 :=
        ⟨hcond.2.2, hcond.1.symm, hcond.2.1.symm⟩
      rw [if_pos hcond] at h2
      rw [if_pos hcond2, lastFour_append]
      simp only [scheduleRank, Prod.mk.injEq] at h2
      obtain ⟨h3, h4⟩ := h2
      rw [hx1] at h3 h4
      refine ⟨h3, fun _ => ?_⟩
      rw [h4]
      have hle : ((lastFour (s.rankActs ch1 rk1)).tail ++ [s._currentCycle]).headD 0 ≤
          s._currentCycle := by
        rcases hl : (lastFour (s.rankActs ch1 rk1)).tail ++ [s._currentCycle] with _ | ⟨a, l⟩
        · exact Nat.zero_le _
        · have ha : a ∈ (lastFour (s.rankActs ch1 rk1)).tail ++ [s._currentCycle] := by
            rw [hl]
            exact List.mem_cons_self _ _
          rw [List.mem_append, List.mem_singleton] at ha
          show a ≤ _
          rcases ha with ha | ha
          · rcases mem_lastFour (List.mem_of_mem_tail ha) with h0 | h0
            · omega
            · exact rankActs_le hi.base ch1 rk1 a h0
          · omega
      exact Nat.mod_eq_of_lt (by omega)
    · have hcond2 : ¬ (cmd = .CMD_ACT ∧ ch = ch1 ∧ rk = rk1) :=
        fun hh => hcond ⟨hh.2.1.symm, hh.2.2.symm, hh.1⟩
      rw [if_neg hcond] at h2
      rw [if_neg hcond2, List.append_nil]
      simp only [Prod.mk.injEq] at h2
      rw [h2.1, h2.2]
      exact ⟨hx1, hx2⟩
  · intro ch1 rk1 k t hk hk1'
    rw [hacts] at hk ⊢
    rw [hf]
    by_cases hcond : cmd = .CMD_ACT ∧ ch = ch1 ∧ rk = rk1
    · rw [if_pos hcond] at hk ⊢
      obtain ⟨hcmd, hch, hrk⟩ := hcond
      subst hch hrk
      rcases Nat.lt_or_ge k (s.rankActs ch rk).length with hlt | hge
      · rw [List.getElem?_append_left hlt] at hk
        rw [List.take_append_of_le_length (by omega)]
        exact hi.gate ch rk k t hk hk1'
      · have hkl : k = (s.rankActs ch rk).length := by
          have := (List.getElem?_eq_some_iff.1 hk).1
          simp only [List.length_append, List.length_singleton] at this
          omega
        subst hkl
        rw [List.getElem?_append_right (by omega)] at hk
        simp only [Nat.sub_self, List.getElem?_cons_zero, Option.some.injEq] at hk
        rw [List.take_left']
        · obtain ⟨-, hx2⟩ := hi.ring ch rk rank1 hk1
          have hne : s.rankActs ch rk ≠ [] := by
            intro h0
            rw [h0] at hk1'
            simp at hk1'
          rw [← hx2 hne, ← hk]
          exact (hact hcmd).2
        · rfl
    · rw [if_neg hcond, List.append_nil] at hk ⊢
      exact hi.gate ch1 rk1 k t hk hk1'

theorem FawInv.faw_step {B : Nat} {s s1 : CmpDRAMCtlr} (hB : B + 3 * UINT32_MOD ≤ UINT64_MOD)
    (h : Step B s s1) (hi : FawInv B s) : FawInv B s1 := by
  cases h with
  | same hc _ => exact hi.faw_of_core hc
  | tick hc he =>
    subst he
    exact hi.faw_tick hB hc
  | issue ch rk bk cmd r hg hs => exact hi.faw_issue hB hg hs

theorem FawInv.faw_start (B : Nat) (p : CmpDRAMCtlr) (hcur : p._currentCycle = 0)
    (hiss : p.issued = []) (hratio : p._memProcessorRatio < UINT32_MOD) :
    FawInv B p.StartSimulation := by
  have hacts : ∀ ch rk, p.StartSimulation.rankActs ch rk = [] := by
    intro ch rk
    show List.filterMap _ p.issued = []
    rw [hiss]
    rfl
  refine ⟨TimingInv.timing_start B p hcur hiss hratio, ?_, ?_⟩
  · intro ch rk rank hr
    rw [hacts]
    refine ⟨?_, fun h => absurd rfl h⟩
    simp only [getRank, StartSimulation] at hr
    rcases hc : (List.replicate p._numChannels (DRAMChannel.new p._numRanks p._numBanks))[ch]?
      with _ | c
    · rw [hc] at hr
      cases hr
    rw [hc] at hr
    have hc2 := List.mem_iff_getElem?.2 ⟨_, hc⟩
    rw [List.mem_replicate] at hc2
    rw [hc2.2] at hr
    have hr2 := List.mem_iff_getElem?.2 ⟨_, hr⟩
    simp only [DRAMChannel.new, List.mem_replicate] at hr2
    rw [hr2.2]
    rfl
  · intro ch rk k t hk
    rw [hacts] at hk
    simp at hk

end CmpDRAMCtlr

namespace CmpDRAMCtlr

theorem Step.tFAW_eq {B : Nat} {s s1 : CmpDRAMCtlr} (h : Step B s s1) :
    s1._tFAW = s._tFAW := by
  cases h with
  | same hc _ => exact congrArg (fun x => x._tFAW) hc
  | tick _ he => rw [he]
  | issue ch rk bk cmd r _ hs =>
    obtain ⟨_, _, _, _, hs1, _⟩ := ScheduleRequest_spec hs
    rw [hs1]

theorem lastFour_of_four (acts : List Nat) (h : 4 ≤ acts.length) :
    lastFour acts = acts.drop (acts.length - 4) := by
  unfold lastFour
  have : acts.length = 4 + (acts.length - 4) := by omega
  conv_lhs => rw [this]
  rw [← List.drop_drop]
  rfl

end CmpDRAMCtlr

/-- **C15.** The four-activate window. Start a controller with `StartSimulation`
(controller cycle 0, no command issued yet, `_memProcessorRatio` a `uint32`) and let any
sequence of events happen to it (calls of `AddRequest`, advances of the simulator cycle
up to `2 ^ 63` followed by `ProcessPendingRequests`, changes of the request objects by
other components), with any behaviour `next` of the rest of the hierarchy. If the run
returns the state `s` then, with `acts` the cycles of the activates issued to a rank in
issue order and `lastFour acts` the last four of them (the four entries 0 pushed by
`DRAMRank()` standing before the first activate): once an activate has been issued to the
rank, its `lastActivates` is `lastFour acts` and its `nextActivate` is the oldest of these
plus `_tFAW`; every activate after the first was issued at a cycle at least the
`nextActivate` that the activates before it had left; of five consecutive activates the
fifth comes at least `_tFAW` after the first; `lastFour acts` is the last four elements of
`acts` once there are four; and `_tFAW` is the parameter times `_memProcessorRatio` as a
`uint32`. -/
theorem C15_four_activate_window (next : Hierarchy) (fuel : Nat) (p s : CmpDRAMCtlr)
    (es : List DRAMEvent) (hcur : p._currentCycle = 0) (hiss : p.issued = [])
    (hratio : p._memProcessorRatio < UINT32_MOD) (hsim : p.simulatorCycle ≤ 2 ^ 63)
    (hnow : ∀ now, DRAMEvent.advance now ∈ es → now ≤ 2 ^ 63)
    (hrun : p.StartSimulation.run next fuel es = some s) :
    (∀ ch rk rank, s.getRank ch rk = some rank → s.rankActs ch rk ≠ [] →
        rank.lastActivates = CmpDRAMCtlr.lastFour (s.rankActs ch rk) ∧
        rank.nextActivate = (CmpDRAMCtlr.lastFour (s.rankActs ch rk)).headD 0 + s._tFAW) ∧
      (∀ ch rk k t, (s.rankActs ch rk)[k]? = some t → 1 ≤ k →
        (CmpDRAMCtlr.lastFour ((s.rankActs ch rk).take k)).headD 0 + s._tFAW ≤ t) ∧
      (∀ ch rk i t1 t5, (s.rankActs ch rk)[i]? = some t1 →
        (s.rankActs ch rk)[i + 4]? = some t5 → t1 + s._tFAW ≤ t5) ∧
      (∀ acts : List Nat, 4 ≤ acts.length →
        CmpDRAMCtlr.lastFour acts = acts.drop (acts.length - 4)) ∧
      s._tFAW = (p._tFAW * p._memProcessorRatio) % UINT32_MOD := by
  have hB : 2 ^ 63 + 3 * UINT32_MOD ≤ UINT64_MOD := by decide
  have h := CmpDRAMCtlr.run_invariant
    (fun s => CmpDRAMCtlr.FawInv (2 ^ 63) s ∧ s._tFAW = p.StartSimulation._tFAW)
    (fun s s1 hc hp =>
      ⟨hp.1.faw_of_core hc, (congrArg (fun x => x._tFAW) hc).trans hp.2⟩)
    (fun s s1 hst hp => ⟨hp.1.faw_step hB hst, hst.tFAW_eq.trans hp.2⟩)
    next fuel es p.StartSimulation s hnow hrun
    ⟨CmpDRAMCtlr.FawInv.faw_start _ p hcur hiss hratio, rfl⟩ hsim
  refine ⟨?_, h.1.1.gate, ?_, CmpDRAMCtlr.lastFour_of_four, h.1.2⟩
  · intro ch rk rank hr hne
    exact ⟨(h.1.1.ring ch rk rank hr).1, (h.1.1.ring ch rk rank hr).2 hne⟩
  · intro ch rk i t1 t5 h1 h5
    have hlen := (List.getElem?_eq_some_iff.1 h5).1
    have hg := h.1.1.gate ch rk (i + 4) t5 h5 (by omega)
    rw [CmpDRAMCtlr.lastFour_head_take _ i t1 h1 (by omega)] at hg
    exact hg

set_option maxRecDepth 20000

/-- Witness for C15: the default controller with reads of banks 0 to 4 of its one rank.
The activates come at cycles 0, 136, 140, 144, 148: the fifth is `_tFAW = 136` cycles
after the first or later, and `nextActivate` is then `136 + 136`. -/
theorem C15_four_activate_window_witness :
    ∃ s, CmpDRAMCtlr.new.StartSimulation.run Hierarchy.idle 80 CmpDRAMCtlr.fiveReads =
        some s ∧
      s.rankActs 0 0 = [0, 136, 140, 144, 148] ∧ s._tFAW = 136 ∧
      (s.getRank 0 0).map (fun r => (r.lastActivates, r.nextActivate)) =
        some ([136, 140, 144, 148], 272) ∧
      (∀ i t1 t5, (s.rankActs 0 0)[i]? = some t1 →
        (s.rankActs 0 0)[i + 4]? = some t5 → t1 + s._tFAW ≤ t5) := by
  have hs : (CmpDRAMCtlr.new.StartSimulation.run Hierarchy.idle 80
      CmpDRAMCtlr.fiveReads).isSome = true := by rfl
  have h := C15_four_activate_window Hierarchy.idle 80 CmpDRAMCtlr.new _
    CmpDRAMCtlr.fiveReads rfl rfl (by simp [CmpDRAMCtlr.new, UINT32_MOD]) (Nat.zero_le _)
    (by
      intro now h
      simp only [CmpDRAMCtlr.fiveReads, List.mem_cons, List.mem_singleton, reduceCtorEq,
        DRAMEvent.advance.injEq, false_or, List.not_mem_nil, or_false] at h
      subst h
      decide)
    (Option.some_get hs).symm
  refine ⟨_, (Option.some_get hs).symm, by rfl, ?_, by rfl, h.2.2.1 0 0⟩
  rw [h.2.2.2.2]
  rfl

/-- **C16.** The row hit does not always win. The default controller has served a read of
bank 0, row 0 (ACT at 0, READ at 40) and at simulator cycle 400 receives a read of bank 1
(request 1) and then a read of bank 0, row 0 (request 2). At controller cycle 404 the read
queue is `[1, 2]`, request 2 is a row hit that can be issued and request 1 can be
activated; `FRFCFSDWFScheduler` issues the activate of bank 1 for request 1 and no column
command. With the two requests entered in the other order it issues the READ of the row
hit. -/
theorem C16_activate_issued_before_row_hit :
    ∃ s s1 t t1,
      CmpDRAMCtlr.new.StartSimulation.run Hierarchy.idle 120 CmpDRAMCtlr.rowHitBehind =
        some s ∧
      s._currentCycle = 404 ∧
      s._channels.map (fun c => (c.mode, c.queueRead)) = [(.CMODE_READ, [1, 2])] ∧
      s.rowHitReady 0 2 = true ∧ s.activateReady 0 1 = true ∧
      CmpDRAMCtlr.FRFCFSDWFScheduler Hierarchy.idle s 0 = some s1 ∧
      s1.issued = s.issued ++ [⟨0, 0, 1, .CMD_ACT, 404⟩] ∧
      CmpDRAMCtlr.new.StartSimulation.run Hierarchy.idle 120 CmpDRAMCtlr.rowHitAhead =
        some t ∧
      t._channels.map (fun c => (c.mode, c.queueRead)) = [(.CMODE_READ, [2, 1])] ∧
      t.rowHitReady 0 2 = true ∧ t.activateReady 0 1 = true ∧
      CmpDRAMCtlr.FRFCFSDWFScheduler Hierarchy.idle t 0 = some t1 ∧
      t1.issued = t.issued ++ [⟨0, 0, 0, .CMD_READ, 404⟩] := by
  have hs : (CmpDRAMCtlr.new.StartSimulation.run Hierarchy.idle 120
      CmpDRAMCtlr.rowHitBehind).isSome = true := by rfl
  have hs1 : (CmpDRAMCtlr.FRFCFSDWFScheduler Hierarchy.idle (Option.get _ hs) 0).isSome =
      true := by rfl
  have ht : (CmpDRAMCtlr.new.StartSimulation.run Hierarchy.idle 120
      CmpDRAMCtlr.rowHitAhead).isSome = true := by rfl
  have ht1 : (CmpDRAMCtlr.FRFCFSDWFScheduler Hierarchy.idle (Option.get _ ht) 0).isSome =
      true := by rfl
  exact ⟨Option.get _ hs, Option.get _ hs1, Option.get _ ht, Option.get _ ht1,
    (Option.some_get hs).symm, by rfl, by rfl, by rfl, by rfl, (Option.some_get hs1).symm,
    by rfl, (Option.some_get ht).symm, by rfl, by rfl, by rfl, (Option.some_get ht1).symm,
    by rfl⟩

theorem generic_tagstore_t.makeSets_shape {N : Nat} {policy : String} {p : policy_name}
    (nruHand : Nat → Nat) (hp : policy_name.ofString policy = some p) :
    ∀ (is : List Nat), ∃ ss, generic_tagstore_t.makeSets N policy nruHand is = some ss ∧
      ss.length = is.length ∧
      ∀ s ∈ ss, s._size = N ∧ s._table.length = N ∧ s._freeList.length = N := by
  intro is
  induction is with
  | nil => exact ⟨[], rfl, rfl, fun s hs => by cases hs⟩
  | cons i rest ih =>
    obtain ⟨ss, h1, h2, h3⟩ := ih
    refine ⟨table_t.new p N (nruHand i) :: ss, ?_, by simp [h2], ?_⟩
    · simp [generic_tagstore_t.makeSets, generic_table_t.SetTableParameters, hp, h1]
    · intro s hs
      rcases List.mem_cons.1 hs with e | e
      · rw [e]
        simp [table_t.new]
      · exact h3 s e

theorem generic_tagstore_t.SetTagStoreParameters_shape {numSets N : Nat} {policy : String}
    {p : policy_name} (nruHand : Nat → Nat) (hp : policy_name.ofString policy = some p) :
    ∃ ts, generic_tagstore_t.SetTagStoreParameters numSets N policy nruHand = some ts ∧
      ts._numSets = numSets ∧ ts._numSlotsPerSet = N ∧ ts._sets.length = numSets ∧
      ∀ s ∈ ts._sets, s._size = N ∧ s._table.length = N ∧ s._freeList.length = N := by
  obtain ⟨ss, h1, h2, h3⟩ := generic_tagstore_t.makeSets_shape (N := N) nruHand hp
    (List.range numSets)
  exact ⟨{ _numSets := numSets, _numSlotsPerSet := N, _policy := policy, _sets := ss },
    by simp [generic_tagstore_t.SetTagStoreParameters, h1], rfl, rfl, by simpa using h2, h3⟩

/-- Counterexample for C19: `CmpCache` with its default parameters (`size = 32768`,
`blockSize = 64`, `associativity = 2`) builds `32768 / (64 * 2) = 256` sets, not
`32768 * 1024 / (64 * 2) = 262144`: its `StartSimulation` does not multiply by 1024. -/
theorem C19_cmpcache_size_is_in_bytes :
    ∃ c, (CmpCache.new 0).StartSimulation (fun _ => 0) = some c ∧
      c._numSets = 256 ∧ c._tags._numSets = 256 ∧ c._tags._sets.length = 256 ∧
      (CmpCache.new 0)._size * 1024 /
        ((CmpCache.new 0)._blockSize * (CmpCache.new 0)._associativity) = 262144 := by
  have h : ((CmpCache.new 0).StartSimulation (fun _ => 0)).isSome = true := by rfl
  exact ⟨Option.get _ h, (Option.some_get h).symm, by rfl, by rfl, by rfl, by rfl⟩

theorem numSetsKB_exact {size blockSize associativity : Nat}
    (h1 : size * 1024 < UINT32_MOD) (h2 : 0 < blockSize * associativity)
    (h3 : blockSize * associativity < UINT32_MOD) :
    numSetsKB size blockSize associativity =
      some (size * 1024 / (blockSize * associativity)) := by
  unfold numSetsKB
  rw [Nat.mod_eq_of_lt h1, Nat.mod_eq_of_lt h3, if_neg (by omega)]

theorem tagsKB_geometry {size blockSize associativity : Nat} {policy : String}
    {p : policy_name} (nruHand : Nat → Nat)
    (hp : policy_name.ofString policy = some p)
    (h1 : size * 1024 < UINT32_MOD) (h2 : 0 < blockSize * associativity)
    (h3 : blockSize * associativity < UINT32_MOD) :
    ∃ ts, tagsKB size blockSize associativity policy nruHand =
        some (size * 1024 / (blockSize * associativity), ts) ∧
      ts.Geometry (size * 1024 / (blockSize * associativity)) associativity := by
  obtain ⟨ts, g1, g2, g3, g4, g5⟩ := @generic_tagstore_t.SetTagStoreParameters_shape
    (size * 1024 / (blockSize * associativity)) associativity _ _ nruHand hp
  exact ⟨ts, by simp [tagsKB, numSetsKB_exact h1 h2 h3, g1], g2, g4, g3, g5⟩

theorem set_dueling_tagstore_t.dueling_shape {A n N D maxPSEL startVal : Nat}
    {policy : String} {p : policy_name} (nruHand : Nat → Nat)
    (hp : policy_name.ofString policy = some p)
    (hle : 2 * D * A ≤ n) (hdvd : ¬ 443 ∣ n) (hov : n + 443 ≤ UINT32_MOD) :
    ∃ ts0, set_dueling_tagstore_t.SetTagStoreParameters A n N policy D maxPSEL startVal
        nruHand = some ts0 ∧ ts0.Geometry n N := by
  obtain ⟨ss, hs, hlen, hall⟩ := generic_tagstore_t.makeSets_shape (N := N) nruHand hp
    (List.range n)
  have hcop := set_dueling_tagstore_t.stride_coprime (n := n) hdvd
  have hc : ¬ (2 * D * A) % UINT32_MOD > n :=
    not_lt.2 (le_trans (Nat.mod_le _ _) hle)
  have hpos : ∀ j, 0 < n → set_dueling_tagstore_t.markPos n j = (443 * j) % n :=
    fun j hn => set_dueling_tagstore_t.markPos_eq hn hov j
  obtain ⟨r, hm, _⟩ := set_dueling_tagstore_t.markAll_step (D := D) hle
    (fun i1 i2 h1 h2 e => by
      have hn : 0 < n := by omega
      rw [hpos i1 hn, hpos i2 hn] at e
      have := set_dueling_tagstore_t.stride_inj hcop (by omega) (by omega) e
      omega) A 0
    (List.replicate n SetType.new) (cyclic_pointer.new n 0) (by simp)
    (set_dueling_tagstore_t.MarkInv_init n D)
  rw [← List.range_eq_range'] at hm
  refine ⟨
    { _numSets := n, _numSlotsPerSet := N, _dynamicPolicy := policy, _numApps := A,
      _numDuelingSets := D, _type := r.1,
      _psel := List.replicate A (saturating_counter.new maxPSEL startVal),
      _threshold := maxPSEL / 2, _sets := ss }, by
    simp only [set_dueling_tagstore_t.SetTagStoreParameters, hs, Option.some_bind, hc,
      if_false, hm, Option.map_some'], rfl, by simpa using hlen, rfl, hall⟩

/-- **C19 (amended).** Cache geometry. Every cache component other than `CmpCache`
(`CmpLLC`, `CmpLLCwPref`, `CmpMCT`, `CmpPACManHM`, `CmpDCP`, `CmpRTBCache`, `CmpFDPAP`,
`CmpLLCVTS`, `CmpSHiPIP`, `CmpDynamicLLC`, `CmpLLCwAWB`, `CmpUCP`, `CmpARC`) builds at
`StartSimulation` exactly `size * 1024 / (blockSize * associativity)` sets; `CmpCache`
builds exactly `size / (blockSize * associativity)` sets: its `size` counts bytes. This
holds for a known policy name when `blockSize * associativity` is a `uint32` value other
than `0` and `size * 1024` is a `uint32` value. The components with a
`generic_tagstore_t` build a tag store of that many sets, each a table of `associativity`
slots, all free; so do `CmpDynamicLLC` and `CmpLLCwAWB` with their set-dueling tag store
when its constructor does not exit (`2 * numDuelingSets * numCPUs` is at most the number
`n` of sets, 443 does not divide `n`, `n + 443 ≤ 2 ^ 32`) and `_dbiAssociativity` is not
`0`; `CmpUCP`, for `numCPUs ≥ 1`, builds for every CPU that many rows of `associativity`
invalid entries and as many free counters of value `associativity`; `CmpARC` builds that
many empty ARC sets. -/
theorem C19_cache_geometry_amended (l : CmpLLC) (c : CmpCache) (pl pc : policy_name)
    (nruHand : Nat → Nat)
    (size blockSize associativity numCPUs numDuelingSets maxPSELValue dbiAssociativity : Nat)
    (policy : String) (p : policy_name)
    (hpl : policy_name.ofString l._policy = some pl)
    (hl1 : l._size * 1024 < UINT32_MOD)
    (hl2 : 0 < l._blockSize * l._associativity)
    (hl3 : l._blockSize * l._associativity < UINT32_MOD)
    (hpc : policy_name.ofString c._policy = some pc)
    (hc2 : 0 < c._blockSize * c._associativity)
    (hc3 : c._blockSize * c._associativity < UINT32_MOD)
    (hp : policy_name.ofString policy = some p)
    (h1 : size * 1024 < UINT32_MOD)
    (h2 : 0 < blockSize * associativity)
    (h3 : blockSize * associativity < UINT32_MOD)
    (hd1 : 2 * numDuelingSets * numCPUs ≤ size * 1024 / (blockSize * associativity))
    (hd2 : ¬ 443 ∣ size * 1024 / (blockSize * associativity))
    (hd3 : size * 1024 / (blockSize * associativity) + 443 ≤ UINT32_MOD)
    (hdbi : 0 < dbiAssociativity) (hcpu : 0 < numCPUs) :
    (∃ l1, l.StartSimulation nruHand = some l1 ∧
      l1._numSets = l._size * 1024 / (l._blockSize * l._associativity) ∧
      l1._tags._numSets = l._size * 1024 / (l._blockSize * l._associativity) ∧
      l1._tags._sets.length = l._size * 1024 / (l._blockSize * l._associativity) ∧
      l1._tags._numSlotsPerSet = l._associativity ∧
      ∀ s ∈ l1._tags._sets, s._size = l._associativity ∧
        s._table.length = l._associativity ∧ s._freeList.length = l._associativity) ∧
    (∃ c1, c.StartSimulation nruHand = some c1 ∧
      c1._numSets = c._size / (c._blockSize * c._associativity) ∧
      c1._tags._numSets = c._size / (c._blockSize * c._associativity) ∧
      c1._tags._sets.length = c._size / (c._blockSize * c._associativity) ∧
      c1._tags._numSlotsPerSet = c._associativity ∧
      ∀ s ∈ c1._tags._sets, s._size = c._associativity ∧
        s._table.length = c._associativity ∧ s._freeList.length = c._associativity) ∧
    (∀ f ∈ [CmpLLCwPref.StartSimulation_tags, CmpMCT.StartSimulation_tags,
        CmpPACManHM.StartSimulation_tags, CmpDCP.StartSimulation_tags,
        CmpRTBCache.StartSimulation_tags, CmpFDPAP.StartSimulation_tags,
        CmpLLCVTS.StartSimulation_tags, CmpSHiPIP.StartSimulation_tags],
      ∃ ts, f size blockSize associativity policy nruHand =
          some (size * 1024 / (blockSize * associativity), ts) ∧
        ts.Geometry (size * 1024 / (blockSize * associativity)) associativity) ∧
    (∃ ts, CmpDynamicLLC.StartSimulation_tags size blockSize associativity policy numCPUs
          numDuelingSets maxPSELValue nruHand =
          some (size * 1024 / (blockSize * associativity), ts) ∧
        ts.Geometry (size * 1024 / (blockSize * associativity)) associativity) ∧
    (∃ ts, CmpLLCwAWB.StartSimulation_tags size blockSize associativity policy numCPUs
          numDuelingSets maxPSELValue dbiAssociativity nruHand =
          some (size * 1024 / (blockSize * associativity), ts) ∧
        ts.Geometry (size * 1024 / (blockSize * associativity)) associativity) ∧
    (∃ tags, CmpUCP.StartSimulation_tags size blockSize associativity numCPUs =
          some (size * 1024 / (blockSize * associativity),
            List.replicate (size * 1024 / (blockSize * associativity)) associativity,
            tags) ∧
        tags.length = numCPUs ∧
        ∀ t ∈ tags, t.length = size * 1024 / (blockSize * associativity) ∧
          ∀ s ∈ t, s.length = associativity ∧ ∀ e ∈ s, e.valid = false) ∧
    (∃ sets, CmpARC.StartSimulation_sets size blockSize associativity =
          some (size * 1024 / (blockSize * associativity), sets) ∧
        sets.length = size * 1024 / (blockSize * associativity) ∧
        ∀ s ∈ sets, s = CmpARC.ARCList.new) := by
  refine ⟨?_, ?_, ?_, ?_, ?_, ?_, ?_⟩
  · obtain ⟨ts, h1, h2, h3, h4, h5⟩ := @generic_tagstore_t.SetTagStoreParameters_shape
      (l._size * 1024 / (l._blockSize * l._associativity)) l._associativity _ _ nruHand hpl
    have hne : ¬ (l._blockSize * l._associativity) % UINT32_MOD = 0 := by
      rw [Nat.mod_eq_of_lt hl3]
      omega
    have hst : ∃ l1, l.StartSimulation nruHand = some l1 ∧
        l1._numSets = l._size * 1024 / (l._blockSize * l._associativity) ∧
        l1._tags = ts := by
      unfold CmpLLC.StartSimulation
      rw [if_neg hne]
      simp only [Nat.mod_eq_of_lt hl1, Nat.mod_eq_of_lt hl3, h1, Option.map_some']
      exact ⟨_, rfl, rfl, rfl⟩
    obtain ⟨l1, g1, g2, g3⟩ := hst
    rw [← g3] at h2 h3 h4 h5
    exact ⟨l1, g1, g2, h2, h4, h3, h5⟩
  · obtain ⟨ts, h1, h2, h3, h4, h5⟩ := @generic_tagstore_t.SetTagStoreParameters_shape
      (c._size / (c._blockSize * c._associativity)) c._associativity _ _ nruHand hpc
    have hne : ¬ (c._blockSize * c._associativity) % UINT32_MOD = 0 := by
      rw [Nat.mod_eq_of_lt hc3]
      omega
    have hst : ∃ c1, c.StartSimulation nruHand = some c1 ∧
        c1._numSets = c._size / (c._blockSize * c._associativity) ∧
        c1._tags = ts := by
      unfold CmpCache.StartSimulation
      rw [if_neg hne]
      simp only [Nat.mod_eq_of_lt hc3, h1, Option.map_some']
      exact ⟨_, rfl, rfl, rfl⟩
    obtain ⟨c1, g1, g2, g3⟩ := hst
    rw [← g3] at h2 h3 h4 h5
    exact ⟨c1, g1, g2, h2, h4, h3, h5⟩
  · intro f hf
    have hg := tagsKB_geometry nruHand hp h1 h2 h3
    simp only [List.mem_cons, List.mem_singleton, List.not_mem_nil, or_false] at hf
    rcases hf with e | e | e | e | e | e | e | e <;> subst e <;> exact hg
  · obtain ⟨ts, g1, g2⟩ := @set_dueling_tagstore_t.dueling_shape numCPUs _ associativity
      numDuelingSets maxPSELValue 512 _ _ nruHand hp hd1 hd2 hd3
    exact ⟨ts, by simp [CmpDynamicLLC.StartSimulation_tags, numSetsKB_exact h1 h2 h3, g1],
      g2⟩
  · obtain ⟨ts, g1, g2⟩ := @set_dueling_tagstore_t.dueling_shape numCPUs _ associativity
      numDuelingSets maxPSELValue 512 _ _ nruHand hp hd1 hd2 hd3
    have hne : ¬ dbiAssociativity = 0 := by omega
    exact ⟨ts, by
      simp [CmpLLCwAWB.StartSimulation_tags, numSetsKB_exact h1 h2 h3, g1, hne], g2⟩
  · have hne : ¬ numCPUs = 0 := by omega
    refine ⟨List.replicate numCPUs
      (List.replicate (size * 1024 / (blockSize * associativity))
        (List.replicate associativity CmpUCP.TagEntry.new)), by
      simp only [CmpUCP.StartSimulation_tags, numSetsKB_exact h1 h2 h3, Option.some_bind,
        if_neg hne], by simp, ?_⟩
    intro t ht
    rw [List.eq_of_mem_replicate ht]
    refine ⟨by simp, ?_⟩
    intro s hs
    rw [List.eq_of_mem_replicate hs]
    refine ⟨by simp, ?_⟩
    intro e he
    rw [List.eq_of_mem_replicate he]
    rfl
  · refine ⟨List.replicate (size * 1024 / (blockSize * associativity)) CmpARC.ARCList.new,
      by
        simp only [CmpARC.StartSimulation_sets, numSetsKB_exact h1 h2 h3,
          Option.map_some'],
      by simp, ?_⟩
    intro s hs
    exact List.eq_of_mem_replicate hs

/-- Witness for C19 (amended): the default `CmpLLC` (1024 KB, 64-byte blocks, 16 ways) gets
1024 sets and the default `CmpCache` (32768 bytes, 64-byte blocks, 2 ways) gets 256; with
1024 KB, 64-byte blocks, 16 ways, one CPU and 32 dueling sets every other component gets
1024 sets. -/
theorem C19_cache_geometry_amended_witness :
    (∃ l1, (CmpLLC.new 0 1).StartSimulation (fun _ => 0) = some l1 ∧
      l1._tags._sets.length = 1024 ∧ l1._tags._numSlotsPerSet = 16) ∧
    (∃ c1, (CmpCache.new 1).StartSimulation (fun _ => 0) = some c1 ∧
      c1._tags._sets.length = 256 ∧ c1._tags._numSlotsPerSet = 2) ∧
    (∃ ts, CmpMCT.StartSimulation_tags 1024 64 16 "lru" (fun _ => 0) = some (1024, ts) ∧
      ts._sets.length = 1024 ∧ ts._numSlotsPerSet = 16) ∧
    (∃ ts, CmpDynamicLLC.StartSimulation_tags 1024 64 16 "lru" 1 32 1024 (fun _ => 0) =
        some (1024, ts) ∧ ts._sets.length = 1024 ∧ ts._numSlotsPerSet = 16) ∧
    (∃ sets, CmpARC.StartSimulation_sets 1024 64 16 = some (1024, sets) ∧
      sets.length = 1024) := by
  obtain ⟨⟨l1, a1, _, _, a2, a3, _⟩, ⟨c1, a4, _, _, a5, a6, _⟩, a7, ⟨ts2, a8, a9⟩, _, _,
      ⟨sets, a10, a11, _⟩⟩ :=
    C19_cache_geometry_amended (CmpLLC.new 0 1) (CmpCache.new 1) .lru .lru (fun _ => 0)
      1024 64 16 1 32 1024 16 "lru" .lru
      (by decide) (by decide) (by decide) (by decide) (by decide) (by decide) (by decide)
      (by decide) (by decide) (by decide) (by decide) (by decide) (by decide) (by decide)
      (by decide) (by decide)
  obtain ⟨ts1, b1, b2⟩ := a7 CmpMCT.StartSimulation_tags
    (List.mem_cons_of_mem _ (List.mem_cons_self _ _))
  exact ⟨⟨l1, a1, a2, a3⟩, ⟨c1, a4, a5, a6⟩, ⟨ts1, b1, b2.2.1, b2.2.2.1⟩,
    ⟨ts2, a8, a9.2.1, a9.2.2.1⟩, ⟨sets, a10, a11⟩⟩

/-- **C11.** Writeback self-destruct. Let `rl` be a request with `iniType = COMPONENT` and
`iniPtr` the `CmpLLC` `l`, and `rc` one with `iniPtr` the `CmpCache` `c`. `ProcessReturn`
of the initiating cache returns `0`, sets `destroy`, changes nothing else of the request,
leaves the cache (its tag store included) as it is and creates no request. Once the request
object `r` of a simulator is marked so, `SendToNextComponent(r)` of any component returns
at once: the simulator state is unchanged, so no queue of any component receives `r`, and
`cmpID` and `finished` of `r` are as before the return. -/
theorem C11_writeback_self_destruct (l : CmpLLC) (c : CmpCache) (rl rc : MemoryRequest)
    (hl : rl.iniType = .COMPONENT ∧ rl.iniPtr = l.self)
    (hc : rc.iniType = .COMPONENT ∧ rc.iniPtr = c.self) :
    l.ProcessReturn rl =
        some { busy := 0, cache := l, request := { rl with destroy := true }, sent := [] } ∧
      c.ProcessReturn rc =
        some { busy := 0, cache := c, request := { rc with destroy := true }, sent := [] } ∧
      ∀ (s : MemorySimulator) (fuel cmp r : Nat) (req : MemoryRequest),
        s.requests[r]? = some req →
        MemorySimulator.SendToNextComponent (fuel + 1) cmp r
            (s.setRequest r { req with destroy := true }) =
          some (s.setRequest r { req with destroy := true }) ∧
        (s.setRequest r { req with destroy := true })._components = s._components ∧
        (s.setRequest r { req with destroy := true }).calls = s.calls ∧
        ((s.setRequest r { req with destroy := true }).requests[r]?).map
            (fun x => (x.cmpID, x.finished, x.destroy)) =
          some (req.cmpID, req.finished, true) ∧
        ∀ j, j ≠ r →
          (s.setRequest r { req with destroy := true }).requests[j]? = s.requests[j]? := by
  refine ⟨?_, ?_, ?_⟩
  · unfold CmpLLC.ProcessReturn
    rw [if_pos hl]
  · unfold CmpCache.ProcessReturn
    rw [if_pos hc]
  · intro s fuel cmp r req hr
    have hlt : r < s.requests.length := by
      rcases Nat.lt_or_ge r s.requests.length with h1 | h1
      · exact h1
      · rw [List.getElem?_eq_none h1] at hr
        cases hr
    have hget : (s.setRequest r { req with destroy := true }).requests[r]? =
        some { req with destroy := true } := by
      show (s.requests.set r _)[r]? = _
      rw [List.getElem?_set_self hlt]
    refine ⟨?_, rfl, rfl, ?_, ?_⟩
    · simp only [MemorySimulator.SendToNextComponent, hget, if_true]
    · rw [hget]
      rfl
    · intro j hj
      show (s.requests.set r _)[j]? = _
      rw [List.getElem?_set_ne (Ne.symm hj)]

/-- Witness for C11: the default `CmpLLC` at address 1 and the default `CmpCache` at
address 0 of the two-stage simulator, each with a writeback it has created. -/
theorem C11_writeback_self_destruct_witness :
    (CmpLLC.new 1 1).ProcessReturn
        (MemoryRequest.new .COMPONENT 0 1 .WRITEBACK 1 128 128 64 9) =
      some { busy := 0, cache := CmpLLC.new 1 1,
             request := { MemoryRequest.new .COMPONENT 0 1 .WRITEBACK 1 128 128 64 9 with
                          destroy := true },
             sent := [] } ∧
    MemorySimulator.SendToNextComponent 1 1 0
        ((MemorySimulator.twoStage .READ).setRequest 0
          { MemoryRequest.new .COMPONENT 0 1 .WRITEBACK 1 128 128 64 9 with
            destroy := true }) =
      some ((MemorySimulator.twoStage .READ).setRequest 0
          { MemoryRequest.new .COMPONENT 0 1 .WRITEBACK 1 128 128 64 9 with
            destroy := true }) := by
  have h := C11_writeback_self_destruct (CmpLLC.new 1 1) (CmpCache.new 0)
    (MemoryRequest.new .COMPONENT 0 1 .WRITEBACK 1 128 128 64 9)
    (MemoryRequest.new .COMPONENT 0 0 .WRITEBACK 0 128 128 64 9)
    ⟨rfl, rfl⟩ ⟨rfl, rfl⟩
  refine ⟨h.1, ?_⟩
  have h2 := h.2.2
    ((MemorySimulator.twoStage .READ).setRequest 0
      (MemoryRequest.new .COMPONENT 0 1 .WRITEBACK 1 128 128 64 9)) 0 1 0
    (MemoryRequest.new .COMPONENT 0 1 .WRITEBACK 1 128 128 64 9) rfl
  exact h2.1

theorem table_t.Present.table_modifyValue {t : table_t} {key : Nat} (h : t.Present key)
    (f : Nat → Nat) :
    ∃ t1, t.modifyValue key f = some t1 ∧ t1.Present key ∧
      ∀ k, t1.lookup k = t.lookup k := by
  have hlt := h.2
  obtain ⟨t1, h1, h2, h3, h4⟩ : ∃ t1, t.modifyValue key f = some t1 ∧
      t1._keyIndex = t._keyIndex ∧ t1._size = t._size ∧
      t1._table.length = t._table.length := by
    unfold table_t.modifyValue
    rw [if_pos h.1, List.getElem?_eq_getElem hlt]
    exact ⟨_, rfl, rfl, rfl, by simp⟩
  have hs : ∀ k, t1.SearchForKey k = t.SearchForKey k := by
    intro k
    simp only [table_t.SearchForKey, h2, h3]
  refine ⟨t1, h1, ⟨?_, ?_⟩, ?_⟩
  · rw [hs, h3]
    exact h.1
  · rw [hs, h4]
    exact hlt
  · intro k
    simp only [table_t.lookup, hs, h3]

theorem generic_tagstore_t.Present.tagstore_modifyValue {ts : generic_tagstore_t} {key : Nat}
    (h : ts.Present key) (f : Nat → Nat) :
    ∃ ts1, ts.modifyValue key f = some ts1 ∧ ts1.Present key ∧
      ∀ k, ts1.lookup k = ts.lookup k := by
  obtain ⟨s, hs, hp⟩ := h
  obtain ⟨s1, h1, h2, h3⟩ := hp.table_modifyValue f
  have hlt : ts.index key < ts._sets.length := by
    rcases Nat.lt_or_ge (ts.index key) ts._sets.length with h4 | h4
    · exact h4
    · rw [List.getElem?_eq_none h4] at hs
      cases hs
  refine ⟨{ ts with _sets := ts._sets.set (ts.index key) s1 }, ?_, ?_, ?_⟩
  · simp [generic_tagstore_t.modifyValue, hs, h1]
  · refine ⟨s1, ?_, h2⟩
    show (ts._sets.set (ts.index key) s1)[ts.index key]? = some s1
    rw [List.getElem?_set_self hlt]
  · intro k
    show ((ts._sets.set (ts.index key) s1)[ts.index k]?).map _ = (ts._sets[ts.index k]?).map _
    by_cases e : ts.index key = ts.index k
    · rw [← e, List.getElem?_set_self hlt, hs]
      simp [h3]
    · rw [List.getElem?_set_ne e]

/-- The insert of an absent key into a well-formed tag store: it succeeds, the key is
present afterwards, a set with a free slot returns an invalid entry, and a full set
returns the valid former entry of the victim slot of its policy. -/
theorem generic_tagstore_t.WF.insert_absent {numSets N : Nat} {ts : generic_tagstore_t}
    (h : ts.WF numSets N) (hS : 0 < numSets) (key v : Nat) (pval : policy_value_t)
    (habs : ts.lookup key = some false) :
    ∃ s e ts1, ts._sets[key % numSets]? = some s ∧ ts.insert key v pval = some (e, ts1) ∧
      ts1.Present key ∧ ts1.lookup key = some true ∧
      (s._freeList ≠ [] → e.valid = false) ∧
      (s._freeList = [] → e.valid = true ∧
        ∃ i p1, GetReplacementIndex s.policy N s._table = some (i, p1) ∧
          s._table[i]? = some e) := by
  obtain ⟨s, e, s1, hs, hswf, hstep, hs1wf, htstep, htswf⟩ :=
    h.tagstore_step hS key (.insert key v pval)
  have hidx : ts.index key = key % numSets := by
    simp [generic_tagstore_t.index, h.1]
  have hl : s.lookup key = false := by
    simp only [generic_tagstore_t.lookup, hidx, hs, Option.map_some',
      Option.some.injEq] at habs
    exact habs
  have hk := (table_t.lookup_false_iff hswf.2.2.1 key).1 hl
  have hlen : key % numSets < ts._sets.length := by
    rw [h.2.1]
    exact Nat.mod_lt _ hS
  have hfind1 : ∃ i, map_find s1._keyIndex key = some i := by
    rcases hf : s._freeList with _ | ⟨i, rest⟩
    · obtain ⟨i, p1, p2, e1, _, _, _, _, _, _, hins, _⟩ :=
        table_t.insert_evict hswf v pval hk hf
      have : s.step (.insert key v pval) = s.insert key v pval := rfl
      rw [this, hins] at hstep
      simp only [Option.some.injEq, Prod.mk.injEq] at hstep
      rw [← hstep.2]
      refine ⟨i, ?_⟩
      show map_find (map_insert (map_erase s._keyIndex e1.key) key i) key = some i
      rw [map_find_insert _ _ _ _ (by rw [map_find_erase]; split_ifs <;> simp [hk])]
      simp
    · obtain ⟨p1, _, _, _, hins, _⟩ := table_t.insert_free hswf v pval hk hf
      have : s.step (.insert key v pval) = s.insert key v pval := rfl
      rw [this, hins] at hstep
      simp only [Option.some.injEq, Prod.mk.injEq] at hstep
      rw [← hstep.2]
      refine ⟨i, ?_⟩
      show map_find (map_insert s._keyIndex key i) key = some i
      rw [map_find_insert _ _ _ _ hk]
      simp
  obtain ⟨i1, hfind1⟩ := hfind1
  obtain ⟨hsk, hi1, hne1, _⟩ := hs1wf.2.2.1.search_some key i1 hfind1
  have hget1 : ({ ts with _sets := ts._sets.set (key % numSets) s1 } :
      generic_tagstore_t)._sets[key % numSets]? = some s1 := by
    show (ts._sets.set (key % numSets) s1)[key % numSets]? = some s1
    rw [List.getElem?_set_self hlen]
  have hidx2 : generic_tagstore_t.index
      { ts with _sets := ts._sets.set (key % numSets) s1 } key = key % numSets := hidx
  refine ⟨s, e, _, hs, htstep, ⟨s1, ?_, ?_, ?_⟩, ?_, ?_, ?_⟩
  · rw [hidx2]
    exact hget1
  · rw [hsk]
    exact hne1
  · rw [hsk, hs1wf.2.2.1.len]
    exact hi1
  · have := (table_t.lookup_true_iff hs1wf.2.2.1 key).2 ⟨i1, hfind1⟩
    unfold generic_tagstore_t.lookup
    rw [hidx2, hget1]
    simp [this]
  · intro hf
    rcases hf2 : s._freeList with _ | ⟨i, rest⟩
    · exact absurd hf2 hf
    · obtain ⟨p1, _, _, _, hins, _⟩ := table_t.insert_free hswf v pval hk hf2
      have : s.step (.insert key v pval) = s.insert key v pval := rfl
      rw [this, hins] at hstep
      simp only [Option.some.injEq, Prod.mk.injEq] at hstep
      rw [← hstep.1]
      rfl
  · intro hf
    obtain ⟨i, p1, p2, e1, hg, _, _, he1, hv1, _, hins, _⟩ :=
      table_t.insert_evict hswf v pval hk hf
    have : s.step (.insert key v pval) = s.insert key v pval := rfl
    rw [this, hins] at hstep
    simp only [Option.some.injEq, Prod.mk.injEq] at hstep
    rw [← hstep.1]
    exact ⟨hv1, i, p1, hg, he1⟩

theorem CmpLLC.TagEntry.decode_encode_tag (v : CmpLLC.TagEntry) (h1 : v.vcla < UINT64_MOD)
    (h2 : v.pcla < UINT64_MOD) : CmpLLC.TagEntry.decode (CmpLLC.TagEntry.encode v) = v := by
  obtain ⟨d, a, b, c⟩ := v
  simp only at h1 h2
  have hpos : 0 < UINT64_MOD := by decide
  have e1 : ((if d = true then 1 else 0) + 2 * (a + UINT64_MOD * (b + UINT64_MOD * c))) / 2 =
      a + UINT64_MOD * (b + UINT64_MOD * c) := by
    cases d <;> simp
    omega
  have e2 : ((if d = true then 1 else 0) + 2 * (a + UINT64_MOD * (b + UINT64_MOD * c))) % 2 =
      (if d = true then 1 else 0) := by
    cases d <;> simp
  have e3 : (a + UINT64_MOD * (b + UINT64_MOD * c)) % UINT64_MOD = a := by
    rw [Nat.add_mul_mod_self_left, Nat.mod_eq_of_lt h1]
  have e4 : (a + UINT64_MOD * (b + UINT64_MOD * c)) / UINT64_MOD = b + UINT64_MOD * c := by
    rw [Nat.add_mul_div_left _ _ hpos, Nat.div_eq_of_lt h1, Nat.zero_add]
  have e5 : (b + UINT64_MOD * c) % UINT64_MOD = b := by
    rw [Nat.add_mul_mod_self_left, Nat.mod_eq_of_lt h2]
  have e6 : (b + UINT64_MOD * c) / UINT64_MOD = c := by
    rw [Nat.add_mul_div_left _ _ hpos, Nat.div_eq_of_lt h2, Nat.zero_add]
  simp only [CmpLLC.TagEntry.decode, CmpLLC.TagEntry.encode, e1, e2, e3, e4, e5, e6]
  cases d <;> simp

theorem CmpCache.CacheTagValue.decode_encode_value (v : CmpCache.CacheTagValue)
    (h1 : v.vcla < UINT64_MOD) (h2 : v.pcla < UINT64_MOD) :
    CmpCache.CacheTagValue.decode (CmpCache.CacheTagValue.encode v) = v := by
  obtain ⟨d, p, a, b, c⟩ := v
  simp only at h1 h2
  have hpos : 0 < UINT64_MOD := by decide
  generalize hx : a + UINT64_MOD * (b + UINT64_MOD * c) = x
  have e3 : x % UINT64_MOD = a := by
    rw [← hx, Nat.add_mul_mod_self_left, Nat.mod_eq_of_lt h1]
  have e4 : x / UINT64_MOD = b + UINT64_MOD * c := by
    rw [← hx, Nat.add_mul_div_left _ _ hpos, Nat.div_eq_of_lt h1, Nat.zero_add]
  have e5 : (b + UINT64_MOD * c) % UINT64_MOD = b := by
    rw [Nat.add_mul_mod_self_left, Nat.mod_eq_of_lt h2]
  have e6 : (b + UINT64_MOD * c) / UINT64_MOD = c := by
    rw [Nat.add_mul_div_left _ _ hpos, Nat.div_eq_of_lt h2, Nat.zero_add]
  have e0 : ((if d = true then 1 else 0) + 2 * ((if p = true then 1 else 0) + 2 * x)) % 2 =
      (if d = true then 1 else 0) := by
    cases d <;> simp
  have e1 : ((if d = true then 1 else 0) + 2 * ((if p = true then 1 else 0) + 2 * x)) / 2 % 2 =
      (if p = true then 1 else 0) := by
    cases d <;> cases p <;> simp <;> omega
  have e2 : ((if d = true then 1 else 0) + 2 * ((if p = true then 1 else 0) + 2 * x)) / 4 =
      x := by
    cases d <;> cases p <;> simp <;> omega
  simp only [CmpCache.CacheTagValue.decode, CmpCache.CacheTagValue.encode, hx, e0, e1, e2, e3,
    e4, e5, e6]
  cases d <;> cases p <;> simp

theorem table_t.oneWay_table_WF (v : Nat) : (table_t.oneWay v).WF 1 :=
  @table_t.WF_of_run .lru 1 0 [.insert 2 v .POLICY_HIGH] _
    (by decide) (by decide) (by intro h; cases h) (by rfl)

theorem generic_tagstore_t.oneWay_WF (policy : String) (v : Nat) :
    generic_tagstore_t.WF 1 1 ⟨1, 1, policy, [table_t.oneWay v]⟩ := by
  refine ⟨rfl, rfl, ?_⟩
  intro s hs
  simp only [List.mem_singleton] at hs
  rw [hs]
  exact table_t.oneWay_table_WF v

namespace victim_tag_store_t

theorem nodup_snoc {l : List Nat} {x : Nat} (h : l.Nodup) (hx : x ∉ l) :
    (l ++ [x]).Nodup := by
  rw [List.nodup_append]
  refine ⟨h, List.nodup_singleton _, ?_⟩
  intro a ha hb
  simp only [List.mem_singleton] at hb
  subst hb
  exact hx ha

theorem set_insert_new {l : List Nat} {x : Nat} (hx : x ∉ l) : set_insert l x = l ++ [x] := by
  unfold set_insert
  rw [if_neg hx]

theorem Exact.vts_insert {N : Nat} {noClear : Bool} {s : victim_tag_store_t} {stored : List Nat}
    (h : s.Exact N noClear stored) (hN : 1 ≤ N) (hN2 : N ≤ 2 ^ 31) (tag : Nat) :
    ∃ s1, s.insert tag = some s1 ∧
      s1.Exact N noClear (specStep N noClear stored (.insert tag)) := by
  obtain ⟨nb, ubf, idl, nc, dc, seg, idx, rem, bf, cnt, hits, fifo, si0, si1, ci⟩ := s
  obtain ⟨h1, h2, h3, h4, h5, h6, h7, h8, h9, h10, h11, h12⟩ := h
  simp only at h1 h2 h3 h4 h5 h6 h7 h8 h9 h10
  subst h1 h2 h3 h4 h5 h6 h7 h8 h9 h10
  have hN0 : ¬ nb = 0 := by omega
  have hmod : UINT32_MOD = 4294967296 := rfl
  unfold victim_tag_store_t.insert
  simp only
  rw [if_neg hN0]
  by_cases hmem : tag ∈ fifo
  · rw [if_pos hmem]
    refine ⟨_, rfl, ?_⟩
    simp only [specStep, if_pos hmem]
    exact ⟨rfl, rfl, rfl, rfl, rfl, rfl, rfl, rfl, rfl, rfl, h11, h12⟩
  rw [if_neg hmem]
  simp only [Bool.false_eq_true, if_false, not_false_eq_true, true_and]
  by_cases hfull : fifo.length = nb
  · rw [if_pos hfull]
    cases nc
    · -- default mode: everything is discarded
      simp only [Bool.false_eq_true, if_false, Option.some_bind, cleared, Option.map_some']
      refine ⟨_, rfl, ?_⟩
      simp only [specStep, if_neg hmem, if_pos hfull, Bool.false_eq_true, if_false]
      exact ⟨rfl, rfl, rfl, rfl, rfl, rfl, set_insert_new (List.not_mem_nil _), rfl, rfl, rfl,
        by simpa using hN, by simp⟩
    · -- noClear mode: the oldest tag is discarded
      simp only [if_true]
      rcases fifo with _ | ⟨last, rest⟩
      · simp only [List.length_nil] at hfull
        omega
      have hlast : last ∉ rest := (List.nodup_cons.1 h12).1
      have hrest : rest.Nodup := (List.nodup_cons.1 h12).2
      have htag : tag ∉ rest := fun hh => hmem (List.mem_cons_of_mem _ hh)
      have hlen : rest.length + 1 = nb := by simpa using hfull
      simp only [evictOldest, List.not_mem_nil, if_false, Option.map_some', Option.some_bind,
        Bool.false_eq_true, List.erase_cons_head]
      refine ⟨_, rfl, ?_⟩
      simp only [specStep, if_neg hmem, if_pos hfull, if_true, List.tail_cons]
      refine ⟨rfl, rfl, rfl, rfl, rfl, rfl, set_insert_new htag, rfl, rfl, ?_, ?_,
        nodup_snoc hrest htag⟩
      · show (((last :: rest).length + UINT32_MOD - 1) % UINT32_MOD + 1) % UINT32_MOD = _
        simp only [List.length_append, List.length_singleton, List.length_cons,
          List.length_nil]
        rw [hmod]
        omega
      · simp only [List.length_append, List.length_singleton]
        omega
  · rw [if_neg hfull]
    have hlt : fifo.length < nb := by omega
    by_cases hc : fifo.length = 2 * nb % UINT32_MOD
    · rw [if_pos hc]
      have h0 : fifo.length = 0 := by
        rw [hmod] at hc
        omega
      have hnil : fifo = [] := List.length_eq_zero.1 h0
      subst hnil
      simp only [Option.some_bind, cleared, Bool.false_eq_true, if_false, Option.map_some']
      refine ⟨_, rfl, ?_⟩
      simp only [specStep, if_neg hmem, if_neg hfull]
      exact ⟨rfl, rfl, rfl, rfl, rfl, rfl, set_insert_new (List.not_mem_nil _), rfl, rfl, rfl,
        by simpa using hN, by simp⟩
    · rw [if_neg hc]
      simp only [Option.some_bind, Bool.false_eq_true, if_false, Option.map_some']
      refine ⟨_, rfl, ?_⟩
      simp only [specStep, if_neg hmem, if_neg hfull]
      refine ⟨rfl, rfl, rfl, rfl, rfl, rfl, set_insert_new hmem, rfl, rfl, ?_, ?_,
        nodup_snoc h12 hmem⟩
      · show (fifo.length + 1) % UINT32_MOD = _
        simp only [List.length_append, List.length_singleton]
        rw [hmod]
        omega
      · simp only [List.length_append, List.length_singleton]
        omega

theorem Exact.vts_test {N : Nat} {noClear : Bool} {s : victim_tag_store_t} {stored : List Nat}
    (h : s.Exact N noClear stored) (hN : 1 ≤ N) (tag : Nat) :
    ∃ s1, s.test tag = some (decide (tag ∈ stored), s1) ∧ s1.Exact N noClear stored ∧
      s1._index = s._index ∧ s1._fifo = s._fifo := by
  obtain ⟨nb, ubf, idl, nc, dc, seg, idx, rem, bf, cnt, hits, fifo, si0, si1, ci⟩ := s
  obtain ⟨h1, h2, h3, h4, h5, h6, h7, h8, h9, h10, h11, h12⟩ := h
  simp only at h1 h2 h3 h4 h5 h6 h7 h8 h9 h10
  subst h1 h2 h3 h4 h5 h6 h7 h8 h9 h10
  have hN0 : ¬ nb = 0 := by omega
  unfold victim_tag_store_t.test
  simp only
  rw [if_neg hN0]
  simp only [Bool.false_eq_true, if_false]
  by_cases hmem : tag ∈ fifo
  · rw [if_pos hmem]
    simp only [Option.map_some', false_and, if_false]
    have hd : decide (tag ∈ fifo) = true := by simp [hmem]
    rw [hd]
    exact ⟨_, rfl, ⟨rfl, rfl, rfl, rfl, rfl, rfl, rfl, rfl, rfl, rfl, h11, h12⟩, rfl, rfl⟩
  · rw [if_neg hmem]
    have hd : decide (tag ∈ fifo) = false := by simp [hmem]
    rw [hd]
    exact ⟨_, rfl, ⟨rfl, rfl, rfl, rfl, rfl, rfl, rfl, rfl, rfl, rfl, h11, h12⟩, rfl, rfl⟩

theorem Exact.vts_run {N : Nat} {noClear : Bool} (hN : 1 ≤ N) (hN2 : N ≤ 2 ^ 31) :
    ∀ (ops : List vts_op) (s : victim_tag_store_t) (stored : List Nat),
      s.Exact N noClear stored →
      ∃ s1, s.run ops = some (specResults N noClear stored ops, s1) ∧
        s1.Exact N noClear (specStored N noClear stored ops) := by
  intro ops
  induction ops with
  | nil =>
    intro s stored h
    exact ⟨s, rfl, h⟩
  | cons op ops ih =>
    intro s stored h
    cases op with
    | insert tag =>
      obtain ⟨s1, h1, h2⟩ := h.vts_insert hN hN2 tag
      obtain ⟨s2, h3, h4⟩ := ih s1 _ h2
      exact ⟨s2, by simp [victim_tag_store_t.run, h1, h3, specResults], h4⟩
    | test tag =>
      obtain ⟨s1, h1, h2, _⟩ := h.vts_test hN tag
      obtain ⟨s2, h3, h4⟩ := ih s1 _ h2
      exact ⟨s2, by simp [victim_tag_store_t.run, h1, h3, specResults], h4⟩

end victim_tag_store_t

/-- Counterexample for C20: an exact victim tag store of capacity `N = 2 ^ 31 + 1` in the
default mode. `2 * _numBlocks` is a `uint32` product, here `2`, so the insert of a third
tag finds `_numCurrentBlocks == 2 * _numBlocks` and discards the two stored tags: after
insert 1, 2, 3 the test of 1 misses, although only three tags have been inserted. -/
theorem C20_large_store_clears_early :
    ((victim_tag_store_t.init 2147483649 false false false false false
        victim_tag_store_t.noFilter).run
      [.insert 1, .insert 2, .insert 3, .test 1]).map (fun r => (r.1, r.2._index)) =
      some ([false], [3]) ∧
    victim_tag_store_t.specResults 2147483649 false []
      [.insert 1, .insert 2, .insert 3, .test 1] = [true] ∧
    victim_tag_store_t.specStored 2147483649 false []
      [.insert 1, .insert 2, .insert 3, .test 1] = [1, 2, 3] := by
  refine ⟨by rfl, by rfl, by rfl⟩

/-- **C20 (amended).** Exact-mode victim tag store membership. A victim tag store
initialised with capacity `1 ≤ N ≤ 2 ^ 31`, without bloom filter, not ideal, not segmented
and not decoupled, in the default or the `noClear` mode, performs every sequence of
`insert` and `test` calls; each `test(t)` returns `true` exactly when `t` is stored at that
moment according to the claim's account (`specResults`), in which an insert of a tag that
is not stored into a store of `N` tags first discards all `N` tags (default) or the oldest
one (`noClear`), and nothing else discards a tag; afterwards `_index` and `_fifo` hold
exactly the stored tags, oldest first, and a further `test` returns whether its tag is
among them and leaves them as they are. -/
theorem C20_exact_membership_amended (N : Nat) (noClear : Bool) (bf : bloom_filter_t)
    (ops : List vts_op) (hN : 1 ≤ N) (hN2 : N ≤ 2 ^ 31) :
    ∃ s, (victim_tag_store_t.init N false false noClear false false bf).run ops =
        some (victim_tag_store_t.specResults N noClear [] ops, s) ∧
      s._index = victim_tag_store_t.specStored N noClear [] ops ∧
      s._fifo = victim_tag_store_t.specStored N noClear [] ops ∧
      s._numCurrentBlocks = (victim_tag_store_t.specStored N noClear [] ops).length ∧
      (victim_tag_store_t.specStored N noClear [] ops).length ≤ N ∧
      ∀ t, ∃ s1, s.test t =
          some (decide (t ∈ victim_tag_store_t.specStored N noClear [] ops), s1) ∧
        s1._index = s._index ∧ s1._fifo = s._fifo := by
  have h0 : (victim_tag_store_t.init N false false noClear false false bf).Exact N noClear
      [] :=
    ⟨rfl, rfl, rfl, rfl, rfl, rfl, rfl, rfl, rfl, rfl, Nat.zero_le _, List.nodup_nil⟩
  obtain ⟨s, h1, h2⟩ := victim_tag_store_t.Exact.vts_run hN hN2 ops _ _ h0
  refine ⟨s, h1, h2.index, h2.fifo, h2.count, h2.bound, ?_⟩
  intro t
  obtain ⟨s1, h3, _, h4, h5⟩ := h2.vts_test hN t
  exact ⟨s1, h3, h4, h5⟩

/-- Witness for C20 (amended), the scenario of the claim: capacity 4, default mode; insert
1, 2, 3, 4; test 1 hits; insert 5; test 1 misses and test 5 hits. -/
theorem C20_exact_membership_amended_witness :
    ∃ s, (victim_tag_store_t.init 4 false false false false false
          victim_tag_store_t.noFilter).run
        [.insert 1, .insert 2, .insert 3, .insert 4, .test 1, .insert 5, .test 1, .test 5] =
        some ([true, false, true], s) ∧
      s._index = [5] := by
  obtain ⟨s, h1, h2, _⟩ := C20_exact_membership_amended 4 false victim_tag_store_t.noFilter
    [.insert 1, .insert 2, .insert 3, .insert 4, .test 1, .insert 5, .test 1, .test 5]
    (by decide) (by decide)
  exact ⟨s, h1, h2⟩

namespace CmpMSHR

theorem getElem?_set_some {α : Type} {l : List α} {i : Nat} {a : α} (b : α)
    (h : l[i]? = some a) : (l.set i b)[i]? = some b := by
  have hlt : i < l.length := by
    rcases Nat.lt_or_ge i l.length with h1 | h1
    · exact h1
    · rw [List.getElem?_eq_none h1] at h
      cases h
  rw [List.getElem?_set_self hlt]

theorem wake_spec (p : Nat) (c : Nat) (d : Bool) :
    ∀ (xs : List Nat) (s : CmpMSHR),
      (∀ x ∈ xs, ∃ w, s.requests[x]? = some w) →
      (∃ reply, s.requests[p]? = some reply ∧ reply.currentCycle = c ∧
        reply.dirtyReply = d) →
      ∃ s1, wake p xs s = some s1 ∧ s1._queue = s._queue ++ xs ∧
        s1._missed = s._missed ∧ s1._outstanding = s._outstanding ∧
        s1._waitQ = s._waitQ ∧ s1.sent = s.sent ∧ s1.self = s.self ∧
        s1._count = s._count ∧ s1._blockSize = s._blockSize ∧
        s1.requests.length = s.requests.length ∧
        (∃ reply, s1.requests[p]? = some reply ∧ reply.currentCycle = c ∧
          reply.dirtyReply = d) ∧
        (∀ x ∈ xs, ∃ w, s1.requests[x]? = some w ∧ Woken c d w) ∧
        (∀ (j : Nat) (w : MemoryRequest), s.requests[j]? = some w → Woken c d w →
          ∃ w1, s1.requests[j]? = some w1 ∧ Woken c d w1) ∧
        (∀ j : Nat, j ∉ xs → s1.requests[j]? = s.requests[j]?) := by
  intro xs
  induction xs with
  | nil =>
    intro s _ hp
    exact ⟨s, rfl, by simp, rfl, rfl, rfl, rfl, rfl, rfl, rfl, rfl, hp,
      (fun x hx => by cases hx), (fun j w hj hw => ⟨w, hj, hw⟩), (fun _ _ => rfl)⟩
  | cons x xs ih =>
    intro s hv hp
    obtain ⟨reply, hrep, hc, hd⟩ := hp
    obtain ⟨w, hw⟩ := hv x (List.mem_cons_self _ _)
    have hset : ∀ j, (s.requests.set x
        { w with stalling := false, serviced := true, currentCycle := reply.currentCycle, dirtyReply := if reply.dirtyReply then true else w.dirtyReply })[j]? =
        if j = x then some { w with stalling := false, serviced := true, currentCycle := reply.currentCycle, dirtyReply := if reply.dirtyReply then true else w.dirtyReply }
        else s.requests[j]? := by
      intro j
      by_cases e : j = x
      · rw [if_pos e, e]
        exact getElem?_set_some _ hw
      · rw [if_neg e, List.getElem?_set_ne (Ne.symm e)]
    have hwoken : Woken c d { w with stalling := false, serviced := true, currentCycle := reply.currentCycle, dirtyReply := if reply.dirtyReply then true else w.dirtyReply } := by
      refine ⟨rfl, rfl, hc, ?_⟩
      intro hd1
      show (if reply.dirtyReply then true else w.dirtyReply) = true
      rw [hd, hd1]
      rfl
    obtain ⟨s1, h1, h2, h3, h4, h5, h6, h7, h8, h9, h10, h11, h12, h13, h14⟩ := ih
      { s.setRequest x
          { w with stalling := false, serviced := true, currentCycle := reply.currentCycle, dirtyReply := if reply.dirtyReply then true else w.dirtyReply } with
        _queue := s._queue ++ [x] }
      (by
        intro y hy
        obtain ⟨wy, hwy⟩ := hv y (List.mem_cons_of_mem _ hy)
        show ∃ w1, (s.requests.set x _)[y]? = some w1
        rw [hset]
        by_cases e : y = x
        · rw [if_pos e]
          exact ⟨_, rfl⟩
        · rw [if_neg e]
          exact ⟨wy, hwy⟩)
      (by
        show ∃ r1, (s.requests.set x _)[p]? = some r1 ∧ _
        rw [hset]
        by_cases e : p = x
        · rw [if_pos e]
          refine ⟨_, rfl, hc, ?_⟩
          have hwr : w = reply := by
            rw [e] at hrep
            rw [hrep] at hw
            exact (Option.some.inj hw).symm
          show (if reply.dirtyReply then true else w.dirtyReply) = d
          rw [hwr, hd]
          cases d <;> rfl
        · rw [if_neg e]
          exact ⟨reply, hrep, hc, hd⟩)
    refine ⟨s1, ?_, ?_, h3, h4, h5, h6, h7, h8, h9, ?_, h11, ?_, ?_, ?_⟩
    · simp only [wake, hrep, hw]
      exact h1
    · rw [h2]
      show s._queue ++ [x] ++ xs = s._queue ++ x :: xs
      simp
    · rw [h10]
      show (s.requests.set x _).length = _
      rw [List.length_set]
    · intro y hy
      rcases List.mem_cons.1 hy with e | e
      · subst e
        exact h13 y _ (by
          show (s.requests.set y _)[y]? = _
          rw [hset, if_pos rfl]) hwoken
      · exact h12 y e
    · intro j wj hj hwj
      by_cases e : j = x
      · exact h13 j _ (by
          show (s.requests.set x _)[j]? = _
          rw [hset, if_pos e]) hwoken
      · exact h13 j wj (by
          show (s.requests.set x _)[j]? = _
          rw [hset, if_neg e]
          exact hj) hwj
    · intro j hj
      have hjx : j ≠ x := fun e => hj (e ▸ List.mem_cons_self _ _)
      have hjxs : j ∉ xs := fun e => hj (List.mem_cons_of_mem _ e)
      rw [h14 j hjxs]
      show (s.requests.set x _)[j]? = _
      rw [hset, if_neg hjx]

end CmpMSHR
theorem amap_lookup_cons {α : Type} (a : Nat × α) (m : List (Nat × α)) (k : Nat) :
    (a :: m).lookup k = if k = a.1 then some a.2 else m.lookup k := by
  obtain ⟨a1, a2⟩ := a
  rw [List.lookup_cons]
  by_cases e : k = a1
  · subst e
    simp
  · have : (k == a1) = false := by simpa using e
    rw [this, if_neg e]

theorem amap_lookup_isSome {α : Type} (m : List (Nat × α)) (k : Nat) :
    (m.lookup k).isSome = true ↔ k ∈ m.map Prod.fst := by
  induction m with
  | nil => simp
  | cons a m ih =>
    rw [amap_lookup_cons]
    by_cases e : k = a.1
    · rw [if_pos e]
      simp [e]
    · rw [if_neg e, ih]
      simp only [List.map_cons, List.mem_cons]
      constructor
      · exact Or.inr
      · rintro (h | h)
        · exact absurd h e
        · exact h

theorem amap_lookup_none {α : Type} (m : List (Nat × α)) (k : Nat) :
    m.lookup k = none ↔ k ∉ m.map Prod.fst := by
  rw [← amap_lookup_isSome]
  cases m.lookup k <;> simp

theorem amap_erase_lookup_self {α : Type} (m : List (Nat × α)) (k : Nat) :
    (amap_erase m k).lookup k = none := by
  rw [amap_lookup_none]
  intro h
  obtain ⟨kv, hkv, e⟩ := List.mem_map.1 h
  have := (List.mem_filter.1 hkv).2
  simp [e] at this

theorem amap_erase_keys {α : Type} (m : List (Nat × α)) (k : Nat) :
    (amap_erase m k).map Prod.fst = (m.map Prod.fst).filter (fun x => x != k) := by
  unfold amap_erase
  induction m with
  | nil => rfl
  | cons a m ih =>
    simp only [List.filter_cons, List.map_cons]
    by_cases e : a.1 = k
    · simp [e, ih]
    · have : (a.1 != k) = true := by simpa using e
      simp [this, ih]

theorem amap_set_keys {α : Type} (m : List (Nat × α)) (k : Nat) (v : α) :
    (amap_set m k v).map Prod.fst =
      if k ∈ m.map Prod.fst then m.map Prod.fst else m.map Prod.fst ++ [k] := by
  unfold amap_set
  by_cases h : (m.lookup k).isSome = true
  · rw [if_pos h, if_pos ((amap_lookup_isSome m k).1 h), List.map_map]
    apply List.map_congr_left
    intro kv _
    show (if kv.1 = k then (k, v) else kv).1 = kv.1
    split_ifs with e
    · exact e.symm
    · rfl
  · rw [if_neg h, if_neg (fun h1 => h ((amap_lookup_isSome m k).2 h1))]
    simp

theorem amap_set_lookup_self {α : Type} (m : List (Nat × α)) (k : Nat) (v : α) :
    (amap_set m k v).lookup k = some v := by
  unfold amap_set
  by_cases h : (m.lookup k).isSome = true
  · rw [if_pos h]
    induction m with
    | nil => simp at h
    | cons a m ih =>
      rw [List.map_cons, amap_lookup_cons]
      by_cases e : a.1 = k
      · rw [if_pos e, if_pos rfl]
      · rw [if_neg e, if_neg (Ne.symm e)]
        apply ih
        rw [amap_lookup_cons, if_neg (Ne.symm e)] at h
        exact h
  · rw [if_neg h]
    have hn : m.lookup k = none := by
      cases hm : m.lookup k with
      | none => rfl
      | some x => rw [hm] at h; simp at h
    clear h
    induction m with
    | nil => simp
    | cons a m ih =>
      rw [amap_lookup_cons] at hn
      by_cases e : k = a.1
      · rw [if_pos e] at hn
        cases hn
      · rw [if_neg e] at hn
        rw [List.cons_append, amap_lookup_cons, if_neg e]
        exact ih hn

theorem amap_set_length {α : Type} (m : List (Nat × α)) (k : Nat) (v : α) :
    (amap_set m k v).length = if k ∈ m.map Prod.fst then m.length else m.length + 1 := by
  have := congrArg List.length (amap_set_keys m k v)
  rw [List.length_map] at this
  rw [this]
  split_ifs <;> simp
/-- **C12.** MSHR coalescing and reply. In any state of the MSHR with a nonzero block
size: (a) a request `r` of a type other than `WRITE` and `WRITEBACK` whose block `B`
is tracked in `_missed` with list `waiting` (if it is a `READ`, `_outstanding[B]` being an
object) makes `ProcessRequest` return 0 with `r` stalling, `B` mapped to
`waiting ++ [r]`, `_outstanding`, `_waitQ` and `_queue` untouched, no request object
created and nothing handed to `SendToNextComponent`, every object other than `r` and the
outstanding miss being as before; (b) a `WRITE` on a tracked block only gets
`serviced = true`: the state is otherwise as before, so it is not appended; (c) on the
return of a request `p` created by this MSHR whose address `B` is tracked with list
`waiting` (the listed pointers and the front of `_waitQ` being objects), `ProcessReturn`
returns 0, every request of `waiting` is not stalling, serviced, at the cycle of the reply
and dirty if the reply is, `_queue` has got `waiting` (and then the front of `_waitQ`)
appended, `B` is in neither `_missed` nor `_outstanding`, and the reply is marked
`destroy`. -/
theorem C12_mshr_coalescing_and_reply (next : Hierarchy) (s : CmpMSHR)
    (hb : s._blockSize ≠ 0) :
    (∀ (r : Nat) (req : MemoryRequest) (waiting : List Nat),
      s.requests[r]? = some req →
      s._missed.lookup (req.physicalAddress / s._blockSize * s._blockSize) = some waiting →
      req.type ≠ .WRITE → req.type ≠ .WRITEBACK →
      (req.type = .READ → ∃ m mo,
        s._outstanding.lookup (req.physicalAddress / s._blockSize * s._blockSize) = some m ∧
        s.requests[m]? = some mo) →
      ∃ s1 req1, s.ProcessRequest next r = some (0, s1) ∧
        s1.requests[r]? = some req1 ∧ req1.stalling = true ∧
        s1._missed.lookup (req.physicalAddress / s._blockSize * s._blockSize) =
          some (waiting ++ [r]) ∧
        s1._missed.map Prod.fst = s._missed.map Prod.fst ∧
        s1._outstanding = s._outstanding ∧ s1._waitQ = s._waitQ ∧ s1._queue = s._queue ∧
        s1.requests.length = s.requests.length ∧ s1.sent = s.sent ∧
        (∀ j : Nat, j ≠ r →
          s._outstanding.lookup (req.physicalAddress / s._blockSize * s._blockSize) ≠ some j →
          s1.requests[j]? = s.requests[j]?) ∧
        (s._outstanding.lookup (req.physicalAddress / s._blockSize * s._blockSize) ≠ some r →
          req1 = { req with stalling := true })) ∧
    (∀ (r : Nat) (req : MemoryRequest) (waiting : List Nat),
      s.requests[r]? = some req →
      s._missed.lookup (req.physicalAddress / s._blockSize * s._blockSize) = some waiting →
      req.type = .WRITE →
      s.ProcessRequest next r =
        some (0, { s with requests := s.requests.set r { req with serviced := true } })) ∧
    (∀ (p : Nat) (reply : MemoryRequest) (waiting : List Nat),
      s.requests[p]? = some reply →
      reply.iniType = .COMPONENT → reply.iniPtr = s.self →
      s._missed.lookup reply.physicalAddress = some waiting →
      (∀ x ∈ waiting, ∃ w, s.requests[x]? = some w) →
      (∀ front ∈ s._waitQ.head?, ∃ w, s.requests[front]? = some w) →
      ∃ s1 reply1, s.ProcessReturn p = some (0, s1) ∧
        (∀ x ∈ waiting, ∃ w, s1.requests[x]? = some w ∧ w.stalling = false ∧
          w.serviced = true ∧ w.currentCycle = reply.currentCycle ∧
          (reply.dirtyReply = true → w.dirtyReply = true)) ∧
        s1._queue = s._queue ++ waiting ++ s._waitQ.head?.toList ∧
        s1._missed = amap_erase s._missed reply.physicalAddress ∧
        s1._outstanding = amap_erase s._outstanding reply.physicalAddress ∧
        s1._missed.lookup reply.physicalAddress = none ∧
        s1._outstanding.lookup reply.physicalAddress = none ∧
        s1._waitQ = s._waitQ.tail ∧ s1.sent = s.sent ∧
        s1.requests.length = s.requests.length ∧
        s1.requests[p]? = some reply1 ∧ reply1.destroy = true) := by
  refine ⟨?_, ?_, ?_⟩
  · intro r req waiting hr hm hw hwb hout
    have hset : ∀ (l : List MemoryRequest) (i : Nat) (a b : MemoryRequest),
        l[i]? = some a → ∀ j, (l.set i b)[j]? = if j = i then some b else l[j]? := by
      intro l i a b h j
      by_cases e : j = i
      · rw [if_pos e, e]
        exact CmpMSHR.getElem?_set_some _ h
      · rw [if_neg e, List.getElem?_set_ne (Ne.symm e)]
    by_cases hrd : req.type = .READ
    · obtain ⟨m, mo, hom, hmo⟩ := hout hrd
      by_cases hmr : m = r
      · subst hmr
        have hreq : mo = req := by
          rw [hr] at hmo
          exact (Option.some.inj hmo).symm
        subst hreq
        refine ⟨{ s with requests := (s.requests.set m { mo with type := .READ }).set m { { mo with type := .READ } with stalling := true }, _missed := amap_set s._missed (mo.physicalAddress / s._blockSize * s._blockSize) (waiting ++ [m]) }, { { mo with type := .READ } with stalling := true }, ?_, ?_, rfl, ?_, ?_, rfl, rfl, rfl, ?_, rfl, ?_, ?_⟩
        · simp only [CmpMSHR.ProcessRequest, hr, if_neg hwb, if_neg hb, hm, if_neg hw,
            if_pos hrd, hom, Option.map_some', Option.some_bind, CmpMSHR.setRequest,
            CmpMSHR.getElem?_set_some _ hr]
        · show ((s.requests.set m _).set m _)[m]? = _
          rw [hset _ m _ _ (CmpMSHR.getElem?_set_some _ hr), if_pos rfl]
        · exact amap_set_lookup_self _ _ _
        · show (amap_set s._missed _ _).map Prod.fst = _
          rw [amap_set_keys, if_pos ((amap_lookup_isSome _ _).1 (by rw [hm]; rfl))]
        · simp [List.length_set]
        · intro j hj _
          show ((s.requests.set m _).set m _)[j]? = _
          rw [List.getElem?_set_ne (Ne.symm hj), List.getElem?_set_ne (Ne.symm hj)]
        · intro h
          exact absurd hom h
      · have hr1 : (s.requests.set m { mo with type := .READ })[r]? = some req := by
          rw [List.getElem?_set_ne hmr]
          exact hr
        refine ⟨{ s with requests := (s.requests.set m { mo with type := .READ }).set r { req with stalling := true }, _missed := amap_set s._missed (req.physicalAddress / s._blockSize * s._blockSize) (waiting ++ [r]) }, { req with stalling := true }, ?_, ?_, rfl, ?_, ?_, rfl, rfl, rfl, ?_, rfl, ?_, ?_⟩
        · simp only [CmpMSHR.ProcessRequest, hr, if_neg hwb, if_neg hb, hm, if_neg hw,
            if_pos hrd, hom, hmo, Option.map_some', Option.some_bind, CmpMSHR.setRequest,
            hr1]
        · show ((s.requests.set m _).set r _)[r]? = _
          rw [hset _ r _ _ hr1, if_pos rfl]
        · exact amap_set_lookup_self _ _ _
        · show (amap_set s._missed _ _).map Prod.fst = _
          rw [amap_set_keys, if_pos ((amap_lookup_isSome _ _).1 (by rw [hm]; rfl))]
        · simp [List.length_set]
        · intro j hj hjm
          have hjm1 : j ≠ m := fun e => hjm (e ▸ hom)
          show ((s.requests.set m _).set r _)[j]? = _
          rw [List.getElem?_set_ne (Ne.symm hj), List.getElem?_set_ne (Ne.symm hjm1)]
        · intro _
          rfl
    · refine ⟨{ s with requests := s.requests.set r { req with stalling := true }, _missed := amap_set s._missed (req.physicalAddress / s._blockSize * s._blockSize) (waiting ++ [r]) }, { req with stalling := true }, ?_, ?_, rfl, ?_, ?_, rfl, rfl, rfl, ?_, rfl, ?_, ?_⟩
      · simp only [CmpMSHR.ProcessRequest, hr, if_neg hwb, if_neg hb, hm, if_neg hw,
          if_neg hrd, Option.map_some', Option.some_bind, CmpMSHR.setRequest]
      · show (s.requests.set r _)[r]? = _
        rw [hset _ r _ _ hr, if_pos rfl]
      · exact amap_set_lookup_self _ _ _
      · show (amap_set s._missed _ _).map Prod.fst = _
        rw [amap_set_keys, if_pos ((amap_lookup_isSome _ _).1 (by rw [hm]; rfl))]
      · simp [List.length_set]
      · intro j hj _
        show (s.requests.set r _)[j]? = _
        rw [List.getElem?_set_ne (Ne.symm hj)]
      · intro _
        rfl
  · intro r req waiting hr hm hw
    have hwb : req.type ≠ .WRITEBACK := by
      rw [hw]
      decide
    simp only [CmpMSHR.ProcessRequest, hr, if_neg hwb, if_neg hb, hm, if_pos hw,
      CmpMSHR.setRequest]
  · intro p reply waiting hp hini hptr hm hv hfront
    obtain ⟨s1, h1, h2, h3, h4, h5, h6, h7, h8, h9, h10, h11, h12, h13, h14⟩ :=
      CmpMSHR.wake_spec p reply.currentCycle reply.dirtyReply waiting s hv
        ⟨reply, hp, rfl, rfl⟩
    have hcond : ¬ (reply.iniType ≠ .COMPONENT ∨ reply.iniPtr ≠ s.self) := by
      rintro (h | h)
      · exact h hini
      · exact h hptr
    have hset : ∀ (l : List MemoryRequest) (i : Nat) (a b : MemoryRequest),
        l[i]? = some a → ∀ j, (l.set i b)[j]? = if j = i then some b else l[j]? := by
      intro l i a b h j
      by_cases e : j = i
      · rw [if_pos e, e]
        exact CmpMSHR.getElem?_set_some _ h
      · rw [if_neg e, List.getElem?_set_ne (Ne.symm e)]
    obtain ⟨rp1, hrp1, -, -⟩ := h11
    cases hq : s._waitQ with
    | nil =>
      have hq1 : s1._waitQ = [] := by rw [h5, hq]
      refine ⟨{ s1 with _missed := amap_erase s1._missed reply.physicalAddress, _outstanding := amap_erase s1._outstanding reply.physicalAddress, requests := s1.requests.set p { rp1 with destroy := true } }, { rp1 with destroy := true }, ?_, ?_, ?_, ?_, ?_, ?_, ?_, ?_, ?_, ?_, ?_, rfl⟩
      · simp only [CmpMSHR.ProcessReturn, hp, if_neg hcond, hm, h1, Option.some_bind, hq1,
          hrp1, Option.map_some', CmpMSHR.setRequest]
      · intro x hx
        obtain ⟨w, hw, hwk⟩ := h12 x hx
        show ∃ w, (s1.requests.set p _)[x]? = some w ∧ _
        rw [hset _ p _ _ hrp1]
        by_cases e : x = p
        · rw [if_pos e]
          rw [e, hrp1] at hw
          cases hw
          exact ⟨_, rfl, hwk.1, hwk.2.1, hwk.2.2.1, hwk.2.2.2⟩
        · rw [if_neg e]
          exact ⟨w, hw, hwk.1, hwk.2.1, hwk.2.2.1, hwk.2.2.2⟩
      · show s1._queue = _
        rw [h2]
        simp
      · show amap_erase s1._missed _ = _
        rw [h3]
      · show amap_erase s1._outstanding _ = _
        rw [h4]
      · exact amap_erase_lookup_self _ _
      · exact amap_erase_lookup_self _ _
      · show s1._waitQ = _
        rw [hq1]
        rfl
      · exact h6
      · show (s1.requests.set p _).length = _
        rw [List.length_set, h10]
      · show (s1.requests.set p _)[p]? = _
        rw [hset _ p _ _ hrp1, if_pos rfl]
    | cons front rest =>
      have hq1 : s1._waitQ = front :: rest := by rw [h5, hq]
      obtain ⟨f, hf⟩ := hfront front (by rw [hq]; rfl)
      have hfn : front ∉ waiting ∨ front ∈ waiting := (Classical.em _).symm
      obtain ⟨f1, hf1⟩ : ∃ f1, s1.requests[front]? = some f1 := by
        rcases hfn with hfn | hfn
        · rw [h14 front hfn]
          exact ⟨f, hf⟩
        · obtain ⟨w, hw, -⟩ := h12 front hfn
          exact ⟨w, hw⟩
      obtain ⟨rp2, hrp2⟩ : ∃ rp2,
          (s1.requests.set front { f1 with stalling := false })[p]? = some rp2 := by
        rw [hset _ front _ _ hf1]
        split_ifs
        · exact ⟨_, rfl⟩
        · exact ⟨_, hrp1⟩
      refine ⟨{ s1 with _missed := amap_erase s1._missed reply.physicalAddress, _outstanding := amap_erase s1._outstanding reply.physicalAddress, _waitQ := rest, _queue := s1._queue ++ [front], requests := (s1.requests.set front { f1 with stalling := false }).set p { rp2 with destroy := true } }, { rp2 with destroy := true }, ?_, ?_, ?_, ?_, ?_, ?_, ?_, ?_, ?_, ?_, ?_, rfl⟩
      · simp only [CmpMSHR.ProcessReturn, hp, if_neg hcond, hm, h1, Option.some_bind, hq1,
          hf1, hrp2, Option.map_some', CmpMSHR.setRequest]
      · intro x hx
        obtain ⟨w, hw, hwk⟩ := h12 x hx
        have h2nd : ∃ w2, (s1.requests.set front { f1 with stalling := false })[x]? =
            some w2 ∧ CmpMSHR.Woken reply.currentCycle reply.dirtyReply w2 := by
          rw [hset _ front _ _ hf1]
          by_cases e : x = front
          · rw [if_pos e]
            rw [e, hf1] at hw
            cases hw
            exact ⟨_, rfl, rfl, hwk.2.1, hwk.2.2.1, hwk.2.2.2⟩
          · rw [if_neg e]
            exact ⟨w, hw, hwk⟩
        obtain ⟨w2, hw2, hwk2⟩ := h2nd
        show ∃ w, ((s1.requests.set front _).set p _)[x]? = some w ∧ _
        rw [hset _ p _ _ hrp2]
        by_cases e : x = p
        · rw [if_pos e]
          rw [e, hrp2] at hw2
          cases hw2
          exact ⟨_, rfl, hwk2.1, hwk2.2.1, hwk2.2.2.1, hwk2.2.2.2⟩
        · rw [if_neg e]
          exact ⟨w2, hw2, hwk2.1, hwk2.2.1, hwk2.2.2.1, hwk2.2.2.2⟩
      · show s1._queue ++ [front] = _
        rw [h2]
        simp
      · show amap_erase s1._missed _ = _
        rw [h3]
      · show amap_erase s1._outstanding _ = _
        rw [h4]
      · exact amap_erase_lookup_self _ _
      · exact amap_erase_lookup_self _ _
      · rfl
      · exact h6
      · show ((s1.requests.set front _).set p _).length = _
        rw [List.length_set, List.length_set, h10]
      · show ((s1.requests.set front _).set p _)[p]? = _
        rw [hset _ p _ _ hrp2, if_pos rfl]
/-- Witness for C12: an outstanding miss on block 4096, then a read on the block, then a
write on it, then the reply at cycle 500 with a dirty reply. -/
theorem C12_mshr_coalescing_and_reply_witness :
    CmpMSHR.threeOnBlock.run Hierarchy.idle [.request 0] = some CmpMSHR.afterMiss ∧
    CmpMSHR.afterMiss._missed = [(4096, [0])] ∧
    CmpMSHR.afterMiss._outstanding = [(4096, 3)] ∧
    (∃ s1 req1, CmpMSHR.afterMiss.ProcessRequest Hierarchy.idle 1 = some (0, s1) ∧
      s1.requests[1]? = some req1 ∧ req1.stalling = true ∧
      s1._missed.lookup 4096 = some [0, 1] ∧
      s1._outstanding = CmpMSHR.afterMiss._outstanding ∧
      s1.requests.length = CmpMSHR.afterMiss.requests.length ∧
      s1.sent = CmpMSHR.afterMiss.sent) ∧
    CmpMSHR.afterRead.ProcessRequest Hierarchy.idle 2 = some (0, CmpMSHR.afterWrite) ∧
    CmpMSHR.afterWrite._missed = [(4096, [0, 1])] ∧
    (CmpMSHR.afterWrite.requests[2]?).map (fun w => w.serviced) = some true ∧
    (∃ s1 reply1, CmpMSHR.replied.ProcessReturn 3 = some (0, s1) ∧
      (∀ x ∈ [0, 1], ∃ w, s1.requests[x]? = some w ∧ w.stalling = false ∧
        w.serviced = true ∧ w.currentCycle = 500 ∧ w.dirtyReply = true) ∧
      s1._queue = [0, 1] ∧
      s1._missed.lookup 4096 = none ∧ s1._outstanding.lookup 4096 = none ∧
      s1.requests[3]? = some reply1 ∧ reply1.destroy = true) := by
  have hA := C12_mshr_coalescing_and_reply Hierarchy.idle CmpMSHR.afterMiss (by decide)
  have hB := C12_mshr_coalescing_and_reply Hierarchy.idle CmpMSHR.afterRead (by decide)
  have hC := C12_mshr_coalescing_and_reply Hierarchy.idle CmpMSHR.replied (by decide)
  refine ⟨by rfl, by rfl, by rfl, ?_, ?_, by rfl, by rfl, ?_⟩
  · obtain ⟨s1, req1, h1, h2, h3, h4, -, h6, -, -, h9, h10, -, -⟩ :=
      hA.1 1 (MemoryRequest.new .CPU 0 0 .READ 0 4112 4112 8 11) [0] (by rfl) (by rfl)
        (by decide) (by decide)
        (fun _ => ⟨3, CmpMSHR.threeOnBlock.missFor
          (MemoryRequest.new .CPU 0 0 .READ 0 4104 4104 8 10), by rfl, by rfl⟩)
    exact ⟨s1, req1, h1, h2, h3, h4, h6, h9, h10⟩
  · refine (hB.2.1 2 (MemoryRequest.new .CPU 0 0 .WRITE 0 4128 4128 8 12) [0, 1] (by rfl)
      (by rfl) (by rfl)).trans ?_
    rfl
  · obtain ⟨s1, reply1, h1, h2, h3, -, -, h6, h7, -, -, -, h11, h12⟩ :=
      hC.2.2 3
        { CmpMSHR.threeOnBlock.missFor (MemoryRequest.new .CPU 0 0 .READ 0 4104 4104 8 10)
          with currentCycle := 500, dirtyReply := true }
        [0, 1] (by rfl) (by rfl) (by rfl) (by rfl)
        (by
          intro x hx
          rcases List.mem_cons.1 hx with e | hx
          · subst e
            exact ⟨_, by rfl⟩
          · rcases List.mem_cons.1 hx with e | hx
            · subst e
              exact ⟨_, by rfl⟩
            · cases hx)
        (by
          intro front hf
          cases hf)
    refine ⟨s1, reply1, h1, ?_, h3, h6, h7, h11, h12⟩
    intro x hx
    obtain ⟨w, hw1, hw2, hw3, hw4, hw5⟩ := h2 x hx
    exact ⟨w, hw1, hw2, hw3, hw4, hw5 rfl⟩

/-- Counterexample for C13: a request of type `WRITEBACK` changes the MSHR state. A partial
write on block 4096 misses in a new MSHR, which allocates an entry and creates the miss
object 1 of type `PARTIALWRITE` and size 64; `CmpCache::ProcessRequest` of a cache with
blocks of 64 bytes turns that object into a `WRITEBACK` and marks it serviced; on its
return `ProcessReturn`, which does not look at the type, empties `_missed` and
`_outstanding` and requeues the waiting request. -/
theorem C13_returning_writeback_frees_entry :
    CmpMSHR.partialWrite.run Hierarchy.idle [.request 0] = some CmpMSHR.partialMiss ∧
    CmpMSHR.partialMiss._missed = [(4096, [0])] ∧
    CmpMSHR.partialMiss._outstanding = [(4096, 1)] ∧
    CmpMSHR.partialMiss._queue = [] ∧
    ∃ answer s2, CmpMSHR.cacheAnswer = some answer ∧ answer.type = .WRITEBACK ∧
      answer.serviced = true ∧
      CmpMSHR.partialWrite.run Hierarchy.idle
        [.request 0, .world (CmpMSHR.partialMiss.requests.set 1 answer)] =
        some { CmpMSHR.partialMiss with
               requests := CmpMSHR.partialMiss.requests.set 1 answer } ∧
      ({ CmpMSHR.partialMiss with
         requests := CmpMSHR.partialMiss.requests.set 1 answer }).ProcessReturn 1 =
        some (0, s2) ∧
      s2._missed = [] ∧ s2._outstanding = [] ∧ s2._queue = [0] := by
  have h : CmpMSHR.cacheAnswer.isSome = true := by rfl
  have h2 : (({ CmpMSHR.partialMiss with
      requests := CmpMSHR.partialMiss.requests.set 1 (Option.get _ h) }).ProcessReturn
      1).isSome = true := by rfl
  exact ⟨by rfl, by rfl, by rfl, by rfl, Option.get _ h, (Option.get _ h2).2,
    (Option.some_get h).symm, by rfl, by rfl, by rfl, (Option.some_get h2).symm, by rfl,
    by rfl, by rfl⟩

namespace CmpMSHR

theorem wake_maps (p : Nat) : ∀ (xs : List Nat) (s s1 : CmpMSHR),
    wake p xs s = some s1 →
    s1._missed = s._missed ∧ s1._outstanding = s._outstanding ∧ s1._count = s._count ∧
      s1._blockSize = s._blockSize := by
  intro xs
  induction xs with
  | nil =>
    intro s s1 h
    cases h
    exact ⟨rfl, rfl, rfl, rfl⟩
  | cons x xs ih =>
    intro s s1 h
    simp only [wake] at h
    cases hp : s.requests[p]? with
    | none => simp [hp] at h
    | some reply =>
      cases hx : s.requests[x]? with
      | none => simp [hp, hx] at h
      | some w =>
        simp only [hp, hx] at h
        have h1 := ih _ _ h
        exact h1

/-- What `ProcessRequest` does to the two maps: nothing to their keys, or one new block
allocated while the MSHR is not full. -/
theorem ProcessRequest_maps (next : Hierarchy) (s s1 : CmpMSHR) (r b : Nat)
    (h : s.ProcessRequest next r = some (b, s1)) :
    b = 0 ∧ s1._count = s._count ∧ s1._blockSize = s._blockSize ∧
    ((s1._missed.map Prod.fst = s._missed.map Prod.fst ∧
        s1._outstanding = s._outstanding) ∨
      ∃ B, B ∉ s._missed.map Prod.fst ∧ ¬ (s._count ≠ 0 ∧ s._missed.length = s._count) ∧
        s1._missed.map Prod.fst = s._missed.map Prod.fst ++ [B] ∧
        s1._outstanding = amap_set s._outstanding B s.requests.length) := by
  unfold ProcessRequest at h
  cases hr : s.requests[r]? with
  | none => simp [hr] at h
  | some req =>
    simp only [hr] at h
    by_cases hwb : req.type = .WRITEBACK
    · rw [if_pos hwb] at h
      cases h
      exact ⟨rfl, rfl, rfl, Or.inl ⟨rfl, rfl⟩⟩
    rw [if_neg hwb] at h
    by_cases hb : s._blockSize = 0
    · rw [if_pos hb] at h
      cases h
    rw [if_neg hb] at h
    cases hm : s._missed.lookup (req.physicalAddress / s._blockSize * s._blockSize) with
    | some waiting =>
      have hin : req.physicalAddress / s._blockSize * s._blockSize ∈
          s._missed.map Prod.fst := (amap_lookup_isSome _ _).1 (by rw [hm]; rfl)
      simp only [hm] at h
      by_cases hw : req.type = .WRITE
      · rw [if_pos hw] at h
        cases h
        exact ⟨rfl, rfl, rfl, Or.inl ⟨rfl, rfl⟩⟩
      rw [if_neg hw] at h
      by_cases hrd : req.type = .READ
      · rw [if_pos hrd] at h
        cases ho : s._outstanding.lookup
            (req.physicalAddress / s._blockSize * s._blockSize) with
        | none => simp [ho] at h
        | some m =>
          simp only [ho] at h
          cases hmo : s.requests[m]? with
          | none => simp [hmo] at h
          | some mo =>
            simp only [hmo, Option.map_some', Option.some_bind] at h
            cases h1 : (s.setRequest m { mo with type := .READ }).requests[r]? with
            | none => simp [h1] at h
            | some req1 =>
              simp only [h1, Option.map_some', Option.some.injEq, Prod.mk.injEq] at h
              obtain ⟨hb0, hs⟩ := h
              subst hs
              refine ⟨hb0.symm, rfl, rfl, Or.inl ⟨?_, rfl⟩⟩
              show (amap_set s._missed _ _).map Prod.fst = _
              rw [amap_set_keys, if_pos hin]
      · rw [if_neg hrd] at h
        simp only [Option.some_bind] at h
        cases h1 : s.requests[r]? with
        | none => rw [hr] at h1; cases h1
        | some req1 =>
          simp only [h1, Option.map_some', Option.some.injEq, Prod.mk.injEq] at h
          obtain ⟨hb0, hs⟩ := h
          subst hs
          refine ⟨hb0.symm, rfl, rfl, Or.inl ⟨?_, rfl⟩⟩
          show (amap_set s._missed _ _).map Prod.fst = _
          rw [amap_set_keys, if_pos hin]
    | none =>
      have hnin : req.physicalAddress / s._blockSize * s._blockSize ∉
          s._missed.map Prod.fst := (amap_lookup_none _ _).1 hm
      simp only [hm] at h
      by_cases hfull : s._count ≠ 0 ∧ s._missed.length = s._count
      · rw [if_pos hfull] at h
        cases h
        exact ⟨rfl, rfl, rfl, Or.inl ⟨rfl, rfl⟩⟩
      rw [if_neg hfull] at h
      simp only [Option.some.injEq, Prod.mk.injEq] at h
      obtain ⟨hb0, hs⟩ := h
      subst hs
      refine ⟨hb0.symm, ?_, ?_, Or.inr ⟨_, hnin, hfull, ?_, ?_⟩⟩
      · by_cases hw : req.type = .WRITE
        · simp only [if_pos hw]
          rfl
        · simp only [if_neg hw]
          rfl
      · by_cases hw : req.type = .WRITE
        · simp only [if_pos hw]
          rfl
        · simp only [if_neg hw]
          rfl
      · by_cases hw : req.type = .WRITE
        · simp only [if_pos hw]
          show (amap_set s._missed _ _).map Prod.fst = _
          rw [amap_set_keys, if_neg hnin]
        · simp only [if_neg hw]
          show (amap_set (amap_set s._missed _ _) _ _).map Prod.fst = _
          rw [amap_set_keys, amap_set_keys, if_neg hnin, if_pos (by simp)]
      · by_cases hw : req.type = .WRITE
        · simp only [if_pos hw]
          rfl
        · simp only [if_neg hw]
          rfl

/-- What `ProcessReturn` does to the two maps: nothing, or one block erased from both. -/
theorem ProcessReturn_maps (s s1 : CmpMSHR) (r b : Nat)
    (h : s.ProcessReturn r = some (b, s1)) :
    b = 0 ∧ s1._count = s._count ∧ s1._blockSize = s._blockSize ∧
    ((s1._missed = s._missed ∧ s1._outstanding = s._outstanding) ∨
      ∃ B, s1._missed = amap_erase s._missed B ∧
        s1._outstanding = amap_erase s._outstanding B) := by
  unfold ProcessReturn at h
  cases hr : s.requests[r]? with
  | none => simp [hr] at h
  | some req =>
    simp only [hr] at h
    by_cases hc : req.iniType ≠ .COMPONENT ∨ req.iniPtr ≠ s.self
    · rw [if_pos hc] at h
      cases h
      exact ⟨rfl, rfl, rfl, Or.inl ⟨rfl, rfl⟩⟩
    rw [if_neg hc] at h
    cases hm : s._missed.lookup req.physicalAddress with
    | none => simp [hm] at h
    | some waiting =>
      simp only [hm] at h
      cases hwk : wake r waiting s with
      | none => simp [hwk] at h
      | some sw =>
        obtain ⟨e1, e2, e3, e4⟩ := wake_maps r waiting s sw hwk
        simp only [hwk, Option.some_bind] at h
        cases hq : sw._waitQ with
        | nil =>
          simp only [hq, Option.some_bind] at h
          cases h3 : sw.requests[r]? with
          | none => simp [setRequest, h3] at h
          | some req3 =>
            simp only [h3, Option.map_some', Option.some.injEq, Prod.mk.injEq] at h
            obtain ⟨hb0, hs⟩ := h
            subst hs
            refine ⟨hb0.symm, e3, e4, Or.inr ⟨req.physicalAddress, ?_, ?_⟩⟩
            · show amap_erase sw._missed _ = _
              rw [e1]
            · show amap_erase sw._outstanding _ = _
              rw [e2]
        | cons front rest =>
          simp only [hq] at h
          cases hf : sw.requests[front]? with
          | none => simp [hf] at h
          | some f =>
            simp only [hf, Option.map_some', Option.some_bind] at h
            cases h3 : ((sw.requests.set front { f with stalling := false })[r]?) with
            | none => simp [setRequest, h3] at h
            | some req3 =>
              simp only [setRequest, h3, Option.map_some', Option.some.injEq,
                Prod.mk.injEq] at h
              obtain ⟨hb0, hs⟩ := h
              subst hs
              refine ⟨hb0.symm, e3, e4, Or.inr ⟨req.physicalAddress, ?_, ?_⟩⟩
              · show amap_erase sw._missed _ = _
                rw [e1]
              · show amap_erase sw._outstanding _ = _
                rw [e2]

theorem Capacity.capacity_step (next : Hierarchy) (count : Nat) (s s1 : CmpMSHR)
    (e : MSHREvent) (hc1 : 1 ≤ count) (hi : Capacity count s)
    (h : s.step next e = some s1) : Capacity count s1 := by
  cases e with
  | world requests =>
    cases h
    exact ⟨hi.count_eq, hi.bound, hi.keys, hi.nodup⟩
  | request r =>
    simp only [step] at h
    cases hp : s.ProcessRequest next r with
    | none => simp [hp] at h
    | some x =>
      obtain ⟨b, sx⟩ := x
      rw [hp] at h
      cases h
      obtain ⟨-, hc, -, hk | ⟨B, hB, hfull, hk1, hk2⟩⟩ := ProcessRequest_maps next s _ r b hp
      · refine ⟨hc.trans hi.count_eq, ?_, ?_, ?_⟩
        · have := congrArg List.length hk.1
          rw [List.length_map, List.length_map] at this
          rw [this]
          exact hi.bound
        · rw [hk.1, hk.2]
          exact hi.keys
        · rw [hk.1]
          exact hi.nodup
      · have hlt : s._missed.length < count := by
          have h1 := hi.bound
          have h2 := hi.count_eq
          rcases Nat.lt_or_ge s._missed.length count with h3 | h3
          · exact h3
          · exfalso
            apply hfull
            rw [h2]
            exact ⟨by omega, by omega⟩
        refine ⟨hc.trans hi.count_eq, ?_, ?_, ?_⟩
        · have := congrArg List.length hk1
          rw [List.length_map, List.length_append, List.length_map] at this
          rw [this]
          exact hlt
        · rw [hk1, hk2, amap_set_keys, ← hi.keys, if_neg hB]
        · rw [hk1]
          refine List.Nodup.append hi.nodup (List.nodup_singleton _) ?_
          intro a ha hb
          rw [List.mem_singleton] at hb
          exact hB (hb ▸ ha)
  | reply r =>
    simp only [step] at h
    cases hp : s.ProcessReturn r with
    | none => simp [hp] at h
    | some x =>
      obtain ⟨b, sx⟩ := x
      rw [hp] at h
      cases h
      obtain ⟨-, hc, -, hk | ⟨B, hk1, hk2⟩⟩ := ProcessReturn_maps s _ r b hp
      · refine ⟨hc.trans hi.count_eq, ?_, ?_, ?_⟩
        · rw [hk.1]
          exact hi.bound
        · rw [hk.1, hk.2]
          exact hi.keys
        · rw [hk.1]
          exact hi.nodup
      · refine ⟨hc.trans hi.count_eq, ?_, ?_, ?_⟩
        · rw [hk1]
          exact (List.length_filter_le _ _).trans hi.bound
        · rw [hk1, hk2, amap_erase_keys, amap_erase_keys, hi.keys]
        · rw [hk1, amap_erase_keys]
          exact hi.nodup.filter _

theorem Capacity.capacity_run (next : Hierarchy) (count : Nat) (hc1 : 1 ≤ count) :
    ∀ (es : List MSHREvent) (s s1 : CmpMSHR), Capacity count s →
      s.run next es = some s1 → Capacity count s1 := by
  intro es
  induction es with
  | nil =>
    intro s s1 hi h
    cases h
    exact hi
  | cons e es ih =>
    intro s s1 hi h
    simp only [run] at h
    cases hs : s.step next e with
    | none => simp [hs] at h
    | some s2 =>
      rw [hs] at h
      exact ih s2 s1 (Capacity.capacity_step next count s s2 e hc1 hi hs) h

end CmpMSHR

/-- **C13 (amended).** For `count ≥ 1`, every state reached from the empty MSHR by calls
of `ProcessRequest` and `ProcessReturn`, whatever other components do to the request
objects in between, has at most `count` blocks in `_missed`, each once, and the same
blocks in `_outstanding`, in the same order; there, a call of `ProcessRequest` that changes
the blocks of `_missed` found fewer than `count` blocks and adds exactly one; a request
that is not a `WRITEBACK`, for an untracked block, while `count` blocks are tracked, is
marked stalling and appended to `_waitQ`, nothing else changing; `ProcessRequest` on a
`WRITEBACK` changes nothing, and neither does `ProcessReturn` on a request that this MSHR
did not create. -/
theorem C13_mshr_capacity_amended (next : Hierarchy) (self count blockSize : Nat)
    (requests : List MemoryRequest) (es : List MSHREvent) (s : CmpMSHR) (hc1 : 1 ≤ count)
    (hrun : ({ CmpMSHR.new self requests with
               _count := count, _blockSize := blockSize }).run next es = some s) :
    s._count = count ∧ s._missed.length ≤ count ∧
    s._missed.map Prod.fst = s._outstanding.map Prod.fst ∧
    (s._missed.map Prod.fst).Nodup ∧
    (∀ (r b : Nat) (s1 : CmpMSHR), s.ProcessRequest next r = some (b, s1) →
      s1._missed.map Prod.fst ≠ s._missed.map Prod.fst →
      s._missed.length < count ∧ s1._missed.length = s._missed.length + 1) ∧
    (∀ (r : Nat) (req : MemoryRequest), s.requests[r]? = some req →
      req.type ≠ .WRITEBACK → s._blockSize ≠ 0 →
      s._missed.lookup (req.physicalAddress / s._blockSize * s._blockSize) = none →
      s._missed.length = count →
      s.ProcessRequest next r =
        some (0, { s with requests := s.requests.set r { req with stalling := true },
                          _waitQ := s._waitQ ++ [r] })) ∧
    (∀ (r : Nat) (req : MemoryRequest), s.requests[r]? = some req →
      req.type = .WRITEBACK → s.ProcessRequest next r = some (0, s)) ∧
    (∀ (r : Nat) (req : MemoryRequest), s.requests[r]? = some req →
      req.iniType ≠ .COMPONENT ∨ req.iniPtr ≠ s.self → s.ProcessReturn r = some (0, s)) := by
  have hi : CmpMSHR.Capacity count s :=
    CmpMSHR.Capacity.capacity_run next count hc1 es
      { CmpMSHR.new self requests with _count := count, _blockSize := blockSize } s
      ⟨rfl, Nat.zero_le _, rfl, List.nodup_nil⟩ hrun
  refine ⟨hi.count_eq, hi.bound, hi.keys, hi.nodup, ?_, ?_, ?_, ?_⟩
  · intro r b s1 h hne
    obtain ⟨-, -, -, hk | ⟨B, hB, hfull, hk1, -⟩⟩ := CmpMSHR.ProcessRequest_maps next s s1 r b h
    · exact absurd hk.1 hne
    · have h1 := hi.bound
      have h2 := hi.count_eq
      constructor
      · rcases Nat.lt_or_ge s._missed.length count with h3 | h3
        · exact h3
        · exfalso
          apply hfull
          rw [h2]
          exact ⟨by omega, by omega⟩
      · have := congrArg List.length hk1
        rw [List.length_map, List.length_append, List.length_map] at this
        exact this
  · intro r req hr hwb hb hm hfull
    have hc : s._count ≠ 0 ∧ s._missed.length = s._count := by
      rw [hi.count_eq]
      exact ⟨by omega, hfull⟩
    simp only [CmpMSHR.ProcessRequest, hr, if_neg hwb, if_neg hb, hm, if_pos hc,
      CmpMSHR.setRequest]
  · intro r req hr hwb
    simp only [CmpMSHR.ProcessRequest, hr, if_pos hwb]
  · intro r req hr hc
    simp only [CmpMSHR.ProcessReturn, hr, if_pos hc]
/-- Witness for C13 (amended): an MSHR with one entry after a first miss; the read on a
second block is marked stalling and put in `_waitQ`. -/
theorem C13_mshr_capacity_amended_witness :
    1 ≤ 1 ∧
    CmpMSHR.single.run Hierarchy.idle [.request 0] = some CmpMSHR.singleFull ∧
    CmpMSHR.singleFull._missed.length = 1 ∧
    CmpMSHR.singleFull._missed.map Prod.fst = CmpMSHR.singleFull._outstanding.map Prod.fst ∧
    ∃ s1, CmpMSHR.singleFull.ProcessRequest Hierarchy.idle 1 = some (0, s1) ∧
      s1._waitQ = [1] ∧ s1._missed = CmpMSHR.singleFull._missed ∧
      (s1.requests[1]?).map (fun w => w.stalling) = some true := by
  have h := C13_mshr_capacity_amended Hierarchy.idle 7 1 64
    [MemoryRequest.new .CPU 0 0 .READ 0 4104 4104 8 10,
     MemoryRequest.new .CPU 0 0 .READ 0 8200 8200 8 11]
    [.request 0] CmpMSHR.singleFull (by decide) (by rfl)
  exact ⟨by decide, by rfl, by rfl, h.2.2.1, _,
    h.2.2.2.2.2.1 1 (MemoryRequest.new .CPU 0 0 .READ 0 8200 8200 8 11) (by rfl)
      (by decide) (by decide) (by rfl) (by rfl),
    by rfl, by rfl, by rfl⟩

/-- Counterexample for C22: `set` stores its argument as it is and the constructor stores
the initial value as it is. A counter with maximum 3 holds 10 after `set(10)`, where the
claim says `min(10, 3) = 3`, and a counter constructed with maximum 3 and initial value
512 (the default start value of the PSEL counters of `set_dueling_tagstore_t`) holds 512;
both values are above the maximum. -/
theorem C22_set_does_not_clamp :
    ((saturating_counter.new 3 0).set 10)._value = 10 ∧
    ((saturating_counter.new 3 0).set 10)._value ≠ min 10 3 ∧
    ¬ ((saturating_counter.new 3 0).set 10)._value ≤ ((saturating_counter.new 3 0).set 10)._max ∧
    ¬ (saturating_counter.new 3 512)._value ≤ (saturating_counter.new 3 512)._max ∧
    ¬ ((saturating_counter.new 3 0).run [.set 10, .decrement])._value ≤ 3 := by
  decide

theorem saturating_counter.step_le (c : saturating_counter) (op : counter_op)
    (hc : c._value ≤ c._max) (hop : ∀ v, op = .set v → v ≤ c._max) :
    (c.step op)._value ≤ (c.step op)._max ∧ (c.step op)._max = c._max := by
  cases op with
  | set v => exact ⟨hop v rfl, rfl⟩
  | increment =>
    simp only [saturating_counter.step, saturating_counter.increment]
    split_ifs with h
    · exact ⟨h, rfl⟩
    · exact ⟨hc, rfl⟩
  | decrement =>
    simp only [saturating_counter.step, saturating_counter.decrement]
    split_ifs with h
    · exact ⟨Nat.le_trans (Nat.sub_le _ _) hc, rfl⟩
    · exact ⟨hc, rfl⟩

theorem saturating_counter.run_le : ∀ (ops : List counter_op) (c : saturating_counter),
    c._value ≤ c._max → (∀ v, counter_op.set v ∈ ops → v ≤ c._max) →
    (c.run ops)._value ≤ c._max ∧ (c.run ops)._max = c._max := by
  intro ops
  induction ops with
  | nil =>
    intro c hc _
    exact ⟨hc, rfl⟩
  | cons op ops ih =>
    intro c hc hops
    obtain ⟨h1, h2⟩ := saturating_counter.step_le c op hc
      (fun v hv => hops v (hv ▸ List.mem_cons_self _ _))
    have h3 := ih (c.step op) h1 (fun v hv => h2 ▸ hops v (List.mem_cons_of_mem _ hv))
    rw [h2] at h3
    exact h3

/-- **C22 (amended).** Saturating counter bound. `set(v)` leaves the value equal to `v`
and the maximum as it is. For a counter constructed with maximum `max` and an initial
value `initial ≤ max`, the value is at most `max` after every sequence of
`set`/`increment`/`decrement` in which every argument of `set` is at most `max`.
`increment` at a value at or above the maximum and `decrement` at value 0 leave the
counter unchanged; below the maximum `increment` adds one and above 0 `decrement`
subtracts one. -/
theorem C22_saturating_counter_amended (max initial : Nat) (ops : List counter_op)
    (hinit : initial ≤ max) (hops : ∀ v, counter_op.set v ∈ ops → v ≤ max) :
    ((saturating_counter.new max initial).run ops)._value ≤ max ∧
    ((saturating_counter.new max initial).run ops)._max = max ∧
    (∀ (c : saturating_counter) (v : Nat),
      (c.set v)._value = v ∧ (c.set v)._max = c._max) ∧
    (∀ c : saturating_counter, c._max ≤ c._value → c.increment = c) ∧
    (∀ c : saturating_counter, c._value = 0 → c.decrement = c) ∧
    (∀ c : saturating_counter, c._value < c._max →
      c.increment = { c with _value := c._value + 1 }) ∧
    (∀ c : saturating_counter, 0 < c._value →
      c.decrement = { c with _value := c._value - 1 }) := by
  refine ⟨?_, ?_, fun c v => ⟨rfl, rfl⟩, ?_, ?_, ?_, ?_⟩
  · exact (saturating_counter.run_le ops (saturating_counter.new max initial) hinit hops).1
  · exact (saturating_counter.run_le ops (saturating_counter.new max initial) hinit hops).2
  · intro c h
    unfold saturating_counter.increment
    rw [if_neg (Nat.not_lt.2 h)]
  · intro c h
    unfold saturating_counter.decrement
    rw [if_neg (by omega)]
  · intro c h
    unfold saturating_counter.increment
    rw [if_pos h]
  · intro c h
    unfold saturating_counter.decrement
    rw [if_pos h]

/-- Witness for C22 (amended): a counter with maximum 3 that starts at 2 and is
incremented twice, set to 1 and decremented twice holds 0. -/
theorem C22_saturating_counter_amended_witness :
    ((saturating_counter.new 3 2).run
      [.increment, .increment, .set 1, .decrement, .decrement])._value = 0 ∧
    ((saturating_counter.new 3 2).run
      [.increment, .increment, .set 1, .decrement, .decrement])._value ≤ 3 ∧
    ((saturating_counter.new 3 2).run [.increment, .increment])._value = 3 := by
  have h := C22_saturating_counter_amended 3 2
    [.increment, .increment, .set 1, .decrement, .decrement] (by decide)
    (by
      intro v hv
      simp only [List.mem_cons, reduceCtorEq, counter_op.set.injEq, false_or,
        List.mem_singleton, or_false, List.not_mem_nil] at hv
      omega)
  exact ⟨by decide, h.1, by decide⟩

/-- Counterexample for C23: the sum `_hand + value` is a `uint32` sum. A pointer of size 3
with hand 2 has hand 1 after `add(4294967295)`, where `(2 + 4294967295) mod 3 = 2`; the
argument is `1431655765 * 3`, a multiple of the size that is representable in 32 bits, and
the hand is not left unchanged. -/
theorem C23_add_wraps_at_uint32 :
    ((cyclic_pointer.new 3 2).add 4294967295)._hand = 1 ∧
    (2 + 4294967295) % 3 = 2 ∧
    4294967295 = 1431655765 * 3 ∧ 1431655765 * 3 < UINT32_MOD ∧
    ((cyclic_pointer.new 3 2).add (1431655765 * 3))._hand ≠ (cyclic_pointer.new 3 2)._hand := by
  decide

/-- **C23 (amended).** Cyclic pointer arithmetic. For every size `≥ 1`, every hand below
the size and every 32-bit argument `k`, `add(k)` sets the hand to
`((hand + k) mod 2 ^ 32) mod size` and leaves the size as it is; this is
`(hand + k) mod size` when `hand + k < 2 ^ 32` or when the size divides `2 ^ 32`. In
particular `add(n * size)` leaves the hand unchanged for every `n` with
`hand + n * size < 2 ^ 32`. -/
theorem C23_cyclic_pointer_add_amended (size hand k : Nat) (hs : 1 ≤ size)
    (hh : hand < size) (_hk : k < UINT32_MOD) :
    ((cyclic_pointer.new size hand).add k)._hand = ((hand + k) % UINT32_MOD) % size ∧
    ((cyclic_pointer.new size hand).add k)._size = size ∧
    ((cyclic_pointer.new size hand).add k)._hand < size ∧
    (hand + k < UINT32_MOD →
      ((cyclic_pointer.new size hand).add k)._hand = (hand + k) % size) ∧
    (size ∣ UINT32_MOD →
      ((cyclic_pointer.new size hand).add k)._hand = (hand + k) % size) ∧
    (∀ n, hand + n * size < UINT32_MOD →
      (cyclic_pointer.new size hand).add (n * size) = cyclic_pointer.new size hand) := by
  refine ⟨rfl, rfl, Nat.mod_lt _ hs, ?_, ?_, ?_⟩
  · intro h
    show ((hand + k) % UINT32_MOD) % size = _
    rw [Nat.mod_eq_of_lt h]
  · intro h
    show ((hand + k) % UINT32_MOD) % size = _
    exact Nat.mod_mod_of_dvd _ h
  · intro n h
    show cyclic_pointer.mk (((hand + n * size) % UINT32_MOD) % size) size = ⟨hand, size⟩
    rw [Nat.mod_eq_of_lt h, Nat.add_mul_mod_self_right, Nat.mod_eq_of_lt hh]

/-- Witness for C23 (amended): a pointer of size 64 with hand 63; `add(5)` gives hand 4 and
`add(3 * 64)` leaves the hand at 63. -/
theorem C23_cyclic_pointer_add_amended_witness :
    ((cyclic_pointer.new 64 63).add 5)._hand = 4 ∧
    (cyclic_pointer.new 64 63).add (3 * 64) = cyclic_pointer.new 64 63 := by
  have h := C23_cyclic_pointer_add_amended 64 63 5 (by decide) (by decide) (by decide)
  exact ⟨h.2.2.2.1 (by decide), h.2.2.2.2.2 3 (by decide)⟩

/-- **C21.** Victim tag store insert is not idempotent on present tags in segmented mode.
The early return of `insert` looks for the tag in `_index`, which segmented inserts never
fill (they store into `_sindex`), so it cannot fire there. A segmented store of capacity 4
holds tag 5 after a first insert (`test(5)` hits and changes nothing); a second
`insert(5)` changes the store: it raises the occupancy counter from 1 to 2, and a third
switches the active segment from 0 to 1. -/
theorem C21_segmented_insert_counts_present_tag :
    ∃ s1 s2 s3, (victim_tag_store_t.init 4 false false false false true
        victim_tag_store_t.noFilter).insert 5 = some s1 ∧
      s1.present 5 = true ∧ s1.test 5 = some (true, s1) ∧
      s1.insert 5 = some s2 ∧ s2 ≠ s1 ∧
      s1._numCurrentBlocks = 1 ∧ s2._numCurrentBlocks = 2 ∧
      s2.present 5 = true ∧ s2.insert 5 = some s3 ∧ s2._cindex = 0 ∧ s3._cindex = 1 := by
  refine ⟨_, _, _, rfl, ?_, ?_, rfl, ?_, ?_, ?_, ?_, rfl, ?_, ?_⟩ <;> decide

/-- Outside segmented mode the early return of `insert` works: in every mode that is not
segmented (default, noClear, decoupleClear, ideal, with or without bloom filter),
`insert(t)` of a tag `t` that is present (it is in `_index`, the exact structure on which
`test(t)` hits) returns with the whole store state unchanged; so does every `insert`, in
every mode, into a store of capacity 0. -/
theorem insert_present_unsegmented (s : victim_tag_store_t) (tag : Nat)
    (hseg : s._segmented = false) (hp : s.present tag = true) :
    s.insert tag = some s ∧
    (∀ (z : victim_tag_store_t) (t : Nat), z._numBlocks = 0 → z.insert t = some z) := by
  constructor
  · have hin : tag ∈ s._index := by
      simpa [victim_tag_store_t.present, hseg] using hp
    unfold victim_tag_store_t.insert
    by_cases h0 : s._numBlocks = 0
    · rw [if_pos h0]
    · rw [if_neg h0, if_pos hin]
  · intro z t h0
    unfold victim_tag_store_t.insert
    rw [if_pos h0]

/-- A default store of capacity 4 that holds tag 5: a second `insert(5)` changes
nothing. -/
theorem insert_present_unsegmented_example :
    ∃ s1, (victim_tag_store_t.init 4 false false false false false
        victim_tag_store_t.noFilter).insert 5 = some s1 ∧
      s1._index = [5] ∧ s1._numCurrentBlocks = 1 ∧ s1.insert 5 = some s1 := by
  have hs : ((victim_tag_store_t.init 4 false false false false false
      victim_tag_store_t.noFilter).insert 5).isSome = true := by rfl
  refine ⟨Option.get _ hs, (Option.some_get hs).symm, by rfl, by rfl, ?_⟩
  exact (insert_present_unsegmented (Option.get _ hs) 5 (by rfl) (by rfl)).1
namespace victim_tag_store_t

theorem insert_keeps_hits (s s1 : victim_tag_store_t) (tag : Nat)
    (h : s.insert tag = some s1) :
    s1._numBlocks = s._numBlocks ∧ s1._decoupleClear = s._decoupleClear ∧
      s1._segmented = s._segmented ∧ s1._numHits = s._numHits := by
  unfold insert at h
  by_cases h0 : s._numBlocks = 0
  · rw [if_pos h0] at h
    cases h
    exact ⟨rfl, rfl, rfl, rfl⟩
  rw [if_neg h0] at h
  by_cases hin : tag ∈ s._index
  · rw [if_pos hin] at h
    cases h
    exact ⟨rfl, rfl, rfl, rfl⟩
  rw [if_neg hin] at h
  by_cases hseg : s._segmented = true
  · rw [if_pos hseg] at h
    simp only at h
    split_ifs at h <;> cases h <;> exact ⟨rfl, rfl, rfl, rfl⟩
  · rw [if_neg hseg] at h
    simp only at h
    have hmade : ∀ sm, (if ¬ s._decoupleClear ∧ s._numCurrentBlocks = s._numBlocks then
          if s._noClear then
            (evictOldest s._fifo s._remove).map (fun r =>
              { s with _fifo := r.2.1, _remove := r.2.2, _index := s._index.erase r.1,
                       _numCurrentBlocks :=
                         (s._numCurrentBlocks + UINT32_MOD - 1) % UINT32_MOD })
          else some s.cleared
        else if s._numCurrentBlocks = (2 * s._numBlocks) % UINT32_MOD then some s.cleared
        else some s) = some sm →
        sm._numBlocks = s._numBlocks ∧ sm._decoupleClear = s._decoupleClear ∧
          sm._segmented = s._segmented ∧ sm._numHits = s._numHits := by
      intro sm hm
      split_ifs at hm
      · cases he : evictOldest s._fifo s._remove with
        | none => rw [he] at hm; cases hm
        | some r =>
          rw [he] at hm
          cases hm
          exact ⟨rfl, rfl, rfl, rfl⟩
      all_goals
        cases hm
        exact ⟨rfl, rfl, rfl, rfl⟩
    generalize (if ¬ s._decoupleClear ∧ s._numCurrentBlocks = s._numBlocks then
          if s._noClear then
            (evictOldest s._fifo s._remove).map (fun r =>
              { s with _fifo := r.2.1, _remove := r.2.2, _index := s._index.erase r.1,
                       _numCurrentBlocks :=
                         (s._numCurrentBlocks + UINT32_MOD - 1) % UINT32_MOD })
          else some s.cleared
        else if s._numCurrentBlocks = (2 * s._numBlocks) % UINT32_MOD then some s.cleared
        else some s) = made at h hmade
    cases made with
    | none => cases h
    | some sm =>
      obtain ⟨e1, e2, e3, e4⟩ := hmade sm rfl
      simp only [Option.some_bind] at h
      cases hb : (if sm._useBloomFilter then sm._bf.insert tag else some sm._bf) with
      | none => rw [hb] at h; cases h
      | some bf =>
        rw [hb] at h
        cases h
        exact ⟨e1, e2, e3, e4⟩

/-- What `test` does in `decoupleClear` mode to a store that is not segmented, of
capacity `N` with `4 ∣ N` and `75 * N < 2 ^ 32`, whose hit counter is below `0.75 * N`. -/
theorem test_decoupled (N : Nat) (s s1 : victim_tag_store_t) (tag : Nat) (r : Bool)
    (h4 : 4 ∣ N) (h75 : 75 * N < UINT32_MOD) (hi : Decoupled N s)
    (h : s.test tag = some (r, s1)) :
    s1._numBlocks = N ∧ s1._decoupleClear = true ∧ s1._segmented = false ∧
    (tag ∉ s._index → s1._numHits = s._numHits ∧ s1._index = s._index ∧
      s1._fifo = s._fifo ∧ s1._numCurrentBlocks = s._numCurrentBlocks) ∧
    (tag ∈ s._index → 4 * (s._numHits + 1) = 3 * N →
      s1._index = [] ∧ s1._fifo = [] ∧ s1._numCurrentBlocks = 0 ∧ s1._numHits = 0 ∧
        s1._bf._filter = []) ∧
    (tag ∈ s._index → 4 * (s._numHits + 1) ≠ 3 * N →
      s1._numHits = s._numHits + 1 ∧ s1._fifo = s._fifo) := by
  obtain ⟨hN, hd, hseg, hh⟩ := hi
  have hN0 : s._numBlocks ≠ 0 := by omega
  have h100 : 100 * (s._numHits + 1) < UINT32_MOD := by
    obtain ⟨q, hq⟩ := h4
    unfold UINT32_MOD at h75 ⊢
    omega
  have hlt : s._numHits + 1 < UINT32_MOD := by omega
  unfold test at h
  rw [if_neg hN0, if_neg (by rw [hseg]; decide)] at h
  by_cases hin : tag ∈ s._index
  · rw [if_pos hin] at h
    simp only at h
    generalize hs1 : (if s._ideal = true then
        { s with _index := s._index.erase tag, _remove := set_insert s._remove tag,
                 _numCurrentBlocks := (s._numCurrentBlocks + UINT32_MOD - 1) % UINT32_MOD }
      else s) = sa at h
    have hsa : sa._numBlocks = s._numBlocks ∧ sa._decoupleClear = s._decoupleClear ∧
        sa._segmented = s._segmented ∧ sa._numHits = s._numHits ∧ sa._fifo = s._fifo := by
      rw [← hs1]
      split_ifs <;> exact ⟨rfl, rfl, rfl, rfl, rfl⟩
    obtain ⟨a1, a2, a3, a4, a5⟩ := hsa
    cases hb : (if sa._useBloomFilter = true then sa._bf.test tag true
        else some (true, sa._bf)) with
    | none => rw [hb] at h; cases h
    | some rb =>
      rw [hb] at h
      simp only [Option.map_some', Option.some.injEq, Prod.mk.injEq] at h
      obtain ⟨-, hs⟩ := h
      have hmod : (sa._numHits + 1) % UINT32_MOD = s._numHits + 1 := by
        rw [a4, Nat.mod_eq_of_lt hlt]
      have hcond : ((100 * ((sa._numHits + 1) % UINT32_MOD)) % UINT32_MOD =
          (75 * sa._numBlocks) % UINT32_MOD) ↔ 4 * (s._numHits + 1) = 3 * N := by
        rw [hmod, a1, hN, Nat.mod_eq_of_lt h75, Nat.mod_eq_of_lt h100]
        omega
      by_cases hc : 4 * (s._numHits + 1) = 3 * N
      · rw [if_pos ⟨by rw [a2, hd], hcond.2 hc⟩] at hs
        subst hs
        refine ⟨a1.trans hN, a2.trans hd, a3.trans hseg, fun hn => absurd hin hn,
          fun _ _ => ⟨rfl, rfl, rfl, rfl, rfl⟩, fun _ hne => absurd hc hne⟩
      · rw [if_neg (fun hx => hc (hcond.1 hx.2))] at hs
        subst hs
        refine ⟨a1.trans hN, a2.trans hd, a3.trans hseg, fun hn => absurd hin hn,
          fun _ he => absurd he hc, fun _ _ => ⟨hmod, a5⟩⟩
  · rw [if_neg hin] at h
    split_ifs at h
    · cases hb : s._bf.test tag false with
      | none => rw [hb] at h; cases h
      | some rb =>
        rw [hb] at h
        cases h
        exact ⟨hN, hd, hseg, fun _ => ⟨rfl, rfl, rfl, rfl⟩, fun hx => absurd hx hin,
          fun hx => absurd hx hin⟩
    · cases h
      exact ⟨hN, hd, hseg, fun _ => ⟨rfl, rfl, rfl, rfl⟩, fun hx => absurd hx hin,
        fun hx => absurd hx hin⟩

theorem Decoupled.decoupled_run (N : Nat) (h4 : 4 ∣ N) (h75 : 75 * N < UINT32_MOD) :
    ∀ (ops : List vts_op) (s s1 : victim_tag_store_t) (rs : List Bool),
      Decoupled N s → s.run ops = some (rs, s1) → Decoupled N s1 := by
  intro ops
  induction ops with
  | nil =>
    intro s s1 rs hi h
    cases h
    exact hi
  | cons op ops ih =>
    intro s s1 rs hi h
    cases op with
    | insert tag =>
      simp only [run] at h
      cases hs : s.insert tag with
      | none => rw [hs] at h; cases h
      | some s2 =>
        rw [hs] at h
        obtain ⟨e1, e2, e3, e4⟩ := insert_keeps_hits s s2 tag hs
        exact ih s2 s1 rs
          ⟨e1.trans hi.numBlocks, e2.trans hi.decoupleClear, e3.trans hi.segmented,
            by rw [e4]; exact hi.hits⟩ h
    | test tag =>
      simp only [run] at h
      cases hs : s.test tag with
      | none => rw [hs] at h; cases h
      | some x =>
        obtain ⟨r, s2⟩ := x
        rw [hs] at h
        simp only [Option.some_bind] at h
        obtain ⟨f1, f2, f3, f4, f5, f6⟩ := test_decoupled N s s2 tag r h4 h75 hi hs
        have hi2 : Decoupled N s2 := by
          refine ⟨f1, f2, f3, ?_⟩
          by_cases hin : tag ∈ s._index
          · by_cases hc : 4 * (s._numHits + 1) = 3 * N
            · rw [(f5 hin hc).2.2.2.1]
              have := hi.hits
              omega
            · rw [(f6 hin hc).1]
              have := hi.hits
              obtain ⟨q, hq⟩ := h4
              omega
          · rw [(f4 hin).1]
            exact hi.hits
        cases hr : s2.run ops with
        | none => rw [hr] at h; cases h
        | some y =>
          rw [hr] at h
          cases h
          exact ih s2 y.2 y.1 hi2 hr

end victim_tag_store_t

/-- **C27.** The decoupled clear misses its threshold. `test` compares with
`100 * _numHits == 75 * _numBlocks`, an equality that no hit count satisfies when the
capacity is not a multiple of 4. A `decoupleClear` store of capacity 1 that holds tag 5 is
not cleared by the first hit, at which the hit count 1 has reached and passed `0.75 * 1`,
nor by the second: it still holds tag 5 and its hit counter is 2, above `0.75 * 1`. -/
theorem C27_hits_pass_threshold_unnoticed :
    ∃ s, (victim_tag_store_t.init 1 false false false true false
        victim_tag_store_t.noFilter).run [.insert 5, .test 5, .test 5] =
        some ([true, true], s) ∧
      s._numHits = 2 ∧ s._index = [5] ∧ s._fifo = [5] ∧ s._numCurrentBlocks = 1 ∧
      75 * s._numBlocks < 100 * s._numHits := by
  refine ⟨_, rfl, ?_, ?_, ?_, ?_, ?_⟩ <;> decide

/-- The decoupled clear for capacities that are multiples of 4. Take a victim tag store in
`decoupleClear` mode, not segmented, of a capacity `N ≥ 1` that is a multiple of 4 with
`75 * N < 2 ^ 32`, in any setting of the other modes. In every state reached by calls of
`insert` and `test`, the hit counter is below `0.75 * N`; a `test` that hits (the tag is in
`_index`) and brings the hit count to `0.75 * N` mass-clears the store (`_index`, `_fifo`
and the filter empty, occupancy and hit counter 0); any other hit adds one to the hit
counter and leaves `_fifo` as it is; a `test` that misses changes neither the hit counter
nor the stored tags. Without bloom filter every `test` returns. -/
theorem decoupled_clear_multiple_of_four (N : Nat) (useBloomFilter ideal noClear : Bool)
    (bf : bloom_filter_t) (ops : List vts_op) (rs : List Bool) (s : victim_tag_store_t)
    (hN : 1 ≤ N) (h4 : 4 ∣ N) (h75 : 75 * N < UINT32_MOD)
    (hrun : (victim_tag_store_t.init N useBloomFilter ideal noClear true false bf).run ops =
      some (rs, s)) :
    4 * s._numHits < 3 * N ∧
    (∀ (tag : Nat) (r : Bool) (s1 : victim_tag_store_t), s.test tag = some (r, s1) →
      (tag ∈ s._index → 4 * (s._numHits + 1) = 3 * N →
        s1._index = [] ∧ s1._fifo = [] ∧ s1._numCurrentBlocks = 0 ∧ s1._numHits = 0 ∧
          s1._bf._filter = []) ∧
      (tag ∈ s._index → 4 * (s._numHits + 1) ≠ 3 * N →
        s1._numHits = s._numHits + 1 ∧ s1._fifo = s._fifo) ∧
      (tag ∉ s._index → s1._numHits = s._numHits ∧ s1._index = s._index ∧
        s1._fifo = s._fifo ∧ s1._numCurrentBlocks = s._numCurrentBlocks)) ∧
    (s._useBloomFilter = false → ∀ tag, ∃ r s1, s.test tag = some (r, s1)) := by
  have hi : victim_tag_store_t.Decoupled N s :=
    victim_tag_store_t.Decoupled.decoupled_run N h4 h75 ops _ s rs
      ⟨rfl, rfl, rfl, by show 4 * 0 < 3 * N; omega⟩ hrun
  refine ⟨hi.hits, ?_, ?_⟩
  · intro tag r s1 h
    obtain ⟨-, -, -, f4, f5, f6⟩ := victim_tag_store_t.test_decoupled N s s1 tag r h4 h75 hi h
    exact ⟨f5, f6, f4⟩
  · intro hbf tag
    unfold victim_tag_store_t.test
    by_cases h0 : s._numBlocks = 0
    · rw [if_pos h0]
      exact ⟨_, _, rfl⟩
    rw [if_neg h0]
    by_cases hseg : s._segmented = true
    · rw [if_pos hseg]
      exact ⟨_, _, rfl⟩
    rw [if_neg hseg]
    by_cases hin : tag ∈ s._index
    · rw [if_pos hin]
      by_cases hid : s._ideal = true
      · simp only [if_pos hid, hbf, Bool.false_eq_true, if_false, Option.map_some']
        exact ⟨_, _, rfl⟩
      · simp only [if_neg hid, hbf, Bool.false_eq_true, if_false, Option.map_some']
        exact ⟨_, _, rfl⟩
    · rw [if_neg hin, hbf]
      exact ⟨_, _, rfl⟩

/-- A `decoupleClear` store of capacity 4 with tags 1 and 2:
after two hits the hit counter is 2, and the third hit empties the store. -/
theorem decoupled_clear_multiple_of_four_example :
    ∃ s s1, (victim_tag_store_t.init 4 false false false true false
        victim_tag_store_t.noFilter).run [.insert 1, .insert 2, .test 1, .test 2] =
        some ([true, true], s) ∧
      s._numHits = 2 ∧ s._index = [1, 2] ∧
      s.test 1 = some (true, s1) ∧ s1._index = [] ∧ s1._fifo = [] ∧
      s1._numCurrentBlocks = 0 ∧ s1._numHits = 0 := by
  have hs : ((victim_tag_store_t.init 4 false false false true false
      victim_tag_store_t.noFilter).run [.insert 1, .insert 2, .test 1, .test 2]).isSome =
      true := by rfl
  have h1 : ((Option.get _ hs).2.test 1).isSome = true := by rfl
  have h := decoupled_clear_multiple_of_four 4 false false false victim_tag_store_t.noFilter
    [.insert 1, .insert 2, .test 1, .test 2] [true, true] (Option.get _ hs).2
    (by decide) (by decide) (by decide) (by rfl)
  have e1 : (Option.get _ hs).2._index = [1, 2] := by rfl
  have e2 : (Option.get _ hs).2._numHits = 2 := by rfl
  have h2 := (h.2.1 1 true (Option.get _ h1).2 (by rfl)).1 (by rw [e1]; decide)
    (by rw [e2])
  exact ⟨(Option.get _ hs).2, (Option.get _ h1).2, by rfl, by rfl, by rfl, by rfl, h2.1,
    h2.2.1, h2.2.2.1, h2.2.2.2.1⟩

theorem slot_modify_fn (tbl : List entry) (i j : Nat) (f : Nat → Nat)
    (P : Bool → Nat → Nat → Prop) :
    (∃ e, (tbl.modify (fun x => { x with value := f x.value }) i)[j]? = some e ∧
        P e.valid e.index e.key) ↔
      ∃ e, tbl[j]? = some e ∧ P e.valid e.index e.key := by
  rw [List.getElem?_modify]
  constructor
  · rintro ⟨e, he, hP⟩
    rcases h0 : tbl[j]? with _ | e0
    · rw [h0] at he; cases he
    · rw [h0] at he
      simp only [Option.map_eq_map, Option.map_some', Option.some.injEq] at he
      refine ⟨e0, rfl, ?_⟩
      rw [← he] at hP
      split at hP <;> exact hP
  · rintro ⟨e, he, hP⟩
    rw [he]
    refine ⟨_, rfl, ?_⟩
    split <;> exact hP

theorem table_t.WF.modifyValue_table {N : Nat} {t : table_t} {key : Nat} (h : t.WF N)
    (hp : t.Present key) (f : Nat → Nat) :
    ∃ t1, t.modifyValue key f = some t1 ∧ t1.WF N ∧ t1.Present key ∧
      ∀ k, t1.lookup k = t.lookup k := by
  obtain ⟨t1, h1, h2, h3⟩ := hp.table_modifyValue f
  refine ⟨t1, h1, ?_, h2, h3⟩
  have e1 : t1 = { t with _table := t._table.modify (fun e => { e with value := f e.value }) (t.SearchForKey key) } := by
    unfold table_t.modifyValue at h1
    rw [if_pos hp.1, List.getElem?_eq_getElem hp.2] at h1
    simp only [Option.map_some', Option.some.injEq] at h1
    exact h1.symm
  obtain ⟨hN0, hN, hb, hpol⟩ := h
  rw [e1]
  refine ⟨hN0, hN, ⟨hb.size, by simp [hb.len], ?_, hb.free_nodup, ?_, ?_⟩, ?_⟩
  · intro j e2 hj hv1
    obtain ⟨e3, he3, hv3, hi3⟩ :=
      (slot_modify_fn t._table (t.SearchForKey key) j f
        (fun a b _ => a = true ∧ b = e2.index)).1 ⟨e2, hj, hv1, rfl⟩
    rw [← hi3]
    exact hb.idx j e3 he3 hv3
  · intro j
    rw [hb.free_iff j]
    exact (slot_modify_fn t._table (t.SearchForKey key) j f (fun a _ _ => a = false)).symm
  · intro k1 j
    rw [hb.key_iff k1 j]
    exact (slot_modify_fn t._table (t.SearchForKey key) j f
      (fun a _ c => a = true ∧ c = k1)).symm
  · refine policy_inv_congr ?_ hpol
    intro j
    exact (slot_modify_fn t._table (t.SearchForKey key) j f (fun a _ _ => a = true)).symm

namespace generic_tagstore_t

theorem WF.modifyValue_wf {numSets N : Nat} {ts : generic_tagstore_t} {key : Nat}
    (h : ts.WF numSets N) (hp : ts.Present key) (f : Nat → Nat) :
    ∃ ts1, ts.modifyValue key f = some ts1 ∧ ts1.WF numSets N ∧ ts1.Present key ∧
      ∀ k, ts1.lookup k = ts.lookup k := by
  obtain ⟨ts1, h1, h2, h3⟩ := hp.tagstore_modifyValue f
  refine ⟨ts1, h1, ?_, h2, h3⟩
  obtain ⟨s, hs, hps⟩ := hp
  obtain ⟨s1, g1, g2, -, -⟩ := (h.2.2 s (List.mem_iff_getElem?.2 ⟨_, hs⟩)).modifyValue_table hps f
  have e1 : ts1 = { ts with _sets := ts._sets.set (ts.index key) s1 } := by
    simp only [generic_tagstore_t.modifyValue, hs, Option.some_bind, g1, Option.map_some',
      Option.some.injEq] at h1
    exact h1.symm
  rw [e1]
  refine ⟨h.1, by simp [h.2.1], ?_⟩
  intro s2 hs2
  rcases List.mem_or_eq_of_mem_set hs2 with e2 | e2
  · exact h.2.2 s2 e2
  · rw [e2]; exact g2

theorem WF.present_of_lookup {numSets N : Nat} {ts : generic_tagstore_t} {key : Nat}
    (h : ts.WF numSets N) (hl : ts.lookup key = some true) : ts.Present key := by
  unfold generic_tagstore_t.lookup at hl
  cases hs : ts._sets[ts.index key]? with
  | none => rw [hs] at hl; cases hl
  | some s =>
    rw [hs] at hl
    simp only [Option.map_some', Option.some.injEq] at hl
    have hwf := h.2.2 s (List.mem_iff_getElem?.2 ⟨_, hs⟩)
    obtain ⟨i, hi⟩ := (table_t.lookup_true_iff hwf.2.2.1 key).1 hl
    obtain ⟨e1, e2, e3, -⟩ := hwf.2.2.1.search_some key i hi
    refine ⟨s, hs, ?_, ?_⟩
    · rw [e1]; exact e3
    · rw [e1, hwf.2.2.1.len]; exact e2

theorem WF.lookup_total {numSets N : Nat} {ts : generic_tagstore_t}
    (h : ts.WF numSets N) (hS : 0 < numSets) (key : Nat) :
    ∃ b, ts.lookup key = some b := by
  have hlt : ts.index key < ts._sets.length := by
    rw [h.2.1, generic_tagstore_t.index, h.1]
    exact Nat.mod_lt _ hS
  unfold generic_tagstore_t.lookup
  rw [List.getElem?_eq_getElem hlt]
  exact ⟨_, rfl⟩

/-- `read(key)` on a well-formed tag store: a hit returns a valid entry and leaves the key
present; a miss returns an invalid entry. -/
theorem WF.read_cases {numSets N : Nat} {ts : generic_tagstore_t} (h : ts.WF numSets N)
    (hS : 0 < numSets) (key : Nat) (pval : policy_value_t) :
    ∃ e ts1, ts.read key pval = some (e, ts1) ∧ ts1.WF numSets N ∧
      (ts.lookup key = some true → e.valid = true ∧ ts1.lookup key = some true) ∧
      (ts.lookup key = some false → e.valid = false) := by
  obtain ⟨s, e, s1, hs, hswf, hstep, hs1wf, htstep, htswf⟩ :=
    h.tagstore_step hS key (.read key pval)
  have hidx : ts.index key = key % numSets := by
    simp [generic_tagstore_t.index, h.1]
  have hl : ts.lookup key = some (s.lookup key) := by
    simp [generic_tagstore_t.lookup, hidx, hs]
  refine ⟨e, _, htstep, htswf, ?_, ?_⟩
  · intro ht
    rw [hl] at ht
    obtain ⟨i, hi⟩ := (table_t.lookup_true_iff hswf.2.2.1 key).1 (Option.some.inj ht)
    obtain ⟨p1, e1, -, -, hv, -, hr, -⟩ := table_t.read_hit hswf pval hi
    have hstep1 : s.read key pval = some (e, s1) := hstep
    rw [hr] at hstep1
    simp only [Option.some.injEq, Prod.mk.injEq] at hstep1
    obtain ⟨he, hs1⟩ := hstep1
    refine ⟨he ▸ hv, ?_⟩
    have hlen : key % numSets < ts._sets.length := by
      rw [h.2.1]; exact Nat.mod_lt _ hS
    simp only [generic_tagstore_t.lookup, generic_tagstore_t.index, h.1,
      List.getElem?_set_self hlen, Option.map_some', Option.some.injEq]
    rw [← hs1]
    exact Option.some.inj ht
  · intro hf
    rw [hl] at hf
    have hm := (table_t.lookup_false_iff hswf.2.2.1 key).1 (Option.some.inj hf)
    have hstep1 : s.read key pval = some (e, s1) := hstep
    rw [table_t.read_miss pval hm] at hstep1
    simp only [Option.some.injEq, Prod.mk.injEq] at hstep1
    rw [← hstep1.1]
    rfl

theorem Present.valueAt_some {ts : generic_tagstore_t} {key : Nat} (h : ts.Present key) :
    ∃ v, ts.valueAt key = some v := by
  obtain ⟨s, hs, hp⟩ := h
  unfold generic_tagstore_t.valueAt table_t.valueAt
  rw [hs]
  simp only [Option.some_bind, if_pos hp.1, List.getElem?_eq_getElem hp.2, Option.map_some']
  exact ⟨_, rfl⟩

end generic_tagstore_t
/-- Counterexample for C30: `CmpCache` adds `(_serialLookup ? _tagStoreLatency : 0) +
_dataStoreLatency` on a hit, and `_serialLookup` is `false` by default. A cache with tag
latency 1 and data latency 2 that holds block 2 services a read of address 128 entered at
cycle 10 at cycle 12, not at `10 + 1 + 2 = 13`. -/
theorem C30_cmpcache_parallel_lookup_hit :
    ∃ p, (CmpCache.oneBlock false false).ProcessRequest
        (MemoryRequest.new .CPU 0 0 .READ 0 128 128 8 10) = some p ∧
      (CmpCache.oneBlock false false)._tags.lookup 2 = some true ∧
      (CmpCache.oneBlock false false)._serialLookup = false ∧
      (CmpCache.oneBlock false false)._tagStoreLatency = 1 ∧
      (CmpCache.oneBlock false false)._dataStoreLatency = 2 ∧
      p.busy = 1 ∧ p.request.serviced = true ∧ p.request.currentCycle = 12 := by
  have hs : ((CmpCache.oneBlock false false).ProcessRequest
      (MemoryRequest.new .CPU 0 0 .READ 0 128 128 8 10)).isSome = true := by rfl
  exact ⟨Option.get _ hs, (Option.some_get hs).symm, by rfl, by rfl, by rfl, by rfl, by rfl,
    by rfl, by rfl⟩

/-- **C30 (amended).** Cache read timing. A forward `READ`, `READ_FOR_WRITE` or `PREFETCH`
processed by a `CmpLLC` or a `CmpCache` with a nonzero block size and a well-formed tag
store (for `CmpLLC`, the CPU of the request having its counters) returns
`_tagStoreLatency` busy cycles. When the tag is present the request is marked serviced
and its `currentCycle` grows by `_tagStoreLatency + _dataStoreLatency` in `CmpLLC` and by
`(_serialLookup ? _tagStoreLatency : 0) + _dataStoreLatency` in `CmpCache` (`uint32` sums,
added to the 64-bit cycle); when the tag is absent `currentCycle` grows by
`_tagStoreLatency` and `serviced` is left as it is. No other field of the request
changes. -/
theorem C30_cache_read_timing_amended (llc : CmpLLC) (c : CmpCache)
    (request : MemoryRequest)
    (htype : request.type = .READ ∨ request.type = .READ_FOR_WRITE ∨
      request.type = .PREFETCH)
    (hwf1 : llc._tags.WF llc._numSets llc._associativity) (hs1 : 0 < llc._numSets)
    (hb1 : llc._blockSize ≠ 0) (hcpu : request.cpuID < llc._hits.length)
    (hcpu2 : request.cpuID < llc._misses.length)
    (hwf2 : c._tags.WF c._numSets c._associativity) (hs2 : 0 < c._numSets)
    (hb2 : c._blockSize ≠ 0) :
    (∃ p b, llc.ProcessRequest request = some p ∧
      llc._tags.lookup (request.virtualAddress / llc._blockSize) = some b ∧
      p.busy = llc._tagStoreLatency ∧
      (b = true → p.request =
        { request with
          serviced := true,
          currentCycle := (request.currentCycle +
            (llc._tagStoreLatency + llc._dataStoreLatency) % UINT32_MOD) % UINT64_MOD }) ∧
      (b = false → p.request =
        { request with
          currentCycle := (request.currentCycle + llc._tagStoreLatency) % UINT64_MOD })) ∧
    (∃ p b, c.ProcessRequest request = some p ∧
      c._tags.lookup (c.ctag request) = some b ∧
      p.busy = c._tagStoreLatency ∧
      (b = true → p.request =
        { request with
          serviced := true,
          currentCycle := (request.currentCycle +
            ((if c._serialLookup then c._tagStoreLatency else 0) + c._dataStoreLatency) %
              UINT32_MOD) % UINT64_MOD }) ∧
      (b = false → p.request =
        { request with
          currentCycle := (request.currentCycle + c._tagStoreLatency) % UINT64_MOD })) := by
  have hw : request.type ≠ .WRITE := by rcases htype with h | h | h <;> rw [h] <;> decide
  have hpw : request.type ≠ .PARTIALWRITE := by
    rcases htype with h | h | h <;> rw [h] <;> decide
  have hwb : request.type ≠ .WRITEBACK := by
    rcases htype with h | h | h <;> rw [h] <;> decide
  constructor
  · obtain ⟨b, hl⟩ := hwf1.lookup_total hs1 (request.virtualAddress / llc._blockSize)
    obtain ⟨e, ts1, hread, -, hhit, hmiss⟩ :=
      hwf1.read_cases hs1 (request.virtualAddress / llc._blockSize) .POLICY_HIGH
    have hread1 : llc._tags.read (request.virtualAddress / llc._blockSize) .POLICY_HIGH =
        some (e, ts1) := hread
    have hcases : ∃ p, llc.ProcessRequest request = some p ∧
        p.busy = llc._tagStoreLatency ∧
        (e.valid = true → p.request = ({ request with serviced := true }).AddLatency
          ((llc._tagStoreLatency + llc._dataStoreLatency) % UINT32_MOD)) ∧
        (e.valid = false → p.request = request.AddLatency llc._tagStoreLatency) := by
      unfold CmpLLC.ProcessRequest
      rw [if_neg (by rintro (h | h); exact hw h; exact hpw h), if_neg hb1]
      by_cases hv : e.valid = true
      · rcases htype with h | h | h <;>
          simp only [h, hread1, Option.some_bind, if_pos hv, List.getElem?_eq_getElem hcpu,
            Option.map_some'] <;>
          exact ⟨_, rfl, rfl, fun _ => rfl, fun hf => absurd hv (by rw [hf]; decide)⟩
      · have hvf : e.valid = false := by simpa using hv
        rcases htype with h | h | h <;>
          simp only [h, hread1, Option.some_bind, if_neg hv, List.getElem?_eq_getElem hcpu2,
            Option.map_some'] <;>
          exact ⟨_, rfl, rfl, fun ht => absurd ht hv, fun _ => rfl⟩
    obtain ⟨p, hp, hbusy, h1, h2⟩ := hcases
    refine ⟨p, b, hp, hl, hbusy, ?_, ?_⟩
    · intro hb
      rw [hb] at hl
      exact h1 (hhit hl).1
    · intro hb
      rw [hb] at hl
      exact h2 (hmiss hl)
  · obtain ⟨b, hl⟩ := hwf2.lookup_total hs2 (c.ctag request)
    obtain ⟨e, ts1, hread, hts1, hhit, hmiss⟩ :=
      hwf2.read_cases hs2 (c.ctag request) .POLICY_HIGH
    have hread1 : c._tags.read (c.ctag request) .POLICY_HIGH = some (e, ts1) := hread
    have hcases : ∃ p, c.ProcessRequest request = some p ∧
        p.busy = c._tagStoreLatency ∧
        (e.valid = true → p.request =
          ({ request with serviced := true }).AddLatency c.hitLatency) ∧
        (e.valid = false → p.request = request.AddLatency c._tagStoreLatency) := by
      unfold CmpCache.ProcessRequest
      rw [if_neg hb2]
      simp only [if_neg (fun h : request.type = .PARTIALWRITE ∧ request.size = c._blockSize =>
        hpw h.1), if_neg (fun h : request.type = .WRITEBACK ∧ request.size < c._blockSize =>
        hwb h.1)]
      by_cases hv : e.valid = true
      · have hl1 : ts1.lookup (c.ctag request) = some true := by
          cases b with
          | true => exact (hhit hl).2
          | false => exact absurd hv (by rw [hmiss hl]; decide)
        have hp1 := hts1.present_of_lookup hl1
        obtain ⟨t1, g1, gwf1, gp1, gl1⟩ := hts1.modifyValue_wf hp1
          (fun v => CmpCache.CacheTagValue.encode
            { CmpCache.CacheTagValue.decode v with
              reuse := ((CmpCache.CacheTagValue.decode v).reuse + 1) % UINT32_MOD })
        obtain ⟨v1, hv1⟩ := gp1.valueAt_some
        by_cases hpf : (CmpCache.CacheTagValue.decode v1).prefetched = true
        · obtain ⟨t2, g2, gwf2, gp2, gl2⟩ := gwf1.modifyValue_wf gp1
            (fun v => CmpCache.CacheTagValue.encode
              { CmpCache.CacheTagValue.decode v with prefetched := false })
          by_cases hdp : c._demotePH = true
          · obtain ⟨e3, t3, hread3, -, -, -⟩ :=
              gwf2.read_cases hs2 (c.ctag request) .POLICY_LOW
            rcases htype with h | h | h <;>
              simp only [h, hread1, Option.some_bind, if_pos hv, g1, hv1, if_pos hpf, g2,
                if_pos hdp, hread3, Option.map_some'] <;>
              exact ⟨_, rfl, rfl, fun _ => rfl, fun hf => absurd hv (by rw [hf]; decide)⟩
          · rcases htype with h | h | h <;>
              simp only [h, hread1, Option.some_bind, if_pos hv, g1, hv1, if_pos hpf, g2,
                if_neg hdp, Option.map_some'] <;>
              exact ⟨_, rfl, rfl, fun _ => rfl, fun hf => absurd hv (by rw [hf]; decide)⟩
        · rcases htype with h | h | h <;>
            simp only [h, hread1, Option.some_bind, if_pos hv, g1, hv1, if_neg hpf] <;>
            exact ⟨_, rfl, rfl, fun _ => rfl, fun hf => absurd hv (by rw [hf]; decide)⟩
      · rcases htype with h | h | h <;>
          simp only [h, hread1, Option.some_bind, if_neg hv] <;>
          exact ⟨_, rfl, rfl, fun ht => absurd ht hv, fun _ => rfl⟩
    obtain ⟨p, hp, hbusy, h1, h2⟩ := hcases
    refine ⟨p, b, hp, hl, hbusy, ?_, ?_⟩
    · intro hb
      rw [hb] at hl
      exact h1 (hhit hl).1
    · intro hb
      rw [hb] at hl
      exact h2 (hmiss hl)
/-- Witness for C30 (amended): a read of address 128 entered at cycle 10. The `CmpLLC` with
blocks of 1024 bytes that holds block 2 misses (tag latency 6): the request leaves at cycle
16, not serviced. The `CmpCache` with blocks of 64 bytes that holds block 2 hits (data
latency 2, parallel lookup): the request leaves at cycle 12, serviced. -/
theorem C30_cache_read_timing_amended_witness :
    (∃ p, CmpLLC.oneBlock.ProcessRequest
        (MemoryRequest.new .CPU 0 0 .READ 0 128 128 8 10) = some p ∧
      p.busy = 6 ∧ p.request.currentCycle = 16 ∧ p.request.serviced = false) ∧
    (∃ p, (CmpCache.oneBlock false false).ProcessRequest
        (MemoryRequest.new .CPU 0 0 .READ 0 128 128 8 10) = some p ∧
      p.busy = 1 ∧ p.request.currentCycle = 12 ∧ p.request.serviced = true) := by
  have h := C30_cache_read_timing_amended CmpLLC.oneBlock (CmpCache.oneBlock false false)
    (MemoryRequest.new .CPU 0 0 .READ 0 128 128 8 10) (Or.inl rfl)
    (generic_tagstore_t.oneWay_WF _ _) (by decide) (by decide) (by decide) (by decide)
    (generic_tagstore_t.oneWay_WF _ _) (by decide) (by decide)
  constructor
  · obtain ⟨p, b, h1, h2, h3, -, h5⟩ := h.1
    have hb : b = false := by
      have e : CmpLLC.oneBlock._tags.lookup
          ((MemoryRequest.new .CPU 0 0 .READ 0 128 128 8 10).virtualAddress /
            CmpLLC.oneBlock._blockSize) = some false := by rfl
      rw [e] at h2
      exact (Option.some.inj h2).symm
    refine ⟨p, h1, h3, ?_, ?_⟩
    · rw [h5 hb]
      rfl
    · rw [h5 hb]
      rfl
  · obtain ⟨p, b, h1, h2, h3, h4, -⟩ := h.2
    have hb : b = true := by
      have e : (CmpCache.oneBlock false false)._tags.lookup
          ((CmpCache.oneBlock false false).ctag
            (MemoryRequest.new .CPU 0 0 .READ 0 128 128 8 10)) = some true := by rfl
      rw [e] at h2
      exact (Option.some.inj h2).symm
    refine ⟨p, h1, h3, ?_, ?_⟩
    · rw [h4 hb]
      rfl
    · rw [h4 hb]

namespace dlist

theorem walk_of_seg {nodes : List ListNode}
    (hidx : ∀ (i : Nat) (n : ListNode), nodes[i]? = some n → n.index = i) :
    ∀ (l : List Nat) (p : Option Nat) (fuel : Nat), Seg nodes p l none → l.length ≤ fuel →
      walk nodes fuel (headOr l none) = l := by
  intro l
  induction l with
  | nil =>
    intro p fuel _ _
    cases fuel <;> rfl
  | cons a rest ih =>
    intro p fuel h hf
    obtain ⟨⟨n, hn, -, hx⟩, hrest⟩ := h
    cases fuel with
    | zero => simp at hf
    | succ f =>
      show walk nodes (f + 1) (some a) = a :: rest
      simp only [walk, hn]
      rw [hidx a n hn, hx, ih (some a) f hrest (by simpa using hf)]

theorem seg_next {nodes : List ListNode} (b : Nat) :
    ∀ (l : List Nat) (p e : Option Nat), Seg nodes p l e →
      ∀ (a : Nat) (na : ListNode), a ∈ l → nodes[a]? = some na → na.next = some b →
        e = some b ∨ ∃ nb, nodes[b]? = some nb ∧ nb.prev = some a := by
  intro l
  induction l with
  | nil =>
    intro p e _ a na ha
    cases ha
  | cons a0 rest ih =>
    intro p e h a na ha hna hnext
    obtain ⟨⟨n, hn, -, hx⟩, hrest⟩ := h
    rcases List.mem_cons.1 ha with e1 | e1
    · subst e1
      rw [hn] at hna
      cases hna
      rw [hx] at hnext
      cases rest with
      | nil => exact Or.inl hnext
      | cons b1 rest1 =>
        have hb : b1 = b := Option.some.inj hnext
        subst hb
        obtain ⟨⟨nb, hnb, hpb, -⟩, -⟩ := hrest
        exact Or.inr ⟨nb, hnb, hpb⟩
    · exact ih (some a0) e hrest a na e1 hna hnext

theorem seg_prev {nodes : List ListNode} (a : Nat) :
    ∀ (l : List Nat) (p e : Option Nat), Seg nodes p l e →
      ∀ (b : Nat) (nb : ListNode), b ∈ l → nodes[b]? = some nb → nb.prev = some a →
        (p = some a ∧ l.head? = some b) ∨ ∃ na, nodes[a]? = some na ∧ na.next = some b := by
  intro l
  induction l with
  | nil =>
    intro p e _ b nb hb
    cases hb
  | cons a0 rest ih =>
    intro p e h b nb hb hnb hprev
    obtain ⟨⟨n, hn, hp, hx⟩, hrest⟩ := h
    rcases List.mem_cons.1 hb with e1 | e1
    · subst e1
      rw [hn] at hnb
      cases hnb
      exact Or.inl ⟨hp.symm.trans hprev, rfl⟩
    · rcases ih (some a0) e hrest b nb e1 hnb hprev with ⟨h1, h2⟩ | h1
      · have ha : a0 = a := Option.some.inj h1
        subst ha
        refine Or.inr ⟨n, hn, ?_⟩
        rw [hx]
        cases rest with
        | nil => cases h2
        | cons b1 rest1 => exact h2
      · exact Or.inr h1

theorem seg_last_next {nodes : List ListNode} :
    ∀ (l : List Nat) (p : Option Nat) (t : Nat), Seg nodes p l none → l.getLast? = some t →
      ∃ n, nodes[t]? = some n ∧ n.next = none := by
  intro l
  induction l with
  | nil =>
    intro p t _ h
    cases h
  | cons a0 rest ih =>
    intro p t h hl
    obtain ⟨⟨n, hn, -, hx⟩, hrest⟩ := h
    cases rest with
    | nil =>
      simp only [List.getLast?_singleton, Option.some.injEq] at hl
      subst hl
      exact ⟨n, hn, hx⟩
    | cons b1 rest1 =>
      rw [List.getLast?_cons_cons] at hl
      exact ih (some a0) t hrest hl

theorem Repr.length_le {N : Nat} {d : dlist} {l : List Nat} (h : Repr N d l) :
    l.length ≤ N := by
  have hsub : l.toFinset ⊆ Finset.range N := by
    intro a ha
    rw [List.mem_toFinset] at ha
    exact Finset.mem_range.2 (h.lt a ha)
  have := Finset.card_le_card hsub
  rw [List.toFinset_card_of_nodup h.nodup, Finset.card_range] at this
  exact this

theorem Repr.walk_eq {N : Nat} {d : dlist} {l : List Nat} (h : Repr N d l) (fuel : Nat)
    (hf : N ≤ fuel) : walk d._nodes fuel d._head = l := by
  have h1 := walk_of_seg h.idx l none fuel h.seg (h.length_le.trans hf)
  rw [h.head]
  cases l with
  | nil =>
    show walk d._nodes fuel none = []
    cases fuel <;> rfl
  | cons a rest => exact h1

end dlist

/-- **C24.** LRU bookkeeping invariant. Every sequence of
insert/read/update/silentupdate/invalidate from the empty LRU table of capacity `N`
(`1 ≤ N < 2 ^ 32`) returns, and in the table `t` it leaves the recency list `l` read from
`_head` along the `next` pointers (it ends at a null pointer within `N` nodes) contains
exactly the indices of the valid slots, each once; node `i` carries index `i`; the head
has no predecessor; when the list is not empty `_tail` is its last node, which has no
successor, and when it is empty `_head` is null; `prev` and `next` are mutually inverse;
and the nodes of invalid slots have both pointers null. -/
theorem C24_lru_bookkeeping (N hand0 : Nat) (ops : List table_op) (hN0 : 0 < N)
    (hN : N < UINT32_MOD) :
    ∃ t d l, (table_t.new .lru N hand0).run ops = some t ∧ t.policy = .lru d ∧
      d._nodes.length = N ∧
      (∀ fuel, N ≤ fuel → dlist.walk d._nodes fuel d._head = l) ∧
      l.Nodup ∧ (∀ i, i ∈ l ↔ validAt t._table i) ∧
      (∀ (i : Nat) (n : ListNode), d._nodes[i]? = some n → n.index = i) ∧
      (∀ h, d._head = some h → ∃ n, d._nodes[h]? = some n ∧ n.prev = none) ∧
      (l ≠ [] → d._tail = l.getLast? ∧
        ∃ tl n, d._tail = some tl ∧ d._nodes[tl]? = some n ∧ n.next = none) ∧
      (l = [] → d._head = none) ∧
      (∀ (a b : Nat) (na : ListNode), d._nodes[a]? = some na → na.next = some b →
        ∃ nb, d._nodes[b]? = some nb ∧ nb.prev = some a) ∧
      (∀ (a b : Nat) (nb : ListNode), d._nodes[b]? = some nb → nb.prev = some a →
        ∃ na, d._nodes[a]? = some na ∧ na.next = some b) ∧
      (∀ (i : Nat) (n : ListNode), d._nodes[i]? = some n → ¬ validAt t._table i →
        n.prev = none ∧ n.next = none) := by
  obtain ⟨t, hrun, hwf, hname⟩ := table_t.WF.run_name ops
    (table_t.WF_new .lru N hand0 hN0 hN (by intro h; cases h))
  obtain ⟨-, -, -, hpol⟩ := hwf
  cases hp : t.policy with
  | lru d =>
    rw [hp] at hpol
    obtain ⟨l, hr, hl⟩ := hpol
    refine ⟨t, d, l, hrun, hp, hr.len, fun fuel hf => hr.walk_eq fuel hf, hr.nodup, hl,
      hr.idx, ?_, ?_, ?_, ?_, ?_, ?_⟩
    · intro h hh
      cases l with
      | nil =>
        rw [hr.head] at hh
        cases hh
      | cons a rest =>
        have e : a = h := by
          have := hr.head
          rw [hh] at this
          exact (Option.some.inj this).symm
        subst e
        obtain ⟨⟨n, hn, hpv, -⟩, -⟩ := hr.seg
        exact ⟨n, hn, hpv⟩
    · intro hne
      refine ⟨hr.tail hne, ?_⟩
      cases hlast : l.getLast? with
      | none =>
        rw [List.getLast?_eq_none_iff] at hlast
        exact absurd hlast hne
      | some tl =>
        obtain ⟨n, hn, hx⟩ := dlist.seg_last_next l none tl hr.seg hlast
        exact ⟨tl, n, (hr.tail hne).trans hlast, hn, hx⟩
    · intro he
      rw [hr.head, he]
      rfl
    · intro a b na hna hnext
      by_cases ha : a ∈ l
      · rcases dlist.seg_next b l none none hr.seg a na ha hna hnext with h1 | h1
        · cases h1
        · exact h1
      · rw [(hr.free a na hna ha).2] at hnext
        cases hnext
    · intro a b nb hnb hprev
      by_cases hb : b ∈ l
      · rcases dlist.seg_prev a l none none hr.seg b nb hb hnb hprev with ⟨h1, -⟩ | h1
        · cases h1
        · exact h1
      · rw [(hr.free b nb hnb hb).1] at hprev
        cases hprev
    · intro i n hn hv
      exact hr.free i n hn (fun hi => hv ((hl i).1 hi))
  | fifo q => rw [hp] at hname; cases hname
  | reuse r hand mx => rw [hp] at hname; cases hname
  | srrip rrpv => rw [hp] at hname; cases hname
  | nru ref hand => rw [hp] at hname; cases hname
  | generation nodes hand => rw [hp] at hname; cases hname
  | dip d bip => rw [hp] at hname; cases hname
  | drrip rrpv brrip => rw [hp] at hname; cases hname
  | minw => rw [hp] at hname; cases hname
/-- Witness for C24: an LRU table of two slots after `insert 10`, `insert 20`, `read 10`;
the recency list read from `_head` is slot 1, then slot 0. -/
theorem C24_lru_bookkeeping_witness :
    ∃ t d, (table_t.new .lru 2 0).run
        [.insert 10 100 .POLICY_HIGH, .insert 20 200 .POLICY_HIGH, .read 10 .POLICY_HIGH] =
        some t ∧
      t.policy = .lru d ∧ dlist.walk d._nodes 2 d._head = [1, 0] ∧
      (∀ i, i ∈ [1, 0] ↔ validAt t._table i) ∧ d._tail = some 0 := by
  obtain ⟨t, d, l, hrun, hp, -, hwalk, -, hl, -, -, htail, -⟩ := C24_lru_bookkeeping 2 0
    [.insert 10 100 .POLICY_HIGH, .insert 20 200 .POLICY_HIGH, .read 10 .POLICY_HIGH]
    (by decide) (by decide)
  have hs : ((table_t.new .lru 2 0).run
      [.insert 10 100 .POLICY_HIGH, .insert 20 200 .POLICY_HIGH,
        .read 10 .POLICY_HIGH]).isSome = true := by rfl
  have ht : t = Option.get _ hs := by
    rw [← Option.some_get hs] at hrun
    exact (Option.some.inj hrun).symm
  have hd : policy_t.lru d = (Option.get _ hs).policy := by rw [← hp, ht]
  have hl1 : l = [1, 0] := by
    rw [← hwalk 2 (Nat.le_refl _)]
    have hd1 : (Option.get _ hs).policy = .lru ⟨[⟨some 1, 0, none⟩, ⟨none, 1, some 0⟩],
        some 1, some 0⟩ := by rfl
    rw [hd1] at hd
    cases hd
    rfl
  refine ⟨t, d, hrun, hp, ?_, ?_, ?_⟩
  · rw [hwalk 2 (Nat.le_refl _), hl1]
  · rw [← hl1]
    exact hl
  · rw [(htail (by rw [hl1]; simp)).1, hl1]
    rfl

theorem dip_place_spec {N : Nat} {d : dlist} {l : List Nat} {i : Nat} (bip : cyclic_pointer)
    (pval : policy_value_t) (h : d.Repr N l) (hi : i < N) (hnot : i ∉ l) :
    ∃ d1, dip_place d bip i pval = some d1 ∧
      d1.Repr N (if pval = .POLICY_HIGH ∨ (pval = .POLICY_BIMODAL ∧ bip._hand = 0)
        then l ++ [i] else i :: l) := by
  obtain ⟨db, hb1, hb2⟩ := h.push_back hi hnot
  obtain ⟨df, hf1, hf2⟩ := h.push_front hi hnot
  cases pval with
  | POLICY_HIGH =>
    rw [if_pos (Or.inl rfl)]
    exact ⟨db, hb1, hb2⟩
  | POLICY_LOW =>
    rw [if_neg (by rintro (h1 | ⟨h1, _⟩) <;> cases h1)]
    exact ⟨df, hf1, hf2⟩
  | POLICY_BIMODAL =>
    by_cases h0 : bip._hand = 0
    · rw [if_pos (Or.inr ⟨rfl, h0⟩)]
      refine ⟨db, ?_, hb2⟩
      simp only [dip_place, h0, ne_eq, not_true_eq_false, if_false]
      exact hb1
    · rw [if_neg (by rintro (h1 | ⟨_, h1⟩); cases h1; exact h0 h1)]
      refine ⟨df, ?_, hf2⟩
      simp only [dip_place, ne_eq, h0, not_false_eq_true, if_true]
      exact hf1

/-- Counterexample for C26: with `pval = POLICY_BIMODAL` the source places the entry by
`if (_bipCounter) _push_front(index); else _push_back(index)`: at the LRU end unless the
counter is 0. In a DIP table of two slots filled with keys 10 and 20, `insert 30` with
`POLICY_BIMODAL` finds the counter at 1 (the victim search has just incremented it) and
puts key 30, in slot 0, at the head of the recency list, before slot 1: the next insert
evicts key 30. -/
theorem C26_bimodal_places_at_lru_end :
    ∃ t d bip e t2, (table_t.new .dip 2 0).run
        [.insert 10 1 .POLICY_HIGH, .insert 20 2 .POLICY_HIGH, .insert 30 3 .POLICY_BIMODAL] =
        some t ∧
      t.policy = .dip d bip ∧ bip._hand = 1 ∧ bip._size = 64 ∧
      dlist.walk d._nodes 2 d._head = [0, 1] ∧
      (t._table[0]?).map (fun x => x.key) = some 30 ∧
      t.insert 40 4 .POLICY_HIGH = some (e, t2) ∧ e.key = 30 ∧ e.valid = true := by
  have hs : ((table_t.new .dip 2 0).run
      [.insert 10 1 .POLICY_HIGH, .insert 20 2 .POLICY_HIGH,
        .insert 30 3 .POLICY_BIMODAL]).isSome = true := by rfl
  have h2 : ((Option.get _ hs).insert 40 4 .POLICY_HIGH).isSome = true := by rfl
  exact ⟨Option.get _ hs, ⟨[⟨none, 0, some 1⟩, ⟨some 0, 1, none⟩], some 0, some 1⟩, ⟨1, 64⟩,
    (Option.get _ h2).1, (Option.get _ h2).2, (Option.some_get hs).symm, by rfl, by rfl,
    by rfl, by rfl, by rfl, (Option.some_get h2).symm, by rfl, by rfl⟩

/-- **C26 (amended).** DIP insertion position. In every state `t` reached from the empty
DIP table of capacity `N` (`1 ≤ N < 2 ^ 32`), `insert(k, v, pval)` of an absent key
returns and stores `k` in a slot `i`, and in the recency list `l1` read from `_head`
afterwards: with `pval = POLICY_HIGH` slot `i` is the last node (MRU end); with
`POLICY_LOW` it is the first node (LRU end), the one the next victim search returns; with
`POLICY_BIMODAL` it is the first node whenever the cyclic BIP counter, which has 64
states, is not 0, and the last node only when the counter is 0, so in 1 of 64 consecutive
counter states. The counter is the one the call leaves: it is incremented by the victim
search when no slot is free. -/
theorem C26_dip_insertion_amended (N hand0 : Nat) (ops : List table_op) (t : table_t)
    (k v : Nat) (pval : policy_value_t) (hN0 : 0 < N) (hN : N < UINT32_MOD)
    (hrun : (table_t.new .dip N hand0).run ops = some t) (habs : t.lookup k = false) :
    ∃ e t1 d bip d1 bip1 i l1, t.insert k v pval = some (e, t1) ∧
      t.policy = .dip d bip ∧ t1.policy = .dip d1 bip1 ∧
      bip1 = (if t._freeList = [] then bip.increment else bip) ∧
      bip1._size = 64 ∧ bip1._hand < 64 ∧
      map_find t1._keyIndex k = some i ∧
      (∀ fuel, N ≤ fuel → dlist.walk d1._nodes fuel d1._head = l1) ∧
      (pval = .POLICY_HIGH → l1.getLast? = some i) ∧
      (pval = .POLICY_LOW → l1.head? = some i ∧ d1.headIndex = some i) ∧
      (pval = .POLICY_BIMODAL → bip1._hand ≠ 0 →
        l1.head? = some i ∧ d1.headIndex = some i) ∧
      (pval = .POLICY_BIMODAL → bip1._hand = 0 → l1.getLast? = some i) := by
  obtain ⟨t0, hrun0, hwf, hname⟩ := table_t.WF.run_name ops
    (table_t.WF_new .dip N hand0 hN0 hN (by intro h; cases h))
  rw [hrun] at hrun0
  cases hrun0
  have hk : map_find t._keyIndex k = none := (table_t.lookup_false_iff hwf.2.2.1 k).1 habs
  have hfinish : ∀ (d1 : dlist) (bip1 : cyclic_pointer) (i : Nat) (base : List Nat),
      i ∉ base →
      d1.Repr N (if pval = .POLICY_HIGH ∨ (pval = .POLICY_BIMODAL ∧ bip1._hand = 0)
        then base ++ [i] else i :: base) →
      ∃ l1, (∀ fuel, N ≤ fuel → dlist.walk d1._nodes fuel d1._head = l1) ∧
        (pval = .POLICY_HIGH → l1.getLast? = some i) ∧
        (pval = .POLICY_LOW → l1.head? = some i ∧ d1.headIndex = some i) ∧
        (pval = .POLICY_BIMODAL → bip1._hand ≠ 0 →
          l1.head? = some i ∧ d1.headIndex = some i) ∧
        (pval = .POLICY_BIMODAL → bip1._hand = 0 → l1.getLast? = some i) := by
    intro d1 bip1 i base _ hr
    refine ⟨_, fun fuel hf => hr.walk_eq fuel hf, ?_, ?_, ?_, ?_⟩
    · intro hp
      rw [if_pos (Or.inl hp)]
      simp
    · intro hp
      have hc : ¬ (pval = .POLICY_HIGH ∨ (pval = .POLICY_BIMODAL ∧ bip1._hand = 0)) := by
        rw [hp]
        rintro (h1 | ⟨h1, _⟩) <;> cases h1
      rw [if_neg hc] at hr ⊢
      exact ⟨rfl, hr.headIndex⟩
    · intro hp h0
      have hc : ¬ (pval = .POLICY_HIGH ∨ (pval = .POLICY_BIMODAL ∧ bip1._hand = 0)) := by
        rw [hp]
        rintro (h1 | ⟨_, h1⟩)
        · cases h1
        · exact h0 h1
      rw [if_neg hc] at hr ⊢
      exact ⟨rfl, hr.headIndex⟩
    · intro hp h0
      rw [if_pos (Or.inr ⟨hp, h0⟩)]
      simp
  cases hp : t.policy with
  | dip d bip =>
    obtain ⟨-, -, hb, hpol⟩ := hwf
    have hwf : t.WF N := ⟨hN0, hN, hb, hpol⟩
    rw [hp] at hpol
    obtain ⟨⟨l, hr, hl⟩, hsz, hhand⟩ := hpol
    rcases hf : t._freeList with _ | ⟨i, rest⟩
    · obtain ⟨i, p1, p2, e, hg, hi, hp2, he, hv, hidx, hins, -⟩ :=
        table_t.insert_evict hwf v pval hk hf
      rw [hp] at hg
      simp only [GetReplacementIndex] at hg
      cases l with
      | nil =>
        have : d.headIndex = none := by
          simp [dlist.headIndex, hr.head]
        rw [this] at hg
        cases hg
      | cons a rest =>
        rw [hr.headIndex] at hg
        simp only [Option.map_some', Option.some.injEq, Prod.mk.injEq] at hg
        obtain ⟨ha, hp1⟩ := hg
        subst ha
        subst hp1
        obtain ⟨dp, hpop, hrp⟩ := hr.pop_front
        have hnot : a ∉ rest := (List.nodup_cons.1 hr.nodup).1
        obtain ⟨d1, hd1, hr1⟩ := dip_place_spec bip.increment pval hrp hi hnot
        have hp2' : p2 = .dip d1 bip.increment := by
          simp only [UpdateReplacementPolicy, hpop, Option.some_bind, hd1,
            Option.map_some', Option.some.injEq] at hp2
          exact hp2.symm
        obtain ⟨hs1, hs2⟩ := cyclic_increment_lt hsz hhand (by decide)
        obtain ⟨l1, g1, g2, g3, g4, g5⟩ := hfinish d1 bip.increment a rest hnot hr1
        have hke : map_find t._keyIndex e.key = some a :=
          (hb.key_iff e.key a).2 ⟨e, he, hv, rfl⟩
        have hkne : k ≠ e.key := by
          intro e1
          rw [e1] at hk
          rw [hk] at hke
          cases hke
        refine ⟨e, _, d, bip, d1, bip.increment, a, l1, hins, rfl, hp2', ?_, hs1, hs2, ?_,
          g1, g2, g3, g4, g5⟩
        · rw [if_pos rfl]
        · show map_find (map_insert (map_erase t._keyIndex e.key) k a) k = some a
          rw [map_find_insert _ _ _ _ (by rw [map_find_erase, if_neg hkne]; exact hk),
            if_pos rfl]
    · obtain ⟨p1, hp1, hi, hnv, hins, -⟩ := table_t.insert_free hwf v pval hk hf
      have hnot : i ∉ l := fun hm => hnv ((hl i).1 hm)
      obtain ⟨d1, hd1, hr1⟩ := dip_place_spec bip pval hr hi hnot
      have hp1' : p1 = .dip d1 bip := by
        rw [hp] at hp1
        simp only [UpdateReplacementPolicy, hd1, Option.map_some', Option.some.injEq] at hp1
        exact hp1.symm
      obtain ⟨l1, g1, g2, g3, g4, g5⟩ := hfinish d1 bip i l hnot hr1
      refine ⟨_, _, d, bip, d1, bip, i, l1, hins, rfl, hp1', ?_, hsz, hhand, ?_,
        g1, g2, g3, g4, g5⟩
      · rw [if_neg (by simp)]
      · show map_find (map_insert t._keyIndex k i) k = some i
        rw [map_find_insert _ _ _ _ hk, if_pos rfl]
  | lru d => rw [hp] at hname; cases hname
  | fifo q => rw [hp] at hname; cases hname
  | reuse r hand mx => rw [hp] at hname; cases hname
  | srrip rrpv => rw [hp] at hname; cases hname
  | nru ref hand => rw [hp] at hname; cases hname
  | generation nodes hand => rw [hp] at hname; cases hname
  | drrip rrpv brrip => rw [hp] at hname; cases hname
  | minw => rw [hp] at hname; cases hname
/-- Witness for C26 (amended): the DIP table of two slots filled with keys 10 and 20;
`insert 30` with `POLICY_BIMODAL` leaves the counter at 1 and key 30, in slot 0, at the
head of the recency list. -/
theorem C26_dip_insertion_amended_witness :
    (table_t.new .dip 2 0).run [.insert 10 1 .POLICY_HIGH, .insert 20 2 .POLICY_HIGH] =
      some table_t.dipFull ∧
    ∃ e t1 d1 bip1 l1, table_t.dipFull.insert 30 3 .POLICY_BIMODAL = some (e, t1) ∧
      t1.policy = .dip d1 bip1 ∧ bip1._hand = 1 ∧
      dlist.walk d1._nodes 2 d1._head = l1 ∧ l1.head? = some 0 ∧
      map_find t1._keyIndex 30 = some 0 := by
  refine ⟨by rfl, ?_⟩
  obtain ⟨e, t1, d, bip, d1, bip1, i, l1, hins, hp, hp1, hb1, -, -, hfind, hwalk, -, -,
      hbim, -⟩ :=
    C26_dip_insertion_amended 2 0 [.insert 10 1 .POLICY_HIGH, .insert 20 2 .POLICY_HIGH]
      table_t.dipFull 30 3 .POLICY_BIMODAL (by decide) (by decide) (by rfl) (by rfl)
  have hs : (table_t.dipFull.insert 30 3 .POLICY_BIMODAL).isSome = true := by rfl
  have ht1 : t1 = (Option.get _ hs).2 := by
    rw [← Option.some_get hs] at hins
    exact (congrArg Prod.snd (Option.some.inj hins)).symm
  have hbip : bip = ⟨0, 64⟩ := by
    have e1 : table_t.dipFull.policy =
        .dip ⟨[⟨none, 0, some 1⟩, ⟨some 0, 1, none⟩], some 0, some 1⟩ ⟨0, 64⟩ := by rfl
    rw [e1] at hp
    cases hp
    rfl
  have hfree : table_t.dipFull._freeList = [] := by rfl
  have hhand : bip1._hand = 1 := by
    rw [hb1, if_pos hfree, hbip]
    rfl
  have hi : i = 0 := by
    have e2 : map_find (Option.get _ hs).2._keyIndex 30 = some 0 := by rfl
    rw [ht1, e2] at hfind
    exact (Option.some.inj hfind).symm
  refine ⟨e, t1, d1, bip1, l1, hins, hp1, hhand, hwalk 2 (Nat.le_refl _), ?_, ?_⟩
  · rw [← hi]
    exact (hbim rfl (by rw [hhand]; decide)).1
  · rw [← hi]
    exact hfind

/-- The SRRIP victim when every counter is at least 1 and some counter is exactly 1: one
ageing sweep, then the first slot that has reached 0. -/
theorem srrip_victim_after_ageing (rr : List saturating_counter)
    (N : Nat) (tbl : List entry) (j : Nat)
    (hall : ∀ x ∈ rr, 1 ≤ x._value)
    (hj : ∃ x, rr[j]? = some x ∧ x._value = 1)
    (hlt : ∀ i, i < j → ∃ x, rr[i]? = some x ∧ 2 ≤ x._value) :
    GetReplacementIndex (.srrip rr) N tbl =
      some (j, .srrip (rr.map (fun x => x.decrement))) := by
  obtain ⟨xj, hxj, hvj⟩ := hj
  have hmem : xj ∈ rr := List.mem_iff_getElem?.2 ⟨j, hxj⟩
  have hmax : 1 ≤ (rr.map (fun c => c._value)).foldr max 0 := by
    have := le_foldr_max (rr.map (fun c => c._value)) xj._value
      (List.mem_map.2 ⟨xj, hmem, rfl⟩)
    omega
  obtain ⟨f, hf⟩ : ∃ f, rrip_fuel rr = f + 2 :=
    ⟨(rr.map (fun c => c._value)).foldr max 0 - 1, by unfold rrip_fuel; omega⟩
  have h1 : rrip_scan rr = none :=
    rrip_scan_none_of rr (fun x hx => by have := hall x hx; omega)
  have h2 : rrip_scan (rr.map (fun x => x.decrement)) = some j := by
    apply rrip_scan_first
    · refine ⟨xj.decrement, by simp [hxj], ?_⟩
      simp [saturating_counter.decrement, hvj]
    · intro i hi
      obtain ⟨x, hx, hv⟩ := hlt i hi
      refine ⟨x.decrement, by simp [hx], ?_⟩
      simp only [saturating_counter.decrement]
      split
      · show x._value - 1 ≠ 0
        omega
      · omega
  simp only [GetReplacementIndex]
  rw [hf, rrip_loop, h1]
  simp only
  rw [rrip_loop, h2]
  rfl

theorem srrip_fill (N hand0 : Nat) (keys vals : Nat → Nat)
    (pins : Nat → policy_value_t) (hN0 : 0 < N)
    (hN : N < UINT32_MOD) (hinj : ∀ i j, i < N → j < N → keys i = keys j → i = j) :
    ∀ m, m ≤ N → ∃ t rr,
      (table_t.new .srrip N hand0).run
        ((List.range m).map (fun i => table_op.insert (keys i) (vals i) (pins i))) =
          some t ∧
      t.WF N ∧ t._freeList = List.range' m (N - m) ∧ t.policy = .srrip rr ∧
      (∀ i, i < m → t._table[i]? = some (entry.full i (keys i) (vals i)) ∧
        rr[i]? = some ⟨1, 7⟩) ∧
      (∀ i, m ≤ i → i < N → t._table[i]? = some entry.empty ∧ rr[i]? = some ⟨0, 7⟩) := by
  intro m
  induction m with
  | zero =>
    intro _
    refine ⟨table_t.new .srrip N hand0, List.replicate N ⟨0, 7⟩, rfl,
      table_t.WF_new .srrip N hand0 hN0 hN (fun h => by cases h), ?_, rfl, ?_, ?_⟩
    · simp [table_t.new, List.range_eq_range']
    · intro i hi; omega
    · intro i _ hi
      simp [table_t.new, List.getElem?_replicate, hi]
  | succ m ih =>
    intro hm
    obtain ⟨t, rr, hrun, hwf, hfree, hpol, hlo, hhi⟩ := ih (by omega)
    have hb := hwf.2.2.1
    have hfree' : t._freeList = m :: List.range' (m + 1) (N - (m + 1)) := by
      rw [hfree]
      have : N - m = (N - (m + 1)) + 1 := by omega
      rw [this, List.range'_succ]
    have hk : map_find t._keyIndex (keys m) = none := by
      rcases h : map_find t._keyIndex (keys m) with _ | i
      · rfl
      · exfalso
        obtain ⟨e, he, hv, hkey⟩ := (hb.key_iff (keys m) i).1 h
        have hi : i < N := hb.lt_of_get he
        by_cases him : i < m
        · rw [(hlo i him).1] at he
          cases he
          have := hinj i m hi (by omega) hkey
          omega
        · rw [(hhi i (by omega) hi).1] at he
          cases he
          cases hv
    obtain ⟨p1, hp1, _, _, hins, hwf1⟩ := table_t.insert_free hwf (vals m) (pins m) hk hfree'
    have hp1' : p1 = .srrip (rr.modify (fun c => c.set 1) m) := by
      rw [hpol] at hp1
      simp only [UpdateReplacementPolicy, Option.some.injEq] at hp1
      exact hp1.symm
    have hmlen : m < t._table.length := by rw [hb.len]; omega
    refine ⟨_, _, ?_, hwf1, rfl, hp1', ?_, ?_⟩
    · rw [List.range_succ, List.map_append, table_t.run_append, hrun]
      simp only [Option.some_bind, List.map_cons, List.map_nil, table_t.run, table_t.step,
        hins]
    · intro i hi
      by_cases him : i = m
      · subst him
        refine ⟨by simp [hmlen], ?_⟩
        rw [List.getElem?_modify, (hhi i (le_refl _) (by omega)).2]
        simp [saturating_counter.set]
      · have him' : i < m := by omega
        refine ⟨by simp [List.getElem?_set, Ne.symm him, (hlo i him').1], ?_⟩
        rw [List.getElem?_modify, (hlo i him').2]
        simp [Ne.symm him]
    · intro i hmi hi
      have him : m ≠ i := by omega
      refine ⟨by simp [List.getElem?_set, him, (hhi i (by omega) hi).1], ?_⟩
      rw [List.getElem?_modify, (hhi i (by omega) hi).2]
      simp [him]

theorem srrip_reads (N : Nat) (keys vals : Nat → Nat) (preads : Nat → policy_value_t)
    (rs : List Nat) :
    ∀ (t : table_t) (rr : List saturating_counter) (D : Nat → Prop), t.WF N →
      t._freeList = [] → t.policy = .srrip rr →
      (∀ i, i < N → t._table[i]? = some (entry.full i (keys i) (vals i))) →
      (∀ i, i < N → ∃ x, rr[i]? = some ⟨x, 7⟩ ∧ 1 ≤ x ∧ (D i → 2 ≤ x) ∧ (¬ D i → x = 1)) →
      (∀ r ∈ rs, r < N) →
      ∃ t1 rr1, t.run (rs.map (fun r => table_op.read (keys r) (preads r))) = some t1 ∧
        t1.WF N ∧ t1._freeList = [] ∧ t1.policy = .srrip rr1 ∧
        (∀ i, i < N → t1._table[i]? = some (entry.full i (keys i) (vals i))) ∧
        (∀ i, i < N → ∃ x, rr1[i]? = some ⟨x, 7⟩ ∧ 1 ≤ x ∧
          ((D i ∨ i ∈ rs) → 2 ≤ x) ∧ (¬ (D i ∨ i ∈ rs) → x = 1)) := by
  induction rs with
  | nil =>
    intro t rr D hwf hf hpol htab hrr _
    refine ⟨t, rr, rfl, hwf, hf, hpol, htab, ?_⟩
    intro i hi
    obtain ⟨x, h1, h2, h3, h4⟩ := hrr i hi
    exact ⟨x, h1, h2, fun h => h3 (by simpa using h), fun h => h4 (by simpa using h)⟩
  | cons r rs ih =>
    intro t rr D hwf hf hpol htab hrr hrs
    have hr : r < N := hrs r (List.mem_cons_self _ _)
    have hb := hwf.2.2.1
    have hk : map_find t._keyIndex (keys r) = some r :=
      (hb.key_iff (keys r) r).2 ⟨_, htab r hr, rfl, rfl⟩
    obtain ⟨p1, e, hp1, _, _, _, hread, hwf1⟩ := table_t.read_hit hwf (preads r) hk
    have hp1' : p1 = .srrip (rr.modify (fun c => c.increment) r) := by
      rw [hpol] at hp1
      simp only [UpdateReplacementPolicy, Option.some.injEq] at hp1
      exact hp1.symm
    obtain ⟨t1, rr1, hrun, h1, h2, h3, h4, h5⟩ := ih { t with policy := p1 }
      (rr.modify (fun c => c.increment) r)
      (fun i => D i ∨ i = r) hwf1 hf hp1' htab
      (by
        intro i hi
        obtain ⟨x, hx, hx1, hx2, hx3⟩ := hrr i hi
        by_cases hir : i = r
        · subst hir
          by_cases hx7 : x < 7
          · refine ⟨x + 1, ?_, by omega, fun _ => by omega, fun h => absurd (Or.inr rfl) h⟩
            rw [List.getElem?_modify, hx]
            simp [saturating_counter.increment, hx7]
          · refine ⟨x, ?_, hx1, fun _ => by omega, fun h => absurd (Or.inr rfl) h⟩
            rw [List.getElem?_modify, hx]
            simp [saturating_counter.increment, hx7]
        · refine ⟨x, ?_, hx1, ?_, ?_⟩
          · rw [List.getElem?_modify, hx]; simp [Ne.symm hir]
          · rintro (h | h)
            · exact hx2 h
            · exact absurd h hir
          · intro h; exact hx3 (fun hd => h (Or.inl hd)))
      (fun x hx => hrs x (List.mem_cons_of_mem _ hx))
    refine ⟨t1, rr1, ?_, h1, h2, h3, h4, ?_⟩
    · simp only [List.map_cons, table_t.run, table_t.step, hread, Option.some_bind]
      exact hrun
    · intro i hi
      obtain ⟨x, hx, hx1, hx2, hx3⟩ := h5 i hi
      refine ⟨x, hx, hx1, ?_, ?_⟩
      · intro h; apply hx2
        simp only [List.mem_cons] at h
        tauto
      · intro h; apply hx3
        simp only [List.mem_cons] at h
        tauto

theorem rrip_scan_zero : ∀ (l : List saturating_counter) (i : Nat),
    rrip_scan l = some i → ∃ c, l[i]? = some c ∧ c._value = 0 := by
  intro l
  induction l with
  | nil => intro i h; simp [rrip_scan] at h
  | cons c rest ih =>
    intro i h
    simp only [rrip_scan] at h
    split at h
    · rename_i hc
      cases h
      exact ⟨c, by simp, hc⟩
    · rcases hr : rrip_scan rest with _ | j
      · rw [hr] at h; cases h
      · rw [hr] at h
        simp only [Option.map_some', Option.some.injEq] at h
        subst h
        obtain ⟨c1, h1, h2⟩ := ih j hr
        exact ⟨c1, by simpa using h1, h2⟩

/-- The victim search of SRRIP and DRRIP on counters bounded by `B`: it makes `k ≤ B`
ageing sweeps, none of the states before the last has a counter at 0, and it returns a
slot whose counter is 0 after the `k` sweeps. -/
theorem rrip_loop_sweeps : ∀ (B : Nat) (rrpv : List saturating_counter), rrpv ≠ [] →
    (∀ c ∈ rrpv, c._value ≤ B) →
    ∃ k i, k ≤ B ∧
      rrip_loop (B + 1) rrpv =
        some (i, Nat.iterate (fun r => r.map (fun c => c.decrement)) k rrpv) ∧
      i < rrpv.length ∧
      (∃ c, (Nat.iterate (fun r : List saturating_counter => r.map (fun c => c.decrement))
        k rrpv)[i]? = some c ∧ c._value = 0) ∧
      ∀ j, j < k → ∀ c ∈ Nat.iterate
        (fun r : List saturating_counter => r.map (fun c => c.decrement)) j rrpv,
        c._value ≠ 0 := by
  intro B
  induction B with
  | zero =>
    intro rrpv hne hB
    rcases hs : rrip_scan rrpv with _ | i
    · exfalso
      cases rrpv with
      | nil => exact hne rfl
      | cons c rest =>
        have h0 := hB c (List.mem_cons_self _ _)
        exact rrip_scan_none _ hs c (List.mem_cons_self _ _) (by omega)
    · exact ⟨0, i, Nat.le_refl _, by simp [rrip_loop, hs], rrip_scan_lt _ _ hs,
        rrip_scan_zero _ _ hs, fun j hj => absurd hj (Nat.not_lt_zero _)⟩
  | succ B ih =>
    intro rrpv hne hB
    rcases hs : rrip_scan rrpv with _ | i
    · have hnz := rrip_scan_none _ hs
      have hne1 : rrpv.map (fun c => c.decrement) ≠ [] := by
        intro h; exact hne (List.map_eq_nil_iff.1 h)
      have hB1 : ∀ c ∈ rrpv.map (fun c => c.decrement), c._value ≤ B := by
        intro c hc
        obtain ⟨c0, hc0, rfl⟩ := List.mem_map.1 hc
        have h1 := hB c0 hc0
        have h2 := hnz c0 hc0
        simp only [saturating_counter.decrement]
        split
        · show c0._value - 1 ≤ B
          omega
        · omega
      obtain ⟨k, i, hk, hl, hi, hz, hbefore⟩ := ih _ hne1 hB1
      refine ⟨k + 1, i, by omega, ?_, by simpa using hi, ?_, ?_⟩
      · rw [rrip_loop, hs, Function.iterate_succ_apply]
        exact hl
      · rw [Function.iterate_succ_apply]
        exact hz
      · intro j hj
        cases j with
        | zero => exact hnz
        | succ j1 =>
          rw [Function.iterate_succ_apply]
          exact hbefore j1 (by omega)
    · exact ⟨0, i, Nat.zero_le _, by simp [rrip_loop, hs], rrip_scan_lt _ _ hs,
        rrip_scan_zero _ _ hs, fun j hj => absurd hj (Nat.not_lt_zero _)⟩

theorem rrip_loop_keeps (P : saturating_counter → Prop)
    (hP : ∀ c, P c → P c.decrement) :
    ∀ (fuel : Nat) (rrpv : List saturating_counter) (i : Nat)
      (rr : List saturating_counter),
      rrip_loop fuel rrpv = some (i, rr) → (∀ c ∈ rrpv, P c) → ∀ c ∈ rr, P c := by
  intro fuel
  induction fuel with
  | zero =>
    intro rrpv i rr h
    cases h
  | succ fuel ih =>
    intro rrpv i rr h hall
    rw [rrip_loop] at h
    rcases hs : rrip_scan rrpv with _ | j
    · rw [hs] at h
      apply ih _ i rr h
      intro c hc
      obtain ⟨c0, hc0, rfl⟩ := List.mem_map.1 hc
      exact hP c0 (hall c0 hc0)
    · rw [hs] at h
      cases h
      exact hall

theorem mem_modify_cases {α : Type} (f : α → α) :
    ∀ (l : List α) (i : Nat) (x : α), x ∈ l.modify f i → x ∈ l ∨ ∃ y ∈ l, x = f y := by
  intro l
  induction l with
  | nil =>
    intro i x h
    simp at h
  | cons a rest ih =>
    intro i x h
    cases i with
    | zero =>
      simp only [List.modify_zero_cons, List.mem_cons] at h
      rcases h with h | h
      · exact Or.inr ⟨a, List.mem_cons_self _ _, h⟩
      · exact Or.inl (List.mem_cons_of_mem _ h)
    | succ j =>
      simp only [List.modify_succ_cons, List.mem_cons] at h
      rcases h with h | h
      · exact Or.inl (h ▸ List.mem_cons_self _ _)
      · rcases ih j x h with h1 | ⟨y, hy, hxy⟩
        · exact Or.inl (List.mem_cons_of_mem _ h1)
        · exact Or.inr ⟨y, List.mem_cons_of_mem _ hy, hxy⟩

/-- A property of the policy members that `UpdateReplacementPolicy` and
`GetReplacementIndex` keep is kept by every call of the table interface. -/
theorem table_t.WF.step_policy {N : Nat} {t : table_t} (Q : policy_t → Prop)
    (hU : ∀ (p p1 : policy_t) (i : Nat) (op : operation) (pval : policy_value_t), Q p →
      UpdateReplacementPolicy p N i op pval = some p1 → Q p1)
    (hG : ∀ (p p1 : policy_t) (tbl : List entry) (i : Nat), Q p →
      GetReplacementIndex p N tbl = some (i, p1) → Q p1)
    (h : t.WF N) (hq : Q t.policy) (op : table_op) :
    ∃ e t1, t.step op = some (e, t1) ∧ t1.WF N ∧ Q t1.policy := by
  cases op with
  | insert k v pval =>
    rcases hk : map_find t._keyIndex k with _ | i
    · rcases hf : t._freeList with _ | ⟨i, rest⟩
      · obtain ⟨i, p1, p2, e, hg, _, hp2, _, _, _, h1, h2⟩ :=
          table_t.insert_evict h v pval hk hf
        exact ⟨_, _, h1, h2, hU _ _ _ _ _ (hG _ _ _ _ hq hg) hp2⟩
      · obtain ⟨p1, hp1, _, _, h1, h2⟩ := table_t.insert_free h v pval hk hf
        exact ⟨_, _, h1, h2, hU _ _ _ _ _ hq hp1⟩
    · obtain ⟨e, _, _, _, _, h1⟩ := table_t.insert_hit h.2.2.1 v pval hk
      exact ⟨_, _, h1, h, hq⟩
  | read k pval =>
    rcases hk : map_find t._keyIndex k with _ | i
    · exact ⟨_, _, table_t.read_miss pval hk, h, hq⟩
    · obtain ⟨p1, e, hp1, _, _, _, h1, h2⟩ := table_t.read_hit h pval hk
      exact ⟨_, _, h1, h2, hU _ _ _ _ _ hq hp1⟩
  | update k v pval =>
    rcases hk : map_find t._keyIndex k with _ | i
    · exact ⟨_, _, table_t.update_miss v pval hk, h, hq⟩
    · obtain ⟨p1, e, hp1, _, _, _, h1, h2⟩ := table_t.update_hit h v pval hk
      exact ⟨_, _, h1, h2, hU _ _ _ _ _ hq hp1⟩
  | silentupdate k pval =>
    rcases hk : map_find t._keyIndex k with _ | i
    · exact ⟨_, _, table_t.silentupdate_miss pval hk, h, hq⟩
    · obtain ⟨p1, e, hp1, _, _, _, h1, h2⟩ := table_t.silentupdate_hit h pval hk
      exact ⟨_, _, h1, h2, hU _ _ _ _ _ hq hp1⟩
  | invalidate k =>
    rcases hk : map_find t._keyIndex k with _ | i
    · exact ⟨_, _, table_t.invalidate_miss hk, h, hq⟩
    · obtain ⟨p1, e, hp1, _, _, _, _, h1, h2⟩ := table_t.invalidate_hit h hk
      exact ⟨_, _, h1, h2, hU _ _ _ _ _ hq hp1⟩

theorem table_t.WF.run_policy {N : Nat} (Q : policy_t → Prop)
    (hU : ∀ (p p1 : policy_t) (i : Nat) (op : operation) (pval : policy_value_t), Q p →
      UpdateReplacementPolicy p N i op pval = some p1 → Q p1)
    (hG : ∀ (p p1 : policy_t) (tbl : List entry) (i : Nat), Q p →
      GetReplacementIndex p N tbl = some (i, p1) → Q p1)
    (ops : List table_op) :
    ∀ {t : table_t}, t.WF N → Q t.policy →
      ∃ t1, t.run ops = some t1 ∧ t1.WF N ∧ Q t1.policy := by
  induction ops with
  | nil => intro t h hq; exact ⟨t, rfl, h, hq⟩
  | cons op ops ih =>
    intro t h hq
    obtain ⟨e, t1, h1, h2, h3⟩ := h.step_policy Q hU hG hq op
    obtain ⟨t2, h4, h5, h6⟩ := ih h2 h3
    exact ⟨t2, by simp [table_t.run, h1, h4], h5, h6⟩
theorem foldr_max_le : ∀ (l : List Nat) (B : Nat), (∀ x ∈ l, x ≤ B) → l.foldr max 0 ≤ B := by
  intro l
  induction l with
  | nil => intro B _; exact Nat.zero_le _
  | cons a rest ih =>
    intro B h
    simp only [List.foldr_cons]
    exact max_le (h a (List.mem_cons_self _ _))
      (ih B (fun x hx => h x (List.mem_cons_of_mem _ hx)))

theorem policy_t.SrripBounded.srrip_update {N : Nat} (p p1 : policy_t) (i : Nat) (op : operation)
    (pval : policy_value_t) (h : p.SrripBounded)
    (hu : UpdateReplacementPolicy p N i op pval = some p1) : p1.SrripBounded := by
  obtain ⟨rrpv, rfl, hall⟩ := h
  have key : ∀ f : saturating_counter → saturating_counter,
      (∀ c, c._max = 7 ∧ c._value ≤ 7 → (f c)._max = 7 ∧ (f c)._value ≤ 7) →
      policy_t.SrripBounded (.srrip (rrpv.modify f i)) := by
    intro f hf
    refine ⟨_, rfl, ?_⟩
    intro c hc
    rcases mem_modify_cases f rrpv i c hc with h1 | ⟨y, hy, rfl⟩
    · exact hall c h1
    · exact hf y (hall y hy)
  have hset : ∀ v, v ≤ 7 → ∀ c : saturating_counter, c._max = 7 ∧ c._value ≤ 7 →
      (c.set v)._max = 7 ∧ (c.set v)._value ≤ 7 := by
    intro v hv c hc
    exact ⟨hc.1, hv⟩
  have hinc : ∀ c : saturating_counter, c._max = 7 ∧ c._value ≤ 7 →
      c.increment._max = 7 ∧ c.increment._value ≤ 7 := by
    intro c hc
    unfold saturating_counter.increment
    split_ifs with h1
    · exact ⟨hc.1, by show c._value + 1 ≤ 7; omega⟩
    · exact hc
  cases op <;> simp only [UpdateReplacementPolicy, Option.some.injEq] at hu <;> subst hu
  · exact key _ (hset 1 (by decide))
  · exact key _ (hset 1 (by decide))
  · exact key _ hinc
  · exact key _ hinc
  · exact key _ (hset 0 (by decide))

theorem policy_t.SrripBounded.srrip_victim {N : Nat} (p p1 : policy_t) (tbl : List entry) (i : Nat)
    (h : p.SrripBounded) (hg : GetReplacementIndex p N tbl = some (i, p1)) :
    p1.SrripBounded := by
  obtain ⟨rrpv, rfl, hall⟩ := h
  simp only [GetReplacementIndex] at hg
  rcases hl : rrip_loop (rrip_fuel rrpv) rrpv with _ | ⟨j, rr⟩
  · rw [hl] at hg
    cases hg
  · rw [hl] at hg
    simp only [Option.map_some', Option.some.injEq, Prod.mk.injEq] at hg
    obtain ⟨-, rfl⟩ := hg
    refine ⟨rr, rfl, ?_⟩
    refine rrip_loop_keeps (fun c => c._max = 7 ∧ c._value ≤ 7) ?_ _ _ _ _ hl hall
    intro c hc
    unfold saturating_counter.decrement
    split_ifs
    · exact ⟨hc.1, by show c._value - 1 ≤ 7; omega⟩
    · exact hc

/-- **C25.** SRRIP victim search. (1) In every state reached from the empty SRRIP table
of capacity `N` (`1 ≤ N < 2 ^ 32`) the victim search returns: it makes `k ≤ 7` ageing
sweeps, no counter is 0 before the last of them, and the slot it returns has counter 0 in
the state it leaves. (2) Fill the table from empty by `N` inserts of distinct keys (key
`i` goes to slot `i`) and then read the keys of the slots listed in `rs`, any number of
times in any order, where `rs` holds every slot except `x`: then no slot has counter 0 (the
second alternative of the claim), the victim search makes exactly one ageing sweep, after
which the counter of slot `x` is 0, and it returns slot `x`. The priorities passed to the
inserts and reads play no part. -/
theorem C25_srrip_victim_search (N hand0 : Nat) (hN0 : 0 < N) (hN : N < UINT32_MOD) :
    (∀ (ops : List table_op) (t : table_t),
      (table_t.new .srrip N hand0).run ops = some t →
      ∃ rr k i, t.policy = .srrip rr ∧ k ≤ 7 ∧
        GetReplacementIndex t.policy t._size t._table =
          some (i, .srrip (Nat.iterate (fun r => r.map (fun c => c.decrement)) k rr)) ∧
        i < N ∧
        (∃ c, (Nat.iterate (fun r : List saturating_counter =>
          r.map (fun c => c.decrement)) k rr)[i]? = some c ∧ c._value = 0) ∧
        ∀ j, j < k → ∀ c ∈ Nat.iterate
          (fun r : List saturating_counter => r.map (fun c => c.decrement)) j rr,
          c._value ≠ 0) ∧
    (∀ (keys vals : Nat → Nat) (pins preads : Nat → policy_value_t) (rs : List Nat)
        (x : Nat),
      (∀ i j, i < N → j < N → keys i = keys j → i = j) → (∀ r ∈ rs, r < N) →
      x < N → x ∉ rs → (∀ i, i < N → i ≠ x → i ∈ rs) →
      ∃ tf t rr,
        (table_t.new .srrip N hand0).run
          ((List.range N).map (fun i => table_op.insert (keys i) (vals i) (pins i))) =
            some tf ∧
        (∀ i, i < N → tf._table[i]? = some (entry.full i (keys i) (vals i))) ∧
        tf.run (rs.map (fun r => table_op.read (keys r) (preads r))) = some t ∧
        t.policy = .srrip rr ∧ (∀ c ∈ rr, c._value ≠ 0) ∧
        GetReplacementIndex t.policy t._size t._table =
          some (x, .srrip (rr.map (fun c => c.decrement))) ∧
        ∃ c, (rr.map (fun c => c.decrement))[x]? = some c ∧ c._value = 0) := by
  constructor
  · intro ops t hrun
    obtain ⟨t1, hr, hwf, hq⟩ := table_t.WF.run_policy policy_t.SrripBounded
      (fun p p1 i op pval => policy_t.SrripBounded.srrip_update p p1 i op pval)
      (fun p p1 tbl i => policy_t.SrripBounded.srrip_victim p p1 tbl i) ops
      (table_t.WF_new .srrip N hand0 hN0 hN (by intro h; cases h))
      ⟨List.replicate N ⟨0, 7⟩, rfl, by
        intro c hc
        rw [List.eq_of_mem_replicate hc]
        exact ⟨rfl, by decide⟩⟩
    rw [hrun] at hr
    cases hr
    obtain ⟨rr, hp, hall⟩ := hq
    have hlen : rr.length = N := by
      have := hwf.2.2.2
      rw [hp] at this
      exact this
    have hne : rr ≠ [] := by
      intro h
      rw [h] at hlen
      simp at hlen
      omega
    have hmax : (rr.map (fun c => c._value)).foldr max 0 ≤ 7 := by
      apply foldr_max_le
      intro v hv
      obtain ⟨c, hc, rfl⟩ := List.mem_map.1 hv
      exact (hall c hc).2
    obtain ⟨k, i, hk, hl, hi, hz, hbefore⟩ :=
      rrip_loop_sweeps ((rr.map (fun c => c._value)).foldr max 0) rr hne
        (fun c hc => le_foldr_max _ _ (List.mem_map.2 ⟨c, hc, rfl⟩))
    refine ⟨rr, k, i, hp, hk.trans hmax, ?_, by omega, hz, hbefore⟩
    rw [hp]
    simp only [GetReplacementIndex, rrip_fuel, hl, Option.map_some']
  · intro keys vals pins preads rs x hinj hrs hx hxnot hall
    obtain ⟨tf, rr, hfill, hwf, hfree, hpol, hlo, _⟩ :=
      srrip_fill N hand0 keys vals pins hN0 hN hinj N (le_refl _)
    have hfree1 : tf._freeList = [] := by rw [hfree]; simp
    obtain ⟨t, rr1, hrun, hwf1, hf1, hpol1, htab1, hrr1⟩ :=
      srrip_reads N keys vals preads rs tf rr (fun _ => False) hwf hfree1 hpol
        (fun i hi => (hlo i hi).1)
        (fun i hi => ⟨1, (hlo i hi).2, le_refl _, fun h => h.elim, fun _ => rfl⟩) hrs
    have hlen : rr1.length = N := by
      have := hwf1.2.2.2
      rw [hpol1] at this
      exact this
    have hge : ∀ c ∈ rr1, 1 ≤ c._value := by
      intro c hc
      obtain ⟨i, hi⟩ := List.mem_iff_getElem?.1 hc
      have hiN : i < N := by
        by_contra h
        rw [List.getElem?_eq_none (by omega)] at hi
        cases hi
      obtain ⟨y, hy, hy1, _⟩ := hrr1 i hiN
      rw [hi] at hy
      cases hy
      exact hy1
    obtain ⟨y, hy, _, _, hy3⟩ := hrr1 x hx
    have hyx : y = 1 := hy3 (by simpa using hxnot)
    subst hyx
    refine ⟨tf, t, rr1, hfill, fun i hi => (hlo i hi).1, hrun, hpol1, ?_, ?_, ?_⟩
    · intro c hc
      have := hge c hc
      omega
    · rw [hpol1]
      apply srrip_victim_after_ageing
      · exact hge
      · exact ⟨_, hy, rfl⟩
      · intro i hi
        obtain ⟨z, hz, _, hz2, _⟩ := hrr1 i (by omega)
        exact ⟨_, hz, hz2 (Or.inr (hall i (by omega) (by omega)))⟩
    · refine ⟨(⟨1, 7⟩ : saturating_counter).decrement, ?_, rfl⟩
      rw [List.getElem?_map, hy]
      rfl
/-- Witness for C25: `N = 4`, keys 1 to 4, reads of the keys in slots 0, 2, 3 and 0 again;
no counter is 0, and after one ageing sweep the victim is slot 1, the slot that was not
read. -/
theorem C25_srrip_victim_search_witness :
    ∃ tf t rr,
      (table_t.new .srrip 4 0).run
        ((List.range 4).map (fun i => table_op.insert (i + 1) (10 * i) .POLICY_HIGH)) =
          some tf ∧
      (∀ i, i < 4 → tf._table[i]? = some (entry.full i (i + 1) (10 * i))) ∧
      tf.run ([0, 2, 3, 0].map (fun r => table_op.read (r + 1) .POLICY_HIGH)) = some t ∧
      t.policy = .srrip rr ∧ (∀ c ∈ rr, c._value ≠ 0) ∧
      GetReplacementIndex t.policy t._size t._table =
        some (1, .srrip (rr.map (fun c => c.decrement))) ∧
      ∃ c, (rr.map (fun c => c.decrement))[1]? = some c ∧ c._value = 0 :=
  (C25_srrip_victim_search 4 0 (by decide) (by decide)).2 (fun i => i + 1)
    (fun i => 10 * i) (fun _ => .POLICY_HIGH) (fun _ => .POLICY_HIGH) [0, 2, 3, 0] 1
    (fun i j _ _ h => by simpa using h) (by decide) (by decide) (by decide)
    (fun i hi hne => by
      have : i = 0 ∨ i = 2 ∨ i = 3 := by omega
      rcases this with h | h | h <;> simp [h])

namespace CmpMSHR

theorem foldl_top (s : CmpMSHR) : ∀ (rest : List Nat) (r : Nat),
    (rest.foldl (fun best x => if s.cycleOf x < s.cycleOf best then x else best) r) ∈
        r :: rest ∧
      ∀ x ∈ r :: rest,
        s.cycleOf (rest.foldl
          (fun best x => if s.cycleOf x < s.cycleOf best then x else best) r) ≤
          s.cycleOf x := by
  intro rest
  induction rest with
  | nil =>
    intro r
    refine ⟨List.mem_cons_self _ _, ?_⟩
    intro x hx
    simp only [List.mem_singleton] at hx
    subst hx
    exact Nat.le_refl _
  | cons a rest ih =>
    intro r
    simp only [List.foldl_cons]
    obtain ⟨h1, h2⟩ := ih (if s.cycleOf a < s.cycleOf r then a else r)
    constructor
    · rcases List.mem_cons.1 h1 with e | e
      · rw [e]
        split_ifs
        · exact List.mem_cons_of_mem _ (List.mem_cons_self _ _)
        · exact List.mem_cons_self _ _
      · exact List.mem_cons_of_mem _ (List.mem_cons_of_mem _ e)
    · intro x hx
      have hb := h2 _ (List.mem_cons_self _ _)
      rcases List.mem_cons.1 hx with e | e
      · subst e
        refine hb.trans ?_
        split_ifs with hlt
        · exact Nat.le_of_lt hlt
        · exact Nat.le_refl _
      · rcases List.mem_cons.1 e with e1 | e1
        · subst e1
          refine hb.trans ?_
          split_ifs with hlt
          · exact Nat.le_refl _
          · exact Nat.le_of_not_lt hlt
        · exact h2 x (List.mem_cons_of_mem _ e1)

theorem queue_top_some (s : CmpMSHR) (q : List Nat) (r : Nat) (h : s.queue_top q = some r) :
    r ∈ q ∧ ∀ x ∈ q, s.cycleOf r ≤ s.cycleOf x := by
  cases q with
  | nil => cases h
  | cons a rest =>
    simp only [queue_top, Option.some.injEq] at h
    subst h
    exact foldl_top s rest a

theorem queue_top_none (s : CmpMSHR) (q : List Nat) (h : s.queue_top q = none) : q = [] := by
  cases q with
  | nil => rfl
  | cons a rest => cases h

theorem skipStalling_spec (s : CmpMSHR) : ∀ (fuel : Nat) (queue : List Nat) (request : Nat)
    (stalled : List Nat), queue.length < fuel → request ∈ queue →
    (∀ x ∈ queue, s.cycleOf request ≤ s.cycleOf x) →
    (∀ r ∈ queue, ∃ req, s.requests[r]? = some req) →
    ∃ q1 r1 extra req1, s.skipStalling fuel queue request stalled =
        some (q1, r1, stalled ++ extra) ∧
      (q1 ++ extra).Perm queue ∧ (∀ x ∈ extra, s.isStalling x) ∧
      s.requests[r1]? = some req1 ∧
      (req1.stalling = false → r1 ∈ q1 ∧ ∀ x ∈ q1, s.cycleOf r1 ≤ s.cycleOf x) ∧
      (req1.stalling = true → q1 = []) := by
  intro fuel
  induction fuel with
  | zero =>
    intro queue request stalled h
    omega
  | succ fuel ih =>
    intro queue request stalled hlen hmem hmin hobj
    obtain ⟨req, hreq⟩ := hobj request hmem
    by_cases hst : req.stalling = true
    · have hlen1 : (queue.erase request).length < fuel := by
        rw [List.length_erase_of_mem hmem]
        have : 0 < queue.length := List.length_pos_of_mem hmem
        omega
      have hperm : (request :: queue.erase request).Perm queue :=
        (List.perm_cons_erase hmem).symm
      cases htop : s.queue_top (queue.erase request) with
      | none =>
        have hnil := queue_top_none s _ htop
        refine ⟨queue.erase request, request, [request], req, ?_, ?_, ?_, hreq, ?_, ?_⟩
        · simp only [skipStalling, hreq, if_pos hst, htop]
        · rw [hnil] at hperm ⊢
          exact hperm
        · intro x hx
          simp only [List.mem_singleton] at hx
          subst hx
          exact ⟨req, hreq, hst⟩
        · intro hf
          rw [hst] at hf
          cases hf
        · intro _
          exact hnil
      | some r1 =>
        obtain ⟨hr1, hmin1⟩ := queue_top_some s _ r1 htop
        obtain ⟨q1, r2, extra, req2, h1, h2, h3, h4, h5, h6⟩ :=
          ih (queue.erase request) r1 (stalled ++ [request]) hlen1 hr1 hmin1
            (fun r hr => hobj r (List.mem_of_mem_erase hr))
        refine ⟨q1, r2, request :: extra, req2, ?_, ?_, ?_, h4, h5, h6⟩
        · simp only [skipStalling, hreq, if_pos hst, htop]
          rw [h1, List.append_assoc]
          rfl
        · refine List.Perm.trans ?_ hperm
          refine List.Perm.trans List.perm_middle ?_
          exact List.Perm.cons _ h2
        · intro x hx
          rcases List.mem_cons.1 hx with e | e
          · subst e
            exact ⟨req, hreq, hst⟩
          · exact h3 x e
    · have hsf : req.stalling = false := by simpa using hst
      refine ⟨queue, request, [], req, ?_, by simp, ?_, hreq, ?_, ?_⟩
      · simp only [skipStalling, hreq, if_neg hst, List.append_nil]
      · intro x hx
        cases hx
      · intro _
        exact ⟨hmem, hmin⟩
      · intro h
        exact absurd h hst

end CmpMSHR

/-- **C28.** MSHR `EarliestRequest`. The queue is a list of request pointers whose `top()`
is a request of least `currentCycle`. If every queued pointer points to an object,
`EarliestRequest` returns; the state afterwards differs from the state before at most in
the order of the queue, which holds the same requests as before (as a multiset), so no
field of any request changes; it returns null exactly when every queued request is
stalling; otherwise it returns a queued request that is not stalling and whose
`currentCycle` is least among the queued requests that are not stalling. -/
theorem C28_mshr_earliest_request (s : CmpMSHR)
    (hobj : ∀ r ∈ s._queue, ∃ req, s.requests[r]? = some req) :
    ∃ res q1, s.EarliestRequest = some (res, { s with _queue := q1 }) ∧
      q1.Perm s._queue ∧
      (res = none ↔ ∀ r ∈ s._queue, s.isStalling r) ∧
      ∀ e, res = some e →
        e ∈ s._queue ∧ (∃ req, s.requests[e]? = some req ∧ req.stalling = false) ∧
        ∀ r ∈ s._queue, ¬ s.isStalling r → s.cycleOf e ≤ s.cycleOf r := by
  cases htop : s.queue_top s._queue with
  | none =>
    have hnil := CmpMSHR.queue_top_none s _ htop
    refine ⟨none, s._queue, ?_, List.Perm.refl _, ?_, ?_⟩
    · simp only [CmpMSHR.EarliestRequest, htop]
    · constructor
      · intro _ r hr
        rw [hnil] at hr
        cases hr
      · intro _
        rfl
    · intro e he
      cases he
  | some request =>
    obtain ⟨hmem, hmin⟩ := CmpMSHR.queue_top_some s _ request htop
    obtain ⟨q1, r1, extra, req1, h1, h2, h3, h4, h5, h6⟩ :=
      CmpMSHR.skipStalling_spec s (s._queue.length + 1) s._queue request []
        (Nat.lt_succ_self _) hmem hmin hobj
    refine ⟨if req1.stalling then none else some r1, q1 ++ extra, ?_, h2, ?_, ?_⟩
    · simp only [CmpMSHR.EarliestRequest, htop, h1, Option.some_bind, h4, Option.map_some',
        List.nil_append]
    · by_cases hst : req1.stalling = true
      · rw [if_pos hst]
        have hq1 := h6 hst
        constructor
        · intro _ r hr
          have : r ∈ q1 ++ extra := h2.symm.subset hr
          rw [hq1, List.nil_append] at this
          exact h3 r this
        · intro _
          rfl
      · rw [if_neg hst]
        have hsf : req1.stalling = false := by simpa using hst
        constructor
        · intro h
          cases h
        · intro hall
          exfalso
          have hr1 : r1 ∈ s._queue := h2.subset (List.mem_append_left _ (h5 hsf).1)
          obtain ⟨req, hreq, hs1⟩ := hall r1 hr1
          rw [h4] at hreq
          cases hreq
          exact hst hs1
    · intro e he
      by_cases hst : req1.stalling = true
      · rw [if_pos hst] at he
        cases he
      · rw [if_neg hst] at he
        cases he
        have hsf : req1.stalling = false := by simpa using hst
        obtain ⟨hin, hle⟩ := h5 hsf
        refine ⟨h2.subset (List.mem_append_left _ hin), ⟨req1, h4, hsf⟩, ?_⟩
        intro r hr hns
        have hr1 : r ∈ q1 ++ extra := h2.symm.subset hr
        rcases List.mem_append.1 hr1 with e1 | e1
        · exact hle r e1
        · exact absurd (h3 r e1) hns
/-- Witness for C28: of the three queued requests the earliest, request 0, is stalling;
`EarliestRequest` returns request 2 (cycle 7), not request 1 (cycle 9), and the queue holds
the same three requests afterwards. -/
theorem C28_mshr_earliest_request_witness :
    ∃ q1, CmpMSHR.threeQueued.EarliestRequest =
        some (some 2, { CmpMSHR.threeQueued with _queue := q1 }) ∧
      q1.Perm [0, 1, 2] ∧ ¬ CmpMSHR.threeQueued.isStalling 2 ∧
      CmpMSHR.threeQueued.cycleOf 2 ≤ CmpMSHR.threeQueued.cycleOf 1 := by
  obtain ⟨res, q1, h1, h2, -, h4⟩ := C28_mshr_earliest_request CmpMSHR.threeQueued (by
    intro r hr
    have hlt : r < 3 := by
      simp only [CmpMSHR.threeQueued, List.mem_cons, List.mem_singleton, List.not_mem_nil,
        or_false] at hr
      omega
    have hl : r < CmpMSHR.threeQueued.requests.length := hlt
    exact ⟨CmpMSHR.threeQueued.requests[r], List.getElem?_eq_getElem hl⟩)
  have he : CmpMSHR.threeQueued.EarliestRequest =
      some (some 2, { CmpMSHR.threeQueued with _queue := [1, 2, 0] }) := by rfl
  have h1c := h1
  rw [he] at h1c
  have hres : res = some 2 := (congrArg Prod.fst (Option.some.inj h1c)).symm
  have hns : ¬ CmpMSHR.threeQueued.isStalling 2 := by
    rintro ⟨req, hreq, hst⟩
    have e : CmpMSHR.threeQueued.requests[2]? =
        some (MemoryRequest.new .CPU 0 0 .READ 0 12296 12296 8 7) := by rfl
    rw [e] at hreq
    cases hreq
    cases hst
  refine ⟨q1, ?_, h2, hns, ?_⟩
  · rw [← hres]
    exact h1
  · have hns1 : ¬ CmpMSHR.threeQueued.isStalling 1 := by
      rintro ⟨req, hreq, hst⟩
      have e : CmpMSHR.threeQueued.requests[1]? =
          some (MemoryRequest.new .CPU 0 0 .READ 0 8200 8200 8 9) := by rfl
      rw [e] at hreq
      cases hreq
      cases hst
    exact (h4 2 hres).2.2 1 (by decide) hns1

namespace CmpDRAMCtlr

theorem chanNext_of_core {s s1 : CmpDRAMCtlr} (h : core s1 = core s) (ch : Nat) :
    s1.chanNext ch = s.chanNext ch := by
  have h1 : (core s1)._channels = (core s)._channels := by rw [h]
  have h2 : ∀ t : CmpDRAMCtlr, (core t).chanNext ch = t.chanNext ch := by
    intro t
    show ((t._channels.map chanCore)[ch]?).map (fun c => c.nextIssueCycle) = _
    rw [List.getElem?_map, Option.map_map]
    rfl
  rw [← h2 s1, ← h2 s]
  show ((core s1)._channels[ch]?).map _ = ((core s)._channels[ch]?).map _
  rw [h1]

theorem chanNext_modifyChannel (s : CmpDRAMCtlr) (ch : Nat) (f : DRAMChannel → DRAMChannel)
    (ch1 : Nat) :
    (s.modifyChannel ch f).chanNext ch1 =
      (s._channels[ch1]?).map (fun c =>
        if ch1 = ch then (f c).nextIssueCycle else c.nextIssueCycle) := by
  show ((s._channels.modify f ch)[ch1]?).map (fun c => c.nextIssueCycle) = _
  rw [List.getElem?_modify]
  rcases s._channels[ch1]? with _ | c
  · rfl
  · by_cases e : ch1 = ch
    · simp [e]
    · have e1 : ¬ ch = ch1 := fun h => e h.symm
      simp [e, e1]

theorem chan_get_modify (s : CmpDRAMCtlr) (ch : Nat) (f : DRAMChannel → DRAMChannel)
    (ch1 : Nat) :
    (s.modifyChannel ch f)._channels[ch1]? =
      (s._channels[ch1]?).map (fun c => if ch1 = ch then f c else c) := by
  show (s._channels.modify f ch)[ch1]? = _
  rw [List.getElem?_modify]
  rcases s._channels[ch1]? with _ | c
  · rfl
  · by_cases e : ch1 = ch
    · simp [e]
    · have e1 : ¬ ch = ch1 := fun h => e h.symm
      simp [e, e1]

theorem scheduleChannel_next (s : CmpDRAMCtlr) (cmd : DRAMCommand) (c c1 : DRAMChannel)
    (h : c1.nextIssueCycle = c.nextIssueCycle) :
    (s.scheduleChannel cmd c1).nextIssueCycle = (s.scheduleChannel cmd c).nextIssueCycle := by
  cases cmd <;> simp only [scheduleChannel, h]

/-- The `nextIssueCycle` of the channels after a call of `ScheduleRequest`, where `fb` is
the update of the bank, which leaves `nextIssueCycle` of the channel as it is. -/
theorem chanNext_after (s : CmpDRAMCtlr) (ch ch1 : Nat) (cmd : DRAMCommand)
    (fb fc : DRAMChannel → DRAMChannel)
    (_hfb : ∀ c, (fb c).nextIssueCycle = c.nextIssueCycle)
    (hfc : ∀ c, (fc (fb c)).nextIssueCycle = (s.scheduleChannel cmd c).nextIssueCycle)
    (iss : List DRAMIssue) :
    (({ s.modifyChannel ch fb with issued := iss }).modifyChannel ch fc).chanNext ch1 =
      (s._channels[ch1]?).map (fun c =>
        if ch1 = ch then (s.scheduleChannel cmd c).nextIssueCycle
        else c.nextIssueCycle) := by
  rw [chanNext_modifyChannel]
  show ((s.modifyChannel ch fb)._channels[ch1]?).map _ = _
  rw [chan_get_modify]
  rcases s._channels[ch1]? with _ | c
  · rfl
  · by_cases e : ch1 = ch
    · simp [e, hfc]
    · simp [e]

theorem ScheduleRequest_chanNext {s s1 : CmpDRAMCtlr} {ch rk bk : Nat} {cmd : DRAMCommand}
    {r : Nat} (h : s.ScheduleRequest ch rk bk cmd r = some s1) (ch1 : Nat) :
    s1.chanNext ch1 = (s._channels[ch1]?).map (fun c =>
      if ch1 = ch then (s.scheduleChannel cmd c).nextIssueCycle else c.nextIssueCycle) := by
  unfold ScheduleRequest at h
  rcases hr : s.requests[r]? with _ | req
  · simp [hr] at h
  rcases hc : s._channels[ch]? with _ | chan
  · simp [hr, hc] at h
  rcases hk : s.getRank ch rk with _ | rank
  · simp [hr, hc, hk] at h
  rcases hb : s.getBank ch rk bk with _ | bank
  · simp [hr, hc, hk, hb] at h
  simp only [hr, hc, hk, hb] at h
  by_cases ha : cmd = .CMD_ACT
  · subst ha
    simp only at h
    by_cases he : rank.lastActivates = []
    · simp [he] at h
    rw [if_neg he] at h
    injection h with h
    subst h
    exact chanNext_after s ch ch1 .CMD_ACT
      (fun c => { c with ranks := c.ranks.modify (fun r => { r with banks := r.banks.modify (s.scheduleBank .CMD_ACT req.dramRowID chan.mode) bk }) rk })
      (fun c => { c with ranks := c.ranks.modify s.scheduleRank rk })
      (fun c => rfl) (fun c => rfl)
      (s.issued ++ [DRAMIssue.mk ch rk bk .CMD_ACT s._currentCycle])
  · have key : ∀ cmd1 : DRAMCommand, cmd1 ≠ .CMD_ACT →
        (({ s.modifyChannel ch (fun c => { c with ranks := c.ranks.modify (fun r => { r with banks := r.banks.modify (s.scheduleBank cmd1 req.dramRowID chan.mode) bk }) rk }) with issued := s.issued ++ [DRAMIssue.mk ch rk bk cmd1 s._currentCycle] }).modifyChannel ch (s.scheduleChannel cmd1)).chanNext ch1 =
          (s._channels[ch1]?).map (fun c =>
            if ch1 = ch then (s.scheduleChannel cmd1 c).nextIssueCycle
            else c.nextIssueCycle) := by
      intro cmd1 _
      exact chanNext_after s ch ch1 cmd1
        (fun c => { c with ranks := c.ranks.modify (fun r => { r with banks := r.banks.modify (s.scheduleBank cmd1 req.dramRowID chan.mode) bk }) rk })
        (s.scheduleChannel cmd1) (fun c => rfl)
        (fun c => scheduleChannel_next s cmd1 c _ rfl)
        (s.issued ++ [DRAMIssue.mk ch rk bk cmd1 s._currentCycle])
    cases cmd
    · exact absurd rfl ha
    all_goals
      simp only [Option.some.injEq] at h
      subst h
      exact key _ ha

end CmpDRAMCtlr

namespace CmpDRAMCtlr

theorem scheduleChannel_get_ge (s : CmpDRAMCtlr) (cmd c2 : DRAMCommand) (c : DRAMChannel) :
    c.nextIssueCycle.get c2 ≤ (s.scheduleChannel cmd c).nextIssueCycle.get c2 := by
  cases cmd <;> simp only [scheduleChannel, CmdArray.get_updateMax] <;>
    first
    | exact Nat.le_refl _
    | (split_ifs <;> omega)

theorem scheduleChannel_covers (s : CmpDRAMCtlr) (cmd c2 : DRAMCommand) (c : DRAMChannel)
    (hp : s.ParamsOK)
    (hq : s._tBL < UINT32_MOD ∧ s._tRTW < UINT32_MOD ∧ s._tWTR < UINT32_MOD)
    (hc : s._currentCycle + 4 * UINT32_MOD ≤ UINT64_MOD)
    (h1 : isColumn cmd) (h2 : isColumn c2) :
    s._currentCycle + s.busInterval cmd c2 ≤
      (s.scheduleChannel cmd c).nextIssueCycle.get c2 + s.busSlack cmd c2 := by
  obtain ⟨-, -, -, p4, p5, p6, -⟩ := hp
  obtain ⟨q1, q2, q3⟩ := hq
  have e : ∀ a b : Nat, a + b < UINT64_MOD → add64 a b = a + b :=
    fun a b h => Nat.mod_eq_of_lt h
  have h32 : UINT32_MOD = 4294967296 := by decide
  have h64 : UINT64_MOD = 18446744073709551616 := by decide
  rcases h1 with h1 | h1 <;> rcases h2 with h2 | h2 <;> subst h1 <;> subst h2 <;>
    simp only [scheduleChannel, CmdArray.get_updateMax, busInterval, busSlack, if_true,
      reduceCtorEq, if_false]
  · rw [e _ _ (by omega)]
    omega
  · rw [e s._currentCycle s._tCL (by omega), e (s._currentCycle + s._tCL) s._tBL (by omega),
      e _ _ (by omega)]
    rw [h32] at p4 p5 q1 q2
    rw [h64, h32] at hc
    rw [h64]
    omega
  · rw [e s._currentCycle s._tCWL (by omega), e (s._currentCycle + s._tCWL) s._tBL (by omega),
      e _ _ (by omega)]
    omega
  · rw [e _ _ (by omega)]
    omega

theorem busInterval_of_core {s s1 : CmpDRAMCtlr} (h : core s1 = core s) :
    s1.busInterval = s.busInterval := by
  have h1 : (core s1).busInterval = (core s).busInterval := by rw [h]
  exact h1

theorem busSlack_of_core {s s1 : CmpDRAMCtlr} (h : core s1 = core s) :
    s1.busSlack = s.busSlack := by
  have h1 : (core s1).busSlack = (core s).busSlack := by rw [h]
  exact h1

theorem busParams_of_core {s s1 : CmpDRAMCtlr} (h : core s1 = core s) :
    s1.busParams = s.busParams := by
  have h1 : (core s1).busParams = (core s).busParams := by rw [h]
  exact h1

theorem BusInv.bus_of_core {B : Nat} {s s1 : CmpDRAMCtlr} (h : core s1 = core s)
    (hi : BusInv B s) : BusInv B s1 := by
  have hiss : s1.issued = s.issued := congrArg (fun x => x.issued) h
  have h1 : s1._tBL = s._tBL := congrArg (fun x => x._tBL) h
  have h2 : s1._tRTW = s._tRTW := congrArg (fun x => x._tRTW) h
  have h3 : s1._tWTR = s._tWTR := congrArg (fun x => x._tWTR) h
  refine ⟨hi.base.timing_of_core h, ?_, ?_, ?_⟩
  · rw [h1, h2, h3]
    exact hi.params
  · intro e he hcol a ha c2 hc2
    rw [hiss] at he
    rw [chanNext_of_core h] at ha
    rw [busInterval_of_core h, busSlack_of_core h]
    exact hi.covers e he hcol a ha c2 hc2
  · rw [hiss, busInterval_of_core h, busSlack_of_core h]
    exact hi.timing

theorem BusInv.bus_tick {B : Nat} {s : CmpDRAMCtlr} (hB : B + 3 * UINT32_MOD ≤ UINT64_MOD)
    (hc : s._currentCycle ≤ B) (hi : BusInv B s) :
    BusInv B { s with _currentCycle := add64 s._currentCycle s._memProcessorRatio } :=
  ⟨hi.base.timing_tick hB hc, hi.params, hi.covers, hi.timing⟩

theorem BusInv.bus_issue {B : Nat} {s s1 : CmpDRAMCtlr} {ch rk bk : Nat} {cmd : DRAMCommand}
    {r : Nat} (hB : B + 5 * UINT32_MOD ≤ UINT64_MOD) (hg : Guard s ch rk bk cmd r)
    (h : s.ScheduleRequest ch rk bk cmd r = some s1) (hi : BusInv B s) :
    BusInv B s1 := by
  have hB3 : B + 3 * UINT32_MOD ≤ UINT64_MOD := by omega
  have hbase := hi.base.timing_issue hB3 hg h
  have hnext := ScheduleRequest_chanNext h
  obtain ⟨req, chan, hr, hc, hs1, -, -⟩ := ScheduleRequest_spec h
  obtain ⟨req1, chan1, rank1, bank1, -, -, -, hch1, -, -, -, -, hcol⟩ := hg
  have hr10 : s._memProcessorRatio < UINT32_MOD := hi.base.params.2.2.2.2.2.2.2.2.2
  have hclk := hi.base.clock
  have hbi : s1.busInterval = s.busInterval := by rw [hs1]; rfl
  have hbs : s1.busSlack = s.busSlack := by rw [hs1]; rfl
  have hiss : s1.issued = s.issued ++ [DRAMIssue.mk ch rk bk cmd s._currentCycle] := by
    rw [hs1]
  refine ⟨hbase, ?_, ?_, ?_⟩
  · have e1 : s1._tBL = s._tBL := by rw [hs1]
    have e2 : s1._tRTW = s._tRTW := by rw [hs1]
    have e3 : s1._tWTR = s._tWTR := by rw [hs1]
    rw [e1, e2, e3]
    exact hi.params
  · intro e he hecol a ha c2 hc2
    rw [hiss, List.mem_append, List.mem_singleton] at he
    rw [hnext] at ha
    rw [hbi, hbs]
    rcases hold : s._channels[e.channel]? with _ | c0
    · rw [hold] at ha
      cases ha
    rw [hold] at ha
    simp only [Option.map_some', Option.some.injEq] at ha
    rcases he with he | he
    · have h0 := hi.covers e he hecol c0.nextIssueCycle
        (by show (s._channels[e.channel]?).map _ = _; rw [hold]; rfl) c2 hc2
      by_cases hsame : e.channel = ch
      · rw [if_pos hsame] at ha
        subst ha
        have := scheduleChannel_get_ge s cmd c2 c0
        omega
      · rw [if_neg hsame] at ha
        subst ha
        exact h0
    · subst he
      simp only [if_true] at ha
      subst ha
      exact scheduleChannel_covers s cmd c2 c0 hi.base.params hi.params (by omega) hecol hc2
  · rw [hiss, hbi, hbs, List.pairwise_append]
    refine ⟨hi.timing, List.pairwise_singleton _ _, ?_⟩
    intro e he e2 he2 h1 h2 h3
    rw [List.mem_singleton] at he2
    subst he2
    simp only at h1 h3 ⊢
    have hcn : s.chanNext e.channel = some chan1.nextIssueCycle := by
      show (s._channels[e.channel]?).map _ = _
      rw [h1, hch1]
      rfl
    have := hi.covers e he h2 _ hcn cmd h3
    have := (hcol h3).2.2.1
    omega

theorem BusInv.bus_step {B : Nat} {s s1 : CmpDRAMCtlr} (hB : B + 5 * UINT32_MOD ≤ UINT64_MOD)
    (h : Step B s s1) (hi : BusInv B s) : BusInv B s1 := by
  cases h with
  | same hc _ => exact hi.bus_of_core hc
  | tick hc he =>
    subst he
    exact hi.bus_tick (by omega) hc
  | issue ch rk bk cmd r hg hs => exact hi.bus_issue hB hg hs

theorem BusInv.bus_start (B : Nat) (p : CmpDRAMCtlr) (hcur : p._currentCycle = 0)
    (hiss : p.issued = []) (hratio : p._memProcessorRatio < UINT32_MOD) :
    BusInv B p.StartSimulation := by
  have hm : ∀ x : Nat, x % UINT32_MOD < UINT32_MOD := fun x => Nat.mod_lt _ (by decide)
  refine ⟨TimingInv.timing_start B p hcur hiss hratio, ⟨hm _, hm _, hm _⟩, ?_, ?_⟩
  · intro e he
    have : e ∈ p.issued := he
    rw [hiss] at this
    cases this
  · show List.Pairwise _ p.issued
    rw [hiss]
    exact List.Pairwise.nil

theorem Step.busParams_eq {B : Nat} {s s1 : CmpDRAMCtlr} (h : Step B s s1) :
    s1.busParams = s.busParams := by
  cases h with
  | same hc _ => exact busParams_of_core hc
  | tick _ he => rw [he]; rfl
  | issue ch rk bk cmd r _ hs =>
    obtain ⟨_, _, _, _, hs1, _⟩ := ScheduleRequest_spec hs
    rw [hs1]
    rfl

end CmpDRAMCtlr

/-- **C29.** Channel bus turnaround. Start a controller with `StartSimulation` (controller
cycle 0, no command issued yet, `_memProcessorRatio` a `uint32`) and let any sequence of
events happen to it: calls of `AddRequest`, advances of the simulator cycle (up to
`2 ^ 63`, so that no `uint64` cycle wraps) each followed by `ProcessPendingRequests`, and
arbitrary changes of the request objects by the other components, with any behaviour
`next` of the rest of the hierarchy. If the run returns the state `s`, then in the record
`s.issued` of the calls of `ScheduleRequest`, in call order, for any two commands `e1`,
later `e2`, on the same channel (any rank, any bank): a READ followed by a WRITE has
`e2.cycle + tCWL ≥ e1.cycle + tCL + tBL + tRTW`, which is
`e2.cycle ≥ e1.cycle + tCL + tBL + tRTW - tCWL` without a subtraction; a WRITE followed by
a READ has `e2.cycle ≥ e1.cycle + tCWL + tBL + tWTR`; two READs and two WRITEs are at
least `tCCD` apart. The parameters are those of the started controller, each the product
with `_memProcessorRatio` as a `uint32`. -/
theorem C29_channel_bus_turnaround (next : Hierarchy) (fuel : Nat) (p s : CmpDRAMCtlr)
    (es : List DRAMEvent) (hcur : p._currentCycle = 0) (hiss : p.issued = [])
    (hratio : p._memProcessorRatio < UINT32_MOD) (hsim : p.simulatorCycle ≤ 2 ^ 63)
    (hnow : ∀ now, DRAMEvent.advance now ∈ es → now ≤ 2 ^ 63)
    (hrun : p.StartSimulation.run next fuel es = some s) :
    s.issued.Pairwise (fun e1 e2 =>
        e1.channel = e2.channel →
          (e1.cmd = .CMD_READ → e2.cmd = .CMD_WRITE →
            e1.cycle + s._tCL + s._tBL + s._tRTW ≤ e2.cycle + s._tCWL ∧
            e1.cycle + s._tCL + s._tBL + s._tRTW - s._tCWL ≤ e2.cycle) ∧
          (e1.cmd = .CMD_WRITE → e2.cmd = .CMD_READ →
            e1.cycle + s._tCWL + s._tBL + s._tWTR ≤ e2.cycle) ∧
          (e1.cmd = .CMD_READ → e2.cmd = .CMD_READ → e1.cycle + s._tCCD ≤ e2.cycle) ∧
          (e1.cmd = .CMD_WRITE → e2.cmd = .CMD_WRITE → e1.cycle + s._tCCD ≤ e2.cycle)) ∧
      s.busParams = p.StartSimulation.busParams ∧
      s.busParams = [s._tCL, s._tBL, s._tRTW, s._tCWL, s._tWTR, s._tCCD] ∧
      p.StartSimulation.busParams =
        [(p._tCL * p._memProcessorRatio) % UINT32_MOD,
         (p._tBL * p._memProcessorRatio) % UINT32_MOD,
         (p._tRTW * p._memProcessorRatio) % UINT32_MOD,
         (p._tCWL * p._memProcessorRatio) % UINT32_MOD,
         (p._tWTR * p._memProcessorRatio) % UINT32_MOD,
         (p._tCCD * p._memProcessorRatio) % UINT32_MOD] := by
  have hB : 2 ^ 63 + 5 * UINT32_MOD ≤ UINT64_MOD := by decide
  have h := CmpDRAMCtlr.run_invariant
    (fun s => CmpDRAMCtlr.BusInv (2 ^ 63) s ∧ s.busParams = p.StartSimulation.busParams)
    (fun s s1 hc hp =>
      ⟨hp.1.bus_of_core hc, (CmpDRAMCtlr.busParams_of_core hc).trans hp.2⟩)
    (fun s s1 hst hp => ⟨hp.1.bus_step hB hst, hst.busParams_eq.trans hp.2⟩)
    next fuel es p.StartSimulation s hnow hrun
    ⟨CmpDRAMCtlr.BusInv.bus_start _ p hcur hiss hratio, rfl⟩ hsim
  refine ⟨?_, h.1.2, rfl, rfl⟩
  refine h.1.1.timing.imp ?_
  intro e1 e2 hp hch
  refine ⟨?_, ?_, ?_, ?_⟩
  · intro h1 h2
    have := hp hch (Or.inl h1) (Or.inr h2)
    rw [h1, h2] at this
    simp only [CmpDRAMCtlr.busInterval, CmpDRAMCtlr.busSlack] at this
    omega
  · intro h1 h2
    have := hp hch (Or.inr h1) (Or.inl h2)
    rw [h1, h2] at this
    simp only [CmpDRAMCtlr.busInterval, CmpDRAMCtlr.busSlack] at this
    omega
  · intro h1 h2
    have := hp hch (Or.inl h1) (Or.inl h2)
    rw [h1, h2] at this
    simpa only [CmpDRAMCtlr.busInterval, CmpDRAMCtlr.busSlack] using this
  · intro h1 h2
    have := hp hch (Or.inr h1) (Or.inr h2)
    rw [h1, h2] at this
    simpa only [CmpDRAMCtlr.busInterval, CmpDRAMCtlr.busSlack] using this

/-- Witness for C29: the default controller with one write buffer, a read, a writeback and
a second read of the same row. The scaled parameters are `tCL = 40`, `tBL = 16`,
`tRTW = 8`, `tCWL = 28`, `tWTR = 24`, `tCCD = 16`; the READ at 40 is followed by the WRITE
at `76 = 40 + 40 + 16 + 8 - 28`, and the WRITE by the READ at `144 = 76 + 28 + 16 + 24`. -/
theorem C29_channel_bus_turnaround_witness :
    ∃ s, CmpDRAMCtlr.oneWriteBuffer.StartSimulation.run Hierarchy.idle 120
        CmpDRAMCtlr.readWriteRead = some s ∧
      s.issued = [⟨0, 0, 0, .CMD_ACT, 0⟩, ⟨0, 0, 0, .CMD_READ, 40⟩, ⟨0, 0, 0, .CMD_WRITE, 76⟩,
        ⟨0, 0, 0, .CMD_READ, 144⟩] ∧
      s.busParams = [40, 16, 8, 28, 24, 16] ∧
      s.issued.Pairwise (fun e1 e2 =>
        e1.channel = e2.channel →
          (e1.cmd = .CMD_READ → e2.cmd = .CMD_WRITE →
            e1.cycle + s._tCL + s._tBL + s._tRTW ≤ e2.cycle + s._tCWL ∧
            e1.cycle + s._tCL + s._tBL + s._tRTW - s._tCWL ≤ e2.cycle) ∧
          (e1.cmd = .CMD_WRITE → e2.cmd = .CMD_READ →
            e1.cycle + s._tCWL + s._tBL + s._tWTR ≤ e2.cycle) ∧
          (e1.cmd = .CMD_READ → e2.cmd = .CMD_READ → e1.cycle + s._tCCD ≤ e2.cycle) ∧
          (e1.cmd = .CMD_WRITE → e2.cmd = .CMD_WRITE → e1.cycle + s._tCCD ≤ e2.cycle)) := by
  have hs : (CmpDRAMCtlr.oneWriteBuffer.StartSimulation.run Hierarchy.idle 120
      CmpDRAMCtlr.readWriteRead).isSome = true := by rfl
  have h := C29_channel_bus_turnaround Hierarchy.idle 120 CmpDRAMCtlr.oneWriteBuffer _
    CmpDRAMCtlr.readWriteRead rfl rfl (by simp [CmpDRAMCtlr.oneWriteBuffer, CmpDRAMCtlr.new, UINT32_MOD])
    (Nat.zero_le _)
    (by
      intro now h
      simp only [CmpDRAMCtlr.readWriteRead, List.mem_cons, List.mem_singleton, reduceCtorEq,
        DRAMEvent.advance.injEq, false_or, List.not_mem_nil, or_false] at h
      rcases h with h | h | h <;> subst h <;> decide)
    (Option.some_get hs).symm
  refine ⟨_, (Option.some_get hs).symm, by rfl, ?_, h.1⟩
  rw [h.2.1]
  rfl

theorem drrip_insert_low (c : saturating_counter) (brrip : cyclic_pointer) :
    drrip_insert c brrip .POLICY_LOW = drrip_insert c brrip .POLICY_BIMODAL := by
  unfold drrip_insert
  split_ifs <;> rfl

theorem drrip_place_low (p : policy_t) (hp : p.name = .drrip) (size index : Nat)
    (op : operation) (hop : op = .T_INSERT ∨ op = .T_REPLACE) :
    UpdateReplacementPolicy p size index op .POLICY_LOW =
      UpdateReplacementPolicy p size index op .POLICY_BIMODAL := by
  cases p with
  | drrip rrpv brrip =>
    have e : (fun c => drrip_insert c brrip .POLICY_LOW) =
        (fun c => drrip_insert c brrip .POLICY_BIMODAL) :=
      funext (fun c => drrip_insert_low c brrip)
    rcases hop with h | h <;> subst h <;> simp only [UpdateReplacementPolicy, e]
  | lru _ => cases hp
  | fifo _ => cases hp
  | reuse _ _ _ => cases hp
  | srrip _ => cases hp
  | nru _ _ => cases hp
  | generation _ _ => cases hp
  | dip _ _ => cases hp
  | minw => cases hp

/-- **C39.** DRRIP treats Low like Bimodal on insertion. For a DRRIP table `t` in any
state, `insert` with `POLICY_LOW` returns exactly what `insert` with `POLICY_BIMODAL`
returns (the same entry and the same table, policy state included, or both fail), and so
does `UpdateReplacementPolicy` for `TABLE_INSERT` and `TABLE_REPLACE` on any slot. The
counter of the slot keeps its maximum and gets the value 0 when the BRRIP counter, which
has 67 states in a table made by the constructor, is not 0 and the value 1 when it is 0;
with `POLICY_HIGH` it gets the value 1. The other counters and the BRRIP counter are left
as they are. -/
theorem C39_drrip_low_is_bimodal (t : table_t) (rrpv : List saturating_counter)
    (brrip : cyclic_pointer) (hp : t.policy = .drrip rrpv brrip) :
    (∀ k v, t.insert k v .POLICY_LOW = t.insert k v .POLICY_BIMODAL) ∧
    (∀ (index : Nat) (op : operation), op = .T_INSERT ∨ op = .T_REPLACE →
      UpdateReplacementPolicy t.policy t._size index op .POLICY_LOW =
        UpdateReplacementPolicy t.policy t._size index op .POLICY_BIMODAL ∧
      (∀ pval, ∃ rr1, UpdateReplacementPolicy t.policy t._size index op pval =
          some (.drrip rr1 brrip) ∧ rr1.length = rrpv.length ∧
        (∀ j, j ≠ index → rr1[j]? = rrpv[j]?) ∧
        ∀ c, rrpv[index]? = some c →
          rr1[index]? = some ⟨
            (match pval with
             | .POLICY_HIGH => 1
             | _ => if brrip._hand ≠ 0 then 0 else 1), c._max⟩)) ∧
    (policy_t.new .drrip t._size 0 =
      .drrip (List.replicate t._size ⟨0, 7⟩) ⟨0, 67⟩) := by
  have hn : t.policy.name = .drrip := by rw [hp]; rfl
  refine ⟨?_, ?_, rfl⟩
  · intro k v
    unfold table_t.insert
    by_cases hs : t.SearchForKey k ≠ t._size
    · rw [if_pos hs, if_pos hs]
    rw [if_neg hs, if_neg hs]
    have hfp : t.GetFreeEntry.2.policy = t.policy := by
      unfold table_t.GetFreeEntry
      cases t._freeList <;> rfl
    by_cases hi : t.GetFreeEntry.1 ≠ t.GetFreeEntry.2._size
    · simp only [if_pos hi]
      rw [drrip_place_low _ (hfp ▸ hn) _ _ _ (Or.inl rfl)]
    · simp only [if_neg hi]
      rcases hg : GetReplacementIndex t.GetFreeEntry.2.policy t.GetFreeEntry.2._size
        t.GetFreeEntry.2._table with _ | r
      · rfl
      · obtain ⟨i, p1⟩ := r
        have hn1 : p1.name = .drrip := by
          rw [victim_name hg, hfp]
          exact hn
        simp only [Option.some_bind]
        rw [drrip_place_low _ hn1 _ _ _ (Or.inr rfl)]
  · intro index op hop
    refine ⟨drrip_place_low _ hn _ _ _ hop, ?_⟩
    intro pval
    rw [hp]
    refine ⟨rrpv.modify (fun c => drrip_insert c brrip pval) index, ?_, ?_, ?_, ?_⟩
    · rcases hop with h | h <;> subst h <;> rfl
    · exact List.length_modify _ _ _
    · intro j hj
      rw [List.getElem?_modify]
      have e : ¬ index = j := fun h => hj h.symm
      simp only [e, if_false]
      cases rrpv[j]? <;> rfl
    · intro c hc
      rw [List.getElem?_modify, hc]
      cases pval <;>
        simp only [if_true, Option.map_eq_map, Option.map_some', drrip_insert,
          saturating_counter.set] <;>
        split_ifs <;> rfl

/-- Witness for C39: the DRRIP table of two slots filled with keys 10 and 20; the BRRIP
counter is 0 and the victim search of the next insert makes it 1, so key 30 gets RRPV 0
with `POLICY_LOW` as with `POLICY_BIMODAL`. -/
theorem C39_drrip_low_is_bimodal_witness :
    ∃ t e t1, (table_t.new .drrip 2 0).run
        [.insert 10 1 .POLICY_HIGH, .insert 20 2 .POLICY_HIGH] = some t ∧
      t.insert 30 3 .POLICY_LOW = some (e, t1) ∧
      t.insert 30 3 .POLICY_BIMODAL = some (e, t1) ∧
      t1.policy = .drrip [⟨0, 7⟩, ⟨0, 7⟩] ⟨1, 67⟩ := by
  have hs : ((table_t.new .drrip 2 0).run
      [.insert 10 1 .POLICY_HIGH, .insert 20 2 .POLICY_HIGH]).isSome = true := by rfl
  have h2 : ((Option.get _ hs).insert 30 3 .POLICY_LOW).isSome = true := by rfl
  have h := C39_drrip_low_is_bimodal (Option.get _ hs) [⟨1, 7⟩, ⟨1, 7⟩] ⟨0, 67⟩ (by rfl)
  exact ⟨Option.get _ hs, (Option.get _ h2).1, (Option.get _ h2).2,
    (Option.some_get hs).symm, (Option.some_get h2).symm,
    (h.1 30 3).symm.trans (Option.some_get h2).symm, by rfl⟩

namespace bloom_filter_t

theorem mapM_some_of_forall {α β : Type} (f : α → Option β) :
    ∀ (l : List α), (∀ a ∈ l, ∃ b, f a = some b) →
      ∃ r, l.mapM f = some r ∧ r.length = l.length ∧ ∀ b ∈ r, ∃ a ∈ l, f a = some b := by
  intro l
  induction l with
  | nil =>
    intro _
    exact ⟨[], rfl, rfl, fun b hb => by cases hb⟩
  | cons a rest ih =>
    intro h
    obtain ⟨b, hb⟩ := h a (List.mem_cons_self _ _)
    obtain ⟨r, hr, hlen, hmem⟩ := ih (fun x hx => h x (List.mem_cons_of_mem _ hx))
    refine ⟨b :: r, ?_, by simp [hlen], ?_⟩
    · rw [List.mapM_cons, hb, hr]
      rfl
    · intro y hy
      rcases List.mem_cons.1 hy with e | e
      · subst e
        exact ⟨a, List.mem_cons_self _ _, hb⟩
      · obtain ⟨x, hx, hfx⟩ := hmem y e
        exact ⟨x, List.mem_cons_of_mem _ hx, hfx⟩

theorem index_lt (v L : Nat) (hL : L ≤ 34) :
    (v % UINT64_MOD) % 2 ^ 34 / 2 ^ (34 - L) < 2 ^ L := by
  rw [Nat.div_lt_iff_lt_mul (Nat.pos_pow_of_pos _ (by decide))]
  have h1 : (v % UINT64_MOD) % 2 ^ 34 < 2 ^ 34 := Nat.mod_lt _ (by decide)
  have h2 : 2 ^ L * 2 ^ (34 - L) = 2 ^ 34 := by
    rw [← pow_add]
    congr 1
    omega
  rw [h2]
  exact h1

theorem Sized.indices {L : Nat} {b : bloom_filter_t} (h : b.Sized L) (hL : L ≤ 34)
    (x : Nat) :
    ∃ idx, b.compute_indices x = some idx ∧ idx.length = b._numHashFunctions ∧
      ∀ i ∈ idx, i < 2 ^ b._logSize := by
  obtain ⟨h1, h2, h3⟩ := h
  unfold compute_indices
  rw [if_pos ⟨by rw [h1]; decide, by rw [h1]; omega⟩]
  obtain ⟨r, hr, hlen, hmem⟩ := mapM_some_of_forall
    (fun i => (b._hashOdds[i]?).map (fun odd =>
        ((x * odd) % UINT64_MOD) % 2 ^ b._maxBitPosition /
          2 ^ (b._maxBitPosition - b._logSize)))
    (List.range b._numHashFunctions)
    (by
      intro i hi
      rw [List.mem_range, ← h3] at hi
      show ∃ v, (b._hashOdds[i]?).map _ = some v
      rw [List.getElem?_eq_getElem hi]
      exact ⟨_, rfl⟩)
  refine ⟨r, hr, by rw [hlen, List.length_range], ?_⟩
  intro i hi
  obtain ⟨a, _, ha⟩ := hmem i hi
  simp only [Option.map_eq_some'] at ha
  obtain ⟨odd, _, ho⟩ := ha
  rw [← ho, h1]
  exact index_lt _ _ (by omega)

theorem mem_foldl_add (idx : List Nat) :
    ∀ (f : List Nat), (∀ i ∈ f, i ∈ idx.foldl (fun f i => if i ∈ f then f else f ++ [i]) f) ∧
      ∀ i ∈ idx, i ∈ idx.foldl (fun f i => if i ∈ f then f else f ++ [i]) f := by
  induction idx with
  | nil =>
    intro f
    exact ⟨fun i hi => hi, fun i hi => by cases hi⟩
  | cons a rest ih =>
    intro f
    have hsub : ∀ i ∈ f, i ∈ (if a ∈ f then f else f ++ [a]) := by
      intro i hi
      split_ifs
      · exact hi
      · exact List.mem_append_left _ hi
    have ha : a ∈ (if a ∈ f then f else f ++ [a]) := by
      split_ifs with h
      · exact h
      · simp
    obtain ⟨h1, h2⟩ := ih (if a ∈ f then f else f ++ [a])
    refine ⟨fun i hi => h1 i (hsub i hi), ?_⟩
    intro i hi
    rcases List.mem_cons.1 hi with e | e
    · subst e
      exact h1 _ ha
    · exact h2 i e

theorem allSet_true (filter : List Nat) :
    ∀ idx : List Nat, (∀ i ∈ idx, i < MAX_BITS ∧ i ∈ filter) → allSet filter idx = some true := by
  intro idx
  induction idx with
  | nil => intro _; rfl
  | cons a rest ih =>
    intro h
    obtain ⟨h1, h2⟩ := h a (List.mem_cons_self _ _)
    simp only [allSet, if_pos h1, if_pos h2]
    exact ih (fun i hi => h i (List.mem_cons_of_mem _ hi))

theorem allSet_total (filter : List Nat) :
    ∀ idx : List Nat, (∀ i ∈ idx, i < MAX_BITS) → ∃ r, allSet filter idx = some r := by
  intro idx
  induction idx with
  | nil => intro _; exact ⟨true, rfl⟩
  | cons a rest ih =>
    intro h
    simp only [allSet, if_pos (h a (List.mem_cons_self _ _))]
    split_ifs
    · exact ih (fun i hi => h i (List.mem_cons_of_mem _ hi))
    · exact ⟨false, rfl⟩

theorem pow_le_max {L : Nat} (hL : L ≤ 18) : 2 ^ L ≤ MAX_BITS := by
  have : 2 ^ L ≤ 2 ^ 18 := Nat.pow_le_pow_right (by decide) hL
  exact this

/-- What `insert` does to a sized filter. -/
theorem Sized.insert_spec {b : bloom_filter_t} (h : b.Sized 18) (x : Nat) :
    ∃ b1 idx, b.insert x = some b1 ∧ b.compute_indices x = some idx ∧ b1.Sized 18 ∧
      b1._hashOdds = b._hashOdds ∧ b1._logSize = b._logSize ∧
      b1._numHashFunctions = b._numHashFunctions ∧
      (∀ i ∈ b._filter, i ∈ b1._filter) ∧ (∀ i ∈ idx, i ∈ b1._filter) := by
  obtain ⟨idx, hidx, -, hlt⟩ := h.indices (by decide) x
  have hall : idx.all (fun i => decide (i < MAX_BITS)) = true := by
    rw [List.all_eq_true]
    intro i hi
    exact decide_eq_true (Nat.lt_of_lt_of_le (hlt i hi) (pow_le_max h.2.1))
  obtain ⟨m1, m2⟩ := mem_foldl_add idx b._filter
  refine ⟨{ b with _filter := idx.foldl (fun f i => if i ∈ f then f else f ++ [i]) b._filter, _numElements := (b._numElements + 1) % UINT32_MOD }, idx, ?_, hidx, h, rfl, rfl, rfl, m1, m2⟩
  unfold insert
  rw [hidx]
  simp only [Option.some_bind, hall, if_true]

/-- What `test` does to a sized filter. -/
theorem Sized.test_spec {b : bloom_filter_t} (h : b.Sized 18) (x : Nat) (ex : Bool) :
    ∃ r b1 idx, b.test x ex = some (r, b1) ∧ b.compute_indices x = some idx ∧
      allSet b._filter idx = some r ∧ b1.Sized 18 ∧
      b1._hashOdds = b._hashOdds ∧ b1._logSize = b._logSize ∧
      b1._numHashFunctions = b._numHashFunctions ∧ b1._filter = b._filter := by
  obtain ⟨idx, hidx, -, hlt⟩ := h.indices (by decide) x
  obtain ⟨r, hr⟩ := allSet_total b._filter idx
    (fun i hi => Nat.lt_of_lt_of_le (hlt i hi) (pow_le_max h.2.1))
  refine ⟨r, { b with _tests := (b._tests + 1) % UINT64_MOD, _falsePositives := if r && !ex then (b._falsePositives + 1) % UINT64_MOD else b._falsePositives }, idx, ?_, hidx, hr, h, rfl, rfl, rfl, rfl⟩
  unfold test
  rw [hidx]
  simp only [Option.some_bind, hr, Option.map_some']

theorem compute_indices_congr {b b1 : bloom_filter_t} (h1 : b1._hashOdds = b._hashOdds)
    (h2 : b1._logSize = b._logSize) (h3 : b1._numHashFunctions = b._numHashFunctions)
    (h4 : b1._maxBitPosition = b._maxBitPosition) (x : Nat) :
    b1.compute_indices x = b.compute_indices x := by
  unfold compute_indices
  rw [h1, h2, h3, h4]

/-- A run of `insert` and `test` calls on a sized filter returns, keeps the hash functions
and clears no bit. -/
theorem Sized.run_spec : ∀ (ops : List bf_op) (b : bloom_filter_t), b.Sized 18 →
    ∃ b1, b.run ops = some b1 ∧ b1.Sized 18 ∧ b1._hashOdds = b._hashOdds ∧
      b1._logSize = b._logSize ∧ b1._numHashFunctions = b._numHashFunctions ∧
      (∀ i ∈ b._filter, i ∈ b1._filter) ∧
      ((∀ op ∈ ops, ∃ e ex, op = bf_op.test e ex) → b1._filter = b._filter) := by
  intro ops
  induction ops with
  | nil =>
    intro b h
    exact ⟨b, rfl, h, rfl, rfl, rfl, fun i hi => hi, fun _ => rfl⟩
  | cons op ops ih =>
    intro b h
    cases op with
    | insert e =>
      obtain ⟨b1, idx, h1, -, h2, h3, h4, h5, h6, -⟩ := h.insert_spec e
      obtain ⟨b2, g1, g2, g3, g4, g5, g6, -⟩ := ih b1 h2
      refine ⟨b2, ?_, g2, g3.trans h3, g4.trans h4, g5.trans h5,
        fun i hi => g6 i (h6 i hi), ?_⟩
      · simp only [run, h1, Option.some_bind, g1]
      · intro hall
        obtain ⟨e1, ex, he⟩ := hall _ (List.mem_cons_self _ _)
        cases he
    | test e ex =>
      obtain ⟨r, b1, idx, h1, -, -, h2, h3, h4, h5, h6⟩ := h.test_spec e ex
      obtain ⟨b2, g1, g2, g3, g4, g5, g6, g7⟩ := ih b1 h2
      refine ⟨b2, ?_, g2, g3.trans h3, g4.trans h4, g5.trans h5, ?_, ?_⟩
      · simp only [run, h1, Option.some_bind, g1]
      · intro i hi
        exact g6 i (h6 ▸ hi)
      · intro hall
        rw [g7 (fun op hop => hall op (List.mem_cons_of_mem _ hop)), h6]

end bloom_filter_t

/-- **C40.** Bloom filter has no false negatives. Take a flat bloom filter as `initialize`
leaves it (`_maxBitPosition = 34`, one multiplier per hash function, odd or not) with
`_logSize ≤ 18`, in any state of its bit array. (1) `compute_indices(x)` returns one
index per hash function, each below `2 ^ _logSize` and so below the `262144` bits of the
array. (2) `insert(x)` returns, every following sequence of `insert` and `test` calls
returns, and a `test(x)` after it returns true. (3) After `clear()` and any sequence of
`test` calls, `test(y)` returns false for every `y` when at least one hash function is
configured. -/
theorem C40_bloom_no_false_negatives (b : bloom_filter_t)
    (hmax : b._maxBitPosition = 34) (hlog : b._logSize ≤ 18)
    (hodds : b._hashOdds.length = b._numHashFunctions) :
    (∀ x, ∃ idx, b.compute_indices x = some idx ∧ idx.length = b._numHashFunctions ∧
      ∀ i ∈ idx, i < 2 ^ b._logSize ∧ i < MAX_BITS) ∧
    (∀ (x : Nat) (ops : List bf_op) (ex : Bool), ∃ b1 b2 b3,
      b.insert x = some b1 ∧ b1.run ops = some b2 ∧ b2.test x ex = some (true, b3)) ∧
    (0 < b._numHashFunctions →
      ∀ (ts : List bf_op), (∀ op ∈ ts, ∃ e ex, op = bf_op.test e ex) →
      ∀ (y : Nat) (ex : Bool), ∃ b2 b3,
        b.clear.run ts = some b2 ∧ b2.test y ex = some (false, b3)) := by
  have hs : b.Sized 18 := ⟨hmax, hlog, hodds⟩
  refine ⟨?_, ?_, ?_⟩
  · intro x
    obtain ⟨idx, h1, h2, h3⟩ := hs.indices (by decide) x
    exact ⟨idx, h1, h2, fun i hi =>
      ⟨h3 i hi, Nat.lt_of_lt_of_le (h3 i hi) (bloom_filter_t.pow_le_max hlog)⟩⟩
  · intro x ops ex
    obtain ⟨b1, idx, h1, hc, h2, h3, h4, h5, -, h7⟩ := hs.insert_spec x
    obtain ⟨b2, g1, g2, g3, g4, g5, g6, -⟩ := bloom_filter_t.Sized.run_spec ops b1 h2
    obtain ⟨r, b3, idx2, t1, t2, t3, -⟩ := g2.test_spec x ex
    have hci : b2.compute_indices x = b.compute_indices x :=
      bloom_filter_t.compute_indices_congr (g3.trans h3) (g4.trans h4) (g5.trans h5)
        (g2.1.trans hmax.symm) x
    rw [hci, hc] at t2
    cases t2
    obtain ⟨idx3, k1, -, k3⟩ := hs.indices (by decide) x
    rw [hc] at k1
    cases k1
    have htrue := bloom_filter_t.allSet_true b2._filter idx (fun i hi =>
      ⟨Nat.lt_of_lt_of_le (k3 i hi) (bloom_filter_t.pow_le_max hlog), g6 i (h7 i hi)⟩)
    rw [htrue] at t3
    cases t3
    exact ⟨b1, b2, b3, h1, g1, t1⟩
  · intro hn ts hts y ex
    have hsc : b.clear.Sized 18 := hs
    obtain ⟨b2, g1, g2, g3, g4, g5, -, g7⟩ := bloom_filter_t.Sized.run_spec ts b.clear hsc
    obtain ⟨r, b3, idx, t1, t2, t3, -⟩ := g2.test_spec y ex
    obtain ⟨idx2, k1, k2, -⟩ := g2.indices (by decide) y
    rw [t2] at k1
    cases k1
    have hf : b2._filter = [] := g7 hts
    rw [hf] at t3
    have hr : r = false := by
      cases idx with
      | nil =>
        rw [g5] at k2
        have : b.clear._numHashFunctions = b._numHashFunctions := rfl
        simp only [List.length_nil] at k2
        omega
      | cons a rest =>
        simp only [bloom_filter_t.allSet, List.not_mem_nil, if_false] at t3
        split_ifs at t3
        · exact (Option.some.inj t3).symm
    subst hr
    exact ⟨b2, b3, g1, t1⟩

/-- Witness for C40: a filter of 16 bits with the multipliers 3 and 5; after `insert(7)`,
`insert(9)` and a `test(1)`, `test(7)` returns true. -/
theorem C40_bloom_no_false_negatives_witness :
    ∃ b1 b2 b3, bloom_filter_t.twoHashes.insert 7 = some b1 ∧
      b1.run [.insert 9, .test 1 false] = some b2 ∧
      b2.test 7 true = some (true, b3) :=
  (C40_bloom_no_false_negatives bloom_filter_t.twoHashes rfl (by decide) rfl).2.1 7
    [.insert 9, .test 1 false] true

namespace victim_tag_store_t

theorem Occupancy.occ_cleared {N : Nat} {dc : Bool} {s : victim_tag_store_t}
    (h : s.Occupancy N dc) : s.cleared.Occupancy N dc :=
  ⟨h.numBlocks, h.ideal, h.segmented, h.decoupleClear, h.remove, rfl, List.nodup_nil, rfl,
    Nat.zero_le _⟩

/-- The last part of `insert`, entered in the state `s0` that the clearing part leaves. -/
theorem occ_finish (N : Nat) (dc : Bool) (s0 : victim_tag_store_t) (tag : Nat)
    (h0 : s0.Occupancy N dc)
    (hroom : s0._fifo.length + 1 ≤ (if dc then (2 * N) % UINT32_MOD else N))
    (hN : N < UINT32_MOD) (hnot : tag ∉ s0._fifo) :
    (∀ s1, ((if s0._useBloomFilter then s0._bf.insert tag else some s0._bf).map (fun bf =>
        { s0 with _bf := bf, _index := set_insert s0._index tag, _fifo := s0._fifo ++ [tag],
                  _numCurrentBlocks := (s0._numCurrentBlocks + 1) % UINT32_MOD })) = some s1 →
      s1.Occupancy N dc ∧ s1._useBloomFilter = s0._useBloomFilter ∧
        s1._noClear = s0._noClear ∧ s1._fifo = s0._fifo ++ [tag]) ∧
    ((s0._useBloomFilter = true → s0._bf.Sized 18) →
      ∃ s1, ((if s0._useBloomFilter then s0._bf.insert tag else some s0._bf).map (fun bf =>
        { s0 with _bf := bf, _index := set_insert s0._index tag, _fifo := s0._fifo ++ [tag],
                  _numCurrentBlocks := (s0._numCurrentBlocks + 1) % UINT32_MOD })) = some s1 ∧
        (s1._useBloomFilter = true → s1._bf.Sized 18)) := by
  have hlt : s0._fifo.length + 1 < UINT32_MOD := by
    have hm : (2 * N) % UINT32_MOD < UINT32_MOD := Nat.mod_lt _ (by decide)
    cases dc
    · simp only [Bool.false_eq_true, if_false] at hroom
      omega
    · simp only [if_true] at hroom
      omega
  constructor
  · intro s1 h
    simp only [Option.map_eq_some'] at h
    obtain ⟨bf, -, rfl⟩ := h
    refine ⟨⟨h0.numBlocks, h0.ideal, h0.segmented, h0.decoupleClear, h0.remove, ?_, ?_, ?_, ?_⟩,
      rfl, rfl, rfl⟩
    · show set_insert s0._index tag = s0._fifo ++ [tag]
      rw [h0.index, set_insert_new hnot]
    · exact nodup_snoc h0.nodup hnot
    · show (s0._numCurrentBlocks + 1) % UINT32_MOD = (s0._fifo ++ [tag]).length
      rw [h0.count, Nat.mod_eq_of_lt hlt, List.length_append, List.length_singleton]
    · show (s0._fifo ++ [tag]).length ≤ _
      rw [List.length_append, List.length_singleton]
      exact hroom
  · intro hq
    by_cases hu : s0._useBloomFilter = true
    · obtain ⟨b1, idx, h1, -, h2, -⟩ := (hq hu).insert_spec tag
      rw [if_pos hu, h1]
      exact ⟨_, rfl, fun _ => h2⟩
    · rw [if_neg hu]
      exact ⟨_, rfl, fun h => absurd h hu⟩

/-- One branch of `insert`: the call comes down to the last part entered in `s0`. -/
theorem occ_branch {N : Nat} {dc : Bool} (s s0 : victim_tag_store_t) (tag : Nat)
    (hX : s.insert tag =
      (if s0._useBloomFilter then s0._bf.insert tag else some s0._bf).map (fun bf =>
        { s0 with _bf := bf, _index := set_insert s0._index tag, _fifo := s0._fifo ++ [tag],
                  _numCurrentBlocks := (s0._numCurrentBlocks + 1) % UINT32_MOD }))
    (h0 : s0.Occupancy N dc)
    (hroom : s0._fifo.length + 1 ≤ (if dc then (2 * N) % UINT32_MOD else N))
    (hN : N < UINT32_MOD) (hnot : tag ∉ s0._fifo) (hsub : s0._fifo.Sublist s._fifo)
    (hubf : s0._useBloomFilter = s._useBloomFilter) (hnc : s0._noClear = s._noClear)
    (hbf : s0._bf = s._bf ∨ s0._bf = s._bf.clear) :
    (∀ s1, s.insert tag = some s1 →
      s1.Occupancy N dc ∧ s1._useBloomFilter = s._useBloomFilter ∧
        s1._noClear = s._noClear ∧
        (s1._fifo = s._fifo ∨ ∃ pre, pre.Sublist s._fifo ∧ s1._fifo = pre ++ [tag])) ∧
    ((s._useBloomFilter = true → s._bf.Sized 18) →
      ∃ s1, s.insert tag = some s1 ∧ (s1._useBloomFilter = true → s1._bf.Sized 18)) := by
  obtain ⟨f1, f2⟩ := occ_finish N dc s0 tag h0 hroom hN hnot
  rw [hX]
  constructor
  · intro s1 h1
    obtain ⟨g1, g2, g3, g4⟩ := f1 s1 h1
    exact ⟨g1, g2.trans hubf, g3.trans hnc, Or.inr ⟨_, hsub, g4⟩⟩
  · intro hq
    apply f2
    intro hu
    rw [hubf] at hu
    rcases hbf with e | e
    · rw [e]
      exact hq hu
    · rw [e]
      exact hq hu

theorem Occupancy.occ_insert {N : Nat} {dc : Bool} {s : victim_tag_store_t}
    (h : s.Occupancy N dc) (hN1 : 1 ≤ N) (hN : N < UINT32_MOD)
    (hT : dc = true → N ≠ 2 ^ 31) (tag : Nat) :
    (∀ s1, s.insert tag = some s1 →
      s1.Occupancy N dc ∧ s1._useBloomFilter = s._useBloomFilter ∧
        s1._noClear = s._noClear ∧
        (s1._fifo = s._fifo ∨ ∃ pre, pre.Sublist s._fifo ∧ s1._fifo = pre ++ [tag])) ∧
    ((s._useBloomFilter = true → s._bf.Sized 18) →
      ∃ s1, s.insert tag = some s1 ∧ (s1._useBloomFilter = true → s1._bf.Sized 18)) := by
  have hmod : UINT32_MOD = 4294967296 := rfl
  have hN0 : ¬ s._numBlocks = 0 := by rw [h.numBlocks]; omega
  have hseg : ¬ s._segmented = true := by rw [h.segmented]; decide
  by_cases hmem : tag ∈ s._index
  · have hX : s.insert tag = some s := by
      unfold insert
      rw [if_neg hN0, if_pos hmem]
    rw [hX]
    constructor
    · intro s1 h1
      cases h1
      exact ⟨h, rfl, rfl, Or.inl rfl⟩
    · intro hq
      exact ⟨s, rfl, hq⟩
  have hnot : tag ∉ s._fifo := by rw [← h.index]; exact hmem
  have hT1 : dc = true → 1 ≤ (2 * N) % UINT32_MOD := by
    intro hd
    have := hT hd
    rw [hmod]
    omega
  have hroom0 : 0 + 1 ≤ (if dc then (2 * N) % UINT32_MOD else N) := by
    cases dc
    · simpa using hN1
    · simpa using hT1 rfl
  by_cases hfull : ¬ s._decoupleClear = true ∧ s._numCurrentBlocks = s._numBlocks
  · by_cases hnc : s._noClear = true
    · -- the oldest tag is discarded
      have hlen : s._fifo.length = N := by rw [← h.count, hfull.2, h.numBlocks]
      rcases hf : s._fifo with _ | ⟨last, rest⟩
      · rw [hf] at hlen
        simp only [List.length_nil] at hlen
        omega
      rw [← hf]
      have hnd := h.nodup
      rw [hf] at hnd hlen hnot
      have hdc : dc = false := by
        rw [← h.decoupleClear]
        exact Bool.eq_false_iff.2 hfull.1
      have hcnt : (s._numCurrentBlocks + UINT32_MOD - 1) % UINT32_MOD = rest.length := by
        rw [h.count, hf, hmod]
        simp only [List.length_cons] at hlen ⊢
        omega
      refine occ_branch s ({ s with _fifo := rest, _remove := [], _index := s._index.erase last, _numCurrentBlocks := (s._numCurrentBlocks + UINT32_MOD - 1) % UINT32_MOD }) tag ?_ ?_ ?_ hN ?_ ?_ rfl rfl (Or.inl rfl)
      · unfold insert
        rw [if_neg hN0, if_neg hmem, if_neg hseg]
        simp only [if_pos hfull, if_pos hnc, hf, h.remove, evictOldest, List.not_mem_nil,
          if_false, Option.map_some', Option.some_bind]
      · refine ⟨h.numBlocks, h.ideal, h.segmented, h.decoupleClear, rfl, ?_,
          (List.nodup_cons.1 hnd).2, hcnt, ?_⟩
        · show s._index.erase last = rest
          rw [h.index, hf, List.erase_cons_head]
        · show rest.length ≤ _
          rw [hdc]
          simp only [Bool.false_eq_true, if_false]
          simp only [List.length_cons] at hlen
          omega
      · show rest.length + 1 ≤ _
        rw [hdc]
        simp only [Bool.false_eq_true, if_false]
        simp only [List.length_cons] at hlen
        omega
      · exact fun hh => hnot (List.mem_cons_of_mem _ hh)
      · show rest.Sublist s._fifo
        rw [hf]
        exact List.sublist_cons_self _ _
    · -- everything is discarded
      refine occ_branch s s.cleared tag ?_ h.occ_cleared hroom0 hN (List.not_mem_nil _)
        (List.nil_sublist _) rfl rfl (Or.inr rfl)
      unfold insert
      rw [if_neg hN0, if_neg hmem, if_neg hseg]
      simp only [if_pos hfull, if_neg hnc, Option.some_bind]
  · by_cases hc : s._numCurrentBlocks = (2 * s._numBlocks) % UINT32_MOD
    · refine occ_branch s s.cleared tag ?_ h.occ_cleared hroom0 hN (List.not_mem_nil _)
        (List.nil_sublist _) rfl rfl (Or.inr rfl)
      unfold insert
      rw [if_neg hN0, if_neg hmem, if_neg hseg]
      simp only [if_neg hfull, if_pos hc, Option.some_bind]
    · refine occ_branch s s tag ?_ h ?_ hN hnot (List.Sublist.refl _) rfl rfl (Or.inl rfl)
      · unfold insert
        rw [if_neg hN0, if_neg hmem, if_neg hseg]
        simp only [if_neg hfull, if_neg hc, Option.some_bind]
      · have hb := h.bound
        rw [h.count, h.numBlocks] at hc
        cases dc
        · simp only [Bool.false_eq_true, if_false] at hb ⊢
          have hd : ¬ s._decoupleClear = true := by rw [h.decoupleClear]; decide
          have : ¬ s._numCurrentBlocks = s._numBlocks := fun e => hfull ⟨hd, e⟩
          rw [h.count, h.numBlocks] at this
          omega
        · simp only [if_true] at hb ⊢
          omega

theorem Occupancy.occ_test {N : Nat} {dc : Bool} {s : victim_tag_store_t}
    (h : s.Occupancy N dc) (tag : Nat) :
    (∀ r s1, s.test tag = some (r, s1) →
      s1.Occupancy N dc ∧ s1._useBloomFilter = s._useBloomFilter ∧
        s1._noClear = s._noClear ∧ (s1._fifo = s._fifo ∨ s1._fifo = [])) ∧
    ((s._useBloomFilter = true → s._bf.Sized 18) →
      ∃ r s1, s.test tag = some (r, s1) ∧ (s1._useBloomFilter = true → s1._bf.Sized 18)) := by
  have hseg : ¬ s._segmented = true := by rw [h.segmented]; decide
  have hid : ¬ s._ideal = true := by rw [h.ideal]; decide
  by_cases hN0 : s._numBlocks = 0
  · have hX : s.test tag = some (false, s) := by
      unfold test
      rw [if_pos hN0]
    rw [hX]
    exact ⟨fun r s1 h1 => by cases h1; exact ⟨h, rfl, rfl, Or.inl rfl⟩,
      fun hq => ⟨_, _, rfl, hq⟩⟩
  by_cases hmem : tag ∈ s._index
  · have hX : s.test tag =
        (if s._useBloomFilter then s._bf.test tag true else some (true, s._bf)).map (fun r =>
          (r.1,
            if s._decoupleClear ∧
                (100 * ((s._numHits + 1) % UINT32_MOD)) % UINT32_MOD =
                  (75 * s._numBlocks) % UINT32_MOD then
              { ({ s with _bf := r.2, _numHits := (s._numHits + 1) % UINT32_MOD } : victim_tag_store_t).cleared with _numHits := 0 }
            else { s with _bf := r.2, _numHits := (s._numHits + 1) % UINT32_MOD })) := by
      unfold test
      rw [if_neg hN0, if_neg hseg, if_pos hmem]
      simp only [if_neg hid]
    rw [hX]
    have key : ∀ (r : Bool × bloom_filter_t),
        (if s._decoupleClear ∧
                (100 * ((s._numHits + 1) % UINT32_MOD)) % UINT32_MOD =
                  (75 * s._numBlocks) % UINT32_MOD then
              { ({ s with _bf := r.2, _numHits := (s._numHits + 1) % UINT32_MOD } : victim_tag_store_t).cleared with _numHits := 0 }
            else { s with _bf := r.2, _numHits := (s._numHits + 1) % UINT32_MOD }).Occupancy N dc ∧
        (if s._decoupleClear ∧
                (100 * ((s._numHits + 1) % UINT32_MOD)) % UINT32_MOD =
                  (75 * s._numBlocks) % UINT32_MOD then
              { ({ s with _bf := r.2, _numHits := (s._numHits + 1) % UINT32_MOD } : victim_tag_store_t).cleared with _numHits := 0 }
            else { s with _bf := r.2, _numHits := (s._numHits + 1) % UINT32_MOD })._useBloomFilter = s._useBloomFilter ∧
        (if s._decoupleClear ∧
                (100 * ((s._numHits + 1) % UINT32_MOD)) % UINT32_MOD =
                  (75 * s._numBlocks) % UINT32_MOD then
              { ({ s with _bf := r.2, _numHits := (s._numHits + 1) % UINT32_MOD } : victim_tag_store_t).cleared with _numHits := 0 }
            else { s with _bf := r.2, _numHits := (s._numHits + 1) % UINT32_MOD })._noClear = s._noClear ∧
        ((if s._decoupleClear ∧
                (100 * ((s._numHits + 1) % UINT32_MOD)) % UINT32_MOD =
                  (75 * s._numBlocks) % UINT32_MOD then
              { ({ s with _bf := r.2, _numHits := (s._numHits + 1) % UINT32_MOD } : victim_tag_store_t).cleared with _numHits := 0 }
            else { s with _bf := r.2, _numHits := (s._numHits + 1) % UINT32_MOD })._fifo = s._fifo ∨
         (if s._decoupleClear ∧
                (100 * ((s._numHits + 1) % UINT32_MOD)) % UINT32_MOD =
                  (75 * s._numBlocks) % UINT32_MOD then
              { ({ s with _bf := r.2, _numHits := (s._numHits + 1) % UINT32_MOD } : victim_tag_store_t).cleared with _numHits := 0 }
            else { s with _bf := r.2, _numHits := (s._numHits + 1) % UINT32_MOD })._fifo = []) ∧
        (r.2.Sized 18 →
          (if s._decoupleClear ∧
                (100 * ((s._numHits + 1) % UINT32_MOD)) % UINT32_MOD =
                  (75 * s._numBlocks) % UINT32_MOD then
              { ({ s with _bf := r.2, _numHits := (s._numHits + 1) % UINT32_MOD } : victim_tag_store_t).cleared with _numHits := 0 }
            else { s with _bf := r.2, _numHits := (s._numHits + 1) % UINT32_MOD })._bf.Sized 18) := by
      intro r
      split_ifs
      · exact ⟨⟨h.numBlocks, h.ideal, h.segmented, h.decoupleClear, h.remove, rfl,
          List.nodup_nil, rfl, Nat.zero_le _⟩, rfl, rfl, Or.inr rfl, fun hs => hs⟩
      · exact ⟨⟨h.numBlocks, h.ideal, h.segmented, h.decoupleClear, h.remove, h.index,
          h.nodup, h.count, h.bound⟩, rfl, rfl, Or.inl rfl, fun hs => hs⟩
    constructor
    · intro r s1 h1
      simp only [Option.map_eq_some', Prod.mk.injEq] at h1
      obtain ⟨x, -, rfl, rfl⟩ := h1
      obtain ⟨k1, k2, k3, k4, -⟩ := key x
      exact ⟨k1, k2, k3, k4⟩
    · intro hq
      by_cases hu : s._useBloomFilter = true
      · obtain ⟨r, b1, idx, t1, -, -, t4, -⟩ := (hq hu).test_spec tag true
        rw [if_pos hu, t1]
        refine ⟨_, _, rfl, fun _ => ?_⟩
        exact (key (r, b1)).2.2.2.2 t4
      · rw [if_neg hu]
        refine ⟨_, _, rfl, fun hu1 => ?_⟩
        rw [(key (true, s._bf)).2.1] at hu1
        exact absurd hu1 hu
  · by_cases hu : s._useBloomFilter = true
    · have hX : s.test tag = (s._bf.test tag false).map (fun r => (r.1, { s with _bf := r.2 })) := by
        unfold test
        rw [if_neg hN0, if_neg hseg, if_neg hmem, if_pos hu]
      rw [hX]
      constructor
      · intro r s1 h1
        simp only [Option.map_eq_some', Prod.mk.injEq] at h1
        obtain ⟨x, -, rfl, rfl⟩ := h1
        exact ⟨⟨h.numBlocks, h.ideal, h.segmented, h.decoupleClear, h.remove, h.index,
          h.nodup, h.count, h.bound⟩, rfl, rfl, Or.inl rfl⟩
      · intro hq
        obtain ⟨r, b1, idx, t1, -, -, t4, -⟩ := (hq hu).test_spec tag false
        rw [t1]
        exact ⟨_, _, rfl, fun _ => t4⟩
    · have hX : s.test tag = some (false, s) := by
        unfold test
        rw [if_neg hN0, if_neg hseg, if_neg hmem, if_neg hu]
      rw [hX]
      exact ⟨fun r s1 h1 => by cases h1; exact ⟨h, rfl, rfl, Or.inl rfl⟩,
        fun hq => ⟨_, _, rfl, hq⟩⟩

end victim_tag_store_t

namespace victim_tag_store_t

theorem Occupancy.occ_run {N : Nat} {dc : Bool} (hN1 : 1 ≤ N) (hN : N < UINT32_MOD)
    (hT : dc = true → N ≠ 2 ^ 31) :
    ∀ (ops : List vts_op) (s : victim_tag_store_t) (pre : List Nat),
      s.Occupancy N dc → s._fifo.Sublist pre →
      (∀ rs s1, s.run ops = some (rs, s1) →
        s1.Occupancy N dc ∧ s1._fifo.Sublist (pre ++ ops.filterMap vts_op.inserted)) ∧
      ((s._useBloomFilter = true → s._bf.Sized 18) → ∃ rs s1, s.run ops = some (rs, s1)) := by
  intro ops
  induction ops with
  | nil =>
    intro s pre h hsub
    refine ⟨?_, fun _ => ⟨_, _, rfl⟩⟩
    intro rs s1 h1
    simp only [run, Option.some.injEq, Prod.mk.injEq] at h1
    obtain ⟨-, rfl⟩ := h1
    simpa using ⟨h, hsub⟩
  | cons op ops ih =>
    intro s pre h hsub
    cases op with
    | insert tag =>
      obtain ⟨f1, f2⟩ := h.occ_insert hN1 hN hT tag
      have hpre : (pre ++ (vts_op.insert tag :: ops).filterMap vts_op.inserted) =
          (pre ++ [tag]) ++ ops.filterMap vts_op.inserted := by
        simp [List.filterMap_cons, vts_op.inserted]
      constructor
      · intro rs s1 h1
        simp only [run, Option.bind_eq_some] at h1
        obtain ⟨s2, h2, h3⟩ := h1
        obtain ⟨g1, -, -, g4⟩ := f1 s2 h2
        have hs2 : s2._fifo.Sublist (pre ++ [tag]) := by
          rcases g4 with e | ⟨p, hp, e⟩
          · rw [e]
            exact hsub.trans (List.sublist_append_left _ _)
          · rw [e]
            exact List.Sublist.append (hp.trans hsub) (List.Sublist.refl _)
        rw [hpre]
        exact (ih s2 (pre ++ [tag]) g1 hs2).1 rs s1 h3
      · intro hq
        obtain ⟨s2, h2, hq2⟩ := f2 hq
        obtain ⟨g1, -, -, g4⟩ := f1 s2 h2
        have hs2 : s2._fifo.Sublist (pre ++ [tag]) := by
          rcases g4 with e | ⟨p, hp, e⟩
          · rw [e]
            exact hsub.trans (List.sublist_append_left _ _)
          · rw [e]
            exact List.Sublist.append (hp.trans hsub) (List.Sublist.refl _)
        obtain ⟨rs, s1, h3⟩ := (ih s2 (pre ++ [tag]) g1 hs2).2 hq2
        exact ⟨rs, s1, by simp only [run, h2, Option.some_bind, h3]⟩
    | test tag =>
      obtain ⟨f1, f2⟩ := h.occ_test tag
      have hpre : (pre ++ (vts_op.test tag :: ops).filterMap vts_op.inserted) =
          pre ++ ops.filterMap vts_op.inserted := by
        simp [List.filterMap_cons, vts_op.inserted]
      constructor
      · intro rs s1 h1
        simp only [run, Option.bind_eq_some, Option.map_eq_some', Prod.mk.injEq] at h1
        obtain ⟨⟨r, s2⟩, h2, ⟨rs2, s3⟩, h3, -, rfl⟩ := h1
        obtain ⟨g1, -, -, g4⟩ := f1 r s2 h2
        have hs2 : s2._fifo.Sublist pre := by
          rcases g4 with e | e
          · rw [e]
            exact hsub
          · rw [e]
            exact List.nil_sublist _
        rw [hpre]
        exact (ih s2 pre g1 hs2).1 rs2 s3 h3
      · intro hq
        obtain ⟨r, s2, h2, hq2⟩ := f2 hq
        obtain ⟨g1, -, -, g4⟩ := f1 r s2 h2
        have hs2 : s2._fifo.Sublist pre := by
          rcases g4 with e | e
          · rw [e]
            exact hsub
          · rw [e]
            exact List.nil_sublist _
        obtain ⟨rs, s1, h3⟩ := (ih s2 pre g1 hs2).2 hq2
        exact ⟨r :: rs, s1, by simp only [run, h2, Option.some_bind, h3, Option.map_some']⟩

theorem counting_insert (k : Nat) (hk : k < UINT32_MOD) :
    (counting k).insert k = some (counting (k + 1)) := by
  have hmod : UINT32_MOD = 4294967296 := rfl
  have hnot : k ∉ List.range k := by simp
  have hN0 : ¬ (counting k)._numBlocks = 0 := by
    show ¬ 2 ^ 31 = 0
    decide
  have hmem : ¬ k ∈ (counting k)._index := hnot
  have hseg : ¬ (counting k)._segmented = true := by
    show ¬ false = true
    decide
  have hfull : ¬ (¬ (counting k)._decoupleClear = true ∧
      (counting k)._numCurrentBlocks = (counting k)._numBlocks) := fun h => h.1 rfl
  have hu : ¬ (counting k)._useBloomFilter = true := by
    show ¬ false = true
    decide
  have hfin : (counting (k + 1)) =
      { counting k with _bf := (counting k)._bf, _index := set_insert (counting k)._index k, _fifo := (counting k)._fifo ++ [k], _numCurrentBlocks := ((counting k)._numCurrentBlocks + 1) % UINT32_MOD } := by
    show counting (k + 1) = { counting k with _bf := noFilter, _index := set_insert (List.range k) k, _fifo := List.range k ++ [k], _numCurrentBlocks := (k % UINT32_MOD + 1) % UINT32_MOD }
    rw [set_insert_new hnot, ← List.range_succ]
    have e : (k % UINT32_MOD + 1) % UINT32_MOD = (k + 1) % UINT32_MOD := by
      rw [hmod]
      omega
    rw [e]
    rfl
  by_cases h0 : k = 0
  · subst h0
    decide
  · have hc : ¬ (counting k)._numCurrentBlocks = (2 * (counting k)._numBlocks) % UINT32_MOD := by
      show ¬ k % UINT32_MOD = (2 * 2 ^ 31) % UINT32_MOD
      rw [hmod]
      omega
    unfold insert
    rw [if_neg hN0, if_neg hmem, if_neg hseg]
    simp only [if_neg hfull, if_neg hc, Option.some_bind, if_neg hu, Option.map_some']
    rw [hfin]

theorem counting_run : ∀ (n k : Nat), k + n ≤ UINT32_MOD →
    (counting k).run ((List.range' k n).map vts_op.insert) = some ([], counting (k + n)) := by
  intro n
  induction n with
  | zero =>
    intro k _
    rfl
  | succ n ih =>
    intro k hk
    rw [List.range'_succ, List.map_cons]
    simp only [run]
    rw [counting_insert k (by omega)]
    simp only [Option.some_bind]
    rw [ih (k + 1) (by omega)]
    congr 3
    omega

end victim_tag_store_t

/-- Counterexample for C37: in `decoupleClear` mode the store is cleared by `insert` when
the occupancy counter equals the `uint32` product `2 * _numBlocks`, which is 0 for the
capacity `2 ^ 31`. Such a store is never cleared by inserts of new tags, and the counter,
itself a `uint32`, is back at 0 after the inserts of the `2 ^ 32` tags `0 .. 2 ^ 32 - 1`,
when `2 ^ 32` tags are stored. -/
theorem C37_occupancy_counter_wraps :
    ∃ s, (victim_tag_store_t.init (2 ^ 31) false false false true false
        victim_tag_store_t.noFilter).run ((List.range (2 ^ 32)).map vts_op.insert) =
        some ([], s) ∧
      s._numCurrentBlocks = 0 ∧ s._index.length = 2 ^ 32 ∧ s._fifo.length = 2 ^ 32 ∧
      s._numCurrentBlocks ≠ s._index.length := by
  have h := victim_tag_store_t.counting_run (2 ^ 32) 0 (by decide)
  rw [← List.range_eq_range', Nat.zero_add] at h
  have hc : (victim_tag_store_t.counting (2 ^ 32))._numCurrentBlocks = 0 := by
    show 2 ^ 32 % UINT32_MOD = 0
    decide
  have hlk : ∀ k, (victim_tag_store_t.counting k)._index.length = k :=
    fun k => List.length_range k
  have hfk : ∀ k, (victim_tag_store_t.counting k)._fifo.length = k :=
    fun k => List.length_range k
  have hl := hlk (2 ^ 32)
  have hf := hfk (2 ^ 32)
  have hi : victim_tag_store_t.init (2 ^ 31) false false false true false
      victim_tag_store_t.noFilter = victim_tag_store_t.counting 0 := rfl
  rw [hi]
  refine ⟨victim_tag_store_t.counting (2 ^ 32), h, hc, hl, hf, ?_⟩
  rw [hc, hl]
  decide

/-- **C37 (amended).** Victim tag store occupancy invariant. Take a victim tag store of
capacity `N` (`1 ≤ N < 2 ^ 32`, and `N ≠ 2 ^ 31` in `decoupleClear` mode) that is neither
ideal nor segmented, in any setting of `noClear`, `decoupleClear` and the bloom filter.
After any sequence of `insert`/`test` the occupancy counter equals the number of stored
tags and the length of `_fifo`; `_fifo` holds exactly the stored tags, without duplicates,
in the order of their insertion (it is a subsequence of the sequence of inserted tags); the
occupancy is at most `N` when `decoupleClear` is off and at most `2 * N` when it is on
(at most the `uint32` product `2 * N`). The sequence returns when there is no bloom
filter, or the filter is one made by `initialize` with `_logSize ≤ 18`. -/
theorem C37_vts_occupancy_amended (N : Nat) (useBloomFilter noClear decoupleClear : Bool)
    (bf : bloom_filter_t) (ops : List vts_op) (hN1 : 1 ≤ N) (hN : N < UINT32_MOD)
    (hT : decoupleClear = true → N ≠ 2 ^ 31) :
    (∀ rs s,
      (victim_tag_store_t.init N useBloomFilter false noClear decoupleClear false bf).run
        ops = some (rs, s) →
      s._numCurrentBlocks = s._index.length ∧ s._numCurrentBlocks = s._fifo.length ∧
      s._index = s._fifo ∧ s._fifo.Nodup ∧
      s._fifo.Sublist (ops.filterMap vts_op.inserted) ∧
      (decoupleClear = false → s._numCurrentBlocks ≤ N) ∧
      (decoupleClear = true →
        s._numCurrentBlocks ≤ (2 * N) % UINT32_MOD ∧ s._numCurrentBlocks ≤ 2 * N)) ∧
    ((useBloomFilter = true → bf.Sized 18) →
      ∃ rs s,
        (victim_tag_store_t.init N useBloomFilter false noClear decoupleClear false bf).run
          ops = some (rs, s)) := by
  have h0 : (victim_tag_store_t.init N useBloomFilter false noClear decoupleClear false
      bf).Occupancy N decoupleClear :=
    ⟨rfl, rfl, rfl, rfl, rfl, rfl, List.nodup_nil, rfl, Nat.zero_le _⟩
  obtain ⟨f1, f2⟩ := victim_tag_store_t.Occupancy.occ_run hN1 hN hT ops _ [] h0
    (List.Sublist.refl _)
  refine ⟨?_, f2⟩
  intro rs s hrun
  obtain ⟨g1, g2⟩ := f1 rs s hrun
  rw [List.nil_append] at g2
  have hb := g1.bound
  refine ⟨by rw [g1.count, g1.index], g1.count, g1.index, g1.nodup, g2, ?_, ?_⟩
  · intro hd
    rw [hd] at hb
    rw [g1.count]
    simpa using hb
  · intro hd
    rw [hd] at hb
    simp only [if_true] at hb
    rw [g1.count]
    exact ⟨hb, Nat.le_trans hb (Nat.mod_le _ _)⟩

/-- Witness for C37 (amended): a `noClear` store of capacity 2; after the inserts of 1, 2,
1 and 3 and a test it holds the tags 2 and 3, oldest first, and the counter is 2. -/
theorem C37_vts_occupancy_amended_witness :
    ∃ rs s, (victim_tag_store_t.init 2 false false true false false
        victim_tag_store_t.noFilter).run
        [.insert 1, .insert 2, .insert 1, .insert 3, .test 2] = some (rs, s) ∧
      s._fifo = [2, 3] ∧ s._numCurrentBlocks = 2 ∧
      s._numCurrentBlocks = s._index.length ∧ s._fifo.Nodup := by
  have hs : ((victim_tag_store_t.init 2 false false true false false
      victim_tag_store_t.noFilter).run
      [.insert 1, .insert 2, .insert 1, .insert 3, .test 2]).isSome = true := by rfl
  have h := (C37_vts_occupancy_amended 2 false true false victim_tag_store_t.noFilter
    [.insert 1, .insert 2, .insert 1, .insert 3, .test 2] (by decide) (by decide)
    (by intro h; cases h)).1 (Option.get _ hs).1 (Option.get _ hs).2 (Option.some_get hs).symm
  exact ⟨(Option.get _ hs).1, (Option.get _ hs).2, (Option.some_get hs).symm, by rfl, by rfl,
    h.1, h.2.2.2.1⟩

theorem cyclic_increment_hand {c : cyclic_pointer} {N : Nat} (hs : c._size = N)
    (h : c._hand < N) (hN : N < UINT32_MOD) :
    c.increment._hand = if c._hand + 1 = N then 0 else c._hand + 1 := by
  unfold cyclic_pointer.increment
  have : (c._hand + 1) % UINT32_MOD = c._hand + 1 := Nat.mod_eq_of_lt (by omega)
  simp only [this, hs]
  split_ifs <;> rfl

theorem cyclic_trace_shift {N h h1 : Nat} (hh : h < N)
    (h1e : h1 = if h + 1 = N then 0 else h + 1) (k : Nat) :
    h :: (List.range k).map (fun j => (h1 + j) % N) =
      (List.range (k + 1)).map (fun j => (h + j) % N) := by
  rw [List.range_succ_eq_map, List.map_cons, List.map_map]
  congr 1
  · simp [Nat.mod_eq_of_lt hh]
  · apply List.map_congr_left
    intro j _
    simp only [Function.comp]
    split_ifs at h1e with e
    · subst h1e
      have : h + (j + 1) = N + j := by omega
      rw [this, Nat.add_mod_left, Nat.zero_add]
    · subst h1e
      congr 1
      omega

/-- The slots visited by a cyclic sweep of at most `m` rounds: no slot more than `m`
times. -/
theorem cyclic_trace_count (N i : Nat) :
    ∀ (m k h : Nat), k ≤ m * N →
      ((List.range k).map (fun j => (h + j) % N)).count i ≤ m := by
  intro m
  induction m with
  | zero =>
    intro k h hk
    have : k = 0 := by simpa using hk
    subst this
    simp
  | succ m ih =>
    intro k h hk
    by_cases hle : k ≤ N
    · have hnd : ((List.range k).map (fun j => (h + j) % N)).Nodup := by
        apply List.Nodup.map_on _ (List.nodup_range k)
        intro a ha b hb hab
        rw [List.mem_range] at ha hb
        have h1 : Nat.ModEq N (h + a) (h + b) := hab
        have h2 : Nat.ModEq N a b := Nat.ModEq.add_left_cancel' h h1
        have h3 : a % N = b % N := h2
        rw [Nat.mod_eq_of_lt (by omega), Nat.mod_eq_of_lt (by omega)] at h3
        exact h3
      exact Nat.le_trans (List.nodup_iff_count_le_one.1 hnd i) (by omega)
    · have hk2 : k = N + (k - N) := by omega
      rw [hk2, List.range_add, List.map_append, List.count_append, List.map_map]
      have e : ((fun j => (h + j) % N) ∘ fun x => N + x) = fun j => (h + j) % N := by
        funext j
        simp only [Function.comp]
        have : h + (N + j) = N + (h + j) := by omega
        rw [this, Nat.add_mod_left]
      rw [e]
      have h1 := ih (k - N) h (by rw [Nat.succ_mul] at hk; omega)
      have hnd : ((List.range N).map (fun j => (h + j) % N)).Nodup := by
        apply List.Nodup.map_on _ (List.nodup_range N)
        intro a ha b hb hab
        rw [List.mem_range] at ha hb
        have h1 : Nat.ModEq N (h + a) (h + b) := hab
        have h2 : Nat.ModEq N a b := Nat.ModEq.add_left_cancel' h h1
        have h3 : a % N = b % N := h2
        rw [Nat.mod_eq_of_lt ha, Nat.mod_eq_of_lt hb] at h3
        exact h3
      have h2 := List.nodup_iff_count_le_one.1 hnd i
      omega

/-- The sweep stops no later than at the visit of the valid slot `v` at which the weight
of `v` is used up. -/
theorem generation_loop_bound (N : Nat) (hN : N < UINT32_MOD) (tbl : List entry)
    (htl : tbl.length = N) (v : Nat) (hv : validAt tbl v) :
    ∀ (fuel : Nat) (nodes : List Generation) (hand : cyclic_pointer) (g : Generation),
      nodes.length = N → hand._size = N → hand._hand < N → nodes[v]? = some g →
      g.weight * N + (if hand._hand ≤ v then v - hand._hand else N + v - hand._hand) < fuel →
      ∃ h1 n1 k, generation_loop fuel nodes hand tbl = some (h1, n1) ∧ h1._size = N ∧
        h1._hand < N ∧ n1.length = N ∧
        k ≤ g.weight * N +
          (if hand._hand ≤ v then v - hand._hand else N + v - hand._hand) + 1 ∧
        generation_visits fuel nodes hand tbl =
          (List.range k).map (fun j => (hand._hand + j) % N) := by
  have hvN : v < N := by
    obtain ⟨e, he, -⟩ := hv
    rw [← htl]
    exact (List.getElem?_eq_some_iff.1 he).1
  intro fuel
  induction fuel with
  | zero => intro nodes hand g _ _ _ _ h; omega
  | succ fuel ih =>
    intro nodes hand g hlen hs hh hg hm
    obtain ⟨gh, hget⟩ : ∃ gh, nodes[hand._hand]? = some gh :=
      ⟨_, List.getElem?_eq_getElem (by omega)⟩
    obtain ⟨e, hte⟩ : ∃ e, tbl[hand._hand]? = some e :=
      ⟨_, List.getElem?_eq_getElem (by omega)⟩
    by_cases hstop : gh.generation._value = 0 ∧ gh.referenced = false ∧ e.valid = true
    · refine ⟨hand, nodes, 1, ?_, hs, hh, hlen, by omega, ?_⟩
      · simp only [generation_loop, hget, hte, if_pos hstop]
      · simp only [generation_visits, hget, hte, if_pos hstop]
        show [hand._hand] = [(hand._hand + 0) % N]
        rw [Nat.add_zero, Nat.mod_eq_of_lt hh]
    · obtain ⟨hs1, hh1⟩ := cyclic_increment_lt hs hh hN
      have hinc := cyclic_increment_hand hs hh hN
      have hloop : generation_loop (fuel + 1) nodes hand tbl =
          generation_loop fuel (nodes.set hand._hand gh.sweep) hand.increment tbl := by
        simp only [generation_loop, hget, hte, if_neg hstop]
      have hvis : generation_visits (fuel + 1) nodes hand tbl =
          hand._hand :: generation_visits fuel (nodes.set hand._hand gh.sweep)
            hand.increment tbl := by
        simp only [generation_visits, hget, hte, if_neg hstop]
      by_cases hvh : hand._hand = v
      · -- the valid slot itself: its weight goes down
        have hgv : gh = g := by
          rw [← hvh, hget] at hg
          exact Option.some.inj hg
        have hval : e.valid = true := by
          obtain ⟨e1, he1, hev⟩ := hv
          rw [← hvh, hte] at he1
          cases he1
          exact hev
        have hw : g.sweep.weight + 1 = g.weight := by
          apply weight_sweep
          intro hc
          exact hstop ⟨hgv ▸ hc.1, hgv ▸ hc.2, hval⟩
        have hg1 : (nodes.set hand._hand gh.sweep)[v]? = some g.sweep := by
          rw [← hvh, List.getElem?_set_self (by omega), hgv]
        have hmul : g.weight * N = g.sweep.weight * N + N := by
          rw [← hw, Nat.succ_mul]
        obtain ⟨h1, n1, k, r1, r2, r3, r4, r5, r6⟩ := ih
          (nodes.set hand._hand gh.sweep) hand.increment g.sweep
          (by simp [hlen]) hs1 hh1 hg1 (by
            rw [hinc]
            rw [hmul] at hm
            split_ifs at hm ⊢ <;> omega)
        refine ⟨h1, n1, k + 1, by rw [hloop]; exact r1, r2, r3, r4, ?_, ?_⟩
        · rw [hinc] at r5
          rw [hmul]
          split_ifs at r5 ⊢ <;> omega
        · rw [hvis, r6]
          exact cyclic_trace_shift hh hinc k
      · have hg1 : (nodes.set hand._hand gh.sweep)[v]? = some g := by
          rw [List.getElem?_set_ne hvh]
          exact hg
        obtain ⟨h1, n1, k, r1, r2, r3, r4, r5, r6⟩ := ih
          (nodes.set hand._hand gh.sweep) hand.increment g
          (by simp [hlen]) hs1 hh1 hg1 (by
            rw [hinc]
            split_ifs at hm ⊢ <;> omega)
        refine ⟨h1, n1, k + 1, by rw [hloop]; exact r1, r2, r3, r4, ?_, ?_⟩
        · rw [hinc] at r5
          split_ifs at r5 ⊢ <;> omega
        · rw [hvis, r6]
          exact cyclic_trace_shift hh hinc k

/-- Without a valid slot the sweep is still running after any number of iterations. -/
theorem generation_loop_spins (N : Nat) (hN : N < UINT32_MOD) (tbl : List entry)
    (htl : tbl.length = N) (hnone : ∀ i, ¬ validAt tbl i) :
    ∀ (fuel : Nat) (nodes : List Generation) (hand : cyclic_pointer),
      nodes.length = N → hand._size = N → hand._hand < N →
      generation_loop fuel nodes hand tbl = none ∧
        (generation_visits fuel nodes hand tbl).length = fuel := by
  intro fuel
  induction fuel with
  | zero => intro nodes hand _ _ _; exact ⟨rfl, rfl⟩
  | succ fuel ih =>
    intro nodes hand hlen hs hh
    obtain ⟨gh, hget⟩ : ∃ gh, nodes[hand._hand]? = some gh :=
      ⟨_, List.getElem?_eq_getElem (by omega)⟩
    obtain ⟨e, hte⟩ : ∃ e, tbl[hand._hand]? = some e :=
      ⟨_, List.getElem?_eq_getElem (by omega)⟩
    have hstop : ¬ (gh.generation._value = 0 ∧ gh.referenced = false ∧ e.valid = true) :=
      fun hc => hnone hand._hand ⟨_, hte, hc.2.2⟩
    obtain ⟨hs1, hh1⟩ := cyclic_increment_lt hs hh hN
    obtain ⟨r1, r2⟩ := ih (nodes.set hand._hand gh.sweep) hand.increment
      (by simp [hlen]) hs1 hh1
    constructor
    · simp only [generation_loop, hget, hte, if_neg hstop]
      exact r1
    · simp only [generation_visits, hget, hte, if_neg hstop, List.length_cons, r2]

theorem generation_loop_keeps (P : Generation → Prop) (hsw : ∀ g, P g → P g.sweep) :
    ∀ (fuel : Nat) (nodes : List Generation) (hand : cyclic_pointer) (tbl : List entry)
      (h1 : cyclic_pointer) (n1 : List Generation),
      generation_loop fuel nodes hand tbl = some (h1, n1) → (∀ g ∈ nodes, P g) →
      ∀ g ∈ n1, P g := by
  intro fuel
  induction fuel with
  | zero => intro nodes hand tbl h1 n1 hl; cases hl
  | succ fuel ih =>
    intro nodes hand tbl h1 n1 hl hall
    rw [generation_loop] at hl
    rcases hg : nodes[hand._hand]? with _ | g
    · rw [hg] at hl; cases hl
    · rcases he : tbl[hand._hand]? with _ | e
      · rw [hg, he] at hl; cases hl
      · rw [hg, he] at hl
        simp only at hl
        split_ifs at hl with hc
        · simp only [Option.some.injEq, Prod.mk.injEq] at hl
          obtain ⟨-, rfl⟩ := hl
          exact hall
        · refine ih _ _ _ _ _ hl ?_
          intro x hx
          rcases List.mem_or_eq_of_mem_set hx with h | h
          · exact hall x h
          · rw [h]
            exact hsw g (hall g (List.mem_iff_getElem?.2 ⟨_, hg⟩))

theorem gen_sweep_bounded (g : Generation)
    (h : g.generation._max = 3 ∧ g.generation._value ≤ 3) :
    g.sweep.generation._max = 3 ∧ g.sweep.generation._value ≤ 3 := by
  unfold Generation.sweep
  split_ifs
  · show g.generation.increment._max = 3 ∧ g.generation.increment._value ≤ 3
    unfold saturating_counter.increment
    split_ifs with h1
    · exact ⟨h.1, by show g.generation._value + 1 ≤ 3; omega⟩
    · exact h
  · show g.generation.decrement._max = 3 ∧ g.generation.decrement._value ≤ 3
    unfold saturating_counter.decrement
    split_ifs with h1
    · exact ⟨h.1, by show g.generation._value - 1 ≤ 3; omega⟩
    · exact h

theorem gen_weight_le (g : Generation)
    (h : g.generation._max = 3 ∧ g.generation._value ≤ 3) : g.weight ≤ 4 := by
  unfold Generation.weight
  split_ifs
  · unfold saturating_counter.increment
    split_ifs with h1
    · show g.generation._value + 1 + 1 ≤ 4
      omega
    · omega
  · omega

theorem policy_t.GenBounded.gen_update {N : Nat} (p p1 : policy_t) (i : Nat) (op : operation)
    (pval : policy_value_t) (h : p.GenBounded)
    (hu : UpdateReplacementPolicy p N i op pval = some p1) : p1.GenBounded := by
  obtain ⟨nodes, hand, rfl, hall⟩ := h
  have key : ∀ f : Generation → Generation,
      (∀ g, g.generation._max = 3 ∧ g.generation._value ≤ 3 →
        (f g).generation._max = 3 ∧ (f g).generation._value ≤ 3) →
      policy_t.GenBounded (.generation (nodes.modify f i) hand) := by
    intro f hf
    refine ⟨_, _, rfl, ?_⟩
    intro c hc
    rcases mem_modify_cases f nodes i c hc with h1 | ⟨y, hy, rfl⟩
    · exact hall c h1
    · exact hf y (hall y hy)
  have hp : pval.toNat ≤ 3 := by cases pval <;> decide
  cases op <;> simp only [UpdateReplacementPolicy, Option.some.injEq] at hu <;> subst hu
  · exact key _ (fun g hg => ⟨hg.1, hp⟩)
  · exact key _ (fun g hg => ⟨hg.1, hp⟩)
  · exact key _ (fun g hg => hg)
  · exact key _ (fun g hg => hg)
  · exact key _ (fun g hg => ⟨hg.1, Nat.zero_le _⟩)

theorem policy_t.GenBounded.gen_victim {N : Nat} (p p1 : policy_t) (tbl : List entry) (i : Nat)
    (h : p.GenBounded) (hg : GetReplacementIndex p N tbl = some (i, p1)) :
    p1.GenBounded := by
  obtain ⟨nodes, hand, rfl, hall⟩ := h
  simp only [GetReplacementIndex, Option.map_eq_some', Prod.mk.injEq] at hg
  obtain ⟨⟨h1, n1⟩, hl, -, rfl⟩ := hg
  exact ⟨n1, h1, rfl, generation_loop_keeps _ gen_sweep_bounded _ _ _ _ _ _ hl hall⟩

theorem weight_le_sum (nodes : List Generation) (v : Nat) (g : Generation)
    (h : nodes[v]? = some g) : g.weight ≤ (nodes.map Generation.weight).sum :=
  List.single_le_sum (fun _ _ => Nat.zero_le _) _
    (List.mem_map_of_mem _ (List.mem_iff_getElem?.2 ⟨v, h⟩))

/-- **C38.** Generation-policy victim search. Let `t` be a state reached from the empty
generation table of capacity `N` (`1 ≤ N < 2 ^ 32`) by calls of
insert/read/update/silentupdate/invalidate. (1) If some slot is valid, which is the case
whenever the free list is empty, `GetReplacementIndex` returns: the `while` condition is
evaluated `k ≤ 5 * N` times, at the slots `hand, hand + 1, ...` taken cyclically, no slot
more than 5 times (so at most 6 times), and the slot returned is valid, has generation 0
and is not referenced in the state the search leaves, with `_hand` on it. (2) If no slot
is valid, the loop is still running after any number of iterations. -/
theorem C38_generation_victim_search (N hand0 : Nat) (hN0 : 0 < N) (hN : N < UINT32_MOD)
    (ops : List table_op) (t : table_t)
    (hrun : (table_t.new .generation N hand0).run ops = some t) :
    ∃ nodes hand, t.policy = .generation nodes hand ∧
      ((∃ v, validAt t._table v) →
        ∃ i n1 h1 k,
          GetReplacementIndex t.policy t._size t._table = some (i, .generation n1 h1) ∧
          h1._hand = i ∧ i < N ∧
          (∃ e g, t._table[i]? = some e ∧ e.valid = true ∧ n1[i]? = some g ∧
            g.generation._value = 0 ∧ g.referenced = false) ∧
          generation_visits (generation_fuel nodes) nodes hand t._table =
            (List.range k).map (fun j => (hand._hand + j) % N) ∧
          k ≤ 5 * N ∧
          ∀ j, (generation_visits (generation_fuel nodes) nodes hand t._table).count j ≤ 5) ∧
      (t._freeList = [] → ∃ v, validAt t._table v) ∧
      ((∀ v, ¬ validAt t._table v) →
        ∀ fuel, generation_loop fuel nodes hand t._table = none ∧
          (generation_visits fuel nodes hand t._table).length = fuel) := by
  obtain ⟨t1, hr, hwf, hq⟩ := table_t.WF.run_policy policy_t.GenBounded
    (fun p p1 i op pval => policy_t.GenBounded.gen_update p p1 i op pval)
    (fun p p1 tbl i => policy_t.GenBounded.gen_victim p p1 tbl i) ops
    (table_t.WF_new .generation N hand0 hN0 hN (by intro h; cases h))
    ⟨_, _, rfl, by
      intro c hc
      rw [List.eq_of_mem_replicate hc]
      exact ⟨rfl, by decide⟩⟩
  rw [hrun] at hr
  cases hr
  obtain ⟨nodes, hand, hp, hall⟩ := hq
  obtain ⟨-, -, hbase, hpol⟩ := hwf
  rw [hp] at hpol
  obtain ⟨hlen, hsz, hh⟩ := hpol
  refine ⟨nodes, hand, hp, ?_, ?_, ?_⟩
  · rintro ⟨v, hv⟩
    have hvN : v < N := by
      obtain ⟨e, he, -⟩ := hv
      rw [← hbase.len]
      exact (List.getElem?_eq_some_iff.1 he).1
    obtain ⟨g, hg⟩ : ∃ g, nodes[v]? = some g :=
      ⟨_, List.getElem?_eq_getElem (by omega)⟩
    have hw4 := gen_weight_le g (hall g (List.mem_iff_getElem?.2 ⟨v, hg⟩))
    have hws := weight_le_sum nodes v g hg
    have hd : (if hand._hand ≤ v then v - hand._hand else N + v - hand._hand) < N := by
      split_ifs <;> omega
    have hfuel : g.weight * N +
        (if hand._hand ≤ v then v - hand._hand else N + v - hand._hand) <
        generation_fuel nodes := by
      unfold generation_fuel
      rw [hlen, Nat.add_mul, Nat.one_mul]
      have := Nat.mul_le_mul_right N hws
      omega
    obtain ⟨h1, n1, k, r1, r2, r3, r4, r5, r6⟩ := generation_loop_bound N hN t._table
      hbase.len v hv (generation_fuel nodes) nodes hand g hlen hsz hh hg hfuel
    obtain ⟨g1, e1, s1, s2, s3⟩ := generation_loop_stop _ _ _ _ _ _ r1
    have hk : k ≤ 5 * N := by
      have := Nat.mul_le_mul_right N hw4
      omega
    refine ⟨h1._hand, n1, h1, k, ?_, rfl, r3, ⟨e1, g1, s2, s3.2.2, s1, s3.1, s3.2.1⟩, r6, hk,
      ?_⟩
    · rw [hp]
      simp only [GetReplacementIndex, r1, Option.map_some']
    · intro j
      rw [r6]
      exact cyclic_trace_count N j 5 k hand._hand hk
  · intro hf
    exact ⟨0, hbase.full_of_nil hf 0 hN0⟩
  · intro hnone fuel
    exact generation_loop_spins N hN t._table hbase.len hnone fuel nodes hand hlen hsz hh

/-- Witness for C38: the generation table of two slots after `insert` of key 10 with
`POLICY_LOW` (generation 2) and a read of it. Slot 1 is invalid; the search visits slot 0
five times and returns it. -/
theorem C38_generation_victim_search_witness :
    ∃ t nodes hand n1 h1,
      (table_t.new .generation 2 0).run [.insert 10 1 .POLICY_LOW, .read 10 .POLICY_HIGH] =
        some t ∧
      t.policy = .generation nodes hand ∧
      GetReplacementIndex t.policy t._size t._table = some (0, .generation n1 h1) ∧
      generation_visits (generation_fuel nodes) nodes hand t._table =
        [0, 1, 0, 1, 0, 1, 0, 1, 0] ∧
      ∀ j, (generation_visits (generation_fuel nodes) nodes hand t._table).count j ≤ 5 := by
  have hs : ((table_t.new .generation 2 0).run
      [.insert 10 1 .POLICY_LOW, .read 10 .POLICY_HIGH]).isSome = true := by rfl
  obtain ⟨nodes, hand, hp, h1, -, -⟩ := C38_generation_victim_search 2 0 (by decide)
    (by decide) [.insert 10 1 .POLICY_LOW, .read 10 .POLICY_HIGH] (Option.get _ hs)
    (Option.some_get hs).symm
  have hp0 : (Option.get _ hs).policy =
      .generation [⟨⟨2, 3⟩, true⟩, ⟨⟨0, 3⟩, false⟩] ⟨0, 2⟩ := by rfl
  rw [hp0] at hp
  injection hp with e1 e2
  subst e1 e2
  obtain ⟨i, n1, h1, k, g1, g2, g3, g4, g5, g6, g7⟩ := h1 ⟨0, _, by rfl, by rfl⟩
  have hg : GetReplacementIndex (Option.get _ hs).policy (Option.get _ hs)._size
      (Option.get _ hs)._table =
      some (0, .generation [⟨⟨0, 3⟩, false⟩, ⟨⟨0, 3⟩, false⟩] ⟨0, 2⟩) := by rfl
  exact ⟨Option.get _ hs, _, _, _, _, (Option.some_get hs).symm, hp0, hg, by rfl, g7⟩

namespace CmpDRAMCtlr

theorem OnlyCycles.only_refl (s : CmpDRAMCtlr) : OnlyCycles s s :=
  ⟨rfl, rfl, rfl, fun _ req1 h => ⟨req1, h, rfl, rfl, rfl⟩⟩

theorem OnlyCycles.only_trans {s s1 s2 : CmpDRAMCtlr} (h1 : OnlyCycles s s1)
    (h2 : OnlyCycles s1 s2) : OnlyCycles s s2 := by
  refine ⟨h2.1.trans h1.1, h2.2.1.trans h1.2.1, h2.2.2.1.trans h1.2.2.1, ?_⟩
  intro r req2 hr2
  obtain ⟨req1, hr1, p1⟩ := h2.2.2.2 r req2 hr2
  obtain ⟨req, hr, p⟩ := h1.2.2.2 r req1 hr1
  exact ⟨req, hr, p1.1.trans p.1, p1.2.1.trans p.2.1, p1.2.2.trans p.2.2⟩

theorem OnlyCycles.only_set {s : CmpDRAMCtlr} {r0 : Nat} {req0 : MemoryRequest}
    (h0 : s.requests[r0]? = some req0) (c : Nat) :
    OnlyCycles s (s.setRequest r0 { req0 with currentCycle := c }) := by
  refine ⟨rfl, rfl, rfl, ?_⟩
  intro r req1 hr1
  by_cases e : r = r0
  · subst e
    rw [requests_setRequest _ h0] at hr1
    cases hr1
    exact ⟨req0, h0, rfl, rfl, rfl⟩
  · have : (s.setRequest r0 { req0 with currentCycle := c }).requests[r]? = s.requests[r]? :=
      List.getElem?_set_ne (fun h => e h.symm)
    rw [this] at hr1
    exact ⟨req1, hr1, rfl, rfl, rfl⟩

theorem OnlyCycles.getBank_eq {s s1 : CmpDRAMCtlr} (h : OnlyCycles s s1) (ch rk bk : Nat) :
    s1.getBank ch rk bk = s.getBank ch rk bk := by
  unfold getBank getRank
  rw [h.1]

theorem Settled.settled_set {s : CmpDRAMCtlr} {ch : Nat} {rowHit rowHit1 : List Nat}
    {r0 : Nat} {req0 : MemoryRequest} {c : Nat} (h0 : s.requests[r0]? = some req0)
    (hc : req0.currentCycle ≤ c ∨ req0.currentCycle ≤ s._currentCycle)
    (hsub : ∀ b ∈ rowHit, b ∈ rowHit1) {r : Nat} (h : Settled s ch rowHit r) :
    Settled (s.setRequest r0 { req0 with currentCycle := c }) ch rowHit1 r := by
  obtain ⟨req, bank, hr, hb, hcase⟩ := h
  by_cases e : r = r0
  · subst e
    rw [h0] at hr
    cases hr
    refine ⟨{ req0 with currentCycle := c }, bank, requests_setRequest _ h0, hb, ?_⟩
    rcases hcase with ⟨a1, a2, a3⟩ | ⟨a1, a2⟩ | ⟨a1, a2⟩
    · exact Or.inl ⟨a1, a2, hsub _ a3⟩
    · refine Or.inr (Or.inl ⟨a1, ?_⟩)
      show s._currentCycle < c
      rcases hc with hc | hc <;> omega
    · exact Or.inr (Or.inr ⟨a1, a2⟩)
  · have : (s.setRequest r0 { req0 with currentCycle := c }).requests[r]? = s.requests[r]? :=
      List.getElem?_set_ne (fun h => e h.symm)
    refine ⟨req, bank, this.trans hr, hb, ?_⟩
    rcases hcase with ⟨a1, a2, a3⟩ | ⟨a1, a2⟩ | ⟨a1, a2⟩
    · exact Or.inl ⟨a1, a2, hsub _ a3⟩
    · exact Or.inr (Or.inl ⟨a1, a2⟩)
    · exact Or.inr (Or.inr ⟨a1, a2⟩)

theorem Settled.settled_mono {s : CmpDRAMCtlr} {ch : Nat} {rowHit rowHit1 : List Nat}
    (hsub : ∀ b ∈ rowHit, b ∈ rowHit1) {r : Nat} (h : Settled s ch rowHit r) :
    Settled s ch rowHit1 r := by
  obtain ⟨req, bank, hr, hb, hcase⟩ := h
  refine ⟨req, bank, hr, hb, ?_⟩
  rcases hcase with ⟨a1, a2, a3⟩ | ⟨a1, a2⟩ | ⟨a1, a2⟩
  · exact Or.inl ⟨a1, a2, hsub _ a3⟩
  · exact Or.inr (Or.inl ⟨a1, a2⟩)
  · exact Or.inr (Or.inr ⟨a1, a2⟩)

/-- The record of issued commands after `ScheduleRequest` in a state that differs from
`s` in a request only. -/
theorem issued_after_set {s s2 : CmpDRAMCtlr} {r ch rk bk : Nat} {req1 : MemoryRequest}
    {cmd : DRAMCommand}
    (hs : (s.setRequest r req1).ScheduleRequest ch rk bk cmd r = some s2) :
    s2.issued = s.issued ++ [DRAMIssue.mk ch rk bk cmd s._currentCycle] := by
  obtain ⟨_, _, _, _, hs1, _⟩ := ScheduleRequest_spec hs
  rw [hs1]
  rfl

/-- The first loop of `FRFCFSDWFScheduler`: either it issues one command, an activate to
a precharged bank or the column command of the mode to a row hit, or it issues none and
leaves every request it has passed settled. -/
theorem scanReady_issue (next : Hierarchy) (ch : Nat) (mode : DRAMChannelMode) :
    ∀ (rs : List Nat) (i : Nat) (rowHit : List Nat) (s s1 : CmpDRAMCtlr)
      (o : Option (List Nat)),
      scanReady next ch mode rs i rowHit s = some (s1, o) →
      (o = none → ∃ r req bank cmd, r ∈ rs ∧ s.requests[r]? = some req ∧
        s.getBank ch req.dramRankID req.dramBankID = some bank ∧
        s1.issued = s.issued ++
          [DRAMIssue.mk ch req.dramRankID req.dramBankID cmd s._currentCycle] ∧
        ((cmd = .CMD_ACT ∧ bank.state = .BANK_PRECHARGED) ∨
          (cmd = (if mode = .CMODE_READ then DRAMCommand.CMD_READ else .CMD_WRITE) ∧
            bank.state = .BANK_ACTIVATED ∧ bank.openRow = req.dramRowID))) ∧
      (∀ rowHit1, o = some rowHit1 →
        OnlyCycles s s1 ∧ (∀ b ∈ rowHit, b ∈ rowHit1) ∧
        (∀ r, Settled s ch rowHit r → Settled s1 ch rowHit1 r) ∧
        ∀ r ∈ rs, Settled s1 ch rowHit1 r) := by
  intro rs
  induction rs with
  | nil =>
    intro i rowHit s s1 o h
    simp only [scanReady, Option.some.injEq, Prod.mk.injEq] at h
    obtain ⟨rfl, rfl⟩ := h
    refine ⟨(fun h => by cases h), ?_⟩
    intro rowHit1 h1
    cases h1
    exact ⟨OnlyCycles.only_refl s, fun b hb => hb, fun r hr => hr,
      fun r hr => by cases hr⟩
  | cons r rs ih =>
    intro i rowHit s s1 o h
    unfold scanReady at h
    rcases hr : s.requests[r]? with _ | req
    · simp [hr] at h
    rcases hc : s._channels[ch]? with _ | chan
    · simp [hr, hc] at h
    rcases hk : s.getRank ch req.dramRankID with _ | rank
    · simp [hr, hc, hk] at h
    rcases hb : s.getBank ch req.dramRankID req.dramBankID with _ | bank
    · simp [hr, hc, hk, hb] at h
    simp only [hr, hc, hk, hb] at h
    generalize hcc : (if mode = .CMODE_READ then DRAMCommand.CMD_READ else .CMD_WRITE) =
      colCmd at h ⊢
    generalize (if mode = .CMODE_READ then s._tCL else s._tCWL) = lat at h
    -- what the recursive call on a state with a raised `currentCycle` gives
    have hrec : ∀ (c : Nat) (rowHit0 : List Nat), req.currentCycle ≤ c →
        (∀ b ∈ rowHit, b ∈ rowHit0) →
        Settled (s.setRequest r { req with currentCycle := c }) ch rowHit0 r →
        scanReady next ch mode rs (i + 1) rowHit0
          (s.setRequest r { req with currentCycle := c }) = some (s1, o) →
        (o = none → ∃ r1 req1 bank1 cmd, r1 ∈ r :: rs ∧ s.requests[r1]? = some req1 ∧
          s.getBank ch req1.dramRankID req1.dramBankID = some bank1 ∧
          s1.issued = s.issued ++
            [DRAMIssue.mk ch req1.dramRankID req1.dramBankID cmd s._currentCycle] ∧
          ((cmd = .CMD_ACT ∧ bank1.state = .BANK_PRECHARGED) ∨
            (cmd = colCmd ∧
              bank1.state = .BANK_ACTIVATED ∧ bank1.openRow = req1.dramRowID))) ∧
        (∀ rowHit1, o = some rowHit1 →
          OnlyCycles s s1 ∧ (∀ b ∈ rowHit, b ∈ rowHit1) ∧
          (∀ r1, Settled s ch rowHit r1 → Settled s1 ch rowHit1 r1) ∧
          ∀ r1 ∈ r :: rs, Settled s1 ch rowHit1 r1) := by
      intro c rowHit0 hcle hsub hhead hscan
      obtain ⟨f1, f2⟩ := ih _ _ _ _ _ hscan
      rw [hcc] at f1
      have hoc := OnlyCycles.only_set hr c
      constructor
      · intro ho
        obtain ⟨r1, req1, bank1, cmd, m1, m2, m3, m4, m5⟩ := f1 ho
        obtain ⟨req0, g1, g2, g3, g4⟩ := hoc.2.2.2 r1 req1 m2
        refine ⟨r1, req0, bank1, cmd, List.mem_cons_of_mem _ m1, g1, ?_, ?_, ?_⟩
        · rw [← g2, ← g3]
          exact m3
        · rw [← g2, ← g3]
          exact m4
        · rw [← g4]
          exact m5
      · intro rowHit1 ho
        obtain ⟨k1, k2, k3, k4⟩ := f2 rowHit1 ho
        refine ⟨hoc.only_trans k1, fun b hb => k2 b (hsub b hb), ?_, ?_⟩
        · intro r1 h1
          exact k3 r1 (h1.settled_set hr (Or.inl hcle) hsub)
        · intro r1 h1
          rcases List.mem_cons.1 h1 with e | e
          · rw [e]
            exact k3 r hhead
          · exact k4 r1 e
    by_cases h1 : bank.state = .BANK_ACTIVATED ∧ bank.openRow = req.dramRowID
    · rw [if_pos h1] at h
      split_ifs at h with h2 h3
      · -- a row hit that is issued
        split at h
        · cases h
        · rename_i s2 hsr
          simp only [Option.some.injEq, Prod.mk.injEq] at h
          obtain ⟨rfl, rfl⟩ := h
          refine ⟨fun _ => ?_, fun _ ho => by cases ho⟩
          refine ⟨r, req, bank, colCmd, List.mem_cons_self _ _, hr, hb, ?_,
            Or.inr ⟨rfl, h1.1, h1.2⟩⟩
          show s2.issued = _
          exact issued_after_set hsr
      · -- a row hit that has to wait
        refine hrec _ (req.dramBankID :: rowHit) (by omega)
          (fun b hb => List.mem_cons_of_mem _ hb) ?_ h
        exact ⟨_, bank, requests_setRequest _ hr, hb,
          Or.inl ⟨h1.1, h1.2, List.mem_cons_self _ _⟩⟩
    · rw [if_neg h1] at h
      split_ifs at h with h2 h3
      · -- a ready activate
        split at h
        · cases h
        · rename_i s2 hsr
          simp only [Option.some.injEq, Prod.mk.injEq] at h
          obtain ⟨rfl, rfl⟩ := h
          refine ⟨fun _ => ?_, fun _ ho => by cases ho⟩
          exact ⟨r, req, bank, .CMD_ACT, List.mem_cons_self _ _, hr, hb,
            issued_after_set hsr, Or.inl ⟨rfl, h2⟩⟩
      · -- an activate that has to wait
        refine hrec _ rowHit (by omega) (fun b hb => hb) ?_ h
        refine ⟨_, bank, requests_setRequest _ hr, hb, Or.inr (Or.inl ⟨h2, ?_⟩)⟩
        show s._currentCycle < max (max req.currentCycle (bank.nextIssueCycle.get .CMD_ACT))
          rank.nextActivate
        omega
      · -- an activated bank with another row open
        obtain ⟨f1, f2⟩ := ih _ _ _ _ _ h
        rw [hcc] at f1
        have hact : bank.state = .BANK_ACTIVATED := by
          cases hst : bank.state
          · rfl
          · exact absurd hst h2
        have hne : bank.openRow ≠ req.dramRowID := fun e => h1 ⟨hact, e⟩
        constructor
        · intro ho
          obtain ⟨r1, req1, bank1, cmd, m1, m2, m3, m4, m5⟩ := f1 ho
          exact ⟨r1, req1, bank1, cmd, List.mem_cons_of_mem _ m1, m2, m3, m4, m5⟩
        · intro rowHit1 ho
          obtain ⟨k1, k2, k3, k4⟩ := f2 rowHit1 ho
          refine ⟨k1, k2, k3, ?_⟩
          intro r1 h1
          rcases List.mem_cons.1 h1 with e | e
          · rw [e]
            exact k3 r ⟨req, bank, hr, hb, Or.inr (Or.inr ⟨hact, hne⟩)⟩
          · exact k4 r1 e

end CmpDRAMCtlr

namespace CmpDRAMCtlr

/-- The second loop of `FRFCFSDWFScheduler`, entered with every request of the queue
settled: it issues no command, or one precharge to an activated bank whose open row is
not the row of the request and whose bank index is not in `rowHitPresent`. -/
theorem scanPrecharge_issue (ch : Nat) (rowHit : List Nat) :
    ∀ (rs : List Nat) (s s1 : CmpDRAMCtlr),
      scanPrecharge ch rowHit rs s = some s1 → (∀ r ∈ rs, Settled s ch rowHit r) →
      OnlyCycles s s1 ∨
        ∃ r req bank, r ∈ rs ∧ s.requests[r]? = some req ∧
          s.getBank ch req.dramRankID req.dramBankID = some bank ∧
          req.dramBankID ∉ rowHit ∧ bank.state = .BANK_ACTIVATED ∧
          bank.openRow ≠ req.dramRowID ∧
          s1.issued = s.issued ++
            [DRAMIssue.mk ch req.dramRankID req.dramBankID .CMD_PRE s._currentCycle] := by
  intro rs
  induction rs with
  | nil =>
    intro s s1 h _
    simp only [scanPrecharge, Option.some.injEq] at h
    rw [← h]
    exact Or.inl (OnlyCycles.only_refl s)
  | cons r rs ih =>
    intro s s1 h hall
    unfold scanPrecharge at h
    rcases hr : s.requests[r]? with _ | req
    · simp [hr] at h
    simp only [hr] at h
    -- what the recursive call on a state with another `currentCycle` gives
    have hrec : ∀ (c : Nat),
        (req.currentCycle ≤ c ∨ req.currentCycle ≤ s._currentCycle) →
        scanPrecharge ch rowHit rs (s.setRequest r { req with currentCycle := c }) =
          some s1 →
        OnlyCycles s s1 ∨
          ∃ r1 req1 bank1, r1 ∈ r :: rs ∧ s.requests[r1]? = some req1 ∧
            s.getBank ch req1.dramRankID req1.dramBankID = some bank1 ∧
            req1.dramBankID ∉ rowHit ∧ bank1.state = .BANK_ACTIVATED ∧
            bank1.openRow ≠ req1.dramRowID ∧
            s1.issued = s.issued ++
              [DRAMIssue.mk ch req1.dramRankID req1.dramBankID .CMD_PRE s._currentCycle] := by
      intro c hc hscan
      have hoc := OnlyCycles.only_set hr c
      rcases ih _ _ hscan (fun r1 h1 =>
        (hall r1 (List.mem_cons_of_mem _ h1)).settled_set hr hc (fun b hb => hb)) with
        f | ⟨r1, req1, bank1, m1, m2, m3, m4, m5, m6, m7⟩
      · exact Or.inl (hoc.only_trans f)
      · obtain ⟨req0, g1, g2, g3, g4⟩ := hoc.2.2.2 r1 req1 m2
        refine Or.inr ⟨r1, req0, bank1, List.mem_cons_of_mem _ m1, g1, ?_, ?_, m5, ?_, ?_⟩
        · rw [← g2, ← g3]
          exact m3
        · rw [← g3]
          exact m4
        · rw [← g4]
          exact m6
        · rw [← g2, ← g3]
          exact m7
    have hrec0 : scanPrecharge ch rowHit rs s = some s1 →
        OnlyCycles s s1 ∨
          ∃ r1 req1 bank1, r1 ∈ r :: rs ∧ s.requests[r1]? = some req1 ∧
            s.getBank ch req1.dramRankID req1.dramBankID = some bank1 ∧
            req1.dramBankID ∉ rowHit ∧ bank1.state = .BANK_ACTIVATED ∧
            bank1.openRow ≠ req1.dramRowID ∧
            s1.issued = s.issued ++
              [DRAMIssue.mk ch req1.dramRankID req1.dramBankID .CMD_PRE s._currentCycle] := by
      intro hscan
      rcases ih _ _ hscan (fun r1 h1 => hall r1 (List.mem_cons_of_mem _ h1)) with
        f | ⟨r1, req1, bank1, m1, m2, m3, m4, m5, m6, m7⟩
      · exact Or.inl f
      · exact Or.inr ⟨r1, req1, bank1, List.mem_cons_of_mem _ m1, m2, m3, m4, m5, m6, m7⟩
    by_cases h1 : req.dramBankID < MAX_BANKS
    · rw [if_pos h1] at h
      by_cases h2 : req.dramBankID ∉ rowHit
      · rw [if_pos h2] at h
        rcases hb : s.getBank ch req.dramRankID req.dramBankID with _ | bank
        · simp [hb] at h
        simp only [hb] at h
        split_ifs at h with h4
        · -- the precharge is issued
          obtain ⟨req0, bank0, k1, k2, k3⟩ := hall r (List.mem_cons_self _ _)
          rw [hr] at k1
          cases k1
          rw [hb] at k2
          cases k2
          have hst : bank.state = .BANK_ACTIVATED ∧ bank.openRow ≠ req.dramRowID := by
            rcases k3 with ⟨_, _, a3⟩ | ⟨_, a2⟩ | ⟨a1, a2⟩
            · exact absurd a3 h2
            · omega
            · exact ⟨a1, a2⟩
          exact Or.inr ⟨r, req, bank, List.mem_cons_self _ _, hr, hb, h2, hst.1, hst.2,
            issued_after_set h⟩
        · exact hrec _ (Or.inl (by omega)) h
      · rw [if_neg h2] at h
        split_ifs at h with h3
        · exact hrec _ (Or.inr h3) h
        · exact hrec0 h
    · rw [if_neg h1] at h
      cases h

theorem switchMode_ranks (s : CmpDRAMCtlr) (c : DRAMChannel) :
    (s.switchMode c).ranks = c.ranks := by
  unfold switchMode
  split
  · rfl
  · split <;> rfl

end CmpDRAMCtlr

/-- **C35.** DRAM bank state machine validity. `ScheduleRequest` is called by
`FRFCFSDWFScheduler` only. For every state `s` of the controller and every channel `ch`,
if `FRFCFSDWFScheduler` returns, it has issued no command and changed no bank, or it has
issued exactly one command `cmd`, for a request `r` of the queue of the mode the channel is
in after the mode switch, to the bank of that request, and in the state `s` in which it was
called: an ACT found the bank precharged; a READ or WRITE (READ exactly in read mode) found
it activated with the row of the request open; a PRE found it activated with another row
open, and no request of the queue with the same bank index is a row hit. A bank index of
16 or more met in the queue ends the call in the exception of `bitset::set` or `test`,
after which nothing is issued. -/
theorem C35_bank_state_machine (next : Hierarchy) (s s1 : CmpDRAMCtlr) (ch : Nat)
    (h : CmpDRAMCtlr.FRFCFSDWFScheduler next s ch = some s1) :
    ∃ chan0, s._channels[ch]? = some chan0 ∧
      ((s1.issued = s.issued ∧
          ∀ ch1 rk bk, s1.getBank ch1 rk bk = s.getBank ch1 rk bk) ∨
        ∃ r req bank cmd,
          r ∈ (s.switchMode chan0).queue (s.switchMode chan0).mode ∧
          s.requests[r]? = some req ∧
          s.getBank ch req.dramRankID req.dramBankID = some bank ∧
          s1.issued = s.issued ++
            [DRAMIssue.mk ch req.dramRankID req.dramBankID cmd s._currentCycle] ∧
          (cmd = .CMD_ACT → bank.state = .BANK_PRECHARGED) ∧
          (cmd = .CMD_READ ∨ cmd = .CMD_WRITE →
            bank.state = .BANK_ACTIVATED ∧ bank.openRow = req.dramRowID ∧
            (cmd = .CMD_READ ↔ (s.switchMode chan0).mode = .CMODE_READ)) ∧
          (cmd = .CMD_PRE →
            bank.state = .BANK_ACTIVATED ∧ bank.openRow ≠ req.dramRowID ∧
            ∀ r2 ∈ (s.switchMode chan0).queue (s.switchMode chan0).mode,
              ∀ req2, s.requests[r2]? = some req2 → req2.dramBankID = req.dramBankID →
                ¬ s.rowHitOn ch req2)) := by
  unfold CmpDRAMCtlr.FRFCFSDWFScheduler at h
  rcases hc : s._channels[ch]? with _ | chan0
  · simp [hc] at h
  simp only [hc] at h
  refine ⟨chan0, rfl, ?_⟩
  have hbank : ∀ ch1 rk bk,
      (s.modifyChannel ch s.switchMode).getBank ch1 rk bk = s.getBank ch1 rk bk :=
    fun ch1 rk bk =>
      CmpDRAMCtlr.getBank_modifyChannel s ch _ (CmpDRAMCtlr.switchMode_ranks s) ch1 rk bk
  -- an issue by the first loop, told in the state `s`
  have hcol : ∀ cmd : DRAMCommand,
      cmd = (if (s.switchMode chan0).mode = .CMODE_READ then DRAMCommand.CMD_READ
        else .CMD_WRITE) →
      (cmd = .CMD_READ ↔ (s.switchMode chan0).mode = .CMODE_READ) ∧ cmd ≠ .CMD_ACT ∧
        cmd ≠ .CMD_PRE := by
    intro cmd hcmd
    by_cases hm : (s.switchMode chan0).mode = .CMODE_READ
    · rw [if_pos hm] at hcmd
      subst hcmd
      exact ⟨⟨fun _ => hm, fun _ => rfl⟩, by decide, by decide⟩
    · rw [if_neg hm] at hcmd
      subst hcmd
      exact ⟨⟨(fun e => by cases e), fun e => absurd e hm⟩, by decide, by decide⟩
  split_ifs at h with h1
  · simp only [Option.some.injEq] at h
    rw [← h]
    exact Or.inl ⟨rfl, hbank⟩
  · split at h
    · cases h
    · rename_i s2 hsr
      simp only [Option.some.injEq] at h
      subst h
      obtain ⟨r, req, bank, cmd, m1, m2, m3, m4, m5⟩ :=
        (CmpDRAMCtlr.scanReady_issue next ch _ _ _ _ _ _ _ hsr).1 rfl
      rw [hbank] at m3
      refine Or.inr ⟨r, req, bank, cmd, m1, m2, m3, m4, ?_, ?_, ?_⟩
      · intro hcmd
        rcases m5 with ⟨_, a2⟩ | ⟨a1, _, _⟩
        · exact a2
        · exact absurd hcmd (hcol cmd a1).2.1
      · intro hcmd
        rcases m5 with ⟨a1, _⟩ | ⟨a1, a2, a3⟩
        · rw [a1] at hcmd
          rcases hcmd with e | e <;> cases e
        · exact ⟨a2, a3, (hcol cmd a1).1⟩
      · intro hcmd
        rcases m5 with ⟨a1, _⟩ | ⟨a1, _, _⟩
        · rw [a1] at hcmd
          cases hcmd
        · exact absurd hcmd (hcol cmd a1).2.2
    · rename_i s2 rowHit hsr
      obtain ⟨k1, -, -, k4⟩ :=
        (CmpDRAMCtlr.scanReady_issue next ch _ _ _ _ _ _ _ hsr).2 rowHit rfl
      rcases CmpDRAMCtlr.scanPrecharge_issue ch rowHit _ _ _ h k4 with
        f | ⟨r, req2, bank, m1, m2, m3, m4, m5, m6, m7⟩
      · have hoc := k1.only_trans f
        refine Or.inl ⟨hoc.2.1, ?_⟩
        intro ch1 rk bk
        rw [hoc.getBank_eq, hbank]
      · obtain ⟨req, g1, g2, g3, g4⟩ := k1.2.2.2 r req2 m2
        have hg1 : s.requests[r]? = some req := g1
        rw [k1.getBank_eq, hbank, g2, g3] at m3
        rw [g3] at m4
        rw [g4] at m6
        rw [k1.2.1, k1.2.2.1, g2, g3] at m7
        refine Or.inr ⟨r, req, bank, .CMD_PRE, m1, hg1, m3, m7, ?_, ?_, ?_⟩
        · intro e
          cases e
        · intro e
          rcases e with e | e <;> cases e
        · intro _
          refine ⟨m5, m6, ?_⟩
          intro r2 hr2 reqA hA hsame hhit
          obtain ⟨reqB, bankB, b1, b2, b3⟩ := k4 r2 hr2
          obtain ⟨reqC, c1, c2, c3, c4⟩ := k1.2.2.2 r2 reqB b1
          have hC : s.requests[r2]? = some reqC := c1
          rw [hA] at hC
          cases hC
          rw [k1.getBank_eq, hbank, c2, c3] at b2
          obtain ⟨bankH, d1, d2, d3⟩ := hhit
          rw [b2] at d1
          cases d1
          rcases b3 with ⟨_, _, a3⟩ | ⟨a1, _⟩ | ⟨_, a2⟩
          · rw [c3, hsame] at a3
            exact m4 a3
          · rw [a1] at d2
            cases d2
          · rw [c4] at a2
            exact a2 d3

/-- Witness for C35: with row 0 of bank 0 open and a read of row 1 waiting,
`FRFCFSDWFScheduler` at controller cycle 96 issues a PRE to bank 0, which is activated
with row 0 open. -/
theorem C35_bank_state_machine_witness :
    ∃ s1, CmpDRAMCtlr.FRFCFSDWFScheduler Hierarchy.idle CmpDRAMCtlr.rowMiss 0 = some s1 ∧
      s1.issued = [⟨0, 0, 0, .CMD_ACT, 0⟩, ⟨0, 0, 0, .CMD_READ, 40⟩, ⟨0, 0, 0, .CMD_PRE, 96⟩] ∧
      (CmpDRAMCtlr.rowMiss.getBank 0 0 0).map (fun b => (b.state, b.openRow)) =
        some (.BANK_ACTIVATED, 0) ∧
      (CmpDRAMCtlr.rowMiss.requests[1]?).map (fun r => r.dramRowID) = some 1 ∧
      ∃ chan0, CmpDRAMCtlr.rowMiss._channels[0]? = some chan0 ∧
        ((s1.issued = CmpDRAMCtlr.rowMiss.issued ∧
            ∀ ch1 rk bk, s1.getBank ch1 rk bk = CmpDRAMCtlr.rowMiss.getBank ch1 rk bk) ∨
          ∃ r req bank cmd,
            r ∈ (CmpDRAMCtlr.rowMiss.switchMode chan0).queue
              (CmpDRAMCtlr.rowMiss.switchMode chan0).mode ∧
            CmpDRAMCtlr.rowMiss.requests[r]? = some req ∧
            CmpDRAMCtlr.rowMiss.getBank 0 req.dramRankID req.dramBankID = some bank ∧
            s1.issued = CmpDRAMCtlr.rowMiss.issued ++
              [DRAMIssue.mk 0 req.dramRankID req.dramBankID cmd
                CmpDRAMCtlr.rowMiss._currentCycle] ∧
            (cmd = .CMD_ACT → bank.state = .BANK_PRECHARGED) ∧
            (cmd = .CMD_READ ∨ cmd = .CMD_WRITE →
              bank.state = .BANK_ACTIVATED ∧ bank.openRow = req.dramRowID ∧
              (cmd = .CMD_READ ↔
                (CmpDRAMCtlr.rowMiss.switchMode chan0).mode = .CMODE_READ)) ∧
            (cmd = .CMD_PRE →
              bank.state = .BANK_ACTIVATED ∧ bank.openRow ≠ req.dramRowID ∧
              ∀ r2 ∈ (CmpDRAMCtlr.rowMiss.switchMode chan0).queue
                  (CmpDRAMCtlr.rowMiss.switchMode chan0).mode,
                ∀ req2, CmpDRAMCtlr.rowMiss.requests[r2]? = some req2 →
                  req2.dramBankID = req.dramBankID →
                  ¬ CmpDRAMCtlr.rowMiss.rowHitOn 0 req2)) := by
  have hs : (CmpDRAMCtlr.FRFCFSDWFScheduler Hierarchy.idle CmpDRAMCtlr.rowMiss 0).isSome =
      true := by rfl
  exact ⟨Option.get _ hs, (Option.some_get hs).symm, by rfl, by rfl, by rfl,
    C35_bank_state_machine Hierarchy.idle CmpDRAMCtlr.rowMiss (Option.get _ hs) 0
      (Option.some_get hs).symm⟩

namespace ComponentWorld

theorem drainLoop_clock (process : Processing) (send : Hierarchy) :
    ∀ (fuel r : Nat) (w w1 : ComponentWorld),
      drainLoop process send fuel r w = some w1 →
      w1.simulatorCycle = w.simulatorCycle ∧
      ∃ new, w1.calls = w.calls ++ new ∧
        (∀ e ∈ new, e.simulatorCycle = w.simulatorCycle ∧ e.Timely) ∧
        ((∀ b q reqs qu, (process b q reqs qu).1 < 2 ^ 63) → w.simulatorCycle ≤ 2 ^ 63 →
          w.cmp._currentCycle ≤ w1.cmp._currentCycle ∧
          (∀ e ∈ new, w.cmp._currentCycle ≤ e.localCycle ∧ e.localCycle ≤ e.localAfter ∧
            e.localAfter ≤ w1.cmp._currentCycle) ∧
          new.Pairwise (fun a b => a.localAfter ≤ b.localCycle)) := by
  intro fuel
  induction fuel with
  | zero => intro r w w1 h; cases h
  | succ fuel ih =>
    intro r w w1 h
    unfold drainLoop at h
    rcases hr : w.requests[r]? with _ | req
    · simp [hr] at h
    simp only [hr] at h
    by_cases hcc : req.currentCycle ≤ w.simulatorCycle
    · rw [if_pos hcc] at h
      by_cases hcur : w.cmp._currentCycle > w.simulatorCycle
      · rw [if_pos hcur] at h
        have h1 := ih _ _ _ h
        exact h1
      · rw [if_neg hcur] at h
        have h64 : UINT64_MOD = 18446744073709551616 := by decide
        generalize hout : process req.serviced r
          (if req.serviced = true then w.requests
            else w.requests.set r
              { req with currentCycle := max req.currentCycle w.cmp._currentCycle })
          (w.cmp._queue.erase r) = out at h
        generalize send r out.2.1 out.2.2 = sent at h
        have hnow : max req.currentCycle w.cmp._currentCycle ≤ w.simulatorCycle := by omega
        have hT : ∀ e : DrainCall,
            e = ⟨req.serviced, r, req.currentCycle,
              if req.serviced = true then req.currentCycle
              else max req.currentCycle w.cmp._currentCycle,
              max req.currentCycle w.cmp._currentCycle,
              add64 (max req.currentCycle w.cmp._currentCycle) out.1, w.simulatorCycle⟩ →
            e.simulatorCycle = w.simulatorCycle ∧ e.Timely := by
          intro e he
          subst he
          refine ⟨rfl, hcc, ?_, hnow, ?_, ?_, ?_⟩
          · show (if req.serviced = true then req.currentCycle
              else max req.currentCycle w.cmp._currentCycle) ≤ w.simulatorCycle
            split_ifs <;> omega
          · show req.currentCycle ≤ (if req.serviced = true then req.currentCycle
              else max req.currentCycle w.cmp._currentCycle)
            split_ifs <;> omega
          · show req.currentCycle ≤ max req.currentCycle w.cmp._currentCycle
            omega
          · intro hs
            show (if req.serviced = true then req.currentCycle
              else max req.currentCycle w.cmp._currentCycle) = _
            have hs1 : req.serviced = false := hs
            rw [hs1]
            rfl
        have hadd : (∀ b q reqs qu, (process b q reqs qu).1 < 2 ^ 63) →
            w.simulatorCycle ≤ 2 ^ 63 →
            add64 (max req.currentCycle w.cmp._currentCycle) out.1 =
              max req.currentCycle w.cmp._currentCycle + out.1 := by
          intro hb hs
          have := hb req.serviced r
            (if req.serviced = true then w.requests
              else w.requests.set r
                { req with currentCycle := max req.currentCycle w.cmp._currentCycle })
            (w.cmp._queue.erase r)
          rw [hout] at this
          unfold add64
          rw [h64]
          omega
        generalize hE : (DrainCall.mk req.serviced r req.currentCycle
          (if req.serviced = true then req.currentCycle
            else max req.currentCycle w.cmp._currentCycle)
          (max req.currentCycle w.cmp._currentCycle)
          (add64 (max req.currentCycle w.cmp._currentCycle) out.1) w.simulatorCycle) = E at h
        have hE1 : E.localCycle = max req.currentCycle w.cmp._currentCycle := by rw [← hE]
        have hE2 : E.localAfter = add64 (max req.currentCycle w.cmp._currentCycle) out.1 := by
          rw [← hE]
        split at h
        · simp only [Option.some.injEq] at h
          subst h
          refine ⟨rfl, [E], rfl, ?_, ?_⟩
          · intro e he
            rw [List.mem_singleton] at he
            exact hT e (he.trans hE.symm)
          · intro hb hs
            have ha := hadd hb hs
            refine ⟨?_, ?_, List.pairwise_singleton _ _⟩
            · show w.cmp._currentCycle ≤
                add64 (max req.currentCycle w.cmp._currentCycle) out.1
              omega
            · intro e he
              rw [List.mem_singleton] at he
              subst he
              refine ⟨?_, ?_, ?_⟩
              · rw [hE1]
                omega
              · rw [hE1, hE2]
                omega
              · exact Nat.le_of_eq hE2
        · rename_i r1 _
          obtain ⟨f1, new, f2, f3, f4⟩ := ih _ _ _ h
          refine ⟨f1, E :: new, ?_, ?_, ?_⟩
          · rw [f2]
            simp only [List.append_assoc, List.singleton_append]
          · intro e he
            rcases List.mem_cons.1 he with e1 | e1
            · exact hT e (e1.trans hE.symm)
            · exact f3 e e1
          · intro hb hs
            have ha := hadd hb hs
            obtain ⟨g1, g2, g3⟩ := f4 hb hs
            have g1a : add64 (max req.currentCycle w.cmp._currentCycle) out.1 ≤
                w1.cmp._currentCycle := g1
            refine ⟨by omega, ?_, ?_⟩
            · intro e he
              rcases List.mem_cons.1 he with e1 | e1
              · subst e1
                refine ⟨?_, ?_, ?_⟩
                · rw [hE1]
                  omega
                · rw [hE1, hE2]
                  omega
                · rw [hE2]
                  exact g1a
              · obtain ⟨k1, k2, k3⟩ := g2 e e1
                have k1a : add64 (max req.currentCycle w.cmp._currentCycle) out.1 ≤
                    e.localCycle := k1
                exact ⟨by omega, k2, k3⟩
            · rw [List.pairwise_cons]
              refine ⟨?_, g3⟩
              intro e he
              rw [hE2]
              exact (g2 e he).1
    · rw [if_neg hcc] at h
      simp only [Option.some.injEq] at h
      subst h
      exact ⟨rfl, [], by simp, (fun e he => by cases he),
        fun _ _ => ⟨Nat.le_refl _, (fun e he => by cases he), List.Pairwise.nil⟩⟩

end ComponentWorld

namespace MemorySimulator

/-- No function of a component writes the simulator cycle. -/
theorem simulator_cycle_kept : ∀ (fuel : Nat),
    (∀ c r s s1, AddRequest fuel c r s = some s1 → s1._currentCycle = s._currentCycle) ∧
    (∀ c s s1, ProcessPendingRequests fuel c s = some s1 →
      s1._currentCycle = s._currentCycle) ∧
    (∀ c r s s1, ProcessLoop fuel c r s = some s1 → s1._currentCycle = s._currentCycle) ∧
    (∀ c r s s1, SendToNextComponent fuel c r s = some s1 →
      s1._currentCycle = s._currentCycle) := by
  intro fuel
  induction fuel with
  | zero =>
    refine ⟨?_, ?_, ?_, ?_⟩
    · intro c r s s1 h
      simp only [AddRequest] at h
      cases h
    · intro c s s1 h
      simp only [ProcessPendingRequests] at h
      cases h
    · intro c r s s1 h
      simp only [ProcessLoop] at h
      cases h
    · intro c r s s1 h
      simp only [SendToNextComponent] at h
      cases h
  | succ fuel ih =>
    obtain ⟨ihA, ihP, ihL, ihS⟩ := ih
    refine ⟨?_, ?_, ?_, ?_⟩
    · intro c r s s1 h
      simp only [AddRequest] at h
      rcases hc : s._components[c]? with _ | cmp
      · simp [hc] at h
      simp only [hc] at h
      split_ifs at h
      · cases h
        rfl
      · have e := ihP _ _ _ h
        exact e
    · intro c s s1 h
      simp only [ProcessPendingRequests] at h
      rcases hc : s._components[c]? with _ | cmp
      · simp [hc] at h
      simp only [hc] at h
      split_ifs at h
      · cases h
        rfl
      · split at h
        · cases h
          rfl
        · have e := ihL _ _ _ _ h
          exact e
    · intro c r s s1 h
      simp only [ProcessLoop] at h
      rcases hc : s._components[c]? with _ | cmp
      · simp [hc] at h
      rcases hr : s.requests[r]? with _ | req
      · simp [hc, hr] at h
      simp only [hc, hr] at h
      by_cases hcc : req.currentCycle ≤ s._currentCycle
      · rw [if_pos hcc] at h
        by_cases hcur : cmp._currentCycle > s._currentCycle
        · rw [if_pos hcur] at h
          have e := ihL _ _ _ _ h
          exact e
        · rw [if_neg hcur] at h
          by_cases hs : req.serviced = true
          · simp only [hs, if_true] at h
            split at h
            · cases h
            · rename_i s2 hsend
              have e2 := ihS _ _ _ _ hsend
              split at h
              · cases h
              · split at h
                · cases h
                  exact e2
                · exact (ihL _ _ _ _ h).trans e2
          · simp only [hs, if_false] at h
            split at h
            · cases h
            · rename_i s2 hsend
              have e2 := ihS _ _ _ _ hsend
              split at h
              · cases h
              · split at h
                · cases h
                  exact e2
                · exact (ihL _ _ _ _ h).trans e2
      · rw [if_neg hcc] at h
        cases h
        rfl
    · intro c r s s1 h
      simp only [SendToNextComponent] at h
      rcases hr : s.requests[r]? with _ | req
      · simp [hr] at h
      simp only [hr] at h
      by_cases h1 : req.destroy = true
      · rw [if_pos h1] at h
        cases h
        rfl
      rw [if_neg h1] at h
      by_cases h2 : req.type = .CLEAN
      · rw [if_pos h2] at h
        have e := ihA _ _ _ _ h
        exact e
      rw [if_neg h2] at h
      by_cases h3 : req.stalling = true
      · rw [if_pos h3] at h
        cases h
        rfl
      rw [if_neg h3] at h
      by_cases h4 : req.serviced = true
      · rw [if_pos h4] at h
        by_cases h5 : req.cmpID = 0
        · rw [if_pos h5] at h
          cases h
          rfl
        · rw [if_neg h5] at h
          split at h
          · cases h
          · have e := ihA _ _ _ _ h
            exact e
      rw [if_neg h4] at h
      split at h
      · cases h
      · rename_i stages _
        by_cases h6 : (req.cmpID + 1) % UINT32_MOD = stages.length
        · rw [if_pos h6] at h
          split at h
          · cases h
          · have e := ihA _ _ _ _ h
            exact e
        · rw [if_neg h6] at h
          split at h
          · cases h
          · have e := ihA _ _ _ _ h
            exact e

theorem processAll_cycle (fuel : Nat) : ∀ (cs : List Nat) (s s1 : MemorySimulator),
    processAll fuel cs s = some s1 → s1._currentCycle = s._currentCycle := by
  intro cs
  induction cs with
  | nil =>
    intro s s1 h
    simp only [processAll, Option.some.injEq] at h
    rw [h]
  | cons c cs ih =>
    intro s s1 h
    simp only [processAll, Option.bind_eq_some] at h
    obtain ⟨s2, h1, h2⟩ := h
    exact (ih _ _ h2).trans ((simulator_cycle_kept fuel).2.1 _ _ _ h1)

end MemorySimulator

/-- **C36.** Clocks only move forward. Let the base drain loop
`MemoryComponent::ProcessPendingRequests` of a component run with any behaviour `process`
of the virtual `ProcessRequest`/`ProcessReturn` and any behaviour `send` of the rest of
the hierarchy in `SendToNextComponent`. If it returns, the simulator cycle is as before,
and for every call `e` of a virtual function it has made: the `currentCycle` the request
had when dequeued, the `currentCycle` with which the function is entered and the
`_currentCycle` of the component are all at most the simulator cycle; the request enters
with a `currentCycle` at least the dequeued one; and `ProcessRequest` is entered with the
`currentCycle` of the request equal to the `_currentCycle` of the component. If the busy
cycles returned are below `2 ^ 63` and the simulator cycle is at most `2 ^ 63` (so that no
`uint64` sum wraps), the `_currentCycle` of the component never decreases: it is at most
the cycle at the first call, does not decrease during a call or between calls, and ends
at least as large. `MemorySimulator::AdvanceSimulation(now)`, where it returns, leaves the
simulator cycle at the larger of `now` and its old value. -/
theorem C36_clocks_move_forward (process : Processing) (send : Hierarchy) (fuel : Nat)
    (w w1 : ComponentWorld)
    (h : ComponentWorld.ProcessPendingRequests process send fuel w = some w1) :
    w1.simulatorCycle = w.simulatorCycle ∧
    (∃ new, w1.calls = w.calls ++ new ∧
      (∀ e ∈ new, e.simulatorCycle = w.simulatorCycle ∧
        e.dequeued ≤ e.simulatorCycle ∧ e.requestCycle ≤ e.simulatorCycle ∧
        e.localCycle ≤ e.simulatorCycle ∧ e.dequeued ≤ e.requestCycle ∧
        e.dequeued ≤ e.localCycle ∧ (e.isReturn = false → e.requestCycle = e.localCycle)) ∧
      ((∀ b q reqs qu, (process b q reqs qu).1 < 2 ^ 63) → w.simulatorCycle ≤ 2 ^ 63 →
        w.cmp._currentCycle ≤ w1.cmp._currentCycle ∧
        (∀ e ∈ new, w.cmp._currentCycle ≤ e.localCycle ∧ e.localCycle ≤ e.localAfter ∧
          e.localAfter ≤ w1.cmp._currentCycle) ∧
        new.Pairwise (fun a b => a.localAfter ≤ b.localCycle))) ∧
    (∀ (fuel2 now : Nat) (s s1 : MemorySimulator),
      MemorySimulator.AdvanceSimulation fuel2 now s = some s1 →
      s._currentCycle ≤ s1._currentCycle ∧ s1._currentCycle = max now s._currentCycle) := by
  refine ⟨?_, ?_, ?_⟩
  · unfold ComponentWorld.ProcessPendingRequests at h
    split_ifs at h
    · cases h
      rfl
    · split at h
      · cases h
        rfl
      · exact (ComponentWorld.drainLoop_clock process send _ _ _ _ h).1
  · unfold ComponentWorld.ProcessPendingRequests at h
    have hnil : w1 = w → ∃ new, w1.calls = w.calls ++ new ∧
        (∀ e ∈ new, e.simulatorCycle = w.simulatorCycle ∧
          e.dequeued ≤ e.simulatorCycle ∧ e.requestCycle ≤ e.simulatorCycle ∧
          e.localCycle ≤ e.simulatorCycle ∧ e.dequeued ≤ e.requestCycle ∧
          e.dequeued ≤ e.localCycle ∧
          (e.isReturn = false → e.requestCycle = e.localCycle)) ∧
        ((∀ b q reqs qu, (process b q reqs qu).1 < 2 ^ 63) → w.simulatorCycle ≤ 2 ^ 63 →
          w.cmp._currentCycle ≤ w1.cmp._currentCycle ∧
          (∀ e ∈ new, w.cmp._currentCycle ≤ e.localCycle ∧ e.localCycle ≤ e.localAfter ∧
            e.localAfter ≤ w1.cmp._currentCycle) ∧
          new.Pairwise (fun a b => a.localAfter ≤ b.localCycle)) := by
      intro e
      subst e
      exact ⟨[], by simp, (fun e he => by cases he),
        fun _ _ => ⟨Nat.le_refl _, (fun e he => by cases he), List.Pairwise.nil⟩⟩
    split_ifs at h
    · exact hnil (Option.some.inj h).symm
    · split at h
      · exact hnil (Option.some.inj h).symm
      · obtain ⟨-, new, f2, f3, f4⟩ := ComponentWorld.drainLoop_clock process send _ _ _ _ h
        refine ⟨new, f2, ?_, f4⟩
        intro e he
        obtain ⟨k1, k2, k3, k4, k5, k6, k7⟩ := f3 e he
        exact ⟨k1, k2, k3, k4, k5, k6, k7⟩
  · intro fuel2 now s s1 h2
    unfold MemorySimulator.AdvanceSimulation at h2
    have e := MemorySimulator.processAll_cycle fuel2 _ _ _ h2
    rw [e]
    split_ifs with hn
    · show s._currentCycle ≤ now ∧ now = max now s._currentCycle
      omega
    · omega

/-- Witness for C36: a component at local cycle 2 with two requests of cycles 5 and 4
queued, the simulator at cycle 10, `ProcessRequest` taking 3 cycles. Request 1 is processed
at local cycle 4 and request 0, dequeued with cycle 5, at local cycle 7. -/
theorem C36_clocks_move_forward_witness :
    ∃ w1, ComponentWorld.ProcessPendingRequests Processing.threeCycles Hierarchy.idle 5
        ComponentWorld.twoQueued = some w1 ∧
      w1.calls = [⟨false, 1, 4, 4, 4, 7, 10⟩, ⟨false, 0, 5, 7, 7, 10, 10⟩] ∧
      w1.cmp._currentCycle = 10 ∧ w1.simulatorCycle = 10 := by
  have hs : (ComponentWorld.ProcessPendingRequests Processing.threeCycles Hierarchy.idle 5
      ComponentWorld.twoQueued).isSome = true := by rfl
  have h := C36_clocks_move_forward Processing.threeCycles Hierarchy.idle 5
    ComponentWorld.twoQueued (Option.get _ hs) (Option.some_get hs).symm
  exact ⟨Option.get _ hs, (Option.some_get hs).symm, by rfl, by rfl, h.1⟩

theorem amap_set_lookup_ne {α : Type} (m : List (Nat × α)) (k k1 : Nat) (v : α)
    (hne : k1 ≠ k) : (amap_set m k v).lookup k1 = m.lookup k1 := by
  unfold amap_set
  split_ifs with h
  · clear h
    induction m with
    | nil => rfl
    | cons a m ih =>
      rw [List.map_cons, amap_lookup_cons, amap_lookup_cons, ih]
      by_cases e : a.1 = k
      · rw [if_pos e]
        show (if k1 = k then _ else _) = _
        rw [if_neg hne, if_neg (by rw [e]; exact hne)]
      · rw [if_neg e]
  · clear h
    induction m with
    | nil =>
      rw [List.nil_append, amap_lookup_cons, if_neg hne]
    | cons a m ih =>
      rw [List.cons_append, amap_lookup_cons, amap_lookup_cons, ih]

theorem pMAT_at_lookup_self (m : List (Nat × saturating_counter)) (k : Nat)
    (f : saturating_counter → saturating_counter) :
    (pMAT_at m k f).lookup k = some (f ((m.lookup k).getD (saturating_counter.new 0 0))) :=
  amap_set_lookup_self _ _ _

theorem pMAT_at_lookup_ne (m : List (Nat × saturating_counter)) (k k1 : Nat)
    (f : saturating_counter → saturating_counter) (hne : k1 ≠ k) :
    (pMAT_at m k f).lookup k1 = m.lookup k1 :=
  amap_set_lookup_ne _ _ _ _ hne

theorem saturating_counter.decrement_value (c : saturating_counter) :
    c.decrement._value = c._value - 1 := by
  unfold saturating_counter.decrement
  split_ifs with h
  · rfl
  · show c._value = c._value - 1
    omega

theorem saturating_counter.decode_encode_decrement (x : Nat) :
    (saturating_counter.decode (saturating_counter.decode x).decrement.encode)._value =
      (saturating_counter.decode x)._value - 1 := by
  have h1 : (saturating_counter.decode x)._value < UINT32_MOD :=
    Nat.mod_lt _ (by decide)
  rw [← saturating_counter.decrement_value]
  have h2 := saturating_counter.decrement_value (saturating_counter.decode x)
  have h3 : (saturating_counter.decode x).decrement._value < UINT32_MOD := by omega
  show ((saturating_counter.decode x).decrement._value +
    UINT32_MOD * (saturating_counter.decode x).decrement._max) % UINT32_MOD = _
  rw [Nat.add_mul_mod_self_left, Nat.mod_eq_of_lt h3]

theorem table_t.valueAt_modifyValue {t t1 : table_t} {k : Nat} {f : Nat → Nat}
    (h : t.modifyValue k f = some t1) :
    t.lookup k = true ∧ t1.valueAt k = (t.valueAt k).map f ∧ (t.valueAt k).isSome = true := by
  unfold table_t.modifyValue at h
  split_ifs at h with hne
  rcases he : t._table[t.SearchForKey k]? with _ | e
  · rw [he] at h
    cases h
  · rw [he] at h
    simp only [Option.map_some', Option.some.injEq] at h
    subst h
    refine ⟨by simp [table_t.lookup, hne], ?_, by simp [table_t.valueAt, hne, he]⟩
    have hs : table_t.SearchForKey
        { t with _table := t._table.modify (fun e => { e with value := f e.value })
                   (t.SearchForKey k) } k = t.SearchForKey k := rfl
    unfold table_t.valueAt
    rw [hs]
    show (if t.SearchForKey k ≠ t._size then
      ((t._table.modify (fun e => { e with value := f e.value })
        (t.SearchForKey k))[t.SearchForKey k]?).map (fun e => e.value) else none) = _
    rw [if_pos hne, if_pos hne, List.getElem?_modify, he]
    simp

namespace CmpRTBCache

theorem regionCounters_spec {c c1 : CmpRTBCache} {a b mv cv : Nat}
    (h : c.regionCounters a b = some (mv, cv, c1)) :
    mv = c.regionValue a ∧ cv = c.regionValue b - 1 ∧
      c1 = { c with _pMAT := c1._pMAT, _MAT := c1._MAT } := by
  unfold regionCounters at h
  by_cases hM : c._MATSize ≠ 0
  · rw [if_pos hM] at h
    rcases hv : c._MAT.valueAt a with _ | v
    · rw [hv] at h
      cases h
    · rw [hv] at h
      simp only [Option.some_bind] at h
      have hla : c._MAT.lookup a = true := by
        unfold table_t.valueAt at hv
        split_ifs at hv with hne
        simp [table_t.lookup, hne]
      have hra : c.regionValue a = (saturating_counter.decode v)._value := by
        simp [regionValue, hM, hla, hv]
      by_cases hlb : c._MAT.lookup b = true
      · rw [if_pos hlb] at h
        rcases hm : c._MAT.modifyValue b
            (fun x => (saturating_counter.decode x).decrement.encode) with _ | m1
        · rw [hm] at h
          cases h
        · rw [hm] at h
          simp only [Option.some_bind] at h
          obtain ⟨_, h2, h3⟩ := table_t.valueAt_modifyValue hm
          rcases hb : c._MAT.valueAt b with _ | x
          · rw [hb] at h3
            cases h3
          · rw [h2, hb] at h
            simp only [Option.map_some', Option.some.injEq, Prod.mk.injEq] at h
            obtain ⟨e1, e2, e3⟩ := h
            refine ⟨by rw [hra, e1], ?_, by rw [← e3]⟩
            rw [← e2, saturating_counter.decode_encode_decrement]
            simp [regionValue, hM, hlb, hb]
      · rw [if_neg hlb] at h
        simp only [Option.some.injEq, Prod.mk.injEq] at h
        obtain ⟨e1, e2, e3⟩ := h
        refine ⟨by rw [hra, e1], ?_, by rw [← e3]⟩
        rw [← e2]
        simp [regionValue, hM, hlb]
  · rw [if_neg hM] at h
    have hra : c.regionValue a =
        ((c._pMAT.lookup a).getD (saturating_counter.new 0 0))._value := by
      unfold regionValue
      rw [if_neg hM]
      cases c._pMAT.lookup a <;> rfl
    have hlk : ((pMAT_at c._pMAT a id).lookup b).map (fun x => x._value) =
        some (c.regionValue b) ∨
        ((pMAT_at c._pMAT a id).lookup b = none ∧ c.regionValue b = 0) := by
      by_cases e : b = a
      · rw [e, pMAT_at_lookup_self]
        left
        rw [hra]
        rfl
      · rw [pMAT_at_lookup_ne _ _ _ _ e]
        unfold regionValue
        rw [if_neg hM]
        cases c._pMAT.lookup b
        · right
          exact ⟨rfl, rfl⟩
        · left
          rfl
    rcases hb : (pMAT_at c._pMAT a id).lookup b with _ | cc
    · rw [hb] at h
      simp only [Option.some.injEq, Prod.mk.injEq] at h
      obtain ⟨e1, e2, e3⟩ := h
      refine ⟨by rw [hra, e1], ?_, by rw [← e3]⟩
      rw [hb] at hlk
      rcases hlk with hlk | hlk
      · cases hlk
      · rw [hlk.2, ← e2]
    · rw [hb] at h
      simp only [Option.some.injEq, Prod.mk.injEq] at h
      obtain ⟨e1, e2, e3⟩ := h
      refine ⟨by rw [hra, e1], ?_, by rw [← e3]⟩
      rw [hb] at hlk
      rcases hlk with hlk | hlk
      · simp only [Option.map_some', Option.some.injEq] at hlk
        rw [← e2, ← hlk, saturating_counter.decrement_value]
      · cases hlk.1

theorem regionCounters_total (c : CmpRTBCache) (a b : Nat) (hM : c._MATSize = 0) :
    (c.regionCounters a b).isSome = true := by
  unfold regionCounters
  rw [if_neg (by simp [hM])]
  cases (pMAT_at c._pMAT a id).lookup b <;> rfl

theorem bypass_spec {c : CmpRTBCache} {mv cv : Nat} {r : CmpRTBCache × List MemoryRequest}
    (h : c.bypass mv cv = some r) :
    r.1 = { c with _pMAT := r.1._pMAT, _MAT := r.1._MAT } ∧ r.2 = [] := by
  unfold bypass at h
  split_ifs at h
  · rcases hm : c._MAT.modifyValue mv
        (fun x => ((saturating_counter.decode x).set cv).encode) with _ | m1
    · rw [hm] at h
      cases h
    · rw [hm] at h
      cases h
      exact ⟨rfl, rfl⟩
  · cases h
    exact ⟨rfl, rfl⟩

theorem bypass_total (c : CmpRTBCache) (mv cv : Nat) (hM : c._MATSize = 0) :
    (c.bypass mv cv).isSome = true := by
  unfold bypass
  rw [if_neg (by simp [hM])]
  rfl

end CmpRTBCache
namespace generic_tagstore_t

theorem lookup_set_sets (ts : generic_tagstore_t) (idx : Nat) (s1 : table_t) (y : Nat)
    (hidx : idx < ts._sets.length) :
    lookup { ts with _sets := ts._sets.set idx s1 } y =
      if y % ts._numSets = idx then some (s1.lookup y) else ts.lookup y := by
  unfold lookup index
  show ((ts._sets.set idx s1)[y % ts._numSets]?).map _ = _
  split_ifs with e
  · rw [e, List.getElem?_set_self hidx]
    rfl
  · rw [List.getElem?_set_ne (Ne.symm e)]

theorem WF.set_lt {numSets N : Nat} {ts : generic_tagstore_t} (h : ts.WF numSets N)
    {idx : Nat} {s : table_t} (hs : ts._sets[idx]? = some s) :
    idx < ts._sets.length ∧ idx < numSets ∧ s.WF N := by
  have hlt : idx < ts._sets.length := by
    rcases Nat.lt_or_ge idx ts._sets.length with h4 | h4
    · exact h4
    · rw [List.getElem?_eq_none h4] at hs
      cases hs
  exact ⟨hlt, by rw [← h.2.1]; exact hlt, h.2.2 s (List.mem_iff_getElem?.2 ⟨_, hs⟩)⟩

theorem WF.set_wf {numSets N : Nat} {ts : generic_tagstore_t} (h : ts.WF numSets N)
    {idx : Nat} {s1 : table_t} (h1 : s1.WF N) :
    WF numSets N { ts with _sets := ts._sets.set idx s1 } := by
  refine ⟨h.1, by simp [h.2.1], ?_⟩
  intro s hs
  rcases List.mem_or_eq_of_mem_set hs with e1 | e1
  · exact h.2.2 s e1
  · rw [e1]
    exact h1

/-- The insert of an absent key into a set with a free slot: only the key is added. -/
theorem WF.insert_free_lookup {numSets N : Nat} {ts : generic_tagstore_t}
    (h : ts.WF numSets N) (hS : 0 < numSets) (key v : Nat) (pval : policy_value_t)
    {s : table_t} (hs : ts._sets[key % numSets]? = some s)
    (habs : ts.lookup key = some false) (hfree : s._freeList ≠ []) :
    ∃ e ts1, ts.insert key v pval = some (e, ts1) ∧ e.valid = false ∧ ts1.WF numSets N ∧
      ts1.Present key ∧
      ∀ y, ts1.lookup y = if y = key then some true else ts.lookup y := by
  obtain ⟨s', e, ts1, hs', hins, hp, hl, hf, -⟩ := h.insert_absent hS key v pval habs
  rw [hs] at hs'
  cases hs'
  obtain ⟨s', e', s1, hs', hswf, hstep, hs1wf, htstep, htswf⟩ :=
    h.tagstore_step hS key (.insert key v pval)
  rw [hs] at hs'
  cases hs'
  have e1 : ts.insert key v pval = ts.step key (.insert key v pval) := rfl
  rw [e1, htstep] at hins
  simp only [Option.some.injEq, Prod.mk.injEq] at hins
  obtain ⟨e2, e3⟩ := hins
  subst e2
  subst e3
  refine ⟨e', _, htstep, hf hfree, htswf, hp, ?_⟩
  have hidx : ts.index key = key % numSets := by
    simp [generic_tagstore_t.index, h.1]
  have hk : map_find s._keyIndex key = none := by
    have hl0 : s.lookup key = false := by
      simp only [generic_tagstore_t.lookup, hidx, hs, Option.map_some',
        Option.some.injEq] at habs
      exact habs
    exact (table_t.lookup_false_iff hswf.2.2.1 key).1 hl0
  rcases hfl : s._freeList with _ | ⟨i, rest⟩
  · exact absurd hfl hfree
  obtain ⟨t1, ht1, -, hiff⟩ := table_t.lookup_after_free hswf v pval hk hfl
  have e4 : s.step (.insert key v pval) = s.insert key v pval := rfl
  rw [e4, ht1] at hstep
  simp only [Option.some.injEq, Prod.mk.injEq] at hstep
  obtain ⟨-, e5⟩ := hstep
  subst e5
  intro y
  rw [lookup_set_sets _ _ _ _ (h.set_lt hs).1, h.1]
  by_cases hy : y = key
  · rw [if_pos (by rw [hy]), if_pos hy, (hiff y).2 (Or.inl hy)]
  · rw [if_neg hy]
    split_ifs with e6
    · unfold generic_tagstore_t.lookup generic_tagstore_t.index
      rw [h.1, e6, hs]
      simp only [Option.map_some', Option.some.injEq]
      apply Bool.eq_iff_iff.2
      rw [hiff y]
      simp [hy]
    · rfl

/-- The invalidation of a present key: only the key is removed, and its set has a free
slot afterwards. -/
theorem WF.invalidate_routed {numSets N : Nat} {ts : generic_tagstore_t}
    (h : ts.WF numSets N) (k : Nat)
    {s : table_t} (hs : ts._sets[k % numSets]? = some s)
    (hl : ts.lookup k = some true) :
    ∃ (e : entry) (i : Nat) (ts1 : generic_tagstore_t) (s1 : table_t),
      s._table[i]? = some e ∧ e.valid = true ∧ e.key = k ∧
      ts.invalidate k = some (e, ts1) ∧ ts1.WF numSets N ∧
      ts1._sets[k % numSets]? = some s1 ∧ s1._freeList ≠ [] ∧
      ∀ y, ts1.lookup y = if y = k then some false else ts.lookup y := by
  obtain ⟨hlt, -, hswf⟩ := h.set_lt hs
  have hidx : ts.index k = k % numSets := by
    simp [generic_tagstore_t.index, h.1]
  have hl0 : s.lookup k = true := by
    simp only [generic_tagstore_t.lookup, hidx, hs, Option.map_some',
      Option.some.injEq] at hl
    exact hl
  obtain ⟨i, hk⟩ := (table_t.lookup_true_iff hswf.2.2.1 k).1 hl0
  obtain ⟨p1, e, -, he, hv, hkey, -, hinv, hwf1⟩ := table_t.invalidate_hit hswf hk
  obtain ⟨s2, hs2⟩ : ∃ s2 : table_t, s2 =
      { _table := s._table.modify (fun x => { x with valid := false }) i,
        _size := s._size, _keyIndex := map_erase s._keyIndex k,
        _freeList := s._freeList ++ [i], policy := p1 } := ⟨_, rfl⟩
  rw [← hs2] at hinv hwf1
  have hkey2 : s2._keyIndex = map_erase s._keyIndex k := by rw [hs2]
  have hfree2 : s2._freeList = s._freeList ++ [i] := by rw [hs2]
  clear hs2
  refine ⟨e, i, { ts with _sets := ts._sets.set (k % numSets) s2 }, s2, he, hv, hkey, ?_,
    h.set_wf hwf1, ?_, ?_, ?_⟩
  · show ts.step k (.invalidate k) = _
    unfold generic_tagstore_t.step
    rw [hidx, hs]
    have e4 : s.step (.invalidate k) = s.invalidate k := rfl
    simp only [Option.some_bind, e4, hinv, Option.map_some']
  · show (ts._sets.set (k % numSets) s2)[k % numSets]? = _
    rw [List.getElem?_set_self hlt]
  · rw [hfree2]
    simp
  · intro y
    rw [lookup_set_sets _ _ _ _ hlt, h.1]
    have hiff : ∀ y, s2.lookup y = true ↔ (y ≠ k ∧ s.lookup y = true) := by
      intro y
      rw [table_t.lookup_true_iff hwf1.2.2.1, table_t.lookup_true_iff hswf.2.2.1, hkey2]
      simp only [map_find_erase]
      by_cases hy : y = k
      · simp [hy]
      · simp [hy]
    by_cases hy : y = k
    · rw [if_pos (by rw [hy]), if_pos hy]
      congr 1
      apply Bool.eq_false_iff.2
      rw [Ne, hiff]
      simp [hy]
    · rw [if_neg hy]
      split_ifs with e6
      · unfold generic_tagstore_t.lookup generic_tagstore_t.index
        rw [h.1, e6, hs]
        simp only [Option.map_some', Option.some.injEq]
        apply Bool.eq_iff_iff.2
        rw [hiff y]
        simp [hy]
      · rfl

/-- The candidate of a full set: `to_be_evicted` returns the key of the valid entry in the
victim slot of the policy and changes at most the policy state of the set. -/
theorem WF.to_be_evicted_full {numSets N : Nat} {ts : generic_tagstore_t}
    (h : ts.WF numSets N) {idx : Nat} {s : table_t} (hs : ts._sets[idx]? = some s)
    (hfull : s._freeList = []) :
    ∃ i p1 e, GetReplacementIndex s.policy N s._table = some (i, p1) ∧
      s._table[i]? = some e ∧ e.valid = true ∧ e ∈ s._table ∧
      ts.to_be_evicted idx =
        some (e.key, { ts with _sets := ts._sets.set idx { s with policy := p1 } }) ∧
      WF numSets N { ts with _sets := ts._sets.set idx { s with policy := p1 } } ∧
      (∀ y, lookup { ts with _sets := ts._sets.set idx { s with policy := p1 } } y =
        ts.lookup y) ∧
      (s.policy.name = .lru ∨ s.policy.name = .fifo ∨ s.policy.name = .minw → p1 = s.policy) := by
  obtain ⟨hlt, hidx, hN0, hN, hb, hp⟩ := h.set_lt hs
  have hfullv := hb.full_of_nil hfull
  obtain ⟨i, p1, hg, hi, hinv1, _⟩ := policy_victim_ok hN0 hN hp hfullv hfullv
  obtain ⟨e, he, hv⟩ := hfullv i hi
  have hwf1 : table_t.WF N { s with policy := p1 } :=
    ⟨hN0, hN, ⟨hb.size, hb.len, hb.idx, hb.free_nodup, hb.free_iff, hb.key_iff⟩, hinv1⟩
  refine ⟨i, p1, e, hg, he, hv, List.mem_iff_getElem?.2 ⟨_, he⟩, ?_, h.set_wf hwf1, ?_,
    fun hn => victim_pure hn hg⟩
  · unfold generic_tagstore_t.to_be_evicted
    rw [hs]
    simp [table_t.to_be_evicted, hb.size, hg, he]
  · intro y
    rw [lookup_set_sets _ _ _ _ hlt]
    split_ifs with e6
    · unfold generic_tagstore_t.lookup generic_tagstore_t.index
      rw [e6, hs]
      rfl
    · rfl

end generic_tagstore_t
namespace CmpRTBCache

theorem install_spec (c : CmpRTBCache) {numSets N : Nat} (ctag : Nat) (dirty : Bool)
    (request : MemoryRequest) (tagentry : entry)
    (hwf : c._tags.WF numSets N) (hS : 0 < numSets) {s : table_t}
    (hs : c._tags._sets[ctag % numSets]? = some s)
    (habs : c._tags.lookup ctag = some false) (hfree : s._freeList ≠ []) :
    (0 < c._blockSize → request.cpuID < c._occupancy.length →
      (tagentry.valid = true →
        (CmpLLC.TagEntry.decode tagentry.value).appID < c._occupancy.length) →
      (c.install ctag dirty request tagentry).isSome = true) ∧
    ∀ r, c.install ctag dirty request tagentry = some r →
      (∀ y, r.1._tags.lookup y = if y = ctag then some true else c._tags.lookup y) ∧
      r.2 = if tagentry.valid = true ∧ (CmpLLC.TagEntry.decode tagentry.value).dirty = true
        then [c.writeback (CmpLLC.TagEntry.decode tagentry.value) request] else [] := by
  obtain ⟨e, ts1, hins, -, -, hp, hl⟩ :=
    hwf.insert_free_lookup hS ctag CmpLLC.TagEntry.new.encode .POLICY_HIGH hs habs hfree
  obtain ⟨t1, h1, hp1, hl1⟩ := hp.tagstore_modifyValue (fun v => CmpLLC.TagEntry.encode
    { CmpLLC.TagEntry.decode v with
      vcla := BLOCK_ADDRESS request.virtualAddress c._blockSize })
  obtain ⟨t2, h2, hp2, hl2⟩ := hp1.tagstore_modifyValue (fun v => CmpLLC.TagEntry.encode
    { CmpLLC.TagEntry.decode v with
      pcla := BLOCK_ADDRESS request.physicalAddress c._blockSize })
  obtain ⟨t3, h3, hp3, hl3⟩ := hp2.tagstore_modifyValue (fun v => CmpLLC.TagEntry.encode
    { CmpLLC.TagEntry.decode v with dirty := dirty })
  obtain ⟨t4, h4, hp4, hl4⟩ := hp3.tagstore_modifyValue (fun v => CmpLLC.TagEntry.encode
    { CmpLLC.TagEntry.decode v with appID := request.cpuID })
  have hlk : ∀ y, t4.lookup y = if y = ctag then some true else c._tags.lookup y := by
    intro y
    rw [hl4, hl3, hl2, hl1, hl]
  unfold install
  rw [hins]
  simp only [Option.some_bind, h1, h2, h3, h4]
  constructor
  · intro hb hcpu happ
    rw [if_neg (by omega), List.getElem?_eq_getElem hcpu]
    simp only [Option.some_bind]
    by_cases hv : tagentry.valid = true
    · rw [if_pos hv, List.getElem?_eq_getElem (by rw [List.length_set]; exact happ hv)]
      rfl
    · rw [if_neg hv]
      rfl
  · intro r hr
    by_cases hb : c._blockSize = 0
    · rw [if_pos hb] at hr
      cases hr
    rw [if_neg hb] at hr
    rcases ho : c._occupancy[request.cpuID]? with _ | o
    · rw [ho] at hr
      cases hr
    rw [ho] at hr
    simp only [Option.some_bind] at hr
    by_cases hv : tagentry.valid = true
    · rw [if_pos hv] at hr
      rcases ho2 : (c._occupancy.set request.cpuID ((o + 1) % UINT32_MOD))[
          (CmpLLC.TagEntry.decode tagentry.value).appID]? with _ | o2
      · rw [ho2] at hr
        cases hr
      rw [ho2] at hr
      simp only [Option.map_some', Option.some.injEq] at hr
      rw [← hr]
      refine ⟨hlk, ?_⟩
      by_cases hd : (CmpLLC.TagEntry.decode tagentry.value).dirty = true
      · simp [hv, hd]
      · simp [hv, hd]
    · rw [if_neg hv] at hr
      simp only [Option.some.injEq] at hr
      rw [← hr]
      refine ⟨hlk, ?_⟩
      simp [hv]

end CmpRTBCache
/-- Counterexample for C31: a cache with one set of one way that holds block 2 of region 0;
the counters of region 0 and of region 1 are both 0 (each region has been read once). The
set is full, the candidate is block 2, and the counter of the incoming block 16 of region
1 is `≥` the counter of the candidate's region, yet `INSERT_BLOCK` skips the insertion:
block 16 is absent and block 2 still present afterwards. With counters 1 and 1 the block
is installed. -/
theorem C31_equal_zero_counters_bypass :
    (CmpRTBCache.oneBlock 0 0)._tags._sets = [table_t.oneWay
      (CmpLLC.TagEntry.encode ⟨false, 2048, 2048, 0⟩)] ∧
    (table_t.oneWay (CmpLLC.TagEntry.encode ⟨false, 2048, 2048, 0⟩))._freeList = [] ∧
    (CmpRTBCache.oneBlock 0 0)._tags.to_be_evicted 0 =
      some (2, (CmpRTBCache.oneBlock 0 0)._tags) ∧
    (CmpRTBCache.oneBlock 0 0).regionValue (2 / 16) ≤
      (CmpRTBCache.oneBlock 0 0).regionValue (16 / 16) ∧
    (∃ r, (CmpRTBCache.oneBlock 0 0).INSERT_BLOCK 16 false
        (MemoryRequest.new .CPU 0 0 .READ 0 16384 16384 64 7) = some r ∧
      r.1._tags.lookup 16 = some false ∧ r.1._tags.lookup 2 = some true ∧
      r.1._tags = (CmpRTBCache.oneBlock 0 0)._tags) ∧
    (∃ r, (CmpRTBCache.oneBlock 1 1).INSERT_BLOCK 16 false
        (MemoryRequest.new .CPU 0 0 .READ 0 16384 16384 64 7) = some r ∧
      r.1._tags.lookup 16 = some true ∧ r.1._tags.lookup 2 = some false) := by
  refine ⟨rfl, rfl, rfl, by decide, ⟨_, rfl, rfl, rfl, rfl⟩, ⟨_, rfl, rfl, rfl⟩⟩

/-- **C31 (amended).** RTB bypass rule. Let the tag store of a `CmpRTBCache` be well formed
(every set a table in a state kept by the table operations, every block stored in the set
its tag names), with sets, and let `ctag` be absent, as it is when `ProcessRequest` and
`ProcessReturn` call `INSERT_BLOCK`. Write `m` for the counter of the region of `ctag`
(`ctag >> 4`) in the MAT and `k` for the counter of the region of the candidate, at the
call; a region without a counter counts as 0. With the MAT kept in the map
(`_MATSize = 0`), a block size, and the CPU of the request and the CPUs of the stored
blocks within `_occupancy`, `INSERT_BLOCK` returns. Whenever it returns: if the set of
`ctag` has a free way, the block is installed and no other block changes; if the set is
full, the candidate is the valid block in the victim slot of the policy, and
* if `m ≥ k` and `m ≥ 1` (that is, `m` exceeds the candidate's counter after its saturating
  decrement), the block is installed, the candidate removed, no other block changes, and
  one writeback is sent if the candidate was dirty;
* otherwise (`m < k`, or `m = 0`) the insertion is skipped: the tag store is the one before
  the call except for the policy state that `to_be_evicted` has left in the set (none for
  LRU, FIFO and MinW), every lookup answers as before, and nothing is sent. -/
theorem C31_rtb_bypass_amended (c : CmpRTBCache) (numSets ctag : Nat) (dirty : Bool)
    (request : MemoryRequest)
    (hwf : c._tags.WF numSets c._associativity) (hS : 0 < numSets)
    (hroute : ∀ (i : Nat) (s : table_t) (e : entry), c._tags._sets[i]? = some s →
      e ∈ s._table → e.valid = true → e.key % numSets = i)
    (habs : c._tags.lookup ctag = some false) :
    ∃ s, c._tags._sets[ctag % numSets]? = some s ∧
      (c._MATSize = 0 → 0 < c._blockSize → request.cpuID < c._occupancy.length →
        (∀ e ∈ s._table, e.valid = true →
          (CmpLLC.TagEntry.decode e.value).appID < c._occupancy.length) →
        (c.INSERT_BLOCK ctag dirty request).isSome = true) ∧
      ∀ r, c.INSERT_BLOCK ctag dirty request = some r →
        (s._freeList ≠ [] →
          (∀ y, r.1._tags.lookup y = if y = ctag then some true else c._tags.lookup y) ∧
          r.2 = []) ∧
        (s._freeList = [] →
          ∃ i p1 e, GetReplacementIndex s.policy c._associativity s._table = some (i, p1) ∧
            s._table[i]? = some e ∧ e.valid = true ∧ c._tags.lookup e.key = some true ∧
            (c.regionValue (e.key / 16) ≤ c.regionValue (ctag / 16) ∧
                0 < c.regionValue (ctag / 16) →
              (∀ y, r.1._tags.lookup y =
                if y = ctag then some true
                else if y = e.key then some false else c._tags.lookup y) ∧
              r.2 = if (CmpLLC.TagEntry.decode e.value).dirty = true then
                  [c.writeback (CmpLLC.TagEntry.decode e.value) request] else []) ∧
            (¬ (c.regionValue (e.key / 16) ≤ c.regionValue (ctag / 16) ∧
                0 < c.regionValue (ctag / 16)) →
              r.1._tags = { c._tags with
                _sets := c._tags._sets.set (ctag % numSets) { s with policy := p1 } } ∧
              (s.policy.name = .lru ∨ s.policy.name = .fifo ∨ s.policy.name = .minw →
                r.1._tags = c._tags) ∧
              (∀ y, r.1._tags.lookup y = c._tags.lookup y) ∧ r.2 = [])) := by
  have hidx : c._tags.index ctag = ctag % numSets := by
    simp [generic_tagstore_t.index, hwf.1]
  have hlt : ctag % numSets < c._tags._sets.length := by
    rw [hwf.2.1]
    exact Nat.mod_lt _ hS
  obtain ⟨s, hs⟩ : ∃ s, c._tags._sets[ctag % numSets]? = some s :=
    ⟨_, List.getElem?_eq_getElem hlt⟩
  obtain ⟨-, -, hswf⟩ := hwf.set_lt hs
  have hcnt := (hswf.2.2.1.count_eq hswf.2.1).1
  refine ⟨s, hs, ?_⟩
  by_cases hfull : s._freeList = []
  · have hc : s.count = c._associativity := by
      rw [hfull] at hcnt
      simpa using hcnt
    obtain ⟨i, p1, e, hg, he, hv, hmem, hte, hwf1, hlk1, hpure⟩ :=
      hwf.to_be_evicted_full hs hfull
    have hke : e.key % numSets = ctag % numSets := hroute _ s e hs hmem hv
    have hle : c._tags.lookup e.key = some true := by
      unfold generic_tagstore_t.lookup generic_tagstore_t.index
      rw [hwf.1, hke, hs]
      simp only [Option.map_some', Option.some.injEq]
      exact (table_t.lookup_true_iff hswf.2.2.1 e.key).2
        ⟨i, (hswf.2.2.1.key_iff e.key i).2 ⟨e, he, hv, rfl⟩⟩
    have hne : ctag ≠ e.key := by
      intro h
      rw [h, hle] at habs
      cases habs
    obtain ⟨ts1, hts1⟩ : ∃ ts1 : generic_tagstore_t, ts1 =
        { c._tags with _sets := c._tags._sets.set (ctag % numSets) { s with policy := p1 } } :=
      ⟨_, rfl⟩
    rw [← hts1] at hte hwf1 hlk1
    have hunf : c.INSERT_BLOCK ctag dirty request =
        (CmpRTBCache.regionCounters { c with _tags := ts1 } (ctag / 16) (e.key / 16)).bind (fun m =>
          if m.2.1 < m.1 then
            (m.2.2._tags.invalidate e.key).bind (fun inv =>
              CmpRTBCache.install { m.2.2 with _tags := inv.2 } ctag dirty request inv.1)
          else CmpRTBCache.bypass m.2.2 m.1 m.2.1) := by
      unfold CmpRTBCache.INSERT_BLOCK
      rw [if_neg (by rw [hwf.1]; omega), hidx]
      simp only [generic_tagstore_t.count, hs, Option.map_some', Option.some_bind, hc,
        if_true, hte]
    rcases hm : CmpRTBCache.regionCounters { c with _tags := ts1 } (ctag / 16) (e.key / 16) with
      _ | ⟨mv, cv, c1⟩
    · rw [hm] at hunf
      constructor
      · intro hM _ _ _
        have := CmpRTBCache.regionCounters_total { c with _tags := ts1 } (ctag / 16) (e.key / 16) hM
        rw [hm] at this
        cases this
      · intro r hr
        rw [hunf] at hr
        cases hr
    · rw [hm] at hunf
      simp only [Option.some_bind] at hunf
      obtain ⟨hmv, hcv, hc1⟩ := CmpRTBCache.regionCounters_spec hm
      have hmv : mv = c.regionValue (ctag / 16) := hmv
      have hcv : cv = c.regionValue (e.key / 16) - 1 := hcv
      have hcond : cv < mv ↔ (c.regionValue (e.key / 16) ≤ c.regionValue (ctag / 16) ∧
          0 < c.regionValue (ctag / 16)) := by
        rw [hmv, hcv]
        omega
      obtain ⟨pm, M, hc1⟩ : ∃ pm M, c1 = { c with _tags := ts1, _pMAT := pm, _MAT := M } :=
        ⟨_, _, hc1⟩
      subst hc1
      by_cases hlt2 : cv < mv
      · rw [if_pos hlt2] at hunf
        have hs1 : ts1._sets[e.key % numSets]? = some { s with policy := p1 } := by
          rw [hke, hts1]
          show (c._tags._sets.set (ctag % numSets) _)[ctag % numSets]? = _
          rw [List.getElem?_set_self hlt]
        obtain ⟨e', i', ts2, s2, he', hv', hkey', hinv, hwf2, hs2, hfree2, hlk2⟩ :=
          hwf1.invalidate_routed e.key hs1 (by rw [hlk1]; exact hle)
        have hii : i' = i := by
          have h1 := (hswf.2.2.1.key_iff e.key i').2 ⟨e', he', hv', hkey'⟩
          have h2 := (hswf.2.2.1.key_iff e.key i).2 ⟨e, he, hv, rfl⟩
          rw [h1] at h2
          exact Option.some.inj h2
        subst hii
        have hee : e' = e := by
          have h1 : s._table[i']? = some e' := he'
          rw [he] at h1
          exact (Option.some.inj h1).symm
        subst hee
        have hinv2 : generic_tagstore_t.invalidate ts1 e'.key = some (e', ts2) := hinv
        have hinv3 : (({ c with _tags := ts1, _pMAT := pm, _MAT := M } :
            CmpRTBCache))._tags.invalidate e'.key = some (e', ts2) := hinv2
        rw [hinv3] at hunf
        simp only [Option.some_bind] at hunf
        rw [hke] at hs2
        have habs2 : ts2.lookup ctag = some false := by
          rw [hlk2, if_neg hne, hlk1, habs]
        obtain ⟨htot, hpart⟩ := CmpRTBCache.install_spec
          ({ c with _tags := ts2, _pMAT := pm, _MAT := M } : CmpRTBCache) ctag dirty request e'
          hwf2 hS hs2 habs2 hfree2
        constructor
        · intro _ hb hcpu happ
          rw [hunf]
          exact htot hb hcpu (fun _ => happ e' hmem hv)
        · intro r hr
          rw [hunf] at hr
          obtain ⟨h1, h2⟩ := hpart r hr
          refine ⟨fun hf => absurd hfull hf, fun _ => ⟨i', p1, e', hg, he, hv, hle, ?_, ?_⟩⟩
          · intro _
            constructor
            · intro y
              rw [h1 y]
              show (if y = ctag then some true else ts2.lookup y) = _
              rw [hlk2, hlk1]
            · rw [h2]
              simp only [hv, true_and]
              rfl
          · intro hn
            exact absurd (hcond.1 hlt2) hn
      · rw [if_neg hlt2] at hunf
        constructor
        · intro hM _ _ _
          rw [hunf]
          exact CmpRTBCache.bypass_total _ _ _ hM
        · intro r hr
          rw [hunf] at hr
          obtain ⟨h1, h2⟩ := CmpRTBCache.bypass_spec hr
          have h3 : r.1._tags = ts1 := by
            rw [h1]
          refine ⟨fun hf => absurd hfull hf, fun _ => ⟨i, p1, e, hg, he, hv, hle, ?_, ?_⟩⟩
          · intro hc2
            exact absurd (hcond.2 hc2) hlt2
          · intro _
            refine ⟨by rw [h3, hts1], ?_, ?_, h2⟩
            · intro hn
              rw [h3, hts1, hpure hn]
              have e1 : ({ s with policy := s.policy } : table_t) = s := rfl
              have e2 : c._tags._sets.set (ctag % numSets) s = c._tags._sets := by
                apply List.ext_getElem?
                intro j
                by_cases ej : ctag % numSets = j
                · rw [← ej, List.getElem?_set_self hlt, hs]
                · rw [List.getElem?_set_ne ej]
              rw [e1, e2]
            · intro y
              rw [h3, hlk1]
  · have hc : ¬ s.count = c._associativity := by
      intro h
      apply hfull
      have : s._freeList.length = 0 := by omega
      exact List.length_eq_zero.1 this
    have hunf : c.INSERT_BLOCK ctag dirty request =
        c.install ctag dirty request entry.empty := by
      unfold CmpRTBCache.INSERT_BLOCK
      rw [if_neg (by rw [hwf.1]; omega), hidx]
      simp only [generic_tagstore_t.count, hs, Option.map_some', Option.some_bind, hc,
        if_false]
    obtain ⟨htot, hpart⟩ := CmpRTBCache.install_spec c ctag dirty request entry.empty hwf hS hs habs hfull
    constructor
    · intro _ hb hcpu _
      rw [hunf]
      exact htot hb hcpu (fun h => by cases h)
    · intro r hr
      rw [hunf] at hr
      obtain ⟨h1, h2⟩ := hpart r hr
      refine ⟨fun _ => ⟨h1, ?_⟩, fun hf => absurd hf hfull⟩
      rw [h2]
      rfl
/-- Witness for C31 (amended): the one-way cache that holds block 2, with counter 1 for
region 0 and for region 1, and a return for block 16 of region 1: the call returns,
installs block 16 and removes block 2. -/
theorem C31_rtb_bypass_amended_witness :
    generic_tagstore_t.WF 1 (CmpRTBCache.oneBlock 1 1)._associativity
      (CmpRTBCache.oneBlock 1 1)._tags ∧
    (CmpRTBCache.oneBlock 1 1)._tags.lookup 16 = some false ∧
    ((CmpRTBCache.oneBlock 1 1).INSERT_BLOCK 16 false
      (MemoryRequest.new .CPU 0 0 .READ 0 16384 16384 64 7)).isSome = true ∧
    ∀ r, (CmpRTBCache.oneBlock 1 1).INSERT_BLOCK 16 false
        (MemoryRequest.new .CPU 0 0 .READ 0 16384 16384 64 7) = some r →
      r.1._tags.lookup 16 = some true ∧ r.1._tags.lookup 2 = some false ∧ r.2 = [] := by
  have hwf : generic_tagstore_t.WF 1 (CmpRTBCache.oneBlock 1 1)._associativity
      (CmpRTBCache.oneBlock 1 1)._tags := generic_tagstore_t.oneWay_WF _ _
  have hroute : ∀ (i : Nat) (s : table_t) (e : entry),
      (CmpRTBCache.oneBlock 1 1)._tags._sets[i]? = some s →
      e ∈ s._table → e.valid = true → e.key % 1 = i := by
    intro i s e hs _ _
    cases i with
    | zero => exact Nat.mod_one _
    | succ j => cases hs
  obtain ⟨s, hs, htot, hpart⟩ := C31_rtb_bypass_amended (CmpRTBCache.oneBlock 1 1) 1 16 false
    (MemoryRequest.new .CPU 0 0 .READ 0 16384 16384 64 7) hwf (by decide) hroute (by rfl)
  have hs' : some (table_t.oneWay (CmpLLC.TagEntry.encode ⟨false, 2048, 2048, 0⟩)) =
      some s := hs
  cases hs'
  refine ⟨hwf, by rfl, htot rfl (by decide) (by decide) ?_, ?_⟩
  · intro e he _
    have he' : e ∈ [entry.full 0 2 (CmpLLC.TagEntry.encode ⟨false, 2048, 2048, 0⟩)] := he
    rw [List.mem_singleton] at he'
    rw [he']
    decide
  · intro r hr
    obtain ⟨i, p1, e, hg, he, -, -, hyes, -⟩ := (hpart r hr).2 rfl
    have hg' : some (0, (table_t.oneWay
        (CmpLLC.TagEntry.encode ⟨false, 2048, 2048, 0⟩)).policy) = some (i, p1) := hg
    cases hg'
    have he' : some (entry.full 0 2 (CmpLLC.TagEntry.encode ⟨false, 2048, 2048, 0⟩)) =
        some e := he
    cases he'
    obtain ⟨h1, h2⟩ := hyes (by decide)
    exact ⟨by rw [h1 16]; rfl, by rw [h1 2]; rfl, by rw [h2]; rfl⟩

theorem CmpLLCwAWB.scanReads_false (w : ComponentWorld) :
    ∀ (fuel : Nat) (queue temp : List Nat),
      ((CmpLLCwAWB.scanReads w fuel queue temp).map (fun r => r.1)).getD false = false := by
  intro fuel
  induction fuel with
  | zero => intro queue temp; rfl
  | succ n ih =>
    intro queue temp
    unfold CmpLLCwAWB.scanReads
    rcases h1 : w.queue_top queue with _ | t
    · rfl
    · simp only
      rcases h2 : w.requests[t]? with _ | q
      · rfl
      · have hq : q.type ≠ .READ ∨ q.type ≠ .READ_FOR_WRITE ∨ q.type ≠ .PREFETCH := by
          cases q.type <;> decide
        simp only [if_pos hq]
        exact ih _ _

/-- **C32.** Clean requests do not yield. The test that the scan of the queue applies to a
queued request, `type != READ || type != READ_FOR_WRITE || type != PREFETCH`, holds for
every type, so the scan moves every request to `temp` and never sets `ReadsPresent`,
whatever the queue holds. With the unserviced `CLEAN` request 0 (cycle 4) at the head of
the queue and the `READ` request 1 (cycle 5) behind it, simulator cycle 10, the drain loop
calls `ProcessRequest` for the `CLEAN` request first, entered at cycle 4 (its
`currentCycle` is not advanced by 1 and it is not put back), and for the read after
it. -/
theorem C32_clean_request_never_yields :
    (∀ (w : ComponentWorld) (fuel : Nat) (queue temp : List Nat),
      ((CmpLLCwAWB.scanReads w fuel queue temp).map (fun r => r.1)).getD false = false) ∧
    ComponentWorld.queue_top CmpLLCwAWB.cleanAndRead CmpLLCwAWB.cleanAndRead.cmp._queue =
      some 0 ∧
    (CmpLLCwAWB.cleanAndRead.requests.map (fun q => (q.type, q.serviced, q.currentCycle))) =
      [(.CLEAN, false, 4), (.READ, false, 5)] ∧
    (CmpLLCwAWB.ProcessPendingRequests Processing.threeCycles Hierarchy.idle 5
      CmpLLCwAWB.cleanAndRead).map (fun w => w.calls) =
      some [⟨false, 0, 4, 4, 4, 7, 10⟩, ⟨false, 1, 5, 7, 7, 10, 10⟩] :=
  ⟨CmpLLCwAWB.scanReads_false, by rfl, by rfl, by rfl⟩

theorem foldlM_range_inv {β : Type} (P : Nat → β → Prop) (f : β → Nat → Option β) :
    ∀ (n : Nat) (b0 : β), P 0 b0 →
      (∀ k b, k < n → P k b → ∃ b1, f b k = some b1 ∧ P (k + 1) b1) →
      ∃ b1, (List.range n).foldlM f b0 = some b1 ∧ P n b1 := by
  intro n
  induction n with
  | zero =>
    intro b0 h0 _
    exact ⟨b0, rfl, h0⟩
  | succ m ih =>
    intro b0 h0 hstep
    obtain ⟨b1, h1, hP1⟩ := ih b0 h0 (fun k b hk hP => hstep k b (by omega) hP)
    obtain ⟨b2, h2, hP2⟩ := hstep m b1 (by omega) hP1
    refine ⟨b2, ?_, hP2⟩
    rw [List.range_succ, List.foldlM_append, h1]
    simp [h2]

theorem foldlM_range'_inv {β : Type} (P : Nat → β → Prop) (f : β → Nat → Option β) :
    ∀ (n : Nat) (b0 : β), P 0 b0 →
      (∀ k b, k < n → P k b → ∃ b1, f b (k + 1) = some b1 ∧ P (k + 1) b1) →
      ∃ b1, (List.range' 1 n).foldlM f b0 = some b1 ∧ P n b1 := by
  intro n
  induction n with
  | zero =>
    intro b0 h0 _
    exact ⟨b0, rfl, h0⟩
  | succ m ih =>
    intro b0 h0 hstep
    obtain ⟨b1, h1, hP1⟩ := ih b0 h0 (fun k b hk hP => hstep k b (by omega) hP)
    obtain ⟨b2, h2, hP2⟩ := hstep m b1 (by omega) hP1
    refine ⟨b2, ?_, hP2⟩
    rw [List.range'_1_concat, List.foldlM_append, h1]
    simp [Nat.add_comm 1 m, h2]

theorem vector_set_some {α : Type} (v : List α) (i : Nat) (x : α) (h : i < v.length) :
    vector_set v i x = some (v.set i x) := by
  unfold vector_set
  rw [if_pos h]
namespace CmpUCP

theorem utilityRow_total (A : Nat) (hits utility : List Nat) (hA : 1 ≤ A)
    (hh : hits.length = A) (hu : utility.length = A) :
    ∃ row, utilityRow A hits utility = some row ∧ row.length = A := by
  unfold utilityRow
  rw [List.getElem?_eq_getElem (by omega), Option.some_bind,
    vector_set_some _ _ _ (by omega), Option.some_bind]
  obtain ⟨b, h1, h2⟩ := foldlM_range'_inv (fun _ (u : List Nat) => u.length = A)
    (fun u way =>
      (u[way - 1]?).bind (fun p =>
        (hits[way]?).bind (fun h =>
          vector_set u way ((p + h) % UINT32_MOD)))) (A - 1) (utility.set 0 hits[0])
    (by simp [hu])
    (by
      intro k u hk hl
      beta_reduce
      rw [Nat.add_sub_cancel, List.getElem?_eq_getElem (by omega), Option.some_bind,
        List.getElem?_eq_getElem (by omega), Option.some_bind,
        vector_set_some _ _ _ (by omega)]
      exact ⟨_, rfl, by simp [hl]⟩)
  exact ⟨b, h1, h2⟩

theorem ComputeUtility_spec (c : CmpUCP) (hs : c.Shaped) (hA : 1 ≤ c._associativity) :
    ∃ u, c.ComputeUtility = some u ∧ u.Shaped ∧ u._numCPUs = c._numCPUs ∧
      u._associativity = c._associativity ∧ u._hits = c._hits ∧ u._target = c._target := by
  unfold ComputeUtility
  obtain ⟨b, h1, h2⟩ := foldlM_range_inv
    (fun _ (u : CmpUCP) => u.Shaped ∧ u._numCPUs = c._numCPUs ∧
      u._associativity = c._associativity ∧ u._hits = c._hits ∧ u._target = c._target)
    (fun c1 cpu =>
      (c1._hits[cpu]?).bind (fun hits =>
        (c1._utility[cpu]?).bind (fun utility =>
          (utilityRow c1._associativity hits utility).bind (fun row =>
            (vector_set c1._utility cpu row).map (fun u => { c1 with _utility := u })))))
    c._numCPUs c ⟨hs, rfl, rfl, rfl, rfl⟩
    (by
      intro k u hk ⟨hsu, e1, e2, e3, e4⟩
      have hk1 : k < u._hits.length := by rw [hsu.hits_len, e1]; exact hk
      have hk2 : k < u._utility.length := by rw [hsu.util_len, e1]; exact hk
      obtain ⟨row, hr, hrl⟩ := utilityRow_total u._associativity u._hits[k] u._utility[k]
        (by rw [e2]; exact hA) (hsu.hits_row _ (List.getElem_mem _))
        (hsu.util_row _ (List.getElem_mem _))
      beta_reduce
      rw [List.getElem?_eq_getElem hk1, Option.some_bind, List.getElem?_eq_getElem hk2,
        Option.some_bind, hr, Option.some_bind, vector_set_some _ _ _ hk2]
      refine ⟨_, rfl, ⟨hsu.hits_len, hsu.hits_row, ?_, ?_, hsu.target_len⟩, e1, e2, e3, e4⟩
      · show (u._utility.set k row).length = _
        rw [List.length_set]
        exact hsu.util_len
      · intro r hr2
        rcases List.mem_or_eq_of_mem_set hr2 with h | h
        · exact hsu.util_row r h
        · rw [h]
          exact hrl)
  exact ⟨b, h1, h2⟩

theorem MarginalUtility_total (c : CmpUCP) (hs : c.Shaped) (hA : c._associativity < UINT32_MOD)
    (cpu way1 way2 : Nat) (hc : cpu < c._numCPUs) (h1 : way1 < c._associativity)
    (h2 : way2 < c._associativity) : ∃ mu, c.MarginalUtility cpu way1 way2 = some mu := by
  unfold MarginalUtility
  by_cases e : way2 = way1
  · rw [if_pos e]
    exact ⟨_, rfl⟩
  · rw [if_neg e]
    have hk : cpu < c._utility.length := by rw [hs.util_len]; exact hc
    have hl : (c._utility[cpu]).length = c._associativity :=
      hs.util_row _ (List.getElem_mem _)
    rw [List.getElem?_eq_getElem hk, Option.some_bind,
      List.getElem?_eq_getElem (by rw [hl]; exact h2), Option.some_bind,
      List.getElem?_eq_getElem (by rw [hl]; exact h1), Option.some_bind]
    have hM : UINT32_MOD = 4294967296 := by decide
    rw [if_neg (by rw [hM] at hA ⊢; omega)]
    exact ⟨_, rfl⟩

theorem MaxMarginalUtility_spec (c : CmpUCP) (hs : c.Shaped)
    (hA : c._associativity < UINT32_MOD) (cpu allocated avail : Nat) (hc : cpu < c._numCPUs)
    (h : allocated + avail < c._associativity) :
    ∃ r, c.MaxMarginalUtility cpu allocated avail = some r ∧
      c.IsMaxMU cpu allocated avail r := by
  have hM : UINT32_MOD = 4294967296 := by decide
  unfold MaxMarginalUtility
  rw [if_neg (by rw [hM] at hA ⊢; omega)]
  obtain ⟨b, h1, h2⟩ := foldlM_range'_inv
    (fun k (acc : Nat × Nat) => c.IsMaxMU cpu allocated k acc)
    (fun (acc : Nat × Nat) i =>
      (c.MarginalUtility cpu allocated ((allocated + i) % UINT32_MOD)).map (fun mu =>
        if mu > acc.1 then (mu, i) else acc)) avail (0, 0)
    ⟨fun i h1 h2 => by omega, fun _ => rfl, fun h => by simp at h⟩
    (by
      intro k acc hk ⟨p1, p2, p3⟩
      have hmod : (allocated + (k + 1)) % UINT32_MOD = allocated + (k + 1) :=
        Nat.mod_eq_of_lt (by rw [hM] at hA ⊢; omega)
      obtain ⟨mu, hmu⟩ := c.MarginalUtility_total hs hA cpu allocated (allocated + (k + 1)) hc
        (by omega) (by omega)
      beta_reduce
      rw [hmod, hmu, Option.map_some']
      refine ⟨_, rfl, ?_⟩
      by_cases hgt : mu > acc.1
      · rw [if_pos hgt]
        refine ⟨?_, fun h0 => ?_, fun _ => ⟨by omega, Nat.le_refl _, hmu, ?_⟩⟩
        · intro i hi1 hi2
          rcases Nat.lt_or_ge i (k + 1) with hlt | hge
          · obtain ⟨m, hm1, hm2⟩ := p1 i hi1 (by omega)
            exact ⟨m, hm1, by show m ≤ mu; omega⟩
          · have : i = k + 1 := by omega
            rw [this]
            exact ⟨mu, hmu, Nat.le_refl _⟩
        · have h0' : mu = 0 := h0
          omega
        · intro i hi1 hi2
          have hi2' : i < k + 1 := hi2
          obtain ⟨m, hm1, hm2⟩ := p1 i hi1 (by omega)
          exact ⟨m, hm1, by show m < mu; omega⟩
      · rw [if_neg hgt]
        refine ⟨?_, p2, fun hpos => ?_⟩
        · intro i hi1 hi2
          rcases Nat.lt_or_ge i (k + 1) with hlt | hge
          · exact p1 i hi1 (by omega)
          · have : i = k + 1 := by omega
            rw [this]
            exact ⟨mu, hmu, by omega⟩
        · obtain ⟨q1, q2, q3, q4⟩ := p3 hpos
          exact ⟨q1, by omega, q3, q4⟩)
  exact ⟨b, h1, h2⟩

theorem sum_ge_of_ones : ∀ (l : List Nat) (i a : Nat), (∀ x ∈ l, 1 ≤ x) → l[i]? = some a →
    a + (l.length - 1) ≤ l.sum := by
  intro l
  induction l with
  | nil => intro i a _ h; cases h
  | cons x rest ih =>
    intro i a hall h
    have hlen : rest.length ≤ rest.sum := by
      clear ih h
      induction rest with
      | nil => simp
      | cons y r ih2 =>
        have hy := hall y (by simp)
        have := ih2 (fun z hz => hall z (by
          rcases List.mem_cons.1 hz with e | e
          · rw [e]; simp
          · simp [e]))
        simp only [List.length_cons, List.sum_cons]
        omega
    cases i with
    | zero =>
      simp only [List.getElem?_cons_zero, Option.some.injEq] at h
      simp only [List.length_cons, List.sum_cons]
      omega
    | succ j =>
      simp only [List.getElem?_cons_succ] at h
      have h1 := ih j a (fun z hz => hall z (List.mem_cons_of_mem _ hz)) h
      have hx := hall x (by simp)
      have hpos : 0 < rest.length := by
        rcases Nat.lt_or_ge j rest.length with hlt | hge
        · omega
        · rw [List.getElem?_eq_none hge] at h
          cases h
      simp only [List.length_cons, List.sum_cons]
      omega

theorem Alloc.bound {c : CmpUCP} {s : List Nat × Nat} (h : c.Alloc s) (hn : 2 ≤ c._numCPUs)
    {cpu a : Nat} (ha : s.1[cpu]? = some a) :
    cpu < c._numCPUs ∧ 1 ≤ a ∧ a + s.2 < c._associativity := by
  obtain ⟨h1, h2, h3⟩ := h
  have hlt : cpu < s.1.length := by
    rcases Nat.lt_or_ge cpu s.1.length with hlt | hge
    · exact hlt
    · rw [List.getElem?_eq_none hge] at ha
      cases ha
  have := sum_ge_of_ones s.1 cpu a h2 ha
  refine ⟨by omega, h2 a (List.mem_iff_getElem?.2 ⟨_, ha⟩), by omega⟩

theorem sum_set_add : ∀ (l : List Nat) (i a v : Nat), l[i]? = some a →
    (l.set i v).sum + a = l.sum + v := by
  intro l
  induction l with
  | nil => intro i a v h; cases h
  | cons x rest ih =>
    intro i a v h
    cases i with
    | zero =>
      simp only [List.getElem?_cons_zero, Option.some.injEq] at h
      simp only [List.set_cons_zero, List.sum_cons]
      omega
    | succ j =>
      simp only [List.getElem?_cons_succ] at h
      have := ih j a v h
      simp only [List.set_cons_succ, List.sum_cons]
      omega

end CmpUCP
namespace CmpUCP

theorem maxOverCPUs_spec (c : CmpUCP) (hs : c.Shaped) (hA : c._associativity < UINT32_MOD)
    (hn : 2 ≤ c._numCPUs) (s : List Nat × Nat) (ha : c.Alloc s) :
    ∃ cpu a mu ways, c.maxOverCPUs s.1 s.2 = some (cpu, mu, ways) ∧ cpu < c._numCPUs ∧
      s.1[cpu]? = some a ∧ c.MaxMarginalUtility cpu a s.2 = some (mu, ways) ∧
      c.IsMaxMU cpu a s.2 (mu, ways) ∧
      ∀ cpu1 a1, s.1[cpu1]? = some a1 →
        ∃ m, c.MaxMarginalUtility cpu1 a1 s.2 = some m ∧ m.1 ≤ mu ∧
          (cpu1 < cpu → m.1 < mu) := by
  have hlen := ha.1
  have total : ∀ cpu1 a1, s.1[cpu1]? = some a1 →
      ∃ m, c.MaxMarginalUtility cpu1 a1 s.2 = some m ∧ c.IsMaxMU cpu1 a1 s.2 m := by
    intro cpu1 a1 h1
    obtain ⟨b1, _, b3⟩ := ha.bound hn h1
    exact c.MaxMarginalUtility_spec hs hA cpu1 a1 s.2 b1 b3
  have h0 : s.1[0]? = some s.1[0] := List.getElem?_eq_getElem (by omega)
  obtain ⟨m0, hm0, hi0⟩ := total 0 _ h0
  unfold maxOverCPUs
  rw [h0, Option.some_bind, hm0, Option.some_bind]
  obtain ⟨b, h1, h2⟩ := foldlM_range'_inv
    (fun k (acc : Nat × Nat × Nat) => acc.1 ≤ k ∧
      (∃ a, s.1[acc.1]? = some a ∧ c.MaxMarginalUtility acc.1 a s.2 = some acc.2) ∧
      ∀ cpu1 a1, cpu1 ≤ k → s.1[cpu1]? = some a1 →
        ∃ m, c.MaxMarginalUtility cpu1 a1 s.2 = some m ∧ m.1 ≤ acc.2.1 ∧
          (cpu1 < acc.1 → m.1 < acc.2.1))
    (fun (acc : Nat × Nat × Nat) cpu =>
      (s.1[cpu]?).bind (fun a =>
        (c.MaxMarginalUtility cpu a s.2).map (fun MU =>
          if MU.1 > acc.2.1 then (cpu, MU) else acc)))
    (c._numCPUs - 1) (0, m0)
    ⟨Nat.le_refl _, ⟨_, h0, hm0⟩, by
      intro cpu1 a1 hc h
      have e : cpu1 = 0 := by omega
      subst e
      rw [h0] at h
      cases h
      exact ⟨m0, hm0, Nat.le_refl _, fun h => by omega⟩⟩
    (by
      intro k acc hk ⟨p1, p2, p3⟩
      beta_reduce
      have hk1 : s.1[k + 1]? = some s.1[k + 1] := List.getElem?_eq_getElem (by omega)
      obtain ⟨MU, hMU, -⟩ := total (k + 1) _ hk1
      rw [hk1, Option.some_bind, hMU, Option.map_some']
      refine ⟨_, rfl, ?_⟩
      by_cases hgt : MU.1 > acc.2.1
      · rw [if_pos hgt]
        refine ⟨Nat.le_refl _, ⟨_, hk1, hMU⟩, ?_⟩
        intro cpu1 a1 hc h
        rcases Nat.lt_or_ge cpu1 (k + 1) with hlt | hge
        · obtain ⟨m, q1, q2, q3⟩ := p3 cpu1 a1 (by omega) h
          exact ⟨m, q1, by show m.1 ≤ MU.1; omega, fun _ => by show m.1 < MU.1; omega⟩
        · have e : cpu1 = k + 1 := by omega
          subst e
          rw [hk1] at h
          cases h
          exact ⟨MU, hMU, Nat.le_refl _, fun h => by
            have : k + 1 < k + 1 := h
            omega⟩
      · rw [if_neg hgt]
        refine ⟨by omega, p2, ?_⟩
        intro cpu1 a1 hc h
        rcases Nat.lt_or_ge cpu1 (k + 1) with hlt | hge
        · exact p3 cpu1 a1 (by omega) h
        · have e : cpu1 = k + 1 := by omega
          subst e
          rw [hk1] at h
          cases h
          exact ⟨MU, hMU, by omega, fun h => by omega⟩)
  obtain ⟨cpu, mu, ways⟩ := b
  obtain ⟨p1, ⟨a, pa, pm⟩, p3⟩ := h2
  have hcpu : cpu < c._numCPUs := by
    have : cpu ≤ c._numCPUs - 1 := p1
    omega
  obtain ⟨m, hm, him⟩ := total cpu a pa
  have pm' : c.MaxMarginalUtility cpu a s.2 = some (mu, ways) := pm
  rw [pm'] at hm
  cases hm
  refine ⟨cpu, a, mu, ways, h1, hcpu, pa, pm', him, ?_⟩
  intro cpu1 a1 h
  have hlt : cpu1 < s.1.length := by
    rcases Nat.lt_or_ge cpu1 s.1.length with hlt | hge
    · exact hlt
    · rw [List.getElem?_eq_none hge] at h
      cases h
  exact p3 cpu1 a1 (by omega) h

theorem Round.alloc {c : CmpUCP} (hs : c.Shaped) (hA : c._associativity < UINT32_MOD)
    (hn : 2 ≤ c._numCPUs) {s s1 : List Nat × Nat} (h : c.Round s s1) (ha : c.Alloc s) :
    c.Alloc s1 ∧ s1.2 < s.2 := by
  obtain ⟨hpos, cpu, a, mu, ways, hc, hget, hm, hmu, -, rfl⟩ := h
  obtain ⟨b1, b2, b3⟩ := ha.bound hn hget
  obtain ⟨r, hr, q1, q2, q3⟩ := c.MaxMarginalUtility_spec hs hA cpu a s.2 b1 b3
  rw [hm] at hr
  cases hr
  obtain ⟨w1, w2, -, -⟩ := q3 hmu
  have w1 : 1 ≤ ways := w1
  have w2 : ways ≤ s.2 := w2
  obtain ⟨h1, h2, h3⟩ := ha
  have hsum := sum_set_add s.1 cpu a (a + ways) hget
  refine ⟨⟨by simp [h1], ?_, ?_⟩, by show s.2 - ways < s.2; omega⟩
  · intro x hx
    rcases List.mem_or_eq_of_mem_set hx with e | e
    · exact h2 x e
    · rw [e]
      omega
  · show (s.1.set cpu (a + ways)).sum + (s.2 - ways) = _
    omega

theorem greedy_spec (c : CmpUCP) (hs : c.Shaped) (hA : c._associativity < UINT32_MOD)
    (hn : 2 ≤ c._numCPUs) :
    ∀ (fuel : Nat) (s : List Nat × Nat), c.Alloc s → s.2 < fuel →
      ∃ g, c.greedy fuel s.1 s.2 = some g ∧ c.Alloc g ∧
        Relation.ReflTransGen c.Round s g ∧ (g.2 = 0 ∨ c.NoGain g) := by
  have hM : UINT32_MOD = 4294967296 := by decide
  intro fuel
  induction fuel with
  | zero => intro s _ h; omega
  | succ f ih =>
    intro s ha hf
    unfold greedy
    by_cases hpos : s.2 > 0
    · rw [if_pos hpos]
      obtain ⟨cpu, a, mu, ways, hmax, hc, hget, hm, him, hall⟩ :=
        c.maxOverCPUs_spec hs hA hn s ha
      rw [hmax, Option.some_bind]
      by_cases h0 : mu = 0
      · rw [if_pos h0]
        refine ⟨s, rfl, ha, Relation.ReflTransGen.refl, Or.inr ?_⟩
        intro cpu1 a1 h1
        obtain ⟨m, q1, q2, -⟩ := hall cpu1 a1 h1
        refine ⟨m.2, ?_⟩
        rw [q1]
        have : m.1 = 0 := by omega
        rw [← this]
      · rw [if_neg h0, hget, Option.some_bind]
        have hround : c.Round s (s.1.set cpu (a + ways), s.2 - ways) :=
          ⟨hpos, cpu, a, mu, ways, hc, hget, hm, by omega, hall, rfl⟩
        obtain ⟨ha1, hlt⟩ := hround.alloc hs hA hn ha
        obtain ⟨b1, b2, b3⟩ := ha.bound hn hget
        obtain ⟨w1, w2, -, -⟩ := him.2.2 (by omega)
        have w1 : 1 ≤ ways := w1
        have w2 : ways ≤ s.2 := w2
        have e1 : (a + ways) % UINT32_MOD = a + ways :=
          Nat.mod_eq_of_lt (by rw [hM] at hA ⊢; omega)
        have e2 : (s.2 + UINT32_MOD - ways % UINT32_MOD) % UINT32_MOD = s.2 - ways := by
          rw [hM] at hA ⊢
          omega
        show ∃ g, c.greedy f (s.1.set cpu ((a + ways) % UINT32_MOD))
          ((s.2 + UINT32_MOD - ways % UINT32_MOD) % UINT32_MOD) = some g ∧ _
        rw [e1, e2]
        obtain ⟨g, g1, g2, g3, g4⟩ := ih (s.1.set cpu (a + ways), s.2 - ways) ha1
          (by
            have : s.2 - ways < s.2 := hlt
            omega)
        exact ⟨g, g1, g2, Relation.ReflTransGen.head hround g3, g4⟩
    · rw [if_neg hpos]
      exact ⟨s, rfl, ha, Relation.ReflTransGen.refl, Or.inl (by omega)⟩

theorem Alloc.reachable {c : CmpUCP} (hs : c.Shaped) (hA : c._associativity < UINT32_MOD)
    (hn : 2 ≤ c._numCPUs) {s s1 : List Nat × Nat} (ha : c.Alloc s)
    (h : Relation.ReflTransGen c.Round s s1) : c.Alloc s1 := by
  induction h with
  | refl => exact ha
  | tail _ hr ih => exact (hr.alloc hs hA hn ih).1

end CmpUCP
namespace CmpUCP

theorem countP_range_succ (p : Nat → Bool) (n : Nat) :
    (List.range (n + 1)).countP p =
      (if p 0 then 1 else 0) + (List.range n).countP (fun k => p (k + 1)) := by
  rw [List.range_succ_eq_map, List.countP_cons, List.countP_map]
  have : (p ∘ Nat.succ) = (fun k => p (k + 1)) := rfl
  rw [this]
  omega

theorem roundRobin_spec (c : CmpUCP) (hn0 : 0 < c._numCPUs) (hn32 : c._numCPUs < UINT32_MOD) :
    ∀ (avail : Nat) (allocated : List Nat) (cpu : Nat),
      allocated.length = c._numCPUs → cpu < c._numCPUs →
      (∀ a ∈ allocated, a + avail < UINT32_MOD) →
      ∃ res, c.roundRobin avail allocated cpu = some res ∧ res.length = c._numCPUs ∧
        res.sum = allocated.sum + avail ∧
        ∀ j, j < c._numCPUs → res[j]? = (allocated[j]?).map (fun a =>
          a + (List.range avail).countP (fun k => decide ((cpu + k) % c._numCPUs = j))) := by
  have hM : UINT32_MOD = 4294967296 := by decide
  intro avail
  induction avail with
  | zero =>
    intro allocated cpu hl _ _
    refine ⟨allocated, rfl, hl, rfl, ?_⟩
    intro j _
    cases allocated[j]? <;> rfl
  | succ n ih =>
    intro allocated cpu hl hc hb
    obtain ⟨x, hget⟩ : ∃ x, allocated[cpu]? = some x :=
      ⟨_, List.getElem?_eq_getElem (by omega)⟩
    have ha := hb x (List.mem_iff_getElem?.2 ⟨_, hget⟩)
    have e1 : (x + 1) % UINT32_MOD = x + 1 :=
      Nat.mod_eq_of_lt (by omega)
    have e2 : (cpu + 1) % UINT32_MOD = cpu + 1 :=
      Nat.mod_eq_of_lt (by rw [hM] at hn32 ⊢; omega)
    obtain ⟨cpu1, hcpu1, hlt1, hmod1⟩ : ∃ cpu1,
        (if (cpu + 1) % UINT32_MOD = c._numCPUs then 0 else (cpu + 1) % UINT32_MOD) = cpu1 ∧
        cpu1 < c._numCPUs ∧ ∀ k, (cpu1 + k) % c._numCPUs = (cpu + (k + 1)) % c._numCPUs := by
      rw [e2]
      by_cases e : cpu + 1 = c._numCPUs
      · rw [if_pos e]
        refine ⟨0, rfl, hn0, ?_⟩
        intro k
        have : cpu + (k + 1) = k + c._numCPUs := by omega
        rw [this, Nat.add_mod_right, Nat.zero_add]
      · rw [if_neg e]
        refine ⟨cpu + 1, rfl, by omega, ?_⟩
        intro k
        congr 1
        omega
    unfold roundRobin
    rw [hget, Option.some_bind, e1, hcpu1]
    obtain ⟨res, r1, r2, r3, r4⟩ := ih (allocated.set cpu (x + 1)) cpu1
      (by simp [hl]) hlt1
      (by
        intro x hx
        rcases List.mem_or_eq_of_mem_set hx with e | e
        · have := hb x e
          omega
        · rw [e]
          omega)
    refine ⟨res, r1, r2, ?_, ?_⟩
    · have := sum_set_add allocated cpu x (x + 1) hget
      omega
    · intro j hj
      have hcount : (List.range (n + 1)).countP
          (fun k => decide ((cpu + k) % c._numCPUs = j)) =
          (if cpu = j then 1 else 0) +
            (List.range n).countP (fun k => decide ((cpu1 + k) % c._numCPUs = j)) := by
        rw [countP_range_succ]
        congr 1
        · show (if decide ((cpu + 0) % c._numCPUs = j) = true then 1 else 0) = _
          rw [Nat.add_zero, Nat.mod_eq_of_lt hc]
          by_cases e : cpu = j
          · simp [e]
          · simp [e]
        · apply List.countP_congr
          intro k _
          rw [hmod1]
      rw [r4 j hj, hcount]
      by_cases e : cpu = j
      · have hs1 : (allocated.set cpu (x + 1))[cpu]? = some (x + 1) :=
          List.getElem?_set_self (by omega)
        rw [← e, hs1, hget, if_pos rfl, Option.map_some', Option.map_some']
        congr 1
        omega
      · have hs2 : (allocated.set cpu (x + 1))[j]? = allocated[j]? :=
          List.getElem?_set_ne e
        rw [hs2, if_neg e, Nat.zero_add]

theorem setTargets_spec (c : CmpUCP) (hs : c.Shaped) (allocated : List Nat)
    (hl : allocated.length = c._numCPUs) :
    ∃ c1, c.setTargets allocated = some c1 ∧ c1._target = allocated ∧
      c1._numCPUs = c._numCPUs ∧ c1._associativity = c._associativity := by
  unfold setTargets
  obtain ⟨b, h1, h2⟩ := foldlM_range_inv
    (fun k (u : CmpUCP) => u._numCPUs = c._numCPUs ∧ u._associativity = c._associativity ∧
      u._target.length = c._numCPUs ∧ u._hits.length = c._numCPUs ∧
      (∀ row ∈ u._hits, row.length = c._associativity) ∧
      ∀ i, i < k → u._target[i]? = allocated[i]?)
    (fun c1 i =>
      (allocated[i]?).bind (fun a =>
        (vector_set c1._target i a).bind (fun t =>
          (c1._hits[i]?).bind (fun hits =>
            ((List.range c1._associativity).foldlM (fun row way =>
              (row[way]?).bind (fun h => vector_set row way (h / 2))) hits).map (fun row =>
              { c1 with _target := t, _hits := c1._hits.set i row })))))
    c._numCPUs c
    ⟨rfl, rfl, hs.target_len, hs.hits_len, hs.hits_row, fun i hi => by omega⟩
    (by
      intro k u hk ⟨e1, e2, e3, e4, e5, e6⟩
      beta_reduce
      have hk1 : allocated[k]? = some allocated[k] := List.getElem?_eq_getElem (by omega)
      have hk2 : u._hits[k]? = some u._hits[k] := List.getElem?_eq_getElem (by omega)
      obtain ⟨row, hr1, hr2⟩ := foldlM_range_inv
        (fun _ (r : List Nat) => r.length = c._associativity)
        (fun row way => (row[way]?).bind (fun h => vector_set row way (h / 2)))
        u._associativity u._hits[k] (e5 _ (List.getElem_mem _))
        (by
          intro w r hw hrl
          beta_reduce
          rw [e2] at hw
          rw [List.getElem?_eq_getElem (by omega), Option.some_bind,
            vector_set_some _ _ _ (by omega)]
          exact ⟨_, rfl, by simp [hrl]⟩)
      rw [hk1, Option.some_bind, vector_set_some _ _ _ (by omega), Option.some_bind, hk2,
        Option.some_bind, hr1, Option.map_some']
      refine ⟨_, rfl, e1, e2, by simp [e3], by simp [e4], ?_, ?_⟩
      · intro r hr
        rcases List.mem_or_eq_of_mem_set hr with h | h
        · exact e5 r h
        · rw [h]
          exact hr2
      · intro i hi
        show (u._target.set k allocated[k])[i]? = _
        by_cases e : k = i
        · subst e
          rw [List.getElem?_set_self (by omega), hk1]
        · rw [List.getElem?_set_ne e]
          exact e6 i (by omega))
  obtain ⟨e1, e2, e3, -, -, e6⟩ := h2
  refine ⟨b, h1, ?_, e1, e2⟩
  apply List.ext_getElem?
  intro i
  rcases Nat.lt_or_ge i c._numCPUs with hlt | hge
  · exact e6 i hlt
  · rw [List.getElem?_eq_none (by omega), List.getElem?_eq_none (by omega)]

end CmpUCP
/-- **C33.** UCP repartition. Let the vectors of a `CmpUCP` have the sizes that
`StartSimulation()` gives them, `2 ≤ _numCPUs ≤ _associativity < 2 ^ 32`, and let the hit
counters be arbitrary. `RepartitionCache()` returns (the greedy loop needs at most
`_associativity` rounds), which in this model means that no access leaves a vector; the
targets it sets give every CPU at least one way and sum to `_associativity`. With `u` the
cache after `ComputeUtility()`, the greedy loop runs from one way per CPU and
`_associativity - _numCPUs` available ways through rounds (`Round`) in each of which the
CPU whose maximal marginal utility is positive, not exceeded by any CPU and not reached by
a CPU of lower index receives the number of ways that attains it, and stops in a state `g`
with no way available or every maximal marginal utility 0. In every state `(allocated,
avail)` of the loop each CPU has a way, the ways add up, and for every CPU
`allocated[cpu] + avail < _associativity`, so that the accesses `_utility[cpu][allocated]`
and `_utility[cpu][allocated + i]`, `i ≤ avail`, lie within the row; `MaxMarginalUtility`
returns the largest marginal utility and the least number of ways that attains it. The
ways left in `g` are handed out round-robin from CPU 0: way `k` goes to CPU
`k mod _numCPUs`. -/
theorem C33_ucp_repartition (c : CmpUCP) (fuel : Nat)
    (hs : c.Shaped) (hn : 2 ≤ c._numCPUs) (hA : c._numCPUs ≤ c._associativity)
    (hA32 : c._associativity < UINT32_MOD) (hfuel : c._associativity ≤ fuel) :
    ∃ u g c1, c.ComputeUtility = some u ∧ u._hits = c._hits ∧
      u.greedy fuel (List.replicate c._numCPUs 1) (c._associativity - c._numCPUs) = some g ∧
      c.RepartitionCache fuel = some c1 ∧
      c1._target.length = c._numCPUs ∧ (∀ t ∈ c1._target, 1 ≤ t) ∧
      c1._target.sum = c._associativity ∧
      Relation.ReflTransGen u.Round
        (List.replicate c._numCPUs 1, c._associativity - c._numCPUs) g ∧
      (g.2 = 0 ∨ u.NoGain g) ∧
      (∀ s, Relation.ReflTransGen u.Round
          (List.replicate c._numCPUs 1, c._associativity - c._numCPUs) s →
        u.Alloc s ∧ ∀ cpu a, s.1[cpu]? = some a →
          cpu < c._numCPUs ∧ a + s.2 < c._associativity ∧
          ∃ r, u.MaxMarginalUtility cpu a s.2 = some r ∧ u.IsMaxMU cpu a s.2 r) ∧
      ∀ j, j < c._numCPUs → c1._target[j]? = (g.1[j]?).map (fun a =>
        a + (List.range g.2).countP (fun k => decide (k % c._numCPUs = j))) := by
  have hM : UINT32_MOD = 4294967296 := by decide
  obtain ⟨u, hu, hsu, un, uA, uh, -⟩ := c.ComputeUtility_spec hs (by omega)
  have hA32u : u._associativity < UINT32_MOD := by rw [uA]; exact hA32
  have hnu : 2 ≤ u._numCPUs := by rw [un]; exact hn
  have hinit : u.Alloc (List.replicate c._numCPUs 1, c._associativity - c._numCPUs) := by
    refine ⟨by simp [un], ?_, ?_⟩
    · intro a ha
      rw [List.eq_of_mem_replicate ha]
    · show (List.replicate c._numCPUs 1).sum + (c._associativity - c._numCPUs) = _
      rw [List.sum_replicate, uA]
      simp only [smul_eq_mul, Nat.mul_one]
      omega
  obtain ⟨g, hg, hga, hgr, hgs⟩ := u.greedy_spec hsu hA32u hnu fuel _ hinit
    (by show c._associativity - c._numCPUs < fuel; omega)
  have hg' : u.greedy fuel (List.replicate c._numCPUs 1)
      (c._associativity - c._numCPUs) = some g := hg
  have hgb : ∀ a ∈ g.1, a + g.2 < UINT32_MOD := by
    intro a ha
    obtain ⟨i, hi⟩ := List.mem_iff_getElem?.1 ha
    have := (hga.bound hnu hi).2.2
    omega
  obtain ⟨res, hres, hrl, hrs, hrf⟩ : ∃ res,
      (if g.2 > 0 then u.roundRobin g.2 g.1 0 else some g.1) = some res ∧
      res.length = u._numCPUs ∧ res.sum = g.1.sum + g.2 ∧
      ∀ j, j < u._numCPUs → res[j]? = (g.1[j]?).map (fun a =>
        a + (List.range g.2).countP (fun k => decide (k % u._numCPUs = j))) := by
    by_cases hpos : g.2 > 0
    · rw [if_pos hpos]
      obtain ⟨res, r1, r2, r3, r4⟩ := u.roundRobin_spec (by omega)
        (by rw [hM] at hA32 ⊢; omega) g.2 g.1 0 hga.1 (by omega) hgb
      refine ⟨res, r1, r2, r3, ?_⟩
      intro j hj
      rw [r4 j hj]
      congr 1
      funext a
      congr 1
      apply List.countP_congr
      intro k _
      rw [Nat.zero_add]
    · rw [if_neg hpos]
      have h0 : g.2 = 0 := by omega
      refine ⟨g.1, rfl, hga.1, by omega, ?_⟩
      intro j _
      rw [h0]
      cases g.1[j]? <;> rfl
  obtain ⟨c1, hc1, htar, -, -⟩ := u.setTargets_spec hsu res hrl
  have hrun : c.RepartitionCache fuel = some c1 := by
    unfold CmpUCP.RepartitionCache
    rw [hu, Option.some_bind]
    have e : (u._associativity + UINT32_MOD - u._numCPUs % UINT32_MOD) % UINT32_MOD =
        c._associativity - c._numCPUs := by
      rw [un, uA]
      rw [hM] at hA32 ⊢
      omega
    rw [e, un, hg', Option.some_bind, hres, Option.some_bind, hc1]
  refine ⟨u, g, c1, hu, uh, hg', hrun, by rw [htar, hrl, un], ?_, ?_, hgr, hgs, ?_, ?_⟩
  · intro t ht
    rw [htar] at ht
    obtain ⟨j, hj⟩ := List.mem_iff_getElem?.1 ht
    have hjl : j < u._numCPUs := by
      rcases Nat.lt_or_ge j res.length with hlt | hge
      · omega
      · rw [List.getElem?_eq_none hge] at hj
        cases hj
    have h1 := hrf j hjl
    rw [hj] at h1
    rcases hgj : g.1[j]? with _ | a
    · rw [hgj] at h1
      cases h1
    · rw [hgj] at h1
      simp only [Option.map_some', Option.some.injEq] at h1
      have := hga.2.1 a (List.mem_iff_getElem?.2 ⟨_, hgj⟩)
      omega
  · rw [htar, hrs, hga.2.2, uA]
  · intro s hreach
    have ha := CmpUCP.Alloc.reachable hsu hA32u hnu hinit hreach
    refine ⟨ha, ?_⟩
    intro cpu a hget
    obtain ⟨b1, b2, b3⟩ := ha.bound hnu hget
    exact ⟨by omega, by omega, u.MaxMarginalUtility_spec hsu hA32u cpu a s.2 b1 b3⟩
  · intro j hj
    rw [htar, hrf j (by omega), un]

/-- Witness for C33: 8 ways shared by 2 CPUs, CPU 0 gains from one more way and CPU 1
from each of the others: the targets are 2 and 6. -/
theorem C33_ucp_repartition_witness :
    CmpUCP.twoApps.Shaped ∧
    (CmpUCP.twoApps.RepartitionCache 8).map (fun c => c._target) = some [2, 6] ∧
    ∃ c1, CmpUCP.twoApps.RepartitionCache 8 = some c1 ∧ c1._target.length = 2 ∧
      (∀ t ∈ c1._target, 1 ≤ t) ∧ c1._target.sum = 8 := by
  have hs : CmpUCP.twoApps.Shaped := ⟨rfl, by decide, rfl, by decide, rfl⟩
  obtain ⟨_, _, c1, _, _, _, h1, h2, h3, h4, _⟩ := C33_ucp_repartition CmpUCP.twoApps 8 hs
    (by decide) (by decide) (by decide) (by decide)
  exact ⟨hs, by rfl, c1, h1, h2, h3, h4⟩

/-! ## CmpARC: the list invariants -/

namespace CmpARC

theorem ids_nil : ids [] = 0 := rfl

namespace ARCList

end ARCList

end CmpARC
namespace CmpARC

theorem to_uint32_small (i : Int) (h1 : 0 ≤ i) (h2 : i < 4294967296) :
    to_uint32 i = i.toNat := by
  unfold to_uint32
  omega

namespace ARCList

end ARCList

end CmpARC
namespace CmpARC

namespace ARCList

end ARCList

end CmpARC
namespace CmpARC

end CmpARC
namespace CmpARC

namespace ARCList

end ARCList

end CmpARC
namespace CmpARC

namespace ARCList

theorem tag_of_find {l : List TagEntry} {ctag : Nat} {e : TagEntry}
    (h : l.find? (fun e => decide (e.tag = ctag)) = some e) : e.tag = ctag := by
  have := List.find?_some h
  simpa using this

end ARCList

end CmpARC
namespace CmpARC

namespace ARCList

end ARCList

end CmpARC
namespace CmpARC

end CmpARC

namespace CmpARC

namespace ARCList

end ARCList

end CmpARC
namespace CmpARC

namespace ARCList

end ARCList

end CmpARC
namespace CmpARC

end CmpARC
namespace CmpARC

end CmpARC
end Memsim
